import Mathlib

/-!
# Implicitly dealiased convolutions (fftwpp): a shallow embedding

The development follows `src/convolution.cc` and `src/mpi/cconv2.cc`.

Modelling conventions.

* `Complex` (a pair of doubles) is the mathematical `ℂ`: every claim checked here is a
  statement of exact arithmetic.
* A `Complex *` is an address (a natural number) into a flat memory `Mem = ℕ → ℂ`;
  `p + k` is pointer arithmetic, so aliasing and overlap of buffers are visible.
* A `Complex **` (array of pointers) is a function `ℕ → ℕ` from slot to address.
* `unsigned int` is `ℕ`; every index computed by the code embedded here is bounded by
  `m + s`, which is taken to be below `2^32`.
* `PARALLEL(...)` wraps an OpenMP `parallel for` whose iterations are independent; it is
  embedded as the sequential loop it annotates, and the `threads` argument is dropped.
-/

namespace fftwpp

set_option linter.unusedVariables false

/-! ## Memory and loops -/

/-- Flat memory of complex cells. -/
abbrev Mem := Nat → ℂ

/-- An array of pointers (`Complex **`): slot number to address. -/
abbrev Ptrs := Nat → Nat

/-- The signature `multiplier(Complex **, unsigned int m, unsigned int threads)`. -/
abbrev multiplier := Ptrs → Nat → Mem → Mem

/-- The store `*p = v` (in the vectorised branches, `STORE(p,v)`). -/
def STORE (mem : Mem) (p : Nat) (v : ℂ) : Mem := Function.update mem p v

/-- The loop `for(unsigned int j=0; j < n; ++j) body(j)` on a state. -/
def forUpTo {σ : Type} (body : Nat → σ → σ) : Nat → σ → σ
  | 0, st => st
  | n + 1, st => body n (forUpTo body n st)

/-- A pointer array written out as a list of addresses; slots past the end are `0`. -/
def ptrs (l : List Nat) : Ptrs := fun i => l.getD i 0

/-! ## Pointwise multiplier kernels (`convolution.cc`, lines 1237-1500)

Each kernel has an SSE2 branch and a scalar branch; the scalar (`#else`) branch is
embedded. The SSE2 branch performs the same complex products through `ZMULT`. -/

/-- `multbinary(Complex **F, m, threads)`: `F0[j] *= F1[j]`. -/
def multbinary : multiplier := fun F m mem =>
  let F0 := F 0
  let F1 := F 1
  forUpTo (fun j μ => STORE μ (F0 + j) (μ (F0 + j) * μ (F1 + j))) m mem

/-- `mult_autoconvolution(Complex **F, m, threads)`: `F0[j] *= F0[j]`. -/
def mult_autoconvolution : multiplier := fun F m mem =>
  let F0 := F 0
  forUpTo (fun j μ => STORE μ (F0 + j) (μ (F0 + j) * μ (F0 + j))) m mem

/-- `multbinary2(Complex **F, m, threads)`: `F0[j]=F0[j]*F2[j] + F1[j]*F3[j]`. -/
def multbinary2 : multiplier := fun F m mem =>
  let F0 := F 0
  let F1 := F 1
  let F2 := F 2
  let F3 := F 3
  forUpTo (fun j μ => STORE μ (F0 + j)
    (μ (F0 + j) * μ (F2 + j) + μ (F1 + j) * μ (F3 + j))) m mem

/-- `multbinary3(Complex **F, m, threads)`:
`F0[j]=F0[j]*F1[j]+F2[j]*F3[j]+F4[j]*F5[j]`. -/
def multbinary3 : multiplier := fun F m mem =>
  let F0 := F 0
  let F1 := F 1
  let F2 := F 2
  let F3 := F 3
  let F4 := F 4
  let F5 := F 5
  forUpTo (fun j μ => STORE μ (F0 + j)
    (μ (F0 + j) * μ (F1 + j) + μ (F2 + j) * μ (F3 + j) + μ (F4 + j) * μ (F5 + j))) m mem

/-- `multbinary4(Complex **F, m, threads)`:
`F0[j]=F0[j]*F1[j]+F2[j]*F3[j]+F4[j]*F5[j]+F6[j]*F7[j]`. -/
def multbinary4 : multiplier := fun F m mem =>
  let F0 := F 0
  let F1 := F 1
  let F2 := F 2
  let F3 := F 3
  let F4 := F 4
  let F5 := F 5
  let F6 := F 6
  let F7 := F 7
  forUpTo (fun j μ => STORE μ (F0 + j)
    (μ (F0 + j) * μ (F1 + j) + μ (F2 + j) * μ (F3 + j) + μ (F4 + j) * μ (F5 + j)
      + μ (F6 + j) * μ (F7 + j))) m mem

/-- `multbinary8(Complex **F, m, threads)`: eight products `F[2i][j]*F[2i+1][j]`,
added from left to right into `F0[j]`. -/
def multbinary8 : multiplier := fun F m mem =>
  let F0 := F 0
  let F1 := F 1
  let F2 := F 2
  let F3 := F 3
  let F4 := F 4
  let F5 := F 5
  let F6 := F 6
  let F7 := F 7
  let F8 := F 8
  let F9 := F 9
  let F10 := F 10
  let F11 := F 11
  let F12 := F 12
  let F13 := F 13
  let F14 := F 14
  let F15 := F 15
  forUpTo (fun j μ => STORE μ (F0 + j)
    (μ (F0 + j) * μ (F1 + j) + μ (F2 + j) * μ (F3 + j) + μ (F4 + j) * μ (F5 + j)
      + μ (F6 + j) * μ (F7 + j) + μ (F8 + j) * μ (F9 + j) + μ (F10 + j) * μ (F11 + j)
      + μ (F12 + j) * μ (F13 + j) + μ (F14 + j) * μ (F15 + j))) m mem

/-! ## The 2D driver's choice of multiplier (`mpi/cconv2.cc`, lines 143-163) -/

/-- The `switch(M)` of `main`: the multiplier for `M` terms; the `default` case prints
"not yet implemented" and exits, which is `none`. -/
def driverMult (M : Nat) : Option multiplier :=
  match M with
  | 1 => some multbinary
  | 2 => some multbinary2
  | 3 => some multbinary3
  | 4 => some multbinary4
  | 8 => some multbinary8
  | _ => none

/-- The pointer layout of `main`: for `s < M`, `F[2*s]=f+s*stride` and
`F[2*s+1]=g+s*stride`. Slots the loop does not write keep `F0`. -/
def driverLayout (f g stride M : Nat) (F0 : Ptrs) : Ptrs :=
  forUpTo (fun s F =>
    let sstride := s * stride
    Function.update (Function.update F (2 * s) (f + sstride)) (2 * s + 1) (g + sstride)) M F0

/-! ## The zeta table (`convolution.cc`, lines 19-46) -/

/-- The two tables and the block size that `BuildZeta` hands back through `ZetaH`, `ZetaL`
and its return value. -/
structure ZetaTable where
  ZetaH : List ℂ
  ZetaL : List ℂ
  s : Nat

/-- `BuildZeta(n, m, ZetaH, ZetaL, threads)`. The cast `(int) sqrt((double) m)` is the integer
square root (for `m < 2^32` the correctly rounded double square root truncates to it);
`cos` and `sin` are the real functions and `M_PI` is `π`. For `m = 0` the C code divides
by zero; the embedding then returns empty tables. -/
noncomputable def BuildZeta (n m : Nat) : ZetaTable :=
  let s := Nat.sqrt m
  let t := m / s
  let t := if s * t < m then t + 1 else t
  let twopi : ℝ := 2 * Real.pi
  let arg : ℝ := twopi / n
  { ZetaH := (List.range t).map fun (a : Nat) =>
      let theta : ℝ := ((s * a : Nat) : ℝ) * arg
      (⟨Real.cos theta, Real.sin theta⟩ : ℂ)
    ZetaL := (List.range s).map fun (b : Nat) =>
      let theta : ℝ := (b : ℝ) * arg
      (⟨Real.cos theta, Real.sin theta⟩ : ℂ)
    s := s }

/-- The read `T[i]` of a table (`LOAD(T+i)`); a read past the end yields `0`. -/
def tab (T : List ℂ) (i : Nat) : ℂ := T.getD i 0

/-! ## Vector helpers

The vectorised code works on `Vec`, a pair of doubles, through helpers that are declared in
a header outside `src/`. `convolution.cc` itself fixes `sse2_pm`, the mask whose only set
bit is the sign of the high lane. -/

/-- Modelled from the spec: the type `Vec` of the portable complex-vector abstraction
(declared in the header): two lanes, the low one `re` and the high one `im`; a loaded
`Complex` has its real part in the low lane. -/
abbrev Vec := ℂ

/-- Modelled from the spec: `LOAD(const Complex *p)`, the load of the abstraction. -/
def LOAD (mem : Mem) (p : Nat) : Vec := mem p

/-- Modelled from the spec: `LOAD(double x)`, the load of one double into both lanes. -/
def LOADd (x : ℝ) : Vec := ⟨x, x⟩

/-- Modelled from the spec: `Vec * Vec` of the abstraction, the lane-wise product. -/
def vmul (a b : Vec) : Vec := ⟨a.re * b.re, a.im * b.im⟩

/-- Modelled from the spec: the shuffle `UNPACKL(z,w)` declared in the header, the low
lanes of `z` and `w`. -/
def UNPACKL (z w : Vec) : Vec := ⟨z.re, w.re⟩

/-- Modelled from the spec: the shuffle `UNPACKH(z,w)` declared in the header, the high
lanes of `z` and `w`. -/
def UNPACKH (z w : Vec) : Vec := ⟨z.im, w.im⟩

/-- Modelled from the spec: the conjugate `CONJ(z)` declared in the header, which flips
the sign bit selected by `sse2_pm` (the high lane). -/
def CONJ (z : Vec) : Vec := ⟨z.re, -z.im⟩

/-- Modelled from the spec: the shuffle `FLIP(z)` declared in the header, the two lanes
swapped. -/
def FLIP (z : Vec) : Vec := ⟨z.im, z.re⟩

/-- Modelled from the spec: `ZMULT(z,w)` declared in the header, the complex product
`(ac-bd, ad+bc)` of `z` and `w`. -/
def ZMULT (z w : Vec) : Vec := vmul w (UNPACKL z z) + vmul (UNPACKH (CONJ z) z) (FLIP w)

/-- Modelled from the spec: `ZMULTC(z,w)` declared in the header, the conjugate variant:
the complex product of `conj(z)` and `w`. -/
def ZMULTC (z w : Vec) : Vec := vmul w (UNPACKL z z) - vmul (UNPACKH (CONJ z) z) (FLIP w)

/-- Modelled from the spec: the three-argument `ZMULT(x,y,w)` declared in the header: the
complex product of `z` and `w` from the precomputed `x=(z.re,z.re)` and `y=(-z.im,z.im)`. -/
def ZMULT3 (x y w : Vec) : Vec := vmul x w + vmul y (FLIP w)

/-! ## Loops of the engine -/

/-- The loop `for(unsigned int i=lo; i < hi; ++i) body(i)`. -/
def forRange {σ : Type} (lo hi : Nat) (body : Nat → σ → σ) (st : σ) : σ :=
  forUpTo (fun i => body (lo + i)) (hi - lo) st

/-- The loop `for(unsigned int i=n; i-- > 0;) body(i)`, from `n-1` down to `0`. -/
def forDownFrom {σ : Type} (body : Nat → σ → σ) : Nat → σ → σ
  | 0, st => st
  | n + 1, st => forDownFrom body n (body n st)

/-- The loop `for(unsigned int i=0; i < n; ++i) body(i)` for a body that may fail to
return. -/
def forUpToM {σ : Type} (body : Nat → σ → Option σ) : Nat → σ → Option σ
  | 0, st => some st
  | n + 1, st => (forUpToM body n st).bind (body n)

/-- The loop `for(unsigned int K=0; K < m; K += s) body(K)` from the current `K`, cut off
after `fuel` rounds: `none` when the loop is still running then (for `s = 0 < m` it never
ends). -/
def forBlocks {σ : Type} (m s : Nat) (body : Nat → σ → σ) : Nat → Nat → σ → Option σ
  | 0, K, st => if K < m then none else some st
  | fuel + 1, K, st => if K < m then forBlocks m s body fuel (K + s) (body K st) else some st

/-! ## The transform capability -/

/-- The first `m` values of a sequence, continued by zeros. -/
def restr (m : Nat) (x : Nat → ℂ) : Nat → ℂ := fun k => if k < m then x k else 0

/-- The buffer `p[0..m)` read as a sequence (zero from index `m` on). -/
def arr (m : Nat) (mem : Mem) (p : Nat) : Nat → ℂ := restr m (fun k => mem (p + k))

/-- Modelled from the spec: a transform plan of the external FFT capability (`fft1d`, not
under `src/`), as the function from the input values to the output values of the
unnormalised transform it executes. -/
abbrev Transform := (Nat → ℂ) → Nat → ℂ

/-- Modelled from the spec: `plan->fft(in,out)` for a plan of length `m` (`fft(in)` is
`fft(in,in)`): reads `in[0..m)`, writes the transform to `out[0..m)` and nothing else. -/
def fft (T : Transform) (m inp out : Nat) (mem : Mem) : Mem :=
  fun a => if out ≤ a ∧ a < out + m then T (arr m mem inp) (a - out) else mem a

/-- Modelled from the spec: the exact unnormalised discrete Fourier transform of length `m`
with sign `sign` in the exponent, `out[k] = sum over j < m of in[j] * e^(sign*2πijk/m)`. -/
noncomputable def dft (sign : ℤ) (m : Nat) : Transform := fun x k =>
  ∑ j in Finset.range m,
    x j * Complex.exp ((sign : ℂ) * (2 * Real.pi * Complex.I * (j : ℂ) * (k : ℂ) / (m : ℂ)))

/-! ## `ImplicitConvolution` (`convolution.cc`, lines 48-211) -/

/-- The members of `class ImplicitConvolution` (declared in the header) that `convolve`,
`premult` and `postmultadd` use. -/
structure ImplicitConvolution where
  m : Nat
  s : Nat
  A : Nat
  B : Nat
  U : Ptrs
  ZetaH : List ℂ
  ZetaL : List ℂ
  out_of_place : Bool
  Backwards : Transform
  Forwards : Transform
  BackwardsO : Transform
  ForwardsO : Transform

/-- Modelled from the spec: the constructor of `ImplicitConvolution` (in the header, not
under `src/`): `s` and the tables come from `BuildZeta(2m, m)`, `out_of_place` is true when
`A ≥ 2B`, and the in-place and out-of-place plans execute the given backward and forward
transforms. -/
noncomputable def ImplicitConvolution.init (m A B : Nat) (U : Ptrs)
    (backward forward : Transform) : ImplicitConvolution :=
  { m := m
    s := (BuildZeta (2 * m) m).s
    A := A
    B := B
    U := U
    ZetaH := (BuildZeta (2 * m) m).ZetaH
    ZetaL := (BuildZeta (2 * m) m).ZetaL
    out_of_place := decide (2 * B ≤ A)
    Backwards := backward
    Forwards := forward
    BackwardsO := backward
    ForwardsO := forward }

/-- The phase factor `ZetaH[k/s]*ZetaL[k%s]` that the blocked loops rebuild for index `k`. -/
def ImplicitConvolution.zetak (E : ImplicitConvolution) (k : Nat) : ℂ :=
  tab E.ZetaH (k / E.s) * tab E.ZetaL (k % E.s)

/-- The generic `premult<T>(F,k,Zetak)`: `for i < A: STORE(F[i]+k, ZMULT(Zetak,LOAD(F[i]+k)))`. -/
def premult_general (A : Nat) (F : Ptrs) (k : Nat) (Zetak : Vec) (mem : Mem) : Mem :=
  forUpTo (fun i μ =>
    let fki := F i + k
    STORE μ fki (ZMULT Zetak (LOAD μ fki))) A mem

/-- The specialisation `premult<premult1>(F,k,Zetak)`. -/
def premult1 (F : Ptrs) (k : Nat) (Zetak : Vec) (mem : Mem) : Mem :=
  let fk0 := F 0 + k
  let Fk0 := LOAD mem fk0
  STORE mem fk0 (ZMULT Zetak Fk0)

/-- The specialisation `premult<premult2>(F,k,Zetak)`: both loads, then both stores. -/
def premult2 (F : Ptrs) (k : Nat) (Zetak : Vec) (mem : Mem) : Mem :=
  let fk0 := F 0 + k
  let fk1 := F 1 + k
  let Fk0 := LOAD mem fk0
  let Fk1 := LOAD mem fk1
  let mem := STORE mem fk0 (ZMULT Zetak Fk0)
  STORE mem fk1 (ZMULT Zetak Fk1)

/-- The specialisation `premult<premult3>(F,k,Zetak)`. -/
def premult3 (F : Ptrs) (k : Nat) (Zetak : Vec) (mem : Mem) : Mem :=
  let fk0 := F 0 + k
  let fk1 := F 1 + k
  let fk2 := F 2 + k
  let Fk0 := LOAD mem fk0
  let Fk1 := LOAD mem fk1
  let Fk2 := LOAD mem fk2
  let mem := STORE mem fk0 (ZMULT Zetak Fk0)
  let mem := STORE mem fk1 (ZMULT Zetak Fk1)
  STORE mem fk2 (ZMULT Zetak Fk2)

/-- The specialisation `premult<premult4>(F,k,Zetak)`. -/
def premult4 (F : Ptrs) (k : Nat) (Zetak : Vec) (mem : Mem) : Mem :=
  let fk0 := F 0 + k
  let fk1 := F 1 + k
  let fk2 := F 2 + k
  let fk3 := F 3 + k
  let Fk0 := LOAD mem fk0
  let Fk1 := LOAD mem fk1
  let Fk2 := LOAD mem fk2
  let Fk3 := LOAD mem fk3
  let mem := STORE mem fk0 (ZMULT Zetak Fk0)
  let mem := STORE mem fk1 (ZMULT Zetak Fk1)
  let mem := STORE mem fk2 (ZMULT Zetak Fk2)
  STORE mem fk3 (ZMULT Zetak Fk3)

/-- `ImplicitConvolution::premult<T>(Complex **F)`; `inner` is `premult<T>(F,k,Zetak)`. -/
def ImplicitConvolution.premult (E : ImplicitConvolution)
    (inner : Ptrs → Nat → Vec → Mem → Mem) (F : Ptrs) (mem : Mem) : Option Mem :=
  forBlocks E.m E.s (fun K μ =>
    let stop := min (K + E.s) E.m
    let Zeta := tab E.ZetaH (K / E.s)
    let X := UNPACKL Zeta Zeta
    let Y := UNPACKH (CONJ Zeta) Zeta
    forRange K stop (fun k μ =>
      let Zetak := ZMULT3 X Y (tab E.ZetaL (k - K))
      inner F k Zetak μ) μ) E.m 0 mem

/-- `ImplicitConvolution::postmultadd(Complex *f, Complex *u)`. -/
noncomputable def ImplicitConvolution.postmultadd (E : ImplicitConvolution) (f u : Nat)
    (mem : Mem) : Option Mem :=
  let ninv : ℝ := 0.5 / (E.m : ℝ)
  let Ninv := LOADd ninv
  forBlocks E.m E.s (fun K μ =>
    let stop := min (K + E.s) E.m
    let Zeta := vmul Ninv (tab E.ZetaH (K / E.s))
    let X := UNPACKL Zeta Zeta
    let Y := UNPACKH (CONJ Zeta) Zeta
    forRange K stop (fun k μ =>
      let Zetak := ZMULT3 X Y (tab E.ZetaL (k - K))
      let fki := f + k
      STORE μ fki (ZMULTC Zetak (LOAD μ fki) + vmul Ninv (LOAD μ (u + k)))) μ) E.m 0 mem

/-- The `switch(A)` of `convolve` that picks the `premult` specialisation. -/
def ImplicitConvolution.premultA (E : ImplicitConvolution) (P : Ptrs) (mem : Mem) :
    Option Mem :=
  match E.A with
  | 1 => E.premult premult1 P mem
  | 2 => E.premult premult2 P mem
  | 3 => E.premult premult3 P mem
  | 4 => E.premult premult4 P mem
  | _ => E.premult (premult_general E.A) P mem

/-- `ImplicitConvolution::convolve(Complex **F, multiplier *pmult, unsigned int offset)`.
`P0` is the indeterminate initial content of the local array `P[C]`; the result is `none`
when a blocked loop does not come to an end. -/
noncomputable def ImplicitConvolution.convolve (E : ImplicitConvolution) (F : Ptrs)
    (pmult : multiplier) (offset : Nat) (P0 : Ptrs) (mem : Mem) : Option Mem :=
  let P : Ptrs := forUpTo (fun i P => Function.update P i (F i + offset)) E.A P0
  -- Backwards FFT (even indices):
  let mem := forUpTo (fun i μ => fft E.BackwardsO E.m (P i) (E.U i) μ) E.A mem
  let mem := pmult E.U E.m mem
  (E.premultA P mem).bind fun mem =>
  if E.out_of_place then
    let W : Ptrs := Function.update (fun _ => 0) (E.A - 1) (E.U (E.A - 1))
    let W : Ptrs := forRange 1 E.A (fun i W => Function.update W (i - 1) (P i)) W
    let mem := forDownFrom (fun i μ => fft E.BackwardsO E.m (P i) (W i) μ) E.A mem
    let mem := pmult W E.m mem
    -- Return to original space
    let lastW := W (E.A - 1)
    forUpToM (fun i μ =>
      let Pi := P i
      let μ := fft E.ForwardsO E.m (W i) Pi μ
      let μ := fft E.ForwardsO E.m (E.U i) lastW μ
      E.postmultadd Pi lastW μ) E.B mem
  else
    -- Backwards FFT (odd indices):
    let mem := forUpTo (fun i μ => fft E.Backwards E.m (P i) (P i) μ) E.A mem
    let mem := pmult P E.m mem
    -- Return to original space:
    forUpToM (fun i μ =>
      let fi := P i
      let ui := E.U i
      let μ := fft E.Forwards E.m fi fi μ
      let μ := fft E.Forwards E.m ui ui μ
      E.postmultadd fi ui μ) E.B mem

/-- The value at index `k` that `convolve` recombines from its two branches for inputs
`x`, `y` and a multiplier that forms their pointwise product (an abbreviation for the
statements below): `conj(ninv*zeta_k) * fwdO(bwdO(zeta x) * bwdO(zeta y))[k]
+ ninv * fwdE(bwdE(x) * bwdE(y))[k]` with `ninv = 0.5/m`. -/
noncomputable def ImplicitConvolution.recombined (E : ImplicitConvolution)
    (bwdE bwdO fwdE fwdO : Transform) (x y : Nat → ℂ) (k : Nat) : ℂ :=
  (starRingEnd ℂ) (((0.5 / (E.m : ℝ) : ℝ) : ℂ) * E.zetak k)
      * restr E.m (fwdO (fun t =>
          restr E.m (bwdO (fun j => E.zetak j * x j)) t
            * restr E.m (bwdO (fun j => E.zetak j * y j)) t)) k
    + ((0.5 / (E.m : ℝ) : ℝ) : ℂ)
      * restr E.m (fwdE (fun t => restr E.m (bwdE x) t * restr E.m (bwdE y) t)) k

/-- Two buffers of `m` cells at `p` and `q` do not overlap. -/
def NoOverlap (p q m : Nat) : Prop := p + m ≤ q ∨ q + m ≤ p

instance (p q m : Nat) : Decidable (NoOverlap p q m) := by
  unfold NoOverlap
  infer_instance

/-! ## `ImplicitHConvolution` (`convolution.cc`, lines 213-600)

A `double *` obtained by casting a `Complex *q` is kept as the address `q`: its double of
index `j` is the real part (`j` even) or the imaginary part (`j` odd) of the cell `q + j/2`.
The arrays `c1c`, `S` and `T` are fresh allocations or locals of `convolve`; they are kept
apart from the flat memory, as sequences. -/

/-- The signature `realmultiplier(double **, unsigned int m, unsigned int threads)`. -/
abbrev realmultiplier := Ptrs → Nat → Mem → Mem

/-- The double `((double *) q)[j]`. -/
def loadD (mem : Mem) (q j : Nat) : ℝ :=
  if j % 2 = 0 then (mem (q + j / 2)).re else (mem (q + j / 2)).im

/-- The store `((double *) q)[j] = v`; the other half of the cell is kept. -/
def storeD (mem : Mem) (q j : Nat) (v : ℝ) : Mem :=
  Function.update mem (q + j / 2)
    (if j % 2 = 0 then ⟨v, (mem (q + j / 2)).im⟩ else ⟨(mem (q + j / 2)).re, v⟩)

/-- The doubles `((double *) q)[0..m)` read as a sequence (zero from index `m` on). -/
def arrD (m : Nat) (mem : Mem) (q : Nat) : Nat → ℝ :=
  fun j => if j < m then loadD mem q j else 0

/-- `multbinary(double **F, m, threads)`, scalar branch: `F0[j] *= F1[j]` on doubles. -/
def multbinary_double : realmultiplier := fun F m mem =>
  let F0 := F 0
  let F1 := F 1
  forUpTo (fun j μ => storeD μ F0 j (loadD μ F0 j * loadD μ F1 j)) m mem

/-- Modelled from the spec: a complex-to-real plan of the external FFT capability
(`crfft1d`, not under `src/`), as the function from the `m/2+1` complex inputs to the `m`
real outputs. -/
abbrev TransformCR := (Nat → ℂ) → Nat → ℝ

/-- Modelled from the spec: a real-to-complex plan of the external FFT capability
(`rcfft1d`, not under `src/`), as the function from the `m` real inputs to the `m/2+1`
complex outputs. -/
abbrev TransformRC := (Nat → ℝ) → Nat → ℂ

/-- Modelled from the spec: `plan->fft(Complex *in, double *out)` for a complex-to-real
plan of real length `m` (`fft(in)` is `fft(in,(double *) in)`): reads `in[0..m/2]`, writes
the `m` doubles of `out` and nothing else. -/
def fftCR (T : TransformCR) (m inp out : Nat) (mem : Mem) : Mem :=
  fun a => if out ≤ a ∧ 2 * (a - out) < m then
      ⟨T (arr (m / 2 + 1) mem inp) (2 * (a - out)),
        if 2 * (a - out) + 1 < m then T (arr (m / 2 + 1) mem inp) (2 * (a - out) + 1)
        else (mem a).im⟩
    else mem a

/-- Modelled from the spec: `plan->fft(double *in, Complex *out)` for a real-to-complex plan
of real length `m` (`fft(in)` is `fft((double *) in,in)`): reads the `m` doubles of `in`,
writes `out[0..m/2]` and nothing else. -/
def fftRC (T : TransformRC) (m inp out : Nat) (mem : Mem) : Mem :=
  fun a => if out ≤ a ∧ a < out + (m / 2 + 1) then T (arrD m mem inp) (a - out) else mem a

/-- Modelled from the spec: the exact unnormalised complex-to-real discrete Fourier
transform of real length `m`: `out[l]` is the real part of the sum over `k < m` of
`X[k] * e^(2πilk/m)`, where `X[k] = conj(in[m-k])` for `k > m/2` (the imaginary parts of the
zero mode and of the mode `m/2` of an even `m` do not contribute). -/
noncomputable def crdft (m : Nat) : TransformCR := fun X l =>
  (∑ k in Finset.range m,
    (if 2 * k ≤ m then X k else (starRingEnd ℂ) (X (m - k)))
      * Complex.exp (2 * Real.pi * Complex.I * (l : ℂ) * (k : ℂ) / (m : ℂ))).re

/-- Modelled from the spec: the exact unnormalised real-to-complex discrete Fourier
transform of real length `m`: `out[k]` is the sum over `l < m` of `in[l] * e^(-2πilk/m)`. -/
noncomputable def rcdft (m : Nat) : TransformRC := fun x k =>
  ∑ l in Finset.range m,
    (x l : ℂ) * Complex.exp (-(2 * Real.pi * Complex.I * (l : ℂ) * (k : ℂ) / (m : ℂ)))

/-- Modelled from the spec: `ZMULTI(z,w)` declared in the header, the complex product of
`z` and `i*w`. -/
def ZMULTI (z w : Vec) : Vec := ⟨-(z.re * w.im) - z.im * w.re, z.re * w.re - z.im * w.im⟩

/-- Modelled from the spec: `ZMULTIC(z,w)` declared in the header, the conjugate variant:
the complex product of `conj(z)` and `i*w`. -/
def ZMULTIC (z w : Vec) : Vec := ⟨z.im * w.re - z.re * w.im, z.re * w.re + z.im * w.im⟩

/-- The constant `sqrt3=sqrt(3.0)`. -/
noncomputable def sqrt3 : ℝ := Real.sqrt 3

/-- The constant `hsqrt3=0.5*sqrt3`. -/
noncomputable def hsqrt3 : ℝ := 0.5 * sqrt3

/-- The members of `class ImplicitHConvolution` (declared in the header) that `convolve`,
`premult`, `postmultadd` and `postmultadd0` use. -/
structure ImplicitHConvolution where
  m : Nat
  c : Nat
  s : Nat
  A : Nat
  B : Nat
  U : Ptrs
  ZetaH : List ℂ
  ZetaL : List ℂ
  cr : TransformCR
  cro : TransformCR
  rc : TransformRC
  rco : TransformRC

/-- Modelled from the spec: the constructor of `ImplicitHConvolution` (in the header, not
under `src/`): `c = floor(m/2)`, the zeta table is the one of `BuildZeta(3m, c+2)` (the
largest index looked up is `c+1`), and the in-place and out-of-place plans execute the
given complex-to-real and real-to-complex transforms. -/
noncomputable def ImplicitHConvolution.init (m A B : Nat) (U : Ptrs)
    (cr : TransformCR) (rc : TransformRC) : ImplicitHConvolution :=
  { m := m
    c := m / 2
    s := (BuildZeta (3 * m) (m / 2 + 2)).s
    A := A
    B := B
    U := U
    ZetaH := (BuildZeta (3 * m) (m / 2 + 2)).ZetaH
    ZetaL := (BuildZeta (3 * m) (m / 2 + 2)).ZetaL
    cr := cr
    cro := cr
    rc := rc
    rco := rc }

/-- One round of the innermost loop of `ImplicitHConvolution::premult` for the input at `fi`
with scratch `ui`: the four loads, then the six stores. -/
noncomputable def ImplicitHConvolution.premult_step (E : ImplicitHConvolution) (fi ui k : Nat)
    (zetak Zetac1 : Vec) (mem : Mem) : Mem :=
  let Mhalf := LOADd (-0.5)
  let HSqrt3 := LOADd hsqrt3
  let c1 := E.c + 1
  let fm := fi + E.m
  let fpc1 := fi + c1
  let fmc1 := fm - c1
  let upc1 := ui + c1
  let Zetak := ZMULTC zetak Zetac1
  let Fa := LOAD mem (fi + k)
  let FA := LOAD mem (fpc1 - k)
  let FB := LOAD mem (fmc1 + k)
  let Fb := LOAD mem (fm - k)
  let B := vmul Fb Mhalf + CONJ Fa
  let mem := STORE mem (fi + k) (Fa + CONJ Fb)
  let Fb := vmul Fb HSqrt3
  let A := ZMULTC zetak (UNPACKL B Fb)
  let B := ZMULTIC zetak (UNPACKH B Fb)
  let D := vmul FB Mhalf + CONJ FA
  let mem := STORE mem (fpc1 - k) (FA + CONJ FB)
  let FB := vmul FB HSqrt3
  let C := ZMULTC Zetak (UNPACKL D FB)
  let D := ZMULTIC Zetak (UNPACKH D FB)
  let mem := STORE mem (ui + k) (A - B)
  let mem := STORE mem (upc1 - k) (C - D)
  let mem := STORE mem (fm - k) (CONJ (C + D))
  STORE mem (fmc1 + k) (CONJ (A + B))

/-- The first `if(even)` block of `ImplicitHConvolution::premult`: the value for `r = 1`,
`k = 1` goes to `f1c[i]`, the two values of the mode `c = m/2` to `S[i]`. The result is the
pair of the arrays `f1c` and `S`. -/
noncomputable def ImplicitHConvolution.premult_even (E : ImplicitHConvolution) (P0 : Ptrs)
    (f1c : Nat → ℂ) (mem : Mem) : (Nat → ℂ) × (Nat → ℂ) :=
  let Mhalf := LOADd (-0.5)
  let HSqrt3 := LOADd hsqrt3
  let m1 := E.m - 1
  let a := 1 / E.s
  let Zeta := tab E.ZetaH a
  let X := UNPACKL Zeta Zeta
  let Y := UNPACKH (CONJ Zeta) Zeta
  let zeta1 := ZMULT3 X Y (tab E.ZetaL (1 - E.s * a))
  forUpTo (fun i (st : (Nat → ℂ) × (Nat → ℂ)) =>
    let fi := P0 i
    let Fa := LOAD mem (fi + 1)
    let Fb := LOAD mem (fi + m1)
    let B := vmul Fb Mhalf + CONJ Fa
    let Fb := vmul Fb HSqrt3
    let A := ZMULTC zeta1 (UNPACKL B Fb)
    let B := ZMULTIC zeta1 (UNPACKH B Fb)
    let a := (mem (fi + E.c)).re
    (Function.update st.1 i (CONJ (A + B)),
      Function.update st.2 i ⟨2.0 * a, a + sqrt3 * (mem (fi + E.c)).im⟩)) E.A
    (f1c, fun _ => 0)

/-- The blocked loop of `ImplicitHConvolution::premult`; `none` when it does not come to an
end. -/
noncomputable def ImplicitHConvolution.premult_loop (E : ImplicitHConvolution) (P0 : Ptrs)
    (mem : Mem) : Option Mem :=
  let c1 := E.c + 1
  let d := c1 / 2
  let a := c1 / E.s
  let Zeta := tab E.ZetaH a
  let X := UNPACKL Zeta Zeta
  let Y := UNPACKH (CONJ Zeta) Zeta
  let Zetac1 := ZMULT3 X Y (tab E.ZetaL (c1 - E.s * a))
  forBlocks (d + 1) E.s (fun K μ =>
    let stop := min (K + E.s) (d + 1)
    let Zeta := tab E.ZetaH (K / E.s)
    let X := UNPACKL Zeta Zeta
    let Y := UNPACKH (CONJ Zeta) Zeta
    forUpTo (fun i μ =>
      let fi := P0 i
      let ui := E.U i
      forRange (max 1 K) stop (fun k μ =>
        let zetak := ZMULT3 X Y (tab E.ZetaL (k - K))
        E.premult_step fi ui k zetak Zetac1 μ) μ) E.A μ) (d + 1) 0 mem

/-- The last `if(even)` block of `ImplicitHConvolution::premult`: `fi[c]=S[i].re`,
`ui[c]=S[i].im`. -/
def ImplicitHConvolution.premult_restore (E : ImplicitHConvolution) (P0 : Ptrs)
    (S : Nat → ℂ) (mem : Mem) : Mem :=
  forUpTo (fun i μ =>
    let fi := P0 i
    let ui := E.U i
    let μ := STORE μ (fi + E.c) (((S i).re : ℝ) : ℂ)
    STORE μ (ui + E.c) (((S i).im : ℝ) : ℂ)) E.A mem

/-- `ImplicitHConvolution::premult(Complex **F, unsigned int offset, Complex *f1c)`; the
result is the memory together with the array `f1c`, or `none` when the blocked loop does not
come to an end. -/
noncomputable def ImplicitHConvolution.premult (E : ImplicitHConvolution) (F : Ptrs)
    (offset : Nat) (f1c : Nat → ℂ) (mem : Mem) : Option (Mem × (Nat → ℂ)) :=
  let P0 : Ptrs := forUpTo (fun i P => Function.update P i (F i + offset)) E.A (fun _ => 0)
  let even := decide (E.m = 2 * E.c)
  let f1cS : (Nat → ℂ) × (Nat → ℂ) :=
    if even then E.premult_even P0 f1c mem else (f1c, fun _ => 0)
  (E.premult_loop P0 mem).map fun mem =>
    (if even then E.premult_restore P0 f1cS.2 mem else mem, f1cS.1)

/-- One round of the innermost loop of the out-of-place `postmultadd`. -/
noncomputable def ImplicitHConvolution.postmultadd_step (E : ImplicitHConvolution)
    (f0 ui c2Bi k : Nat) (Ninv Zetak : Vec) (mem : Mem) : Mem :=
  let Mhalf := LOADd (-0.5)
  let HSqrt3 := LOADd hsqrt3
  let fm := f0 + E.m
  let F0 := vmul (LOAD mem (f0 + k)) Ninv
  let F1 := ZMULTC Zetak (LOAD mem (c2Bi + k))
  let F2 := ZMULT Zetak (LOAD mem (ui + k))
  let S := F1 + F2
  let mem := STORE mem (f0 + k) (F0 + S)
  STORE mem (fm - k) (CONJ (F0 + vmul Mhalf S) - vmul HSqrt3 (FLIP (F1 - F2)))

/-- The out-of-place `ImplicitHConvolution::postmultadd(Complex **c2, Complex **c0,
Complex **c2B)`. -/
noncomputable def ImplicitHConvolution.postmultadd (E : ImplicitHConvolution)
    (c2 c0 c2B : Ptrs) (mem : Mem) : Option Mem :=
  let ninv : ℝ := 1.0 / (3.0 * (E.m : ℝ))
  let Ninv := LOADd ninv
  forBlocks (E.c + 1) E.s (fun K μ =>
    let stop := min (K + E.s) (E.c + 1)
    let Zeta := vmul Ninv (tab E.ZetaH (K / E.s))
    let X := UNPACKL Zeta Zeta
    let Y := UNPACKH (CONJ Zeta) Zeta
    forUpTo (fun i μ =>
      let f0 := c0 i
      let ui := c2 i
      let c2Bi := c2B i
      forRange (max 1 K) stop (fun k μ =>
        let Zetak := ZMULT3 X Y (tab E.ZetaL (k - K))
        E.postmultadd_step f0 ui c2Bi k Ninv Zetak μ) μ) E.B μ) (E.c + 1) 0 mem

/-- `ImplicitHConvolution::postmultadd0(Complex **c2, Complex **c0, Complex *f1c)`, the
recombination of the in-place path. -/
noncomputable def ImplicitHConvolution.postmultadd0 (E : ImplicitHConvolution)
    (c2 c0 : Ptrs) (f1c : Nat → ℂ) (mem : Mem) : Option Mem :=
  let ninv : ℝ := 1.0 / (3.0 * (E.m : ℝ))
  let Ninv := LOADd ninv
  let even := decide (E.m = 2 * E.c)
  let Mhalf := LOADd (-0.5)
  let HSqrt3 := LOADd hsqrt3
  let m1 := E.m - 1
  let c1 := E.c + 1
  let d := c1 / 2
  let a := c1 / E.s
  let Zeta := tab E.ZetaH a
  let X := UNPACKL Zeta Zeta
  let Y := UNPACKH (CONJ Zeta) Zeta
  let Zetac1 := ZMULT3 X Y (tab E.ZetaL (c1 - E.s * a))
  let mem :=
    if even ∧ E.m > 2 then
      let a := 1 / E.s
      let Zeta := tab E.ZetaH a
      let X := UNPACKL Zeta Zeta
      let Y := UNPACKH (CONJ Zeta) Zeta
      let zeta1 := vmul Ninv (ZMULT3 X Y (tab E.ZetaL (1 - E.s * a)))
      let Zeta1 := ZMULTC zeta1 Zetac1
      forUpTo (fun i μ =>
        let f0 := c0 i
        let F0 := vmul (LOAD μ (f0 + 1)) Ninv
        let F1 := ZMULTC zeta1 (f1c i)
        let F2 := ZMULT zeta1 (LOAD μ (c2 i + 1))
        let S := F1 + F2
        let F2 := CONJ (F0 + vmul Mhalf S) - vmul HSqrt3 (FLIP (F1 - F2))
        let μ := STORE μ (f0 + 1) (F0 + S)
        let F0 := vmul (LOAD μ (f0 + E.c)) Ninv
        let F1 := ZMULTC Zeta1 (LOAD μ (f0 + m1))
        let μ := STORE μ (f0 + m1) F2
        let F2 := ZMULT Zeta1 (LOAD μ (c2 i + E.c))
        let S := F1 + F2
        let μ := STORE μ (f0 + E.c) (F0 + S)
        STORE μ (f0 + E.m - E.c) (CONJ (F0 + vmul Mhalf S) - vmul HSqrt3 (FLIP (F1 - F2))))
        E.B mem
    else mem
  let D := E.c - d
  (forBlocks (D + 1) E.s (fun K μ =>
    let stop := min (K + E.s) (D + 1)
    let Zeta := vmul Ninv (tab E.ZetaH (K / E.s))
    let X := UNPACKL Zeta Zeta
    let Y := UNPACKH (CONJ Zeta) Zeta
    forUpTo (fun i μ =>
      let fi := c0 i
      let fm := fi + E.m
      let fpc1 := fi + c1
      let fmc1 := fm - c1
      let ui := c2 i
      let upc1 := ui + c1
      forRange (max ((if even then 1 else 0) + 1) K) stop (fun k μ =>
        let zetak := ZMULT3 X Y (tab E.ZetaL (k - K))
        let Zetak := ZMULTC zetak Zetac1
        let F0 := vmul (LOAD μ (fi + k)) Ninv
        let F1 := ZMULTC zetak (LOAD μ (fmc1 + k))
        let F2 := ZMULT zetak (LOAD μ (c2 i + k))
        let S := F1 + F2
        let F2 := CONJ (F0 + vmul Mhalf S) - vmul HSqrt3 (FLIP (F1 - F2))
        let FA := vmul (LOAD μ (fpc1 - k)) Ninv
        let FB := ZMULTC Zetak (LOAD μ (fm - k))
        let FC := ZMULT Zetak (LOAD μ (upc1 - k))
        let T := FB + FC
        let μ := STORE μ (fi + k) (F0 + S)
        let μ := STORE μ (fpc1 - k) (FA + T)
        let μ := STORE μ (fmc1 + k) (CONJ (FA + vmul Mhalf T) - vmul HSqrt3 (FLIP (FB - FC)))
        STORE μ (fm - k) F2) μ) E.B μ) (D + 1) 0 mem).map fun mem =>
  if d = D + 1 then
    let a := d / E.s
    let Zeta := vmul Ninv (tab E.ZetaH a)
    let X := UNPACKL Zeta Zeta
    let Y := UNPACKH (CONJ Zeta) Zeta
    let Zetak := ZMULT3 X Y (tab E.ZetaL (d - E.s * a))
    if d = 1 ∧ even then
      forUpTo (fun i μ =>
        let f0 := c0 i
        let F0 := vmul (LOAD μ (f0 + d)) Ninv
        let F1 := ZMULTC Zetak (f1c i)
        let F2 := ZMULT Zetak (LOAD μ (c2 i + d))
        let S := F1 + F2
        let μ := STORE μ (f0 + d) (F0 + S)
        STORE μ (f0 + E.m - d) (CONJ (F0 + vmul Mhalf S) - vmul HSqrt3 (FLIP (F1 - F2))))
        E.B mem
    else
      forUpTo (fun i μ =>
        let f0 := c0 i
        let F0 := vmul (LOAD μ (f0 + d)) Ninv
        let F1 := ZMULTC Zetak (LOAD μ (f0 + E.m - d))
        let F2 := ZMULT Zetak (LOAD μ (E.U i + d))
        let S := F1 + F2
        let μ := STORE μ (f0 + d) (F0 + S)
        STORE μ (f0 + E.m - d) (CONJ (F0 + vmul Mhalf S) - vmul HSqrt3 (FLIP (F1 - F2))))
        E.B mem
  else mem

/-- The state of `ImplicitHConvolution::convolve` after its first loop: the pointer arrays
`c0`, `c1`, `c2` and the memory. -/
structure HPointers where
  c0 : Ptrs
  c1 : Ptrs
  c2 : Ptrs
  mem : Mem

/-- The first loop of `ImplicitHConvolution::convolve` (`compact` is `true`): `c0[i]=f`,
`c1[i]=f+start`, `u[0]=f->re`, `c2[i]=U[i]`. -/
def ImplicitHConvolution.convolve_pointers (E : ImplicitHConvolution) (F : Ptrs)
    (offset : Nat) (mem : Mem) : HPointers :=
  let compact := true
  let start := E.m - 1 - E.c
  forUpTo (fun i (st : HPointers) =>
    let f := F i + offset
    let u := E.U i
    { c0 := Function.update st.c0 i f
      c1 := Function.update st.c1 i (f + start)
      c2 := Function.update st.c2 i (E.U i)
      mem := STORE st.mem u
        (if compact then (((st.mem f).re : ℝ) : ℂ)
          else (((st.mem f).re - (st.mem (f + E.m)).re : ℝ) : ℂ)) }) E.A
    { c0 := fun _ => 0, c1 := fun _ => 0, c2 := fun _ => 0, mem := mem }

/-- The pointer array `d0` (`d1`) of `convolve`, from `c0` (`c1`) and `c2`. -/
def ImplicitHConvolution.convolve_outputs (E : ImplicitHConvolution) (out_of_place : Bool)
    (c0 c2 : Ptrs) : Ptrs :=
  if out_of_place then
    Function.update (forUpTo (fun i d => Function.update d i (c0 (i + 1))) (E.A - 1)
      (fun _ => 0)) (E.A - 1) (c2 (E.A - 1))
  else c0

/-- The block `r=2` of `convolve`: the in-place complex-to-real transforms of the `c2[i]`
and the multiplication. -/
def ImplicitHConvolution.convolve_r2 (E : ImplicitHConvolution) (pmult : realmultiplier)
    (c2 : Ptrs) (mem : Mem) : Mem :=
  let mem := forUpTo (fun i μ => fftCR E.cr E.m (c2 i) (c2 i) μ) E.A mem
  pmult c2 E.m mem

/-- The block `r=0` of `convolve` (`compact` is `true`): the array `T`, the complex-to-real
transforms from `c0[i]` to `d0[i]` for `i` from `A-1` down to `0`, and the multiplication.
The result is `T` and the memory. -/
def ImplicitHConvolution.convolve_r0 (E : ImplicitHConvolution) (pmult : realmultiplier)
    (out_of_place : Bool) (c0 d0 : Ptrs) (mem : Mem) : (Nat → ℝ) × Mem :=
  let compact := true
  let Tmem : (Nat → ℝ) × Mem := forDownFrom (fun i (st : (Nat → ℝ) × Mem) =>
    let c0i := c0 i
    let T := Function.update st.1 i (st.2 c0i).re
    let μ := if compact then st.2
      else STORE st.2 c0i ⟨(st.2 c0i).re + 2.0 * (st.2 (c0i + E.m)).re, (st.2 c0i).im⟩
    (T, fftCR (if out_of_place then E.cro else E.cr) E.m c0i (d0 i) μ)) E.A (fun _ => 0, mem)
  (Tmem.1, pmult d0 E.m Tmem.2)

/-- The block `r=1` of `convolve` (`compact` is `true`): `c1i[0]=T[i]`, the exchange of
`c1c[i]` and `c1i[1]` for an even `m`, the complex-to-real transforms from `c1[i]` to `d1[i]`
for `i` from `A-1` down to `0`, and the multiplication. The result is `c1c` and the
memory. -/
def ImplicitHConvolution.convolve_r1 (E : ImplicitHConvolution) (pmult : realmultiplier)
    (out_of_place : Bool) (c1 d1 : Ptrs) (T : Nat → ℝ) (c1c : Nat → ℂ) (mem : Mem) :
    (Nat → ℂ) × Mem :=
  let compact := true
  let even := decide (E.m = 2 * E.c)
  let c1cmem : (Nat → ℂ) × Mem := forDownFrom (fun i (st : (Nat → ℂ) × Mem) =>
    let c1i := c1 i
    let μ := STORE st.2 c1i
      (if compact then ((T i : ℝ) : ℂ) else ((T i - (st.2 (c1i + (E.c + 1))).re : ℝ) : ℂ))
    let st2 : (Nat → ℂ) × Mem :=
      if even then
        let tmp := st.1 i
        (Function.update st.1 i (μ (c1i + 1)), STORE μ (c1i + 1) tmp)
      else (st.1, μ)
    (st2.1, fftCR (if out_of_place then E.cro else E.cr) E.m (c1 i) (d1 i) st2.2)) E.A
    (c1c, mem)
  (c1cmem.1, pmult d1 E.m c1cmem.2)

/-- The loop `Return to original space` of the out-of-place branch of `convolve` (`compact`
is `true`); `d2[i]` is the old `c2[i]` and `c2B[i]` is `c2[B+i]`. The result is the array
`c2` and the memory. -/
noncomputable def ImplicitHConvolution.convolve_return (E : ImplicitHConvolution)
    (c0 c2 d0 d1 : Ptrs) (S : Nat → ℂ) (mem : Mem) : Ptrs × Mem :=
  let compact := true
  let start := E.m - 1 - E.c
  let ninv : ℝ := 1.0 / (3.0 * (E.m : ℝ))
  forUpTo (fun i (st : Ptrs × Mem) =>
    let c0i := c0 i
    let d2i := st.1 i
    let c2new := Function.update st.1 i (c0 (i + E.B))
    let c2i := c2new i
    let c2Bi := c2new (E.B + i)
    let d0i := d0 i
    let d1i := d1 i
    let μ := fftRC E.rco E.m d1i c2Bi st.2
    let μ := STORE μ (d0i + start) (S i)
    let μ := fftRC E.rco E.m d0i c0i μ
    let μ := fftRC E.rco E.m d2i c2i μ
    let μ := if compact then μ else STORE μ (c0i + E.m) 0
    (c2new, STORE μ c0i
      ((((μ c0i).re + (μ c2Bi).re + (μ c2i).re) * ninv : ℝ) : ℂ))) E.B (c2, mem)

/-- The loop `Return to original space` of the in-place branch of `convolve` (`compact` is
`true`). The result is the array `c1c` and the memory. -/
noncomputable def ImplicitHConvolution.convolve_return_inplace (E : ImplicitHConvolution)
    (c0 c1 c2 : Ptrs) (S c1c : Nat → ℂ) (mem : Mem) : (Nat → ℂ) × Mem :=
  let compact := true
  let even := decide (E.m = 2 * E.c)
  let start := E.m - 1 - E.c
  let ninv : ℝ := 1.0 / (3.0 * (E.m : ℝ))
  forUpTo (fun i (st : (Nat → ℂ) × Mem) =>
    let c0i := c0 i
    let c1i := c1 i
    let c2i := c2 i
    let μ := fftRC E.rc E.m c2i c2i st.2
    let μ := fftRC E.rc E.m c1i c1i μ
    let R := (μ c1i).re
    let μ := STORE μ (c0i + start) (S i)
    let st2 : (Nat → ℂ) × Mem :=
      if even then
        let tmp := st.1 i
        (Function.update st.1 i (μ (c1i + 1)), STORE μ (c1i + 1) tmp)
      else (st.1, μ)
    let μ := fftRC E.rc E.m c0i c0i st2.2
    let μ := if compact then μ else STORE μ (c0i + E.m) 0
    (st2.1, STORE μ c0i ((((μ c0i).re + R + (μ c2i).re) * ninv : ℝ) : ℂ))) E.B (c1c, mem)

/-- `ImplicitHConvolution::convolve(Complex **F, realmultiplier *pmult, unsigned int
offset)`. `c1c0` is the indeterminate initial content of the fresh array `c1c`; the result is
`none` when a blocked loop does not come to an end. -/
noncomputable def ImplicitHConvolution.convolve (E : ImplicitHConvolution) (F : Ptrs)
    (pmult : realmultiplier) (offset : Nat) (c1c0 : Nat → ℂ) (mem : Mem) : Option Mem :=
  let start := E.m - 1 - E.c
  let st := E.convolve_pointers F offset mem
  let c0 := st.c0
  let c1 := st.c1
  let c2 := st.c2
  let mem := st.mem
  let out_of_place := decide (E.A ≥ 2 * E.B)
  let d0 := E.convolve_outputs out_of_place c0 c2
  let d1 := E.convolve_outputs out_of_place c1 c2
  (E.premult F offset c1c0 mem).bind fun (st : Mem × (Nat → ℂ)) =>
  let mem := st.1
  let c1c := st.2
  -- r=2:
  let mem := E.convolve_r2 pmult c2 mem
  -- r=0:
  let Tmem := E.convolve_r0 pmult out_of_place c0 d0 mem
  let T := Tmem.1
  let mem := Tmem.2
  let S : Nat → ℂ := forUpTo (fun i S => Function.update S i (mem (d0 i + start))) E.B
    (fun _ => 0)
  -- r=1:
  let c1cmem := E.convolve_r1 pmult out_of_place c1 d1 T c1c mem
  let c1c := c1cmem.1
  let mem := c1cmem.2
  if out_of_place then
    let c2mem := E.convolve_return c0 c2 d0 d1 S mem
    E.postmultadd c2mem.1 c0 (fun i => c2mem.1 (E.B + i)) c2mem.2
  else
    let c1cmem := E.convolve_return_inplace c0 c1 c2 S c1c mem
    E.postmultadd0 c2 c0 c1cmem.1 c1cmem.2

/-! ## Auxiliary definitions for the statements about the Hermitian engine -/

/-- The Hermitian sequence that packed data `x` stands for: `x[p]` for `p ≥ 0` and
`conj(x[-p])` for `p < 0`. -/
noncomputable def hext (x : Nat → ℂ) (p : ℤ) : ℂ :=
  if 0 ≤ p then x p.toNat else (starRingEnd ℂ) (x (-p).toNat)

/-- The coefficient `j` of the convolution of the Hermitian sequences of `x` and `y`: the sum
of `x[p]*y[q]` over `p + q = j` with `|p| < m` and `|q| < m`. -/
noncomputable def hconv (m : Nat) (x y : Nat → ℂ) (j : ℤ) : ℂ :=
  ∑ p in Finset.Ioo (-(m : ℤ)) m, ∑ q in Finset.Ioo (-(m : ℤ)) m,
    if p + q = j then hext x p * hext y q else 0

/-- The value at the point `3l + r` of the trigonometric polynomial with the Hermitian
coefficients `hext x`. -/
noncomputable def hpoly (ζ : ℂ) (m : Nat) (x : Nat → ℂ) (r : ℤ) (l : Nat) : ℂ :=
  ∑ p in Finset.Ioo (-(m : ℤ)) m, hext x p * ζ ^ ((r + 3 * l) * p)

/-- The folded coefficient of index `k` of the product of two cosets. -/
noncomputable def hfold (ζ : ℂ) (m : Nat) (x y : Nat → ℂ) (r : ℤ) (k : Nat) : ℂ :=
  ∑ p in Finset.Ioo (-(m : ℤ)) m, ∑ q in Finset.Ioo (-(m : ℤ)) m,
    hext x p * hext y q * ζ ^ (r * (p + q)) * (if (m : ℤ) ∣ (p + q - k) then (m : ℂ) else 0)

/-- The root of unity `e^(2πi/(3m))` of the Hermitian engine. -/
noncomputable def zeta3m (m : Nat) : ℂ :=
  Complex.exp (2 * Real.pi * Complex.I / ((3 * m : Nat) : ℂ))

/-- `op` only changes the cells of `S`, and their new values only depend on the old values
of the cells of `S`. -/
structure Acts (op : Mem → Mem) (S : Nat → Prop) : Prop where
  frame : ∀ (μ : Mem) (a : Nat), ¬ S a → op μ a = μ a
  loc : ∀ μ ν : Mem, (∀ a, S a → μ a = ν a) → ∀ a, S a → op μ a = op ν a

/-- The cells that one round of the innermost loop of `premult` stores to. -/
def ImplicitHConvolution.touched (E : ImplicitHConvolution) (fi ui k a : Nat) : Prop :=
  a = fi + E.m - (E.c + 1) + k ∨ a = fi + E.m - k ∨ a = ui + (E.c + 1) - k ∨ a = ui + k
    ∨ a = fi + (E.c + 1) - k ∨ a = fi + k

/-- The buffers of the Hermitian engine are apart: `A` inputs of `m` cells at `P i` and `A`
work arrays of `c+1` cells at `U i`. -/
structure HLayout (m c A : Nat) (P U : Ptrs) : Prop where
  ff : ∀ i j, i < A → j < A → i ≠ j → P i + m ≤ P j ∨ P j + m ≤ P i
  uu : ∀ i j, i < A → j < A → i ≠ j → U i + (c + 1) ≤ U j ∨ U j + (c + 1) ≤ U i
  fu : ∀ i j, i < A → j < A → P i + m ≤ U j ∨ U j + (c + 1) ≤ P i

/-- The cells that one round of the out-of-place `postmultadd` reads or stores to. -/
def ImplicitHConvolution.recombined_cells (E : ImplicitHConvolution) (f0 ui c2Bi k a : Nat) :
    Prop :=
  a = f0 + E.m - k ∨ a = f0 + k ∨ a = c2Bi + k ∨ a = ui + k

/-- The four buffers of a binary Hermitian convolution are apart: the inputs `f`, `g` of `m`
cells at `pf`, `pg` and the work arrays of `c+1` cells at `u0`, `u1`. -/
structure HBuf (m c pf pg u0 u1 : Nat) : Prop where
  fg : pf + m ≤ pg ∨ pg + m ≤ pf
  fu0 : pf + m ≤ u0 ∨ u0 + (c + 1) ≤ pf
  fu1 : pf + m ≤ u1 ∨ u1 + (c + 1) ≤ pf
  gu0 : pg + m ≤ u0 ∨ u0 + (c + 1) ≤ pg
  gu1 : pg + m ≤ u1 ∨ u1 + (c + 1) ≤ pg
  uu : u0 + (c + 1) ≤ u1 ∨ u1 + (c + 1) ≤ u0

/-- The state of one input after the first loop of `convolve` and `premult`, in terms of the
memory `μ` at the call: `p` is the input, `u` its work array, `f1` its entry of `f1c`. -/
structure HPre (E : ImplicitHConvolution) (p u : Nat) (μ ν : Mem) (f1 : ℂ) : Prop where
  f0 : ν p = μ p
  u0 : ν u = μ p
  r0 : ∀ j, 1 ≤ j → j ≤ E.c → ν (p + j) = μ (p + j) + (starRingEnd ℂ) (μ (p + E.m - j))
  r1 : ∀ j, 1 ≤ j → j ≤ E.c → E.c < E.m - 1 - E.c + j →
    ν (p + (E.m - 1 - E.c) + j) = zeta3m E.m ^ j * (μ (p + j)
      + (starRingEnd ℂ) (⟨-0.5, hsqrt3⟩ : ℂ) * (starRingEnd ℂ) (μ (p + E.m - j)))
  r1c : E.m = 2 * E.c → f1 = zeta3m E.m ^ 1 * (μ (p + 1)
      + (starRingEnd ℂ) (⟨-0.5, hsqrt3⟩ : ℂ) * (starRingEnd ℂ) (μ (p + E.m - 1)))
  r2 : ∀ j, 1 ≤ j → j ≤ E.c → ν (u + j) = (starRingEnd ℂ) (zeta3m E.m ^ j) * (μ (p + j)
      + (⟨-0.5, hsqrt3⟩ : ℂ) * (starRingEnd ℂ) (μ (p + E.m - j)))

/-! ## Correlation kernels (`convolution.cc`, lines 1237-1281) -/

/-- `mult_autocorrelation(Complex **F, m, threads)`, scalar branch:
`F0[j] *= conj(F0[j])`. -/
def mult_autocorrelation : multiplier := fun F m mem =>
  let F0 := F 0
  forUpTo (fun j μ => STORE μ (F0 + j) (μ (F0 + j) * (starRingEnd ℂ) (μ (F0 + j)))) m mem

/-- `mult_correlation(Complex **F, m, threads)`, scalar branch: `F0[j] *= conj(F1[j])`. -/
def mult_correlation : multiplier := fun F m mem =>
  let F0 := F 0
  let F1 := F 1
  forUpTo (fun j μ => STORE μ (F0 + j) (μ (F0 + j) * (starRingEnd ℂ) (μ (F1 + j)))) m mem

/-! ## Kernels on arrays of doubles (`convolution.cc`, lines 857-952, 1047-1066, 1125-1136)

A `double *` is kept as its index into the doubles of the flat memory: the double `2q` is the
real part of the cell `q`, the double `2q+1` its imaginary part (so the cast of a `Complex *q`
is the index `2q`). -/

/-- The double `*d`. -/
def dload (mem : Mem) (d : Nat) : ℝ := loadD mem 0 d

/-- The store `*d = v` of a double. -/
def dstore (mem : Mem) (d : Nat) (v : ℝ) : Mem := storeD mem 0 d v

/-- Modelled from the spec: `LOAD(double *p)` declared in the header, the vector of the two
doubles `p[0]`, `p[1]`. -/
def LOADv (mem : Mem) (d : Nat) : Vec := ⟨dload mem d, dload mem (d + 1)⟩

/-- Modelled from the spec: `STORE(double *p, Vec v)` declared in the header, the store of
the two doubles `p[0]`, `p[1]`. -/
def STOREv (mem : Mem) (d : Nat) (v : Vec) : Mem := dstore (dstore mem d v.re) (d + 1) v.im

/-- `ImplicitHFGGConvolution::mult(double *a, double *b)`, scalar branch, for the member
`m`: `ak=a[k]; a[k]=ak*ak*b[k]` for `k < 2m`. -/
def ImplicitHFGGConvolution.mult (m a b : Nat) (mem : Mem) : Mem :=
  let twom := 2 * m
  forUpTo (fun k μ =>
    let ak := dload μ (a + k)
    dstore μ (a + k) (ak * ak * dload μ (b + k))) twom mem

/-- `ImplicitHFFFConvolution::mult(double *a)` for the member `m`: the loop
`for(k=0; k < twom; k += 2)` on vectors of two doubles, `STORE(p,ak*ak*ak)`; `none` when the
loop does not come to an end. -/
def ImplicitHFFFConvolution.mult (m a : Nat) (mem : Mem) : Option Mem :=
  let twom := 2 * m
  forBlocks twom 2 (fun k μ =>
    let p := a + k
    let ak := LOADv μ p
    STOREv μ p (vmul (vmul ak ak) ak)) twom 0 mem

/-- The last branch of `ImplicitHTConvolution::mult` (scalar form), the loop for a general
`M`: `A=a-offset`, `B=b-offset`, `p=A+k`, `q=B+k` for `k` from `offset` to `2m+offset`, so
`p` is `a + (k - offset)`; `sum=(*p)*(*q)*C0[k]`, then `sum += p[istride]*q[istride]*C[i][k]`
for `1 ≤ i < M`, then `*p=sum`. -/
def ImplicitHTConvolution.mult_general (m M stride a b : Nat) (C : Ptrs) (offset : Nat)
    (mem : Mem) : Mem :=
  let twom := 2 * m
  let C0 := C 0
  let stop := twom + offset
  forRange offset stop (fun k μ =>
    let p := a + k - offset
    let q := b + k - offset
    let sum := dload μ p * dload μ q * dload μ (C0 + k)
    let sum := forRange 1 M (fun i sum =>
      let istride := i * stride
      sum + dload μ (p + istride) * dload μ (q + istride) * dload μ (C i + k)) sum
    dstore μ p sum) mem

/-- `ImplicitHTConvolution::mult(double *a, double *b, double **C, unsigned int offset)`,
scalar branches, for the members `m`, `M`, `stride`. -/
def ImplicitHTConvolution.mult (m M stride a b : Nat) (C : Ptrs) (offset : Nat)
    (mem : Mem) : Mem :=
  let twom := 2 * m
  if M = 1 then
    let C0 := C 0 + offset
    forUpTo (fun k μ =>
      dstore μ (a + k) (dload μ (a + k) * (dload μ (b + k) * dload μ (C0 + k)))) twom mem
  else if M = 2 then
    let a1 := a + stride
    let b1 := b + stride
    let C0 := C 0 + offset
    let C1 := C 1 + offset
    forUpTo (fun k μ =>
      dstore μ (a + k) (dload μ (a + k) * dload μ (b + k) * dload μ (C0 + k)
        + dload μ (a1 + k) * dload μ (b1 + k) * dload μ (C1 + k))) twom mem
  else if M = 3 then
    let a1 := a + stride
    let a2 := a1 + stride
    let b1 := b + stride
    let b2 := b1 + stride
    let C0 := C 0 + offset
    let C1 := C 1 + offset
    let C2 := C 2 + offset
    forUpTo (fun k μ =>
      dstore μ (a + k) (dload μ (a + k) * dload μ (b + k) * dload μ (C0 + k)
        + dload μ (a1 + k) * dload μ (b1 + k) * dload μ (C1 + k)
        + dload μ (a2 + k) * dload μ (b2 + k) * dload μ (C2 + k))) twom mem
  else ImplicitHTConvolution.mult_general m M stride a b C offset mem

/-! ## `fftpad` (`convolution.cc`, lines 603-659) -/

/-- The members of `class fftpad` (declared in the header) that `expand` and `reduce` use. -/
structure fftpad where
  m : Nat
  M : Nat
  stride : Nat
  s : Nat
  ZetaH : List ℂ
  ZetaL : List ℂ

/-- The phase factor `ZetaH[k/s]*ZetaL[k%s]` of index `k`. -/
def fftpad.zetak (E : fftpad) (k : Nat) : ℂ :=
  tab E.ZetaH (k / E.s) * tab E.ZetaL (k % E.s)

/-- `fftpad::expand(Complex *f, Complex *u)`; `none` when the blocked loop does not come to
an end. -/
def fftpad.expand (E : fftpad) (f u : Nat) (mem : Mem) : Option Mem :=
  forBlocks E.m E.s (fun K μ =>
    let stop := min (K + E.s) E.m
    let H := tab E.ZetaH (K / E.s)
    forRange K stop (fun k μ =>
      let Zetak := ZMULT H (tab E.ZetaL (k - K))
      let X := UNPACKL Zetak Zetak
      let Y := UNPACKH (CONJ Zetak) Zetak
      let kstride := k * E.stride
      let fk := f + kstride
      let uk := u + kstride
      forUpTo (fun i μ => STORE μ (uk + i) (ZMULT3 X Y (LOAD μ (fk + i)))) E.M μ) μ) E.m 0 mem

/-- `fftpad::reduce(Complex *f, Complex *u)`; `none` when the blocked loop does not come to
an end. -/
noncomputable def fftpad.reduce (E : fftpad) (f u : Nat) (mem : Mem) : Option Mem :=
  let ninv : ℝ := 0.5 / (E.m : ℝ)
  let Ninv := LOADd ninv
  forBlocks E.m E.s (fun K μ =>
    let stop := min (K + E.s) E.m
    let H := vmul Ninv (tab E.ZetaH (K / E.s))
    forRange K stop (fun k μ =>
      let Zetak := ZMULT H (tab E.ZetaL (k - K))
      let X := UNPACKL Zetak Zetak
      let Y := UNPACKH Zetak (CONJ Zetak)
      let kstride := k * E.stride
      let uk := u + kstride
      let fk := f + kstride
      forUpTo (fun i μ =>
        STORE μ (fk + i) (vmul (LOAD μ (fk + i)) Ninv + ZMULT3 X Y (LOAD μ (uk + i)))) E.M μ)
      μ) E.m 0 mem

/-! ## The two branches of `ImplicitConvolution::convolve` -/

/-- A multiplier that works elementwise on `A` slots and writes only the first `B` of them:
on buffers `Q[0..A)` of `m` cells that are pairwise apart it sets `Q[i][k]`, for `i < B` and
`k < m`, to the value `G i k` of the old `Q[0][k]`, ..., `Q[A-1][k]`, and writes no other
cell. -/
def ElementwiseMult (pmult : multiplier) (A B : Nat) (G : Nat → Nat → (Nat → ℂ) → ℂ) : Prop :=
  (∀ i k (x y : Nat → ℂ), (∀ j, j < A → x j = y j) → G i k x = G i k y) ∧
  ∀ (Q : Ptrs) (m : Nat) (μ : Mem),
    (∀ i j, i < A → j < A → i ≠ j → NoOverlap (Q i) (Q j) m) →
    (∀ i k, i < B → k < m → pmult Q m μ (Q i + k) = G i k (fun j => μ (Q j + k))) ∧
    (∀ a, (∀ i, i < B → ¬ (Q i ≤ a ∧ a < Q i + m)) → pmult Q m μ a = μ a)

/-- The buffers of the engine are apart: `A` inputs of `m` cells at `P i` and `A` work arrays
of `m` cells at `U i`. -/
structure CLayout (m A : Nat) (P U : Ptrs) : Prop where
  pp : ∀ i j, i < A → j < A → i ≠ j → NoOverlap (P i) (P j) m
  uu : ∀ i j, i < A → j < A → i ≠ j → NoOverlap (U i) (U j) m
  pu : ∀ i j, i < A → j < A → NoOverlap (P i) (U j) m

/-- The value at index `k` that `convolve` recombines in output `i` from the memory `μ` left
by the first `premult`, for backward and forward transforms `TB`, `TF` and a multiplier that
applies `G` elementwise (an abbreviation for the statements below): the odd branch
`conj(ninv*zeta_k) * TF(G(TB(P[0]), ..., TB(P[A-1])))[k]` plus the even branch
`ninv * TF(U[i])[k]`, with `ninv = 0.5/m`. -/
noncomputable def ImplicitConvolution.branches (E : ImplicitConvolution) (TB TF : Transform)
    (G : Nat → Nat → (Nat → ℂ) → ℂ) (P : Ptrs) (μ : Mem) (i k : Nat) : ℂ :=
  (starRingEnd ℂ) (((0.5 / (E.m : ℝ) : ℝ) : ℂ) * E.zetak k)
      * restr E.m (TF (restr E.m (fun t =>
          G i t (fun j => restr E.m (TB (arr E.m μ (P j))) t)))) k
    + ((0.5 / (E.m : ℝ) : ℝ) : ℂ) * restr E.m (TF (arr E.m μ (E.U i))) k

/-! ## The blocked loop over the frequency index -/

/-- The index pairs `(K, k)` at which the blocked loop
`for(K=0; K < m; K += s) for(k=K; k < min(K+s,m); ++k)` of `premult`, `postmultadd`,
`expand` and `reduce` runs its body, in the order of the runs; `none` when the loop does not
come to an end. -/
def blockedVisits (m s : Nat) : Option (List (Nat × Nat)) :=
  forBlocks m s (fun K tr =>
    let stop := min (K + s) m
    forRange K stop (fun k tr => tr ++ [(K, k)]) tr) m 0 []

/-! ## The order of the phases of `ImplicitConvolution::convolve` -/

/-- The operations that `ImplicitConvolution::convolve` calls: a backward transform of the
working array `P[i]`, the multiplier, `premult<T>(P)`, the forward transform into (or of)
`P[i]`, the forward transform of `U[i]`, and `postmultadd` for the output `i`. -/
inductive Phase where
  | backward (i : Nat)
  | mult
  | premult
  | forward (i : Nat)
  | forwardU (i : Nat)
  | postmultadd (i : Nat)
  deriving DecidableEq

/-- The calls of `ImplicitConvolution::convolve` in the order in which its body makes them
(lines 55-106): the same loops and the same branch on `out_of_place`, with every call
replaced by its record. -/
def ImplicitConvolution.phases (E : ImplicitConvolution) : List Phase :=
  -- Backwards FFT (even indices):
  let tr := forUpTo (fun i tr => tr ++ [Phase.backward i]) E.A []
  let tr := tr ++ [Phase.mult]
  let tr := tr ++ [Phase.premult]
  if E.out_of_place then
    let tr := forDownFrom (fun i tr => tr ++ [Phase.backward i]) E.A tr
    let tr := tr ++ [Phase.mult]
    forUpTo (fun i tr => tr ++ [Phase.forward i, Phase.forwardU i, Phase.postmultadd i]) E.B tr
  else
    let tr := forUpTo (fun i tr => tr ++ [Phase.backward i]) E.A tr
    let tr := tr ++ [Phase.mult]
    forUpTo (fun i tr => tr ++ [Phase.forward i, Phase.forwardU i, Phase.postmultadd i]) E.B tr

/-! ## The pointer arrays of `ImplicitHConvolution::convolve` with checked subscripts -/

/-- The read `a[i]` of a local array of pointers; `none` when `i` is not smaller than the
number of elements. -/
def readAt (a : List Nat) (i : Nat) : Option Nat := a[i]?

/-- The assignment `a[i]=v` to a local array of pointers; `none` when `i` is not smaller than
the number of elements. -/
def writeAt (a : List Nat) (i v : Nat) : Option (List Nat) :=
  if i < a.length then some (a.set i v) else none

/-- The local arrays `Complex *C0[A], *C1[A], *c2[A]` and `double *D0[A], *D1[A]` of
`ImplicitHConvolution::convolve` and its local constant `out_of_place`. On the out-of-place
path `c0`, `c1`, `d0`, `d1` are `C0`, `C1`, `D0`, `D1`; on the in-place path `d0` and `d1`
are casts of `c0` and `c1`; `d2` is a cast of `c2` and `c2B` is `c2+B`. -/
structure HArrays where
  C0 : List Nat
  C1 : List Nat
  c2 : List Nat
  D0 : List Nat
  D1 : List Nat
  out_of_place : Bool

/-- The five arrays have `A` elements each and the flag has the value `b`. -/
def HArrays.Sized (A : Nat) (b : Bool) (st : HArrays) : Prop :=
  st.C0.length = A ∧ st.C1.length = A ∧ st.c2.length = A ∧ st.D0.length = A
    ∧ st.D1.length = A ∧ st.out_of_place = b

/-- The reads and writes of the pointer arrays in `ImplicitHConvolution::convolve`
(lines 473-574), in the order of the code, every subscript checked against the `A` elements
of its array: the result is `none` as soon as one subscript is out of bounds. The transforms,
the multiplier and the stores to the data are left out; they use no other subscript. For
`A = 0` the C expression `A-1` wraps around; the embedding, where it is `0`, fails at
`c2[A-1]` as well. -/
def ImplicitHConvolution.convolve_arrays (E : ImplicitHConvolution) (F : Ptrs)
    (offset : Nat) : Option HArrays :=
  let start := E.m - 1 - E.c
  let fresh := List.replicate E.A 0
  let st0 : HArrays :=
    { C0 := fresh, C1 := fresh, c2 := fresh, D0 := fresh, D1 := fresh, out_of_place := false }
  (forUpToM (fun i (st : HArrays) =>
    let f := F i + offset
    (writeAt st.C0 i f).bind fun C0 =>
    (writeAt st.C1 i (f + start)).bind fun C1 =>
    (writeAt st.c2 i (E.U i)).bind fun c2 =>
    some { st with C0 := C0, C1 := C1, c2 := c2 }) E.A st0).bind fun st =>
  let out_of_place := decide (E.A ≥ 2 * E.B)
  let st := { st with out_of_place := out_of_place }
  (if out_of_place then
    (forUpToM (fun i (st : HArrays) =>
      (readAt st.C0 (i + 1)).bind fun x =>
      (writeAt st.D0 i x).bind fun D0 =>
      (readAt st.C1 (i + 1)).bind fun y =>
      (writeAt st.D1 i y).bind fun D1 =>
      some { st with D0 := D0, D1 := D1 }) (E.A - 1) st).bind fun st =>
    (readAt st.c2 (E.A - 1)).bind fun x =>
    (writeAt st.D0 (E.A - 1) x).bind fun D0 =>
    (readAt st.c2 (E.A - 1)).bind fun y =>
    (writeAt st.D1 (E.A - 1) y).bind fun D1 =>
    some { st with D0 := D0, D1 := D1 }
  else some st).bind fun st =>
  -- r=2: cr->fft(c2[i],d2[i])
  (forUpToM (fun i (st : HArrays) =>
    (readAt st.c2 i).bind fun _ => (readAt st.c2 i).bind fun _ => some st) E.A st).bind fun st =>
  -- r=0: c0[i], d0[i] for i from A-1 down to 0, then d0[i] for i < B
  (forUpToM (fun j (st : HArrays) =>
    let i := E.A - 1 - j
    (readAt st.C0 i).bind fun _ =>
    (readAt (if out_of_place then st.D0 else st.C0) i).bind fun _ => some st) E.A st).bind
    fun st =>
  (forUpToM (fun i (st : HArrays) =>
    (readAt (if out_of_place then st.D0 else st.C0) i).bind fun _ => some st) E.B st).bind
    fun st =>
  -- r=1: c1[i], d1[i] for i from A-1 down to 0
  (forUpToM (fun j (st : HArrays) =>
    let i := E.A - 1 - j
    (readAt st.C1 i).bind fun _ => (readAt st.C1 i).bind fun _ =>
    (readAt (if out_of_place then st.D1 else st.C1) i).bind fun _ => some st) E.A st).bind
    fun st =>
  if out_of_place then
    forUpToM (fun i (st : HArrays) =>
      (readAt st.C0 i).bind fun _ =>
      (readAt st.c2 i).bind fun _ =>
      (readAt st.C0 (i + E.B)).bind fun x =>
      (writeAt st.c2 i x).bind fun c2 =>
      (readAt c2 i).bind fun _ =>
      (readAt c2 (E.B + i)).bind fun _ =>
      (readAt st.D0 i).bind fun _ =>
      (readAt st.D1 i).bind fun _ =>
      some { st with c2 := c2 }) E.B st
  else
    forUpToM (fun i (st : HArrays) =>
      (readAt st.C0 i).bind fun _ =>
      (readAt st.C1 i).bind fun _ =>
      (readAt st.c2 i).bind fun _ => some st) E.B st

/-! ## The transform pairs of the `fftpad` family (`convolution.cc`, lines 603-855 and
1178-1235)

The classes `fft0pad`, `fft0padwide` and `fft0bipad` use the members of `fftpad`. Their plans
`Backwards` and `Forwards` (declared in the header) are passed as the functions that they
execute. -/

/-- Modelled from the spec: `plan->fft(f)` for a plan of `M` transforms of length `n` on data
with stride `stride` (the class `mfft1d`, not under `src/`), in place: the element `k` of the
transform `i` is `f[k*stride + i]`, for `k < n` and `i < M`; nothing else is written. -/
def mfft (T : Transform) (n M stride p : Nat) (mem : Mem) : Mem := fun a =>
  if p ≤ a ∧ (a - p) / stride < n ∧ (a - p) % stride < M then
    T (fun k => if k < n then mem (p + k * stride + (a - p) % stride) else 0) ((a - p) / stride)
  else mem a

/-- The plans `Backwards` and `Forwards` of length `n` are an unnormalised inverse pair:
`Forwards` after `Backwards` is `n` times the identity. -/
def InversePair (Backwards Forwards : Transform) (n : Nat) : Prop :=
  ∀ (x : Nat → ℂ) (k : Nat), k < n →
    Forwards (restr n (Backwards (restr n x))) k = (n : ℂ) * x k

/-- Modelled from the spec: the three-argument `ZMULTI(x,y,w)` declared in the header: the
complex product of `z` and `i*w` from the precomputed `x=(z.re,z.re)` and
`y=(-z.im,z.im)`. -/
def ZMULTI3 (x y w : Vec) : Vec := vmul x (FLIP (CONJ w)) + vmul y (CONJ w)

/-- Modelled from the spec: the one-argument `ZMULTI(z)` declared in the header, `i*z`. -/
def ZMULTI1 (z : Vec) : Vec := FLIP (CONJ z)

/-- `fftpad::backwards(Complex *f, Complex *u)`; the plan has length `m`. -/
def fftpad.backwards (E : fftpad) (Backwards : Transform) (f u : Nat) (mem : Mem) :
    Option Mem :=
  (E.expand f u mem).map fun mem =>
  let mem := mfft Backwards E.m E.M E.stride f mem
  mfft Backwards E.m E.M E.stride u mem

/-- `fftpad::forwards(Complex *f, Complex *u)`; the plan has length `m`. -/
noncomputable def fftpad.forwards (E : fftpad) (Forwards : Transform) (f u : Nat) (mem : Mem) :
    Option Mem :=
  let mem := mfft Forwards E.m E.M E.stride f mem
  let mem := mfft Forwards E.m E.M E.stride u mem
  E.reduce f u mem

/-- `fft0bipad::backwards(Complex *f, Complex *u)`; the plan has length `2m`. -/
def fft0bipad.backwards (E : fftpad) (Backwards : Transform) (f u : Nat) (mem : Mem) :
    Option Mem :=
  let mem := forUpTo (fun i μ => STORE μ (f + i) 0) E.M mem
  let mem := forUpTo (fun i μ => STORE μ (u + i) 0) E.M mem
  let twom := 2 * E.m
  (forBlocks twom E.s (fun K μ =>
    let stop := min (K + E.s) twom
    let H := -(tab E.ZetaH (K / E.s))
    forRange (max 1 K) stop (fun k μ =>
      let Zetak := ZMULT H (tab E.ZetaL (k - K))
      let X := UNPACKL Zetak Zetak
      let Y := UNPACKH (CONJ Zetak) Zetak
      let kstride := k * E.stride
      let fk := f + kstride
      let uk := u + kstride
      forUpTo (fun i μ => STORE μ (uk + i) (ZMULTI3 X Y (LOAD μ (fk + i)))) E.M μ) μ)
    twom 0 mem).map fun mem =>
  let mem := mfft Backwards twom E.M E.stride f mem
  mfft Backwards twom E.M E.stride u mem

/-- `fft0bipad::forwards(Complex *f, Complex *u)`; the plan has length `2m`. -/
noncomputable def fft0bipad.forwards (E : fftpad) (Forwards : Transform) (f u : Nat)
    (mem : Mem) : Option Mem :=
  let twom := 2 * E.m
  let mem := mfft Forwards twom E.M E.stride f mem
  let mem := mfft Forwards twom E.M E.stride u mem
  let ninv : ℝ := 0.25 / (E.m : ℝ)
  let Ninv := LOADd ninv
  forBlocks twom E.s (fun K μ =>
    let stop := min (K + E.s) twom
    let H := vmul Ninv (tab E.ZetaH (K / E.s))
    forRange (max 1 K) stop (fun k μ =>
      let Zetak := ZMULT H (tab E.ZetaL (k - K))
      let X := UNPACKL Zetak Zetak
      let Y := UNPACKH Zetak (CONJ Zetak)
      let kstride := k * E.stride
      let uk := u + kstride
      let fk := f + kstride
      forUpTo (fun i μ =>
        let p := fk + i
        STORE μ p (vmul (LOAD μ p) Ninv + ZMULTI3 X Y (LOAD μ (uk + i)))) E.M μ) μ)
    twom 0 mem

/-- `fft0padwide::backwards(Complex *f, Complex *u)`; the plan has length `m`. -/
noncomputable def fft0padwide.backwards (E : fftpad) (Backwards : Transform) (f u : Nat)
    (mem : Mem) : Option Mem :=
  let mstride := E.m * E.stride
  let fmstride := f + mstride
  let mem := forUpTo (fun i μ =>
    let Nyquist := μ (f + i)
    let μ := STORE μ (f + i) (μ (fmstride + i) + 2.0 * Nyquist)
    let μ := STORE μ (fmstride + i) (μ (fmstride + i) - Nyquist)
    STORE μ (u + i) (μ (fmstride + i))) E.M mem
  let Mhalf := LOADd (-0.5)
  let Mhsqrt3 := LOADd (-hsqrt3)
  let inc := E.s
  (forBlocks E.m inc (fun K μ =>
    let stop := min (K + E.s) E.m
    let Zeta := tab E.ZetaH (K / E.s)
    let X := UNPACKL Zeta Zeta
    let Y := UNPACKH (CONJ Zeta) Zeta
    forRange (max 1 K) stop (fun k μ =>
      let zetak := ZMULT3 X Y (tab E.ZetaL (k - K))
      let kstride := k * E.stride
      let uk := u + kstride
      let fk := f + kstride
      let fmk := fmstride + kstride
      forUpTo (fun i μ =>
        let Fa := LOAD μ (fk + i)
        let Fb := LOAD μ (fmk + i)
        let B := vmul Fa Mhalf + Fb
        let μ := STORE μ (fk + i) (Fa + Fb)
        let Fa := vmul Fa Mhsqrt3
        let A := ZMULT zetak (UNPACKL B Fa)
        let B := ZMULTI zetak (UNPACKH B Fa)
        let μ := STORE μ (fmk + i) (A + B)
        STORE μ (uk + i) (CONJ (A - B))) E.M μ) μ) E.m 0 mem).map fun mem =>
  let mem := mfft Backwards E.m E.M E.stride f mem
  let mem := mfft Backwards E.m E.M E.stride fmstride mem
  mfft Backwards E.m E.M E.stride u mem

/-- `fft0padwide::forwards(Complex *f, Complex *u)`; the plan has length `m`. -/
noncomputable def fft0padwide.forwards (E : fftpad) (Forwards : Transform) (f u : Nat)
    (mem : Mem) : Option Mem :=
  let mstride := E.m * E.stride
  let fmstride := f + mstride
  let mem := mfft Forwards E.m E.M E.stride f mem
  let mem := mfft Forwards E.m E.M E.stride fmstride mem
  let mem := mfft Forwards E.m E.M E.stride u mem
  let ninv : ℝ := 1.0 / (3.0 * (E.m : ℝ))
  let mem := forUpTo (fun i μ =>
    let f0 := μ (f + i)
    let f1 := μ (fmstride + i)
    let f2 := μ (u + i)
    let μ := STORE μ (f + i) 0.0
    STORE μ (fmstride + i) ((f0 + f1 + f2) * (ninv : ℂ))) E.M mem
  let Ninv := LOADd ninv
  let Mhalf := LOADd (-0.5)
  let HSqrt3 := LOADd hsqrt3
  let inc := E.s
  forBlocks E.m inc (fun K μ =>
    let stop := min (K + E.s) E.m
    let Zeta := vmul Ninv (tab E.ZetaH (K / E.s))
    let X := UNPACKL Zeta Zeta
    let Y := UNPACKH (CONJ Zeta) Zeta
    forRange (max 1 K) stop (fun k μ =>
      let zetak := ZMULT3 X Y (tab E.ZetaL (k - K))
      let kstride := k * E.stride
      let fk := f + kstride
      let fmk := fmstride + kstride
      let uk := u + kstride
      forUpTo (fun i μ =>
        let F0 := vmul (LOAD μ (fk + i)) Ninv
        let F1 := ZMULTC zetak (LOAD μ (fmk + i))
        let F2 := ZMULT zetak (LOAD μ (uk + i))
        let S := F1 + F2
        let μ := STORE μ (fk + i) (F0 + vmul Mhalf S + vmul HSqrt3 (ZMULTI1 (F1 - F2)))
        STORE μ (fmk + i) (F0 + S)) E.M μ) μ) E.m 0 mem

/-- `fft0pad::backwards(Complex *f, Complex *u)`; the plan has length `m`. The variable
`stop` is carried from block to block. For `m = 0` the C expression `m-1` wraps around. -/
noncomputable def fft0pad.backwards (E : fftpad) (Backwards : Transform) (f u : Nat)
    (mem : Mem) : Option Mem :=
  let m1 := E.m - 1
  let m1stride := m1 * E.stride
  let fm1stride := f + m1stride
  let mem := forUpTo (fun i μ => STORE μ (u + i) (μ (fm1stride + i))) E.M mem
  let Mhalf := LOADd (-0.5)
  let Mhsqrt3 := LOADd (-hsqrt3)
  let stop := E.s
  (forBlocks E.m E.s (fun K (st : Mem × Nat) =>
    let H := tab E.ZetaH (K / E.s)
    (forRange (max 1 K) st.2 (fun k μ =>
      let Zetak := ZMULT H (tab E.ZetaL (k - K))
      let X := UNPACKL Zetak Zetak
      let Y := UNPACKH (CONJ Zetak) Zetak
      let kstride := k * E.stride
      let uk := u + kstride
      let fk := f + kstride
      let fmk := fm1stride + kstride
      forUpTo (fun i μ =>
        let A := LOAD μ (fmk + i)
        let B := LOAD μ (f + i)
        let Z := vmul B Mhalf + A
        let μ := STORE μ (f + i) (LOAD μ (fk + i))
        let μ := STORE μ (fk + i) (B + A)
        let B := vmul B Mhsqrt3
        let A := ZMULT3 X Y (UNPACKL Z B)
        let B := ZMULTI3 X Y (UNPACKH Z B)
        let μ := STORE μ (fmk + i) (A + B)
        STORE μ (uk + i) (CONJ (A - B))) E.M μ) st.1,
      min (st.2 + E.s) E.m)) E.m 0 (mem, stop)).map fun st =>
  let mem := mfft Backwards E.m E.M E.stride f st.1
  let umstride := u + E.m * E.stride
  let mem := forUpTo (fun i μ =>
    let μ := STORE μ (umstride + i) (μ (fm1stride + i))
    STORE μ (fm1stride + i) (μ (u + i))) E.M mem
  let mem := mfft Backwards E.m E.M E.stride fm1stride mem
  mfft Backwards E.m E.M E.stride u mem

/-- `fft0pad::forwards(Complex *f, Complex *u)`; the plan has length `m`. The variable
`stop` is carried from block to block. -/
noncomputable def fft0pad.forwards (E : fftpad) (Forwards : Transform) (f u : Nat)
    (mem : Mem) : Option Mem :=
  let m1stride := (E.m - 1) * E.stride
  let fm1stride := f + m1stride
  let mem := mfft Forwards E.m E.M E.stride fm1stride mem
  let umstride := u + E.m * E.stride
  let mem := forUpTo (fun i μ =>
    let temp := μ (umstride + i)
    let μ := STORE μ (umstride + i) (μ (fm1stride + i))
    STORE μ (fm1stride + i) temp) E.M mem
  let mem := mfft Forwards E.m E.M E.stride f mem
  let mem := mfft Forwards E.m E.M E.stride u mem
  let ninv : ℝ := 1.0 / (3.0 * (E.m : ℝ))
  let mem := forUpTo (fun i μ =>
    STORE μ (umstride + i) ((μ (umstride + i) + μ (f + i) + μ (u + i)) * (ninv : ℂ))) E.M mem
  let Ninv := LOADd ninv
  let Mhalf := LOADd (-0.5)
  let HSqrt3 := LOADd hsqrt3
  let stop := E.s
  (forBlocks E.m E.s (fun K (st : Mem × Nat) =>
    let H := vmul (tab E.ZetaH (K / E.s)) Ninv
    (forRange (max 1 K) st.2 (fun k μ =>
      let Zetak := ZMULT H (tab E.ZetaL (k - K))
      let X := UNPACKL Zetak Zetak
      let Y := UNPACKH (CONJ Zetak) Zetak
      let kstride := k * E.stride
      let fk := f + kstride
      let fm1k := fm1stride + kstride
      let uk := u + kstride
      forUpTo (fun i μ =>
        let F0 := vmul (LOAD μ (fk + i)) Ninv
        let F1 := ZMULT3 X (-Y) (LOAD μ (fm1k + i))
        let F2 := ZMULT3 X Y (LOAD μ (uk + i))
        let S := F1 + F2
        let μ := STORE μ (fk + i - E.stride)
          (F0 + vmul Mhalf S + vmul HSqrt3 (ZMULTI1 (F1 - F2)))
        STORE μ (fm1k + i) (F0 + S)) E.M μ) st.1,
      min (st.2 + E.s) E.m)) E.m 0 (mem, stop)).map fun st =>
  forUpTo (fun i μ => STORE μ (fm1stride + i) (μ (umstride + i))) E.M st.1

/-! ## One column of the data of a transform pair -/

/-- The column `i` of the data of a transform pair: the rows of `f` and the rows of `u`. -/
structure ColState where
  F : Nat → ℂ
  U : Nat → ℂ

/-- The column `i` of a memory: `F r = f[r*stride + i]` for the rows `r < Rf` of `f` and
`U r = u[r*stride + i]` for the rows `r < Ru` of `u`, zero beyond. -/
def colView (f u stride Rf Ru i : Nat) (μ : Mem) : ColState :=
  { F := fun r => if r < Rf then μ (f + r * stride + i) else 0
    U := fun r => if r < Ru then μ (u + r * stride + i) else 0 }

/-- The transform of the rows `r0 ≤ r < r0 + n` of `f`, on one column. -/
def ColState.fftF (T : Transform) (n r0 : Nat) (S : ColState) : ColState :=
  { F := fun r =>
      if r0 ≤ r ∧ r < r0 + n then T (restr n (fun j => S.F (r0 + j))) (r - r0) else S.F r
    U := S.U }

/-- The transform of the rows `r0 ≤ r < r0 + n` of `u`, on one column. -/
def ColState.fftU (T : Transform) (n r0 : Nat) (S : ColState) : ColState :=
  { F := S.F
    U := fun r =>
      if r0 ≤ r ∧ r < r0 + n then T (restr n (fun j => S.U (r0 + j))) (r - r0) else S.U r }

/-- The assignment to the row `r` of `f`, on one column. -/
def ColState.setF (S : ColState) (r : Nat) (v : ℂ) : ColState :=
  { F := Function.update S.F r v, U := S.U }

/-- The assignment to the row `r` of `u`, on one column. -/
def ColState.setU (S : ColState) (r : Nat) (v : ℂ) : ColState :=
  { F := S.F, U := Function.update S.U r v }

/-! ## `checkerror` (`mpi/mpiutils.h`, lines 309-324) -/

/-- `checkerror(const T *f, const T *control, unsigned int stop)` for `T = Complex` (a
`double` is a `Complex` with imaginary part zero): the running maxima `maxerr` and `norm`,
then the test `maxerr <= 1e-12*norm`. The lines written to `std::cout` are left out. -/
noncomputable def checkerror (f control stop : Nat) (mem : Mem) : Int :=
  let st : ℝ × ℝ := forUpTo (fun i (st : ℝ × ℝ) =>
    (max st.1 (Complex.abs (mem (f + i) - mem (control + i))),
      max st.2 (Complex.abs (mem (control + i))))) stop (0.0, 0.0)
  let maxerr := st.1
  let norm := st.2
  if maxerr ≤ 1e-12 * norm then 0 else 1

/-! ## The two-doubles-at-a-time path of the real `multbinary` (lines 1326-1350) -/

/-- Modelled from the spec: `LOAD(double *p)` declared in the header, for `p = q + j` with
`q` the cast of a `Complex *`: the vector of the doubles `q[j]`, `q[j+1]`. -/
def LOADD (mem : Mem) (q j : Nat) : Vec := ⟨loadD mem q j, loadD mem q (j + 1)⟩

/-- Modelled from the spec: `STORE(double *p, Vec v)` declared in the header, for `p = q + j`:
the store of the doubles `q[j]`, `q[j+1]`. -/
def STORED (mem : Mem) (q j : Nat) (v : Vec) : Mem :=
  storeD (storeD mem q j v.re) q (j + 1) v.im

/-- `multbinary(double **F, m, threads)`, branch `__SSE2__`: the loop
`for(j=0; j < m1; j += 2)` on vectors of two doubles, then `F0[m1] *= F1[m1]` for an odd `m`;
`none` when the loop does not come to an end. For `m = 0` the unsigned `m1 = m-1` is
`2^32-1`, which no even `j` reaches (`j += 2` wraps around to 0), so the loop does not come
to an end; for `m ≥ 1` neither `m-1` nor `j += 2` wraps around. -/
def multbinary_double_sse2 (F : Ptrs) (m : Nat) (mem : Mem) : Option Mem :=
  let F0 := F 0
  let F1 := F 1
  if m = 0 then none else
  let m1 := m - 1
  (forBlocks m1 2 (fun j μ =>
    STORED μ F0 j (vmul (LOADD μ F0 j) (LOADD μ F1 j))) m1 0 mem).map fun μ =>
  if m % 2 ≠ 0 then storeD μ F0 m1 (loadD μ F0 m1 * loadD μ F1 m1) else μ

/-! ## The calls of the two `convolve` functions -/

/-- The calls that `ImplicitConvolution::convolve` and `ImplicitHConvolution::convolve` make:
`premult`, a backward (for the Hermitian engine: complex-to-real) transform of the branch `r`
for the input `i`, the caller's multiplier with its arguments `m` and `threads`, a forward
(real-to-complex) transform of the branch `r` for the output `i`, and `postmultadd` or
`postmultadd0`. -/
inductive Call where
  | premult
  | backward (r i : Nat)
  | mult (m threads : Nat)
  | forward (r i : Nat)
  | postmultadd
  deriving DecidableEq

/-- The call is one of the caller's multiplier. -/
def Call.isMult : Call → Bool
  | Call.mult _ _ => true
  | _ => false

/-- The call is a backward transform. -/
def Call.isBackward : Call → Bool
  | Call.backward _ _ => true
  | _ => false

/-- The call is a forward transform. -/
def Call.isForward : Call → Bool
  | Call.forward _ _ => true
  | _ => false

/-- The calls of `ImplicitConvolution::convolve` in the order in which its body makes them
(lines 55-106): the same loops and the same branch on `out_of_place`, with every call
replaced by its record; the even branch is `r = 0`, the odd branch `r = 1`. The argument
`threads` stands for the member `threads` of the engine. -/
def ImplicitConvolution.calls (E : ImplicitConvolution) (threads : Nat) : List Call :=
  -- Backwards FFT (even indices):
  let tr := forUpTo (fun i tr => tr ++ [Call.backward 0 i]) E.A []
  let tr := tr ++ [Call.mult E.m threads]
  let tr := tr ++ [Call.premult]
  if E.out_of_place then
    let tr := forDownFrom (fun i tr => tr ++ [Call.backward 1 i]) E.A tr
    let tr := tr ++ [Call.mult E.m threads]
    forUpTo (fun i tr => tr ++ [Call.forward 1 i, Call.forward 0 i, Call.postmultadd]) E.B tr
  else
    let tr := forUpTo (fun i tr => tr ++ [Call.backward 1 i]) E.A tr
    let tr := tr ++ [Call.mult E.m threads]
    forUpTo (fun i tr => tr ++ [Call.forward 1 i, Call.forward 0 i, Call.postmultadd]) E.B tr

/-- The calls of `ImplicitHConvolution::convolve` in the order in which its body makes them
(lines 506-597): the same loops and the same branch on `out_of_place = A >= 2*B`, with every
call replaced by its record. The argument `threads` stands for the member `threads` of the
engine. -/
def ImplicitHConvolution.calls (E : ImplicitHConvolution) (threads : Nat) : List Call :=
  let out_of_place := decide (E.A ≥ 2 * E.B)
  let tr := [Call.premult]
  -- r=2:
  let tr := forUpTo (fun i tr => tr ++ [Call.backward 2 i]) E.A tr
  let tr := tr ++ [Call.mult E.m threads]
  -- r=0:
  let tr := forDownFrom (fun i tr => tr ++ [Call.backward 0 i]) E.A tr
  let tr := tr ++ [Call.mult E.m threads]
  -- r=1:
  let tr := forDownFrom (fun i tr => tr ++ [Call.backward 1 i]) E.A tr
  let tr := tr ++ [Call.mult E.m threads]
  if out_of_place then
    let tr := forUpTo (fun i tr =>
      tr ++ [Call.forward 1 i, Call.forward 0 i, Call.forward 2 i]) E.B tr
    tr ++ [Call.postmultadd]
  else
    let tr := forUpTo (fun i tr =>
      tr ++ [Call.forward 2 i, Call.forward 1 i, Call.forward 0 i]) E.B tr
    tr ++ [Call.postmultadd]

/-! ## `ImplicitHFGGConvolution::convolve` (lines 1068-1123) -/

/-- The members of `class ImplicitHFGGConvolution` (declared in the header) that `convolve`
uses; the plans `cr`, `cro` (complex to real) and `rco` (real to complex) have the real
length `2m`. -/
structure ImplicitHFGGConvolution where
  m : Nat
  s : Nat
  ZetaH : List ℂ
  ZetaL : List ℂ
  cr : TransformCR
  cro : TransformCR
  rco : TransformRC

/-- `ImplicitHFGGConvolution::convolve(Complex *f, Complex *g, Complex *u, Complex *v)`;
`none` when a blocked loop does not come to an end. The cast `(double *) q` of a `Complex *q`
is the index `2q` of a double. -/
noncomputable def ImplicitHFGGConvolution.convolve (E : ImplicitHFGGConvolution)
    (f g u v : Nat) (mem : Mem) : Option Mem :=
  (forBlocks E.m E.s (fun K μ =>
    let stop := min (K + E.s) E.m
    let Zeta := tab E.ZetaH (K / E.s)
    let X := UNPACKL Zeta Zeta
    let Y := UNPACKH (CONJ Zeta) Zeta
    forRange K stop (fun k μ =>
      let Zetak := ZMULT3 X Y (tab E.ZetaL (k - K))
      let Fk := LOAD μ (f + k)
      let Gk := LOAD μ (g + k)
      let μ := STORE μ (u + k) (ZMULT Zetak Fk)
      STORE μ (v + k) (ZMULT Zetak Gk)) μ) E.m 0 mem).bind fun mem =>
  let mem := STORE mem (u + E.m) 0
  let mem := STORE mem (v + E.m) 0
  let mem := fftCR E.cr (2 * E.m) u u mem
  let mem := fftCR E.cr (2 * E.m) v v mem
  let mem := ImplicitHFGGConvolution.mult E.m (2 * v) (2 * u) mem
  let mem := fftRC E.rco (2 * E.m) v u mem
  let mem := STORE mem (g + E.m) 0
  let mem := fftCR E.cro (2 * E.m) g v mem
  let mem := STORE mem (f + E.m) 0
  let mem := fftCR E.cro (2 * E.m) f g mem
  let mem := ImplicitHFGGConvolution.mult E.m (2 * v) (2 * g) mem
  let mem := fftRC E.rco (2 * E.m) v f mem
  let ninv : ℝ := 0.25 / (E.m : ℝ)
  let Ninv := LOADd ninv
  forBlocks E.m E.s (fun K μ =>
    let stop := min (K + E.s) E.m
    let Zeta := vmul Ninv (tab E.ZetaH (K / E.s))
    let X := UNPACKL Zeta Zeta
    let Y := UNPACKH (CONJ Zeta) Zeta
    forRange K stop (fun k μ =>
      let Zetak := ZMULT3 X Y (tab E.ZetaL (k - K))
      let fk := f + k
      STORE μ fk (ZMULTC Zetak (LOAD μ (u + k)) + vmul Ninv (LOAD μ fk))) μ) E.m 0 mem

/-- The phase factor `ZetaH[k/s]*ZetaL[k%s]` that the blocked loops of
`ImplicitHFGGConvolution::convolve` rebuild for index `k`. -/
def ImplicitHFGGConvolution.zetak (E : ImplicitHFGGConvolution) (k : Nat) : ℂ :=
  tab E.ZetaH (k / E.s) * tab E.ZetaL (k % E.s)

/-- The value that `ImplicitHFGGConvolution::convolve` leaves in `f[k]`, as a function of the
input sequences `x = f[0..m)` and `y = g[0..m)` (an abbreviation for the statements below):
`conj(ninv*zeta_k) * rco(cr(zeta y)^2 * cr(zeta x))[k] + ninv * rco(cro(y)^2 * cro(x))[k]`
with `ninv = 0.25/m`, the products taken over the `2m` doubles. -/
noncomputable def ImplicitHFGGConvolution.output (E : ImplicitHFGGConvolution)
    (x y : Nat → ℂ) (k : Nat) : ℂ :=
  (starRingEnd ℂ) (((0.25 / (E.m : ℝ) : ℝ) : ℂ) * E.zetak k)
      * E.rco (fun d => if d < 2 * E.m then
          E.cr (restr E.m fun j => E.zetak j * y j) d
            * E.cr (restr E.m fun j => E.zetak j * y j) d
            * E.cr (restr E.m fun j => E.zetak j * x j) d
        else 0) k
    + ((0.25 / (E.m : ℝ) : ℝ) : ℂ)
      * E.rco (fun d => if d < 2 * E.m then
          E.cro (restr E.m y) d * E.cro (restr E.m y) d * E.cro (restr E.m x) d
        else 0) k

/-- An engine of length `m = 1` with the one-entry tables `[1]`, `[1]` and the exact
transforms of real length 2, for the statements below. -/
noncomputable def hfggExample : ImplicitHFGGConvolution :=
  { m := 1
    s := 1
    ZetaH := [1]
    ZetaL := [1]
    cr := crdft 2
    cro := crdft 2
    rco := rcdft 2 }

/-! ## `ImplicitHConvolution::convolve` and the ends of its pointer arrays

The arrays `C0`, `C1` and `c2` of `convolve` have `A` elements and its first loop assigns
`c0[i]`, `c1[i]`, `c2[i]` for `i < A`. A read of an entry `i ≥ A` is a read past the end of
the array; below it yields the value of `J0`, `J1`, `J2` at `i`, which stand for whatever lies
there. -/

/-- The first loop of `ImplicitHConvolution::convolve` (`compact` is `true`): `c0[i]=f`,
`c1[i]=f+start`, `u[0]=f->re`, `c2[i]=U[i]` for `i < A`; the entries `i ≥ A` keep the values
of `J0`, `J1`, `J2`. -/
def ImplicitHConvolution.convolve_pointers_from (E : ImplicitHConvolution) (F : Ptrs)
    (offset : Nat) (J0 J1 J2 : Ptrs) (mem : Mem) : HPointers :=
  let compact := true
  let start := E.m - 1 - E.c
  forUpTo (fun i (st : HPointers) =>
    let f := F i + offset
    let u := E.U i
    { c0 := Function.update st.c0 i f
      c1 := Function.update st.c1 i (f + start)
      c2 := Function.update st.c2 i (E.U i)
      mem := STORE st.mem u
        (if compact then (((st.mem f).re : ℝ) : ℂ)
          else (((st.mem f).re - (st.mem (f + E.m)).re : ℝ) : ℂ)) }) E.A
    { c0 := J0, c1 := J1, c2 := J2, mem := mem }

/-- `ImplicitHConvolution::convolve(Complex **F, realmultiplier *pmult, unsigned int
offset)` with the reads past the ends of `C0`, `C1`, `c2` made explicit: the same statements
as `convolve`, on the pointer arrays of `convolve_pointers_from`. `c1c0` is the indeterminate
initial content of the fresh array `c1c`; the result is `none` when a blocked loop does not
come to an end. -/
noncomputable def ImplicitHConvolution.convolve_from (E : ImplicitHConvolution) (F : Ptrs)
    (pmult : realmultiplier) (offset : Nat) (c1c0 : Nat → ℂ) (J0 J1 J2 : Ptrs) (mem : Mem) :
    Option Mem :=
  let start := E.m - 1 - E.c
  let st := E.convolve_pointers_from F offset J0 J1 J2 mem
  let c0 := st.c0
  let c1 := st.c1
  let c2 := st.c2
  let mem := st.mem
  let out_of_place := decide (E.A ≥ 2 * E.B)
  let d0 := E.convolve_outputs out_of_place c0 c2
  let d1 := E.convolve_outputs out_of_place c1 c2
  (E.premult F offset c1c0 mem).bind fun (st : Mem × (Nat → ℂ)) =>
  let mem := st.1
  let c1c := st.2
  -- r=2:
  let mem := E.convolve_r2 pmult c2 mem
  -- r=0:
  let Tmem := E.convolve_r0 pmult out_of_place c0 d0 mem
  let T := Tmem.1
  let mem := Tmem.2
  let S : Nat → ℂ := forUpTo (fun i S => Function.update S i (mem (d0 i + start))) E.B
    (fun _ => 0)
  -- r=1:
  let c1cmem := E.convolve_r1 pmult out_of_place c1 d1 T c1c mem
  let c1c := c1cmem.1
  let mem := c1cmem.2
  if out_of_place then
    let c2mem := E.convolve_return c0 c2 d0 d1 S mem
    E.postmultadd c2mem.1 c0 (fun i => c2mem.1 (E.B + i)) c2mem.2
  else
    let c1cmem := E.convolve_return_inplace c0 c1 c2 S c1c mem
    E.postmultadd0 c2 c0 c1cmem.1 c1cmem.2

/-! ## Generic facts about elementwise loops -/

theorem STORE_same (mem : Mem) (p : Nat) (v : ℂ) : STORE mem p v p = v := by
  simp [STORE]

theorem STORE_other (mem : Mem) (p : Nat) (v : ℂ) (a : Nat) (h : a ≠ p) :
    STORE mem p v a = mem a := by
  simp [STORE, Function.update_noteq h]

/-- An elementwise loop that stores `val j` at `p + j`, where `val j` does not depend on
the cells written by earlier iterations, has a closed form. -/
theorem forUpTo_store_eq (p : Nat) (val : Nat → Mem → ℂ) (mem : Mem) (n : Nat)
    (hval : ∀ j, j < n → ∀ μ : Mem, (∀ a, (a < p ∨ p + j ≤ a) → μ a = mem a) →
      val j μ = val j mem) :
    ∀ a, forUpTo (fun j μ => STORE μ (p + j) (val j μ)) n mem a
      = if p ≤ a ∧ a < p + n then val (a - p) mem else mem a := by
  induction n with
  | zero =>
    intro a
    have : ¬ (p ≤ a ∧ a < p + 0) := by omega
    rw [if_neg this]
    rfl
  | succ n ih =>
    intro a
    have ih2 := ih (fun j hj => hval j (by omega))
    have hv : val n (forUpTo (fun j μ => STORE μ (p + j) (val j μ)) n mem) = val n mem := by
      apply hval n (by omega)
      intro b hb
      rw [ih2 b]
      have : ¬ (p ≤ b ∧ b < p + n) := by omega
      rw [if_neg this]
    show STORE (forUpTo (fun j μ => STORE μ (p + j) (val j μ)) n mem) (p + n)
      (val n (forUpTo (fun j μ => STORE μ (p + j) (val j μ)) n mem)) a = _
    by_cases ha : a = p + n
    · subst ha
      rw [STORE_same, hv]
      have : p ≤ p + n ∧ p + n < p + (n + 1) := by omega
      rw [if_pos this]
      congr 1
      omega
    · rw [STORE_other _ _ _ _ ha, ih2 a]
      by_cases h1 : p ≤ a ∧ a < p + n
      · have h2 : p ≤ a ∧ a < p + (n + 1) := by omega
        rw [if_pos h1, if_pos h2]
      · have h2 : ¬ (p ≤ a ∧ a < p + (n + 1)) := by omega
        rw [if_neg h1, if_neg h2]

/-! ## Closed forms of the multiplier kernels -/

theorem multbinary_apply (F : Ptrs) (m : Nat) (mem : Mem)
    (h : F 0 ≤ F 1 ∨ F 1 + m ≤ F 0) (a : Nat) :
    multbinary F m mem a
      = if F 0 ≤ a ∧ a < F 0 + m then mem a * mem (F 1 + (a - F 0)) else mem a := by
  have key := forUpTo_store_eq (F 0) (fun j μ => μ (F 0 + j) * μ (F 1 + j)) mem m
    (by
      intro j hj μ hμ
      show μ (F 0 + j) * μ (F 1 + j) = mem (F 0 + j) * mem (F 1 + j)
      rw [hμ (F 0 + j) (by omega), hμ (F 1 + j) (by omega)]) a
  show forUpTo (fun j μ => STORE μ (F 0 + j) (μ (F 0 + j) * μ (F 1 + j))) m mem a = _
  rw [key]
  by_cases hc : F 0 ≤ a ∧ a < F 0 + m
  · rw [if_pos hc, if_pos hc]
    have : F 0 + (a - F 0) = a := by omega
    show mem (F 0 + (a - F 0)) * mem (F 1 + (a - F 0)) = _
    rw [this]
  · rw [if_neg hc, if_neg hc]

theorem mult_autoconvolution_apply (F : Ptrs) (m : Nat) (mem : Mem) (a : Nat) :
    mult_autoconvolution F m mem a
      = if F 0 ≤ a ∧ a < F 0 + m then mem a * mem a else mem a := by
  have key := forUpTo_store_eq (F 0) (fun j μ => μ (F 0 + j) * μ (F 0 + j)) mem m
    (by
      intro j hj μ hμ
      show μ (F 0 + j) * μ (F 0 + j) = mem (F 0 + j) * mem (F 0 + j)
      rw [hμ (F 0 + j) (by omega)]) a
  show forUpTo (fun j μ => STORE μ (F 0 + j) (μ (F 0 + j) * μ (F 0 + j))) m mem a = _
  rw [key]
  by_cases hc : F 0 ≤ a ∧ a < F 0 + m
  · rw [if_pos hc, if_pos hc]
    have : F 0 + (a - F 0) = a := by omega
    show mem (F 0 + (a - F 0)) * mem (F 0 + (a - F 0)) = _
    rw [this]
  · rw [if_neg hc, if_neg hc]

/-- An elementwise kernel `F0[j] = G(F0[j], F1[j], ..., F(N-1)[j])` whose target buffer does
not overlap the other `N - 1` buffers. -/
theorem forUpTo_kernel_eq (F : Ptrs) (N m : Nat) (G : (Nat → ℂ) → ℂ)
    (hG : ∀ x y : Nat → ℂ, (∀ i, i < N → x i = y i) → G x = G y)
    (h : ∀ i, 1 ≤ i → i < N → NoOverlap (F 0) (F i) m) (mem : Mem) (a : Nat) :
    forUpTo (fun j μ => STORE μ (F 0 + j) (G (fun i => μ (F i + j)))) m mem a
      = if F 0 ≤ a ∧ a < F 0 + m then G (fun i => mem (F i + (a - F 0))) else mem a := by
  refine forUpTo_store_eq (F 0) (fun j μ => G (fun i => μ (F i + j))) mem m ?_ a
  intro j hj μ hμ
  apply hG
  intro i hi
  apply hμ
  by_cases h0 : i = 0
  · subst h0
    omega
  · have := h i (by omega) hi
    unfold NoOverlap at this
    omega

theorem multbinary2_apply (F : Ptrs) (m : Nat) (mem : Mem)
    (h : ∀ i, 1 ≤ i → i < 4 → NoOverlap (F 0) (F i) m) (a : Nat) :
    multbinary2 F m mem a
      = if F 0 ≤ a ∧ a < F 0 + m then
          mem (F 0 + (a - F 0)) * mem (F 2 + (a - F 0))
            + mem (F 1 + (a - F 0)) * mem (F 3 + (a - F 0))
        else mem a :=
  forUpTo_kernel_eq F 4 m (fun x => x 0 * x 2 + x 1 * x 3)
    (by intro x y hxy; simp (disch := omega) only [hxy]) h mem a

theorem multbinary3_apply (F : Ptrs) (m : Nat) (mem : Mem)
    (h : ∀ i, 1 ≤ i → i < 6 → NoOverlap (F 0) (F i) m) (a : Nat) :
    multbinary3 F m mem a
      = if F 0 ≤ a ∧ a < F 0 + m then
          mem (F 0 + (a - F 0)) * mem (F 1 + (a - F 0))
            + mem (F 2 + (a - F 0)) * mem (F 3 + (a - F 0))
            + mem (F 4 + (a - F 0)) * mem (F 5 + (a - F 0))
        else mem a :=
  forUpTo_kernel_eq F 6 m (fun x => x 0 * x 1 + x 2 * x 3 + x 4 * x 5)
    (by intro x y hxy; simp (disch := omega) only [hxy]) h mem a

theorem multbinary4_apply (F : Ptrs) (m : Nat) (mem : Mem)
    (h : ∀ i, 1 ≤ i → i < 8 → NoOverlap (F 0) (F i) m) (a : Nat) :
    multbinary4 F m mem a
      = if F 0 ≤ a ∧ a < F 0 + m then
          mem (F 0 + (a - F 0)) * mem (F 1 + (a - F 0))
            + mem (F 2 + (a - F 0)) * mem (F 3 + (a - F 0))
            + mem (F 4 + (a - F 0)) * mem (F 5 + (a - F 0))
            + mem (F 6 + (a - F 0)) * mem (F 7 + (a - F 0))
        else mem a :=
  forUpTo_kernel_eq F 8 m (fun x => x 0 * x 1 + x 2 * x 3 + x 4 * x 5 + x 6 * x 7)
    (by intro x y hxy; simp (disch := omega) only [hxy]) h mem a

theorem multbinary8_apply (F : Ptrs) (m : Nat) (mem : Mem)
    (h : ∀ i, 1 ≤ i → i < 16 → NoOverlap (F 0) (F i) m) (a : Nat) :
    multbinary8 F m mem a
      = if F 0 ≤ a ∧ a < F 0 + m then
          mem (F 0 + (a - F 0)) * mem (F 1 + (a - F 0))
            + mem (F 2 + (a - F 0)) * mem (F 3 + (a - F 0))
            + mem (F 4 + (a - F 0)) * mem (F 5 + (a - F 0))
            + mem (F 6 + (a - F 0)) * mem (F 7 + (a - F 0))
            + mem (F 8 + (a - F 0)) * mem (F 9 + (a - F 0))
            + mem (F 10 + (a - F 0)) * mem (F 11 + (a - F 0))
            + mem (F 12 + (a - F 0)) * mem (F 13 + (a - F 0))
            + mem (F 14 + (a - F 0)) * mem (F 15 + (a - F 0))
        else mem a :=
  forUpTo_kernel_eq F 16 m (fun x => x 0 * x 1 + x 2 * x 3 + x 4 * x 5 + x 6 * x 7
      + x 8 * x 9 + x 10 * x 11 + x 12 * x 13 + x 14 * x 15)
    (by intro x y hxy; simp (disch := omega) only [hxy]) h mem a

/-! ## The claims about the multiplier kernels -/

/-- C8: for buffers `F[0]`, `F[1]` that do not overlap on their first `m` cells, the complex
`multbinary` sets `F[0][j] = F0[j]*F1[j]` for every `j < m`, leaves `F[1]` unchanged, and
leaves `F[0]` unchanged from index `m` on (indeed every cell outside `F[0][0..m)`). -/
theorem multbinary_pointwise (F : Ptrs) (m : Nat) (mem : Mem)
    (h : NoOverlap (F 0) (F 1) m) :
    (∀ j, j < m → multbinary F m mem (F 0 + j) = mem (F 0 + j) * mem (F 1 + j)) ∧
    (∀ j, j < m → multbinary F m mem (F 1 + j) = mem (F 1 + j)) ∧
    (∀ j, m ≤ j → multbinary F m mem (F 0 + j) = mem (F 0 + j)) ∧
    (∀ a, ¬ (F 0 ≤ a ∧ a < F 0 + m) → multbinary F m mem a = mem a) := by
  unfold NoOverlap at h
  have key := multbinary_apply F m mem (by omega)
  refine ⟨?_, ?_, ?_, ?_⟩
  · intro j hj
    rw [key, if_pos (by omega)]
    have : F 0 + j - F 0 = j := by omega
    rw [this]
  · intro j hj
    rw [key, if_neg (by omega)]
  · intro j hj
    rw [key, if_neg (by omega)]
  · intro a ha
    rw [key, if_neg ha]

/-- Witness of C8: two adjacent buffers of four cells. -/
theorem multbinary_pointwise_witness :
    NoOverlap (ptrs [0, 4] 0) (ptrs [0, 4] 1) 4 ∧
    multbinary (ptrs [0, 4]) 4 (fun a => (a : ℂ)) (ptrs [0, 4] 0 + 1)
      = ((ptrs [0, 4] 0 + 1 : Nat) : ℂ) * ((ptrs [0, 4] 1 + 1 : Nat) : ℂ) :=
  ⟨by decide,
    (multbinary_pointwise (ptrs [0, 4]) 4 (fun a => (a : ℂ)) (by decide)).1 1 (by decide)⟩

/-- C6: for buffers such that `F[0]` does not overlap `F[1]`, `F[2]`, `F[3]` on the first
`m` cells, the complex `multbinary2` sets `F[0][j] = F0[j]*F2[j] + F1[j]*F3[j]` (values
before the call) for every `j < m`, and leaves `F[1]`, `F[2]`, `F[3]` and the cells of `F[0]`
from index `m` on unchanged (indeed every cell outside `F[0][0..m)`). -/
theorem multbinary2_pointwise (F : Ptrs) (m : Nat) (mem : Mem)
    (h : ∀ i, 1 ≤ i → i < 4 → NoOverlap (F 0) (F i) m) :
    (∀ j, j < m → multbinary2 F m mem (F 0 + j)
        = mem (F 0 + j) * mem (F 2 + j) + mem (F 1 + j) * mem (F 3 + j)) ∧
    (∀ i, 1 ≤ i → i < 4 → ∀ j, j < m → multbinary2 F m mem (F i + j) = mem (F i + j)) ∧
    (∀ j, m ≤ j → multbinary2 F m mem (F 0 + j) = mem (F 0 + j)) ∧
    (∀ a, ¬ (F 0 ≤ a ∧ a < F 0 + m) → multbinary2 F m mem a = mem a) := by
  have key := multbinary2_apply F m mem h
  refine ⟨?_, ?_, ?_, ?_⟩
  · intro j hj
    rw [key, if_pos (by omega)]
    have : F 0 + j - F 0 = j := by omega
    rw [this]
  · intro i h1 h4 j hj
    have := h i h1 h4
    unfold NoOverlap at this
    rw [key, if_neg (by omega)]
  · intro j hj
    rw [key, if_neg (by omega)]
  · intro a ha
    rw [key, if_neg ha]

/-- Witness of C6: four consecutive buffers of two cells. -/
theorem multbinary2_pointwise_witness :
    (∀ i, 1 ≤ i → i < 4 → NoOverlap (ptrs [0, 2, 4, 6] 0) (ptrs [0, 2, 4, 6] i) 2) ∧
    multbinary2 (ptrs [0, 2, 4, 6]) 2 (fun a => (a : ℂ)) (ptrs [0, 2, 4, 6] 0 + 1)
      = ((ptrs [0, 2, 4, 6] 0 + 1 : Nat) : ℂ) * ((ptrs [0, 2, 4, 6] 2 + 1 : Nat) : ℂ)
        + ((ptrs [0, 2, 4, 6] 1 + 1 : Nat) : ℂ) * ((ptrs [0, 2, 4, 6] 3 + 1 : Nat) : ℂ) :=
  ⟨by intro i h1 h4; interval_cases i <;> decide,
    (multbinary2_pointwise (ptrs [0, 2, 4, 6]) 2 (fun a => (a : ℂ))
      (by intro i h1 h4; interval_cases i <;> decide)).1 1 (by decide)⟩

/-- C7: when `b` holds a separate copy of the `m` cells at `a`, `mult_autoconvolution`
applied to `[a]` leaves in `F[0] = a` exactly the values that the complex `multbinary`
leaves there when applied to `[a, b]`; the two resulting memories are in fact equal. -/
theorem mult_autoconvolution_eq_multbinary (a b m : Nat) (mem : Mem)
    (hsep : NoOverlap a b m) (hcopy : ∀ j, j < m → mem (b + j) = mem (a + j)) :
    (∀ j, j < m →
      mult_autoconvolution (ptrs [a]) m mem (a + j) = multbinary (ptrs [a, b]) m mem (a + j)) ∧
    mult_autoconvolution (ptrs [a]) m mem = multbinary (ptrs [a, b]) m mem := by
  have hall : ∀ x, mult_autoconvolution (ptrs [a]) m mem x
      = multbinary (ptrs [a, b]) m mem x := by
    intro x
    unfold NoOverlap at hsep
    have h0 : ptrs [a] 0 = a := rfl
    have h1 : ptrs [a, b] 0 = a := rfl
    have h2 : ptrs [a, b] 1 = b := rfl
    rw [mult_autoconvolution_apply, multbinary_apply _ _ _ (by rw [h1, h2]; omega), h0, h1, h2]
    by_cases hc : a ≤ x ∧ x < a + m
    · rw [if_pos hc, if_pos hc, hcopy (x - a) (by omega)]
      have : a + (x - a) = x := by omega
      rw [this]
    · rw [if_neg hc, if_neg hc]
  exact ⟨fun j _ => hall (a + j), funext hall⟩

/-- Witness of C7: `a = 0`, `b = 3`, three cells, the memory with period three. -/
theorem mult_autoconvolution_eq_multbinary_witness :
    NoOverlap 0 3 3 ∧
    mult_autoconvolution (ptrs [0]) 3 (fun x => ((x % 3 : Nat) : ℂ))
      = multbinary (ptrs [0, 3]) 3 (fun x => ((x % 3 : Nat) : ℂ)) :=
  ⟨by decide,
    (mult_autoconvolution_eq_multbinary 0 3 3 (fun x => ((x % 3 : Nat) : ℂ)) (by decide)
      (by intro j hj; interval_cases j <;> rfl)).2⟩

theorem multbinary3_sum (F : Ptrs) (m : Nat) (mem : Mem)
    (h : ∀ i, 1 ≤ i → i < 2 * 3 → NoOverlap (F 0) (F i) m) :
    (∀ j, j < m → multbinary3 F m mem (F 0 + j)
        = ∑ i in Finset.range 3, mem (F (2 * i) + j) * mem (F (2 * i + 1) + j)) ∧
    (∀ i, 1 ≤ i → i < 2 * 3 → ∀ j, j < m → multbinary3 F m mem (F i + j) = mem (F i + j)) := by
  have key := multbinary3_apply F m mem h
  refine ⟨?_, ?_⟩
  · intro j hj
    rw [key, if_pos (by omega)]
    have : F 0 + j - F 0 = j := by omega
    rw [this]
    simp [Finset.sum_range_succ]
  · intro i h1 h2 j hj
    have := h i h1 h2
    unfold NoOverlap at this
    rw [key, if_neg (by omega)]

theorem multbinary4_sum (F : Ptrs) (m : Nat) (mem : Mem)
    (h : ∀ i, 1 ≤ i → i < 2 * 4 → NoOverlap (F 0) (F i) m) :
    (∀ j, j < m → multbinary4 F m mem (F 0 + j)
        = ∑ i in Finset.range 4, mem (F (2 * i) + j) * mem (F (2 * i + 1) + j)) ∧
    (∀ i, 1 ≤ i → i < 2 * 4 → ∀ j, j < m → multbinary4 F m mem (F i + j) = mem (F i + j)) := by
  have key := multbinary4_apply F m mem h
  refine ⟨?_, ?_⟩
  · intro j hj
    rw [key, if_pos (by omega)]
    have : F 0 + j - F 0 = j := by omega
    rw [this]
    simp [Finset.sum_range_succ]
  · intro i h1 h2 j hj
    have := h i h1 h2
    unfold NoOverlap at this
    rw [key, if_neg (by omega)]

theorem multbinary8_sum (F : Ptrs) (m : Nat) (mem : Mem)
    (h : ∀ i, 1 ≤ i → i < 2 * 8 → NoOverlap (F 0) (F i) m) :
    (∀ j, j < m → multbinary8 F m mem (F 0 + j)
        = ∑ i in Finset.range 8, mem (F (2 * i) + j) * mem (F (2 * i + 1) + j)) ∧
    (∀ i, 1 ≤ i → i < 2 * 8 → ∀ j, j < m → multbinary8 F m mem (F i + j) = mem (F i + j)) := by
  have key := multbinary8_apply F m mem h
  refine ⟨?_, ?_⟩
  · intro j hj
    rw [key, if_pos (by omega)]
    have : F 0 + j - F 0 = j := by omega
    rw [this]
    simp [Finset.sum_range_succ]
  · intro i h1 h2 j hj
    have := h i h1 h2
    unfold NoOverlap at this
    rw [key, if_neg (by omega)]

/-- C10: for `N` in {3, 4, 8}, when `F[0]` does not overlap `F[1]`, ..., `F[2N-1]` on the first
`m` cells, `multbinaryN` sets `F[0][j]` to the sum over `i < N` of `F[2i][j]*F[2i+1][j]`
(values before the call) for every `j < m` and leaves `F[1]`, ..., `F[2N-1]` unchanged. -/
theorem multbinaryN_pointwise :
    (∀ (F : Ptrs) (m : Nat) (mem : Mem),
      (∀ i, 1 ≤ i → i < 2 * 3 → NoOverlap (F 0) (F i) m) →
      (∀ j, j < m → multbinary3 F m mem (F 0 + j)
          = ∑ i in Finset.range 3, mem (F (2 * i) + j) * mem (F (2 * i + 1) + j)) ∧
      (∀ i, 1 ≤ i → i < 2 * 3 → ∀ j, j < m → multbinary3 F m mem (F i + j) = mem (F i + j))) ∧
    (∀ (F : Ptrs) (m : Nat) (mem : Mem),
      (∀ i, 1 ≤ i → i < 2 * 4 → NoOverlap (F 0) (F i) m) →
      (∀ j, j < m → multbinary4 F m mem (F 0 + j)
          = ∑ i in Finset.range 4, mem (F (2 * i) + j) * mem (F (2 * i + 1) + j)) ∧
      (∀ i, 1 ≤ i → i < 2 * 4 → ∀ j, j < m → multbinary4 F m mem (F i + j) = mem (F i + j))) ∧
    (∀ (F : Ptrs) (m : Nat) (mem : Mem),
      (∀ i, 1 ≤ i → i < 2 * 8 → NoOverlap (F 0) (F i) m) →
      (∀ j, j < m → multbinary8 F m mem (F 0 + j)
          = ∑ i in Finset.range 8, mem (F (2 * i) + j) * mem (F (2 * i + 1) + j)) ∧
      (∀ i, 1 ≤ i → i < 2 * 8 → ∀ j, j < m → multbinary8 F m mem (F i + j) = mem (F i + j))) :=
  ⟨multbinary3_sum, multbinary4_sum, multbinary8_sum⟩

/-- Witness of C10: sixteen consecutive one-cell buffers, slot `i` at address `i`, for
`multbinary8`. -/
theorem multbinaryN_pointwise_witness :
    (∀ i, 1 ≤ i → i < 2 * 8 →
      NoOverlap (ptrs (List.range 16) 0) (ptrs (List.range 16) i) 1) ∧
    multbinary8 (ptrs (List.range 16)) 1 (fun a => (a : ℂ)) (ptrs (List.range 16) 0 + 0)
      = ∑ i in Finset.range 8,
          (((ptrs (List.range 16) (2 * i) + 0 : Nat) : ℂ)
            * ((ptrs (List.range 16) (2 * i + 1) + 0 : Nat) : ℂ)) :=
  ⟨by intro i h1 h2; interval_cases i <;> decide,
    (multbinaryN_pointwise.2.2 (ptrs (List.range 16)) 1 (fun a => (a : ℂ))
      (by intro i h1 h2; interval_cases i <;> decide)).1 0 (by decide)⟩

/-! ## The driver's multiplier on the driver's layout -/

theorem driverLayout_even (f g stride M : Nat) (F0 : Ptrs) (s : Nat) (hs : s < M) :
    driverLayout f g stride M F0 (2 * s) = f + s * stride := by
  induction M with
  | zero => omega
  | succ M ih =>
    show Function.update (Function.update (driverLayout f g stride M F0) (2 * M)
      (f + M * stride)) (2 * M + 1) (g + M * stride) (2 * s) = _
    rw [Function.update_noteq (by omega)]
    by_cases h : s = M
    · subst h
      rw [Function.update_same]
    · rw [Function.update_noteq (by omega)]
      exact ih (by omega)

theorem driverLayout_odd (f g stride M : Nat) (F0 : Ptrs) (s : Nat) (hs : s < M) :
    driverLayout f g stride M F0 (2 * s + 1) = g + s * stride := by
  induction M with
  | zero => omega
  | succ M ih =>
    show Function.update (Function.update (driverLayout f g stride M F0) (2 * M)
      (f + M * stride)) (2 * M + 1) (g + M * stride) (2 * s + 1) = _
    by_cases h : s = M
    · subst h
      rw [Function.update_same]
    · rw [Function.update_noteq (by omega), Function.update_noteq (by omega)]
      exact ih (by omega)

/-- With the driver's layout, `multbinary2` pairs `f_0` with `f_1` and `g_0` with `g_1`:
`F[0][j] = f_0[j]*f_1[j] + g_0[j]*g_1[j]`. -/
theorem driver_M2_computes (f g stride m : Nat) (F0 : Ptrs) (mem : Mem)
    (h : ∀ i, 1 ≤ i → i < 4 →
      NoOverlap (driverLayout f g stride 2 F0 0) (driverLayout f g stride 2 F0 i) m)
    (j : Nat) (hj : j < m) :
    multbinary2 (driverLayout f g stride 2 F0) m mem (f + j)
      = mem (f + j) * mem (f + stride + j) + mem (g + j) * mem (g + stride + j) := by
  have e0 : driverLayout f g stride 2 F0 0 = f := by
    simpa using driverLayout_even f g stride 2 F0 0 (by omega)
  have e1 : driverLayout f g stride 2 F0 1 = g := by
    simpa using driverLayout_odd f g stride 2 F0 0 (by omega)
  have e2 : driverLayout f g stride 2 F0 2 = f + stride := by
    simpa using driverLayout_even f g stride 2 F0 1 (by omega)
  have e3 : driverLayout f g stride 2 F0 3 = g + stride := by
    simpa using driverLayout_odd f g stride 2 F0 1 (by omega)
  have key := multbinary2_apply (driverLayout f g stride 2 F0) m mem h (f + j)
  rw [e0, e1, e2, e3, if_pos (by omega)] at key
  have hj2 : f + j - f = j := by omega
  rw [hj2] at key
  exact key

/-- For `M` in {1, 3, 4, 8} the multiplier the driver selects, on the driver's layout, sets
`F[0][j]` to the `M`-term dot product of the `f` and `g` terms. -/
theorem driver_dot_product (f g stride M m : Nat) (F0 : Ptrs) (mem : Mem)
    (hM : M = 1 ∨ M = 3 ∨ M = 4 ∨ M = 8)
    (h : ∀ i, 1 ≤ i → i < 2 * M →
      NoOverlap (driverLayout f g stride M F0 0) (driverLayout f g stride M F0 i) m) :
    ∃ mult, driverMult M = some mult ∧ ∀ j, j < m →
      mult (driverLayout f g stride M F0) m mem (f + j)
        = ∑ s in Finset.range M, mem (f + s * stride + j) * mem (g + s * stride + j) := by
  have e0 : driverLayout f g stride M F0 0 = f := by
    simpa using driverLayout_even f g stride M F0 0 (by omega)
  have hsum : ∀ j, (∑ s in Finset.range M, mem (driverLayout f g stride M F0 (2 * s) + j)
        * mem (driverLayout f g stride M F0 (2 * s + 1) + j))
      = ∑ s in Finset.range M, mem (f + s * stride + j) * mem (g + s * stride + j) := by
    intro j
    apply Finset.sum_congr rfl
    intro s hs
    rw [driverLayout_even _ _ _ _ _ _ (Finset.mem_range.mp hs),
      driverLayout_odd _ _ _ _ _ _ (Finset.mem_range.mp hs)]
  rcases hM with rfl | rfl | rfl | rfl
  · refine ⟨multbinary, rfl, ?_⟩
    intro j hj
    have h1 := h 1 (by omega) (by omega)
    unfold NoOverlap at h1
    have key := multbinary_apply (driverLayout f g stride 1 F0) m mem (by omega)
      (driverLayout f g stride 1 F0 0 + j)
    rw [if_pos (by omega)] at key
    have hj2 : driverLayout f g stride 1 F0 0 + j - driverLayout f g stride 1 F0 0 = j := by
      omega
    have hs := hsum j
    rw [Finset.sum_range_one, Finset.sum_range_one] at hs
    rw [hj2, hs, e0] at key
    rw [Finset.sum_range_one]
    exact key
  · refine ⟨multbinary3, rfl, ?_⟩
    intro j hj
    have key := (multbinary3_sum _ m mem h).1 j hj
    rw [hsum j, e0] at key
    exact key
  · refine ⟨multbinary4, rfl, ?_⟩
    intro j hj
    have key := (multbinary4_sum _ m mem h).1 j hj
    rw [hsum j, e0] at key
    exact key
  · refine ⟨multbinary8, rfl, ?_⟩
    intro j hj
    have key := (multbinary8_sum _ m mem h).1 j hj
    rw [hsum j, e0] at key
    exact key

/-- C9 (the code at the failing input): for `M = 2` the driver selects `multbinary2` and
lays out `F = [f_0, g_0, f_1, g_1]`; with `f_0 = f_1 = [1]` and `g_0 = g_1 = [0]` the call
leaves `F[0][0] = f_0*f_1 + g_0*g_1 = 1`, whereas the two-term dot product
`f_0*g_0 + f_1*g_1` is `0`. -/
theorem driver_M2_not_dot_product :
    ∃ mult, driverMult 2 = some mult ∧
      mult (driverLayout 0 2 1 2 (ptrs [])) 1 (fun a => if a < 2 then 1 else 0) (0 + 0) = 1 ∧
      (∑ s in Finset.range 2,
        (fun a : Nat => if a < 2 then (1 : ℂ) else 0) (0 + s * 1 + 0)
          * (fun a : Nat => if a < 2 then (1 : ℂ) else 0) (2 + s * 1 + 0)) = 0 := by
  refine ⟨multbinary2, rfl, ?_, ?_⟩
  · have key := driver_M2_computes 0 2 1 1 (ptrs []) (fun a => if a < 2 then 1 else 0)
      (by intro i h1 h4; interval_cases i <;> decide) 0 (by omega)
    rw [key]
    norm_num
  · simp [Finset.sum_range_succ]

/-! ## Vector helpers are complex arithmetic -/

theorem ZMULT3_unpack (z w : Vec) : ZMULT3 (UNPACKL z z) (UNPACKH (CONJ z) z) w = z * w := by
  apply Complex.ext <;> simp [ZMULT3, UNPACKL, UNPACKH, CONJ, FLIP, vmul] <;> ring

theorem ZMULT_eq_mul (z w : Vec) : ZMULT z w = z * w := by
  apply Complex.ext <;> simp [ZMULT, UNPACKL, UNPACKH, CONJ, FLIP, vmul] <;> ring

theorem ZMULTC_eq_mul (z w : Vec) : ZMULTC z w = (starRingEnd ℂ) z * w := by
  apply Complex.ext <;> simp [ZMULTC, UNPACKL, UNPACKH, CONJ, FLIP, vmul] <;> ring

theorem vmul_LOADd (x : ℝ) (z : Vec) : vmul (LOADd x) z = (x : ℂ) * z := by
  apply Complex.ext
  · simp [LOADd, vmul]
  · simp [LOADd, vmul]

/-! ## Blocked loops -/

theorem forRange_extend {σ : Type} (b body : Nat → σ → σ) (K d : Nat) (st0 : σ)
    (hb : ∀ k, K ≤ k → k < K + d → b k = body k) :
    forRange K (K + d) b (forUpTo body K st0) = forUpTo body (K + d) st0 := by
  unfold forRange
  have hd : K + d - K = d := by omega
  rw [hd]
  clear hd
  induction d with
  | zero => rfl
  | succ d ih =>
    show b (K + d) (forUpTo (fun i => b (K + i)) d (forUpTo body K st0))
      = body (K + d) (forUpTo body (K + d) st0)
    rw [ih (fun k h1 h2 => hb k h1 (by omega)), hb (K + d) (by omega) (by omega)]

theorem div_mul_block (s q k : Nat) (h1 : q * s ≤ k) (h2 : k < q * s + s) :
    k / s = q := by
  have hs : 0 < s := by
    rcases Nat.eq_zero_or_pos s with h | h
    · subst h; omega
    · exact h
  apply Nat.div_eq_of_lt_le
  · exact h1
  · rw [Nat.succ_mul]; exact h2

/-- A blocked loop over `[0, m)` with block size `s ≥ 1` comes to an end within `m` rounds
and runs the body once for every `k < m`, in increasing order, with `K = (k/s)*s`. -/
theorem forBlocks_eq_forUpTo {σ : Type} (m s : Nat) (hs : 0 < s) (body : Nat → Nat → σ → σ)
    (st0 : σ) :
    forBlocks m s (fun K st => forRange K (min (K + s) m) (fun k => body K k) st) m 0 st0
      = some (forUpTo (fun k => body (k / s * s) k) m st0) := by
  have gen : ∀ fuel q, m ≤ (q + fuel) * s →
      forBlocks m s (fun K st => forRange K (min (K + s) m) (fun k => body K k) st) fuel
          (q * s) (forUpTo (fun k => body (k / s * s) k) (min (q * s) m) st0)
        = some (forUpTo (fun k => body (k / s * s) k) m st0) := by
    intro fuel
    induction fuel with
    | zero =>
      intro q hq
      have hq2 : m ≤ q * s := by simpa using hq
      have : ¬ (q * s < m) := by omega
      simp only [forBlocks, if_neg this, Nat.min_eq_right hq2]
    | succ fuel ih =>
      intro q hq
      by_cases hlt : q * s < m
      · simp only [forBlocks, if_pos hlt]
        have hmin : min (q * s) m = q * s := Nat.min_eq_left (by omega)
        rw [hmin]
        have hKd : min (q * s + s) m = q * s + (min (q * s + s) m - q * s) := by
          have : q * s ≤ min (q * s + s) m := by
            apply Nat.le_min.mpr
            exact ⟨by omega, by omega⟩
          omega
        have hstep : forRange (q * s) (min (q * s + s) m) (fun k => body (q * s) k)
            (forUpTo (fun k => body (k / s * s) k) (q * s) st0)
            = forUpTo (fun k => body (k / s * s) k) (min (q * s + s) m) st0 := by
          rw [hKd]
          apply forRange_extend
          intro k h1 h2
          have h3 : k < q * s + s := by
            have : min (q * s + s) m ≤ q * s + s := Nat.min_le_left _ _
            omega
          show body (q * s) k = body (k / s * s) k
          rw [div_mul_block s q k h1 h3]
        rw [hstep]
        have := ih (q + 1) (by
          have : (q + 1 + fuel) * s = (q + (fuel + 1)) * s := by ring
          omega)
        rw [Nat.succ_mul] at this
        exact this
      · have hge : m ≤ q * s := by omega
        simp only [forBlocks, if_neg hlt, Nat.min_eq_right hge]
  have h0 := gen m 0 (by
    rw [Nat.zero_add]
    calc m = m * 1 := (Nat.mul_one m).symm
      _ ≤ m * s := Nat.mul_le_mul_left m hs)
  simpa using h0

/-- A loop whose iteration `k` only changes the cells it `touch`es, depending only on their
values, with different iterations touching different cells, acts cell by cell. -/
theorem forUpTo_local (body : Nat → Mem → Mem) (touch : Nat → Nat → Prop) (n : Nat) (mem : Mem)
    (hframe : ∀ k, k < n → ∀ (μ : Mem) a, ¬ touch k a → body k μ a = μ a)
    (hlocal : ∀ k, k < n → ∀ μ : Mem, (∀ a, touch k a → μ a = mem a) →
      ∀ a, touch k a → body k μ a = body k mem a)
    (hdisj : ∀ k k2 a, k < n → k2 < n → touch k a → touch k2 a → k = k2) :
    (∀ k, k < n → ∀ a, touch k a → forUpTo body n mem a = body k mem a) ∧
    (∀ a, (∀ k, k < n → ¬ touch k a) → forUpTo body n mem a = mem a) := by
  induction n with
  | zero =>
    exact ⟨fun k hk => by omega, fun a _ => rfl⟩
  | succ n ih =>
    have ih2 := ih (fun k hk => hframe k (by omega)) (fun k hk => hlocal k (by omega))
      (fun k k2 a hk hk2 => hdisj k k2 a (by omega) (by omega))
    refine ⟨?_, ?_⟩
    · intro k hk a ha
      show body n (forUpTo body n mem) a = body k mem a
      by_cases hkn : k = n
      · subst hkn
        apply hlocal k (by omega) _ _ a ha
        intro b hb
        apply ih2.2
        intro k2 hk2 hb2
        have := hdisj k2 k b (by omega) (by omega) hb2 hb
        omega
      · have hnt : ¬ touch n a := by
          intro hna
          have := hdisj k n a (by omega) (by omega) ha hna
          omega
        rw [hframe n (by omega) _ a hnt]
        exact ih2.1 k (by omega) a ha
    · intro a ha
      show body n (forUpTo body n mem) a = mem a
      rw [hframe n (by omega) _ a (ha n (by omega))]
      exact ih2.2 a (fun k hk => ha k (by omega))

/-! ## Buffers as sequences -/

theorem arr_apply (m : Nat) (mem : Mem) (p k : Nat) (hk : k < m) : arr m mem p k = mem (p + k) := by
  simp [arr, restr, hk]

theorem arr_of_ge (m : Nat) (mem : Mem) (p k : Nat) (hk : m ≤ k) : arr m mem p k = 0 := by
  have : ¬ k < m := by omega
  simp [arr, restr, this]

theorem restr_apply (m : Nat) (x : Nat → ℂ) (k : Nat) (hk : k < m) : restr m x k = x k := by
  simp [restr, hk]

theorem arr_ext (m : Nat) (μ ν : Mem) (p q : Nat) (h : ∀ k, k < m → μ (p + k) = ν (q + k)) :
    arr m μ p = arr m ν q := by
  funext k
  by_cases hk : k < m
  · rw [arr_apply _ _ _ _ hk, arr_apply _ _ _ _ hk, h k hk]
  · rw [arr_of_ge _ _ _ _ (by omega), arr_of_ge _ _ _ _ (by omega)]

/-- An operation that only writes `p[0..m)` leaves a buffer `q[0..m)` apart from it alone. -/
theorem arr_frame (m p q : Nat) (μ ν : Mem)
    (hfr : ∀ a, ¬ (p ≤ a ∧ a < p + m) → ν a = μ a) (h : NoOverlap p q m) :
    arr m ν q = arr m μ q := by
  unfold NoOverlap at h
  apply arr_ext
  intro k hk
  exact hfr (q + k) (by omega)

theorem fft_frame (T : Transform) (m inp out : Nat) (μ : Mem) (a : Nat)
    (ha : ¬ (out ≤ a ∧ a < out + m)) : fft T m inp out μ a = μ a := by
  simp only [fft, if_neg ha]

theorem fft_arr (T : Transform) (m inp out : Nat) (μ : Mem) :
    arr m (fft T m inp out μ) out = restr m (T (arr m μ inp)) := by
  funext k
  by_cases hk : k < m
  · rw [arr_apply _ _ _ _ hk, restr_apply _ _ _ hk]
    have h1 : out ≤ out + k ∧ out + k < out + m := by omega
    have h2 : out + k - out = k := by omega
    simp only [fft, if_pos h1, h2]
  · have : ¬ k < m := hk
    simp [arr, restr, this]

theorem fft_arr_other (T : Transform) (m inp out q : Nat) (μ : Mem) (h : NoOverlap out q m) :
    arr m (fft T m inp out μ) q = arr m μ q :=
  arr_frame m out q μ _ (fun a ha => fft_frame T m inp out μ a ha) h

theorem multbinary_arr (F : Ptrs) (m : Nat) (μ : Mem) (h : NoOverlap (F 0) (F 1) m) :
    arr m (multbinary F m μ) (F 0) = fun k => arr m μ (F 0) k * arr m μ (F 1) k := by
  unfold NoOverlap at h
  funext k
  by_cases hk : k < m
  · rw [arr_apply _ _ _ _ hk, arr_apply _ _ _ _ hk, arr_apply _ _ _ _ hk,
      multbinary_apply F m μ (by omega), if_pos (by omega)]
    have : F 0 + k - F 0 = k := by omega
    rw [this]
  · rw [arr_of_ge _ _ _ _ (by omega), arr_of_ge _ _ _ _ (by omega), zero_mul]

theorem multbinary_arr_other (F : Ptrs) (m q : Nat) (μ : Mem) (h : NoOverlap (F 0) (F 1) m)
    (hq : NoOverlap (F 0) q m) : arr m (multbinary F m μ) q = arr m μ q := by
  apply arr_frame m (F 0) q μ _ _ hq
  intro a ha
  unfold NoOverlap at h
  rw [multbinary_apply F m μ (by omega), if_neg ha]

theorem mult_autoconvolution_arr (F : Ptrs) (m : Nat) (μ : Mem) :
    arr m (mult_autoconvolution F m μ) (F 0) = fun k => arr m μ (F 0) k * arr m μ (F 0) k := by
  funext k
  by_cases hk : k < m
  · rw [arr_apply _ _ _ _ hk, arr_apply _ _ _ _ hk, mult_autoconvolution_apply,
      if_pos (by omega)]
  · rw [arr_of_ge _ _ _ _ (by omega), arr_of_ge _ _ _ _ (by omega), zero_mul]

theorem mult_autoconvolution_arr_other (F : Ptrs) (m q : Nat) (μ : Mem)
    (hq : NoOverlap (F 0) q m) : arr m (mult_autoconvolution F m μ) q = arr m μ q := by
  apply arr_frame m (F 0) q μ _ _ hq
  intro a ha
  rw [mult_autoconvolution_apply, if_neg ha]

/-! ## Closed forms of `premult` and `postmultadd` -/

theorem block_index (s k : Nat) (hs : 0 < s) :
    k / s * s / s = k / s ∧ k - k / s * s = k % s := by
  refine ⟨Nat.mul_div_cancel _ hs, ?_⟩
  have := Nat.div_add_mod k s
  have h2 : k / s * s = s * (k / s) := Nat.mul_comm _ _
  omega

/-- The phase factor computed inside a block is `zetak`. -/
theorem block_zetak (E : ImplicitConvolution) (hs : 0 < E.s) (k : Nat) :
    ZMULT3 (UNPACKL (tab E.ZetaH (k / E.s * E.s / E.s)) (tab E.ZetaH (k / E.s * E.s / E.s)))
        (UNPACKH (CONJ (tab E.ZetaH (k / E.s * E.s / E.s))) (tab E.ZetaH (k / E.s * E.s / E.s)))
        (tab E.ZetaL (k - k / E.s * E.s))
      = E.zetak k := by
  rw [ZMULT3_unpack, (block_index E.s k hs).1, (block_index E.s k hs).2]
  rfl

/-- The scaled phase factor computed inside a block of `postmultadd`. -/
theorem block_zetak_scaled (E : ImplicitConvolution) (hs : 0 < E.s) (ninv : ℝ) (k : Nat) :
    ZMULT3
        (UNPACKL (vmul (LOADd ninv) (tab E.ZetaH (k / E.s * E.s / E.s)))
          (vmul (LOADd ninv) (tab E.ZetaH (k / E.s * E.s / E.s))))
        (UNPACKH (CONJ (vmul (LOADd ninv) (tab E.ZetaH (k / E.s * E.s / E.s))))
          (vmul (LOADd ninv) (tab E.ZetaH (k / E.s * E.s / E.s))))
        (tab E.ZetaL (k - k / E.s * E.s))
      = (ninv : ℂ) * E.zetak k := by
  rw [ZMULT3_unpack, vmul_LOADd, (block_index E.s k hs).1, (block_index E.s k hs).2, mul_assoc]
  rfl

/-- `postmultadd(f,u)` comes to an end, sets `f[k] = conj(ninv*zeta_k)*f[k] + ninv*u[k]` with
`ninv = 0.5/m`, and writes nothing else. -/
theorem postmultadd_eq (E : ImplicitConvolution) (f u : Nat) (μ : Mem) (hs : 0 < E.s)
    (h : NoOverlap f u E.m) :
    ∃ ν, E.postmultadd f u μ = some ν ∧
      arr E.m ν f = (fun k =>
        (starRingEnd ℂ) (((0.5 / (E.m : ℝ) : ℝ) : ℂ) * E.zetak k) * arr E.m μ f k
          + ((0.5 / (E.m : ℝ) : ℝ) : ℂ) * arr E.m μ u k) ∧
      (∀ a, ¬ (f ≤ a ∧ a < f + E.m) → ν a = μ a) := by
  have hrun := forBlocks_eq_forUpTo E.m E.s hs
    (fun K k (μ : Mem) => STORE μ (f + k)
      (ZMULTC
        (ZMULT3
          (UNPACKL (vmul (LOADd (0.5 / (E.m : ℝ))) (tab E.ZetaH (K / E.s)))
            (vmul (LOADd (0.5 / (E.m : ℝ))) (tab E.ZetaH (K / E.s))))
          (UNPACKH (CONJ (vmul (LOADd (0.5 / (E.m : ℝ))) (tab E.ZetaH (K / E.s))))
            (vmul (LOADd (0.5 / (E.m : ℝ))) (tab E.ZetaH (K / E.s))))
          (tab E.ZetaL (k - K)))
        (LOAD μ (f + k))
      + vmul (LOADd (0.5 / (E.m : ℝ))) (LOAD μ (u + k)))) μ
  refine ⟨_, hrun, ?_, ?_⟩
  all_goals
    have key := forUpTo_store_eq f (fun k (μ : Mem) =>
      (ZMULTC
        (ZMULT3
          (UNPACKL (vmul (LOADd (0.5 / (E.m : ℝ))) (tab E.ZetaH (k / E.s * E.s / E.s)))
            (vmul (LOADd (0.5 / (E.m : ℝ))) (tab E.ZetaH (k / E.s * E.s / E.s))))
          (UNPACKH (CONJ (vmul (LOADd (0.5 / (E.m : ℝ))) (tab E.ZetaH (k / E.s * E.s / E.s))))
            (vmul (LOADd (0.5 / (E.m : ℝ))) (tab E.ZetaH (k / E.s * E.s / E.s))))
          (tab E.ZetaL (k - k / E.s * E.s)))
        (LOAD μ (f + k))
      + vmul (LOADd (0.5 / (E.m : ℝ))) (LOAD μ (u + k)))) μ E.m
      (by
        intro j hj ν hν
        unfold NoOverlap at h
        simp only [LOAD]
        rw [hν (f + j) (by omega), hν (u + j) (by omega)])
  · funext k
    by_cases hk : k < E.m
    · rw [arr_apply _ _ _ _ hk, arr_apply _ _ _ _ hk, arr_apply _ _ _ _ hk, key,
        if_pos (by omega)]
      have hk2 : f + k - f = k := by omega
      simp only [hk2, LOAD]
      rw [block_zetak_scaled E hs, ZMULTC_eq_mul, vmul_LOADd]
    · rw [arr_of_ge _ _ _ _ (by omega), arr_of_ge _ _ _ _ (by omega),
        arr_of_ge _ _ _ _ (by omega), mul_zero, mul_zero, add_zero]
  · intro a ha
    rw [key, if_neg ha]

/-- `premult<premult1>(F)` comes to an end, sets `F[0][k] = zeta_k*F[0][k]` and writes nothing
else. -/
theorem premult1_eq (E : ImplicitConvolution) (F : Ptrs) (μ : Mem) (hs : 0 < E.s) :
    ∃ ν, E.premult premult1 F μ = some ν ∧
      arr E.m ν (F 0) = (fun k => E.zetak k * arr E.m μ (F 0) k) ∧
      (∀ a, ¬ (F 0 ≤ a ∧ a < F 0 + E.m) → ν a = μ a) := by
  have hrun := forBlocks_eq_forUpTo E.m E.s hs
    (fun K k (μ : Mem) => premult1 F k
      (ZMULT3 (UNPACKL (tab E.ZetaH (K / E.s)) (tab E.ZetaH (K / E.s)))
        (UNPACKH (CONJ (tab E.ZetaH (K / E.s))) (tab E.ZetaH (K / E.s)))
        (tab E.ZetaL (k - K))) μ) μ
  refine ⟨_, hrun, ?_, ?_⟩
  all_goals
    have key := forUpTo_store_eq (F 0) (fun k (μ : Mem) =>
      ZMULT (ZMULT3 (UNPACKL (tab E.ZetaH (k / E.s * E.s / E.s)) (tab E.ZetaH (k / E.s * E.s / E.s)))
        (UNPACKH (CONJ (tab E.ZetaH (k / E.s * E.s / E.s))) (tab E.ZetaH (k / E.s * E.s / E.s)))
        (tab E.ZetaL (k - k / E.s * E.s))) (LOAD μ (F 0 + k))) μ E.m
      (by
        intro j hj ν hν
        simp only [LOAD]
        rw [hν (F 0 + j) (by omega)])
  · funext k
    by_cases hk : k < E.m
    · rw [arr_apply _ _ _ _ hk, arr_apply _ _ _ _ hk]
      have := key (F 0 + k)
      rw [if_pos (by omega)] at this
      have hk2 : F 0 + k - F 0 = k := by omega
      simp only [hk2, LOAD] at this
      rw [block_zetak E hs, ZMULT_eq_mul] at this
      exact this
    · rw [arr_of_ge _ _ _ _ (by omega), arr_of_ge _ _ _ _ (by omega), mul_zero]
  · intro a ha
    have := key a
    rw [if_neg ha] at this
    exact this

/-- `premult<premult2>(F)` on two buffers that do not overlap comes to an end, sets
`F[i][k] = zeta_k*F[i][k]` for `i < 2` and writes nothing else. -/
theorem premult2_eq (E : ImplicitConvolution) (F : Ptrs) (μ : Mem) (hs : 0 < E.s)
    (h : NoOverlap (F 0) (F 1) E.m) :
    ∃ ν, E.premult premult2 F μ = some ν ∧
      arr E.m ν (F 0) = (fun k => E.zetak k * arr E.m μ (F 0) k) ∧
      arr E.m ν (F 1) = (fun k => E.zetak k * arr E.m μ (F 1) k) ∧
      (∀ a, ¬ (F 0 ≤ a ∧ a < F 0 + E.m) → ¬ (F 1 ≤ a ∧ a < F 1 + E.m) → ν a = μ a) := by
  have hrun := forBlocks_eq_forUpTo E.m E.s hs
    (fun K k (μ : Mem) => premult2 F k
      (ZMULT3 (UNPACKL (tab E.ZetaH (K / E.s)) (tab E.ZetaH (K / E.s)))
        (UNPACKH (CONJ (tab E.ZetaH (K / E.s))) (tab E.ZetaH (K / E.s)))
        (tab E.ZetaL (k - K))) μ) μ
  unfold NoOverlap at h
  have hbody : ∀ k (ν : Mem), premult2 F k
      (ZMULT3 (UNPACKL (tab E.ZetaH (k / E.s * E.s / E.s)) (tab E.ZetaH (k / E.s * E.s / E.s)))
        (UNPACKH (CONJ (tab E.ZetaH (k / E.s * E.s / E.s))) (tab E.ZetaH (k / E.s * E.s / E.s)))
        (tab E.ZetaL (k - k / E.s * E.s))) ν
      = STORE (STORE ν (F 0 + k) (E.zetak k * ν (F 0 + k))) (F 1 + k)
          (E.zetak k * ν (F 1 + k)) := by
    intro k ν
    simp only [premult2, LOAD]
    rw [block_zetak E hs, ZMULT_eq_mul, ZMULT_eq_mul]
  have key := forUpTo_local
    (fun k (μ : Mem) => premult2 F k
      (ZMULT3 (UNPACKL (tab E.ZetaH (k / E.s * E.s / E.s)) (tab E.ZetaH (k / E.s * E.s / E.s)))
        (UNPACKH (CONJ (tab E.ZetaH (k / E.s * E.s / E.s))) (tab E.ZetaH (k / E.s * E.s / E.s)))
        (tab E.ZetaL (k - k / E.s * E.s))) μ)
    (fun k a => a = F 0 + k ∨ a = F 1 + k) E.m μ
    (by
      intro k hk ν a ha
      simp only [hbody]
      rw [STORE_other _ _ _ _ (by intro e; exact ha (Or.inr e)),
        STORE_other _ _ _ _ (by intro e; exact ha (Or.inl e))])
    (by
      intro k hk ν hν a ha
      simp only [hbody]
      rcases ha with rfl | rfl
      · rw [STORE_other _ _ _ _ (by omega), STORE_same, STORE_other _ _ _ _ (by omega),
          STORE_same, hν _ (Or.inl rfl)]
      · rw [STORE_same, STORE_same, hν _ (Or.inr rfl)])
    (by
      intro k k2 a hk hk2 h1 h2
      rcases h1 with rfl | rfl <;> rcases h2 with e | e <;> omega)
  refine ⟨_, hrun, ?_, ?_, ?_⟩
  · funext k
    by_cases hk : k < E.m
    · rw [arr_apply _ _ _ _ hk, arr_apply _ _ _ _ hk, key.1 k hk _ (Or.inl rfl)]
      simp only [hbody]
      rw [STORE_other _ _ _ _ (by omega), STORE_same]
    · rw [arr_of_ge _ _ _ _ (by omega), arr_of_ge _ _ _ _ (by omega), mul_zero]
  · funext k
    by_cases hk : k < E.m
    · rw [arr_apply _ _ _ _ hk, arr_apply _ _ _ _ hk, key.1 k hk _ (Or.inr rfl)]
      simp only [hbody]
      rw [STORE_same]
    · rw [arr_of_ge _ _ _ _ (by omega), arr_of_ge _ _ _ _ (by omega), mul_zero]
  · intro a h0 h1
    apply key.2
    intro k hk ht
    rcases ht with rfl | rfl
    · exact h0 (by omega)
    · exact h1 (by omega)

/-! ## `convolve` for one output: the recombined value -/

theorem NoOverlap.symm {p q m : Nat} (h : NoOverlap p q m) : NoOverlap q p m := by
  unfold NoOverlap at *
  omega

theorem multbinary_arr_at (F : Ptrs) (m : Nat) (μ : Mem) (p q : Nat) (h0 : F 0 = p)
    (h1 : F 1 = q) (h : NoOverlap p q m) :
    arr m (multbinary F m μ) p = fun k => arr m μ p k * arr m μ q k := by
  subst h0 h1
  exact multbinary_arr F m μ h

theorem multbinary_arr_other_at (F : Ptrs) (m : Nat) (μ : Mem) (p q r : Nat) (h0 : F 0 = p)
    (h1 : F 1 = q) (h : NoOverlap p q m) (hr : NoOverlap p r m) :
    arr m (multbinary F m μ) r = arr m μ r := by
  subst h0 h1
  exact multbinary_arr_other F m r μ h hr

theorem premultA_two (E : ImplicitConvolution) (hA : E.A = 2) (P : Ptrs) (μ : Mem) :
    E.premultA P μ = E.premult premult2 P μ := by
  unfold ImplicitConvolution.premultA
  rw [hA]

theorem premultA_one (E : ImplicitConvolution) (hA : E.A = 1) (P : Ptrs) (μ : Mem) :
    E.premultA P μ = E.premult premult1 P μ := by
  unfold ImplicitConvolution.premultA
  rw [hA]

/-- The out-of-place path of `convolve` for `A = 2`, `B = 1` and `multbinary`. -/
theorem convolve_binary_oop (E : ImplicitConvolution) (hA : E.A = 2) (hB : E.B = 1)
    (hs : 0 < E.s) (hoop : E.out_of_place = true) (F : Ptrs) (offset : Nat) (P0 : Ptrs)
    (μ : Mem)
    (hfg : NoOverlap (F 0 + offset) (F 1 + offset) E.m)
    (hfu0 : NoOverlap (F 0 + offset) (E.U 0) E.m)
    (hfu1 : NoOverlap (F 0 + offset) (E.U 1) E.m)
    (hgu0 : NoOverlap (F 1 + offset) (E.U 0) E.m)
    (hgu1 : NoOverlap (F 1 + offset) (E.U 1) E.m)
    (hu01 : NoOverlap (E.U 0) (E.U 1) E.m) :
    ∃ ν, E.convolve F multbinary offset P0 μ = some ν ∧
      arr E.m ν (F 0 + offset)
        = E.recombined E.BackwardsO E.BackwardsO E.ForwardsO E.ForwardsO
            (arr E.m μ (F 0 + offset)) (arr E.m μ (F 1 + offset)) := by
  unfold ImplicitConvolution.convolve
  simp only [hA, hB, hoop, if_true, premultA_two E hA, forUpTo, forRange, forDownFrom, forUpToM,
    show (2 : Nat) - 1 = 1 from rfl, show (1 : Nat) + 0 - 1 = 0 from rfl,
    show (1 : Nat) + 0 = 1 from rfl, Option.some_bind]
  have hP0 : Function.update (Function.update P0 0 (F 0 + offset)) 1 (F 1 + offset) 0
      = F 0 + offset := rfl
  have hP1 : Function.update (Function.update P0 0 (F 0 + offset)) 1 (F 1 + offset) 1
      = F 1 + offset := rfl
  generalize Function.update (Function.update P0 0 (F 0 + offset)) 1 (F 1 + offset) = P
    at hP0 hP1 ⊢
  have hW0 : Function.update (Function.update (fun _ => 0) 1 (E.U 1)) 0 (P 1) 0 = P 1 := rfl
  have hW1 : Function.update (Function.update (fun _ => 0) 1 (E.U 1)) 0 (P 1) 1 = E.U 1 := rfl
  generalize Function.update (Function.update (fun _ => 0) 1 (E.U 1)) 0 (P 1) = W at hW0 hW1 ⊢
  rw [hW0, hW1, hP0, hP1]
  rw [hP1] at hW0
  obtain ⟨μ4, h4, h4f, h4g, h4fr⟩ := premult2_eq E P
    (multbinary E.U E.m (fft E.BackwardsO E.m (F 1 + offset) (E.U 1)
      (fft E.BackwardsO E.m (F 0 + offset) (E.U 0) μ))) hs (by rw [hP0, hP1]; exact hfg)
  rw [hP0] at h4f
  rw [hP1] at h4g
  rw [hP0, hP1] at h4fr
  rw [h4, Option.some_bind]
  obtain ⟨ν, h10, h10f, -⟩ := postmultadd_eq E (F 0 + offset) (E.U 1)
    (fft E.ForwardsO E.m (E.U 0) (E.U 1)
      (fft E.ForwardsO E.m (F 1 + offset) (F 0 + offset)
        (multbinary W E.m
          (fft E.BackwardsO E.m (F 0 + offset) (F 1 + offset)
            (fft E.BackwardsO E.m (F 1 + offset) (E.U 1) μ4))))) hs hfu1
  refine ⟨ν, h10, ?_⟩
  have h4u0 : arr E.m μ4 (E.U 0) = arr E.m (multbinary E.U E.m
      (fft E.BackwardsO E.m (F 1 + offset) (E.U 1)
        (fft E.BackwardsO E.m (F 0 + offset) (E.U 0) μ))) (E.U 0) := by
    apply arr_ext
    intro k hk
    unfold NoOverlap at hfu0 hgu0
    exact h4fr _ (by omega) (by omega)
  rw [h10f]
  simp only [fft_arr, h4f, h4g, h4u0,
    fft_arr_other _ _ _ _ _ _ hfu0.symm, fft_arr_other _ _ _ _ _ _ hfu1.symm,
    fft_arr_other _ _ _ _ _ _ hgu0.symm, fft_arr_other _ _ _ _ _ _ hgu1.symm,
    fft_arr_other _ _ _ _ _ _ hfu0, fft_arr_other _ _ _ _ _ _ hfu1,
    fft_arr_other _ _ _ _ _ _ hgu0, fft_arr_other _ _ _ _ _ _ hgu1,
    fft_arr_other _ _ _ _ _ _ hfg, fft_arr_other _ _ _ _ _ _ hfg.symm,
    fft_arr_other _ _ _ _ _ _ hu01, fft_arr_other _ _ _ _ _ _ hu01.symm,
    multbinary_arr_at E.U E.m _ (E.U 0) (E.U 1) rfl rfl hu01,
    multbinary_arr_other_at E.U E.m _ (E.U 0) (E.U 1) (F 0 + offset) rfl rfl hu01 hfu0.symm,
    multbinary_arr_other_at E.U E.m _ (E.U 0) (E.U 1) (F 1 + offset) rfl rfl hu01 hgu0.symm,
    multbinary_arr_at W E.m _ (F 1 + offset) (E.U 1) hW0 hW1 hgu1,
    multbinary_arr_other_at W E.m _ (F 1 + offset) (E.U 1) (E.U 0) hW0 hW1 hgu1 hgu0,
    multbinary_arr_other_at W E.m _ (F 1 + offset) (E.U 1) (F 0 + offset) hW0 hW1 hgu1 hfg.symm]
  rfl

/-- The in-place path of `convolve` for `A = 2`, `B = 1` and `multbinary`. -/
theorem convolve_binary_inplace (E : ImplicitConvolution) (hA : E.A = 2) (hB : E.B = 1)
    (hs : 0 < E.s) (hoop : E.out_of_place = false) (F : Ptrs) (offset : Nat) (P0 : Ptrs)
    (μ : Mem)
    (hfg : NoOverlap (F 0 + offset) (F 1 + offset) E.m)
    (hfu0 : NoOverlap (F 0 + offset) (E.U 0) E.m)
    (hfu1 : NoOverlap (F 0 + offset) (E.U 1) E.m)
    (hgu0 : NoOverlap (F 1 + offset) (E.U 0) E.m)
    (hgu1 : NoOverlap (F 1 + offset) (E.U 1) E.m)
    (hu01 : NoOverlap (E.U 0) (E.U 1) E.m) :
    ∃ ν, E.convolve F multbinary offset P0 μ = some ν ∧
      arr E.m ν (F 0 + offset)
        = E.recombined E.BackwardsO E.Backwards E.Forwards E.Forwards
            (arr E.m μ (F 0 + offset)) (arr E.m μ (F 1 + offset)) := by
  unfold ImplicitConvolution.convolve
  simp only [hA, hB, hoop, premultA_two E hA, forUpTo, forUpToM, Option.some_bind]
  have hP0 : Function.update (Function.update P0 0 (F 0 + offset)) 1 (F 1 + offset) 0
      = F 0 + offset := rfl
  have hP1 : Function.update (Function.update P0 0 (F 0 + offset)) 1 (F 1 + offset) 1
      = F 1 + offset := rfl
  generalize Function.update (Function.update P0 0 (F 0 + offset)) 1 (F 1 + offset) = P
    at hP0 hP1 ⊢
  rw [hP0, hP1]
  obtain ⟨μ4, h4, h4f, h4g, h4fr⟩ := premult2_eq E P
    (multbinary E.U E.m (fft E.BackwardsO E.m (F 1 + offset) (E.U 1)
      (fft E.BackwardsO E.m (F 0 + offset) (E.U 0) μ))) hs (by rw [hP0, hP1]; exact hfg)
  rw [hP0] at h4f
  rw [hP1] at h4g
  rw [hP0, hP1] at h4fr
  rw [h4]
  simp only [Option.some_bind, Bool.false_eq_true, if_false]
  obtain ⟨ν, h10, h10f, -⟩ := postmultadd_eq E (F 0 + offset) (E.U 0)
    (fft E.Forwards E.m (E.U 0) (E.U 0)
      (fft E.Forwards E.m (F 0 + offset) (F 0 + offset)
        (multbinary P E.m
          (fft E.Backwards E.m (F 1 + offset) (F 1 + offset)
            (fft E.Backwards E.m (F 0 + offset) (F 0 + offset) μ4))))) hs hfu0
  refine ⟨ν, h10, ?_⟩
  have h4u0 : arr E.m μ4 (E.U 0) = arr E.m (multbinary E.U E.m
      (fft E.BackwardsO E.m (F 1 + offset) (E.U 1)
        (fft E.BackwardsO E.m (F 0 + offset) (E.U 0) μ))) (E.U 0) := by
    apply arr_ext
    intro k hk
    unfold NoOverlap at hfu0 hgu0
    exact h4fr _ (by omega) (by omega)
  rw [h10f]
  simp only [fft_arr, h4f, h4g, h4u0,
    fft_arr_other _ _ _ _ _ _ hfu0.symm, fft_arr_other _ _ _ _ _ _ hfu1.symm,
    fft_arr_other _ _ _ _ _ _ hgu0.symm, fft_arr_other _ _ _ _ _ _ hgu1.symm,
    fft_arr_other _ _ _ _ _ _ hfu0, fft_arr_other _ _ _ _ _ _ hfu1,
    fft_arr_other _ _ _ _ _ _ hgu0, fft_arr_other _ _ _ _ _ _ hgu1,
    fft_arr_other _ _ _ _ _ _ hfg, fft_arr_other _ _ _ _ _ _ hfg.symm,
    fft_arr_other _ _ _ _ _ _ hu01, fft_arr_other _ _ _ _ _ _ hu01.symm,
    multbinary_arr_at E.U E.m _ (E.U 0) (E.U 1) rfl rfl hu01,
    multbinary_arr_other_at E.U E.m _ (E.U 0) (E.U 1) (F 0 + offset) rfl rfl hu01 hfu0.symm,
    multbinary_arr_other_at E.U E.m _ (E.U 0) (E.U 1) (F 1 + offset) rfl rfl hu01 hgu0.symm,
    multbinary_arr_at P E.m _ (F 0 + offset) (F 1 + offset) hP0 hP1 hfg,
    multbinary_arr_other_at P E.m _ (F 0 + offset) (F 1 + offset) (E.U 0) hP0 hP1 hfg hfu0]
  rfl

theorem mult_autoconvolution_arr_at (F : Ptrs) (m : Nat) (μ : Mem) (p : Nat) (h0 : F 0 = p) :
    arr m (mult_autoconvolution F m μ) p = fun k => arr m μ p k * arr m μ p k := by
  subst h0
  exact mult_autoconvolution_arr F m μ

theorem mult_autoconvolution_arr_other_at (F : Ptrs) (m : Nat) (μ : Mem) (p r : Nat)
    (h0 : F 0 = p) (hr : NoOverlap p r m) :
    arr m (mult_autoconvolution F m μ) r = arr m μ r := by
  subst h0
  exact mult_autoconvolution_arr_other F m r μ hr

/-- The in-place path of `convolve` for `A = B = 1` and `mult_autoconvolution`. -/
theorem convolve_auto_inplace (E : ImplicitConvolution) (hA : E.A = 1) (hB : E.B = 1)
    (hs : 0 < E.s) (hoop : E.out_of_place = false) (F : Ptrs) (offset : Nat) (P0 : Ptrs)
    (μ : Mem) (hfu0 : NoOverlap (F 0 + offset) (E.U 0) E.m) :
    ∃ ν, E.convolve F mult_autoconvolution offset P0 μ = some ν ∧
      arr E.m ν (F 0 + offset)
        = E.recombined E.BackwardsO E.Backwards E.Forwards E.Forwards
            (arr E.m μ (F 0 + offset)) (arr E.m μ (F 0 + offset)) := by
  unfold ImplicitConvolution.convolve
  simp only [hA, hB, hoop, premultA_one E hA, forUpTo, forUpToM, Option.some_bind]
  have hP0 : Function.update P0 0 (F 0 + offset) 0 = F 0 + offset := rfl
  generalize Function.update P0 0 (F 0 + offset) = P at hP0 ⊢
  rw [hP0]
  obtain ⟨μ3, h3, h3f, h3fr⟩ := premult1_eq E P
    (mult_autoconvolution E.U E.m (fft E.BackwardsO E.m (F 0 + offset) (E.U 0) μ)) hs
  rw [hP0] at h3f h3fr
  rw [h3]
  simp only [Option.some_bind, Bool.false_eq_true, if_false]
  obtain ⟨ν, h10, h10f, -⟩ := postmultadd_eq E (F 0 + offset) (E.U 0)
    (fft E.Forwards E.m (E.U 0) (E.U 0)
      (fft E.Forwards E.m (F 0 + offset) (F 0 + offset)
        (mult_autoconvolution P E.m
          (fft E.Backwards E.m (F 0 + offset) (F 0 + offset) μ3)))) hs hfu0
  refine ⟨ν, h10, ?_⟩
  have h3u0 : arr E.m μ3 (E.U 0) = arr E.m (mult_autoconvolution E.U E.m
      (fft E.BackwardsO E.m (F 0 + offset) (E.U 0) μ)) (E.U 0) :=
    arr_frame E.m (F 0 + offset) (E.U 0) _ μ3 h3fr hfu0
  rw [h10f]
  simp only [fft_arr, h3f, h3u0,
    fft_arr_other _ _ _ _ _ _ hfu0.symm, fft_arr_other _ _ _ _ _ _ hfu0,
    mult_autoconvolution_arr_at E.U E.m _ (E.U 0) rfl,
    mult_autoconvolution_arr_other_at E.U E.m _ (E.U 0) (F 0 + offset) rfl hfu0.symm,
    mult_autoconvolution_arr_at P E.m _ (F 0 + offset) hP0,
    mult_autoconvolution_arr_other_at P E.m _ (F 0 + offset) (E.U 0) hP0 hfu0]
  rfl

/-! ## The zeta table -/

theorem cos_sin_eq_exp (θ : ℝ) :
    (⟨Real.cos θ, Real.sin θ⟩ : ℂ) = Complex.exp (θ * Complex.I) := by
  apply Complex.ext
  · simp [Complex.exp_ofReal_mul_I_re]
  · simp [Complex.exp_ofReal_mul_I_im]

theorem tab_map_range (f : Nat → ℂ) (t a : Nat) (h : a < t) :
    tab ((List.range t).map f) a = f a := by
  simp [tab, List.getD_eq_getElem?_getD, h]

theorem BuildZeta_s (n m : Nat) : (BuildZeta n m).s = Nat.sqrt m := rfl

theorem BuildZeta_ZetaL_length (n m : Nat) : (BuildZeta n m).ZetaL.length = Nat.sqrt m := by
  simp [BuildZeta]

theorem BuildZeta_ZetaH_length (n m : Nat) :
    (BuildZeta n m).ZetaH.length
      = if Nat.sqrt m * (m / Nat.sqrt m) < m then m / Nat.sqrt m + 1 else m / Nat.sqrt m := by
  simp [BuildZeta]

/-- The number of `ZetaH` entries is `m/s` rounded up. -/
theorem BuildZeta_ZetaH_length_bounds (n m : Nat) (hm : 1 ≤ m) :
    m ≤ Nat.sqrt m * (BuildZeta n m).ZetaH.length ∧
    Nat.sqrt m * ((BuildZeta n m).ZetaH.length - 1) < m ∧
    (BuildZeta n m).ZetaH.length = (m + Nat.sqrt m - 1) / Nat.sqrt m := by
  have hs : 0 < Nat.sqrt m := Nat.sqrt_pos.mpr hm
  rw [BuildZeta_ZetaH_length]
  have hdm := Nat.div_add_mod m (Nat.sqrt m)
  have hml := Nat.mod_lt m hs
  generalize Nat.sqrt m = s at *
  generalize hq : m / s = q at *
  generalize hr : m % s = r at *
  by_cases hc : s * q < m
  · rw [if_pos hc]
    refine ⟨?_, ?_, ?_⟩
    · rw [Nat.mul_add]; omega
    · simpa using hc
    · symm
      have h1 : m + s - 1 = (r - 1) + s * (q + 1) := by rw [Nat.mul_add]; omega
      rw [h1, Nat.add_mul_div_left _ _ hs, Nat.div_eq_of_lt (by omega)]
      omega
  · rw [if_neg hc]
    have hr0 : r = 0 := by omega
    have hq1 : 1 ≤ q := by
      rcases Nat.eq_zero_or_pos q with h0 | h0
      · subst h0; omega
      · exact h0
    refine ⟨by omega, ?_, ?_⟩
    · have : s * (q - 1) + s = s * q := by
        have : q = (q - 1) + 1 := by omega
        conv_rhs => rw [this, Nat.mul_add, Nat.mul_one]
      omega
    · symm
      have h1 : m + s - 1 = (s - 1) + s * q := by omega
      rw [h1, Nat.add_mul_div_left _ _ hs, Nat.div_eq_of_lt (by omega)]
      omega

theorem BuildZeta_ZetaH_entry (n m a : Nat) (ha : a < (BuildZeta n m).ZetaH.length) :
    tab (BuildZeta n m).ZetaH a
      = Complex.exp (2 * Real.pi * Complex.I * ((Nat.sqrt m * a : Nat) : ℂ) / n) := by
  rw [BuildZeta_ZetaH_length] at ha
  have : tab (BuildZeta n m).ZetaH a
      = (⟨Real.cos (((Nat.sqrt m * a : Nat) : ℝ) * (2 * Real.pi / n)),
          Real.sin (((Nat.sqrt m * a : Nat) : ℝ) * (2 * Real.pi / n))⟩ : ℂ) := by
    unfold BuildZeta
    exact tab_map_range _ _ a ha
  rw [this, cos_sin_eq_exp]
  congr 1
  push_cast
  ring

theorem BuildZeta_ZetaL_entry (n m b : Nat) (hb : b < Nat.sqrt m) :
    tab (BuildZeta n m).ZetaL b = Complex.exp (2 * Real.pi * Complex.I * (b : ℂ) / n) := by
  have : tab (BuildZeta n m).ZetaL b
      = (⟨Real.cos ((b : ℝ) * (2 * Real.pi / n)), Real.sin ((b : ℝ) * (2 * Real.pi / n))⟩ : ℂ) := by
    unfold BuildZeta
    exact tab_map_range _ _ b hb
  rw [this, cos_sin_eq_exp]
  congr 1
  push_cast
  ring

/-- The two-factor lookup: `ZetaH[k/s]*ZetaL[k%s]` is the `n`-th root of unity of index `k`. -/
theorem BuildZeta_lookup (n m k : Nat) (hk : k < m) :
    tab (BuildZeta n m).ZetaH (k / Nat.sqrt m) * tab (BuildZeta n m).ZetaL (k % Nat.sqrt m)
      = Complex.exp (2 * Real.pi * Complex.I * (k : ℂ) / n) := by
  have hm : 1 ≤ m := by omega
  have hs : 0 < Nat.sqrt m := Nat.sqrt_pos.mpr hm
  have hlen := (BuildZeta_ZetaH_length_bounds n m hm).1
  have ha : k / Nat.sqrt m < (BuildZeta n m).ZetaH.length := by
    rw [Nat.div_lt_iff_lt_mul hs]
    calc k < m := hk
      _ ≤ Nat.sqrt m * (BuildZeta n m).ZetaH.length := hlen
      _ = (BuildZeta n m).ZetaH.length * Nat.sqrt m := Nat.mul_comm _ _
  rw [BuildZeta_ZetaH_entry n m _ ha, BuildZeta_ZetaL_entry n m _ (Nat.mod_lt k hs),
    ← Complex.exp_add]
  congr 1
  have hk2 : (k : ℂ) = ((Nat.sqrt m * (k / Nat.sqrt m) : Nat) : ℂ) + ((k % Nat.sqrt m : Nat) : ℂ) := by
    rw [← Nat.cast_add, Nat.div_add_mod]
  rw [hk2]
  ring

/-- C3: for `n ≥ 1`, `m ≥ 1` and `k < m`, with `ZetaH`, `ZetaL`, `s` from `BuildZeta(n, m)`,
`ZetaH[k / s] * ZetaL[k mod s] = e^(2πik/n)`. -/
theorem BuildZeta_factorisation (n m k : Nat) (hn : 1 ≤ n) (hm : 1 ≤ m) (hk : k < m) :
    tab (BuildZeta n m).ZetaH (k / (BuildZeta n m).s)
        * tab (BuildZeta n m).ZetaL (k % (BuildZeta n m).s)
      = Complex.exp (2 * Real.pi * Complex.I * (k : ℂ) / n) :=
  BuildZeta_lookup n m k hk

/-- Witness of C3: `n = 8`, `m = 5`, `k = 3`. -/
theorem BuildZeta_factorisation_witness :
    (1 ≤ 8 ∧ 1 ≤ 5 ∧ 3 < 5) ∧
    tab (BuildZeta 8 5).ZetaH (3 / (BuildZeta 8 5).s) * tab (BuildZeta 8 5).ZetaL (3 % (BuildZeta 8 5).s)
      = Complex.exp (2 * Real.pi * Complex.I * ((3 : Nat) : ℂ) / (8 : Nat)) :=
  ⟨by decide, BuildZeta_factorisation 8 5 3 (by decide) (by decide) (by decide)⟩

/-- C4: for `n ≥ 1` and `m ≥ 1`, `BuildZeta(n, m)` returns `s = floor(sqrt(m))` (so `s ≥ 1` and
`s*s ≤ m < (s+1)*(s+1)`), gives `ZetaH` `t = ceil(m/s)` entries (`s*t ≥ m`, `s*(t-1) < m`) and
`ZetaL` `s` entries, with `ZetaH[a] = e^(2πi·s·a/n)` for `a < t` and `ZetaL[b] = e^(2πi·b/n)` for
`b < s`. -/
theorem BuildZeta_spec (n m : Nat) (hn : 1 ≤ n) (hm : 1 ≤ m) :
    (BuildZeta n m).s = Nat.sqrt m ∧ 1 ≤ (BuildZeta n m).s ∧
    (BuildZeta n m).s * (BuildZeta n m).s ≤ m ∧
    m < ((BuildZeta n m).s + 1) * ((BuildZeta n m).s + 1) ∧
    (BuildZeta n m).ZetaL.length = (BuildZeta n m).s ∧
    m ≤ (BuildZeta n m).s * (BuildZeta n m).ZetaH.length ∧
    (BuildZeta n m).s * ((BuildZeta n m).ZetaH.length - 1) < m ∧
    (BuildZeta n m).ZetaH.length = (m + (BuildZeta n m).s - 1) / (BuildZeta n m).s ∧
    (∀ a, a < (BuildZeta n m).ZetaH.length → tab (BuildZeta n m).ZetaH a
      = Complex.exp (2 * Real.pi * Complex.I * (((BuildZeta n m).s * a : Nat) : ℂ) / n)) ∧
    (∀ b, b < (BuildZeta n m).s → tab (BuildZeta n m).ZetaL b
      = Complex.exp (2 * Real.pi * Complex.I * (b : ℂ) / n)) := by
  have hb := BuildZeta_ZetaH_length_bounds n m hm
  exact ⟨rfl, Nat.sqrt_pos.mpr hm, Nat.sqrt_le m, Nat.lt_succ_sqrt m,
    BuildZeta_ZetaL_length n m, hb.1, hb.2.1, hb.2.2,
    fun a ha => BuildZeta_ZetaH_entry n m a ha, fun b hb2 => BuildZeta_ZetaL_entry n m b hb2⟩

/-- Witness of C4: `n = 8`, `m = 5`, reading off the block size. -/
theorem BuildZeta_spec_witness :
    (1 ≤ 8 ∧ 1 ≤ 5) ∧ (BuildZeta 8 5).s = Nat.sqrt 5 :=
  ⟨by decide, (BuildZeta_spec 8 5 (by decide) (by decide)).1⟩

/-! ## The exact transform pair and the zeta table of `BuildZeta(2m, m)` -/

theorem exp_two_pi_pow (m e : Nat) :
    Complex.exp (2 * Real.pi * Complex.I * (e : ℂ) / (m : ℂ))
      = Complex.exp (2 * Real.pi * Complex.I / (m : ℂ)) ^ e := by
  rw [← Complex.exp_nat_mul]
  congr 1
  ring

theorem dft_pos_eq (m : Nat) (x : Nat → ℂ) (t : Nat) :
    dft 1 m x t
      = ∑ a in Finset.range m, x a * Complex.exp (2 * Real.pi * Complex.I / (m : ℂ)) ^ (a * t) := by
  unfold dft
  apply Finset.sum_congr rfl
  intro a _
  rw [← exp_two_pi_pow]
  congr 2
  push_cast
  ring

theorem dft_neg_eq (m : Nat) (x : Nat → ℂ) (k : Nat) :
    dft (-1) m x k
      = ∑ t in Finset.range m,
          x t * (Complex.exp (2 * Real.pi * Complex.I / (m : ℂ)) ^ (t * k))⁻¹ := by
  unfold dft
  apply Finset.sum_congr rfl
  intro t _
  rw [← exp_two_pi_pow, ← Complex.exp_neg]
  congr 2
  push_cast
  ring

theorem init_zetak (m A B : Nat) (U : Ptrs) (bw fw : Transform) (k : Nat) (hk : k < m) :
    (ImplicitConvolution.init m A B U bw fw).zetak k
      = Complex.exp (2 * Real.pi * Complex.I / ((2 * m : Nat) : ℂ)) ^ k := by
  rw [← exp_two_pi_pow]
  exact BuildZeta_lookup (2 * m) m k hk

theorem zeta_pow_m (m : Nat) (hm : 0 < m) :
    Complex.exp (2 * Real.pi * Complex.I / ((2 * m : Nat) : ℂ)) ^ m = -1 := by
  rw [← Complex.exp_nat_mul, ← Complex.exp_pi_mul_I]
  congr 1
  have : (m : ℂ) ≠ 0 := by exact_mod_cast hm.ne'
  push_cast
  field_simp
  ring

theorem zeta_conj_mul (n : Nat) :
    (starRingEnd ℂ) (Complex.exp (2 * Real.pi * Complex.I / (n : ℂ)))
      * Complex.exp (2 * Real.pi * Complex.I / (n : ℂ)) = 1 := by
  rw [← Complex.exp_conj, ← Complex.exp_add, ← Complex.exp_zero]
  congr 1
  have h2 : (starRingEnd ℂ) (2 : ℂ) = 2 := Complex.conj_ofReal 2
  have hn : (starRingEnd ℂ) (n : ℂ) = n := Complex.conj_natCast n
  rw [map_div₀, map_mul, map_mul, Complex.conj_I, Complex.conj_ofReal, h2, hn]
  ring

/-! ## Roots of unity: the mathematics of the recombination -/

theorem root_orthogonality (ω : ℂ) (m : ℕ) (hω : IsPrimitiveRoot ω m) (hm : 0 < m) (e k : ℕ)
    (he : e < 2 * m) (hk : k < m) :
    ∑ t in Finset.range m, ω ^ (e * t) * (ω ^ (t * k))⁻¹
      = if e = k ∨ e = k + m then (m : ℂ) else 0 := by
  have hω0 : ω ≠ 0 := hω.ne_zero hm.ne'
  have hωm : ω ^ m = 1 := hω.pow_eq_one
  have hterm : ∀ t, ω ^ (e * t) * (ω ^ (t * k))⁻¹ = (ω ^ e * (ω ^ k)⁻¹) ^ t := by
    intro t
    rw [mul_pow, inv_pow, ← pow_mul, ← pow_mul, Nat.mul_comm k t]
  simp only [hterm]
  by_cases h : e = k ∨ e = k + m
  · rw [if_pos h]
    have h1 : ω ^ e * (ω ^ k)⁻¹ = 1 := by
      rcases h with rfl | rfl
      · exact mul_inv_cancel₀ (pow_ne_zero _ hω0)
      · rw [pow_add, hωm, mul_one]
        exact mul_inv_cancel₀ (pow_ne_zero _ hω0)
    simp [h1]
  · rw [if_neg h]
    have hne : ω ^ e * (ω ^ k)⁻¹ ≠ 1 := by
      intro h1
      have h2 : ω ^ e = ω ^ k := by
        have := congrArg (fun z => z * ω ^ k) h1
        simpa [mul_assoc, inv_mul_cancel₀ (pow_ne_zero k hω0)] using this
      by_cases hem : e < m
      · exact h (Or.inl (hω.pow_inj hem hk h2))
      · have h3 : ω ^ (e - m) = ω ^ k := by
          have : e = (e - m) + m := by omega
          rw [this, pow_add, hωm, mul_one] at h2
          exact h2
        have := hω.pow_inj (by omega) hk h3
        exact h (Or.inr (by omega))
    have hpow : (ω ^ e * (ω ^ k)⁻¹) ^ m = 1 := by
      rw [mul_pow, inv_pow, ← pow_mul, ← pow_mul, Nat.mul_comm e m, Nat.mul_comm k m, pow_mul,
        pow_mul, hωm, one_pow, one_pow, inv_one, mul_one]
    have hg := geom_sum_mul (ω ^ e * (ω ^ k)⁻¹) m
    rw [hpow, sub_self] at hg
    rcases mul_eq_zero.mp hg with h0 | h0
    · exact h0
    · exact absurd (sub_eq_zero.mp h0) hne

theorem circular_sum (ω : ℂ) (m : ℕ) (hω : IsPrimitiveRoot ω m) (hm : 0 < m) (c d : ℕ → ℂ)
    (k : ℕ) (hk : k < m) :
    ∑ t in Finset.range m, (∑ a in Finset.range m, c a * ω ^ (a * t)) * (∑ b in Finset.range m, d b * ω ^ (b * t))
        * (ω ^ (t * k))⁻¹
      = ∑ a in Finset.range m, ∑ b in Finset.range m,
          c a * d b * (if a + b = k ∨ a + b = k + m then (m : ℂ) else 0) := by
  have h1 : ∀ t, (∑ a in Finset.range m, c a * ω ^ (a * t)) * (∑ b in Finset.range m, d b * ω ^ (b * t))
        * (ω ^ (t * k))⁻¹
      = ∑ a in Finset.range m, ∑ b in Finset.range m,
          c a * d b * (ω ^ ((a + b) * t) * (ω ^ (t * k))⁻¹) := by
    intro t
    rw [Finset.sum_mul_sum, Finset.sum_mul]
    apply Finset.sum_congr rfl
    intro a _
    rw [Finset.sum_mul]
    apply Finset.sum_congr rfl
    intro b _
    rw [add_mul, pow_add]
    ring
  simp only [h1]
  rw [Finset.sum_comm]
  apply Finset.sum_congr rfl
  intro a ha
  rw [Finset.sum_comm]
  apply Finset.sum_congr rfl
  intro b hb
  rw [← Finset.mul_sum, root_orthogonality ω m hω hm (a + b) k
    (by have := Finset.mem_range.mp ha; have := Finset.mem_range.mp hb; omega) hk]

theorem diagonal_sum (m : ℕ) (x y : ℕ → ℂ) (k : ℕ) (hk : k < m) :
    ∑ a in Finset.range m, ∑ b in Finset.range m, (if a + b = k then x a * y b else 0)
      = ∑ j in Finset.range (k + 1), x j * y (k - j) := by
  have hinner : ∀ a, a ∈ Finset.range m →
      ∑ b in Finset.range m, (if a + b = k then x a * y b else 0)
        = if a < k + 1 then x a * y (k - a) else 0 := by
    intro a _
    by_cases hak : a < k + 1
    · rw [if_pos hak]
      rw [Finset.sum_eq_single (k - a)]
      · rw [if_pos (by omega)]
      · intro b _ hb
        rw [if_neg (by omega)]
      · intro hb
        exact absurd (Finset.mem_range.mpr (by omega)) hb
    · rw [if_neg hak]
      apply Finset.sum_eq_zero
      intro b _
      rw [if_neg (by omega)]
  rw [Finset.sum_congr rfl hinner, ← Finset.sum_filter]
  congr 1
  ext a
  simp only [Finset.mem_filter, Finset.mem_range]
  omega

theorem implicit_core (m : ℕ) (hm : 0 < m) (ω ζ ninv : ℂ) (hω : IsPrimitiveRoot ω m)
    (hζm : ζ ^ m = -1) (hζ : (starRingEnd ℂ) ζ * ζ = 1) (hnr : (starRingEnd ℂ) ninv = ninv)
    (hn : ninv * m * 2 = 1) (x y : ℕ → ℂ) (k : ℕ) (hk : k < m) :
    (starRingEnd ℂ) (ninv * ζ ^ k)
        * (∑ t in Finset.range m, (∑ a in Finset.range m, (ζ ^ a * x a) * ω ^ (a * t))
            * (∑ b in Finset.range m, (ζ ^ b * y b) * ω ^ (b * t)) * (ω ^ (t * k))⁻¹)
      + ninv * (∑ t in Finset.range m, (∑ a in Finset.range m, x a * ω ^ (a * t))
            * (∑ b in Finset.range m, y b * ω ^ (b * t)) * (ω ^ (t * k))⁻¹)
      = ∑ j in Finset.range (k + 1), x j * y (k - j) := by
  rw [circular_sum ω m hω hm _ _ k hk, circular_sum ω m hω hm _ _ k hk,
    ← diagonal_sum m x y k hk, Finset.mul_sum, Finset.mul_sum, ← Finset.sum_add_distrib]
  apply Finset.sum_congr rfl
  intro a _
  rw [Finset.mul_sum, Finset.mul_sum, ← Finset.sum_add_distrib]
  apply Finset.sum_congr rfl
  intro b _
  have hck : (starRingEnd ℂ) (ζ ^ k) * ζ ^ k = 1 := by
    rw [map_pow, ← mul_pow, hζ, one_pow]
  by_cases h1 : a + b = k
  · have hor : a + b = k ∨ a + b = k + m := Or.inl h1
    rw [if_pos hor, if_pos h1, map_mul, hnr]
    have : ζ ^ a * x a * (ζ ^ b * y b) = ζ ^ k * (x a * y b) := by
      rw [← h1, pow_add]; ring
    rw [this]
    calc ninv * (starRingEnd ℂ) (ζ ^ k) * (ζ ^ k * (x a * y b) * (m : ℂ))
          + ninv * (x a * y b * (m : ℂ))
        = ((starRingEnd ℂ) (ζ ^ k) * ζ ^ k) * (ninv * m) * (x a * y b)
          + (ninv * m) * (x a * y b) := by ring
      _ = (ninv * m * 2) * (x a * y b) := by rw [hck]; ring
      _ = x a * y b := by rw [hn, one_mul]
  · rw [if_neg h1]
    by_cases h2 : a + b = k + m
    · have hor : a + b = k ∨ a + b = k + m := Or.inr h2
      rw [if_pos hor, map_mul, hnr]
      have : ζ ^ a * x a * (ζ ^ b * y b) = ζ ^ k * ζ ^ m * (x a * y b) := by
        rw [← pow_add, ← h2, pow_add]; ring
      rw [this, hζm]
      calc ninv * (starRingEnd ℂ) (ζ ^ k) * (ζ ^ k * -1 * (x a * y b) * (m : ℂ))
            + ninv * (x a * y b * (m : ℂ))
          = (1 - (starRingEnd ℂ) (ζ ^ k) * ζ ^ k) * (ninv * m) * (x a * y b) := by ring
        _ = 0 := by rw [hck]; ring
    · have hor : ¬ (a + b = k ∨ a + b = k + m) := by
        intro h
        rcases h with h | h
        · exact h1 h
        · exact h2 h
      rw [if_neg hor]
      ring

/-- With the tables of `BuildZeta(2m, m)` and the exact transform pair, the recombined value
is the coefficient of index `k` of the linear convolution. -/
theorem recombined_dft (m A B : Nat) (U : Ptrs) (hm : 0 < m) (x y : Nat → ℂ) (k : Nat)
    (hk : k < m) :
    (ImplicitConvolution.init m A B U (dft 1 m) (dft (-1) m)).recombined
        (dft 1 m) (dft 1 m) (dft (-1) m) (dft (-1) m) x y k
      = ∑ j in Finset.range (k + 1), x j * y (k - j) := by
  have hEm : (ImplicitConvolution.init m A B U (dft 1 m) (dft (-1) m)).m = m := rfl
  unfold ImplicitConvolution.recombined
  rw [hEm, restr_apply _ _ _ hk, restr_apply _ _ _ hk, dft_neg_eq, dft_neg_eq,
    init_zetak m A B U _ _ k hk]
  have hodd : ∀ t, t ∈ Finset.range m →
      restr m (dft 1 m fun j =>
            (ImplicitConvolution.init m A B U (dft 1 m) (dft (-1) m)).zetak j * x j) t
          * restr m (dft 1 m fun j =>
            (ImplicitConvolution.init m A B U (dft 1 m) (dft (-1) m)).zetak j * y j) t
          * (Complex.exp (2 * Real.pi * Complex.I / (m : ℂ)) ^ (t * k))⁻¹
        = (∑ a in Finset.range m,
              (Complex.exp (2 * Real.pi * Complex.I / ((2 * m : Nat) : ℂ)) ^ a * x a)
                * Complex.exp (2 * Real.pi * Complex.I / (m : ℂ)) ^ (a * t))
          * (∑ b in Finset.range m,
              (Complex.exp (2 * Real.pi * Complex.I / ((2 * m : Nat) : ℂ)) ^ b * y b)
                * Complex.exp (2 * Real.pi * Complex.I / (m : ℂ)) ^ (b * t))
          * (Complex.exp (2 * Real.pi * Complex.I / (m : ℂ)) ^ (t * k))⁻¹ := by
    intro t ht
    rw [restr_apply _ _ _ (Finset.mem_range.mp ht), restr_apply _ _ _ (Finset.mem_range.mp ht),
      dft_pos_eq, dft_pos_eq]
    congr 2
    · apply Finset.sum_congr rfl
      intro a ha
      rw [init_zetak m A B U _ _ a (Finset.mem_range.mp ha)]
    · apply Finset.sum_congr rfl
      intro b hb
      rw [init_zetak m A B U _ _ b (Finset.mem_range.mp hb)]
  have heven : ∀ t, t ∈ Finset.range m →
      restr m (dft 1 m x) t * restr m (dft 1 m y) t
          * (Complex.exp (2 * Real.pi * Complex.I / (m : ℂ)) ^ (t * k))⁻¹
        = (∑ a in Finset.range m,
              x a * Complex.exp (2 * Real.pi * Complex.I / (m : ℂ)) ^ (a * t))
          * (∑ b in Finset.range m,
              y b * Complex.exp (2 * Real.pi * Complex.I / (m : ℂ)) ^ (b * t))
          * (Complex.exp (2 * Real.pi * Complex.I / (m : ℂ)) ^ (t * k))⁻¹ := by
    intro t ht
    rw [restr_apply _ _ _ (Finset.mem_range.mp ht), restr_apply _ _ _ (Finset.mem_range.mp ht),
      dft_pos_eq, dft_pos_eq]
  rw [Finset.sum_congr rfl hodd, Finset.sum_congr rfl heven]
  have hmC : (m : ℂ) ≠ 0 := by exact_mod_cast hm.ne'
  exact implicit_core m hm _ _ _ (Complex.isPrimitiveRoot_exp m hm.ne') (zeta_pow_m m hm)
    (zeta_conj_mul (2 * m)) (Complex.conj_ofReal _)
    (by push_cast; field_simp; norm_num) x y k hk

/-! ## The claims about `ImplicitConvolution::convolve` -/

theorem sum_arr_eq (m : Nat) (mem : Mem) (p q k : Nat) (hk : k < m) :
    ∑ j in Finset.range (k + 1), arr m mem p j * arr m mem q (k - j)
      = ∑ j in Finset.range (k + 1), mem (p + j) * mem (q + (k - j)) := by
  apply Finset.sum_congr rfl
  intro j hj
  have := Finset.mem_range.mp hj
  rw [arr_apply _ _ _ _ (by omega), arr_apply _ _ _ _ (by omega)]

/-- C1: for `m ≥ 1` and buffers `f = F[0]`, `g = F[1]`, `U[0]`, `U[1]` of `m` cells that do not
overlap, `convolve` with `A = 2`, `B = 1`, offset `0`, `multbinary`, the zeta table of
`BuildZeta(2m, m)` and the exact unnormalised length-`m` DFT pair returns and leaves
`F[0][k] = sum over j = 0..k of f[j]*g[k-j]` for every `k < m`: the first `m` coefficients of
the linear convolution, without wrap-around terms. -/
theorem convolve_multbinary_linear (m : Nat) (hm : 1 ≤ m) (F U P0 : Ptrs) (mem : Mem)
    (hfg : NoOverlap (F 0) (F 1) m) (hfu0 : NoOverlap (F 0) (U 0) m)
    (hfu1 : NoOverlap (F 0) (U 1) m) (hgu0 : NoOverlap (F 1) (U 0) m)
    (hgu1 : NoOverlap (F 1) (U 1) m) (hu01 : NoOverlap (U 0) (U 1) m) :
    ∃ out, (ImplicitConvolution.init m 2 1 U (dft 1 m) (dft (-1) m)).convolve
          F multbinary 0 P0 mem = some out ∧
      ∀ k, k < m →
        out (F 0 + k) = ∑ j in Finset.range (k + 1), mem (F 0 + j) * mem (F 1 + (k - j)) := by
  obtain ⟨out, hrun, hout⟩ := convolve_binary_oop
    (ImplicitConvolution.init m 2 1 U (dft 1 m) (dft (-1) m)) rfl rfl
    (Nat.sqrt_pos.mpr hm) rfl F 0 P0 mem hfg hfu0 hfu1 hgu0 hgu1 hu01
  refine ⟨out, hrun, ?_⟩
  intro k hk
  have h1 : arr m out (F 0) k
      = (ImplicitConvolution.init m 2 1 U (dft 1 m) (dft (-1) m)).recombined
          (dft 1 m) (dft 1 m) (dft (-1) m) (dft (-1) m) (arr m mem (F 0)) (arr m mem (F 1)) k :=
    congrFun hout k
  rw [arr_apply m out (F 0) k hk] at h1
  have h2 := recombined_dft m 2 1 U hm (arr m mem (F 0)) (arr m mem (F 1)) k hk
  have h3 := sum_arr_eq m mem (F 0) (F 1) k hk
  exact h1.trans (h2.trans h3)

/-- Witness of C1: `m = 3`, `f` at 0, `g` at 3, scratch at 6 and 9. -/
theorem convolve_multbinary_linear_witness :
    (1 ≤ 3 ∧ NoOverlap (ptrs [0, 3] 0) (ptrs [0, 3] 1) 3) ∧
    ∃ out, (ImplicitConvolution.init 3 2 1 (ptrs [6, 9]) (dft 1 3) (dft (-1) 3)).convolve
          (ptrs [0, 3]) multbinary 0 (ptrs []) (fun a => (a : ℂ)) = some out ∧
      ∀ k, k < 3 →
        out (ptrs [0, 3] 0 + k) = ∑ j in Finset.range (k + 1),
          (fun a : Nat => (a : ℂ)) (ptrs [0, 3] 0 + j)
            * (fun a : Nat => (a : ℂ)) (ptrs [0, 3] 1 + (k - j)) :=
  ⟨by decide, convolve_multbinary_linear 3 (by decide) (ptrs [0, 3]) (ptrs [6, 9]) (ptrs [])
    (fun a => (a : ℂ)) (by decide) (by decide) (by decide) (by decide) (by decide) (by decide)⟩

/-- The in-place path (`out_of_place` false) returns the same coefficients for `A = 2`,
`B = 1` and `multbinary`. -/
theorem convolve_multbinary_linear_inplace (m : Nat) (hm : 1 ≤ m) (F U P0 : Ptrs) (mem : Mem)
    (hfg : NoOverlap (F 0) (F 1) m) (hfu0 : NoOverlap (F 0) (U 0) m)
    (hfu1 : NoOverlap (F 0) (U 1) m) (hgu0 : NoOverlap (F 1) (U 0) m)
    (hgu1 : NoOverlap (F 1) (U 1) m) (hu01 : NoOverlap (U 0) (U 1) m) :
    ∃ out, ImplicitConvolution.convolve
          { ImplicitConvolution.init m 2 1 U (dft 1 m) (dft (-1) m) with out_of_place := false }
          F multbinary 0 P0 mem = some out ∧
      ∀ k, k < m →
        out (F 0 + k) = ∑ j in Finset.range (k + 1), mem (F 0 + j) * mem (F 1 + (k - j)) := by
  obtain ⟨out, hrun, hout⟩ := convolve_binary_inplace
    { ImplicitConvolution.init m 2 1 U (dft 1 m) (dft (-1) m) with out_of_place := false }
    rfl rfl (Nat.sqrt_pos.mpr hm) rfl F 0 P0 mem hfg hfu0 hfu1 hgu0 hgu1 hu01
  refine ⟨out, hrun, ?_⟩
  intro k hk
  have h1 : arr m out (F 0) k
      = (ImplicitConvolution.init m 2 1 U (dft 1 m) (dft (-1) m)).recombined
          (dft 1 m) (dft 1 m) (dft (-1) m) (dft (-1) m) (arr m mem (F 0)) (arr m mem (F 1)) k :=
    congrFun hout k
  rw [arr_apply m out (F 0) k hk] at h1
  have h2 := recombined_dft m 2 1 U hm (arr m mem (F 0)) (arr m mem (F 1)) k hk
  have h3 := sum_arr_eq m mem (F 0) (F 1) k hk
  exact h1.trans (h2.trans h3)

theorem convolve_auto_general (m : Nat) (hm : 1 ≤ m) (F U P0 : Ptrs) (mem : Mem)
    (hfu0 : NoOverlap (F 0) (U 0) m) :
    ∃ out, (ImplicitConvolution.init m 1 1 U (dft 1 m) (dft (-1) m)).convolve
          F mult_autoconvolution 0 P0 mem = some out ∧
      ∀ k, k < m →
        out (F 0 + k) = ∑ j in Finset.range (k + 1), mem (F 0 + j) * mem (F 0 + (k - j)) := by
  obtain ⟨out, hrun, hout⟩ := convolve_auto_inplace
    (ImplicitConvolution.init m 1 1 U (dft 1 m) (dft (-1) m)) rfl rfl
    (Nat.sqrt_pos.mpr hm) rfl F 0 P0 mem hfu0
  refine ⟨out, hrun, ?_⟩
  intro k hk
  have h1 : arr m out (F 0) k
      = (ImplicitConvolution.init m 1 1 U (dft 1 m) (dft (-1) m)).recombined
          (dft 1 m) (dft 1 m) (dft (-1) m) (dft (-1) m) (arr m mem (F 0)) (arr m mem (F 0)) k :=
    congrFun hout k
  rw [arr_apply m out (F 0) k hk] at h1
  have h2 := recombined_dft m 1 1 U hm (arr m mem (F 0)) (arr m mem (F 0)) k hk
  have h3 := sum_arr_eq m mem (F 0) (F 0) k hk
  exact h1.trans (h2.trans h3)

/-- C2: for `m ≥ 1` and a buffer `f = F[0]` of `m` cells apart from the scratch buffer `U[0]`,
`convolve` with `A = B = 1`, `mult_autoconvolution`, the zeta table of `BuildZeta(2m, m)` and
the exact unnormalised length-`m` DFT pair returns and leaves
`F[0][k] = sum over j = 0..k of f[j]*f[k-j]` for every `k < m`; in particular for `m = 4` and
`f = [1, 2, 3, 4]` the output is `[1, 4, 10, 20]`, with zero imaginary parts. -/
theorem convolve_autoconvolution_linear (m : Nat) (hm : 1 ≤ m) (F U P0 : Ptrs) (mem : Mem)
    (hfu0 : NoOverlap (F 0) (U 0) m) :
    (∃ out, (ImplicitConvolution.init m 1 1 U (dft 1 m) (dft (-1) m)).convolve
          F mult_autoconvolution 0 P0 mem = some out ∧
      ∀ k, k < m →
        out (F 0 + k) = ∑ j in Finset.range (k + 1), mem (F 0 + j) * mem (F 0 + (k - j))) ∧
    (∃ out, (ImplicitConvolution.init 4 1 1 (ptrs [4]) (dft 1 4) (dft (-1) 4)).convolve
          (ptrs [0]) mult_autoconvolution 0 P0 (fun a => if a < 4 then ((a + 1 : Nat) : ℂ) else 0)
          = some out ∧
      out 0 = 1 ∧ out 1 = 4 ∧ out 2 = 10 ∧ out 3 = 20 ∧
      (out 0).im = 0 ∧ (out 1).im = 0 ∧ (out 2).im = 0 ∧ (out 3).im = 0) := by
  refine ⟨convolve_auto_general m hm F U P0 mem hfu0, ?_⟩
  obtain ⟨out, hrun, hout⟩ := convolve_auto_general 4 (by decide) (ptrs [0]) (ptrs [4]) P0
    (fun a => if a < 4 then ((a + 1 : Nat) : ℂ) else 0) (by decide)
  have e0 : out 0 = 1 := by
    have := hout 0 (by decide)
    simpa [ptrs, Finset.sum_range_succ] using this
  have e1 : out 1 = 4 := by
    have := hout 1 (by decide)
    simp [ptrs, Finset.sum_range_succ] at this
    rw [this]; norm_num
  have e2 : out 2 = 10 := by
    have := hout 2 (by decide)
    simp [ptrs, Finset.sum_range_succ] at this
    rw [this]; norm_num
  have e3 : out 3 = 20 := by
    have := hout 3 (by decide)
    simp [ptrs, Finset.sum_range_succ] at this
    rw [this]; norm_num
  refine ⟨out, hrun, e0, e1, e2, e3, ?_, ?_, ?_, ?_⟩
  · rw [e0]; simp
  · rw [e1]; simp
  · rw [e2]; simp
  · rw [e3]; simp

/-- Witness of C2: `m = 2`, `f` at 0, scratch at 2. -/
theorem convolve_autoconvolution_linear_witness :
    (1 ≤ 2 ∧ NoOverlap (ptrs [0] 0) (ptrs [2] 0) 2) ∧
    ∃ out, (ImplicitConvolution.init 2 1 1 (ptrs [2]) (dft 1 2) (dft (-1) 2)).convolve
          (ptrs [0]) mult_autoconvolution 0 (ptrs []) (fun a => (a : ℂ)) = some out ∧
      ∀ k, k < 2 →
        out (ptrs [0] 0 + k) = ∑ j in Finset.range (k + 1),
          (fun a : Nat => (a : ℂ)) (ptrs [0] 0 + j)
            * (fun a : Nat => (a : ℂ)) (ptrs [0] 0 + (k - j)) :=
  ⟨by decide, (convolve_autoconvolution_linear 2 (by decide) (ptrs [0]) (ptrs [2]) (ptrs [])
    (fun a => (a : ℂ)) (by decide)).1⟩

theorem hext_conj (x : Nat → ℂ) (h0 : (x 0).im = 0) (p : ℤ) :
    (starRingEnd ℂ) (hext x p) = hext x (-p) := by
  unfold hext
  rcases lt_trichotomy p 0 with hp | hp | hp
  · have h1 : ¬ (0 ≤ p) := by omega
    have h2 : 0 ≤ -p := by omega
    rw [if_neg h1, if_pos h2, Complex.conj_conj]
  · subst hp
    simp only [le_refl, if_true, neg_zero, Int.toNat_zero]
    exact Complex.conj_eq_iff_im.mpr h0
  · have h1 : 0 ≤ p := by omega
    have h2 : ¬ (0 ≤ -p) := by omega
    rw [if_pos h1, if_neg h2, neg_neg]

/-- A sum over the symmetric interval `(-m, m)`, split into `0` and the pairs `±(j+1)`. -/
theorem sum_Ioo_symm (m : Nat) (hm : 0 < m) (F : ℤ → ℂ) :
    ∑ p in Finset.Ioo (-(m : ℤ)) m, F p
      = F 0 + ∑ j in Finset.range (m - 1), (F ((j : ℤ) + 1) + F (-((j : ℤ) + 1))) := by
  induction m with
  | zero => omega
  | succ n ih =>
    rcases Nat.eq_zero_or_pos n with h0 | hpos
    · subst h0
      have : Finset.Ioo (-((0 + 1 : Nat) : ℤ)) ((0 + 1 : Nat) : ℤ) = {0} := by
        ext p
        simp only [Finset.mem_Ioo, Finset.mem_singleton]
        push_cast
        omega
      rw [this]
      simp
    · have hset : Finset.Ioo (-((n + 1 : Nat) : ℤ)) ((n + 1 : Nat) : ℤ)
          = insert (n : ℤ) (insert (-(n : ℤ)) (Finset.Ioo (-(n : ℤ)) n)) := by
        ext p
        simp only [Finset.mem_Ioo, Finset.mem_insert]
        push_cast
        omega
      have hn1 : (n : ℤ) ∉ insert (-(n : ℤ)) (Finset.Ioo (-(n : ℤ)) n) := by
        simp only [Finset.mem_insert, Finset.mem_Ioo]
        omega
      have hn2 : (-(n : ℤ)) ∉ Finset.Ioo (-(n : ℤ)) n := by
        simp only [Finset.mem_Ioo]
        omega
      rw [hset, Finset.sum_insert hn1, Finset.sum_insert hn2, ih hpos]
      have hn : n + 1 - 1 = (n - 1) + 1 := by omega
      rw [hn, Finset.sum_range_succ]
      have hc : ((n - 1 : Nat) : ℤ) + 1 = n := by omega
      rw [hc]
      ring

theorem sum_Ioo_neg (m : Nat) (hm : 0 < m) (F : ℤ → ℂ) :
    ∑ p in Finset.Ioo (-(m : ℤ)) m, F (-p) = ∑ p in Finset.Ioo (-(m : ℤ)) m, F p := by
  rw [sum_Ioo_symm m hm, sum_Ioo_symm m hm, neg_zero]
  congr 1
  apply Finset.sum_congr rfl
  intro j _
  rw [neg_neg]
  ring

theorem hconv_conj (m : Nat) (hm : 0 < m) (x y : Nat → ℂ) (hx : (x 0).im = 0)
    (hy : (y 0).im = 0) (j : ℤ) :
    (starRingEnd ℂ) (hconv m x y j) = hconv m x y (-j) := by
  unfold hconv
  rw [map_sum]
  rw [← sum_Ioo_neg m hm (fun p => ∑ q in Finset.Ioo (-(m : ℤ)) m,
    if p + q = -j then hext x p * hext y q else 0)]
  apply Finset.sum_congr rfl
  intro p _
  rw [map_sum]
  rw [← sum_Ioo_neg m hm (fun q => if -p + q = -j then hext x (-p) * hext y q else 0)]
  apply Finset.sum_congr rfl
  intro q _
  by_cases h : p + q = j
  · have h2 : -p + -q = -j := by omega
    rw [if_pos h, if_pos h2, map_mul, hext_conj x hx, hext_conj y hy]
  · have h2 : ¬ (-p + -q = -j) := by omega
    rw [if_neg h, if_neg h2, map_zero]

/-! ### Powers of a root of unity of order `3m` -/

theorem root_ne_zero (ζ : ℂ) (hc : (starRingEnd ℂ) ζ * ζ = 1) : ζ ≠ 0 := by
  intro h
  rw [h, mul_zero] at hc
  exact zero_ne_one hc

theorem root_conj (ζ : ℂ) (hc : (starRingEnd ℂ) ζ * ζ = 1) : (starRingEnd ℂ) ζ = ζ⁻¹ :=
  eq_inv_of_mul_eq_one_left hc

theorem root_conj_zpow (ζ : ℂ) (hc : (starRingEnd ℂ) ζ * ζ = 1) (n : ℤ) :
    (starRingEnd ℂ) (ζ ^ n) = ζ ^ (-n) := by
  rw [map_zpow₀, root_conj ζ hc, inv_zpow, zpow_neg]

theorem root_zpow_period (ζ : ℂ) (m : Nat) (hζ : IsPrimitiveRoot ζ (3 * m)) (n t : ℤ)
    (hc : (starRingEnd ℂ) ζ * ζ = 1) :
    ζ ^ (n + 3 * (m : ℤ) * t) = ζ ^ n := by
  have h1 : ζ ^ (3 * (m : ℤ) * t) = 1 := by
    rw [hζ.zpow_eq_one_iff_dvd]
    exact ⟨t, by push_cast; ring⟩
  rw [zpow_add₀ (root_ne_zero ζ hc), h1, mul_one]

/-- The sum of the `l`-th powers of the `m`-th roots `ζ^(3n)`. -/
theorem root_orthogonality_int (ζ : ℂ) (m : Nat) (hm : 0 < m) (hζ : IsPrimitiveRoot ζ (3 * m))
    (hc : (starRingEnd ℂ) ζ * ζ = 1) (n : ℤ) :
    ∑ l in Finset.range m, ζ ^ (3 * (l : ℤ) * n) = if (m : ℤ) ∣ n then (m : ℂ) else 0 := by
  have h0 := root_ne_zero ζ hc
  have hterm : ∀ l : ℕ, ζ ^ (3 * (l : ℤ) * n) = (ζ ^ (3 * n)) ^ l := by
    intro l
    rw [← zpow_natCast, ← zpow_mul]
    congr 1
    ring
  simp only [hterm]
  have hone : ζ ^ (3 * n) = 1 ↔ (m : ℤ) ∣ n := by
    rw [hζ.zpow_eq_one_iff_dvd]
    push_cast
    constructor
    · intro h
      exact (mul_dvd_mul_iff_left (by norm_num : (3 : ℤ) ≠ 0)).mp h
    · intro h
      exact mul_dvd_mul_left 3 h
  by_cases h : (m : ℤ) ∣ n
  · rw [if_pos h, hone.mpr h]
    simp
  · rw [if_neg h]
    have hne : ζ ^ (3 * n) ≠ 1 := fun e => h (hone.mp e)
    have hpow : (ζ ^ (3 * n)) ^ m = 1 := by
      rw [← zpow_natCast, ← zpow_mul, hζ.zpow_eq_one_iff_dvd]
      exact ⟨n, by push_cast; ring⟩
    have hg := geom_sum_mul (ζ ^ (3 * n)) m
    rw [hpow, sub_self] at hg
    rcases mul_eq_zero.mp hg with h1 | h1
    · exact h1
    · exact absurd (sub_eq_zero.mp h1) hne

/-- The Hermitian extension of a folded coset sequence, transformed at the point `l`, is the
value at the point `3l + r` of the trigonometric polynomial with coefficients `hext x`. -/
theorem coset_sum (ζ : ℂ) (m : Nat) (hm : 0 < m) (hζ : IsPrimitiveRoot ζ (3 * m))
    (hc : (starRingEnd ℂ) ζ * ζ = 1) (x : Nat → ℂ) (r : ℤ) (X : Nat → ℂ)
    (hX0 : X 0 = x 0)
    (hX : ∀ k, 1 ≤ k → 2 * k ≤ m →
      X k = ζ ^ (r * k) * (x k + ζ ^ (-(r * m)) * (starRingEnd ℂ) (x (m - k))))
    (l : Nat) :
    ∑ k in Finset.range m,
        (if 2 * k ≤ m then X k else (starRingEnd ℂ) (X (m - k))) * ζ ^ (3 * (l : ℤ) * k)
      = ∑ p in Finset.Ioo (-(m : ℤ)) m, hext x p * ζ ^ ((r + 3 * l) * p) := by
  have h0 := root_ne_zero ζ hc
  have hterm : ∀ k : ℕ, 1 ≤ k → k < m →
      (if 2 * k ≤ m then X k else (starRingEnd ℂ) (X (m - k))) * ζ ^ (3 * (l : ℤ) * k)
        = hext x k * ζ ^ ((r + 3 * l) * (k : ℤ))
          + hext x ((k : ℤ) - m) * ζ ^ ((r + 3 * l) * ((k : ℤ) - m)) := by
    intro k hk1 hkm
    have hp1 : hext x (k : ℤ) = x k := by
      unfold hext
      rw [if_pos (by omega), Int.toNat_natCast]
    have hp2 : hext x ((k : ℤ) - m) = (starRingEnd ℂ) (x (m - k)) := by
      unfold hext
      rw [if_neg (by omega)]
      congr 2
      omega
    have hper : ζ ^ ((r + 3 * l) * ((k : ℤ) - m)) = ζ ^ (r * k - r * m + 3 * l * k) := by
      have : (r + 3 * (l : ℤ)) * ((k : ℤ) - m) = (r * k - r * m + 3 * l * k) + 3 * (m : ℤ) * (-l) := by
        ring
      rw [this, root_zpow_period ζ m hζ _ _ hc]
    rw [hp1, hp2, hper]
    by_cases h2 : 2 * k ≤ m
    · rw [if_pos h2, hX k hk1 h2]
      have e1 : ζ ^ ((r + 3 * (l : ℤ)) * k) = ζ ^ (r * k) * ζ ^ (3 * (l : ℤ) * k) := by
        rw [← zpow_add₀ h0]; exact congrArg (fun e : ℤ => ζ ^ e) (by ring)
      have e2 : ζ ^ (r * k - r * m + 3 * (l : ℤ) * k)
          = ζ ^ (r * k) * ζ ^ (-(r * m)) * ζ ^ (3 * (l : ℤ) * k) := by
        rw [← zpow_add₀ h0, ← zpow_add₀ h0]; exact congrArg (fun e : ℤ => ζ ^ e) (by ring)
      rw [e1, e2]
      ring
    · rw [if_neg h2, hX (m - k) (by omega) (by omega)]
      have hmk : ((m - k : ℕ) : ℤ) = (m : ℤ) - k := by omega
      have hmk2 : m - (m - k) = k := by omega
      rw [map_mul, map_add, map_mul, Complex.conj_conj, root_conj_zpow ζ hc,
        root_conj_zpow ζ hc, hmk, hmk2, neg_neg]
      have e1 : ζ ^ ((r + 3 * (l : ℤ)) * k)
          = ζ ^ (-(r * ((m : ℤ) - k))) * ζ ^ (r * m) * ζ ^ (3 * (l : ℤ) * k) := by
        rw [← zpow_add₀ h0, ← zpow_add₀ h0]; exact congrArg (fun e : ℤ => ζ ^ e) (by ring)
      have e2 : ζ ^ (r * k - r * m + 3 * (l : ℤ) * k)
          = ζ ^ (-(r * ((m : ℤ) - k))) * ζ ^ (3 * (l : ℤ) * k) := by
        have he : r * k - r * m + 3 * (l : ℤ) * k = -(r * ((m : ℤ) - k)) + 3 * (l : ℤ) * k := by
          ring
        rw [← zpow_add₀ h0, he]
      rw [e1, e2]
      ring
  rw [sum_Ioo_symm m hm]
  have hm1 : m = (m - 1) + 1 := by omega
  conv_lhs => rw [hm1, Finset.sum_range_succ']
  have hzero : (if 2 * 0 ≤ m - 1 + 1 then X 0 else (starRingEnd ℂ) (X (m - 1 + 1 - 0)))
      * ζ ^ (3 * (l : ℤ) * ((0 : ℕ) : ℤ)) = hext x 0 * ζ ^ ((r + 3 * l) * (0 : ℤ)) := by
    rw [if_pos (by omega), hX0]
    simp [hext]
  rw [hzero, add_comm]
  congr 1
  have hsplit : ∀ j, j ∈ Finset.range (m - 1) →
      (if 2 * (j + 1) ≤ m - 1 + 1 then X (j + 1)
          else (starRingEnd ℂ) (X (m - 1 + 1 - (j + 1)))) * ζ ^ (3 * (l : ℤ) * ((j + 1 : ℕ) : ℤ))
        = hext x ((j : ℤ) + 1) * ζ ^ ((r + 3 * l) * ((j : ℤ) + 1))
          + hext x ((j : ℤ) + 1 - m) * ζ ^ ((r + 3 * l) * ((j : ℤ) + 1 - m)) := by
    intro j hj
    have hjm := Finset.mem_range.mp hj
    have := hterm (j + 1) (by omega) (by omega)
    rw [← hm1]
    push_cast at this ⊢
    exact this
  rw [Finset.sum_congr rfl hsplit, Finset.sum_add_distrib, Finset.sum_add_distrib]
  congr 1
  rw [← Finset.sum_range_reflect]
  apply Finset.sum_congr rfl
  intro j hj
  have hjm := Finset.mem_range.mp hj
  have e : ((m - 1 - 1 - j : ℕ) : ℤ) + 1 - m = -((j : ℤ) + 1) := by omega
  rw [e]

theorem hpoly_real (ζ : ℂ) (m : Nat) (hm : 0 < m) (hc : (starRingEnd ℂ) ζ * ζ = 1)
    (x : Nat → ℂ) (hx0 : (x 0).im = 0) (r : ℤ) (l : Nat) :
    (((hpoly ζ m x r l).re : ℝ) : ℂ) = hpoly ζ m x r l := by
  rw [← Complex.conj_eq_iff_re]
  unfold hpoly
  rw [map_sum, ← sum_Ioo_neg m hm (fun p => hext x p * ζ ^ ((r + 3 * l) * p))]
  apply Finset.sum_congr rfl
  intro p _
  rw [map_mul, hext_conj x hx0, root_conj_zpow ζ hc]
  congr 2
  ring

/-- Weights of the recombination: for `n` a multiple of `m` with `|n| < 3m`, the sum
`1 + ζ^n + ζ^(-n)` is `3` when `n = 0` and `0` otherwise. -/
theorem coset_weights (ζ : ℂ) (m : Nat) (hζ : IsPrimitiveRoot ζ (3 * m))
    (hc : (starRingEnd ℂ) ζ * ζ = 1) (n : ℤ) (hdiv : (m : ℤ) ∣ n) (hlt : |n| < 3 * m) :
    1 + ζ ^ n + ζ ^ (-n) = if n = 0 then 3 else 0 := by
  have h0 := root_ne_zero ζ hc
  by_cases hn : n = 0
  · subst hn
    rw [if_pos rfl]
    simp
    norm_num
  · rw [if_neg hn]
    have h3 : (ζ ^ n) ^ 3 = 1 := by
      rw [← zpow_natCast, ← zpow_mul, hζ.zpow_eq_one_iff_dvd]
      obtain ⟨t, ht⟩ := hdiv
      exact ⟨t, by rw [ht]; push_cast; ring⟩
    have hne : ζ ^ n ≠ 1 := by
      intro h1
      rw [hζ.zpow_eq_one_iff_dvd] at h1
      obtain ⟨t, ht⟩ := h1
      have habs := abs_lt.mp hlt
      push_cast at ht
      have ht0 : t ≠ 0 := by
        intro h
        rw [h, mul_zero] at ht
        exact hn ht
      rcases lt_or_gt_of_ne ht0 with h | h
      · have : t ≤ -1 := by omega
        nlinarith [habs.1, habs.2]
      · have : 1 ≤ t := by omega
        nlinarith [habs.1, habs.2]
    have hinv : ζ ^ (-n) = (ζ ^ n) ^ 2 := by
      rw [zpow_neg]
      have hz : ζ ^ n ≠ 0 := zpow_ne_zero n h0
      field_simp
      calc (1 : ℂ) = (ζ ^ n) ^ 3 := h3.symm
        _ = (ζ ^ n) ^ 2 * ζ ^ n := by ring
    rw [hinv]
    have hfac : (ζ ^ n - 1) * (1 + ζ ^ n + (ζ ^ n) ^ 2) = 0 := by
      have : (ζ ^ n - 1) * (1 + ζ ^ n + (ζ ^ n) ^ 2) = (ζ ^ n) ^ 3 - 1 := by ring
      rw [this, h3, sub_self]
    rcases mul_eq_zero.mp hfac with h1 | h1
    · exact absurd (sub_eq_zero.mp h1) hne
    · exact h1

theorem coset_product_transform (ζ : ℂ) (m : Nat) (hm : 0 < m)
    (hζ : IsPrimitiveRoot ζ (3 * m)) (hc : (starRingEnd ℂ) ζ * ζ = 1) (x y : Nat → ℂ) (r : ℤ)
    (k : Nat) :
    ∑ l in Finset.range m, hpoly ζ m x r l * hpoly ζ m y r l * ζ ^ (-(3 * (l : ℤ) * k))
      = hfold ζ m x y r k := by
  have h0 := root_ne_zero ζ hc
  have h1 : ∀ l : ℕ, hpoly ζ m x r l * hpoly ζ m y r l * ζ ^ (-(3 * (l : ℤ) * k))
      = ∑ p in Finset.Ioo (-(m : ℤ)) m, ∑ q in Finset.Ioo (-(m : ℤ)) m,
          hext x p * hext y q * ζ ^ (r * (p + q)) * ζ ^ (3 * (l : ℤ) * (p + q - k)) := by
    intro l
    unfold hpoly
    rw [Finset.sum_mul_sum, Finset.sum_mul]
    apply Finset.sum_congr rfl
    intro p _
    rw [Finset.sum_mul]
    apply Finset.sum_congr rfl
    intro q _
    have e : ζ ^ ((r + 3 * (l : ℤ)) * p) * ζ ^ ((r + 3 * (l : ℤ)) * q) * ζ ^ (-(3 * (l : ℤ) * k))
        = ζ ^ (r * (p + q)) * ζ ^ (3 * (l : ℤ) * (p + q - k)) := by
      rw [← zpow_add₀ h0, ← zpow_add₀ h0, ← zpow_add₀ h0]
      exact congrArg (fun e : ℤ => ζ ^ e) (by ring)
    calc hext x p * ζ ^ ((r + 3 * (l : ℤ)) * p) * (hext y q * ζ ^ ((r + 3 * (l : ℤ)) * q))
          * ζ ^ (-(3 * (l : ℤ) * k))
        = hext x p * hext y q * (ζ ^ ((r + 3 * (l : ℤ)) * p) * ζ ^ ((r + 3 * (l : ℤ)) * q)
            * ζ ^ (-(3 * (l : ℤ) * k))) := by ring
      _ = hext x p * hext y q * ζ ^ (r * (p + q)) * ζ ^ (3 * (l : ℤ) * (p + q - k)) := by
          rw [e]; ring
  simp only [h1]
  unfold hfold
  rw [Finset.sum_comm]
  apply Finset.sum_congr rfl
  intro p _
  rw [Finset.sum_comm]
  apply Finset.sum_congr rfl
  intro q _
  rw [← Finset.mul_sum, root_orthogonality_int ζ m hm hζ hc]

/-- Recombination of the three cosets: for `j` in `(-m, m)` congruent to `k` modulo `m`, the
weighted sum of the folded coefficients is the coefficient `j` of the convolution. -/
theorem coset_recombine (ζ : ℂ) (m : Nat) (hm : 0 < m) (hζ : IsPrimitiveRoot ζ (3 * m))
    (hc : (starRingEnd ℂ) ζ * ζ = 1) (x y : Nat → ℂ) (j : ℤ) (k : Nat)
    (hjk : (m : ℤ) ∣ (j - k)) (hj1 : -(m : ℤ) < j) (hj2 : j < m) :
    (1 / (3 * (m : ℂ))) * (hfold ζ m x y 0 k + ζ ^ (-j) * hfold ζ m x y 1 k
        + ζ ^ j * hfold ζ m x y (-1) k)
      = hconv m x y j := by
  have h0 := root_ne_zero ζ hc
  have hmC : (m : ℂ) ≠ 0 := by exact_mod_cast hm.ne'
  unfold hfold hconv
  rw [Finset.mul_sum, Finset.mul_sum, ← Finset.sum_add_distrib, ← Finset.sum_add_distrib,
    Finset.mul_sum]
  apply Finset.sum_congr rfl
  intro p hp
  rw [Finset.mul_sum, Finset.mul_sum, ← Finset.sum_add_distrib, ← Finset.sum_add_distrib,
    Finset.mul_sum]
  apply Finset.sum_congr rfl
  intro q hq
  have hp2 := Finset.mem_Ioo.mp hp
  have hq2 := Finset.mem_Ioo.mp hq
  have hdvd : (m : ℤ) ∣ (p + q - k) ↔ (m : ℤ) ∣ (p + q - j) := by
    have e : p + q - k = (p + q - j) + (j - k) := by ring
    rw [e]
    exact (Int.dvd_add_left hjk)
  have hw : ζ ^ (0 * (p + q)) + ζ ^ (-j) * ζ ^ (1 * (p + q)) + ζ ^ j * ζ ^ (-1 * (p + q))
      = 1 + ζ ^ (p + q - j) + ζ ^ (-(p + q - j)) := by
    rw [← zpow_add₀ h0, ← zpow_add₀ h0, zero_mul, zpow_zero]
    have e1 : -j + 1 * (p + q) = p + q - j := by ring
    have e2 : j + -1 * (p + q) = -(p + q - j) := by ring
    rw [e1, e2]
  by_cases hd : (m : ℤ) ∣ (p + q - j)
  · rw [if_pos (hdvd.mpr hd)]
    have hwt := coset_weights ζ m hζ hc (p + q - j) hd (by rw [abs_lt]; constructor <;> omega)
    calc 1 / (3 * (m : ℂ)) *
          (hext x p * hext y q * ζ ^ (0 * (p + q)) * (m : ℂ)
            + ζ ^ (-j) * (hext x p * hext y q * ζ ^ (1 * (p + q)) * (m : ℂ))
            + ζ ^ j * (hext x p * hext y q * ζ ^ (-1 * (p + q)) * (m : ℂ)))
        = hext x p * hext y q * ((m : ℂ) / (3 * (m : ℂ)))
            * (ζ ^ (0 * (p + q)) + ζ ^ (-j) * ζ ^ (1 * (p + q))
                + ζ ^ j * ζ ^ (-1 * (p + q))) := by ring
      _ = hext x p * hext y q * ((m : ℂ) / (3 * (m : ℂ)))
            * (if p + q - j = 0 then 3 else 0) := by rw [hw, hwt]
      _ = if p + q = j then hext x p * hext y q else 0 := by
          by_cases hpq : p + q = j
          · have : p + q - j = 0 := by omega
            rw [if_pos this, if_pos hpq]
            field_simp
            ring
          · have : ¬ (p + q - j = 0) := by omega
            rw [if_neg this, if_neg hpq, mul_zero]
  · rw [if_neg (fun h => hd (hdvd.mp h))]
    have hpq : ¬ (p + q = j) := by
      intro h
      apply hd
      rw [h, sub_self]
      exact dvd_zero _
    rw [if_neg hpq]
    ring

/-! ### The root `e^(2πi/(3m))` -/

theorem zeta3m_primitive (m : Nat) (hm : 0 < m) : IsPrimitiveRoot (zeta3m m) (3 * m) :=
  Complex.isPrimitiveRoot_exp (3 * m) (by omega)

theorem zeta3m_conj_mul (m : Nat) : (starRingEnd ℂ) (zeta3m m) * zeta3m m = 1 := by
  unfold zeta3m
  rw [← Complex.exp_conj, ← Complex.exp_add, ← Complex.exp_zero]
  congr 1
  have h2 : (starRingEnd ℂ) (2 : ℂ) = 2 := Complex.conj_ofReal 2
  have hn : (starRingEnd ℂ) ((3 * m : Nat) : ℂ) = ((3 * m : Nat) : ℂ) := Complex.conj_natCast _
  rw [map_div₀, map_mul, map_mul, Complex.conj_I, Complex.conj_ofReal, h2, hn]
  ring

theorem zeta3m_zpow (m : Nat) (n : ℤ) :
    zeta3m m ^ n = Complex.exp (2 * Real.pi * Complex.I * (n : ℂ) / ((3 * m : Nat) : ℂ)) := by
  unfold zeta3m
  rw [← Complex.exp_int_mul]
  congr 1
  ring

theorem exp_eq_zeta3m_pos (m : Nat) (hm : 0 < m) (l k : Nat) :
    Complex.exp (2 * Real.pi * Complex.I * (l : ℂ) * (k : ℂ) / (m : ℂ))
      = zeta3m m ^ (3 * (l : ℤ) * k) := by
  rw [zeta3m_zpow]
  congr 1
  have : (m : ℂ) ≠ 0 := by exact_mod_cast hm.ne'
  push_cast
  field_simp
  ring

theorem exp_eq_zeta3m_neg (m : Nat) (hm : 0 < m) (l k : Nat) :
    Complex.exp (-(2 * Real.pi * Complex.I * (l : ℂ) * (k : ℂ) / (m : ℂ)))
      = zeta3m m ^ (-(3 * (l : ℤ) * k)) := by
  rw [zeta3m_zpow]
  congr 1
  have : (m : ℂ) ≠ 0 := by exact_mod_cast hm.ne'
  push_cast
  field_simp
  ring

/-- The cube root of unity of the code, `(-0.5, hsqrt3)`, is `zeta^m`. -/
theorem zeta3m_pow_m (m : Nat) (hm : 0 < m) :
    zeta3m m ^ (m : ℤ) = (⟨-0.5, hsqrt3⟩ : ℂ) := by
  rw [zeta3m_zpow]
  have hmC : (m : ℂ) ≠ 0 := by exact_mod_cast hm.ne'
  have harg : 2 * (Real.pi : ℂ) * Complex.I * ((m : ℤ) : ℂ) / ((3 * m : Nat) : ℂ)
      = ((2 * Real.pi / 3 : ℝ) : ℂ) * Complex.I := by
    push_cast
    field_simp
    ring
  rw [harg]
  have hcos : Real.cos (2 * Real.pi / 3) = -0.5 := by
    have : 2 * Real.pi / 3 = Real.pi - Real.pi / 3 := by ring
    rw [this, Real.cos_pi_sub, Real.cos_pi_div_three]
    norm_num
  have hsin : Real.sin (2 * Real.pi / 3) = hsqrt3 := by
    have : 2 * Real.pi / 3 = Real.pi - Real.pi / 3 := by ring
    rw [this, Real.sin_pi_sub, Real.sin_pi_div_three]
    unfold hsqrt3 sqrt3
    norm_num
    ring
  apply Complex.ext
  · rw [Complex.exp_ofReal_mul_I_re, hcos]
  · rw [Complex.exp_ofReal_mul_I_im, hsin]

/-! ### The exact real transforms on coset sequences -/

theorem crdft_coset (m : Nat) (hm : 0 < m) (x : Nat → ℂ) (hx0 : (x 0).im = 0) (r : ℤ)
    (X : Nat → ℂ) (hX0 : X 0 = x 0)
    (hX : ∀ k, 1 ≤ k → 2 * k ≤ m →
      X k = zeta3m m ^ (r * k)
        * (x k + zeta3m m ^ (-(r * m)) * (starRingEnd ℂ) (x (m - k))))
    (l : Nat) :
    ((crdft m X l : ℝ) : ℂ) = hpoly (zeta3m m) m x r l := by
  have hsum := coset_sum (zeta3m m) m hm (zeta3m_primitive m hm) (zeta3m_conj_mul m) x r X
    hX0 hX l
  have hre := hpoly_real (zeta3m m) m hm (zeta3m_conj_mul m) x hx0 r l
  unfold crdft
  have hexp : ∑ k in Finset.range m,
        (if 2 * k ≤ m then X k else (starRingEnd ℂ) (X (m - k)))
          * Complex.exp (2 * Real.pi * Complex.I * (l : ℂ) * (k : ℂ) / (m : ℂ))
      = hpoly (zeta3m m) m x r l := by
    show _ = ∑ p in Finset.Ioo (-(m : ℤ)) m, hext x p * zeta3m m ^ ((r + 3 * l) * p)
    rw [← hsum]
    apply Finset.sum_congr rfl
    intro k _
    rw [exp_eq_zeta3m_pos m hm l k]
  rw [hexp, hre]

theorem crdft_congr (m : Nat) (X Z : Nat → ℂ) (h : ∀ k, 2 * k ≤ m → X k = Z k) :
    crdft m X = crdft m Z := by
  funext l
  unfold crdft
  congr 1
  apply Finset.sum_congr rfl
  intro k hk
  have hkm := Finset.mem_range.mp hk
  by_cases h2 : 2 * k ≤ m
  · rw [if_pos h2, if_pos h2, h k h2]
  · rw [if_neg h2, if_neg h2, h (m - k) (by omega)]

theorem rcdft_congr (m : Nat) (ψ χ : Nat → ℝ) (h : ∀ l, l < m → ψ l = χ l) :
    rcdft m ψ = rcdft m χ := by
  funext k
  unfold rcdft
  apply Finset.sum_congr rfl
  intro l hl
  rw [h l (Finset.mem_range.mp hl)]

theorem rcdft_product (m : Nat) (hm : 0 < m) (x y : Nat → ℂ) (r : ℤ) (ψ : Nat → ℝ)
    (hψ : ∀ l, l < m →
      (ψ l : ℂ) = hpoly (zeta3m m) m x r l * hpoly (zeta3m m) m y r l) (k : Nat) :
    rcdft m ψ k = hfold (zeta3m m) m x y r k := by
  rw [← coset_product_transform (zeta3m m) m hm (zeta3m_primitive m hm) (zeta3m_conj_mul m)]
  unfold rcdft
  apply Finset.sum_congr rfl
  intro l hl
  rw [hψ l (Finset.mem_range.mp hl), exp_eq_zeta3m_neg m hm l k]

theorem rcdft_zero_real (m : Nat) (ψ : Nat → ℝ) :
    (((rcdft m ψ 0).re : ℝ) : ℂ) = rcdft m ψ 0 := by
  have : rcdft m ψ 0 = ((∑ l in Finset.range m, ψ l : ℝ) : ℂ) := by
    unfold rcdft
    push_cast
    apply Finset.sum_congr rfl
    intro l _
    simp
  rw [this, Complex.ofReal_re]

/-! ### The three outputs of the recombination -/

theorem ninv_cast (m : Nat) : (((1.0 / (3.0 * (m : ℝ)) : ℝ)) : ℂ) = 1 / (3 * (m : ℂ)) := by
  push_cast
  norm_num

theorem hermitian_out_low (m : Nat) (hm : 0 < m) (x y : Nat → ℂ) (ψ0 ψ1 ψ2 : Nat → ℝ)
    (hψ0 : ∀ l, l < m →
      (ψ0 l : ℂ) = hpoly (zeta3m m) m x 0 l * hpoly (zeta3m m) m y 0 l)
    (hψ1 : ∀ l, l < m →
      (ψ1 l : ℂ) = hpoly (zeta3m m) m x 1 l * hpoly (zeta3m m) m y 1 l)
    (hψ2 : ∀ l, l < m →
      (ψ2 l : ℂ) = hpoly (zeta3m m) m x (-1) l * hpoly (zeta3m m) m y (-1) l)
    (k : Nat) (hk : k < m) :
    ((1.0 / (3.0 * (m : ℝ)) : ℝ) : ℂ) * rcdft m ψ0 k
        + (starRingEnd ℂ) (((1.0 / (3.0 * (m : ℝ)) : ℝ) : ℂ) * zeta3m m ^ k) * rcdft m ψ1 k
        + ((1.0 / (3.0 * (m : ℝ)) : ℝ) : ℂ) * zeta3m m ^ k * rcdft m ψ2 k
      = hconv m x y k := by
  rw [rcdft_product m hm x y 0 ψ0 hψ0, rcdft_product m hm x y 1 ψ1 hψ1,
    rcdft_product m hm x y (-1) ψ2 hψ2,
    ← coset_recombine (zeta3m m) m hm (zeta3m_primitive m hm) (zeta3m_conj_mul m) x y k k
      (by simp) (by omega) (by omega),
    map_mul, Complex.conj_ofReal, ninv_cast, ← zpow_natCast,
    root_conj_zpow (zeta3m m) (zeta3m_conj_mul m)]
  ring

theorem hermitian_out_zero (m : Nat) (hm : 0 < m) (x y : Nat → ℂ) (ψ0 ψ1 ψ2 : Nat → ℝ)
    (hψ0 : ∀ l, l < m →
      (ψ0 l : ℂ) = hpoly (zeta3m m) m x 0 l * hpoly (zeta3m m) m y 0 l)
    (hψ1 : ∀ l, l < m →
      (ψ1 l : ℂ) = hpoly (zeta3m m) m x 1 l * hpoly (zeta3m m) m y 1 l)
    (hψ2 : ∀ l, l < m →
      (ψ2 l : ℂ) = hpoly (zeta3m m) m x (-1) l * hpoly (zeta3m m) m y (-1) l) :
    ((((rcdft m ψ0 0).re + (rcdft m ψ1 0).re + (rcdft m ψ2 0).re)
        * (1.0 / (3.0 * (m : ℝ))) : ℝ) : ℂ)
      = hconv m x y 0 := by
  have h := hermitian_out_low m hm x y ψ0 ψ1 ψ2 hψ0 hψ1 hψ2 0 hm
  rw [pow_zero, mul_one, Complex.conj_ofReal] at h
  push_cast at h ⊢
  rw [rcdft_zero_real, rcdft_zero_real, rcdft_zero_real, ← h]
  ring

theorem hermitian_out_high (m : Nat) (hm : 0 < m) (x y : Nat → ℂ) (hx0 : (x 0).im = 0)
    (hy0 : (y 0).im = 0) (ψ0 ψ1 ψ2 : Nat → ℝ)
    (hψ0 : ∀ l, l < m →
      (ψ0 l : ℂ) = hpoly (zeta3m m) m x 0 l * hpoly (zeta3m m) m y 0 l)
    (hψ1 : ∀ l, l < m →
      (ψ1 l : ℂ) = hpoly (zeta3m m) m x 1 l * hpoly (zeta3m m) m y 1 l)
    (hψ2 : ∀ l, l < m →
      (ψ2 l : ℂ) = hpoly (zeta3m m) m x (-1) l * hpoly (zeta3m m) m y (-1) l)
    (k : Nat) (hk1 : 1 ≤ k) (hk : k < m) :
    (starRingEnd ℂ)
          (((1.0 / (3.0 * (m : ℝ)) : ℝ) : ℂ) * rcdft m ψ0 k
            + ((-0.5 : ℝ) : ℂ)
              * ((starRingEnd ℂ) (((1.0 / (3.0 * (m : ℝ)) : ℝ) : ℂ) * zeta3m m ^ k)
                  * rcdft m ψ1 k
                + ((1.0 / (3.0 * (m : ℝ)) : ℝ) : ℂ) * zeta3m m ^ k * rcdft m ψ2 k))
        - (hsqrt3 : ℂ) * (Complex.I * (starRingEnd ℂ)
            ((starRingEnd ℂ) (((1.0 / (3.0 * (m : ℝ)) : ℝ) : ℂ) * zeta3m m ^ k)
                * rcdft m ψ1 k
              - ((1.0 / (3.0 * (m : ℝ)) : ℝ) : ℂ) * zeta3m m ^ k * rcdft m ψ2 k))
      = hconv m x y ((m : ℤ) - k) := by
  have h0 := root_ne_zero (zeta3m m) (zeta3m_conj_mul m)
  have hrec := coset_recombine (zeta3m m) m hm (zeta3m_primitive m hm) (zeta3m_conj_mul m)
    x y ((k : ℤ) - m) k (by simp) (by omega) (by omega)
  have hconj := hconv_conj m hm x y hx0 hy0 ((k : ℤ) - m)
  rw [neg_sub] at hconj
  rw [← hconj, ← hrec, rcdft_product m hm x y 0 ψ0 hψ0, rcdft_product m hm x y 1 ψ1 hψ1,
    rcdft_product m hm x y (-1) ψ2 hψ2]
  have hz3 := zeta3m_pow_m m hm
  have e1 : zeta3m m ^ (-((k : ℤ) - m)) = (⟨-0.5, hsqrt3⟩ : ℂ) * zeta3m m ^ (-(k : ℤ)) := by
    rw [← hz3, ← zpow_add₀ h0]
    exact congrArg (fun e : ℤ => zeta3m m ^ e) (by ring)
  have e2 : zeta3m m ^ ((k : ℤ) - m)
      = (starRingEnd ℂ) (⟨-0.5, hsqrt3⟩ : ℂ) * zeta3m m ^ (k : ℤ) := by
    rw [← hz3, root_conj_zpow (zeta3m m) (zeta3m_conj_mul m), ← zpow_add₀ h0]
    exact congrArg (fun e : ℤ => zeta3m m ^ e) (by ring)
  rw [e1, e2, map_mul, Complex.conj_ofReal, ninv_cast, ← zpow_natCast,
    root_conj_zpow (zeta3m m) (zeta3m_conj_mul m)]
  generalize hfold (zeta3m m) m x y 0 k = Y0
  generalize hfold (zeta3m m) m x y 1 k = Y1
  generalize hfold (zeta3m m) m x y (-1) k = Y2
  generalize zeta3m m ^ (-(k : ℤ)) = a
  generalize zeta3m m ^ (k : ℤ) = b
  generalize (1 / (3 * (m : ℂ))) = n
  have hz : (⟨-0.5, hsqrt3⟩ : ℂ) = ((-0.5 : ℝ) : ℂ) + (hsqrt3 : ℂ) * Complex.I := by
    apply Complex.ext <;> simp
  rw [hz]
  simp only [map_add, map_mul, map_sub, map_neg, Complex.conj_ofReal, Complex.conj_I,
    Complex.conj_conj]
  ring

/-! ## Operations that act on a set of cells -/

theorem forUpTo_congr {σ : Type} (b1 b2 : Nat → σ → σ) (n : Nat) (st : σ)
    (h : ∀ k, k < n → b1 k = b2 k) : forUpTo b1 n st = forUpTo b2 n st := by
  induction n with
  | zero => rfl
  | succ n ih =>
    show b1 n (forUpTo b1 n st) = b2 n (forUpTo b2 n st)
    rw [ih (fun k hk => h k (by omega)), h n (by omega)]

theorem forRange_congr {σ : Type} (b1 b2 : Nat → σ → σ) (lo hi : Nat) (st : σ)
    (h : ∀ k, lo ≤ k → k < hi → b1 k = b2 k) : forRange lo hi b1 st = forRange lo hi b2 st := by
  unfold forRange
  apply forUpTo_congr
  intro k hk
  exact h (lo + k) (by omega) (by omega)

theorem forUpTo_acts (body : Nat → Mem → Mem) (S : Nat → Nat → Prop) (n : Nat)
    (h : ∀ k, k < n → Acts (body k) (S k)) :
    Acts (forUpTo body n) (fun a => ∃ k, k < n ∧ S k a) := by
  induction n with
  | zero =>
    exact ⟨fun μ a _ => rfl, fun μ ν hμν a ha => by
      obtain ⟨k, hk, _⟩ := ha
      omega⟩
  | succ n ih =>
    have ih2 := ih (fun k hk => h k (by omega))
    have hn := h n (by omega)
    refine ⟨?_, ?_⟩
    · intro μ a ha
      show body n (forUpTo body n μ) a = μ a
      rw [hn.frame _ a (fun hs => ha ⟨n, by omega, hs⟩)]
      exact ih2.frame μ a (fun ⟨k, hk, hs⟩ => ha ⟨k, by omega, hs⟩)
    · intro μ ν hμν a ha
      show body n (forUpTo body n μ) a = body n (forUpTo body n ν) a
      have hagree : ∀ b, (∃ k, k < n + 1 ∧ S k b) →
          forUpTo body n μ b = forUpTo body n ν b := by
        intro b hb
        by_cases hb2 : ∃ k, k < n ∧ S k b
        · exact ih2.loc μ ν (fun a' ⟨k, hk, hs⟩ => hμν a' ⟨k, by omega, hs⟩) b hb2
        · rw [ih2.frame μ b hb2, ih2.frame ν b hb2]
          exact hμν b hb
      by_cases hsn : S n a
      · exact hn.loc _ _ (fun b hb => hagree b ⟨n, by omega, hb⟩) a hsn
      · rw [hn.frame _ a hsn, hn.frame _ a hsn]
        exact hagree a ha

/-- In a loop whose rounds act on pairwise disjoint sets, a cell of the set of round `k`
ends with the value that round `k` alone gives it. -/
theorem forUpTo_value (body : Nat → Mem → Mem) (S : Nat → Nat → Prop) (n : Nat)
    (h : ∀ k, k < n → Acts (body k) (S k))
    (hdisj : ∀ k k2 a, k < n → k2 < n → S k a → S k2 a → k = k2)
    (k : Nat) (hk : k < n) (a : Nat) (ha : S k a) (μ : Mem) :
    forUpTo body n μ a = body k μ a :=
  (forUpTo_local body S n μ (fun k hk ν a hs => (h k hk).frame ν a hs)
    (fun k hk ν hν a hs => (h k hk).loc ν μ hν a hs) hdisj).1 k hk a ha

theorem forRange_acts (body : Nat → Mem → Mem) (S : Nat → Nat → Prop) (lo hi : Nat)
    (h : ∀ k, lo ≤ k → k < hi → Acts (body k) (S k)) :
    Acts (forRange lo hi body) (fun a => ∃ k, lo ≤ k ∧ k < hi ∧ S k a) := by
  have key := forUpTo_acts (fun i => body (lo + i)) (fun i => S (lo + i)) (hi - lo)
    (fun i hi2 => h (lo + i) (by omega) (by omega))
  refine ⟨?_, ?_⟩
  · intro μ a ha
    exact key.frame μ a (fun ⟨i, hi2, hs⟩ => ha ⟨lo + i, by omega, by omega, hs⟩)
  · intro μ ν hμν a ha
    obtain ⟨k, hk1, hk2, hs⟩ := ha
    refine key.loc μ ν ?_ a ⟨k - lo, by omega, by
      show S (lo + (k - lo)) a
      have : lo + (k - lo) = k := by omega
      rw [this]; exact hs⟩
    intro b ⟨i, hi2, hs2⟩
    exact hμν b ⟨lo + i, by omega, by omega, hs2⟩

theorem forRange_value (body : Nat → Mem → Mem) (S : Nat → Nat → Prop) (lo hi : Nat)
    (h : ∀ k, lo ≤ k → k < hi → Acts (body k) (S k))
    (hdisj : ∀ k k2 a, lo ≤ k → k < hi → lo ≤ k2 → k2 < hi → S k a → S k2 a → k = k2)
    (k : Nat) (hk1 : lo ≤ k) (hk2 : k < hi) (a : Nat) (ha : S k a) (μ : Mem) :
    forRange lo hi body μ a = body k μ a := by
  have key := forUpTo_value (fun i => body (lo + i)) (fun i => S (lo + i)) (hi - lo)
    (fun i hi2 => h (lo + i) (by omega) (by omega))
    (fun i i2 a hi1 hi2 hs hs2 => by
      have := hdisj (lo + i) (lo + i2) a (by omega) (by omega) (by omega) (by omega) hs hs2
      omega)
    (k - lo) (by omega) a (by
      show S (lo + (k - lo)) a
      have : lo + (k - lo) = k := by omega
      rw [this]; exact ha) μ
  have e : lo + (k - lo) = k := by omega
  rw [e] at key
  exact key

/-- A blocked loop over `[0, M)` with block size `s ≥ 1` comes to an end within `M` rounds:
it runs the body for the blocks `q = 0, 1, ...` with `K = q*s < M`. -/
theorem forBlocks_eq_blocks {σ : Type} (M s : Nat) (hs : 0 < s) (body : Nat → σ → σ)
    (st0 : σ) :
    forBlocks M s body M 0 st0
      = some (forUpTo (fun q => body (q * s)) ((M + s - 1) / s) st0) := by
  have hnb : ∀ q, q * s < M ↔ q < (M + s - 1) / s := by
    intro q
    rw [Nat.lt_iff_add_one_le, Nat.lt_iff_add_one_le, Nat.le_div_iff_mul_le hs, Nat.add_mul]
    omega
  have gen : ∀ fuel q, q ≤ (M + s - 1) / s → M ≤ (q + fuel) * s →
      forBlocks M s body fuel (q * s) (forUpTo (fun q => body (q * s)) q st0)
        = some (forUpTo (fun q => body (q * s)) ((M + s - 1) / s) st0) := by
    intro fuel
    induction fuel with
    | zero =>
      intro q hq hM
      have hq2 : ¬ (q * s < M) := by
        have : M ≤ q * s := by simpa using hM
        omega
      have hq3 : q = (M + s - 1) / s := by
        have := (hnb q).not.mp hq2
        omega
      simp only [forBlocks, if_neg hq2]
      rw [← hq3]
    | succ fuel ih =>
      intro q hq hM
      by_cases hlt : q * s < M
      · have hq1 : q + 1 ≤ (M + s - 1) / s := by
          have := (hnb q).mp hlt
          omega
        have := ih (q + 1) hq1 (by
          have : (q + 1 + fuel) * s = (q + (fuel + 1)) * s := by ring
          omega)
        rw [Nat.succ_mul] at this
        simp only [forBlocks, if_pos hlt]
        exact this
      · have hq3 : q = (M + s - 1) / s := by
          have := (hnb q).not.mp hlt
          omega
        simp only [forBlocks, if_neg hlt]
        rw [← hq3]
  have h0 := gen M 0 (Nat.zero_le _) (by
    rw [Nat.zero_add]
    calc M = M * 1 := (Nat.mul_one M).symm
      _ ≤ M * s := Nat.mul_le_mul_left M hs)
  simpa using h0

/-- The nested loop `for K (blocks of s) / for i < N / for k in the block, k ≥ 1` whose
rounds `(i, k)` act on pairwise disjoint sets of cells: the loop comes to an end, and every
touched cell ends with the value that its own round gives it on the initial memory. -/
theorem nested_value (M s N : Nat) (hs : 0 < s) (body : Nat → Nat → Nat → Mem → Mem)
    (stepf : Nat → Nat → Mem → Mem) (touch : Nat → Nat → Nat → Prop)
    (hbody : ∀ q i k, i < N → 1 ≤ k → q * s ≤ k → k < q * s + s → k < M →
      body (q * s) i k = stepf i k)
    (hacts : ∀ i k, i < N → 1 ≤ k → k < M → Acts (stepf i k) (touch i k))
    (hdisj : ∀ i k i2 k2 a, i < N → 1 ≤ k → k < M → i2 < N → 1 ≤ k2 → k2 < M →
      touch i k a → touch i2 k2 a → i = i2 ∧ k = k2)
    (μ : Mem) :
    ∃ ν, forBlocks M s (fun K μ => forUpTo (fun i μ =>
        forRange (max 1 K) (min (K + s) M) (body K i) μ) N μ) M 0 μ = some ν
      ∧ (∀ i k a, i < N → 1 ≤ k → k < M → touch i k a → ν a = stepf i k μ a)
      ∧ (∀ a, (∀ i k, i < N → 1 ≤ k → k < M → ¬ touch i k a) → ν a = μ a) := by
  rw [forBlocks_eq_blocks M s hs]
  refine ⟨_, rfl, ?_⟩
  -- the body of block `q`, with the step in closed form
  have hB : ∀ q, (fun μ : Mem => forUpTo (fun i μ =>
        forRange (max 1 (q * s)) (min (q * s + s) M) (body (q * s) i) μ) N μ)
      = forUpTo (fun i => forRange (max 1 (q * s)) (min (q * s + s) M) (stepf i)) N := by
    intro q
    funext μ
    apply forUpTo_congr
    intro i hi
    funext μ
    apply forRange_congr
    intro k hk1 hk2
    have h1 : max 1 (q * s) ≤ k := hk1
    have h2 : k < min (q * s + s) M := hk2
    exact hbody q i k hi (by omega) (by omega) (by omega) (by omega)
  have hloop : (fun q => (fun K (μ : Mem) => forUpTo (fun i μ =>
        forRange (max 1 K) (min (K + s) M) (body K i) μ) N μ) (q * s))
      = fun q => forUpTo (fun i => forRange (max 1 (q * s)) (min (q * s + s) M) (stepf i)) N := by
    funext q
    exact hB q
  rw [hloop]
  -- the three levels
  have hk : ∀ q i, i < N → Acts (forRange (max 1 (q * s)) (min (q * s + s) M) (stepf i))
      (fun a => ∃ k, max 1 (q * s) ≤ k ∧ k < min (q * s + s) M ∧ touch i k a) := by
    intro q i hi
    apply forRange_acts
    intro k hk1 hk2
    exact hacts i k hi (by omega) (by omega)
  have hi : ∀ q, Acts (forUpTo (fun i =>
        forRange (max 1 (q * s)) (min (q * s + s) M) (stepf i)) N)
      (fun a => ∃ i, i < N ∧ ∃ k, max 1 (q * s) ≤ k ∧ k < min (q * s + s) M ∧ touch i k a) := by
    intro q
    exact forUpTo_acts _ (fun i a => ∃ k, max 1 (q * s) ≤ k ∧ k < min (q * s + s) M ∧ touch i k a)
      N (fun i hi => hk q i hi)
  have hdq : ∀ q q2 a, q < (M + s - 1) / s → q2 < (M + s - 1) / s →
      (∃ i, i < N ∧ ∃ k, max 1 (q * s) ≤ k ∧ k < min (q * s + s) M ∧ touch i k a) →
      (∃ i, i < N ∧ ∃ k, max 1 (q2 * s) ≤ k ∧ k < min (q2 * s + s) M ∧ touch i k a) →
      q = q2 := by
    intro q q2 a _ _ h1 h2
    obtain ⟨i, hi1, k, hk1, hk2, ht⟩ := h1
    obtain ⟨i2, hi2, k2, hk3, hk4, ht2⟩ := h2
    have e := (hdisj i k i2 k2 a hi1 (by omega) (by omega) hi2 (by omega) (by omega) ht ht2).2
    subst e
    have a1 := div_mul_block s q k (by omega) (by omega)
    have a2 := div_mul_block s q2 k (by omega) (by omega)
    omega
  refine ⟨?_, ?_⟩
  · intro i k a hiN hk1 hkM ht
    obtain ⟨q0, hq0⟩ : ∃ q0, q0 = k / s := ⟨_, rfl⟩
    have hq1 : q0 * s ≤ k := by rw [hq0]; exact Nat.div_mul_le_self k s
    have hq2 : k < q0 * s + s := by
      have := Nat.div_add_mod k s
      have := Nat.mod_lt k hs
      have h2 : k / s * s = s * (k / s) := Nat.mul_comm _ _
      rw [hq0]
      omega
    have hqnb : q0 < (M + s - 1) / s := by
      rw [Nat.lt_iff_add_one_le, Nat.le_div_iff_mul_le hs, Nat.add_mul]
      omega
    rw [forUpTo_value _ (fun q a => ∃ i, i < N ∧ ∃ k, max 1 (q * s) ≤ k ∧
        k < min (q * s + s) M ∧ touch i k a) _ (fun q _ => hi q) hdq q0 hqnb a
        ⟨i, hiN, k, by omega, by omega, ht⟩ μ]
    rw [forUpTo_value _ (fun i a => ∃ k, max 1 (q0 * s) ≤ k ∧
        k < min (q0 * s + s) M ∧ touch i k a) N (fun i hi2 => hk q0 i hi2) ?_ i hiN a
        ⟨k, by omega, by omega, ht⟩ μ]
    · exact forRange_value _ (fun k a => touch i k a) _ _
        (fun k hk1 hk2 => hacts i k hiN (by omega) (by omega))
        (fun k k2 a hk1 hk2 hk3 hk4 ht ht2 =>
          (hdisj i k i k2 a hiN (by omega) (by omega) hiN (by omega) (by omega) ht ht2).2)
        k (by omega) (by omega) a ht μ
    · intro i1 i2 a hi1 hi2 h1 h2
      obtain ⟨k1, hk1, hk2, ht1⟩ := h1
      obtain ⟨k2, hk3, hk4, ht2⟩ := h2
      exact (hdisj i1 k1 i2 k2 a hi1 (by omega) (by omega) hi2 (by omega) (by omega) ht1 ht2).1
  · intro a ha
    have hall := forUpTo_acts (fun q => forUpTo (fun i =>
        forRange (max 1 (q * s)) (min (q * s + s) M) (stepf i)) N)
      (fun q a => ∃ i, i < N ∧ ∃ k, max 1 (q * s) ≤ k ∧ k < min (q * s + s) M ∧ touch i k a)
      ((M + s - 1) / s) (fun q _ => hi q)
    apply hall.frame μ a
    rintro ⟨q, _, i, hiN, k, hk1, hk2, ht⟩
    exact ha i k hiN (by omega) (by omega) ht

theorem CONJ_eq (z : Vec) : CONJ z = (starRingEnd ℂ) z := by
  apply Complex.ext <;> simp [CONJ]

theorem FLIP_eq (z : Vec) : FLIP z = Complex.I * (starRingEnd ℂ) z := by
  apply Complex.ext <;> simp [FLIP]

theorem vmul_LOADd_right (x : ℝ) (z : Vec) : vmul z (LOADd x) = (x : ℂ) * z := by
  apply Complex.ext <;> simp [vmul, LOADd, mul_comm]

/-- The two outputs `A - B` and `CONJ(A + B)` of the premultiplication of a pair `(a, b)`
(`a = f[k]`, `b = f[m-k]`) by `z`. -/
theorem premult_minus (z a b : Vec) :
    ZMULTC z (UNPACKL (vmul b (LOADd (-0.5)) + CONJ a) (vmul b (LOADd hsqrt3)))
        - ZMULTIC z (UNPACKH (vmul b (LOADd (-0.5)) + CONJ a) (vmul b (LOADd hsqrt3)))
      = (starRingEnd ℂ) z * (a + (⟨-0.5, hsqrt3⟩ : ℂ) * (starRingEnd ℂ) b) := by
  apply Complex.ext <;>
    simp [ZMULTC, ZMULTIC, UNPACKL, UNPACKH, vmul, LOADd, CONJ, FLIP] <;> ring

theorem premult_plus (z a b : Vec) :
    CONJ (ZMULTC z (UNPACKL (vmul b (LOADd (-0.5)) + CONJ a) (vmul b (LOADd hsqrt3)))
        + ZMULTIC z (UNPACKH (vmul b (LOADd (-0.5)) + CONJ a) (vmul b (LOADd hsqrt3))))
      = z * (a + (starRingEnd ℂ) (⟨-0.5, hsqrt3⟩ : ℂ) * (starRingEnd ℂ) b) := by
  apply Complex.ext <;>
    simp [ZMULTC, ZMULTIC, UNPACKL, UNPACKH, vmul, LOADd, CONJ, FLIP] <;> ring

/-- The memory after one round of the innermost loop of `premult`, cell by cell. -/
theorem premult_step_apply (E : ImplicitHConvolution) (fi ui k : Nat) (zetak Zetac1 : Vec)
    (μ : Mem) (a : Nat) :
    E.premult_step fi ui k zetak Zetac1 μ a =
      if a = fi + E.m - (E.c + 1) + k then
        zetak * (μ (fi + k)
          + (starRingEnd ℂ) (⟨-0.5, hsqrt3⟩ : ℂ) * (starRingEnd ℂ) (μ (fi + E.m - k)))
      else if a = fi + E.m - k then
        ((starRingEnd ℂ) zetak * Zetac1) * (μ (fi + (E.c + 1) - k)
          + (starRingEnd ℂ) (⟨-0.5, hsqrt3⟩ : ℂ)
            * (starRingEnd ℂ) (μ (fi + E.m - (E.c + 1) + k)))
      else if a = ui + (E.c + 1) - k then
        (starRingEnd ℂ) ((starRingEnd ℂ) zetak * Zetac1) * (μ (fi + (E.c + 1) - k)
          + (⟨-0.5, hsqrt3⟩ : ℂ) * (starRingEnd ℂ) (μ (fi + E.m - (E.c + 1) + k)))
      else if a = ui + k then
        (starRingEnd ℂ) zetak * (μ (fi + k)
          + (⟨-0.5, hsqrt3⟩ : ℂ) * (starRingEnd ℂ) (μ (fi + E.m - k)))
      else if a = fi + (E.c + 1) - k then
        μ (fi + (E.c + 1) - k) + (starRingEnd ℂ) (μ (fi + E.m - (E.c + 1) + k))
      else if a = fi + k then μ (fi + k) + (starRingEnd ℂ) (μ (fi + E.m - k))
      else μ a := by
  unfold ImplicitHConvolution.premult_step
  simp only [STORE, Function.update_apply, LOAD, premult_minus, premult_plus]
  simp only [ZMULTC_eq_mul, CONJ_eq]

theorem premult_step_acts (E : ImplicitHConvolution) (fi ui k : Nat) (zetak Zetac1 : Vec) :
    Acts (E.premult_step fi ui k zetak Zetac1) (E.touched fi ui k) := by
  refine ⟨?_, ?_⟩
  · intro μ a ha
    unfold ImplicitHConvolution.touched at ha
    rw [premult_step_apply]
    simp only [not_or] at ha
    rw [if_neg ha.1, if_neg ha.2.1, if_neg ha.2.2.1, if_neg ha.2.2.2.1, if_neg ha.2.2.2.2.1,
      if_neg ha.2.2.2.2.2]
  · intro μ ν hμν a ha
    rw [premult_step_apply, premult_step_apply,
      hμν (fi + k) (Or.inr (Or.inr (Or.inr (Or.inr (Or.inr rfl))))),
      hμν (fi + E.m - k) (Or.inr (Or.inl rfl)),
      hμν (fi + (E.c + 1) - k) (Or.inr (Or.inr (Or.inr (Or.inr (Or.inl rfl))))),
      hμν (fi + E.m - (E.c + 1) + k) (Or.inl rfl), hμν a ha]

theorem conj_pow_mul_pow (ζ : ℂ) (hc : (starRingEnd ℂ) ζ * ζ = 1) (k n : Nat) (h : k ≤ n) :
    (starRingEnd ℂ) (ζ ^ k) * ζ ^ n = ζ ^ (n - k) := by
  obtain ⟨d, rfl⟩ := Nat.exists_eq_add_of_le h
  rw [Nat.add_sub_cancel_left, pow_add, ← mul_assoc, map_pow, ← mul_pow, hc, one_pow, one_mul]

theorem forUpTo_update_apply (v : Nat → Nat) (n i : Nat) (hi : i < n) :
    forUpTo (fun i (P : Ptrs) => Function.update P i (v i)) n (fun _ => 0) i = v i := by
  induction n with
  | zero => omega
  | succ n ih =>
    show Function.update (forUpTo (fun i (P : Ptrs) => Function.update P i (v i)) n
      (fun _ => 0)) n (v n) i = v i
    by_cases h : i = n
    · subst h
      rw [Function.update_same]
    · rw [Function.update_noteq h]
      exact ih (by omega)

theorem block_lookup (ZetaH ZetaL : List ℂ) (s q k : Nat) (hs : 0 < s) (h1 : q * s ≤ k)
    (h2 : k < q * s + s) :
    ZMULT3 (UNPACKL (tab ZetaH (q * s / s)) (tab ZetaH (q * s / s)))
        (UNPACKH (CONJ (tab ZetaH (q * s / s))) (tab ZetaH (q * s / s))) (tab ZetaL (k - q * s))
      = tab ZetaH (k / s) * tab ZetaL (k % s) := by
  rw [ZMULT3_unpack, Nat.mul_div_cancel _ hs, div_mul_block s q k h1 h2]
  have := Nat.div_add_mod k s
  have e := div_mul_block s q k h1 h2
  rw [e] at this
  have h3 : s * q = q * s := Nat.mul_comm _ _
  have : k - q * s = k % s := by omega
  rw [this]

theorem single_lookup (ZetaH ZetaL : List ℂ) (s k : Nat) :
    ZMULT3 (UNPACKL (tab ZetaH (k / s)) (tab ZetaH (k / s)))
        (UNPACKH (CONJ (tab ZetaH (k / s))) (tab ZetaH (k / s))) (tab ZetaL (k - s * (k / s)))
      = tab ZetaH (k / s) * tab ZetaL (k % s) := by
  rw [ZMULT3_unpack]
  have := Nat.div_add_mod k s
  have : k - s * (k / s) = k % s := by omega
  rw [this]

/-- The blocked loop of `premult` comes to an end; a touched cell ends with the value of its
own round, computed with the exact phase factors, and the other cells are kept. -/
theorem premult_loop_spec (E : ImplicitHConvolution) (hs : 0 < E.s) (ζ : ℂ)
    (htab : ∀ k, k ≤ E.c + 1 → tab E.ZetaH (k / E.s) * tab E.ZetaL (k % E.s) = ζ ^ k)
    (P0 : Ptrs)
    (hdisj : ∀ i k i2 k2 a, i < E.A → 1 ≤ k → k < (E.c + 1) / 2 + 1 → i2 < E.A → 1 ≤ k2 →
      k2 < (E.c + 1) / 2 + 1 → E.touched (P0 i) (E.U i) k a →
      E.touched (P0 i2) (E.U i2) k2 a → i = i2 ∧ k = k2)
    (μ : Mem) :
    ∃ ν, E.premult_loop P0 μ = some ν
      ∧ (∀ i k a, i < E.A → 1 ≤ k → k < (E.c + 1) / 2 + 1 → E.touched (P0 i) (E.U i) k a →
          ν a = E.premult_step (P0 i) (E.U i) k (ζ ^ k) (ζ ^ (E.c + 1)) μ a)
      ∧ (∀ a, (∀ i k, i < E.A → 1 ≤ k → k < (E.c + 1) / 2 + 1 →
          ¬ E.touched (P0 i) (E.U i) k a) → ν a = μ a) := by
  exact nested_value ((E.c + 1) / 2 + 1) E.s E.A hs
    (fun K i k μ => E.premult_step (P0 i) (E.U i) k
      (ZMULT3 (UNPACKL (tab E.ZetaH (K / E.s)) (tab E.ZetaH (K / E.s)))
        (UNPACKH (CONJ (tab E.ZetaH (K / E.s))) (tab E.ZetaH (K / E.s)))
        (tab E.ZetaL (k - K)))
      (ZMULT3 (UNPACKL (tab E.ZetaH ((E.c + 1) / E.s)) (tab E.ZetaH ((E.c + 1) / E.s)))
        (UNPACKH (CONJ (tab E.ZetaH ((E.c + 1) / E.s))) (tab E.ZetaH ((E.c + 1) / E.s)))
        (tab E.ZetaL (E.c + 1 - E.s * ((E.c + 1) / E.s)))) μ)
    (fun i k => E.premult_step (P0 i) (E.U i) k (ζ ^ k) (ζ ^ (E.c + 1)))
    (fun i k => E.touched (P0 i) (E.U i) k)
    (fun q i k hi hk1 hq1 hq2 hkM => by
      funext μ
      show E.premult_step (P0 i) (E.U i) k _ _ μ = _
      rw [block_lookup E.ZetaH E.ZetaL E.s q k hs hq1 hq2, single_lookup, htab k (by omega),
        htab (E.c + 1) (le_refl _)])
    (fun i k _ _ _ => premult_step_acts E _ _ _ _ _)
    hdisj μ

theorem forUpTo_pair_update (v w : Nat → ℂ) (n : Nat) (init : (Nat → ℂ) × (Nat → ℂ)) (i : Nat)
    (hi : i < n) :
    (forUpTo (fun i (st : (Nat → ℂ) × (Nat → ℂ)) =>
        (Function.update st.1 i (v i), Function.update st.2 i (w i))) n init).1 i = v i
      ∧ (forUpTo (fun i (st : (Nat → ℂ) × (Nat → ℂ)) =>
        (Function.update st.1 i (v i), Function.update st.2 i (w i))) n init).2 i = w i := by
  induction n with
  | zero => omega
  | succ n ih =>
    simp only [forUpTo]
    by_cases h : i = n
    · subst h
      simp only [Function.update_same, and_self]
    · rw [Function.update_noteq h, Function.update_noteq h]
      exact ih (by omega)

theorem premult_even_spec (E : ImplicitHConvolution) (ζ : ℂ)
    (htab : ∀ k, k ≤ E.c + 1 → tab E.ZetaH (k / E.s) * tab E.ZetaL (k % E.s) = ζ ^ k)
    (P0 : Ptrs) (f1c : Nat → ℂ) (μ : Mem) (i : Nat) (hi : i < E.A) :
    (E.premult_even P0 f1c μ).1 i
        = ζ ^ 1 * (μ (P0 i + 1) + (starRingEnd ℂ) (⟨-0.5, hsqrt3⟩ : ℂ)
            * (starRingEnd ℂ) (μ (P0 i + (E.m - 1))))
      ∧ (E.premult_even P0 f1c μ).2 i
        = ⟨2.0 * (μ (P0 i + E.c)).re, (μ (P0 i + E.c)).re + sqrt3 * (μ (P0 i + E.c)).im⟩ := by
  have key := forUpTo_pair_update
    (fun i => ζ ^ 1 * (μ (P0 i + 1) + (starRingEnd ℂ) (⟨-0.5, hsqrt3⟩ : ℂ)
            * (starRingEnd ℂ) (μ (P0 i + (E.m - 1)))))
    (fun i => ⟨2.0 * (μ (P0 i + E.c)).re, (μ (P0 i + E.c)).re + sqrt3 * (μ (P0 i + E.c)).im⟩)
    E.A (f1c, fun _ => 0) i hi
  have e : E.premult_even P0 f1c μ = forUpTo (fun i (st : (Nat → ℂ) × (Nat → ℂ)) =>
        (Function.update st.1 i (ζ ^ 1 * (μ (P0 i + 1) + (starRingEnd ℂ) (⟨-0.5, hsqrt3⟩ : ℂ)
            * (starRingEnd ℂ) (μ (P0 i + (E.m - 1))))),
          Function.update st.2 i
            ⟨2.0 * (μ (P0 i + E.c)).re, (μ (P0 i + E.c)).re + sqrt3 * (μ (P0 i + E.c)).im⟩))
        E.A (f1c, fun _ => 0) := by
    unfold ImplicitHConvolution.premult_even
    simp only [LOAD, premult_plus]
    rw [single_lookup, htab 1 (by omega)]
  rw [e]
  exact key

theorem premult_restore_spec (E : ImplicitHConvolution) (P0 : Ptrs) (S : Nat → ℂ) (μ : Mem)
    (L : HLayout E.m E.c E.A P0 E.U) (hcm : E.c < E.m) :
    (∀ i, i < E.A → E.premult_restore P0 S μ (P0 i + E.c) = (((S i).re : ℝ) : ℂ)
        ∧ E.premult_restore P0 S μ (E.U i + E.c) = (((S i).im : ℝ) : ℂ))
      ∧ ∀ a, (∀ i, i < E.A → a ≠ P0 i + E.c ∧ a ≠ E.U i + E.c) →
        E.premult_restore P0 S μ a = μ a := by
  have hacts : ∀ i, i < E.A → Acts (fun μ : Mem =>
      STORE (STORE μ (P0 i + E.c) (((S i).re : ℝ) : ℂ)) (E.U i + E.c) (((S i).im : ℝ) : ℂ))
      (fun a => a = P0 i + E.c ∨ a = E.U i + E.c) := by
    intro i _
    refine ⟨?_, ?_⟩
    · intro μ a ha
      simp only [not_or] at ha
      show STORE (STORE μ _ _) _ _ a = _
      rw [STORE_other _ _ _ _ ha.2, STORE_other _ _ _ _ ha.1]
    · intro μ ν _ a ha
      show STORE (STORE μ _ _) _ _ a = STORE (STORE ν _ _) _ _ a
      by_cases h2 : a = E.U i + E.c
      · rw [h2, STORE_same, STORE_same]
      · rcases ha with h1 | h1
        · rw [STORE_other _ _ _ _ h2, STORE_other _ _ _ _ h2, h1, STORE_same, STORE_same]
        · exact absurd h1 h2
  have hdisj : ∀ i i2 a, i < E.A → i2 < E.A → (a = P0 i + E.c ∨ a = E.U i + E.c) →
      (a = P0 i2 + E.c ∨ a = E.U i2 + E.c) → i = i2 := by
    intro i i2 a hi hi2 h1 h2
    by_contra hne
    have := L.ff i i2 hi hi2 hne
    have := L.uu i i2 hi hi2 hne
    have := L.fu i i2 hi hi2
    have := L.fu i2 i hi2 hi
    omega
  refine ⟨?_, ?_⟩
  · intro i hi
    have hne : P0 i + E.c ≠ E.U i + E.c := by
      have := L.fu i i hi hi
      omega
    refine ⟨?_, ?_⟩
    · have := forUpTo_value _ (fun i a => a = P0 i + E.c ∨ a = E.U i + E.c) E.A hacts hdisj i hi
        (P0 i + E.c) (Or.inl rfl) μ
      unfold ImplicitHConvolution.premult_restore
      rw [this]
      show STORE (STORE μ _ _) _ _ _ = _
      rw [STORE_other _ _ _ _ hne, STORE_same]
    · have := forUpTo_value _ (fun i a => a = P0 i + E.c ∨ a = E.U i + E.c) E.A hacts hdisj i hi
        (E.U i + E.c) (Or.inr rfl) μ
      unfold ImplicitHConvolution.premult_restore
      rw [this]
      show STORE (STORE μ _ _) _ _ _ = _
      rw [STORE_same]
  · intro a ha
    have := (forUpTo_acts _ (fun i a => a = P0 i + E.c ∨ a = E.U i + E.c) E.A hacts).frame μ a
      (by
        rintro ⟨i, hi, h⟩
        have := ha i hi
        tauto)
    unfold ImplicitHConvolution.premult_restore
    exact this

/-- A touched cell lies in the input buffer or in the work array of its round. -/
theorem touched_range (E : ImplicitHConvolution) (hc : E.c = E.m / 2) (fi ui k a : Nat)
    (hk1 : 1 ≤ k) (hk2 : k < (E.c + 1) / 2 + 1) (h : E.touched fi ui k a) :
    (fi + 1 ≤ a ∧ a < fi + E.m) ∨ (ui + 1 ≤ a ∧ a < ui + (E.c + 1)) := by
  unfold ImplicitHConvolution.touched at h
  rcases h with h | h | h | h | h | h <;> omega

theorem touched_disjoint (E : ImplicitHConvolution) (hc : E.c = E.m / 2) (P0 : Ptrs)
    (L : HLayout E.m E.c E.A P0 E.U) :
    ∀ i k i2 k2 a, i < E.A → 1 ≤ k → k < (E.c + 1) / 2 + 1 → i2 < E.A → 1 ≤ k2 →
      k2 < (E.c + 1) / 2 + 1 → E.touched (P0 i) (E.U i) k a →
      E.touched (P0 i2) (E.U i2) k2 a → i = i2 ∧ k = k2 := by
  intro i k i2 k2 a hi hk1 hk2 hi2 hk3 hk4 h1 h2
  have hii : i = i2 := by
    by_contra hne
    have r1 := touched_range E hc _ _ k a hk1 hk2 h1
    have r2 := touched_range E hc _ _ k2 a hk3 hk4 h2
    have := L.ff i i2 hi hi2 hne
    have := L.uu i i2 hi hi2 hne
    have := L.fu i i2 hi hi2
    have := L.fu i2 i hi2 hi
    omega
  subst hii
  refine ⟨rfl, ?_⟩
  have hfu := L.fu i i hi hi
  unfold ImplicitHConvolution.touched at h1 h2
  rcases h1 with h1 | h1 | h1 | h1 | h1 | h1 <;>
    rcases h2 with h2 | h2 | h2 | h2 | h2 | h2 <;> omega

set_option maxHeartbeats 1000000 in
/-- The blocked loop of `premult`, cell by cell: the input cells `1..c` hold the `r = 0`
values, the cells `start+1..start+c` the `r = 1` values, the work cells `1..c` the `r = -1`
values (for an even `m`, the cells of index `c` are left to the last block of `premult`);
the cells of index `0` are kept. -/
theorem premult_loop_values (E : ImplicitHConvolution) (hc : E.c = E.m / 2) (hm : 0 < E.m)
    (hs : 0 < E.s) (ζ : ℂ) (hζ : (starRingEnd ℂ) ζ * ζ = 1)
    (htab : ∀ k, k ≤ E.c + 1 → tab E.ZetaH (k / E.s) * tab E.ZetaL (k % E.s) = ζ ^ k)
    (P0 : Ptrs) (L : HLayout E.m E.c E.A P0 E.U) (μ : Mem) :
    ∃ ν, E.premult_loop P0 μ = some ν ∧ ∀ i, i < E.A →
      ν (P0 i) = μ (P0 i) ∧ ν (E.U i) = μ (E.U i) ∧
      (∀ j, 1 ≤ j → j ≤ E.c → (E.m = 2 * E.c → j < E.c) →
        ν (P0 i + j) = μ (P0 i + j) + (starRingEnd ℂ) (μ (P0 i + E.m - j))) ∧
      (∀ j, 1 ≤ j → j ≤ E.c → E.c < E.m - 1 - E.c + j →
        ν (P0 i + (E.m - 1 - E.c) + j) = ζ ^ j * (μ (P0 i + j)
          + (starRingEnd ℂ) (⟨-0.5, hsqrt3⟩ : ℂ) * (starRingEnd ℂ) (μ (P0 i + E.m - j)))) ∧
      (∀ j, 1 ≤ j → j ≤ E.c → (E.m = 2 * E.c → j < E.c) →
        ν (E.U i + j) = (starRingEnd ℂ) (ζ ^ j) * (μ (P0 i + j)
          + (⟨-0.5, hsqrt3⟩ : ℂ) * (starRingEnd ℂ) (μ (P0 i + E.m - j)))) := by
  obtain ⟨ν, hν, hval, hframe⟩ :=
    premult_loop_spec E hs ζ htab P0 (touched_disjoint E hc P0 L) μ
  refine ⟨ν, hν, ?_⟩
  intro i hi
  have hfu := L.fu i i hi hi
  have hpar : E.m = 2 * E.c ∨ E.m = 2 * E.c + 1 := by omega
  have huntouched : ∀ a, (a = P0 i ∨ a = E.U i) → ν a = μ a := by
    intro a ha
    apply hframe
    intro i2 k hi2 hk1 hk2 ht
    have r := touched_range E hc _ _ k a hk1 hk2 ht
    by_cases hii : i2 = i
    · subst hii
      omega
    · have := L.ff i2 i hi2 hi hii
      have := L.uu i2 i hi2 hi hii
      have := L.fu i2 i hi2 hi
      have := L.fu i i2 hi hi2
      omega
  refine ⟨huntouched _ (Or.inl rfl), huntouched _ (Or.inr rfl), ?_, ?_, ?_⟩
  · -- r = 0
    intro j hj1 hj2 hj3
    by_cases hjd : j ≤ (E.c + 1) / 2
    · rw [hval i j (P0 i + j) hi hj1 (by omega)
        (Or.inr (Or.inr (Or.inr (Or.inr (Or.inr rfl))))), premult_step_apply,
        if_neg (by omega), if_neg (by omega), if_neg (by omega), if_neg (by omega)]
      by_cases h5 : P0 i + j = P0 i + (E.c + 1) - j
      · rw [if_pos h5]
        have e1 : P0 i + (E.c + 1) - j = P0 i + j := by omega
        have e2 : P0 i + E.m - (E.c + 1) + j = P0 i + E.m - j := by omega
        rw [e1, e2]
      · rw [if_neg h5, if_pos rfl]
    · rw [hval i (E.c + 1 - j) (P0 i + j) hi (by omega) (by omega)
        (Or.inr (Or.inr (Or.inr (Or.inr (Or.inl (by omega)))))), premult_step_apply,
        if_neg (by omega), if_neg (by omega), if_neg (by omega), if_neg (by omega),
        if_pos (by omega)]
      have e1 : P0 i + (E.c + 1) - (E.c + 1 - j) = P0 i + j := by omega
      have e2 : P0 i + E.m - (E.c + 1) + (E.c + 1 - j) = P0 i + E.m - j := by omega
      rw [e1, e2]
  · -- r = 1
    intro j hj1 hj2 hj3
    by_cases hjd : j ≤ (E.c + 1) / 2
    · rw [hval i j (P0 i + (E.m - 1 - E.c) + j) hi hj1 (by omega) (Or.inl (by omega)),
        premult_step_apply, if_pos (by omega)]
    · rw [hval i (E.c + 1 - j) (P0 i + (E.m - 1 - E.c) + j) hi (by omega) (by omega)
        (Or.inr (Or.inl (by omega))), premult_step_apply,
        if_neg (by omega), if_pos (by omega), conj_pow_mul_pow ζ hζ _ _ (by omega)]
      have e0 : E.c + 1 - (E.c + 1 - j) = j := by omega
      have e1 : P0 i + (E.c + 1) - (E.c + 1 - j) = P0 i + j := by omega
      have e2 : P0 i + E.m - (E.c + 1) + (E.c + 1 - j) = P0 i + E.m - j := by omega
      rw [e0, e1, e2]
  · -- r = -1
    intro j hj1 hj2 hj3
    by_cases hjd : j ≤ (E.c + 1) / 2
    · rw [hval i j (E.U i + j) hi hj1 (by omega)
        (Or.inr (Or.inr (Or.inr (Or.inl rfl)))), premult_step_apply,
        if_neg (by omega), if_neg (by omega)]
      by_cases h3 : E.U i + j = E.U i + (E.c + 1) - j
      · rw [if_pos h3, conj_pow_mul_pow ζ hζ _ _ (by omega)]
        have e0 : E.c + 1 - j = j := by omega
        have e1 : P0 i + (E.c + 1) - j = P0 i + j := by omega
        have e2 : P0 i + E.m - (E.c + 1) + j = P0 i + E.m - j := by omega
        rw [e0, e1, e2]
      · rw [if_neg h3, if_pos rfl]
    · rw [hval i (E.c + 1 - j) (E.U i + j) hi (by omega) (by omega)
        (Or.inr (Or.inr (Or.inl (by omega)))), premult_step_apply,
        if_neg (by omega), if_neg (by omega), if_pos (by omega),
        conj_pow_mul_pow ζ hζ _ _ (by omega)]
      have e0 : E.c + 1 - (E.c + 1 - j) = j := by omega
      have e1 : P0 i + (E.c + 1) - (E.c + 1 - j) = P0 i + j := by omega
      have e2 : P0 i + E.m - (E.c + 1) + (E.c + 1 - j) = P0 i + E.m - j := by omega
      rw [e0, e1, e2]

theorem hsqrt3_sq : hsqrt3 * hsqrt3 = 3 / 4 := by
  unfold hsqrt3 sqrt3
  have h : Real.sqrt 3 * Real.sqrt 3 = 3 := Real.mul_self_sqrt (by norm_num)
  nlinarith [h]

theorem hsqrt3_double : sqrt3 = 2 * hsqrt3 := by
  unfold hsqrt3
  ring

/-- The two values kept in `S` for the mode `c = m/2` of an even `m`. -/
theorem nyquist_values (w : ℂ) (z : ℂ) (hz : z = ⟨0.5, hsqrt3⟩) :
    (((2.0 * w.re : ℝ)) : ℂ) = w + (starRingEnd ℂ) w
      ∧ (((w.re + sqrt3 * w.im : ℝ)) : ℂ)
        = (starRingEnd ℂ) z * (w + (⟨-0.5, hsqrt3⟩ : ℂ) * (starRingEnd ℂ) w) := by
  subst hz
  have h : hsqrt3 ^ 2 = 3 / 4 := by rw [pow_two]; exact hsqrt3_sq
  refine ⟨?_, ?_⟩
  · apply Complex.ext <;> simp <;> ring
  · apply Complex.ext
    · simp [hsqrt3_double]
      ring_nf
      rw [h]
      ring
    · simp [hsqrt3_double]
      ring_nf
      rw [h]
      ring

set_option maxHeartbeats 1000000 in
/-- The memory and the array `f1c` after `premult`: for each input `i`, the cells `1..c` of
the input hold the `r = 0` values, the cells `start+1..start+c` the `r = 1` values (the one
of `k = 1` is in `f1c[i]` for an even `m`), the cells `1..c` of `U[i]` the `r = -1` values;
the cells of index `0` are kept. -/
theorem premult_spec (E : ImplicitHConvolution) (hc : E.c = E.m / 2) (hm : 0 < E.m)
    (hs : 0 < E.s) (ζ : ℂ) (hζ : (starRingEnd ℂ) ζ * ζ = 1)
    (htab : ∀ k, k ≤ E.c + 1 → tab E.ZetaH (k / E.s) * tab E.ZetaL (k % E.s) = ζ ^ k)
    (hhalf : E.m = 2 * E.c → ζ ^ E.c = (⟨0.5, hsqrt3⟩ : ℂ))
    (F : Ptrs) (offset : Nat) (f1c : Nat → ℂ)
    (L : HLayout E.m E.c E.A (fun i => F i + offset) E.U) (μ : Mem) :
    ∃ ν f1c2, E.premult F offset f1c μ = some (ν, f1c2) ∧ ∀ i, i < E.A →
      ν (F i + offset) = μ (F i + offset) ∧ ν (E.U i) = μ (E.U i) ∧
      (∀ j, 1 ≤ j → j ≤ E.c →
        ν (F i + offset + j)
          = μ (F i + offset + j) + (starRingEnd ℂ) (μ (F i + offset + E.m - j))) ∧
      (∀ j, 1 ≤ j → j ≤ E.c → E.c < E.m - 1 - E.c + j →
        ν (F i + offset + (E.m - 1 - E.c) + j) = ζ ^ j * (μ (F i + offset + j)
          + (starRingEnd ℂ) (⟨-0.5, hsqrt3⟩ : ℂ)
            * (starRingEnd ℂ) (μ (F i + offset + E.m - j)))) ∧
      (E.m = 2 * E.c → f1c2 i = ζ ^ 1 * (μ (F i + offset + 1)
          + (starRingEnd ℂ) (⟨-0.5, hsqrt3⟩ : ℂ)
            * (starRingEnd ℂ) (μ (F i + offset + E.m - 1)))) ∧
      (∀ j, 1 ≤ j → j ≤ E.c →
        ν (E.U i + j) = (starRingEnd ℂ) (ζ ^ j) * (μ (F i + offset + j)
          + (⟨-0.5, hsqrt3⟩ : ℂ) * (starRingEnd ℂ) (μ (F i + offset + E.m - j)))) := by
  obtain ⟨P0, hP0⟩ : ∃ P0 : Ptrs,
      P0 = forUpTo (fun i P => Function.update P i (F i + offset)) E.A (fun _ => 0) := ⟨_, rfl⟩
  have hP : ∀ i, i < E.A → P0 i = F i + offset := by
    intro i hi
    rw [hP0]
    exact forUpTo_update_apply (fun i => F i + offset) E.A i hi
  have L0 : HLayout E.m E.c E.A P0 E.U := by
    refine ⟨?_, L.uu, ?_⟩
    · intro i j hi hj hne
      rw [hP i hi, hP j hj]
      exact L.ff i j hi hj hne
    · intro i j hi hj
      rw [hP i hi]
      exact L.fu i j hi hj
  obtain ⟨ν, hν, hvals⟩ := premult_loop_values E hc hm hs ζ hζ htab P0 L0 μ
  by_cases heven : E.m = 2 * E.c
  · have hd : decide (E.m = 2 * E.c) = true := decide_eq_true heven
    have hrun : E.premult F offset f1c μ
        = some (E.premult_restore P0 (E.premult_even P0 f1c μ).2 ν,
            (E.premult_even P0 f1c μ).1) := by
      unfold ImplicitHConvolution.premult
      simp only [hd, if_true, ← hP0, hν, Option.map_some']
    refine ⟨_, _, hrun, ?_⟩
    intro i hi
    obtain ⟨h0, hu0, h1, h2, h4⟩ := hvals i hi
    obtain ⟨hre, hfr⟩ := premult_restore_spec E P0 (E.premult_even P0 f1c μ).2 ν L0 (by omega)
    obtain ⟨hf1c, hS⟩ := premult_even_spec E ζ htab P0 f1c μ i hi
    have hfu := L0.fu i i hi hi
    have hother : ∀ a, ((P0 i ≤ a ∧ a < P0 i + E.m) ∨ (E.U i ≤ a ∧ a < E.U i + (E.c + 1))) →
        a ≠ P0 i + E.c → a ≠ E.U i + E.c →
        E.premult_restore P0 (E.premult_even P0 f1c μ).2 ν a = ν a := by
      intro a ha h1 h2
      apply hfr
      intro i2 hi2
      by_cases hii : i2 = i
      · subst hii
        exact ⟨h1, h2⟩
      · have := L0.ff i2 i hi2 hi hii
        have := L0.uu i2 i hi2 hi hii
        have := L0.fu i2 i hi2 hi
        have := L0.fu i i2 hi hi2
        omega
    have hny := nyquist_values (μ (P0 i + E.c)) (ζ ^ E.c) (hhalf heven)
    rw [← hP i hi]
    refine ⟨?_, ?_, ?_, ?_, ?_, ?_⟩
    · rw [hother _ (by omega) (by omega) (by omega)]
      exact h0
    · rw [hother _ (by omega) (by omega) (by omega)]
      exact hu0
    · intro j hj1 hj2
      by_cases hjc : j = E.c
      · subst hjc
        rw [(hre i hi).1, hS]
        have e : P0 i + E.m - E.c = P0 i + E.c := by omega
        rw [e]
        exact hny.1
      · rw [hother _ (by omega) (by omega) (by omega)]
        exact h1 j hj1 hj2 (fun _ => by omega)
    · intro j hj1 hj2 hj3
      rw [hother _ (by omega) (by omega) (by omega)]
      exact h2 j hj1 hj2 hj3
    · intro _
      rw [hf1c]
      have e : P0 i + (E.m - 1) = P0 i + E.m - 1 := by omega
      rw [e]
    · intro j hj1 hj2
      by_cases hjc : j = E.c
      · subst hjc
        rw [(hre i hi).2, hS]
        have e : P0 i + E.m - E.c = P0 i + E.c := by omega
        rw [e]
        exact hny.2
      · rw [hother _ (by omega) (by omega) (by omega)]
        exact h4 j hj1 hj2 (fun _ => by omega)
  · have hd : decide (E.m = 2 * E.c) = false := decide_eq_false heven
    have hrun : E.premult F offset f1c μ = some (ν, f1c) := by
      unfold ImplicitHConvolution.premult
      simp only [hd, ← hP0, hν, Option.map_some']
      rfl
    refine ⟨_, _, hrun, ?_⟩
    intro i hi
    obtain ⟨h0, hu0, h1, h2, h4⟩ := hvals i hi
    rw [← hP i hi]
    exact ⟨h0, hu0, fun j hj1 hj2 => h1 j hj1 hj2 (fun h => absurd h heven), h2,
      fun h => absurd h heven, fun j hj1 hj2 => h4 j hj1 hj2 (fun h => absurd h heven)⟩

/-- The memory after one round of the innermost loop of the out-of-place `postmultadd`. -/
theorem postmultadd_step_apply (E : ImplicitHConvolution) (f0 ui c2Bi k : Nat) (ninv : ℝ)
    (Zetak : Vec) (μ : Mem) (a : Nat) :
    E.postmultadd_step f0 ui c2Bi k (LOADd ninv) Zetak μ a =
      if a = f0 + E.m - k then
        (starRingEnd ℂ) ((ninv : ℂ) * μ (f0 + k) + ((-0.5 : ℝ) : ℂ)
            * ((starRingEnd ℂ) Zetak * μ (c2Bi + k) + Zetak * μ (ui + k)))
          - (hsqrt3 : ℂ) * (Complex.I * (starRingEnd ℂ)
            ((starRingEnd ℂ) Zetak * μ (c2Bi + k) - Zetak * μ (ui + k)))
      else if a = f0 + k then
        (ninv : ℂ) * μ (f0 + k) + ((starRingEnd ℂ) Zetak * μ (c2Bi + k) + Zetak * μ (ui + k))
      else μ a := by
  unfold ImplicitHConvolution.postmultadd_step
  simp only [STORE, Function.update_apply, LOAD, vmul_LOADd, vmul_LOADd_right, ZMULTC_eq_mul,
    ZMULT_eq_mul, CONJ_eq, FLIP_eq]

theorem postmultadd_step_acts (E : ImplicitHConvolution) (f0 ui c2Bi k : Nat) (ninv : ℝ)
    (Zetak : Vec) :
    Acts (E.postmultadd_step f0 ui c2Bi k (LOADd ninv) Zetak)
      (E.recombined_cells f0 ui c2Bi k) := by
  refine ⟨?_, ?_⟩
  · intro μ a ha
    unfold ImplicitHConvolution.recombined_cells at ha
    simp only [not_or] at ha
    rw [postmultadd_step_apply, if_neg ha.1, if_neg ha.2.1]
  · intro μ ν hμν a ha
    rw [postmultadd_step_apply, postmultadd_step_apply,
      hμν (f0 + k) (Or.inr (Or.inl rfl)), hμν (c2Bi + k) (Or.inr (Or.inr (Or.inl rfl))),
      hμν (ui + k) (Or.inr (Or.inr (Or.inr rfl))), hμν a ha]

theorem block_lookup_scaled (ZetaH ZetaL : List ℂ) (ninv : ℝ) (s q k : Nat) (hs : 0 < s)
    (h1 : q * s ≤ k) (h2 : k < q * s + s) :
    ZMULT3 (UNPACKL (vmul (LOADd ninv) (tab ZetaH (q * s / s)))
          (vmul (LOADd ninv) (tab ZetaH (q * s / s))))
        (UNPACKH (CONJ (vmul (LOADd ninv) (tab ZetaH (q * s / s))))
          (vmul (LOADd ninv) (tab ZetaH (q * s / s)))) (tab ZetaL (k - q * s))
      = (ninv : ℂ) * (tab ZetaH (k / s) * tab ZetaL (k % s)) := by
  rw [ZMULT3_unpack, vmul_LOADd, Nat.mul_div_cancel _ hs, div_mul_block s q k h1 h2]
  have := Nat.div_add_mod k s
  have e := div_mul_block s q k h1 h2
  rw [e] at this
  have h3 : s * q = q * s := Nat.mul_comm _ _
  have : k - q * s = k % s := by omega
  rw [this, mul_assoc]

set_option maxHeartbeats 1000000 in
/-- The out-of-place `postmultadd` for `B = 1`: with the three transforms at `f0 = c0[0]`
(`r = 0`), `c2B[0]` (`r = 1`) and `c2[0]` (`r = -1`), cells `0..c` each, the cell `f0 + k`
ends with the sum of the three contributions and the cell `f0 + m - k` with the conjugate
combination; `f0[0]` is kept. -/
theorem postmultadd_spec (E : ImplicitHConvolution) (hB : E.B = 1) (hc : E.c = E.m / 2)
    (hm : 0 < E.m) (hs : 0 < E.s) (ζ : ℂ)
    (htab : ∀ k, k ≤ E.c + 1 → tab E.ZetaH (k / E.s) * tab E.ZetaL (k % E.s) = ζ ^ k)
    (c2 c0 c2B : Ptrs)
    (h1 : c0 0 + E.m ≤ c2 0 ∨ c2 0 + (E.c + 1) ≤ c0 0)
    (h2 : c0 0 + E.m ≤ c2B 0 ∨ c2B 0 + (E.c + 1) ≤ c0 0)
    (h3 : c2 0 + (E.c + 1) ≤ c2B 0 ∨ c2B 0 + (E.c + 1) ≤ c2 0) (μ : Mem) :
    ∃ ν, E.postmultadd c2 c0 c2B μ = some ν ∧ ν (c0 0) = μ (c0 0) ∧
      (∀ k, 1 ≤ k → k ≤ E.c → 2 * k < E.m →
        ν (c0 0 + k) = (((1.0 / (3.0 * (E.m : ℝ)) : ℝ)) : ℂ) * μ (c0 0 + k)
          + ((starRingEnd ℂ) ((((1.0 / (3.0 * (E.m : ℝ)) : ℝ)) : ℂ) * ζ ^ k) * μ (c2B 0 + k)
            + (((1.0 / (3.0 * (E.m : ℝ)) : ℝ)) : ℂ) * ζ ^ k * μ (c2 0 + k))) ∧
      (∀ k, 1 ≤ k → k ≤ E.c →
        ν (c0 0 + E.m - k) =
          (starRingEnd ℂ) ((((1.0 / (3.0 * (E.m : ℝ)) : ℝ)) : ℂ) * μ (c0 0 + k)
            + ((-0.5 : ℝ) : ℂ)
              * ((starRingEnd ℂ) ((((1.0 / (3.0 * (E.m : ℝ)) : ℝ)) : ℂ) * ζ ^ k)
                  * μ (c2B 0 + k)
                + (((1.0 / (3.0 * (E.m : ℝ)) : ℝ)) : ℂ) * ζ ^ k * μ (c2 0 + k)))
          - (hsqrt3 : ℂ) * (Complex.I * (starRingEnd ℂ)
            ((starRingEnd ℂ) ((((1.0 / (3.0 * (E.m : ℝ)) : ℝ)) : ℂ) * ζ ^ k) * μ (c2B 0 + k)
              - (((1.0 / (3.0 * (E.m : ℝ)) : ℝ)) : ℂ) * ζ ^ k * μ (c2 0 + k)))) := by
  obtain ⟨ν, hν, hval, hframe⟩ := nested_value (E.c + 1) E.s E.B hs
    (fun K i k μ => E.postmultadd_step (c0 i) (c2 i) (c2B i) k
      (LOADd (1.0 / (3.0 * (E.m : ℝ))))
      (ZMULT3 (UNPACKL (vmul (LOADd (1.0 / (3.0 * (E.m : ℝ)))) (tab E.ZetaH (K / E.s)))
          (vmul (LOADd (1.0 / (3.0 * (E.m : ℝ)))) (tab E.ZetaH (K / E.s))))
        (UNPACKH (CONJ (vmul (LOADd (1.0 / (3.0 * (E.m : ℝ)))) (tab E.ZetaH (K / E.s))))
          (vmul (LOADd (1.0 / (3.0 * (E.m : ℝ)))) (tab E.ZetaH (K / E.s))))
        (tab E.ZetaL (k - K))) μ)
    (fun i k => E.postmultadd_step (c0 i) (c2 i) (c2B i) k (LOADd (1.0 / (3.0 * (E.m : ℝ))))
      ((((1.0 / (3.0 * (E.m : ℝ)) : ℝ)) : ℂ) * ζ ^ k))
    (fun i k => E.recombined_cells (c0 i) (c2 i) (c2B i) k)
    (fun q i k hi hk1 hq1 hq2 hkM => by
      funext μ
      show E.postmultadd_step (c0 i) (c2 i) (c2B i) k _ _ μ = _
      rw [block_lookup_scaled E.ZetaH E.ZetaL _ E.s q k hs hq1 hq2, htab k (by omega)])
    (fun i k _ _ _ => postmultadd_step_acts E _ _ _ _ _ _)
    (fun i k i2 k2 a hi hk1 hk2 hi2 hk3 hk4 ht1 ht2 => by
      have e1 : i = 0 := by omega
      have e2 : i2 = 0 := by omega
      subst e1 e2
      refine ⟨rfl, ?_⟩
      unfold ImplicitHConvolution.recombined_cells at ht1 ht2
      rcases ht1 with ht1 | ht1 | ht1 | ht1 <;> rcases ht2 with ht2 | ht2 | ht2 | ht2 <;> omega)
    μ
  refine ⟨ν, hν, ?_, ?_, ?_⟩
  · apply hframe
    intro i k hi hk1 hk2 ht
    have e1 : i = 0 := by omega
    subst e1
    unfold ImplicitHConvolution.recombined_cells at ht
    rcases ht with ht | ht | ht | ht <;> omega
  · intro k hk1 hk2 hk3
    rw [hval 0 k (c0 0 + k) (by omega) hk1 (by omega) (Or.inr (Or.inl rfl)),
      postmultadd_step_apply, if_neg (by omega), if_pos rfl]
  · intro k hk1 hk2
    rw [hval 0 k (c0 0 + E.m - k) (by omega) hk1 (by omega) (Or.inl rfl),
      postmultadd_step_apply, if_pos rfl]

theorem loadD_storeD_same (μ : Mem) (q j : Nat) (v : ℝ) : loadD (storeD μ q j v) q j = v := by
  unfold loadD storeD
  by_cases h : j % 2 = 0
  · simp only [h, if_true, Function.update_same]
  · simp only [h, if_false, Function.update_same]

theorem loadD_storeD_other (μ : Mem) (q j : Nat) (v : ℝ) (q2 j2 : Nat)
    (h : q2 + j2 / 2 ≠ q + j / 2 ∨ j2 % 2 ≠ j % 2) :
    loadD (storeD μ q j v) q2 j2 = loadD μ q2 j2 := by
  unfold loadD storeD
  by_cases hcell : q2 + j2 / 2 = q + j / 2
  · have hpar : j2 % 2 ≠ j % 2 := by
      rcases h with h | h
      · exact absurd hcell h
      · exact h
    rw [hcell]
    by_cases h2 : j2 % 2 = 0
    · have h3 : ¬ (j % 2 = 0) := by omega
      simp only [h2, h3, if_true, if_false, Function.update_same]
    · have h3 : j % 2 = 0 := by omega
      simp only [h2, h3, if_true, if_false, Function.update_same]
  · rw [Function.update_noteq hcell]

theorem storeD_other (μ : Mem) (q j : Nat) (v : ℝ) (a : Nat) (h : a ≠ q + j / 2) :
    storeD μ q j v a = μ a := by
  unfold storeD
  rw [Function.update_noteq h]

theorem loadD_congr (μ ν : Mem) (q q2 j : Nat) (h : μ (q + j / 2) = ν (q2 + j / 2)) :
    loadD μ q j = loadD ν q2 j := by
  unfold loadD
  rw [h]

/-- The real `multbinary` on two arrays of `m` doubles that are apart: `F0[j] *= F1[j]` for
`j < m`, and no other double is changed. -/
theorem multbinary_double_spec (F : Ptrs) (m : Nat) (μ : Mem)
    (h : F 0 + (m + 1) / 2 ≤ F 1 ∨ F 1 + (m + 1) / 2 ≤ F 0) :
    (∀ j, j < m → loadD (multbinary_double F m μ) (F 0) j
        = loadD μ (F 0) j * loadD μ (F 1) j)
      ∧ (∀ j, m ≤ j → loadD (multbinary_double F m μ) (F 0) j = loadD μ (F 0) j)
      ∧ (∀ a, (a < F 0 ∨ F 0 + (m + 1) / 2 ≤ a) → multbinary_double F m μ a = μ a) := by
  have gen : ∀ n, n ≤ m →
      (∀ j, j < n → loadD (forUpTo (fun j μ => storeD μ (F 0) j
          (loadD μ (F 0) j * loadD μ (F 1) j)) n μ) (F 0) j
        = loadD μ (F 0) j * loadD μ (F 1) j)
      ∧ (∀ j, n ≤ j → loadD (forUpTo (fun j μ => storeD μ (F 0) j
          (loadD μ (F 0) j * loadD μ (F 1) j)) n μ) (F 0) j = loadD μ (F 0) j)
      ∧ (∀ a, (a < F 0 ∨ F 0 + (n + 1) / 2 ≤ a) → forUpTo (fun j μ => storeD μ (F 0) j
          (loadD μ (F 0) j * loadD μ (F 1) j)) n μ a = μ a) := by
    intro n
    induction n with
    | zero =>
      intro _
      exact ⟨fun j hj => by omega, fun j _ => rfl, fun a _ => rfl⟩
    | succ n ih =>
      intro hn
      obtain ⟨ih1, ih2, ih3⟩ := ih (by omega)
      have e0 : loadD (forUpTo (fun j μ => storeD μ (F 0) j
          (loadD μ (F 0) j * loadD μ (F 1) j)) n μ) (F 0) n = loadD μ (F 0) n :=
        ih2 n (le_refl _)
      have e1 : loadD (forUpTo (fun j μ => storeD μ (F 0) j
          (loadD μ (F 0) j * loadD μ (F 1) j)) n μ) (F 1) n = loadD μ (F 1) n := by
        apply loadD_congr
        apply ih3
        omega
      simp only [forUpTo]
      rw [e0, e1]
      refine ⟨?_, ?_, ?_⟩
      · intro j hj
        by_cases hjn : j = n
        · subst hjn
          rw [loadD_storeD_same]
        · rw [loadD_storeD_other _ _ _ _ _ _ (by omega)]
          exact ih1 j (by omega)
      · intro j hj
        rw [loadD_storeD_other _ _ _ _ _ _ (by omega)]
        exact ih2 j (by omega)
      · intro a ha
        rw [storeD_other _ _ _ _ _ (by omega)]
        exact ih3 a (by omega)
  exact gen m (le_refl _)

theorem fftCR_loadD (T : TransformCR) (m inp out : Nat) (μ : Mem) (j : Nat) (hj : j < m) :
    loadD (fftCR T m inp out μ) out j = T (arr (m / 2 + 1) μ inp) j := by
  unfold loadD fftCR
  have h1 : out ≤ out + j / 2 ∧ 2 * (out + j / 2 - out) < m := by omega
  rw [if_pos h1]
  by_cases hp : j % 2 = 0
  · rw [if_pos hp]
    have : 2 * (out + j / 2 - out) = j := by omega
    rw [this]
  · rw [if_neg hp]
    have h2 : 2 * (out + j / 2 - out) + 1 = j := by omega
    rw [h2, if_pos hj]

theorem fftCR_frame (T : TransformCR) (m inp out : Nat) (μ : Mem) (a : Nat)
    (h : a < out ∨ out + (m + 1) / 2 ≤ a) : fftCR T m inp out μ a = μ a := by
  unfold fftCR
  rw [if_neg (by omega)]

theorem fftRC_apply (T : TransformRC) (m inp out : Nat) (μ : Mem) (k : Nat) (hk : k ≤ m / 2) :
    fftRC T m inp out μ (out + k) = T (arrD m μ inp) k := by
  unfold fftRC
  rw [if_pos (by omega), Nat.add_sub_cancel_left]

theorem fftRC_frame (T : TransformRC) (m inp out : Nat) (μ : Mem) (a : Nat)
    (h : a < out ∨ out + (m / 2 + 1) ≤ a) : fftRC T m inp out μ a = μ a := by
  unfold fftRC
  rw [if_neg (by omega)]

theorem arrD_congr (m : Nat) (μ ν : Mem) (q q2 : Nat)
    (h : ∀ j, j < m → loadD μ q j = loadD ν q2 j) : arrD m μ q = arrD m ν q2 := by
  funext j
  unfold arrD
  by_cases hj : j < m
  · rw [if_pos hj, if_pos hj, h j hj]
  · rw [if_neg hj, if_neg hj]

theorem convolve_pointers_two (E : ImplicitHConvolution) (hA : E.A = 2) (F : Ptrs)
    (offset : Nat) (μ : Mem) (hne : F 1 + offset ≠ E.U 0) :
    (E.convolve_pointers F offset μ).c0 0 = F 0 + offset
      ∧ (E.convolve_pointers F offset μ).c0 1 = F 1 + offset
      ∧ (E.convolve_pointers F offset μ).c1 0 = F 0 + offset + (E.m - 1 - E.c)
      ∧ (E.convolve_pointers F offset μ).c1 1 = F 1 + offset + (E.m - 1 - E.c)
      ∧ (E.convolve_pointers F offset μ).c2 0 = E.U 0
      ∧ (E.convolve_pointers F offset μ).c2 1 = E.U 1
      ∧ (E.convolve_pointers F offset μ).mem
        = STORE (STORE μ (E.U 0) (((μ (F 0 + offset)).re : ℝ) : ℂ)) (E.U 1)
            (((μ (F 1 + offset)).re : ℝ) : ℂ) := by
  unfold ImplicitHConvolution.convolve_pointers
  simp only [hA, forUpTo, if_true]
  refine ⟨rfl, rfl, rfl, rfl, rfl, rfl, ?_⟩
  rw [STORE_other _ _ _ _ hne]

theorem convolve_outputs_two (E : ImplicitHConvolution) (hA : E.A = 2) (c0 c2 : Ptrs) :
    E.convolve_outputs true c0 c2 0 = c0 1 ∧ E.convolve_outputs true c0 c2 1 = c2 1 := by
  unfold ImplicitHConvolution.convolve_outputs
  simp only [hA, forUpTo, if_true]
  exact ⟨rfl, rfl⟩

/-- The block `r=2` for `A = 2` and the real `multbinary`: the doubles of `U[0]` end as the
products of the two transforms; nothing outside `U[0]`, `U[1]` is changed. -/
theorem convolve_r2_spec (E : ImplicitHConvolution) (hA : E.A = 2) (hc : E.c = E.m / 2)
    (c2 : Ptrs) (u0 u1 : Nat) (h0 : c2 0 = u0) (h1 : c2 1 = u1)
    (huu : u0 + (E.c + 1) ≤ u1 ∨ u1 + (E.c + 1) ≤ u0) (ν : Mem) :
    (∀ j, j < E.m → loadD (E.convolve_r2 multbinary_double c2 ν) u0 j
        = E.cr (arr (E.c + 1) ν u0) j * E.cr (arr (E.c + 1) ν u1) j)
      ∧ ∀ a, (a < u0 ∨ u0 + (E.c + 1) ≤ a) → (a < u1 ∨ u1 + (E.c + 1) ≤ a) →
        E.convolve_r2 multbinary_double c2 ν a = ν a := by
  unfold ImplicitHConvolution.convolve_r2
  simp only [hA, forUpTo, h0, h1]
  have hmc : E.m / 2 + 1 = E.c + 1 := by omega
  obtain ⟨m1, m2, m3⟩ := multbinary_double_spec c2 E.m
    (fftCR E.cr E.m u1 u1 (fftCR E.cr E.m u0 u0 ν)) (by rw [h0, h1]; omega)
  rw [h0] at m1 m2 m3
  rw [h1] at m1
  have e1 : arr (E.c + 1) (fftCR E.cr E.m u0 u0 ν) u1 = arr (E.c + 1) ν u1 := by
    apply arr_ext
    intro k hk
    exact fftCR_frame _ _ _ _ _ _ (by omega)
  refine ⟨?_, ?_⟩
  · intro j hj
    rw [m1 j hj, fftCR_loadD _ _ _ _ _ j hj, hmc, e1]
    congr 1
    rw [loadD_congr _ (fftCR E.cr E.m u0 u0 ν) u0 u0 j (fftCR_frame _ _ _ _ _ _ (by omega)),
      fftCR_loadD _ _ _ _ _ j hj, hmc]
  · intro a ha0 ha1
    rw [m3 a (by omega), fftCR_frame _ _ _ _ _ _ (by omega),
      fftCR_frame _ _ _ _ _ _ (by omega)]

/-- The block `r=0` for `A = 2`, out of place, and the real `multbinary`: `T` keeps the real
parts of the two zero modes, the doubles of `g` end as the products of the two transforms;
nothing outside the first half of `g` and `U[1]` is changed. -/
theorem convolve_r0_spec (E : ImplicitHConvolution) (hA : E.A = 2) (hc : E.c = E.m / 2)
    (c0 d0 : Ptrs) (pf pg u0 u1 : Nat) (h0 : c0 0 = pf) (h1 : c0 1 = pg) (h2 : d0 0 = pg)
    (h3 : d0 1 = u1) (L : HBuf E.m E.c pf pg u0 u1) (μ : Mem) :
    (E.convolve_r0 multbinary_double true c0 d0 μ).1 0 = (μ pf).re
      ∧ (E.convolve_r0 multbinary_double true c0 d0 μ).1 1 = (μ pg).re
      ∧ (∀ j, j < E.m → loadD (E.convolve_r0 multbinary_double true c0 d0 μ).2 pg j
          = E.cro (arr (E.c + 1) μ pf) j * E.cro (arr (E.c + 1) μ pg) j)
      ∧ ∀ a, (a < pg ∨ pg + (E.m + 1) / 2 ≤ a) → (a < u1 ∨ u1 + (E.c + 1) ≤ a) →
        (E.convolve_r0 multbinary_double true c0 d0 μ).2 a = μ a := by
  unfold ImplicitHConvolution.convolve_r0
  simp only [hA, forDownFrom, h0, h1, h2, h3, if_true]
  have hmc : E.m / 2 + 1 = E.c + 1 := by omega
  have hfg := L.fg
  have hfu1 := L.fu1
  have hgu1 := L.gu1
  obtain ⟨m1, m2, m3⟩ := multbinary_double_spec d0 E.m
    (fftCR E.cro E.m pf pg (fftCR E.cro E.m pg u1 μ)) (by rw [h2, h3]; omega)
  rw [h2] at m1 m2 m3
  rw [h3] at m1
  have e1 : arr (E.c + 1) (fftCR E.cro E.m pg u1 μ) pf = arr (E.c + 1) μ pf := by
    apply arr_ext
    intro k hk
    exact fftCR_frame _ _ _ _ _ _ (by omega)
  refine ⟨?_, ?_, ?_, ?_⟩
  · rw [Function.update_same, fftCR_frame _ _ _ _ _ _ (by omega)]
  · rw [Function.update_noteq (by decide), Function.update_same]
  · intro j hj
    rw [m1 j hj, fftCR_loadD _ _ _ _ _ j hj, hmc, e1]
    congr 1
    rw [loadD_congr _ (fftCR E.cro E.m pg u1 μ) u1 u1 j (fftCR_frame _ _ _ _ _ _ (by omega)),
      fftCR_loadD _ _ _ _ _ j hj, hmc]
  · intro a ha0 ha1
    rw [m3 a (by omega), fftCR_frame _ _ _ _ _ _ (by omega),
      fftCR_frame _ _ _ _ _ _ (by omega)]

theorem STORE_apply (μ : Mem) (p : Nat) (v : ℂ) (a : Nat) :
    STORE μ p v a = if a = p then v else μ a := by
  unfold STORE
  rw [Function.update_apply]

set_option maxHeartbeats 1000000 in
/-- The block `r=1` for `A = 2`, out of place, and the real `multbinary`: the doubles from
`g + start` on end as the products of the two transforms of the `r = 1` sequences (zero mode
from `T`, the mode `1` from `c1c` for an even `m`); the cells before `g + start`, the first
cells of `f` and `U[0]` are kept. -/
theorem convolve_r1_spec (E : ImplicitHConvolution) (hA : E.A = 2) (hc : E.c = E.m / 2)
    (hm : 0 < E.m) (c1 d1 : Ptrs) (pf pg u0 u1 : Nat)
    (h0 : c1 0 = pf + (E.m - 1 - E.c)) (h1 : c1 1 = pg + (E.m - 1 - E.c))
    (h2 : d1 0 = pg + (E.m - 1 - E.c)) (h3 : d1 1 = u1) (L : HBuf E.m E.c pf pg u0 u1)
    (T : Nat → ℝ) (c1c : Nat → ℂ) (μ : Mem) :
    (∀ j, j < E.m →
        loadD (E.convolve_r1 multbinary_double true c1 d1 T c1c μ).2 (pg + (E.m - 1 - E.c)) j
          = E.cro (restr (E.c + 1) (fun k => if k = 0 then ((T 0 : ℝ) : ℂ)
              else if k = 1 ∧ E.m = 2 * E.c then c1c 0
              else μ (pf + (E.m - 1 - E.c) + k))) j
            * E.cro (restr (E.c + 1) (fun k => if k = 0 then ((T 1 : ℝ) : ℂ)
              else if k = 1 ∧ E.m = 2 * E.c then c1c 1
              else μ (pg + (E.m - 1 - E.c) + k))) j)
      ∧ ∀ a, (a < pg + (E.m - 1 - E.c) ∨ pg + E.m ≤ a) → (a < u1 ∨ u1 + (E.c + 1) ≤ a) →
        a ≠ pf + (E.m - 1 - E.c) → (E.m = 2 * E.c → a ≠ pf + (E.m - 1 - E.c) + 1) →
        (E.convolve_r1 multbinary_double true c1 d1 T c1c μ).2 a = μ a := by
  have hmc : E.m / 2 + 1 = E.c + 1 := by omega
  have hfg := L.fg
  have hfu1 := L.fu1
  have hgu1 := L.gu1
  by_cases heven : E.m = 2 * E.c
  · have hd : decide (E.m = 2 * E.c) = true := decide_eq_true heven
    unfold ImplicitHConvolution.convolve_r1
    simp only [hA, forDownFrom, h0, h1, h2, h3, if_true, hd]
    obtain ⟨μg, hμg⟩ : ∃ μg, μg = STORE (STORE μ (pg + (E.m - 1 - E.c)) ((T 1 : ℝ) : ℂ))
      (pg + (E.m - 1 - E.c) + 1) (c1c 1) := ⟨_, rfl⟩
    rw [← hμg]
    obtain ⟨μf, hμf⟩ : ∃ μf, μf = STORE (STORE (fftCR E.cro E.m (pg + (E.m - 1 - E.c)) u1 μg)
      (pf + (E.m - 1 - E.c)) ((T 0 : ℝ) : ℂ)) (pf + (E.m - 1 - E.c) + 1)
      (Function.update c1c 1 (STORE μ (pg + (E.m - 1 - E.c)) ((T 1 : ℝ) : ℂ)
        (pg + (E.m - 1 - E.c) + 1)) 0) := ⟨_, rfl⟩
    rw [← hμf]
    have hc10 : Function.update c1c 1 (STORE μ (pg + (E.m - 1 - E.c)) ((T 1 : ℝ) : ℂ)
        (pg + (E.m - 1 - E.c) + 1)) 0 = c1c 0 := Function.update_noteq (by decide) _ _
    rw [hc10] at hμf
    have hg : arr (E.c + 1) μg (pg + (E.m - 1 - E.c))
        = restr (E.c + 1) (fun k => if k = 0 then ((T 1 : ℝ) : ℂ)
              else if k = 1 ∧ E.m = 2 * E.c then c1c 1
              else μ (pg + (E.m - 1 - E.c) + k)) := by
      funext k
      unfold arr restr
      by_cases hk : k < E.c + 1
      · rw [if_pos hk, if_pos hk, hμg]
        beta_reduce
        rw [STORE_apply, STORE_apply]
        split_ifs <;> first | rfl | (exfalso; omega)
      · rw [if_neg hk, if_neg hk]
    have hf : arr (E.c + 1) μf (pf + (E.m - 1 - E.c))
        = restr (E.c + 1) (fun k => if k = 0 then ((T 0 : ℝ) : ℂ)
              else if k = 1 ∧ E.m = 2 * E.c then c1c 0
              else μ (pf + (E.m - 1 - E.c) + k)) := by
      funext k
      unfold arr restr
      by_cases hk : k < E.c + 1
      · rw [if_pos hk, if_pos hk, hμf]
        beta_reduce
        rw [STORE_apply, STORE_apply]
        split_ifs <;> first | rfl | (exfalso; omega) | skip
        rw [fftCR_frame _ _ _ _ _ _ (by omega), hμg, STORE_apply, STORE_apply,
          if_neg (by omega), if_neg (by omega)]
      · rw [if_neg hk, if_neg hk]
    obtain ⟨m1, m2, m3⟩ := multbinary_double_spec d1 E.m
      (fftCR E.cro E.m (pf + (E.m - 1 - E.c)) (pg + (E.m - 1 - E.c)) μf)
      (by rw [h2, h3]; omega)
    rw [h2] at m1 m2 m3
    rw [h3] at m1
    refine ⟨?_, ?_⟩
    · intro j hj
      rw [m1 j hj, fftCR_loadD _ _ _ _ _ j hj, hmc, hf]
      congr 1
      rw [loadD_congr _ μf u1 u1 j (fftCR_frame _ _ _ _ _ _ (by omega)),
        loadD_congr μf (fftCR E.cro E.m (pg + (E.m - 1 - E.c)) u1 μg) u1 u1 j (by
          rw [hμf, STORE_apply, STORE_apply, if_neg (by omega), if_neg (by omega)]),
        fftCR_loadD _ _ _ _ _ j hj, hmc, hg]
    · intro a ha0 ha1 ha2 ha3
      rw [m3 a (by omega), fftCR_frame _ _ _ _ _ _ (by omega), hμf, STORE_apply, STORE_apply,
        if_neg (ha3 heven), if_neg ha2, fftCR_frame _ _ _ _ _ _ (by omega), hμg, STORE_apply,
        STORE_apply, if_neg (by omega), if_neg (by omega)]
  · have hd : decide (E.m = 2 * E.c) = false := decide_eq_false heven
    unfold ImplicitHConvolution.convolve_r1
    simp only [hA, forDownFrom, h0, h1, h2, h3, if_true, hd]
    obtain ⟨μg, hμg⟩ : ∃ μg, μg = STORE μ (pg + (E.m - 1 - E.c)) ((T 1 : ℝ) : ℂ) := ⟨_, rfl⟩
    rw [← hμg]
    obtain ⟨μf, hμf⟩ : ∃ μf, μf = STORE (fftCR E.cro E.m (pg + (E.m - 1 - E.c)) u1 μg)
      (pf + (E.m - 1 - E.c)) ((T 0 : ℝ) : ℂ) := ⟨_, rfl⟩
    simp only [Bool.false_eq_true, if_false]
    rw [← hμf]
    have hg : arr (E.c + 1) μg (pg + (E.m - 1 - E.c))
        = restr (E.c + 1) (fun k => if k = 0 then ((T 1 : ℝ) : ℂ)
              else if k = 1 ∧ E.m = 2 * E.c then c1c 1
              else μ (pg + (E.m - 1 - E.c) + k)) := by
      funext k
      unfold arr restr
      by_cases hk : k < E.c + 1
      · rw [if_pos hk, if_pos hk, hμg]
        beta_reduce
        rw [STORE_apply]
        split_ifs <;> first | rfl | (exfalso; omega)
      · rw [if_neg hk, if_neg hk]
    have hf : arr (E.c + 1) μf (pf + (E.m - 1 - E.c))
        = restr (E.c + 1) (fun k => if k = 0 then ((T 0 : ℝ) : ℂ)
              else if k = 1 ∧ E.m = 2 * E.c then c1c 0
              else μ (pf + (E.m - 1 - E.c) + k)) := by
      funext k
      unfold arr restr
      by_cases hk : k < E.c + 1
      · rw [if_pos hk, if_pos hk, hμf]
        beta_reduce
        rw [STORE_apply]
        split_ifs <;> first | rfl | (exfalso; omega) | skip
        rw [fftCR_frame _ _ _ _ _ _ (by omega), hμg, STORE_apply, if_neg (by omega)]
      · rw [if_neg hk, if_neg hk]
    obtain ⟨m1, m2, m3⟩ := multbinary_double_spec d1 E.m
      (fftCR E.cro E.m (pf + (E.m - 1 - E.c)) (pg + (E.m - 1 - E.c)) μf)
      (by rw [h2, h3]; omega)
    rw [h2] at m1 m2 m3
    rw [h3] at m1
    refine ⟨?_, ?_⟩
    · intro j hj
      rw [m1 j hj, fftCR_loadD _ _ _ _ _ j hj, hmc, hf]
      congr 1
      rw [loadD_congr _ μf u1 u1 j (fftCR_frame _ _ _ _ _ _ (by omega)),
        loadD_congr μf (fftCR E.cro E.m (pg + (E.m - 1 - E.c)) u1 μg) u1 u1 j (by
          rw [hμf, STORE_apply, if_neg (by omega)]),
        fftCR_loadD _ _ _ _ _ j hj, hmc, hg]
    · intro a ha0 ha1 ha2 ha3
      rw [m3 a (by omega), fftCR_frame _ _ _ _ _ _ (by omega), hμf, STORE_apply,
        if_neg ha2, fftCR_frame _ _ _ _ _ _ (by omega), hμg, STORE_apply, if_neg (by omega)]

theorem arrD_eq (m : Nat) (μ : Mem) (q : Nat) (ψ : Nat → ℝ)
    (h : ∀ j, j < m → loadD μ q j = ψ j) :
    arrD m μ q = fun j => if j < m then ψ j else 0 := by
  funext j
  unfold arrD
  by_cases hj : j < m
  · rw [if_pos hj, if_pos hj, h j hj]
  · rw [if_neg hj, if_neg hj]

set_option maxHeartbeats 1000000 in
/-- The loop `Return to original space` for `A = 2`, `B = 1`, out of place: with the three
products `ψ1` at `g + start`, `ψ0` at `g` (once the cell `g[start]` is restored from `S`) and
`ψ2` at `U[0]`, the cells `1..c` of `f`, `U[1]`, `g` end as the transforms of `ψ0`, `ψ1`,
`ψ2`, and `f[0]` as the scaled sum of the three zero modes. -/
theorem convolve_return_spec (E : ImplicitHConvolution) (hB : E.B = 1) (hc : E.c = E.m / 2)
    (hm : 0 < E.m) (c0 c2 d0 d1 : Ptrs) (pf pg u0 u1 : Nat)
    (h0 : c0 0 = pf) (h1 : c0 1 = pg) (h2 : c2 0 = u0) (h3 : c2 1 = u1) (h4 : d0 0 = pg)
    (h5 : d1 0 = pg + (E.m - 1 - E.c)) (L : HBuf E.m E.c pf pg u0 u1)
    (S : Nat → ℂ) (μ : Mem) (ψ0 ψ1 ψ2 : Nat → ℝ)
    (hψ1 : ∀ j, j < E.m → loadD μ (pg + (E.m - 1 - E.c)) j = ψ1 j)
    (hψ0 : ∀ j, j < E.m → loadD (STORE μ (pg + (E.m - 1 - E.c)) (S 0)) pg j = ψ0 j)
    (hψ2 : ∀ j, j < E.m → loadD μ u0 j = ψ2 j) :
    (E.convolve_return c0 c2 d0 d1 S μ).1 0 = pg
      ∧ (E.convolve_return c0 c2 d0 d1 S μ).1 1 = u1
      ∧ (E.convolve_return c0 c2 d0 d1 S μ).2 pf
        = ((((E.rco (fun j => if j < E.m then ψ0 j else 0) 0).re
            + (E.rco (fun j => if j < E.m then ψ1 j else 0) 0).re
            + (E.rco (fun j => if j < E.m then ψ2 j else 0) 0).re)
            * (1.0 / (3.0 * (E.m : ℝ))) : ℝ) : ℂ)
      ∧ ∀ k, 1 ≤ k → k ≤ E.c →
        (E.convolve_return c0 c2 d0 d1 S μ).2 (pf + k)
            = E.rco (fun j => if j < E.m then ψ0 j else 0) k
          ∧ (E.convolve_return c0 c2 d0 d1 S μ).2 (u1 + k)
            = E.rco (fun j => if j < E.m then ψ1 j else 0) k
          ∧ (E.convolve_return c0 c2 d0 d1 S μ).2 (pg + k)
            = E.rco (fun j => if j < E.m then ψ2 j else 0) k := by
  have hfg := L.fg
  have hfu0 := L.fu0
  have hfu1 := L.fu1
  have hgu0 := L.gu0
  have hgu1 := L.gu1
  have huu := L.uu
  have hc2new0 : Function.update c2 0 pg 0 = pg := Function.update_same _ _ _
  have hc2new1 : Function.update c2 0 pg 1 = u1 := by
    rw [Function.update_noteq (by decide), h3]
  have hc2newB : Function.update c2 0 pg E.B = u1 := by
    rw [hB]
    exact hc2new1
  unfold ImplicitHConvolution.convolve_return
  simp only [hB, forUpTo, if_true, Nat.add_zero, Nat.zero_add]
  simp only [h0, h1, h2, h4, h5, hc2new0, hc2new1, hc2newB, Nat.add_zero]
  have e1 : arrD E.m μ (pg + (E.m - 1 - E.c)) = fun j => if j < E.m then ψ1 j else 0 :=
    arrD_eq _ _ _ _ hψ1
  obtain ⟨μb, hμb⟩ : ∃ μb, μb = STORE (fftRC E.rco E.m (pg + (E.m - 1 - E.c)) u1 μ)
    (pg + (E.m - 1 - E.c)) (S 0) := ⟨_, rfl⟩
  rw [← hμb]
  have e0 : arrD E.m μb pg = fun j => if j < E.m then ψ0 j else 0 := by
    apply arrD_eq
    intro j hj
    rw [← hψ0 j hj]
    apply loadD_congr
    rw [hμb, STORE_apply, STORE_apply]
    split_ifs
    · rfl
    · exact fftRC_frame _ _ _ _ _ _ (by omega)
  obtain ⟨μc, hμc⟩ : ∃ μc, μc = fftRC E.rco E.m pg pf μb := ⟨_, rfl⟩
  rw [← hμc]
  have e2 : arrD E.m μc u0 = fun j => if j < E.m then ψ2 j else 0 := by
    apply arrD_eq
    intro j hj
    rw [← hψ2 j hj]
    apply loadD_congr
    rw [hμc, fftRC_frame _ _ _ _ _ _ (by omega), hμb, STORE_apply, if_neg (by omega),
      fftRC_frame _ _ _ _ _ _ (by omega)]
  have hμc_f : ∀ k, k ≤ E.c → μc (pf + k) = E.rco (fun j => if j < E.m then ψ0 j else 0) k := by
    intro k hk
    rw [hμc, fftRC_apply _ _ _ _ _ k (by omega), e0]
  have hμc_u : ∀ k, k ≤ E.c → μc (u1 + k) = E.rco (fun j => if j < E.m then ψ1 j else 0) k := by
    intro k hk
    rw [hμc, fftRC_frame _ _ _ _ _ _ (by omega), hμb, STORE_apply, if_neg (by omega),
      fftRC_apply _ _ _ _ _ k (by omega), e1]
  have hd_f : ∀ k, k ≤ E.c → fftRC E.rco E.m u0 pg μc (pf + k)
      = E.rco (fun j => if j < E.m then ψ0 j else 0) k := by
    intro k hk
    rw [fftRC_frame _ _ _ _ _ _ (by omega), hμc_f k hk]
  have hd_u : ∀ k, k ≤ E.c → fftRC E.rco E.m u0 pg μc (u1 + k)
      = E.rco (fun j => if j < E.m then ψ1 j else 0) k := by
    intro k hk
    rw [fftRC_frame _ _ _ _ _ _ (by omega), hμc_u k hk]
  have hd_g : ∀ k, k ≤ E.c → fftRC E.rco E.m u0 pg μc (pg + k)
      = E.rco (fun j => if j < E.m then ψ2 j else 0) k := by
    intro k hk
    rw [fftRC_apply _ _ _ _ _ k (by omega), e2]
  refine ⟨trivial, trivial, ?_, ?_⟩
  · rw [STORE_same]
    have a0 := hd_f 0 (by omega)
    have a1 := hd_u 0 (by omega)
    have a2 := hd_g 0 (by omega)
    rw [Nat.add_zero] at a0 a1 a2
    rw [a0, a1, a2]
  · intro k hk1 hk2
    refine ⟨?_, ?_, ?_⟩
    · rw [STORE_other _ _ _ _ (by omega)]
      exact hd_f k hk2
    · rw [STORE_other _ _ _ _ (by omega)]
      exact hd_u k hk2
    · rw [STORE_other _ _ _ _ (by omega)]
      exact hd_g k hk2

/-- For an even `m = 2c`, `zeta^c` is the sixth root of unity `(0.5, hsqrt3)`. -/
theorem zeta3m_pow_half (m c : Nat) (hm : 0 < m) (h : m = 2 * c) :
    zeta3m m ^ c = (⟨0.5, hsqrt3⟩ : ℂ) := by
  rw [← zpow_natCast, zeta3m_zpow]
  have hcC : (c : ℂ) ≠ 0 := by
    have : 0 < c := by omega
    exact_mod_cast this.ne'
  have harg : 2 * (Real.pi : ℂ) * Complex.I * ((c : ℤ) : ℂ) / ((3 * m : Nat) : ℂ)
      = ((Real.pi / 3 : ℝ) : ℂ) * Complex.I := by
    rw [h]
    push_cast
    field_simp
    ring
  rw [harg]
  have hcos : Real.cos (Real.pi / 3) = 0.5 := by
    rw [Real.cos_pi_div_three]
    norm_num
  have hsin : Real.sin (Real.pi / 3) = hsqrt3 := by
    rw [Real.sin_pi_div_three]
    unfold hsqrt3 sqrt3
    norm_num
    ring
  apply Complex.ext
  · rw [Complex.exp_ofReal_mul_I_re, hcos]
  · rw [Complex.exp_ofReal_mul_I_im, hsin]

/-- The product of the transforms of the two coset sequences of `x` and `y`. -/
theorem coset_product (m : Nat) (hm : 0 < m) (x y : Nat → ℂ) (hx0 : (x 0).im = 0)
    (hy0 : (y 0).im = 0) (r : ℤ) (X Y : Nat → ℂ) (hX0 : X 0 = x 0) (hY0 : Y 0 = y 0)
    (hX : ∀ k, 1 ≤ k → 2 * k ≤ m →
      X k = zeta3m m ^ (r * k)
        * (x k + zeta3m m ^ (-(r * m)) * (starRingEnd ℂ) (x (m - k))))
    (hY : ∀ k, 1 ≤ k → 2 * k ≤ m →
      Y k = zeta3m m ^ (r * k)
        * (y k + zeta3m m ^ (-(r * m)) * (starRingEnd ℂ) (y (m - k))))
    (ψ : Nat → ℝ) (hψ : ∀ l, l < m → ψ l = crdft m X l * crdft m Y l) :
    ∀ l, l < m → (ψ l : ℂ) = hpoly (zeta3m m) m x r l * hpoly (zeta3m m) m y r l := by
  intro l hl
  rw [hψ l hl, Complex.ofReal_mul, crdft_coset m hm x hx0 r X hX0 hX l,
    crdft_coset m hm y hy0 r Y hY0 hY l]

theorem coset_zero_form (m : Nat) (x : Nat → ℂ) (k : Nat) :
    x k + (starRingEnd ℂ) (x (m - k))
      = zeta3m m ^ ((0 : ℤ) * k)
        * (x k + zeta3m m ^ (-((0 : ℤ) * m)) * (starRingEnd ℂ) (x (m - k))) := by
  simp

theorem coset_one_form (m : Nat) (hm : 0 < m) (x : Nat → ℂ) (k : Nat) :
    zeta3m m ^ k * (x k + (starRingEnd ℂ) (⟨-0.5, hsqrt3⟩ : ℂ) * (starRingEnd ℂ) (x (m - k)))
      = zeta3m m ^ ((1 : ℤ) * k)
        * (x k + zeta3m m ^ (-((1 : ℤ) * m)) * (starRingEnd ℂ) (x (m - k))) := by
  rw [one_mul, one_mul, zpow_natCast, ← root_conj_zpow (zeta3m m) (zeta3m_conj_mul m),
    zeta3m_pow_m m hm]

theorem coset_two_form (m : Nat) (hm : 0 < m) (x : Nat → ℂ) (k : Nat) :
    (starRingEnd ℂ) (zeta3m m ^ k)
        * (x k + (⟨-0.5, hsqrt3⟩ : ℂ) * (starRingEnd ℂ) (x (m - k)))
      = zeta3m m ^ ((-1 : ℤ) * k)
        * (x k + zeta3m m ^ (-((-1 : ℤ) * m)) * (starRingEnd ℂ) (x (m - k))) := by
  rw [neg_one_mul, neg_one_mul, neg_neg, zeta3m_pow_m m hm, ← zpow_natCast,
    root_conj_zpow (zeta3m m) (zeta3m_conj_mul m)]

theorem HBuf.layout {m c pf pg u0 u1 : Nat} (L : HBuf m c pf pg u0 u1) (P U : Ptrs)
    (hP0 : P 0 = pf) (hP1 : P 1 = pg) (hU0 : U 0 = u0) (hU1 : U 1 = u1) :
    HLayout m c 2 P U := by
  have hfg := L.fg
  have hfu0 := L.fu0
  have hfu1 := L.fu1
  have hgu0 := L.gu0
  have hgu1 := L.gu1
  have huu := L.uu
  refine ⟨?_, ?_, ?_⟩
  · intro i j hi hj hne
    have hi2 : i = 0 ∨ i = 1 := by omega
    have hj2 : j = 0 ∨ j = 1 := by omega
    rcases hi2 with rfl | rfl <;> rcases hj2 with rfl | rfl <;>
      first | exact absurd rfl hne | (rw [hP0, hP1]; omega)
  · intro i j hi hj hne
    have hi2 : i = 0 ∨ i = 1 := by omega
    have hj2 : j = 0 ∨ j = 1 := by omega
    rcases hi2 with rfl | rfl <;> rcases hj2 with rfl | rfl <;>
      first | exact absurd rfl hne | (rw [hU0, hU1]; omega)
  · intro i j hi hj
    have hi2 : i = 0 ∨ i = 1 := by omega
    have hj2 : j = 0 ∨ j = 1 := by omega
    rcases hi2 with rfl | rfl <;> rcases hj2 with rfl | rfl <;>
      (simp only [hP0, hP1, hU0, hU1]; omega)

theorem ofReal_re_of_im_zero (z : ℂ) (h : z.im = 0) : ((z.re : ℝ) : ℂ) = z := by
  apply Complex.ext
  · simp
  · simp [h]

/-- The `r = 0` sequence of an input at `p`, in the form that `crdft_coset` asks for. -/
theorem coset_zero_input (m : Nat) (μ : Mem) (p : Nat) (X : Nat → ℂ) (h0 : X 0 = μ p)
    (hk : ∀ k, 1 ≤ k → 2 * k ≤ m → X k = μ (p + k) + (starRingEnd ℂ) (μ (p + m - k))) :
    X 0 = (fun k => μ (p + k)) 0 ∧ ∀ k, 1 ≤ k → 2 * k ≤ m →
      X k = zeta3m m ^ ((0 : ℤ) * k) * ((fun k => μ (p + k)) k
        + zeta3m m ^ (-((0 : ℤ) * m)) * (starRingEnd ℂ) ((fun k => μ (p + k)) (m - k))) := by
  refine ⟨h0, ?_⟩
  intro k hk1 hk2
  rw [← coset_zero_form m (fun k => μ (p + k)) k, hk k hk1 hk2]
  have e : p + m - k = p + (m - k) := by omega
  rw [e]

/-- The `r = 1` sequence of an input at `p`, in the form that `crdft_coset` asks for. -/
theorem coset_one_input (m : Nat) (hm : 0 < m) (μ : Mem) (p : Nat) (X : Nat → ℂ)
    (h0 : X 0 = μ p)
    (hk : ∀ k, 1 ≤ k → 2 * k ≤ m → X k = zeta3m m ^ k * (μ (p + k)
      + (starRingEnd ℂ) (⟨-0.5, hsqrt3⟩ : ℂ) * (starRingEnd ℂ) (μ (p + m - k)))) :
    X 0 = (fun k => μ (p + k)) 0 ∧ ∀ k, 1 ≤ k → 2 * k ≤ m →
      X k = zeta3m m ^ ((1 : ℤ) * k) * ((fun k => μ (p + k)) k
        + zeta3m m ^ (-((1 : ℤ) * m)) * (starRingEnd ℂ) ((fun k => μ (p + k)) (m - k))) := by
  refine ⟨h0, ?_⟩
  intro k hk1 hk2
  rw [← coset_one_form m hm (fun k => μ (p + k)) k, hk k hk1 hk2]
  have e : p + m - k = p + (m - k) := by omega
  rw [e]

/-- The `r = -1` sequence of an input at `p`, in the form that `crdft_coset` asks for. -/
theorem coset_two_input (m : Nat) (hm : 0 < m) (μ : Mem) (p : Nat) (X : Nat → ℂ)
    (h0 : X 0 = μ p)
    (hk : ∀ k, 1 ≤ k → 2 * k ≤ m → X k = (starRingEnd ℂ) (zeta3m m ^ k) * (μ (p + k)
      + (⟨-0.5, hsqrt3⟩ : ℂ) * (starRingEnd ℂ) (μ (p + m - k)))) :
    X 0 = (fun k => μ (p + k)) 0 ∧ ∀ k, 1 ≤ k → 2 * k ≤ m →
      X k = zeta3m m ^ ((-1 : ℤ) * k) * ((fun k => μ (p + k)) k
        + zeta3m m ^ (-((-1 : ℤ) * m)) * (starRingEnd ℂ) ((fun k => μ (p + k)) (m - k))) := by
  refine ⟨h0, ?_⟩
  intro k hk1 hk2
  rw [← coset_two_form m hm (fun k => μ (p + k)) k, hk k hk1 hk2]
  have e : p + m - k = p + (m - k) := by omega
  rw [e]

set_option maxHeartbeats 1000000 in
/-- The end of the out-of-place `convolve` for `A = 2`, `B = 1`: from the three products of
coset transforms (at `g + start`, at `g` once `g[start]` is restored from `S`, and at
`U[0]`), the return loop and `postmultadd` leave the convolution in `f`. -/
theorem hermitian_return (E : ImplicitHConvolution) (hB : E.B = 1) (hc : E.c = E.m / 2)
    (hm : 0 < E.m) (hs : 0 < E.s)
    (htab : ∀ k, k ≤ E.c + 1 →
      tab E.ZetaH (k / E.s) * tab E.ZetaL (k % E.s) = zeta3m E.m ^ k)
    (hrco : E.rco = rcdft E.m) (c0 c2 d0 d1 : Ptrs) (pf pg u0 u1 : Nat)
    (h0 : c0 0 = pf) (h1 : c0 1 = pg) (h2 : c2 0 = u0) (h3 : c2 1 = u1) (h4 : d0 0 = pg)
    (h5 : d1 0 = pg + (E.m - 1 - E.c)) (L : HBuf E.m E.c pf pg u0 u1)
    (S : Nat → ℂ) (μ : Mem) (x y : Nat → ℂ) (hx0 : (x 0).im = 0) (hy0 : (y 0).im = 0)
    (ψ0 ψ1 ψ2 : Nat → ℝ)
    (hψ1 : ∀ j, j < E.m → loadD μ (pg + (E.m - 1 - E.c)) j = ψ1 j)
    (hψ0 : ∀ j, j < E.m → loadD (STORE μ (pg + (E.m - 1 - E.c)) (S 0)) pg j = ψ0 j)
    (hψ2 : ∀ j, j < E.m → loadD μ u0 j = ψ2 j)
    (hp0 : ∀ l, l < E.m →
      (ψ0 l : ℂ) = hpoly (zeta3m E.m) E.m x 0 l * hpoly (zeta3m E.m) E.m y 0 l)
    (hp1 : ∀ l, l < E.m →
      (ψ1 l : ℂ) = hpoly (zeta3m E.m) E.m x 1 l * hpoly (zeta3m E.m) E.m y 1 l)
    (hp2 : ∀ l, l < E.m →
      (ψ2 l : ℂ) = hpoly (zeta3m E.m) E.m x (-1) l * hpoly (zeta3m E.m) E.m y (-1) l) :
    ∃ out, E.postmultadd (E.convolve_return c0 c2 d0 d1 S μ).1 c0
          (fun i => (E.convolve_return c0 c2 d0 d1 S μ).1 (1 + i))
          (E.convolve_return c0 c2 d0 d1 S μ).2 = some out ∧
      ∀ k, k < E.m → out (pf + k) = hconv E.m x y k := by
  have R := convolve_return_spec E hB hc hm c0 c2 d0 d1 pf pg u0 u1 h0 h1 h2 h3 h4 h5 L S μ
    ψ0 ψ1 ψ2 hψ1 hψ0 hψ2
  have hfg := L.fg
  have hfu1 := L.fu1
  have hgu1 := L.gu1
  have hr0 : E.rco (fun j => if j < E.m then ψ0 j else 0) = rcdft E.m ψ0 := by
    rw [hrco]
    exact rcdft_congr E.m _ _ (fun l hl => by rw [if_pos hl])
  have hr1 : E.rco (fun j => if j < E.m then ψ1 j else 0) = rcdft E.m ψ1 := by
    rw [hrco]
    exact rcdft_congr E.m _ _ (fun l hl => by rw [if_pos hl])
  have hr2 : E.rco (fun j => if j < E.m then ψ2 j else 0) = rcdft E.m ψ2 := by
    rw [hrco]
    exact rcdft_congr E.m _ _ (fun l hl => by rw [if_pos hl])
  rw [hr0, hr1, hr2] at R
  have hc2B : (fun i => (E.convolve_return c0 c2 d0 d1 S μ).1 (1 + i)) 0 = u1 := R.2.1
  obtain ⟨out, hout, o0, olow, ohigh⟩ := postmultadd_spec E hB hc hm hs (zeta3m E.m) htab
    (E.convolve_return c0 c2 d0 d1 S μ).1 c0
    (fun i => (E.convolve_return c0 c2 d0 d1 S μ).1 (1 + i))
    (by rw [h0, R.1]; omega) (by rw [h0, hc2B]; omega) (by rw [R.1, hc2B]; omega)
    (E.convolve_return c0 c2 d0 d1 S μ).2
  have hc2B2 : (E.convolve_return c0 c2 d0 d1 S μ).1 (1 + 0) = u1 := R.2.1
  simp only [h0, R.1, hc2B2] at olow ohigh
  rw [h0] at o0
  refine ⟨out, hout, ?_⟩
  intro k hk
  by_cases hk0 : k = 0
  · subst hk0
    rw [Nat.add_zero, o0, R.2.2.1]
    exact hermitian_out_zero E.m hm x y ψ0 ψ1 ψ2 hp0 hp1 hp2
  · by_cases hlow : 2 * k < E.m
    · rw [olow k (by omega) (by omega) hlow, (R.2.2.2 k (by omega) (by omega)).1,
        (R.2.2.2 k (by omega) (by omega)).2.1, (R.2.2.2 k (by omega) (by omega)).2.2,
        ← add_assoc]
      exact hermitian_out_low E.m hm x y ψ0 ψ1 ψ2 hp0 hp1 hp2 k hk
    · have e : pf + k = pf + E.m - (E.m - k) := by omega
      rw [e, ohigh (E.m - k) (by omega) (by omega),
        (R.2.2.2 (E.m - k) (by omega) (by omega)).1,
        (R.2.2.2 (E.m - k) (by omega) (by omega)).2.1,
        (R.2.2.2 (E.m - k) (by omega) (by omega)).2.2,
        hermitian_out_high E.m hm x y hx0 hy0 ψ0 ψ1 ψ2 hp0 hp1 hp2 (E.m - k) (by omega)
          (by omega)]
      congr 1
      omega

/-- The product for `r = -1`, left in the doubles of `U[0]` by the block `r=2`. -/
theorem products_two (E : ImplicitHConvolution) (hA : E.A = 2) (hc : E.c = E.m / 2)
    (hm : 0 < E.m) (hcr : E.cr = crdft E.m) (c2 : Ptrs) (pf pg u0 u1 : Nat)
    (h0 : c2 0 = u0) (h1 : c2 1 = u1) (L : HBuf E.m E.c pf pg u0 u1) (μ ν : Mem)
    (hf0 : (μ pf).im = 0) (hg0 : (μ pg).im = 0) (f1f f1g : ℂ)
    (Hf : HPre E pf u0 μ ν f1f) (Hg : HPre E pg u1 μ ν f1g) :
    ∀ l, l < E.m → ((loadD (E.convolve_r2 multbinary_double c2 ν) u0 l : ℝ) : ℂ)
      = hpoly (zeta3m E.m) E.m (fun k => μ (pf + k)) (-1) l
        * hpoly (zeta3m E.m) E.m (fun k => μ (pg + k)) (-1) l := by
  have r2 := convolve_r2_spec E hA hc c2 u0 u1 h0 h1 L.uu ν
  have X := coset_two_input E.m hm μ pf (arr (E.c + 1) ν u0)
    (by rw [arr_apply _ _ _ _ (by omega), Nat.add_zero, Hf.u0])
    (fun k hk1 hk2 => by rw [arr_apply _ _ _ _ (by omega), Hf.r2 k hk1 (by omega)])
  have Y := coset_two_input E.m hm μ pg (arr (E.c + 1) ν u1)
    (by rw [arr_apply _ _ _ _ (by omega), Nat.add_zero, Hg.u0])
    (fun k hk1 hk2 => by rw [arr_apply _ _ _ _ (by omega), Hg.r2 k hk1 (by omega)])
  exact coset_product E.m hm (fun k => μ (pf + k)) (fun k => μ (pg + k)) hf0 hg0 (-1) _ _
    X.1 Y.1 X.2 Y.2 (fun j => loadD (E.convolve_r2 multbinary_double c2 ν) u0 j)
    (fun l hl => (r2.1 l hl).trans (by rw [hcr]))

/-- The product for `r = 0`, left in the doubles of `g` by the block `r=0`. -/
theorem products_zero (E : ImplicitHConvolution) (hA : E.A = 2) (hc : E.c = E.m / 2)
    (hm : 0 < E.m) (hcro : E.cro = crdft E.m) (c0 d0 : Ptrs) (pf pg u0 u1 : Nat)
    (h0 : c0 0 = pf) (h1 : c0 1 = pg) (h2 : d0 0 = pg) (h3 : d0 1 = u1)
    (L : HBuf E.m E.c pf pg u0 u1) (μ ν μ2 : Mem)
    (hf0 : (μ pf).im = 0) (hg0 : (μ pg).im = 0) (f1f f1g : ℂ)
    (Hf : HPre E pf u0 μ ν f1f) (Hg : HPre E pg u1 μ ν f1g)
    (hfr : ∀ a, (a < u0 ∨ u0 + (E.c + 1) ≤ a) → (a < u1 ∨ u1 + (E.c + 1) ≤ a) → μ2 a = ν a) :
    ∀ l, l < E.m → ((loadD (E.convolve_r0 multbinary_double true c0 d0 μ2).2 pg l : ℝ) : ℂ)
      = hpoly (zeta3m E.m) E.m (fun k => μ (pf + k)) 0 l
        * hpoly (zeta3m E.m) E.m (fun k => μ (pg + k)) 0 l := by
  have r0 := convolve_r0_spec E hA hc c0 d0 pf pg u0 u1 h0 h1 h2 h3 L μ2
  have hfu0 := L.fu0
  have hfu1 := L.fu1
  have hgu0 := L.gu0
  have hgu1 := L.gu1
  have X := coset_zero_input E.m μ pf (arr (E.c + 1) μ2 pf)
    (by rw [arr_apply _ _ _ _ (by omega), Nat.add_zero, hfr _ (by omega) (by omega), Hf.f0])
    (fun k hk1 hk2 => by
      rw [arr_apply _ _ _ _ (by omega), hfr _ (by omega) (by omega), Hf.r0 k hk1 (by omega)])
  have Y := coset_zero_input E.m μ pg (arr (E.c + 1) μ2 pg)
    (by rw [arr_apply _ _ _ _ (by omega), Nat.add_zero, hfr _ (by omega) (by omega), Hg.f0])
    (fun k hk1 hk2 => by
      rw [arr_apply _ _ _ _ (by omega), hfr _ (by omega) (by omega), Hg.r0 k hk1 (by omega)])
  exact coset_product E.m hm (fun k => μ (pf + k)) (fun k => μ (pg + k)) hf0 hg0 0 _ _
    X.1 Y.1 X.2 Y.2 (fun j => loadD (E.convolve_r0 multbinary_double true c0 d0 μ2).2 pg j)
    (fun l hl => (r0.2.2.1 l hl).trans (by rw [hcro]))

set_option maxHeartbeats 1000000 in
/-- The product for `r = 1`, left in the doubles from `g + start` on by the block `r=1`. -/
theorem products_one (E : ImplicitHConvolution) (hA : E.A = 2) (hc : E.c = E.m / 2)
    (hm : 0 < E.m) (hcro : E.cro = crdft E.m) (c1 d1 : Ptrs) (pf pg u0 u1 : Nat)
    (h0 : c1 0 = pf + (E.m - 1 - E.c)) (h1 : c1 1 = pg + (E.m - 1 - E.c))
    (h2 : d1 0 = pg + (E.m - 1 - E.c)) (h3 : d1 1 = u1)
    (L : HBuf E.m E.c pf pg u0 u1) (μ ν μ0 : Mem)
    (hf0 : (μ pf).im = 0) (hg0 : (μ pg).im = 0) (T : Nat → ℝ) (f1c : Nat → ℂ)
    (Hf : HPre E pf u0 μ ν (f1c 0)) (Hg : HPre E pg u1 μ ν (f1c 1))
    (hT0 : ((T 0 : ℝ) : ℂ) = μ pf) (hT1 : ((T 1 : ℝ) : ℂ) = μ pg)
    (hfr : ∀ a, (a < pg ∨ pg + (E.m + 1) / 2 ≤ a) → (a < u0 ∨ u0 + (E.c + 1) ≤ a) →
      (a < u1 ∨ u1 + (E.c + 1) ≤ a) → μ0 a = ν a) :
    ∀ l, l < E.m →
      ((loadD (E.convolve_r1 multbinary_double true c1 d1 T f1c μ0).2
          (pg + (E.m - 1 - E.c)) l : ℝ) : ℂ)
        = hpoly (zeta3m E.m) E.m (fun k => μ (pf + k)) 1 l
          * hpoly (zeta3m E.m) E.m (fun k => μ (pg + k)) 1 l := by
  have r1 := convolve_r1_spec E hA hc hm c1 d1 pf pg u0 u1 h0 h1 h2 h3 L T f1c μ0
  have hfg := L.fg
  have hfu0 := L.fu0
  have hfu1 := L.fu1
  have hgu0 := L.gu0
  have hgu1 := L.gu1
  have X := coset_one_input E.m hm μ pf (restr (E.c + 1) (fun k => if k = 0 then ((T 0 : ℝ) : ℂ)
      else if k = 1 ∧ E.m = 2 * E.c then f1c 0 else μ0 (pf + (E.m - 1 - E.c) + k)))
    (by
      rw [restr_apply _ _ _ (by omega)]
      rw [if_pos rfl, hT0])
    (fun k hk1 hk2 => by
      rw [restr_apply _ _ _ (by omega)]
      rw [if_neg (by omega)]
      by_cases h : k = 1 ∧ E.m = 2 * E.c
      · rw [if_pos h, Hf.r1c h.2, h.1]
      · rw [if_neg h, hfr _ (by omega) (by omega) (by omega),
          Hf.r1 k hk1 (by omega) (by omega)])
  have Y := coset_one_input E.m hm μ pg (restr (E.c + 1) (fun k => if k = 0 then ((T 1 : ℝ) : ℂ)
      else if k = 1 ∧ E.m = 2 * E.c then f1c 1 else μ0 (pg + (E.m - 1 - E.c) + k)))
    (by
      rw [restr_apply _ _ _ (by omega)]
      rw [if_pos rfl, hT1])
    (fun k hk1 hk2 => by
      rw [restr_apply _ _ _ (by omega)]
      rw [if_neg (by omega)]
      by_cases h : k = 1 ∧ E.m = 2 * E.c
      · rw [if_pos h, Hg.r1c h.2, h.1]
      · rw [if_neg h, hfr _ (by omega) (by omega) (by omega),
          Hg.r1 k hk1 (by omega) (by omega)])
  exact coset_product E.m hm (fun k => μ (pf + k)) (fun k => μ (pg + k)) hf0 hg0 1 _ _
    X.1 Y.1 X.2 Y.2
    (fun j => loadD (E.convolve_r1 multbinary_double true c1 d1 T f1c μ0).2
      (pg + (E.m - 1 - E.c)) j)
    (fun l hl => (r1.1 l hl).trans (by rw [hcro]))

set_option maxHeartbeats 1000000 in
/-- The blocks `r=2`, `r=0`, `r=1`, the return loop and `postmultadd` of the out-of-place
`convolve` for `A = 2`, `B = 1`, from the state that `premult` leaves. -/
theorem hermitian_stages (E : ImplicitHConvolution) (hA : E.A = 2) (hB : E.B = 1)
    (hc : E.c = E.m / 2) (hm : 0 < E.m) (hs : 0 < E.s)
    (htab : ∀ k, k ≤ E.c + 1 →
      tab E.ZetaH (k / E.s) * tab E.ZetaL (k % E.s) = zeta3m E.m ^ k)
    (hcr : E.cr = crdft E.m) (hcro : E.cro = crdft E.m) (hrco : E.rco = rcdft E.m)
    (c0 c1 c2 d0 d1 : Ptrs) (pf pg u0 u1 : Nat)
    (p0 : c0 0 = pf) (p1 : c0 1 = pg) (p2 : c1 0 = pf + (E.m - 1 - E.c))
    (p3 : c1 1 = pg + (E.m - 1 - E.c)) (p4 : c2 0 = u0) (p5 : c2 1 = u1)
    (q0 : d0 0 = pg) (q1 : d0 1 = u1) (q2 : d1 0 = pg + (E.m - 1 - E.c)) (q3 : d1 1 = u1)
    (L : HBuf E.m E.c pf pg u0 u1) (μ ν : Mem)
    (hf0 : (μ pf).im = 0) (hg0 : (μ pg).im = 0) (f1c : Nat → ℂ)
    (Hf : HPre E pf u0 μ ν (f1c 0)) (Hg : HPre E pg u1 μ ν (f1c 1)) :
    ∃ out,
      E.postmultadd
        (E.convolve_return c0 c2 d0 d1
          (Function.update (fun _ => 0) 0
            ((E.convolve_r0 multbinary_double true c0 d0
              (E.convolve_r2 multbinary_double c2 ν)).2 (d0 0 + (E.m - 1 - E.c))))
          (E.convolve_r1 multbinary_double true c1 d1
            (E.convolve_r0 multbinary_double true c0 d0
              (E.convolve_r2 multbinary_double c2 ν)).1 f1c
            (E.convolve_r0 multbinary_double true c0 d0
              (E.convolve_r2 multbinary_double c2 ν)).2).2).1
        c0
        (fun i => (E.convolve_return c0 c2 d0 d1
          (Function.update (fun _ => 0) 0
            ((E.convolve_r0 multbinary_double true c0 d0
              (E.convolve_r2 multbinary_double c2 ν)).2 (d0 0 + (E.m - 1 - E.c))))
          (E.convolve_r1 multbinary_double true c1 d1
            (E.convolve_r0 multbinary_double true c0 d0
              (E.convolve_r2 multbinary_double c2 ν)).1 f1c
            (E.convolve_r0 multbinary_double true c0 d0
              (E.convolve_r2 multbinary_double c2 ν)).2).2).1 (1 + i))
        (E.convolve_return c0 c2 d0 d1
          (Function.update (fun _ => 0) 0
            ((E.convolve_r0 multbinary_double true c0 d0
              (E.convolve_r2 multbinary_double c2 ν)).2 (d0 0 + (E.m - 1 - E.c))))
          (E.convolve_r1 multbinary_double true c1 d1
            (E.convolve_r0 multbinary_double true c0 d0
              (E.convolve_r2 multbinary_double c2 ν)).1 f1c
            (E.convolve_r0 multbinary_double true c0 d0
              (E.convolve_r2 multbinary_double c2 ν)).2).2).2 = some out ∧
      ∀ k, k < E.m → out (pf + k)
        = hconv E.m (fun k => μ (pf + k)) (fun k => μ (pg + k)) k := by
  have r2 := convolve_r2_spec E hA hc c2 u0 u1 p4 p5 L.uu ν
  obtain ⟨μ2, hμ2⟩ : ∃ μ2, μ2 = E.convolve_r2 multbinary_double c2 ν := ⟨_, rfl⟩
  rw [← hμ2] at r2 ⊢
  have r0 := convolve_r0_spec E hA hc c0 d0 pf pg u0 u1 p0 p1 q0 q1 L μ2
  obtain ⟨Tm, hTm⟩ : ∃ Tm, Tm = E.convolve_r0 multbinary_double true c0 d0 μ2 := ⟨_, rfl⟩
  rw [← hTm] at r0 ⊢
  have r1 := convolve_r1_spec E hA hc hm c1 d1 pf pg u0 u1 p2 p3 q2 q3 L Tm.1 f1c Tm.2
  have hfg := L.fg
  have hfu0 := L.fu0
  have hfu1 := L.fu1
  have hgu0 := L.gu0
  have hgu1 := L.gu1
  have huu := L.uu
  have hT0 : ((Tm.1 0 : ℝ) : ℂ) = μ pf := by
    rw [r0.1, r2.2 _ (by omega) (by omega), Hf.f0, ofReal_re_of_im_zero _ hf0]
  have hT1 : ((Tm.1 1 : ℝ) : ℂ) = μ pg := by
    rw [r0.2.1, r2.2 _ (by omega) (by omega), Hg.f0, ofReal_re_of_im_zero _ hg0]
  have hfr : ∀ a, (a < pg ∨ pg + (E.m + 1) / 2 ≤ a) → (a < u0 ∨ u0 + (E.c + 1) ≤ a) →
      (a < u1 ∨ u1 + (E.c + 1) ≤ a) → Tm.2 a = ν a := by
    intro a h1 h2 h3
    rw [r0.2.2.2 a h1 h3, r2.2 a h2 h3]
  have P2 := products_two E hA hc hm hcr c2 pf pg u0 u1 p4 p5 L μ ν hf0 hg0 (f1c 0) (f1c 1)
    Hf Hg
  rw [← hμ2] at P2
  have P0 := products_zero E hA hc hm hcro c0 d0 pf pg u0 u1 p0 p1 q0 q1 L μ ν μ2 hf0 hg0
    (f1c 0) (f1c 1) Hf Hg r2.2
  rw [← hTm] at P0
  have P1 := products_one E hA hc hm hcro c1 d1 pf pg u0 u1 p2 p3 q2 q3 L μ ν Tm.2 hf0 hg0
    Tm.1 f1c Hf Hg hT0 hT1 hfr
  obtain ⟨cm, hcm⟩ : ∃ cm, cm = E.convolve_r1 multbinary_double true c1 d1 Tm.1 f1c Tm.2 :=
    ⟨_, rfl⟩
  rw [← hcm] at r1 P1 ⊢
  refine hermitian_return E hB hc hm hs htab hrco c0 c2 d0 d1 pf pg u0 u1 p0 p1 p4 p5 q0 q2 L
    _ cm.2 (fun k => μ (pf + k)) (fun k => μ (pg + k)) hf0 hg0
    (fun j => loadD Tm.2 pg j) (fun j => loadD cm.2 (pg + (E.m - 1 - E.c)) j)
    (fun j => loadD μ2 u0 j) (fun _ _ => rfl) ?_ ?_ P0 P1 P2
  · intro j hj
    apply loadD_congr
    rw [STORE_apply]
    by_cases h : pg + j / 2 = pg + (E.m - 1 - E.c)
    · rw [if_pos h, Function.update_same, q0, h]
    · rw [if_neg h]
      exact r1.2 _ (by omega) (by omega) (by omega) (fun _ => by omega)
  · intro j hj
    apply loadD_congr
    rw [r1.2 _ (by omega) (by omega) (by omega) (fun _ => by omega),
      r0.2.2.2 _ (by omega) (by omega)]

set_option maxHeartbeats 1000000 in
/-- The first loop of `convolve` followed by `premult`, for `A = 2`: `premult` returns, and
the state of each of the two inputs is the one that the later blocks rely on. -/
theorem premult_state (E : ImplicitHConvolution) (hA : E.A = 2) (hc : E.c = E.m / 2)
    (hm : 0 < E.m) (hs : 0 < E.s)
    (htab : ∀ k, k ≤ E.c + 1 →
      tab E.ZetaH (k / E.s) * tab E.ZetaL (k % E.s) = zeta3m E.m ^ k)
    (F : Ptrs) (offset : Nat) (c1c0 : Nat → ℂ) (μ : Mem)
    (L : HBuf E.m E.c (F 0 + offset) (F 1 + offset) (E.U 0) (E.U 1))
    (hf0 : (μ (F 0 + offset)).im = 0) (hg0 : (μ (F 1 + offset)).im = 0) :
    ∃ ν f1c, E.premult F offset c1c0
        (STORE (STORE μ (E.U 0) (((μ (F 0 + offset)).re : ℝ) : ℂ)) (E.U 1)
          (((μ (F 1 + offset)).re : ℝ) : ℂ)) = some (ν, f1c)
      ∧ HPre E (F 0 + offset) (E.U 0) μ ν (f1c 0)
      ∧ HPre E (F 1 + offset) (E.U 1) μ ν (f1c 1) := by
  have L2 : HLayout E.m E.c E.A (fun i => F i + offset) E.U := by
    rw [hA]
    exact L.layout _ _ rfl rfl rfl rfl
  obtain ⟨ν, f1c, hrun, hv⟩ := premult_spec E hc hm hs (zeta3m E.m) (zeta3m_conj_mul E.m)
    htab (fun h => zeta3m_pow_half E.m E.c hm h) F offset c1c0 L2
    (STORE (STORE μ (E.U 0) (((μ (F 0 + offset)).re : ℝ) : ℂ)) (E.U 1)
      (((μ (F 1 + offset)).re : ℝ) : ℂ))
  refine ⟨ν, f1c, hrun, ?_, ?_⟩
  · have v := hv 0 (by omega)
    have hfu0 := L.fu0
    have hfu1 := L.fu1
    have hμ1 : ∀ k, k < E.m →
        STORE (STORE μ (E.U 0) (((μ (F 0 + offset)).re : ℝ) : ℂ)) (E.U 1)
          (((μ (F 1 + offset)).re : ℝ) : ℂ) (F 0 + offset + k) = μ (F 0 + offset + k) := by
      intro k hk
      rw [STORE_other _ _ _ _ (by omega), STORE_other _ _ _ _ (by omega)]
    have hμ1b : ∀ k, 1 ≤ k → k ≤ E.m →
        STORE (STORE μ (E.U 0) (((μ (F 0 + offset)).re : ℝ) : ℂ)) (E.U 1)
          (((μ (F 1 + offset)).re : ℝ) : ℂ) (F 0 + offset + E.m - k)
          = μ (F 0 + offset + E.m - k) := by
      intro k hk1 hk
      rw [STORE_other _ _ _ _ (by omega), STORE_other _ _ _ _ (by omega)]
    have h0 := hμ1 0 hm
    rw [Nat.add_zero] at h0
    refine ⟨v.1.trans h0, ?_, ?_, ?_, ?_, ?_⟩
    · rw [v.2.1, STORE_other _ _ _ _ (by have := L.uu; omega), STORE_same,
        ofReal_re_of_im_zero _ hf0]
    · intro j hj1 hj2
      rw [v.2.2.1 j hj1 hj2, hμ1 j (by omega), hμ1b j hj1 (by omega)]
    · intro j hj1 hj2 hj3
      rw [v.2.2.2.1 j hj1 hj2 hj3, hμ1 j (by omega), hμ1b j hj1 (by omega)]
    · intro h
      rw [v.2.2.2.2.1 h, hμ1 1 (by omega), hμ1b 1 (le_refl _) (by omega)]
    · intro j hj1 hj2
      rw [v.2.2.2.2.2 j hj1 hj2, hμ1 j (by omega), hμ1b j hj1 (by omega)]
  · have v := hv 1 (by omega)
    have hgu0 := L.gu0
    have hgu1 := L.gu1
    have hμ1 : ∀ k, k < E.m →
        STORE (STORE μ (E.U 0) (((μ (F 0 + offset)).re : ℝ) : ℂ)) (E.U 1)
          (((μ (F 1 + offset)).re : ℝ) : ℂ) (F 1 + offset + k) = μ (F 1 + offset + k) := by
      intro k hk
      rw [STORE_other _ _ _ _ (by omega), STORE_other _ _ _ _ (by omega)]
    have hμ1b : ∀ k, 1 ≤ k → k ≤ E.m →
        STORE (STORE μ (E.U 0) (((μ (F 0 + offset)).re : ℝ) : ℂ)) (E.U 1)
          (((μ (F 1 + offset)).re : ℝ) : ℂ) (F 1 + offset + E.m - k)
          = μ (F 1 + offset + E.m - k) := by
      intro k hk1 hk
      rw [STORE_other _ _ _ _ (by omega), STORE_other _ _ _ _ (by omega)]
    have h0 := hμ1 0 hm
    rw [Nat.add_zero] at h0
    refine ⟨v.1.trans h0, ?_, ?_, ?_, ?_, ?_⟩
    · rw [v.2.1, STORE_same, ofReal_re_of_im_zero _ hg0]
    · intro j hj1 hj2
      rw [v.2.2.1 j hj1 hj2, hμ1 j (by omega), hμ1b j hj1 (by omega)]
    · intro j hj1 hj2 hj3
      rw [v.2.2.2.1 j hj1 hj2 hj3, hμ1 j (by omega), hμ1b j hj1 (by omega)]
    · intro h
      rw [v.2.2.2.2.1 h, hμ1 1 (by omega), hμ1b 1 (le_refl _) (by omega)]
    · intro j hj1 hj2
      rw [v.2.2.2.2.2 j hj1 hj2, hμ1 j (by omega), hμ1b j hj1 (by omega)]

set_option maxHeartbeats 1000000 in
/-- The binary Hermitian convolution (`A = 2`, `B = 1`, out of place, real `multbinary`) with
exact phase factors and exact real transforms returns, and `F[0][k]` is the coefficient `k`
of the convolution of the two Hermitian sequences. -/
theorem hconvolve_binary (E : ImplicitHConvolution) (hA : E.A = 2) (hB : E.B = 1)
    (hc : E.c = E.m / 2) (hm : 0 < E.m) (hs : 0 < E.s)
    (htab : ∀ k, k ≤ E.c + 1 →
      tab E.ZetaH (k / E.s) * tab E.ZetaL (k % E.s) = zeta3m E.m ^ k)
    (hcr : E.cr = crdft E.m) (hcro : E.cro = crdft E.m) (hrco : E.rco = rcdft E.m)
    (F : Ptrs) (offset : Nat) (c1c0 : Nat → ℂ) (μ : Mem)
    (L : HBuf E.m E.c (F 0 + offset) (F 1 + offset) (E.U 0) (E.U 1))
    (hf0 : (μ (F 0 + offset)).im = 0) (hg0 : (μ (F 1 + offset)).im = 0) :
    ∃ out, E.convolve F multbinary_double offset c1c0 μ = some out ∧
      ∀ k, k < E.m → out (F 0 + offset + k)
        = hconv E.m (fun k => μ (F 0 + offset + k)) (fun k => μ (F 1 + offset + k)) k := by
  have P := convolve_pointers_two E hA F offset μ (by have := L.gu0; omega)
  have Q0 := convolve_outputs_two E hA (E.convolve_pointers F offset μ).c0
    (E.convolve_pointers F offset μ).c2
  have Q1 := convolve_outputs_two E hA (E.convolve_pointers F offset μ).c1
    (E.convolve_pointers F offset μ).c2
  obtain ⟨ν, f1c, hrun, Hf, Hg⟩ := premult_state E hA hc hm hs htab F offset c1c0 μ L hf0 hg0
  have key := hermitian_stages E hA hB hc hm hs htab hcr hcro hrco
    (E.convolve_pointers F offset μ).c0 (E.convolve_pointers F offset μ).c1
    (E.convolve_pointers F offset μ).c2
    (E.convolve_outputs true (E.convolve_pointers F offset μ).c0
      (E.convolve_pointers F offset μ).c2)
    (E.convolve_outputs true (E.convolve_pointers F offset μ).c1
      (E.convolve_pointers F offset μ).c2)
    (F 0 + offset) (F 1 + offset) (E.U 0) (E.U 1)
    P.1 P.2.1 P.2.2.1 P.2.2.2.1 P.2.2.2.2.1 P.2.2.2.2.2.1
    (Q0.1.trans P.2.1) (Q0.2.trans P.2.2.2.2.2.1) (Q1.1.trans P.2.2.2.1)
    (Q1.2.trans P.2.2.2.2.2.1) L μ ν hf0 hg0 f1c Hf Hg
  unfold ImplicitHConvolution.convolve
  simp only [hA, hB, show (2 : Nat) ≥ 2 * 1 from by decide, decide_True, if_true, forUpTo,
    P.2.2.2.2.2.2, hrun, Option.some_bind]
  exact key

theorem init_hermitian_lookup (m A B : Nat) (U : Ptrs) (cr : TransformCR) (rc : TransformRC)
    (k : Nat) (hk : k ≤ (ImplicitHConvolution.init m A B U cr rc).c + 1) :
    tab (ImplicitHConvolution.init m A B U cr rc).ZetaH
          (k / (ImplicitHConvolution.init m A B U cr rc).s)
        * tab (ImplicitHConvolution.init m A B U cr rc).ZetaL
          (k % (ImplicitHConvolution.init m A B U cr rc).s)
      = zeta3m m ^ k := by
  have hk2 : k < m / 2 + 2 := by
    have : (ImplicitHConvolution.init m A B U cr rc).c = m / 2 := rfl
    omega
  have h := BuildZeta_lookup (3 * m) (m / 2 + 2) k hk2
  rw [← zpow_natCast, zeta3m_zpow, Int.cast_natCast]
  exact h

/-- C5: for `m ≥ 1` and Hermitian-packed inputs `f = F[0]`, `g = F[1]` of `m` cells with real
`f[0]`, `g[0]` (standing for sequences with `f[-k] = conj(f[k])`), work arrays `U[0]`, `U[1]`
of `c+1` cells, all apart, `ImplicitHConvolution::convolve` with `A = 2`, `B = 1`, the real
`multbinary`, `c = floor(m/2)`, the zeta table for `n = 3m` and the exact unnormalised
complex-to-real and real-to-complex transforms of real length `m` returns and leaves
`F[0][k] = sum over p + q = k, |p| < m, |q| < m of f[p]*g[q]` for every `k < m`. -/
theorem hconvolve_multbinary_hermitian (m : Nat) (hm : 1 ≤ m) (F U : Ptrs) (c1c0 : Nat → ℂ)
    (mem : Mem) (L : HBuf m (m / 2) (F 0) (F 1) (U 0) (U 1))
    (hf0 : (mem (F 0)).im = 0) (hg0 : (mem (F 1)).im = 0) :
    ∃ out, (ImplicitHConvolution.init m 2 1 U (crdft m) (rcdft m)).convolve
          F multbinary_double 0 c1c0 mem = some out ∧
      ∀ k, k < m → out (F 0 + k)
        = hconv m (fun k => mem (F 0 + k)) (fun k => mem (F 1 + k)) k :=
  hconvolve_binary (ImplicitHConvolution.init m 2 1 U (crdft m) (rcdft m)) rfl rfl rfl hm
    (show 0 < Nat.sqrt (m / 2 + 2) from Nat.sqrt_pos.mpr (by omega))
    (fun k hk => init_hermitian_lookup m 2 1 U (crdft m) (rcdft m) k hk) rfl rfl rfl
    F 0 c1c0 mem L hf0 hg0

/-- Witness of C5: `m = 3`, `f` at 0, `g` at 3, work arrays at 6 and 8, all cells `1`. -/
theorem hconvolve_multbinary_hermitian_witness :
    ∃ out, (ImplicitHConvolution.init 3 2 1 (ptrs [6, 8]) (crdft 3) (rcdft 3)).convolve
          (ptrs [0, 3]) multbinary_double 0 (fun _ => 0) (fun _ => 1) = some out ∧
      ∀ k, k < 3 → out (ptrs [0, 3] 0 + k)
        = hconv 3 (fun k => (fun _ => (1 : ℂ)) (ptrs [0, 3] 0 + k))
            (fun k => (fun _ => (1 : ℂ)) (ptrs [0, 3] 1 + k)) k :=
  hconvolve_multbinary_hermitian 3 (by decide) (ptrs [0, 3]) (ptrs [6, 8]) (fun _ => 0)
    (fun _ => 1)
    ⟨Or.inl (by decide), Or.inl (by decide), Or.inl (by decide), Or.inl (by decide),
      Or.inl (by decide), Or.inl (by decide)⟩
    Complex.one_im Complex.one_im

/-! ## The correlation kernels -/

theorem mult_correlation_apply (F : Ptrs) (m : Nat) (mem : Mem)
    (h : NoOverlap (F 0) (F 1) m) (a : Nat) :
    mult_correlation F m mem a
      = if F 0 ≤ a ∧ a < F 0 + m then
          mem (F 0 + (a - F 0)) * (starRingEnd ℂ) (mem (F 1 + (a - F 0)))
        else mem a :=
  forUpTo_kernel_eq F 2 m (fun x => x 0 * (starRingEnd ℂ) (x 1))
    (by
      intro x y hxy
      show x 0 * (starRingEnd ℂ) (x 1) = y 0 * (starRingEnd ℂ) (y 1)
      rw [hxy 0 (by omega), hxy 1 (by omega)])
    (by
      intro i h1 h2
      have : i = 1 := by omega
      subst this
      exact h) mem a

theorem mult_autocorrelation_apply (F : Ptrs) (m : Nat) (mem : Mem) (a : Nat) :
    mult_autocorrelation F m mem a
      = if F 0 ≤ a ∧ a < F 0 + m then
          mem (F 0 + (a - F 0)) * (starRingEnd ℂ) (mem (F 0 + (a - F 0)))
        else mem a :=
  forUpTo_kernel_eq F 1 m (fun x => x 0 * (starRingEnd ℂ) (x 0))
    (by
      intro x y hxy
      show x 0 * (starRingEnd ℂ) (x 0) = y 0 * (starRingEnd ℂ) (y 0)
      rw [hxy 0 (by omega)])
    (by
      intro i h1 h2
      omega) mem a

/-- C11: for buffers `F[0]`, `F[1]` that do not overlap on their first `m` cells,
`mult_correlation` sets `F[0][j] = F0[j]*conj(F1[j])` (values before the call) for every
`j < m` and leaves `F[1]` unchanged (indeed every cell outside `F[0][0..m)`). -/
theorem mult_correlation_pointwise (F : Ptrs) (m : Nat) (mem : Mem)
    (h : NoOverlap (F 0) (F 1) m) :
    (∀ j, j < m → mult_correlation F m mem (F 0 + j)
        = mem (F 0 + j) * (starRingEnd ℂ) (mem (F 1 + j))) ∧
    (∀ j, j < m → mult_correlation F m mem (F 1 + j) = mem (F 1 + j)) ∧
    (∀ a, ¬ (F 0 ≤ a ∧ a < F 0 + m) → mult_correlation F m mem a = mem a) := by
  have key := mult_correlation_apply F m mem h
  unfold NoOverlap at h
  refine ⟨?_, ?_, ?_⟩
  · intro j hj
    rw [key, if_pos (by omega)]
    have : F 0 + j - F 0 = j := by omega
    rw [this]
  · intro j hj
    rw [key, if_neg (by omega)]
  · intro a ha
    rw [key, if_neg ha]

/-- Witness of C11: two adjacent buffers of four cells. -/
theorem mult_correlation_pointwise_witness :
    NoOverlap (ptrs [0, 4] 0) (ptrs [0, 4] 1) 4 ∧
    mult_correlation (ptrs [0, 4]) 4 (fun a => (a : ℂ)) (ptrs [0, 4] 0 + 1)
      = ((ptrs [0, 4] 0 + 1 : Nat) : ℂ) * (starRingEnd ℂ) ((ptrs [0, 4] 1 + 1 : Nat) : ℂ) :=
  ⟨by decide,
    (mult_correlation_pointwise (ptrs [0, 4]) 4 (fun a => (a : ℂ)) (by decide)).1 1
      (by decide)⟩

/-- C12: `mult_autocorrelation` sets `F[0][j] = F0[j]*conj(F0[j])` (value before the call)
for every `j < m`; this is the real number `re(F0[j])^2 + im(F0[j])^2`, so its real part is
non-negative and its imaginary part is exactly zero. -/
theorem mult_autocorrelation_pointwise (F : Ptrs) (m : Nat) (mem : Mem) :
    ∀ j, j < m →
      mult_autocorrelation F m mem (F 0 + j)
          = mem (F 0 + j) * (starRingEnd ℂ) (mem (F 0 + j)) ∧
      mult_autocorrelation F m mem (F 0 + j)
          = (((mem (F 0 + j)).re ^ 2 + (mem (F 0 + j)).im ^ 2 : ℝ) : ℂ) ∧
      0 ≤ (mult_autocorrelation F m mem (F 0 + j)).re ∧
      (mult_autocorrelation F m mem (F 0 + j)).im = 0 := by
  intro j hj
  have key : mult_autocorrelation F m mem (F 0 + j)
      = mem (F 0 + j) * (starRingEnd ℂ) (mem (F 0 + j)) := by
    rw [mult_autocorrelation_apply, if_pos (by omega)]
    have : F 0 + j - F 0 = j := by omega
    rw [this]
  have hreal : mem (F 0 + j) * (starRingEnd ℂ) (mem (F 0 + j))
      = (((mem (F 0 + j)).re ^ 2 + (mem (F 0 + j)).im ^ 2 : ℝ) : ℂ) := by
    rw [Complex.mul_conj, Complex.normSq_apply]
    congr 1
    ring
  refine ⟨key, key.trans hreal, ?_, ?_⟩
  · rw [key, hreal, Complex.ofReal_re]
    positivity
  · rw [key, hreal, Complex.ofReal_im]

/-- Witness of C12: the cell of index `1` of a buffer of four cells. -/
theorem mult_autocorrelation_pointwise_witness :
    (1 < 4) ∧
    (mult_autocorrelation (ptrs [0]) 4 (fun a => (a : ℂ)) (ptrs [0] 0 + 1)).im = 0 :=
  ⟨by decide,
    (mult_autocorrelation_pointwise (ptrs [0]) 4 (fun a => (a : ℂ)) 1 (by decide)).2.2.2⟩

/-! ## Loops on arrays of doubles -/

theorem dload_dstore_same (μ : Mem) (d : Nat) (v : ℝ) : dload (dstore μ d v) d = v :=
  loadD_storeD_same μ 0 d v

theorem dload_dstore_other (μ : Mem) (d : Nat) (v : ℝ) (d2 : Nat) (h : d2 ≠ d) :
    dload (dstore μ d v) d2 = dload μ d2 :=
  loadD_storeD_other μ 0 d v 0 d2 (by omega)

/-- An elementwise loop that stores `val j` in the double `p + j`, where `val j` does not
depend on the doubles written by earlier rounds, has a closed form. -/
theorem forUpTo_dstore_eq (p : Nat) (val : Nat → Mem → ℝ) (mem : Mem) (n : Nat)
    (hval : ∀ j, j < n → ∀ μ : Mem, (∀ d, (d < p ∨ p + j ≤ d) → dload μ d = dload mem d) →
      val j μ = val j mem) :
    ∀ d, dload (forUpTo (fun j μ => dstore μ (p + j) (val j μ)) n mem) d
      = if p ≤ d ∧ d < p + n then val (d - p) mem else dload mem d := by
  induction n with
  | zero =>
    intro d
    have : ¬ (p ≤ d ∧ d < p + 0) := by omega
    rw [if_neg this]
    rfl
  | succ n ih =>
    intro d
    have ih2 := ih (fun j hj => hval j (by omega))
    have hv : val n (forUpTo (fun j μ => dstore μ (p + j) (val j μ)) n mem) = val n mem := by
      apply hval n (by omega)
      intro b hb
      rw [ih2 b]
      have : ¬ (p ≤ b ∧ b < p + n) := by omega
      rw [if_neg this]
    show dload (dstore (forUpTo (fun j μ => dstore μ (p + j) (val j μ)) n mem) (p + n)
      (val n (forUpTo (fun j μ => dstore μ (p + j) (val j μ)) n mem))) d = _
    by_cases hd : d = p + n
    · subst hd
      rw [dload_dstore_same, hv]
      have : p ≤ p + n ∧ p + n < p + (n + 1) := by omega
      rw [if_pos this]
      congr 1
      omega
    · rw [dload_dstore_other _ _ _ _ hd, ih2 d]
      by_cases h1 : p ≤ d ∧ d < p + n
      · have h2 : p ≤ d ∧ d < p + (n + 1) := by omega
        rw [if_pos h1, if_pos h2]
      · have h2 : ¬ (p ≤ d ∧ d < p + (n + 1)) := by omega
        rw [if_neg h1, if_neg h2]

/-- C18: for arrays `a`, `b` of `2m` doubles that do not overlap,
`ImplicitHFGGConvolution::mult(a, b)` sets `a[k] = a[k]*a[k]*b[k]` (values before the call)
for every `k < 2m` and leaves `b` unchanged (indeed every double outside `a[0..2m)`). -/
theorem hfgg_mult_pointwise (m a b : Nat) (mem : Mem) (h : NoOverlap a b (2 * m)) :
    (∀ k, k < 2 * m → dload (ImplicitHFGGConvolution.mult m a b mem) (a + k)
        = dload mem (a + k) * dload mem (a + k) * dload mem (b + k)) ∧
    (∀ k, k < 2 * m → dload (ImplicitHFGGConvolution.mult m a b mem) (b + k)
        = dload mem (b + k)) ∧
    (∀ d, ¬ (a ≤ d ∧ d < a + 2 * m) →
      dload (ImplicitHFGGConvolution.mult m a b mem) d = dload mem d) := by
  unfold NoOverlap at h
  have key := forUpTo_dstore_eq a
    (fun k μ => dload μ (a + k) * dload μ (a + k) * dload μ (b + k)) mem (2 * m)
    (by
      intro j hj μ hμ
      show dload μ (a + j) * dload μ (a + j) * dload μ (b + j)
        = dload mem (a + j) * dload mem (a + j) * dload mem (b + j)
      rw [hμ (a + j) (by omega), hμ (b + j) (by omega)])
  have key2 : ∀ d, dload (ImplicitHFGGConvolution.mult m a b mem) d
      = if a ≤ d ∧ d < a + 2 * m then
          dload mem (a + (d - a)) * dload mem (a + (d - a)) * dload mem (b + (d - a))
        else dload mem d := key
  refine ⟨?_, ?_, ?_⟩
  · intro k hk
    rw [key2, if_pos (by omega)]
    have : a + k - a = k := by omega
    rw [this]
  · intro k hk
    rw [key2, if_neg (by omega)]
  · intro d hd
    rw [key2, if_neg hd]

/-- Witness of C18: `m = 2`, `a` at the double 0, `b` at the double 4. -/
theorem hfgg_mult_pointwise_witness :
    NoOverlap 0 4 (2 * 2) ∧
    dload (ImplicitHFGGConvolution.mult 2 0 4 (fun _ => 2)) (0 + 1)
      = dload (fun _ => 2) (0 + 1) * dload (fun _ => 2) (0 + 1) * dload (fun _ => 2) (4 + 1) :=
  ⟨by decide, (hfgg_mult_pointwise 2 0 4 (fun _ => 2) (by decide)).1 1 (by decide)⟩

theorem dload_STOREv (μ : Mem) (p : Nat) (v : Vec) (d : Nat) :
    dload (STOREv μ p v) d
      = if d = p + 1 then v.im else if d = p then v.re else dload μ d := by
  unfold STOREv
  by_cases h1 : d = p + 1
  · rw [if_pos h1, h1, dload_dstore_same]
  · rw [if_neg h1, dload_dstore_other _ _ _ _ h1]
    by_cases h0 : d = p
    · rw [if_pos h0, h0, dload_dstore_same]
    · rw [if_neg h0, dload_dstore_other _ _ _ _ h0]

theorem cube_pairs (a : Nat) (mem : Mem) (n : Nat) :
    ∀ d, dload (forUpTo (fun q μ => STOREv μ (a + q * 2)
        (vmul (vmul (LOADv μ (a + q * 2)) (LOADv μ (a + q * 2))) (LOADv μ (a + q * 2)))) n mem) d
      = if a ≤ d ∧ d < a + 2 * n then dload mem d ^ 3 else dload mem d := by
  induction n with
  | zero =>
    intro d
    have : ¬ (a ≤ d ∧ d < a + 2 * 0) := by omega
    rw [if_neg this]
    rfl
  | succ n ih =>
    intro d
    have e0 := ih (a + n * 2)
    have e1 := ih (a + n * 2 + 1)
    rw [if_neg (by omega)] at e0 e1
    have ihd := ih d
    simp only [forUpTo]
    generalize forUpTo (fun q μ => STOREv μ (a + q * 2)
        (vmul (vmul (LOADv μ (a + q * 2)) (LOADv μ (a + q * 2))) (LOADv μ (a + q * 2)))) n mem
      = ν at e0 e1 ihd ⊢
    rw [dload_STOREv]
    by_cases h1 : d = a + n * 2 + 1
    · rw [if_pos h1, if_pos (by omega), h1]
      show dload ν (a + n * 2 + 1) * dload ν (a + n * 2 + 1) * dload ν (a + n * 2 + 1) = _
      rw [e1]
      ring
    · rw [if_neg h1]
      by_cases h0 : d = a + n * 2
      · rw [if_pos h0, if_pos (by omega), h0]
        show dload ν (a + n * 2) * dload ν (a + n * 2) * dload ν (a + n * 2) = _
        rw [e0]
        ring
      · rw [if_neg h0, ihd]
        by_cases h2 : a ≤ d ∧ d < a + 2 * n
        · rw [if_pos h2, if_pos (by omega)]
        · rw [if_neg h2, if_neg (by omega)]

/-- C19: `ImplicitHFFFConvolution::mult(a)` returns, sets `a[k] = a[k]^3` (value before the
call) for every `k < 2m`, and leaves every double of index `≥ 2m` (indeed every double
outside `a[0..2m)`) unchanged. -/
theorem hfff_mult_pointwise (m a : Nat) (mem : Mem) :
    ∃ ν, ImplicitHFFFConvolution.mult m a mem = some ν ∧
      (∀ k, k < 2 * m → dload ν (a + k) = dload mem (a + k) ^ 3) ∧
      (∀ k, 2 * m ≤ k → dload ν (a + k) = dload mem (a + k)) ∧
      (∀ d, ¬ (a ≤ d ∧ d < a + 2 * m) → dload ν d = dload mem d) := by
  have hrun := forBlocks_eq_blocks (2 * m) 2 (by decide) (fun k (μ : Mem) =>
    STOREv μ (a + k) (vmul (vmul (LOADv μ (a + k)) (LOADv μ (a + k))) (LOADv μ (a + k)))) mem
  have hnb : (2 * m + 2 - 1) / 2 = m := by omega
  rw [hnb] at hrun
  refine ⟨_, hrun, ?_, ?_, ?_⟩
  · intro k hk
    rw [cube_pairs, if_pos (by omega)]
  · intro k hk
    rw [cube_pairs, if_neg (by omega)]
  · intro d hd
    rw [cube_pairs, if_neg hd]

/-- Witness of C19: `m = 2`, `a` at the double 0, the double of index 1. -/
theorem hfff_mult_pointwise_witness :
    ∃ ν, ImplicitHFFFConvolution.mult 2 0 (fun _ => 2) = some ν ∧
      ((1 < 2 * 2) ∧ dload ν (0 + 1) = dload (fun _ => 2) (0 + 1) ^ 3) := by
  obtain ⟨ν, h1, h2, _⟩ := hfff_mult_pointwise 2 0 (fun _ => 2)
  exact ⟨ν, h1, by decide, h2 1 (by decide)⟩

/-! ## The kernel of `ImplicitHTConvolution` -/

theorem forUpTo_add_sum (t : Nat → ℝ) (s0 : ℝ) (lo n : Nat) :
    forUpTo (fun i (s : ℝ) => s + t (lo + i)) n s0
      = s0 + ∑ i in Finset.range n, t (lo + i) := by
  induction n with
  | zero => simp [forUpTo]
  | succ n ih =>
    simp only [forUpTo]
    rw [ih, Finset.sum_range_succ]
    ring

/-- The running sum `sum = t 0; for(i=1; i < M; ++i) sum += t i` is the sum of the `t i`
over `i < M`, for `M ≥ 1`. -/
theorem forRange_running_sum (t : Nat → ℝ) (M : Nat) (hM : 1 ≤ M) :
    forRange 1 M (fun i (s : ℝ) => s + t i) (t 0) = ∑ i in Finset.range M, t i := by
  unfold forRange
  rw [forUpTo_add_sum t (t 0) 1 (M - 1)]
  obtain ⟨n, rfl⟩ : ∃ n, M = n + 1 := ⟨M - 1, by omega⟩
  rw [Nat.add_sub_cancel, Finset.sum_range_succ' t n, add_comm]
  congr 1
  apply Finset.sum_congr rfl
  intro i _
  rw [add_comm]

/-- The general loop of `ImplicitHTConvolution::mult` is the elementwise loop that stores the
sum of the `M` triple products in `a[j]`. -/
theorem ht_mult_general_loop (m M stride a b : Nat) (C : Ptrs) (offset : Nat) (mem : Mem)
    (hM : 1 ≤ M) :
    ImplicitHTConvolution.mult_general m M stride a b C offset mem
      = forUpTo (fun j μ => dstore μ (a + j)
          (∑ i in Finset.range M, dload μ (a + j + i * stride) * dload μ (b + j + i * stride)
            * dload μ (C i + offset + j))) (2 * m) mem := by
  unfold ImplicitHTConvolution.mult_general forRange
  have hn : 2 * m + offset - offset = 2 * m := by omega
  simp only [hn]
  apply forUpTo_congr
  intro j hj
  funext μ
  have e1 : a + (offset + j) - offset = a + j := by omega
  have e2 : b + (offset + j) - offset = b + j := by omega
  rw [e1, e2]
  have h := forRange_running_sum (fun i => dload μ (a + j + i * stride)
    * dload μ (b + j + i * stride) * dload μ (C i + offset + j)) M hM
  unfold forRange at h
  beta_reduce at h
  rw [← h]
  have e3 : a + j + 0 * stride = a + j := by omega
  have e4 : b + j + 0 * stride = b + j := by omega
  have e5 : C 0 + offset + j = C 0 + (offset + j) := by omega
  rw [e3, e4, e5]
  refine congrArg (dstore μ (a + j)) ?_
  apply forUpTo_congr
  intro i hi
  funext s
  have e6 : C (1 + i) + offset + j = C (1 + i) + (offset + j) := by omega
  rw [e6]

/-- Every branch of `ImplicitHTConvolution::mult` is that same elementwise loop. -/
theorem ht_mult_loop (m M stride a b : Nat) (C : Ptrs) (offset : Nat) (mem : Mem)
    (hM : 1 ≤ M) :
    ImplicitHTConvolution.mult m M stride a b C offset mem
      = forUpTo (fun j μ => dstore μ (a + j)
          (∑ i in Finset.range M, dload μ (a + j + i * stride) * dload μ (b + j + i * stride)
            * dload μ (C i + offset + j))) (2 * m) mem := by
  unfold ImplicitHTConvolution.mult
  by_cases h1 : M = 1
  · subst h1
    simp only [if_true]
    apply forUpTo_congr
    intro j hj
    funext μ
    rw [Finset.sum_range_one]
    have e3 : a + j + 0 * stride = a + j := by omega
    have e4 : b + j + 0 * stride = b + j := by omega
    rw [e3, e4, mul_assoc]
  · by_cases h2 : M = 2
    · subst h2
      simp only [if_neg h1, if_true]
      apply forUpTo_congr
      intro j hj
      funext μ
      rw [Finset.sum_range_succ, Finset.sum_range_one]
      have e3 : a + j + 0 * stride = a + j := by omega
      have e4 : b + j + 0 * stride = b + j := by omega
      have e5 : a + j + 1 * stride = a + stride + j := by omega
      have e6 : b + j + 1 * stride = b + stride + j := by omega
      rw [e3, e4, e5, e6]
    · by_cases h3 : M = 3
      · subst h3
        simp only [if_neg h1, if_neg h2, if_true]
        apply forUpTo_congr
        intro j hj
        funext μ
        rw [Finset.sum_range_succ, Finset.sum_range_succ, Finset.sum_range_one]
        have e3 : a + j + 0 * stride = a + j := by omega
        have e4 : b + j + 0 * stride = b + j := by omega
        have e5 : a + j + 1 * stride = a + stride + j := by omega
        have e6 : b + j + 1 * stride = b + stride + j := by omega
        have e7 : a + j + 2 * stride = a + stride + stride + j := by omega
        have e8 : b + j + 2 * stride = b + stride + stride + j := by omega
        rw [e3, e4, e5, e6, e7, e8]
      · simp only [if_neg h1, if_neg h2, if_neg h3]
        exact ht_mult_general_loop m M stride a b C offset mem hM

/-- The closed form of the elementwise loop of the triple products. -/
theorem ht_loop_apply (m M stride a b : Nat) (C : Ptrs) (offset : Nat) (mem : Mem)
    (hb : ∀ i, i < M → NoOverlap a (b + i * stride) (2 * m))
    (hC : ∀ i, i < M → NoOverlap a (C i + offset) (2 * m)) :
    ∀ d, dload (forUpTo (fun j μ => dstore μ (a + j)
          (∑ i in Finset.range M, dload μ (a + j + i * stride) * dload μ (b + j + i * stride)
            * dload μ (C i + offset + j))) (2 * m) mem) d
      = if a ≤ d ∧ d < a + 2 * m then
          ∑ i in Finset.range M, dload mem (a + (d - a) + i * stride)
            * dload mem (b + (d - a) + i * stride) * dload mem (C i + offset + (d - a))
        else dload mem d := by
  apply forUpTo_dstore_eq a (fun j μ =>
    ∑ i in Finset.range M, dload μ (a + j + i * stride) * dload μ (b + j + i * stride)
      * dload μ (C i + offset + j)) mem (2 * m)
  intro j hj μ hμ
  apply Finset.sum_congr rfl
  intro i hi
  have hi2 := Finset.mem_range.mp hi
  have h1 := hb i hi2
  have h2 := hC i hi2
  unfold NoOverlap at h1 h2
  rw [hμ (a + j + i * stride) (by omega), hμ (b + j + i * stride) (by omega),
    hμ (C i + offset + j) (by omega)]

/-- C20: for `M ≥ 1`, when none of the arrays `b + i*stride` and `C[i] + offset` (`i < M`,
`2m` doubles each) overlaps `a[0..2m)`, `ImplicitHTConvolution::mult(a, b, C, offset)` sets
`a[k] = sum over i < M of a[k + i*stride]*b[k + i*stride]*C[i][offset + k]` (values before
the call) for every `k < 2m`, and so does the general loop of its last branch for the same
`M`: the unrolled branches for `M = 1, 2, 3` compute what the general loop computes. -/
theorem ht_mult_sum (m M stride a b : Nat) (C : Ptrs) (offset : Nat) (mem : Mem)
    (hM : 1 ≤ M)
    (hb : ∀ i, i < M → NoOverlap a (b + i * stride) (2 * m))
    (hC : ∀ i, i < M → NoOverlap a (C i + offset) (2 * m)) :
    (∀ k, k < 2 * m → dload (ImplicitHTConvolution.mult m M stride a b C offset mem) (a + k)
        = ∑ i in Finset.range M, dload mem (a + k + i * stride)
            * dload mem (b + k + i * stride) * dload mem (C i + offset + k)) ∧
    (∀ k, k < 2 * m →
      dload (ImplicitHTConvolution.mult_general m M stride a b C offset mem) (a + k)
        = ∑ i in Finset.range M, dload mem (a + k + i * stride)
            * dload mem (b + k + i * stride) * dload mem (C i + offset + k)) ∧
    (∀ d, dload (ImplicitHTConvolution.mult m M stride a b C offset mem) d
        = dload (ImplicitHTConvolution.mult_general m M stride a b C offset mem) d) := by
  have key := ht_loop_apply m M stride a b C offset mem hb hC
  refine ⟨?_, ?_, ?_⟩
  · intro k hk
    rw [ht_mult_loop m M stride a b C offset mem hM, key, if_pos (by omega)]
    have : a + k - a = k := by omega
    rw [this]
  · intro k hk
    rw [ht_mult_general_loop m M stride a b C offset mem hM, key, if_pos (by omega)]
    have : a + k - a = k := by omega
    rw [this]
  · intro d
    rw [ht_mult_loop m M stride a b C offset mem hM,
      ht_mult_general_loop m M stride a b C offset mem hM]

/-- Witness of C20: `M = 2`, `m = 1`, `stride = 2`, `a` at the double 0, `b` at 4, `C[0]`,
`C[1]` at 8 and 10. -/
theorem ht_mult_sum_witness :
    (1 ≤ 2) ∧
    dload (ImplicitHTConvolution.mult 1 2 2 0 4 (ptrs [8, 10]) 0 (fun _ => 2)) (0 + 1)
      = ∑ i in Finset.range 2, dload (fun _ => 2) (0 + 1 + i * 2)
          * dload (fun _ => 2) (4 + 1 + i * 2) * dload (fun _ => 2) (ptrs [8, 10] i + 0 + 1) :=
  ⟨by decide, (ht_mult_sum 1 2 2 0 4 (ptrs [8, 10]) 0 (fun _ => 2) (by decide)
    (by
      intro i hi
      have : i = 0 ∨ i = 1 := by omega
      rcases this with rfl | rfl <;> decide)
    (by
      intro i hi
      have : i = 0 ∨ i = 1 := by omega
      rcases this with rfl | rfl <;> decide)).1 1 (by decide)⟩

theorem half_ninv_cast (m : Nat) (hm : 1 ≤ m) (z x y : ℂ) :
    (starRingEnd ℂ) (((0.5 / (m : ℝ) : ℝ) : ℂ) * z) * x + ((0.5 / (m : ℝ) : ℝ) : ℂ) * y
      = ((starRingEnd ℂ) z * x + y) / (2 * (m : ℂ)) := by
  have hmC : (m : ℂ) ≠ 0 := by
    have : 0 < m := hm
    exact_mod_cast this.ne'
  have h05 : ((0.5 / (m : ℝ) : ℝ) : ℂ) = 1 / (2 * (m : ℂ)) := by
    rw [show (0.5 : ℝ) = 1 / 2 by norm_num]
    push_cast
    field_simp
  rw [map_mul, Complex.conj_ofReal, h05]
  field_simp

/-- C15: for `m ≥ 1`, a block size `s ≥ 1` and buffers `f`, `u` of `m` cells that do not
overlap, `ImplicitConvolution::postmultadd(f, u)` returns, sets
`f[k] = (conj(z_k)*f[k] + u[k]) / (2m)` (values before the call) for every `k < m`, where
`z_k = ZetaH[k/s]*ZetaL[k mod s]`, and leaves `u` unchanged (indeed every cell outside
`f[0..m)`). -/
theorem postmultadd_pointwise (E : ImplicitConvolution) (hm : 1 ≤ E.m) (hs : 0 < E.s)
    (f u : Nat) (μ : Mem) (h : NoOverlap f u E.m) :
    ∃ ν, E.postmultadd f u μ = some ν ∧
      (∀ k, k < E.m → ν (f + k)
        = ((starRingEnd ℂ) (tab E.ZetaH (k / E.s) * tab E.ZetaL (k % E.s)) * μ (f + k)
            + μ (u + k)) / (2 * (E.m : ℂ))) ∧
      (∀ k, k < E.m → ν (u + k) = μ (u + k)) ∧
      (∀ a, ¬ (f ≤ a ∧ a < f + E.m) → ν a = μ a) := by
  obtain ⟨ν, hrun, hval, hframe⟩ := postmultadd_eq E f u μ hs h
  unfold NoOverlap at h
  refine ⟨ν, hrun, ?_, ?_, hframe⟩
  · intro k hk
    have h1 := congrFun hval k
    rw [arr_apply _ _ _ _ hk] at h1
    rw [arr_apply _ _ _ _ hk, arr_apply _ _ _ _ hk] at h1
    rw [h1]
    exact half_ninv_cast E.m hm (E.zetak k) (μ (f + k)) (μ (u + k))
  · intro k hk
    exact hframe _ (by omega)

/-- Witness of C15: `m = 2` with the tables of `BuildZeta(4, 2)`, `f` at 0 and `u` at 2. -/
theorem postmultadd_pointwise_witness :
    (1 ≤ (ImplicitConvolution.init 2 2 1 (ptrs [4, 6]) (dft 1 2) (dft (-1) 2)).m) ∧
    ∃ ν, (ImplicitConvolution.init 2 2 1 (ptrs [4, 6]) (dft 1 2) (dft (-1) 2)).postmultadd
        0 2 (fun a => (a : ℂ)) = some ν ∧
      ∀ k, k < 2 → ν (2 + k) = (fun a : Nat => (a : ℂ)) (2 + k) := by
  obtain ⟨ν, h1, _, h3, _⟩ := postmultadd_pointwise
    (ImplicitConvolution.init 2 2 1 (ptrs [4, 6]) (dft 1 2) (dft (-1) 2)) (by decide)
    (show 0 < Nat.sqrt 2 from Nat.sqrt_pos.mpr (by decide)) 0 2 (fun a => (a : ℂ)) (by decide)
  exact ⟨by decide, ν, h1, h3⟩

/-! ## `fftpad::expand` and `fftpad::reduce` -/

/-- The blocked loop over `k < m` with an inner loop over `i < M` whose rounds `(k, i)` act on
pairwise disjoint sets of cells: the loop comes to an end, and every touched cell ends with
the value that its own round gives it on the initial memory. -/
theorem rows_value (m s M : Nat) (hs : 0 < s) (body : Nat → Nat → Nat → Mem → Mem)
    (stepf : Nat → Nat → Mem → Mem) (touch : Nat → Nat → Nat → Prop)
    (hbody : ∀ k i, k < m → i < M → body (k / s * s) k i = stepf k i)
    (hacts : ∀ k i, k < m → i < M → Acts (stepf k i) (touch k i))
    (hdisj : ∀ k i k2 i2 a, k < m → i < M → k2 < m → i2 < M →
      touch k i a → touch k2 i2 a → k = k2 ∧ i = i2)
    (μ : Mem) :
    ∃ ν, forBlocks m s (fun K μ => forRange K (min (K + s) m) (fun k μ =>
        forUpTo (fun i μ => body K k i μ) M μ) μ) m 0 μ = some ν
      ∧ (∀ k i a, k < m → i < M → touch k i a → ν a = stepf k i μ a)
      ∧ (∀ a, (∀ k i, k < m → i < M → ¬ touch k i a) → ν a = μ a) := by
  have hrun := forBlocks_eq_forUpTo m s hs
    (fun K k (μ : Mem) => forUpTo (fun i μ => body K k i μ) M μ) μ
  refine ⟨_, hrun, ?_⟩
  have hloop : forUpTo (fun k => (fun K k (μ : Mem) =>
        forUpTo (fun i μ => body K k i μ) M μ) (k / s * s) k) m μ
      = forUpTo (fun k => forUpTo (fun i => stepf k i) M) m μ := by
    apply forUpTo_congr
    intro k hk
    funext ν
    apply forUpTo_congr
    intro i hi
    exact hbody k i hk hi
  rw [hloop]
  have hk : ∀ k, k < m → Acts (forUpTo (fun i => stepf k i) M)
      (fun a => ∃ i, i < M ∧ touch k i a) :=
    fun k hk => forUpTo_acts _ (fun i a => touch k i a) M (fun i hi => hacts k i hk hi)
  refine ⟨?_, ?_⟩
  · intro k i a hk1 hi ht
    rw [forUpTo_value _ (fun k a => ∃ i, i < M ∧ touch k i a) m hk
      (fun k k2 a hk1 hk2 h1 h2 => by
        obtain ⟨i, hi, ht⟩ := h1
        obtain ⟨i2, hi2, ht2⟩ := h2
        exact (hdisj k i k2 i2 a hk1 hi hk2 hi2 ht ht2).1)
      k hk1 a ⟨i, hi, ht⟩ μ]
    exact forUpTo_value _ (fun i a => touch k i a) M (fun i hi => hacts k i hk1 hi)
      (fun i i2 a hi hi2 h1 h2 => (hdisj k i k i2 a hk1 hi hk1 hi2 h1 h2).2) i hi a ht μ
  · intro a ha
    apply (forUpTo_acts _ (fun k a => ∃ i, i < M ∧ touch k i a) m hk).frame μ a
    rintro ⟨k, hk1, i, hi, ht⟩
    exact ha k i hk1 hi ht

theorem row_index_inj (stride M k i k2 i2 : Nat) (hM : M ≤ stride) (hi : i < M) (hi2 : i2 < M)
    (h : k * stride + i = k2 * stride + i2) : k = k2 ∧ i = i2 := by
  have h1 := div_mul_block stride k (k * stride + i) (by omega) (by omega)
  have h2 := div_mul_block stride k2 (k2 * stride + i2) (by omega) (by omega)
  rw [h] at h1
  have hk : k = k2 := by omega
  subst hk
  exact ⟨rfl, by omega⟩

theorem row_lt (stride M m k i : Nat) (hM : M ≤ stride) (hk : k < m) (hi : i < M) :
    k * stride + i < m * stride := by
  have h1 : (k + 1) * stride ≤ m * stride := Nat.mul_le_mul_right stride hk
  rw [Nat.succ_mul] at h1
  omega

/-- A round that stores, in the cell `w + j`, a value computed from the cells `w + j` and
`r + j`, acts on these two cells. -/
theorem store_row_acts (w r j : Nat) (g : ℂ → ℂ → ℂ) :
    Acts (fun μ : Mem => STORE μ (w + j) (g (μ (w + j)) (μ (r + j))))
      (fun a => a = w + j ∨ a = r + j) := by
  refine ⟨?_, ?_⟩
  · intro μ a ha
    simp only [not_or] at ha
    show STORE μ _ _ a = _
    rw [STORE_other _ _ _ _ ha.1]
  · intro μ ν hμν a ha
    show STORE μ _ _ a = STORE ν _ _ a
    by_cases h : a = w + j
    · rw [h, STORE_same, STORE_same, hμν _ (Or.inl rfl), hμν _ (Or.inr rfl)]
    · rw [STORE_other _ _ _ _ h, STORE_other _ _ _ _ h, hμν a ha]

theorem rows_disjoint (m stride M w r : Nat) (hM : M ≤ stride) (h : NoOverlap w r (m * stride)) :
    ∀ k i k2 i2 a, k < m → i < M → k2 < m → i2 < M →
      (a = w + (k * stride + i) ∨ a = r + (k * stride + i)) →
      (a = w + (k2 * stride + i2) ∨ a = r + (k2 * stride + i2)) → k = k2 ∧ i = i2 := by
  intro k i k2 i2 a hk hi hk2 hi2 h1 h2
  unfold NoOverlap at h
  have l1 := row_lt stride M m k i hM hk hi
  have l2 := row_lt stride M m k2 i2 hM hk2 hi2
  apply row_index_inj stride M k i k2 i2 hM hi hi2
  rcases h1 with h1 | h1 <;> rcases h2 with h2 | h2 <;> omega

theorem ZMULT3_unpack_conj (z w : Vec) :
    ZMULT3 (UNPACKL z z) (UNPACKH z (CONJ z)) w = (starRingEnd ℂ) z * w := by
  apply Complex.ext <;> simp [ZMULT3, UNPACKL, UNPACKH, CONJ, FLIP, vmul]

theorem ninv_sum_cast (m : Nat) (hm : 1 ≤ m) (z x y : ℂ) :
    ((0.5 / (m : ℝ) : ℝ) : ℂ) * x + (starRingEnd ℂ) (((0.5 / (m : ℝ) : ℝ) : ℂ) * z) * y
      = (x + (starRingEnd ℂ) z * y) / (2 * (m : ℂ)) := by
  have h := half_ninv_cast m hm z y x
  rw [add_comm] at h
  rw [h, add_comm]

/-- C13: for a block size `s ≥ 1`, rows of `M ≤ stride` cells and buffers `f`, `u` of
`m*stride` cells that do not overlap, `fftpad::expand(f, u)` returns, sets
`u[k*stride+i] = z_k * f[k*stride+i]` for every `k < m` and `i < M`, where
`z_k = ZetaH[k/s]*ZetaL[k mod s]`, and changes no other cell: `f` is unchanged and so is every
other element of `u`. -/
theorem expand_rows (E : fftpad) (hs : 0 < E.s) (hM : E.M ≤ E.stride) (f u : Nat) (μ : Mem)
    (h : NoOverlap f u (E.m * E.stride)) :
    ∃ ν, E.expand f u μ = some ν ∧
      (∀ k i, k < E.m → i < E.M →
        ν (u + k * E.stride + i) = E.zetak k * μ (f + k * E.stride + i)) ∧
      (∀ j, j < E.m * E.stride → ν (f + j) = μ (f + j)) ∧
      (∀ a, (∀ k i, k < E.m → i < E.M → a ≠ u + k * E.stride + i) → ν a = μ a) := by
  have hd : NoOverlap u f (E.m * E.stride) := by
    unfold NoOverlap at h ⊢
    omega
  obtain ⟨ν, hrun, hval, hframe⟩ := rows_value E.m E.s E.M hs
    (fun K k i μ => STORE μ (u + k * E.stride + i)
      (ZMULT3 (UNPACKL (ZMULT (tab E.ZetaH (K / E.s)) (tab E.ZetaL (k - K)))
          (ZMULT (tab E.ZetaH (K / E.s)) (tab E.ZetaL (k - K))))
        (UNPACKH (CONJ (ZMULT (tab E.ZetaH (K / E.s)) (tab E.ZetaL (k - K))))
          (ZMULT (tab E.ZetaH (K / E.s)) (tab E.ZetaL (k - K))))
        (LOAD μ (f + k * E.stride + i))))
    (fun k i μ => STORE μ (u + (k * E.stride + i))
      ((fun _ y => E.zetak k * y) (μ (u + (k * E.stride + i))) (μ (f + (k * E.stride + i)))))
    (fun k i a => a = u + (k * E.stride + i) ∨ a = f + (k * E.stride + i))
    (fun k i hk hi => by
      funext μ
      beta_reduce
      rw [ZMULT3_unpack, ZMULT_eq_mul, (block_index E.s k hs).1, (block_index E.s k hs).2]
      simp only [LOAD, Nat.add_assoc]
      rfl)
    (fun k i hk hi => store_row_acts u f (k * E.stride + i) (fun _ y => E.zetak k * y))
    (rows_disjoint E.m E.stride E.M u f hM hd) μ
  have hframe2 : ∀ a, (∀ k i, k < E.m → i < E.M → a ≠ u + k * E.stride + i) → ν a = μ a := by
    intro a ha
    by_cases hex : ∃ k i, k < E.m ∧ i < E.M ∧ a = f + (k * E.stride + i)
    · obtain ⟨k, i, hk, hi, rfl⟩ := hex
      rw [hval k i _ hk hi (Or.inr rfl)]
      apply STORE_other
      have := row_lt E.stride E.M E.m k i hM hk hi
      unfold NoOverlap at h
      omega
    · apply hframe
      intro k i hk hi hc
      rcases hc with hc | hc
      · exact ha k i hk hi (by rw [hc, Nat.add_assoc])
      · exact hex ⟨k, i, hk, hi, hc⟩
  refine ⟨ν, hrun, ?_, ?_, hframe2⟩
  · intro k i hk hi
    rw [Nat.add_assoc, Nat.add_assoc, hval k i _ hk hi (Or.inl rfl), STORE_same]
  · intro j hj
    apply hframe2
    intro k i hk hi
    have := row_lt E.stride E.M E.m k i hM hk hi
    unfold NoOverlap at h
    omega

/-- Witness of C13: `m = 2`, `M = 1`, `stride = 1`, `s = 1`, `f` at 0 and `u` at 2. -/
theorem expand_rows_witness :
    ∃ ν, (fftpad.mk 2 1 1 1 [1, Complex.I] [1]).expand 0 2 (fun a => (a : ℂ)) = some ν ∧
      ∀ j, j < 2 * 1 → ν (0 + j) = (fun a : Nat => (a : ℂ)) (0 + j) := by
  obtain ⟨ν, h1, _, h3, _⟩ := expand_rows (fftpad.mk 2 1 1 1 [1, Complex.I] [1])
    (by decide) (by decide) 0 2 (fun a => (a : ℂ)) (by decide)
  exact ⟨ν, h1, h3⟩

/-- C14: for `m ≥ 1`, a block size `s ≥ 1`, rows of `M ≤ stride` cells and buffers `f`, `u`
of `m*stride` cells that do not overlap, `fftpad::reduce(f, u)` returns, sets
`f[k*stride+i] = (f[k*stride+i] + conj(z_k)*u[k*stride+i]) / (2m)` (values before the call)
for every `k < m` and `i < M`, where `z_k = ZetaH[k/s]*ZetaL[k mod s]`, and changes no other
cell: `u` is unchanged. -/
theorem reduce_rows (E : fftpad) (hm : 1 ≤ E.m) (hs : 0 < E.s) (hM : E.M ≤ E.stride)
    (f u : Nat) (μ : Mem) (h : NoOverlap f u (E.m * E.stride)) :
    ∃ ν, E.reduce f u μ = some ν ∧
      (∀ k i, k < E.m → i < E.M →
        ν (f + k * E.stride + i)
          = (μ (f + k * E.stride + i) + (starRingEnd ℂ) (E.zetak k) * μ (u + k * E.stride + i))
            / (2 * (E.m : ℂ))) ∧
      (∀ j, j < E.m * E.stride → ν (u + j) = μ (u + j)) ∧
      (∀ a, (∀ k i, k < E.m → i < E.M → a ≠ f + k * E.stride + i) → ν a = μ a) := by
  obtain ⟨ν, hrun, hval, hframe⟩ := rows_value E.m E.s E.M hs
    (fun K k i μ => STORE μ (f + k * E.stride + i)
      (vmul (LOAD μ (f + k * E.stride + i)) (LOADd (0.5 / (E.m : ℝ)))
        + ZMULT3
          (UNPACKL (ZMULT (vmul (LOADd (0.5 / (E.m : ℝ))) (tab E.ZetaH (K / E.s)))
              (tab E.ZetaL (k - K)))
            (ZMULT (vmul (LOADd (0.5 / (E.m : ℝ))) (tab E.ZetaH (K / E.s)))
              (tab E.ZetaL (k - K))))
          (UNPACKH (ZMULT (vmul (LOADd (0.5 / (E.m : ℝ))) (tab E.ZetaH (K / E.s)))
              (tab E.ZetaL (k - K)))
            (CONJ (ZMULT (vmul (LOADd (0.5 / (E.m : ℝ))) (tab E.ZetaH (K / E.s)))
              (tab E.ZetaL (k - K)))))
          (LOAD μ (u + k * E.stride + i))))
    (fun k i μ => STORE μ (f + (k * E.stride + i))
      ((fun x y => (x + (starRingEnd ℂ) (E.zetak k) * y) / (2 * (E.m : ℂ)))
        (μ (f + (k * E.stride + i))) (μ (u + (k * E.stride + i)))))
    (fun k i a => a = f + (k * E.stride + i) ∨ a = u + (k * E.stride + i))
    (fun k i hk hi => by
      funext μ
      beta_reduce
      rw [ZMULT3_unpack_conj, ZMULT_eq_mul, vmul_LOADd, vmul_LOADd_right,
        (block_index E.s k hs).1, (block_index E.s k hs).2]
      simp only [LOAD, Nat.add_assoc]
      rw [mul_assoc, ninv_sum_cast E.m hm]
      rfl)
    (fun k i hk hi => store_row_acts f u (k * E.stride + i)
      (fun x y => (x + (starRingEnd ℂ) (E.zetak k) * y) / (2 * (E.m : ℂ))))
    (rows_disjoint E.m E.stride E.M f u hM h) μ
  have hframe2 : ∀ a, (∀ k i, k < E.m → i < E.M → a ≠ f + k * E.stride + i) → ν a = μ a := by
    intro a ha
    by_cases hex : ∃ k i, k < E.m ∧ i < E.M ∧ a = u + (k * E.stride + i)
    · obtain ⟨k, i, hk, hi, rfl⟩ := hex
      rw [hval k i _ hk hi (Or.inr rfl)]
      apply STORE_other
      have := row_lt E.stride E.M E.m k i hM hk hi
      unfold NoOverlap at h
      omega
    · apply hframe
      intro k i hk hi hc
      rcases hc with hc | hc
      · exact ha k i hk hi (by rw [hc, Nat.add_assoc])
      · exact hex ⟨k, i, hk, hi, hc⟩
  refine ⟨ν, hrun, ?_, ?_, hframe2⟩
  · intro k i hk hi
    rw [Nat.add_assoc, Nat.add_assoc, hval k i _ hk hi (Or.inl rfl), STORE_same]
  · intro j hj
    apply hframe2
    intro k i hk hi
    have := row_lt E.stride E.M E.m k i hM hk hi
    unfold NoOverlap at h
    omega

/-- Witness of C14: `m = 2`, `M = 1`, `stride = 1`, `s = 1`, `f` at 0 and `u` at 2. -/
theorem reduce_rows_witness :
    (1 ≤ (fftpad.mk 2 1 1 1 [1, Complex.I] [1]).m) ∧
    ∃ ν, (fftpad.mk 2 1 1 1 [1, Complex.I] [1]).reduce 0 2 (fun a => (a : ℂ)) = some ν ∧
      ∀ j, j < 2 * 1 → ν (2 + j) = (fun a : Nat => (a : ℂ)) (2 + j) := by
  obtain ⟨ν, h1, _, h3, _⟩ := reduce_rows (fftpad.mk 2 1 1 1 [1, Complex.I] [1])
    (by decide) (by decide) (by decide) 0 2 (fun a => (a : ℂ)) (by decide)
  exact ⟨by decide, ν, h1, h3⟩

/-! ## The `premult` specialisations and the generic loop -/

theorem premult1_eq_general (P : Ptrs) (k : Nat) (Z : Vec) (μ : Mem) :
    premult1 P k Z μ = premult_general 1 P k Z μ := rfl

theorem premult2_eq_general (P : Ptrs) (k : Nat) (Z : Vec) (μ : Mem)
    (h10 : P 1 + k ≠ P 0 + k) :
    premult2 P k Z μ = premult_general 2 P k Z μ := by
  simp only [premult2, premult_general, forUpTo, LOAD]
  rw [STORE_other _ _ _ _ h10]

theorem premult3_eq_general (P : Ptrs) (k : Nat) (Z : Vec) (μ : Mem)
    (h10 : P 1 + k ≠ P 0 + k) (h20 : P 2 + k ≠ P 0 + k) (h21 : P 2 + k ≠ P 1 + k) :
    premult3 P k Z μ = premult_general 3 P k Z μ := by
  simp only [premult3, premult_general, forUpTo, LOAD]
  rw [STORE_other _ _ _ _ h10, STORE_other _ _ _ _ h21, STORE_other _ _ _ _ h20]

theorem premult4_eq_general (P : Ptrs) (k : Nat) (Z : Vec) (μ : Mem)
    (h10 : P 1 + k ≠ P 0 + k) (h20 : P 2 + k ≠ P 0 + k) (h21 : P 2 + k ≠ P 1 + k)
    (h30 : P 3 + k ≠ P 0 + k) (h31 : P 3 + k ≠ P 1 + k) (h32 : P 3 + k ≠ P 2 + k) :
    premult4 P k Z μ = premult_general 4 P k Z μ := by
  simp only [premult4, premult_general, forUpTo, LOAD]
  rw [STORE_other _ _ _ _ h10, STORE_other _ _ _ _ h21, STORE_other _ _ _ _ h20,
    STORE_other _ _ _ _ h32, STORE_other _ _ _ _ h31, STORE_other _ _ _ _ h30]

/-- Two runs of `premult` whose inner functions agree for every `k < m` agree. -/
theorem premult_congr (E : ImplicitConvolution) (hs : 0 < E.s)
    (inner1 inner2 : Ptrs → Nat → Vec → Mem → Mem) (P : Ptrs) (μ : Mem)
    (h : ∀ k Z, k < E.m → inner1 P k Z = inner2 P k Z) :
    E.premult inner1 P μ = E.premult inner2 P μ := by
  have h1 := forBlocks_eq_forUpTo E.m E.s hs
    (fun K k (μ : Mem) => inner1 P k
      (ZMULT3 (UNPACKL (tab E.ZetaH (K / E.s)) (tab E.ZetaH (K / E.s)))
        (UNPACKH (CONJ (tab E.ZetaH (K / E.s))) (tab E.ZetaH (K / E.s)))
        (tab E.ZetaL (k - K))) μ) μ
  have h2 := forBlocks_eq_forUpTo E.m E.s hs
    (fun K k (μ : Mem) => inner2 P k
      (ZMULT3 (UNPACKL (tab E.ZetaH (K / E.s)) (tab E.ZetaH (K / E.s)))
        (UNPACKH (CONJ (tab E.ZetaH (K / E.s))) (tab E.ZetaH (K / E.s)))
        (tab E.ZetaL (k - K))) μ) μ
  refine h1.trans (Eq.trans ?_ h2.symm)
  congr 1
  apply forUpTo_congr
  intro k hk
  funext ν
  exact congrFun (h k _ hk) ν

/-- A round that stores, in the cell `p`, a value computed from the cell `p`, acts on that
cell. -/
theorem store_cell_acts (p : Nat) (g : ℂ → ℂ) :
    Acts (fun μ : Mem => STORE μ p (g (μ p))) (fun a => a = p) := by
  refine ⟨?_, ?_⟩
  · intro μ a ha
    show STORE μ _ _ a = _
    rw [STORE_other _ _ _ _ ha]
  · intro μ ν hμν a ha
    show STORE μ _ _ a = STORE ν _ _ a
    rw [ha, STORE_same, STORE_same, hμν _ rfl]

/-- The generic `premult` loop on `A` buffers that are pairwise apart comes to an end, sets
`F[i][k] = zeta_k*F[i][k]` for `i < A`, `k < m`, and writes nothing else. -/
theorem premult_general_eq (E : ImplicitConvolution) (hs : 0 < E.s) (A : Nat) (P : Ptrs)
    (μ : Mem) (h : ∀ i j, i < A → j < A → i ≠ j → NoOverlap (P i) (P j) E.m) :
    ∃ ν, E.premult (premult_general A) P μ = some ν ∧
      (∀ i k, i < A → k < E.m → ν (P i + k) = E.zetak k * μ (P i + k)) ∧
      (∀ a, (∀ i k, i < A → k < E.m → a ≠ P i + k) → ν a = μ a) := by
  obtain ⟨ν, hrun, hval, hframe⟩ := rows_value E.m E.s A hs
    (fun K k i μ => STORE μ (P i + k)
      (ZMULT (ZMULT3 (UNPACKL (tab E.ZetaH (K / E.s)) (tab E.ZetaH (K / E.s)))
        (UNPACKH (CONJ (tab E.ZetaH (K / E.s))) (tab E.ZetaH (K / E.s)))
        (tab E.ZetaL (k - K))) (LOAD μ (P i + k))))
    (fun k i μ => STORE μ (P i + k) ((fun x => E.zetak k * x) (μ (P i + k))))
    (fun k i a => a = P i + k)
    (fun k i hk hi => by
      funext μ
      beta_reduce
      rw [block_zetak E hs, ZMULT_eq_mul]
      rfl)
    (fun k i hk hi => store_cell_acts (P i + k) (fun x => E.zetak k * x))
    (fun k i k2 i2 a hk hi hk2 hi2 h1 h2 => by
      have hii : i = i2 := by
        by_contra hne
        have := h i i2 hi hi2 hne
        unfold NoOverlap at this
        omega
      subst hii
      exact ⟨by omega, rfl⟩) μ
  refine ⟨ν, hrun, ?_, ?_⟩
  · intro i k hi hk
    rw [hval k i _ hk hi rfl, STORE_same]
  · intro a ha
    exact hframe a (fun k i hk hi => ha i k hi hk)

/-- C16: for `A` in `{1, 2, 3, 4}`, a block size `s ≥ 1` and buffers `F[0..A)` of `m` cells
that are pairwise apart, the unrolled `premult<premultA>` that `convolve` selects for that `A`
and the generic `premult` loop both return, and with the same memory: `F[i][k] = z_k * F[i][k]`
(old value) for every `i < A` and `k < m`, with `z_k = ZetaH[k/s]*ZetaL[k mod s]`, every other
cell unchanged. -/
theorem premult_unrolled_eq_general (E : ImplicitConvolution) (hA1 : 1 ≤ E.A) (hA4 : E.A ≤ 4)
    (hs : 0 < E.s) (P : Ptrs) (μ : Mem)
    (h : ∀ i j, i < E.A → j < E.A → i ≠ j → NoOverlap (P i) (P j) E.m) :
    ∃ ν, E.premultA P μ = some ν ∧ E.premult (premult_general E.A) P μ = some ν ∧
      (∀ i k, i < E.A → k < E.m → ν (P i + k) = E.zetak k * μ (P i + k)) ∧
      (∀ a, (∀ i k, i < E.A → k < E.m → a ≠ P i + k) → ν a = μ a) := by
  obtain ⟨ν, hrun, hval, hframe⟩ := premult_general_eq E hs E.A P μ h
  refine ⟨ν, ?_, hrun, hval, hframe⟩
  rw [← hrun]
  have hne : ∀ i j k, i < E.A → j < E.A → i ≠ j → k < E.m → P i + k ≠ P j + k := by
    intro i j k hi hj hij hk
    have := h i j hi hj hij
    unfold NoOverlap at this
    omega
  unfold ImplicitConvolution.premultA
  obtain ⟨A, hA⟩ : ∃ A, A = E.A := ⟨_, rfl⟩
  rw [← hA] at hne hA1 hA4 ⊢
  have hcases : A = 1 ∨ A = 2 ∨ A = 3 ∨ A = 4 := by omega
  rcases hcases with e | e | e | e <;> subst e
  · rfl
  · exact premult_congr E hs _ _ P μ (fun k Z hk => funext fun ν =>
      premult2_eq_general P k Z ν (hne 1 0 k (by omega) (by omega) (by omega) hk))
  · exact premult_congr E hs _ _ P μ (fun k Z hk => funext fun ν =>
      premult3_eq_general P k Z ν (hne 1 0 k (by omega) (by omega) (by omega) hk)
        (hne 2 0 k (by omega) (by omega) (by omega) hk)
        (hne 2 1 k (by omega) (by omega) (by omega) hk))
  · exact premult_congr E hs _ _ P μ (fun k Z hk => funext fun ν =>
      premult4_eq_general P k Z ν (hne 1 0 k (by omega) (by omega) (by omega) hk)
        (hne 2 0 k (by omega) (by omega) (by omega) hk)
        (hne 2 1 k (by omega) (by omega) (by omega) hk)
        (hne 3 0 k (by omega) (by omega) (by omega) hk)
        (hne 3 1 k (by omega) (by omega) (by omega) hk)
        (hne 3 2 k (by omega) (by omega) (by omega) hk))

/-! ## Loops of transforms -/

theorem arr_cells (m q : Nat) (μ ν : Mem) (h : ∀ k, k < m → ν (q + k) = μ (q + k)) :
    arr m ν q = arr m μ q :=
  arr_ext m ν μ q q h

/-- A loop `for i < n: fft(src[i], dst[i])` in which no output overlaps another output or an
input still to be read: every output holds the transform of the initial input. -/
theorem fft_loop_up (T : Transform) (m : Nat) (src dst : Ptrs) (n : Nat) (μ : Mem)
    (hdd : ∀ i j, i < n → j < n → i ≠ j → NoOverlap (dst i) (dst j) m)
    (hds : ∀ i j, j < i → i < n → NoOverlap (dst j) (src i) m) :
    (∀ i, i < n → arr m (forUpTo (fun i μ => fft T m (src i) (dst i) μ) n μ) (dst i)
        = restr m (T (arr m μ (src i)))) ∧
    (∀ a, (∀ i, i < n → ¬ (dst i ≤ a ∧ a < dst i + m)) →
        forUpTo (fun i μ => fft T m (src i) (dst i) μ) n μ a = μ a) := by
  induction n with
  | zero => exact ⟨fun i hi => by omega, fun a _ => rfl⟩
  | succ n ih =>
    obtain ⟨ihv, ihf⟩ := ih (fun i j hi hj => hdd i j (by omega) (by omega))
      (fun i j hj hi => hds i j hj (by omega))
    refine ⟨?_, ?_⟩
    · intro i hi
      show arr m (fft T m (src n) (dst n) _) (dst i) = _
      by_cases hin : i = n
      · subst hin
        have hsrc : arr m (forUpTo (fun i μ => fft T m (src i) (dst i) μ) i μ) (src i)
            = arr m μ (src i) := by
          apply arr_cells
          intro k hk
          apply ihf
          intro j hj
          have := hds i j hj (by omega)
          unfold NoOverlap at this
          omega
        rw [fft_arr, hsrc]
      · rw [fft_arr_other _ _ _ _ _ _ (hdd n i (by omega) (by omega) (by omega))]
        exact ihv i (by omega)
    · intro a ha
      show fft T m (src n) (dst n) _ a = _
      rw [fft_frame _ _ _ _ _ _ (ha n (by omega))]
      exact ihf a (fun i hi => ha i (by omega))

/-- The loop `for(i=n; i-- > 0;) fft(src[i], dst[i])` in which no output overlaps another
output or an input still to be read: every output holds the transform of the initial
input. -/
theorem fft_loop_down (T : Transform) (m : Nat) (src dst : Ptrs) (n : Nat) (μ : Mem)
    (hdd : ∀ i j, i < n → j < n → i ≠ j → NoOverlap (dst i) (dst j) m)
    (hsd : ∀ i j, i < j → j < n → NoOverlap (dst j) (src i) m) :
    (∀ i, i < n → arr m (forDownFrom (fun i μ => fft T m (src i) (dst i) μ) n μ) (dst i)
        = restr m (T (arr m μ (src i)))) ∧
    (∀ a, (∀ i, i < n → ¬ (dst i ≤ a ∧ a < dst i + m)) →
        forDownFrom (fun i μ => fft T m (src i) (dst i) μ) n μ a = μ a) := by
  induction n generalizing μ with
  | zero => exact ⟨fun i hi => by omega, fun a _ => rfl⟩
  | succ n ih =>
    obtain ⟨ihv, ihf⟩ := ih (fft T m (src n) (dst n) μ)
      (fun i j hi hj => hdd i j (by omega) (by omega))
      (fun i j hj hi => hsd i j hj (by omega))
    refine ⟨?_, ?_⟩
    · intro i hi
      show arr m (forDownFrom _ n (fft T m (src n) (dst n) μ)) (dst i) = _
      by_cases hin : i = n
      · subst hin
        rw [← fft_arr]
        apply arr_cells
        intro k hk
        apply ihf
        intro j hj
        have := hdd i j (by omega) (by omega) (by omega)
        unfold NoOverlap at this
        omega
      · rw [ihv i (by omega),
          fft_arr_other _ _ _ _ _ _ (hsd i n (by omega) (by omega))]
    · intro a ha
      show forDownFrom _ n (fft T m (src n) (dst n) μ) a = _
      rw [ihf a (fun i hi => ha i (by omega)), fft_frame _ _ _ _ _ _ (ha n (by omega))]

/-- The loop that returns to the original space: round `i` transforms `src1[i]` into `dst[i]`
and `src2[i]` into `t[i]`, then recombines them in `dst[i]`. When no round overwrites an
input of a later round or an output of an earlier one, the loop comes to an end and every
`dst[i]` holds the recombination of the transforms of the initial inputs. -/
theorem return_loop (E : ImplicitConvolution) (hs : 0 < E.s) (T : Transform)
    (src1 dst src2 t : Ptrs) (n : Nat) (μ : Mem)
    (h1 : ∀ i, i < n → NoOverlap (dst i) (src2 i) E.m)
    (h2 : ∀ i, i < n → NoOverlap (dst i) (t i) E.m)
    (h3 : ∀ i j, j < i → i < n → NoOverlap (dst j) (src1 i) E.m ∧ NoOverlap (t j) (src1 i) E.m
      ∧ NoOverlap (dst j) (src2 i) E.m ∧ NoOverlap (t j) (src2 i) E.m)
    (h4 : ∀ i j, i < j → j < n → NoOverlap (dst j) (dst i) E.m ∧ NoOverlap (t j) (dst i) E.m) :
    ∃ ν, forUpToM (fun i μ => E.postmultadd (dst i) (t i)
          (fft T E.m (src2 i) (t i) (fft T E.m (src1 i) (dst i) μ))) n μ = some ν ∧
      (∀ i, i < n → arr E.m ν (dst i) = fun k =>
        (starRingEnd ℂ) (((0.5 / (E.m : ℝ) : ℝ) : ℂ) * E.zetak k)
            * restr E.m (T (arr E.m μ (src1 i))) k
          + ((0.5 / (E.m : ℝ) : ℝ) : ℂ) * restr E.m (T (arr E.m μ (src2 i))) k) ∧
      (∀ a, (∀ j, j < n → ¬ (dst j ≤ a ∧ a < dst j + E.m) ∧ ¬ (t j ≤ a ∧ a < t j + E.m)) →
        ν a = μ a) := by
  induction n with
  | zero => exact ⟨μ, rfl, fun i hi => by omega, fun a _ => rfl⟩
  | succ n ih =>
    obtain ⟨ν1, hrun1, hv1, hf1⟩ := ih (fun i hi => h1 i (by omega)) (fun i hi => h2 i (by omega))
      (fun i j hj hi => h3 i j hj (by omega)) (fun i j hj hi => h4 i j hj (by omega))
    obtain ⟨ν, hrun, hv, hf⟩ := postmultadd_eq E (dst n) (t n)
      (fft T E.m (src2 n) (t n) (fft T E.m (src1 n) (dst n) ν1)) hs (h2 n (by omega))
    have hsrc1 : arr E.m ν1 (src1 n) = arr E.m μ (src1 n) := by
      apply arr_cells
      intro k hk
      apply hf1
      intro j hj
      have := h3 n j hj (by omega)
      unfold NoOverlap at this
      omega
    have hsrc2 : arr E.m ν1 (src2 n) = arr E.m μ (src2 n) := by
      apply arr_cells
      intro k hk
      apply hf1
      intro j hj
      have := h3 n j hj (by omega)
      unfold NoOverlap at this
      omega
    refine ⟨ν, ?_, ?_, ?_⟩
    · show (forUpToM _ n μ).bind _ = _
      rw [hrun1]
      exact hrun
    · intro i hi
      by_cases hin : i = n
      · subst hin
        rw [hv, fft_arr_other _ _ _ _ _ _ (h2 i (by omega)).symm, fft_arr, fft_arr,
          fft_arr_other _ _ _ _ _ _ (h1 i (by omega)), hsrc1, hsrc2]
      · have h4n := h4 i n (by omega) (by omega)
        rw [arr_frame E.m (dst n) (dst i) _ ν hf h4n.1,
          fft_arr_other _ _ _ _ _ _ h4n.2, fft_arr_other _ _ _ _ _ _ h4n.1]
        exact hv1 i (by omega)
    · intro a ha
      rw [hf a (ha n (by omega)).1, fft_frame _ _ _ _ _ _ (ha n (by omega)).2,
        fft_frame _ _ _ _ _ _ (ha n (by omega)).1]
      exact hf1 a (fun j hj => ha j (by omega))

/-! ## The pointer arrays of `convolve` -/

theorem pointers_apply (v : Nat → Nat) (n : Nat) (P0 : Ptrs) (i : Nat) (hi : i < n) :
    forUpTo (fun i (P : Ptrs) => Function.update P i (v i)) n P0 i = v i := by
  induction n with
  | zero => omega
  | succ n ih =>
    show Function.update (forUpTo (fun i (P : Ptrs) => Function.update P i (v i)) n P0)
      n (v n) i = v i
    by_cases h : i = n
    · subst h
      rw [Function.update_same]
    · rw [Function.update_noteq h]
      exact ih (by omega)

theorem shifted_apply (P : Ptrs) (n : Nat) (W0 : Ptrs) :
    (∀ i, i < n → forUpTo (fun i (W : Ptrs) => Function.update W (1 + i - 1) (P (1 + i))) n W0 i
        = P (i + 1)) ∧
    (∀ i, n ≤ i → forUpTo (fun i (W : Ptrs) => Function.update W (1 + i - 1) (P (1 + i))) n W0 i
        = W0 i) := by
  induction n with
  | zero => exact ⟨fun i hi => by omega, fun i _ => rfl⟩
  | succ n ih =>
    have hn : 1 + n - 1 = n := by omega
    refine ⟨?_, ?_⟩
    · intro i hi
      show Function.update
        (forUpTo (fun i (W : Ptrs) => Function.update W (1 + i - 1) (P (1 + i))) n W0)
        (1 + n - 1) (P (1 + n)) i = _
      rw [hn]
      by_cases h : i = n
      · subst h
        rw [Function.update_same, Nat.add_comm]
      · rw [Function.update_noteq h]
        exact ih.1 i (by omega)
    · intro i hi
      show Function.update
        (forUpTo (fun i (W : Ptrs) => Function.update W (1 + i - 1) (P (1 + i))) n W0)
        (1 + n - 1) (P (1 + n)) i = _
      rw [hn, Function.update_noteq (by omega)]
      exact ih.2 i (by omega)

/-- The array `W` of the out-of-place branch: `W[i] = P[i+1]` for `i < A-1` and
`W[A-1] = U[A-1]`. -/
theorem W_apply (P U : Ptrs) (A : Nat) (hA : 1 ≤ A) :
    (∀ i, i + 1 < A →
      forRange 1 A (fun i (W : Ptrs) => Function.update W (i - 1) (P i))
        (Function.update (fun _ => 0) (A - 1) (U (A - 1))) i = P (i + 1)) ∧
    forRange 1 A (fun i (W : Ptrs) => Function.update W (i - 1) (P i))
        (Function.update (fun _ => 0) (A - 1) (U (A - 1))) (A - 1) = U (A - 1) := by
  have key := shifted_apply P (A - 1) (Function.update (fun _ => 0) (A - 1) (U (A - 1)))
  refine ⟨fun i hi => key.1 i (by omega), ?_⟩
  have := key.2 (A - 1) (by omega)
  unfold forRange
  rw [this, Function.update_same]

theorem premult_returns (E : ImplicitConvolution) (hs : 0 < E.s)
    (inner : Ptrs → Nat → Vec → Mem → Mem) (P : Ptrs) (μ : Mem) :
    ∃ ν, E.premult inner P μ = some ν :=
  ⟨_, forBlocks_eq_forUpTo E.m E.s hs
    (fun K k (μ : Mem) => inner P k
      (ZMULT3 (UNPACKL (tab E.ZetaH (K / E.s)) (tab E.ZetaH (K / E.s)))
        (UNPACKH (CONJ (tab E.ZetaH (K / E.s))) (tab E.ZetaH (K / E.s)))
        (tab E.ZetaL (k - K))) μ) μ⟩

theorem premultA_returns (E : ImplicitConvolution) (hs : 0 < E.s) (P : Ptrs) (μ : Mem) :
    ∃ ν, E.premultA P μ = some ν := by
  unfold ImplicitConvolution.premultA
  split <;> exact premult_returns E hs _ P μ

/-! ## The out-of-place and the in-place branch of `convolve` -/

theorem branches_of_arr (E : ImplicitConvolution) (TB TF : Transform)
    (G : Nat → Nat → (Nat → ℂ) → ℂ) (hG : ∀ i k (x y : Nat → ℂ), (∀ j, j < E.A → x j = y j) →
      G i k x = G i k y)
    (P Q : Ptrs) (μ μ4 μ5 ν : Mem) (i : Nat)
    (h4 : ∀ j, j < E.A → arr E.m μ4 (Q j) = restr E.m (TB (arr E.m μ (P j))))
    (h5 : ∀ k, k < E.m → μ5 (Q i + k) = G i k (fun j => μ4 (Q j + k)))
    (h5u : arr E.m μ5 (E.U i) = arr E.m μ (E.U i))
    (hν : arr E.m ν (P i) = fun k =>
      (starRingEnd ℂ) (((0.5 / (E.m : ℝ) : ℝ) : ℂ) * E.zetak k)
          * restr E.m (TF (arr E.m μ5 (Q i))) k
        + ((0.5 / (E.m : ℝ) : ℝ) : ℂ) * restr E.m (TF (arr E.m μ5 (E.U i))) k)
    (k : Nat) (hk : k < E.m) :
    ν (P i + k) = E.branches TB TF G P μ i k := by
  have hX : arr E.m μ5 (Q i)
      = restr E.m (fun t => G i t (fun j => restr E.m (TB (arr E.m μ (P j))) t)) := by
    funext t
    by_cases ht : t < E.m
    · rw [arr_apply _ _ _ _ ht, restr_apply _ _ _ ht, h5 t ht]
      apply hG
      intro j hj
      rw [← h4 j hj, arr_apply _ _ _ _ ht]
    · have : ¬ t < E.m := ht
      simp [arr, restr, this]
  rw [← arr_apply E.m ν (P i) k hk, hν, hX, h5u]
  rfl

/-- The out-of-place branch from the memory `μ` left by the first `premult`. -/
theorem oop_branch (E : ImplicitConvolution) (hs : 0 < E.s) (hB : 1 ≤ E.B)
    (hAB : 2 * E.B ≤ E.A) (pmult : multiplier) (G : Nat → Nat → (Nat → ℂ) → ℂ)
    (hmult : ElementwiseMult pmult E.A E.B G) (P W : Ptrs) (L : CLayout E.m E.A P E.U)
    (hW : ∀ i, i + 1 < E.A → W i = P (i + 1)) (hWl : W (E.A - 1) = E.U (E.A - 1)) (μ : Mem) :
    ∃ ν, forUpToM (fun i μ => E.postmultadd (P i) (W (E.A - 1))
          (fft E.ForwardsO E.m (E.U i) (W (E.A - 1)) (fft E.ForwardsO E.m (W i) (P i) μ))) E.B
        (pmult W E.m (forDownFrom (fun i μ => fft E.BackwardsO E.m (P i) (W i) μ) E.A μ))
        = some ν ∧
      ∀ i k, i < E.B → k < E.m → ν (P i + k) = E.branches E.BackwardsO E.ForwardsO G P μ i k := by
  have hWcase : ∀ i, i < E.A → (i + 1 < E.A ∧ W i = P (i + 1)) ∨ (i = E.A - 1 ∧ W i = E.U (E.A - 1)) := by
    intro i hi
    by_cases h : i + 1 < E.A
    · exact Or.inl ⟨h, hW i h⟩
    · have : i = E.A - 1 := by omega
      exact Or.inr ⟨this, by rw [this, hWl]⟩
  have hWW : ∀ i j, i < E.A → j < E.A → i ≠ j → NoOverlap (W i) (W j) E.m := by
    intro i j hi hj hij
    rcases hWcase i hi with ⟨h1, e1⟩ | ⟨h1, e1⟩ <;> rcases hWcase j hj with ⟨h2, e2⟩ | ⟨h2, e2⟩
    · rw [e1, e2]; exact L.pp _ _ h1 h2 (by omega)
    · rw [e1, e2]; exact L.pu _ _ h1 (by omega)
    · rw [e1, e2]; exact (L.pu _ _ h2 (by omega)).symm
    · omega
  have hWP : ∀ i j, i < E.A → j < E.A → j ≠ i + 1 → NoOverlap (W i) (P j) E.m := by
    intro i j hi hj hij
    rcases hWcase i hi with ⟨h1, e1⟩ | ⟨h1, e1⟩
    · rw [e1]; exact L.pp _ _ h1 hj (by omega)
    · rw [e1]; exact (L.pu _ _ hj (by omega)).symm
  have hWU : ∀ i j, i < E.A → j + 1 < E.A → NoOverlap (W i) (E.U j) E.m := by
    intro i j hi hj
    rcases hWcase i hi with ⟨h1, e1⟩ | ⟨h1, e1⟩
    · rw [e1]; exact L.pu _ _ h1 (by omega)
    · rw [e1]; exact L.uu _ _ (by omega) (by omega) (by omega)
  obtain ⟨hdv, hdf⟩ := fft_loop_down E.BackwardsO E.m P W E.A μ hWW
    (fun i j hij hj => hWP j i hj (by omega) (by omega))
  obtain ⟨hmv, hmf⟩ := hmult.2 W E.m
    (forDownFrom (fun i μ => fft E.BackwardsO E.m (P i) (W i) μ) E.A μ) hWW
  obtain ⟨ν, hrun, hrv, -⟩ := return_loop E hs E.ForwardsO W P E.U (fun _ => W (E.A - 1)) E.B
    (pmult W E.m (forDownFrom (fun i μ => fft E.BackwardsO E.m (P i) (W i) μ) E.A μ))
    (fun i hi => L.pu i i (by omega) (by omega))
    (fun i hi => by rw [hWl]; exact L.pu i _ (by omega) (by omega))
    (fun i j hj hi => ⟨(hWP i j (by omega) (by omega) (by omega)).symm,
      hWW _ _ (by omega) (by omega) (by omega),
      L.pu j i (by omega) (by omega),
      hWU _ i (by omega) (by omega)⟩)
    (fun i j hij hj => ⟨L.pp j i (by omega) (by omega) (by omega),
      hWP _ i (by omega) (by omega) (by omega)⟩)
  refine ⟨ν, hrun, ?_⟩
  intro i k hi hk
  refine branches_of_arr E E.BackwardsO E.ForwardsO G hmult.1 P W μ
    (forDownFrom (fun i μ => fft E.BackwardsO E.m (P i) (W i) μ) E.A μ)
    (pmult W E.m (forDownFrom (fun i μ => fft E.BackwardsO E.m (P i) (W i) μ) E.A μ))
    ν i hdv (fun k hk => hmv i k hi hk) ?_ (hrv i hi) k hk
  apply arr_cells
  intro t ht
  rw [hmf, hdf]
  · intro j hj
    have := hWU j i hj (by omega)
    unfold NoOverlap at this
    omega
  · intro j hj
    have := hWU j i (by omega) (by omega)
    unfold NoOverlap at this
    omega

/-- The in-place branch from the memory `μ` left by the first `premult`. -/
theorem inplace_branch (E : ImplicitConvolution) (hs : 0 < E.s) (hBA : E.B ≤ E.A)
    (pmult : multiplier) (G : Nat → Nat → (Nat → ℂ) → ℂ)
    (hmult : ElementwiseMult pmult E.A E.B G) (P : Ptrs) (L : CLayout E.m E.A P E.U)
    (μ : Mem) :
    ∃ ν, forUpToM (fun i μ => E.postmultadd (P i) (E.U i)
          (fft E.Forwards E.m (E.U i) (E.U i) (fft E.Forwards E.m (P i) (P i) μ))) E.B
        (pmult P E.m (forUpTo (fun i μ => fft E.Backwards E.m (P i) (P i) μ) E.A μ))
        = some ν ∧
      ∀ i k, i < E.B → k < E.m → ν (P i + k) = E.branches E.Backwards E.Forwards G P μ i k := by
  obtain ⟨hdv, hdf⟩ := fft_loop_up E.Backwards E.m P P E.A μ L.pp
    (fun i j hij hi => L.pp j i (by omega) hi (by omega))
  obtain ⟨hmv, hmf⟩ := hmult.2 P E.m
    (forUpTo (fun i μ => fft E.Backwards E.m (P i) (P i) μ) E.A μ) L.pp
  obtain ⟨ν, hrun, hrv, -⟩ := return_loop E hs E.Forwards P P E.U E.U E.B
    (pmult P E.m (forUpTo (fun i μ => fft E.Backwards E.m (P i) (P i) μ) E.A μ))
    (fun i hi => L.pu i i (by omega) (by omega))
    (fun i hi => L.pu i i (by omega) (by omega))
    (fun i j hj hi => ⟨L.pp j i (by omega) (by omega) (by omega),
      (L.pu i j (by omega) (by omega)).symm,
      L.pu j i (by omega) (by omega),
      L.uu j i (by omega) (by omega) (by omega)⟩)
    (fun i j hij hj => ⟨L.pp j i (by omega) (by omega) (by omega),
      (L.pu i j (by omega) (by omega)).symm⟩)
  refine ⟨ν, hrun, ?_⟩
  intro i k hi hk
  refine branches_of_arr E E.Backwards E.Forwards G hmult.1 P P μ
    (forUpTo (fun i μ => fft E.Backwards E.m (P i) (P i) μ) E.A μ)
    (pmult P E.m (forUpTo (fun i μ => fft E.Backwards E.m (P i) (P i) μ) E.A μ))
    ν i hdv (fun k hk => hmv i k hi hk) ?_ (hrv i hi) k hk
  apply arr_cells
  intro t ht
  rw [hmf, hdf]
  · intro j hj
    have := L.pu j i hj (by omega)
    unfold NoOverlap at this
    omega
  · intro j hj
    have := L.pu j i (by omega) (by omega)
    unfold NoOverlap at this
    omega

theorem CLayout.of_pointers (m A : Nat) (F U : Ptrs) (offset : Nat) (P : Ptrs)
    (hP : ∀ i, i < A → P i = F i + offset) (L : CLayout m A (fun i => F i + offset) U) :
    CLayout m A P U := by
  refine ⟨?_, L.uu, ?_⟩
  · intro i j hi hj hij
    rw [hP i hi, hP j hj]
    exact L.pp i j hi hj hij
  · intro i j hi hj
    rw [hP i hi]
    exact L.pu i j hi hj

/-- The out-of-place path of `convolve`, from the memory left by the first `premult`. -/
theorem convolve_oop (E : ImplicitConvolution) (hoop : E.out_of_place = true) (hs : 0 < E.s)
    (hB : 1 ≤ E.B) (hAB : 2 * E.B ≤ E.A) (pmult : multiplier)
    (G : Nat → Nat → (Nat → ℂ) → ℂ) (hmult : ElementwiseMult pmult E.A E.B G)
    (F : Ptrs) (offset : Nat) (P0 : Ptrs) (μ : Mem)
    (L : CLayout E.m E.A (fun i => F i + offset) E.U) (μ3 : Mem)
    (hpre : E.premultA (forUpTo (fun i P => Function.update P i (F i + offset)) E.A P0)
      (pmult E.U E.m (forUpTo (fun i μ => fft E.BackwardsO E.m
        (forUpTo (fun i P => Function.update P i (F i + offset)) E.A P0 i) (E.U i) μ) E.A μ))
      = some μ3) :
    ∃ ν, E.convolve F pmult offset P0 μ = some ν ∧
      ∀ i k, i < E.B → k < E.m → ν (F i + offset + k)
        = E.branches E.BackwardsO E.ForwardsO G
            (forUpTo (fun i P => Function.update P i (F i + offset)) E.A P0) μ3 i k := by
  have hPi : ∀ i, i < E.A →
      forUpTo (fun i (P : Ptrs) => Function.update P i (F i + offset)) E.A P0 i = F i + offset :=
    fun i hi => pointers_apply (fun i => F i + offset) E.A P0 i hi
  unfold ImplicitConvolution.convolve
  simp only [hoop, if_true]
  obtain ⟨P, hP⟩ : ∃ P, P = forUpTo (fun i (P : Ptrs) => Function.update P i (F i + offset))
    E.A P0 := ⟨_, rfl⟩
  rw [← hP] at hpre hPi ⊢
  rw [hpre, Option.some_bind]
  have hW := W_apply P E.U E.A (by omega)
  obtain ⟨W, hWdef⟩ : ∃ W, W = forRange 1 E.A (fun i (W : Ptrs) => Function.update W (i - 1) (P i))
    (Function.update (fun _ => 0) (E.A - 1) (E.U (E.A - 1))) := ⟨_, rfl⟩
  rw [← hWdef] at hW ⊢
  obtain ⟨ν, hrun, hv⟩ := oop_branch E hs hB hAB pmult G hmult P W
    (CLayout.of_pointers E.m E.A F E.U offset P hPi L) hW.1 hW.2 μ3
  refine ⟨ν, hrun, ?_⟩
  intro i k hi hk
  rw [← hPi i (by omega)]
  exact hv i k hi hk

/-- The in-place path of `convolve`, from the memory left by the first `premult`. -/
theorem convolve_inplace (E : ImplicitConvolution) (hoop : E.out_of_place = false)
    (hs : 0 < E.s) (hBA : E.B ≤ E.A) (pmult : multiplier)
    (G : Nat → Nat → (Nat → ℂ) → ℂ) (hmult : ElementwiseMult pmult E.A E.B G)
    (F : Ptrs) (offset : Nat) (P0 : Ptrs) (μ : Mem)
    (L : CLayout E.m E.A (fun i => F i + offset) E.U) (μ3 : Mem)
    (hpre : E.premultA (forUpTo (fun i P => Function.update P i (F i + offset)) E.A P0)
      (pmult E.U E.m (forUpTo (fun i μ => fft E.BackwardsO E.m
        (forUpTo (fun i P => Function.update P i (F i + offset)) E.A P0 i) (E.U i) μ) E.A μ))
      = some μ3) :
    ∃ ν, E.convolve F pmult offset P0 μ = some ν ∧
      ∀ i k, i < E.B → k < E.m → ν (F i + offset + k)
        = E.branches E.Backwards E.Forwards G
            (forUpTo (fun i P => Function.update P i (F i + offset)) E.A P0) μ3 i k := by
  have hPi : ∀ i, i < E.A →
      forUpTo (fun i (P : Ptrs) => Function.update P i (F i + offset)) E.A P0 i = F i + offset :=
    fun i hi => pointers_apply (fun i => F i + offset) E.A P0 i hi
  unfold ImplicitConvolution.convolve
  simp only [hoop, Bool.false_eq_true, if_false]
  obtain ⟨P, hP⟩ : ∃ P, P = forUpTo (fun i (P : Ptrs) => Function.update P i (F i + offset))
    E.A P0 := ⟨_, rfl⟩
  rw [← hP] at hpre hPi ⊢
  rw [hpre, Option.some_bind]
  obtain ⟨ν, hrun, hv⟩ := inplace_branch E hs hBA pmult G hmult P
    (CLayout.of_pointers E.m E.A F E.U offset P hPi L) μ3
  refine ⟨ν, hrun, ?_⟩
  intro i k hi hk
  rw [← hPi i (by omega)]
  exact hv i k hi hk

theorem multbinary_elementwise : ElementwiseMult multbinary 2 1 (fun _ _ x => x 0 * x 1) := by
  refine ⟨?_, ?_⟩
  · intro i k x y h
    show x 0 * x 1 = y 0 * y 1
    rw [h 0 (by omega), h 1 (by omega)]
  · intro Q m μ hQ
    have h01 := hQ 0 1 (by omega) (by omega) (by omega)
    unfold NoOverlap at h01
    refine ⟨?_, ?_⟩
    · intro i k hi hk
      have hi0 : i = 0 := by omega
      subst hi0
      rw [multbinary_apply Q m μ (by omega), if_pos (by omega)]
      have : Q 0 + k - Q 0 = k := by omega
      rw [this]
    · intro a ha
      rw [multbinary_apply Q m μ (by omega), if_neg (ha 0 (by omega))]

/-- C17: for `B ≥ 1`, `A ≥ 2B`, a block size `s ≥ 1`, buffers `F[0..A)` (at `offset`) and
`U[0..A)` of `m` cells that are pairwise apart, and a multiplier that works elementwise on
slots `0..A-1` and writes only slots `0..B-1`: when the out-of-place transforms compute the
same functions as the in-place ones, `convolve` returns on both its branches, and the
out-of-place branch leaves in `F[0..B)` the same values as the in-place branch. -/
theorem convolve_oop_eq_inplace (E : ImplicitConvolution) (hB : 1 ≤ E.B) (hAB : 2 * E.B ≤ E.A)
    (hs : 0 < E.s) (hbw : E.BackwardsO = E.Backwards) (hfw : E.ForwardsO = E.Forwards)
    (pmult : multiplier) (G : Nat → Nat → (Nat → ℂ) → ℂ)
    (hmult : ElementwiseMult pmult E.A E.B G) (F : Ptrs) (offset : Nat) (P0 : Ptrs) (μ : Mem)
    (L : CLayout E.m E.A (fun i => F i + offset) E.U) :
    ∃ ν1 ν2,
      ImplicitConvolution.convolve { E with out_of_place := true } F pmult offset P0 μ = some ν1 ∧
      ImplicitConvolution.convolve { E with out_of_place := false } F pmult offset P0 μ
        = some ν2 ∧
      ∀ i k, i < E.B → k < E.m → ν1 (F i + offset + k) = ν2 (F i + offset + k) := by
  obtain ⟨μ3, hpre⟩ := premultA_returns E hs
    (forUpTo (fun i P => Function.update P i (F i + offset)) E.A P0)
    (pmult E.U E.m (forUpTo (fun i μ => fft E.BackwardsO E.m
      (forUpTo (fun i P => Function.update P i (F i + offset)) E.A P0 i) (E.U i) μ) E.A μ))
  obtain ⟨ν1, hrun1, hv1⟩ := convolve_oop { E with out_of_place := true } rfl hs hB hAB pmult G
    hmult F offset P0 μ L μ3 hpre
  obtain ⟨ν2, hrun2, hv2⟩ := convolve_inplace { E with out_of_place := false } rfl hs
    (show E.B ≤ E.A by omega) pmult G hmult F offset P0 μ L μ3 hpre
  refine ⟨ν1, ν2, hrun1, hrun2, ?_⟩
  intro i k hi hk
  rw [hv1 i k hi hk, hv2 i k hi hk]
  show E.branches E.BackwardsO E.ForwardsO G _ μ3 i k = E.branches E.Backwards E.Forwards G _ μ3 i k
  rw [hbw, hfw]

theorem layout_example : CLayout 2 2 (fun i => ptrs [0, 2] i + 0) (ptrs [4, 6]) := by
  have hpp : ∀ i, i < 2 → ∀ j, j < 2 → i ≠ j →
      NoOverlap (ptrs [0, 2] i + 0) (ptrs [0, 2] j + 0) 2 := by decide
  have huu : ∀ i, i < 2 → ∀ j, j < 2 → i ≠ j →
      NoOverlap (ptrs [4, 6] i) (ptrs [4, 6] j) 2 := by decide
  have hpu : ∀ i, i < 2 → ∀ j, j < 2 →
      NoOverlap (ptrs [0, 2] i + 0) (ptrs [4, 6] j) 2 := by decide
  exact ⟨fun i j hi hj hij => hpp i hi j hj hij, fun i j hi hj hij => huu i hi j hj hij,
    fun i j hi hj => hpu i hi j hj⟩

/-- Witness of C16: `A = 2`, `m = 2` with the tables of `BuildZeta(4, 2)`, `F[0]` at 0 and
`F[1]` at 2. -/
theorem premult_unrolled_eq_general_witness :
    (1 ≤ (ImplicitConvolution.init 2 2 1 (ptrs [4, 6]) (dft 1 2) (dft (-1) 2)).A
      ∧ (ImplicitConvolution.init 2 2 1 (ptrs [4, 6]) (dft 1 2) (dft (-1) 2)).A ≤ 4) ∧
    ∃ ν, (ImplicitConvolution.init 2 2 1 (ptrs [4, 6]) (dft 1 2) (dft (-1) 2)).premultA
        (ptrs [0, 2]) (fun a => (a : ℂ)) = some ν ∧
      (ImplicitConvolution.init 2 2 1 (ptrs [4, 6]) (dft 1 2) (dft (-1) 2)).premult
        (premult_general 2) (ptrs [0, 2]) (fun a => (a : ℂ)) = some ν := by
  obtain ⟨ν, h1, h2, _⟩ := premult_unrolled_eq_general
    (ImplicitConvolution.init 2 2 1 (ptrs [4, 6]) (dft 1 2) (dft (-1) 2)) (by decide) (by decide)
    (show 0 < Nat.sqrt 2 from Nat.sqrt_pos.mpr (by decide)) (ptrs [0, 2]) (fun a => (a : ℂ))
    (fun i j hi hj hij => by
      have h : ∀ i, i < 2 → ∀ j, j < 2 → i ≠ j →
          NoOverlap (ptrs [0, 2] i) (ptrs [0, 2] j) 2 := by decide
      exact h i hi j hj hij)
  exact ⟨⟨by decide, by decide⟩, ν, h1, h2⟩

/-- Witness of C17: `A = 2`, `B = 1`, `m = 2` with `multbinary`, `F` at 0 and 2, `U` at 4
and 6. -/
theorem convolve_oop_eq_inplace_witness :
    (1 ≤ (ImplicitConvolution.init 2 2 1 (ptrs [4, 6]) (dft 1 2) (dft (-1) 2)).B
      ∧ 2 * (ImplicitConvolution.init 2 2 1 (ptrs [4, 6]) (dft 1 2) (dft (-1) 2)).B
        ≤ (ImplicitConvolution.init 2 2 1 (ptrs [4, 6]) (dft 1 2) (dft (-1) 2)).A) ∧
    ∃ ν1 ν2,
      ImplicitConvolution.convolve
        { ImplicitConvolution.init 2 2 1 (ptrs [4, 6]) (dft 1 2) (dft (-1) 2) with
          out_of_place := true } (ptrs [0, 2]) multbinary 0 (fun _ => 0) (fun a => (a : ℂ))
        = some ν1 ∧
      ImplicitConvolution.convolve
        { ImplicitConvolution.init 2 2 1 (ptrs [4, 6]) (dft 1 2) (dft (-1) 2) with
          out_of_place := false } (ptrs [0, 2]) multbinary 0 (fun _ => 0) (fun a => (a : ℂ))
        = some ν2 ∧
      ∀ k, k < 2 → ν1 (ptrs [0, 2] 0 + 0 + k) = ν2 (ptrs [0, 2] 0 + 0 + k) := by
  obtain ⟨ν1, ν2, h1, h2, h3⟩ := convolve_oop_eq_inplace
    (ImplicitConvolution.init 2 2 1 (ptrs [4, 6]) (dft 1 2) (dft (-1) 2)) (by decide) (by decide)
    (show 0 < Nat.sqrt 2 from Nat.sqrt_pos.mpr (by decide)) rfl rfl multbinary
    (fun _ _ x => x 0 * x 1) multbinary_elementwise (ptrs [0, 2]) 0 (fun _ => 0)
    (fun a => (a : ℂ)) layout_example
  exact ⟨⟨by decide, by decide⟩, ν1, ν2, h1, h2, fun k hk => h3 0 k (by decide) hk⟩

/-! ## The size of the zeta table and the blocked loops -/

/-- C21: for `m ≥ 1`, the two tables that `BuildZeta(n, m)` allocates hold at most
`2*floor(sqrt(m)) + 2` entries in total: `ZetaL` has `s = floor(sqrt(m))` entries and `ZetaH`
has `t = ceil(m/s)` entries with `t ≤ s + 2`. -/
theorem BuildZeta_total_size (n m : Nat) (hm : 1 ≤ m) :
    (BuildZeta n m).ZetaL.length = Nat.sqrt m ∧
    (BuildZeta n m).ZetaH.length = (m + Nat.sqrt m - 1) / Nat.sqrt m ∧
    (BuildZeta n m).ZetaH.length ≤ (BuildZeta n m).s + 2 ∧
    (BuildZeta n m).ZetaL.length + (BuildZeta n m).ZetaH.length ≤ 2 * Nat.sqrt m + 2 := by
  have hb := BuildZeta_ZetaH_length_bounds n m hm
  have hL := BuildZeta_ZetaL_length n m
  have hs : 0 < Nat.sqrt m := Nat.sqrt_pos.mpr hm
  have hlt := Nat.lt_succ_sqrt m
  have ht : (BuildZeta n m).ZetaH.length ≤ Nat.sqrt m + 2 := by
    by_contra hc
    have h3 : Nat.sqrt m + 2 ≤ (BuildZeta n m).ZetaH.length - 1 := by omega
    have h4 : Nat.sqrt m * (Nat.sqrt m + 2) ≤ Nat.sqrt m * ((BuildZeta n m).ZetaH.length - 1) :=
      Nat.mul_le_mul_left _ h3
    have h5 : Nat.succ (Nat.sqrt m) * Nat.succ (Nat.sqrt m)
        = Nat.sqrt m * (Nat.sqrt m + 2) + 1 := by
      simp only [Nat.succ_eq_add_one]
      ring
    omega
  refine ⟨hL, hb.2.2, ht, ?_⟩
  rw [hL]
  omega

/-- Witness of C21: `n = 6`, `m = 3`, where `s = 1` and `t = 3 = s + 2`. -/
theorem BuildZeta_total_size_witness :
    (1 ≤ 3) ∧ (BuildZeta 6 3).ZetaL.length + (BuildZeta 6 3).ZetaH.length ≤ 2 * Nat.sqrt 3 + 2 :=
  ⟨by decide, (BuildZeta_total_size 6 3 (by decide)).2.2.2⟩

theorem forUpTo_append_map {α : Type} (g : Nat → α) (n : Nat) (tr : List α) :
    forUpTo (fun k tr => tr ++ [g k]) n tr = tr ++ (List.range n).map g := by
  induction n with
  | zero => simp [forUpTo]
  | succ n ih =>
    show forUpTo (fun k tr => tr ++ [g k]) n tr ++ [g n] = _
    rw [ih, List.range_succ, List.map_append, List.append_assoc]
    rfl

theorem blockedVisits_eq (m s : Nat) (hs : 0 < s) :
    blockedVisits m s = some ((List.range m).map fun k => (k / s * s, k)) := by
  have h := forBlocks_eq_forUpTo m s hs
    (fun K k (tr : List (Nat × Nat)) => tr ++ [(K, k)]) []
  have h2 := forUpTo_append_map (fun k => (k / s * s, k)) m []
  rw [List.nil_append] at h2
  rw [← h2]
  exact h

/-- `premult<T>(F)` runs its inner function once for every `k < m`, in increasing order, with
the phase factor `ZetaH[k/s]*ZetaL[k%s]`. -/
theorem premult_eq_forUpTo (E : ImplicitConvolution) (hs : 0 < E.s)
    (inner : Ptrs → Nat → Vec → Mem → Mem) (P : Ptrs) (μ : Mem) :
    E.premult inner P μ = some (forUpTo (fun k => inner P k (E.zetak k)) E.m μ) := by
  have h := forBlocks_eq_forUpTo E.m E.s hs
    (fun K k (μ : Mem) => inner P k
      (ZMULT3 (UNPACKL (tab E.ZetaH (K / E.s)) (tab E.ZetaH (K / E.s)))
        (UNPACKH (CONJ (tab E.ZetaH (K / E.s))) (tab E.ZetaH (K / E.s)))
        (tab E.ZetaL (k - K))) μ) μ
  refine h.trans ?_
  congr 1
  apply forUpTo_congr
  intro k hk
  funext ν
  beta_reduce
  rw [block_zetak E hs]

/-- C22: for `m ≥ 1` and the block size `s` of `BuildZeta(n, m)`, the blocked loop
`for(K=0; K < m; K += s) for(k=K; k < min(K+s,m); ++k)` comes to an end and runs its body
at the pairs `(K, k)` with `k = 0, 1, ..., m-1` in this order, each `k` once, with
`K = (k div s)*s`; at each of them `K/s = k div s` is inside `ZetaH` and `k - K = k mod s` is
inside `ZetaL`. So `premult<T>` of an engine with these `m` and `s` runs its inner function
once for every `k < m`. -/
theorem blocked_loop_visits (n m : Nat) (hm : 1 ≤ m) :
    (∃ tr, blockedVisits m (BuildZeta n m).s = some tr ∧
      tr.map Prod.snd = List.range m ∧
      ∀ p, p ∈ tr → p.2 < m ∧ p.1 = p.2 / (BuildZeta n m).s * (BuildZeta n m).s ∧
        p.1 / (BuildZeta n m).s = p.2 / (BuildZeta n m).s ∧
        p.1 / (BuildZeta n m).s < (BuildZeta n m).ZetaH.length ∧
        p.2 - p.1 = p.2 % (BuildZeta n m).s ∧
        p.2 - p.1 < (BuildZeta n m).ZetaL.length) ∧
    (∀ (E : ImplicitConvolution), E.m = m → E.s = (BuildZeta n m).s →
      ∀ (inner : Ptrs → Nat → Vec → Mem → Mem) (P : Ptrs) (μ : Mem),
        E.premult inner P μ = some (forUpTo (fun k => inner P k (E.zetak k)) m μ)) := by
  have hs : 0 < (BuildZeta n m).s := Nat.sqrt_pos.mpr hm
  have hlen := (BuildZeta_ZetaH_length_bounds n m hm).1
  have hL := BuildZeta_ZetaL_length n m
  have hsdef : (BuildZeta n m).s = Nat.sqrt m := rfl
  refine ⟨⟨_, blockedVisits_eq m _ hs, ?_, ?_⟩, ?_⟩
  · rw [List.map_map]
    exact List.map_id _
  · intro p hp
    rw [List.mem_map] at hp
    obtain ⟨k, hk, rfl⟩ := hp
    rw [List.mem_range] at hk
    have hb := block_index (BuildZeta n m).s k hs
    refine ⟨hk, rfl, hb.1, ?_, hb.2, ?_⟩
    · show k / (BuildZeta n m).s * (BuildZeta n m).s / (BuildZeta n m).s < _
      rw [hb.1, Nat.div_lt_iff_lt_mul hs, hsdef]
      calc k < m := hk
        _ ≤ Nat.sqrt m * (BuildZeta n m).ZetaH.length := hlen
        _ = (BuildZeta n m).ZetaH.length * Nat.sqrt m := Nat.mul_comm _ _
    · show k - k / (BuildZeta n m).s * (BuildZeta n m).s < _
      rw [hb.2, hL, ← hsdef]
      exact Nat.mod_lt k hs
  · intro E hEm hEs inner P μ
    rw [← hEm]
    exact premult_eq_forUpTo E (by rw [hEs]; exact hs) inner P μ

/-- Witness of C22: `m = 5` (`s = 2`, three blocks). -/
theorem blocked_loop_visits_witness :
    (1 ≤ 5) ∧ ∃ tr, blockedVisits 5 (BuildZeta 10 5).s = some tr ∧
      tr.map Prod.snd = List.range 5 := by
  obtain ⟨⟨tr, h1, h2, _⟩, _⟩ := blocked_loop_visits 10 5 (by decide)
  exact ⟨by decide, tr, h1, h2⟩

/-! ## The order of the phases of `convolve` -/

theorem forUpTo_append_flatten {α : Type} (g : Nat → List α) (n : Nat) (tr : List α) :
    forUpTo (fun k tr => tr ++ g k) n tr = tr ++ ((List.range n).map g).flatten := by
  induction n with
  | zero => simp [forUpTo]
  | succ n ih =>
    show forUpTo (fun k tr => tr ++ g k) n tr ++ g n = _
    rw [ih, List.range_succ, List.map_append, List.flatten_append, List.append_assoc]
    simp

theorem forDownFrom_append_map {α : Type} (g : Nat → α) (n : Nat) (tr : List α) :
    forDownFrom (fun k tr => tr ++ [g k]) n tr = tr ++ (List.range n).reverse.map g := by
  induction n generalizing tr with
  | zero => simp [forDownFrom]
  | succ n ih =>
    show forDownFrom (fun k tr => tr ++ [g k]) n (tr ++ [g n]) = _
    rw [ih, List.range_succ, List.reverse_append, List.append_assoc]
    rfl

/-- The second group of backward transforms: from `A-1` down to `0` on the out-of-place
branch, from `0` up to `A-1` on the in-place branch. -/
theorem phases_eq (E : ImplicitConvolution) :
    E.phases = (List.range E.A).map Phase.backward ++ [Phase.mult, Phase.premult]
      ++ ((if E.out_of_place then (List.range E.A).reverse else List.range E.A).map
          Phase.backward
        ++ [Phase.mult]
        ++ ((List.range E.B).map fun i =>
            [Phase.forward i, Phase.forwardU i, Phase.postmultadd i]).flatten) := by
  unfold ImplicitConvolution.phases
  by_cases h : E.out_of_place = true
  · simp only [h, if_true]
    rw [forUpTo_append_flatten
      (fun i => [Phase.forward i, Phase.forwardU i, Phase.postmultadd i]),
      forDownFrom_append_map Phase.backward, forUpTo_append_map Phase.backward]
    simp
  · have h2 : E.out_of_place = false := by simpa using h
    simp only [h2, Bool.false_eq_true, if_false]
    rw [forUpTo_append_flatten
      (fun i => [Phase.forward i, Phase.forwardU i, Phase.postmultadd i]),
      forUpTo_append_map Phase.backward, forUpTo_append_map Phase.backward]
    simp

/-- C25, the claim as stated fails: for `A = 2`, `B = 1` (the configuration of the binary
convolution) the first call of `convolve` is the backward transform of `P[0]`, so it is not
true that every backward transform comes after a call of `premult`. -/
theorem convolve_first_backward_not_premultiplied :
    (ImplicitConvolution.init 2 2 1 (ptrs [4, 6]) (dft 1 2) (dft (-1) 2)).phases
      = [Phase.backward 0, Phase.backward 1, Phase.mult, Phase.premult,
          Phase.backward 1, Phase.backward 0, Phase.mult,
          Phase.forward 0, Phase.forwardU 0, Phase.postmultadd 0] ∧
    ¬ (∀ (j i : Nat), (ImplicitConvolution.init 2 2 1 (ptrs [4, 6]) (dft 1 2) (dft (-1) 2)).phases[j]?
          = some (Phase.backward i) →
        ∃ j2 : Nat, j2 < j ∧
          (ImplicitConvolution.init 2 2 1 (ptrs [4, 6]) (dft 1 2) (dft (-1) 2)).phases[j2]?
            = some Phase.premult) := by
  have hp : (ImplicitConvolution.init 2 2 1 (ptrs [4, 6]) (dft 1 2) (dft (-1) 2)).phases
      = [Phase.backward 0, Phase.backward 1, Phase.mult, Phase.premult,
          Phase.backward 1, Phase.backward 0, Phase.mult,
          Phase.forward 0, Phase.forwardU 0, Phase.postmultadd 0] := by
    decide
  refine ⟨hp, ?_⟩
  intro h
  obtain ⟨j2, hj2, -⟩ := h 0 0 (by rw [hp]; rfl)
  omega

/-- C25, amended: every call of `convolve` makes its calls in this order: the `A` backward
transforms of the even branch, on the inputs as they were passed (no call of `premult` comes
before them); the multiplier; the one call of `premult`; the `A` backward transforms of the
odd branch (from `A-1` down to `0` when out of place); the multiplier; then for each output
`i < B` the two forward transforms and `postmultadd`. -/
theorem convolve_phase_order (E : ImplicitConvolution) :
    ∃ pre post, E.phases = pre ++ [Phase.premult] ++ post ∧
      pre = (List.range E.A).map Phase.backward ++ [Phase.mult] ∧
      post = (if E.out_of_place then (List.range E.A).reverse else List.range E.A).map
          Phase.backward
        ++ [Phase.mult]
        ++ ((List.range E.B).map fun i =>
            [Phase.forward i, Phase.forwardU i, Phase.postmultadd i]).flatten ∧
      Phase.premult ∉ pre ∧ Phase.premult ∉ post := by
  refine ⟨_, _, ?_, rfl, rfl, ?_, ?_⟩
  · rw [phases_eq]
    simp
  · simp
  · simp

/-! ## `convolve` with more outputs than inputs -/

/-- For `A = 1`, `B = 2` the return loop of `convolve` runs for `i = 1` on the pointer `P[1]`,
which no statement of `convolve` has assigned: the call works on the cells that this
indeterminate pointer addresses, and a cell `c` outside them, `F[0]`, `U[0]` and `U[1]` is
left as it was. -/
theorem convolve_extra_output (E : ImplicitConvolution) (hA : E.A = 1) (hB : E.B = 2)
    (hs : 0 < E.s) (hoop : E.out_of_place = false) (F : Ptrs) (offset : Nat) (P0 : Ptrs)
    (μ : Mem) (c : Nat)
    (hfu0 : NoOverlap (F 0 + offset) (E.U 0) E.m) (hqu1 : NoOverlap (P0 1) (E.U 1) E.m)
    (hc0 : ¬ (F 0 + offset ≤ c ∧ c < F 0 + offset + E.m))
    (hc1 : ¬ (E.U 0 ≤ c ∧ c < E.U 0 + E.m))
    (hc2 : ¬ (P0 1 ≤ c ∧ c < P0 1 + E.m))
    (hc3 : ¬ (E.U 1 ≤ c ∧ c < E.U 1 + E.m)) :
    ∃ ν, E.convolve F mult_autoconvolution offset P0 μ = some ν ∧ ν c = μ c := by
  unfold ImplicitConvolution.convolve
  simp only [hA, hB, hoop, premultA_one E hA, forUpTo, forUpToM, Option.some_bind]
  have hP0 : Function.update P0 0 (F 0 + offset) 0 = F 0 + offset := rfl
  have hP1 : Function.update P0 0 (F 0 + offset) 1 = P0 1 := rfl
  generalize Function.update P0 0 (F 0 + offset) = P at hP0 hP1 ⊢
  rw [hP0]
  obtain ⟨μ3, h3, -, h3fr⟩ := premult1_eq E P
    (mult_autoconvolution E.U E.m (fft E.BackwardsO E.m (F 0 + offset) (E.U 0) μ)) hs
  rw [hP0] at h3fr
  rw [h3]
  simp only [Option.some_bind, Bool.false_eq_true, if_false]
  obtain ⟨μ8, h8, -, h8fr⟩ := postmultadd_eq E (F 0 + offset) (E.U 0)
    (fft E.Forwards E.m (E.U 0) (E.U 0)
      (fft E.Forwards E.m (F 0 + offset) (F 0 + offset)
        (mult_autoconvolution P E.m
          (fft E.Backwards E.m (F 0 + offset) (F 0 + offset) μ3)))) hs hfu0
  rw [h8, Option.some_bind, hP1]
  obtain ⟨ν, h11, -, h11fr⟩ := postmultadd_eq E (P0 1) (E.U 1)
    (fft E.Forwards E.m (E.U 1) (E.U 1) (fft E.Forwards E.m (P0 1) (P0 1) μ8)) hs hqu1
  refine ⟨ν, h11, ?_⟩
  rw [h11fr c hc2, fft_frame _ _ _ _ _ _ hc3, fft_frame _ _ _ _ _ _ hc2, h8fr c hc0,
    fft_frame _ _ _ _ _ _ hc1, fft_frame _ _ _ _ _ _ hc0, mult_autoconvolution_apply,
    if_neg (by rw [hP0]; exact hc0), fft_frame _ _ _ _ _ _ hc0, h3fr c hc0,
    mult_autoconvolution_apply, if_neg hc1, fft_frame _ _ _ _ _ _ hc1]

/-- C24 at `A = 1`, `B = 2`, `m = 1`, `F[0]` at 0, `F[1]` at 1, `U` at 2 and 3, with the
unassigned slot `P[1]` holding the address 5: `P[1]` is not `F[1] + offset`, the call works
on the cell 5 and the second output `F[1]` is left as it was. -/
theorem convolve_B_gt_A_uninitialised :
    forUpTo (fun i (P : Ptrs) => Function.update P i (ptrs [0, 1] i + 0))
        (ImplicitConvolution.init 1 1 2 (ptrs [2, 3]) (dft 1 1) (dft (-1) 1)).A (fun _ => 5) 1
      ≠ ptrs [0, 1] 1 + 0 ∧
    ∃ ν, (ImplicitConvolution.init 1 1 2 (ptrs [2, 3]) (dft 1 1) (dft (-1) 1)).convolve
        (ptrs [0, 1]) mult_autoconvolution 0 (fun _ => 5) (fun a => (a : ℂ)) = some ν ∧
      ν (ptrs [0, 1] 1 + 0) = (fun a : Nat => (a : ℂ)) (ptrs [0, 1] 1 + 0) := by
  refine ⟨by decide, ?_⟩
  exact convolve_extra_output
    (ImplicitConvolution.init 1 1 2 (ptrs [2, 3]) (dft 1 1) (dft (-1) 1)) rfl rfl
    (show 0 < Nat.sqrt 1 from Nat.sqrt_pos.mpr (by decide)) rfl (ptrs [0, 1]) 0 (fun _ => 5)
    (fun a => (a : ℂ)) (ptrs [0, 1] 1 + 0) (by decide) (by decide) (by decide) (by decide)
    (by decide) (by decide)

/-! ## The subscripts of the pointer arrays of `ImplicitHConvolution::convolve` -/

theorem forUpToM_inv {σ : Type} (Inv : σ → Prop) (body : Nat → σ → Option σ) (n : Nat) (st : σ)
    (h0 : Inv st)
    (hstep : ∀ i, i < n → ∀ st, Inv st → ∃ st2, body i st = some st2 ∧ Inv st2) :
    ∃ st2, forUpToM body n st = some st2 ∧ Inv st2 := by
  induction n with
  | zero => exact ⟨st, rfl, h0⟩
  | succ n ih =>
    obtain ⟨st1, h1, hI1⟩ := ih (fun i hi => hstep i (by omega))
    obtain ⟨st2, h2, hI2⟩ := hstep n (by omega) st1 hI1
    refine ⟨st2, ?_, hI2⟩
    show (forUpToM body n st).bind (body n) = some st2
    rw [h1]
    exact h2

theorem readAt_of_lt (a : List Nat) (i : Nat) (h : i < a.length) :
    readAt a i = some (a.getD i 0) := by
  unfold readAt
  rw [List.getElem?_eq_getElem h, List.getD_eq_getElem _ _ h]

theorem writeAt_of_lt (a : List Nat) (i v : Nat) (h : i < a.length) :
    writeAt a i v = some (a.set i v) := by
  unfold writeAt
  rw [if_pos h]

theorem forUpToM_pres {σ : Type} (Q : σ → Prop) (body : Nat → σ → Option σ) (n : Nat)
    (hstep : ∀ i st st2, i < n → Q st → body i st = some st2 → Q st2) (st st2 : σ)
    (h0 : Q st) (h : forUpToM body n st = some st2) : Q st2 := by
  induction n generalizing st2 with
  | zero =>
    have : st = st2 := Option.some.inj h
    rw [← this]
    exact h0
  | succ n ih =>
    have h2 : (forUpToM body n st).bind (body n) = some st2 := h
    rw [Option.bind_eq_some] at h2
    obtain ⟨st1, h1, h3⟩ := h2
    exact hstep n st1 st2 (by omega)
      (ih (fun i a b hi => hstep i a b (by omega)) st1 h1) h3

/-- The flag that `convolve_arrays` returns is the local constant `out_of_place`. -/
theorem convolve_arrays_flag (E : ImplicitHConvolution) (F : Ptrs) (offset : Nat) (r : HArrays)
    (h : E.convolve_arrays F offset = some r) :
    r.out_of_place = decide (E.A ≥ 2 * E.B) := by
  unfold ImplicitHConvolution.convolve_arrays at h
  simp only [Option.bind_eq_some] at h
  obtain ⟨st1, -, st2, h2, st3, h3, st4, h4, st5, h5, st6, h6, h7⟩ := h
  have e2 : st2.out_of_place = decide (E.A ≥ 2 * E.B) := by
    by_cases hd : decide (E.A ≥ 2 * E.B) = true
    · rw [if_pos hd] at h2
      simp only [Option.bind_eq_some] at h2
      obtain ⟨sa, ha, x, -, D0, -, y, -, D1, -, hb⟩ := h2
      have hsa : sa.out_of_place = decide (E.A ≥ 2 * E.B) := by
        refine forUpToM_pres (fun s => s.out_of_place = decide (E.A ≥ 2 * E.B)) _ _ ?_ _ _ rfl ha
        intro i s s2 hi hs hb
        simp only [Option.bind_eq_some] at hb
        obtain ⟨_, -, _, -, _, -, _, -, hb⟩ := hb
        rw [← Option.some.inj hb]
        exact hs
      rw [← Option.some.inj hb]
      exact hsa
    · rw [if_neg hd] at h2
      rw [← Option.some.inj h2]
  have keep : ∀ (body : Nat → HArrays → Option HArrays) (n : Nat) (s s2 : HArrays),
      (∀ i a b, body i a = some b → b.out_of_place = a.out_of_place) →
      forUpToM body n s = some s2 → s2.out_of_place = s.out_of_place := by
    intro body n s s2 hb hrun
    exact forUpToM_pres (fun x => x.out_of_place = s.out_of_place) body n
      (fun i a b _ ha hab => (hb i a b hab).trans ha) s s2 rfl hrun
  have e3 : st3.out_of_place = st2.out_of_place := by
    refine keep _ _ _ _ ?_ h3
    intro i a b hb
    simp only [Option.bind_eq_some] at hb
    obtain ⟨_, -, _, -, hb⟩ := hb
    rw [← Option.some.inj hb]
  have e4 : st4.out_of_place = st3.out_of_place := by
    refine keep _ _ _ _ ?_ h4
    intro i a b hb
    simp only [Option.bind_eq_some] at hb
    obtain ⟨_, -, _, -, hb⟩ := hb
    rw [← Option.some.inj hb]
  have e5 : st5.out_of_place = st4.out_of_place := by
    refine keep _ _ _ _ ?_ h5
    intro i a b hb
    simp only [Option.bind_eq_some] at hb
    obtain ⟨_, -, hb⟩ := hb
    rw [← Option.some.inj hb]
  have e6 : st6.out_of_place = st5.out_of_place := by
    refine keep _ _ _ _ ?_ h6
    intro i a b hb
    simp only [Option.bind_eq_some] at hb
    obtain ⟨_, -, _, -, _, -, hb⟩ := hb
    rw [← Option.some.inj hb]
  have e7 : r.out_of_place = st6.out_of_place := by
    by_cases hd : decide (E.A ≥ 2 * E.B) = true
    · rw [if_pos hd] at h7
      refine keep _ _ _ _ ?_ h7
      intro i a b hb
      simp only [Option.bind_eq_some] at hb
      obtain ⟨_, -, _, -, _, -, _, -, _, -, _, -, _, -, _, -, hb⟩ := hb
      rw [← Option.some.inj hb]
    · rw [if_neg hd] at h7
      refine keep _ _ _ _ ?_ h7
      intro i a b hb
      simp only [Option.bind_eq_some] at hb
      obtain ⟨_, -, _, -, _, -, hb⟩ := hb
      rw [← Option.some.inj hb]
  rw [e7, e6, e5, e4, e3, e2]

theorem bind_exists {σ τ : Type} (x : Option σ) (f : σ → Option τ) (Q : τ → Prop)
    (Inv : σ → Prop) (hx : ∃ a, x = some a ∧ Inv a)
    (hf : ∀ a, Inv a → ∃ r, f a = some r ∧ Q r) : ∃ r, x.bind f = some r ∧ Q r := by
  obtain ⟨a, ha, hI⟩ := hx
  rw [ha]
  exact hf a hI

/-- With `A ≥ 1`, `B ≥ 1` and `A ≥ 2B` every subscript of the pointer arrays is in bounds. -/
theorem convolve_arrays_in_bounds (E : ImplicitHConvolution) (hA : 1 ≤ E.A) (hB : 1 ≤ E.B)
    (hAB : 2 * E.B ≤ E.A) (F : Ptrs) (offset : Nat) :
    ∃ r, E.convolve_arrays F offset = some r ∧ r.Sized E.A true := by
  have hd : decide (E.A ≥ 2 * E.B) = true := decide_eq_true hAB
  unfold ImplicitHConvolution.convolve_arrays
  simp only [hd, if_true]
  -- the first loop
  refine bind_exists _ _ _ (HArrays.Sized E.A false) (forUpToM_inv _ _ _ _ ?_ ?_) ?_
  · exact ⟨List.length_replicate _ _, List.length_replicate _ _, List.length_replicate _ _,
      List.length_replicate _ _, List.length_replicate _ _, rfl⟩
  · intro i hi st hI
    obtain ⟨h1, h2, h3, h4, h5, h6⟩ := hI
    rw [writeAt_of_lt st.C0 i _ (by omega), Option.some_bind,
      writeAt_of_lt st.C1 i _ (by omega), Option.some_bind,
      writeAt_of_lt st.c2 i _ (by omega), Option.some_bind]
    exact ⟨_, rfl, by rw [List.length_set]; exact h1, by rw [List.length_set]; exact h2,
      by rw [List.length_set]; exact h3, h4, h5, h6⟩
  intro st1 hI1
  -- the arrays d0 and d1
  refine bind_exists _ _ _ (HArrays.Sized E.A true) ?_ ?_
  · refine bind_exists _ _ _ (HArrays.Sized E.A true) (forUpToM_inv _ _ _ _ ?_ ?_) ?_
    · exact ⟨hI1.1, hI1.2.1, hI1.2.2.1, hI1.2.2.2.1, hI1.2.2.2.2.1, rfl⟩
    · intro i hi st hI
      obtain ⟨h1, h2, h3, h4, h5, h6⟩ := hI
      rw [readAt_of_lt st.C0 (i + 1) (by omega), Option.some_bind,
        writeAt_of_lt st.D0 i _ (by omega), Option.some_bind,
        readAt_of_lt st.C1 (i + 1) (by omega), Option.some_bind,
        writeAt_of_lt st.D1 i _ (by omega), Option.some_bind]
      exact ⟨_, rfl, h1, h2, h3, by rw [List.length_set]; exact h4,
        by rw [List.length_set]; exact h5, h6⟩
    · intro st hI
      obtain ⟨h1, h2, h3, h4, h5, h6⟩ := hI
      rw [readAt_of_lt st.c2 (E.A - 1) (by omega), Option.some_bind,
        writeAt_of_lt st.D0 (E.A - 1) _ (by omega), Option.some_bind, Option.some_bind,
        writeAt_of_lt st.D1 (E.A - 1) _ (by omega), Option.some_bind]
      exact ⟨_, rfl, h1, h2, h3, by rw [List.length_set]; exact h4,
        by rw [List.length_set]; exact h5, h6⟩
  intro st2 hI2
  -- r=2
  refine bind_exists _ _ _ (HArrays.Sized E.A true) (forUpToM_inv _ _ _ _ hI2 ?_) ?_
  · intro i hi st hI
    beta_reduce
    rw [readAt_of_lt st.c2 i (by have := hI.2.2.1; omega), Option.some_bind, Option.some_bind]
    exact ⟨_, rfl, hI⟩
  intro st3 hI3
  -- r=0
  refine bind_exists _ _ _ (HArrays.Sized E.A true) (forUpToM_inv _ _ _ _ hI3 ?_) ?_
  · intro i hi st hI
    beta_reduce
    rw [readAt_of_lt st.C0 (E.A - 1 - i) (by have := hI.1; omega), Option.some_bind,
      readAt_of_lt st.D0 (E.A - 1 - i) (by have := hI.2.2.2.1; omega), Option.some_bind]
    exact ⟨_, rfl, hI⟩
  intro st4 hI4
  refine bind_exists _ _ _ (HArrays.Sized E.A true) (forUpToM_inv _ _ _ _ hI4 ?_) ?_
  · intro i hi st hI
    beta_reduce
    rw [readAt_of_lt st.D0 i (by have := hI.2.2.2.1; omega), Option.some_bind]
    exact ⟨_, rfl, hI⟩
  intro st5 hI5
  -- r=1
  refine bind_exists _ _ _ (HArrays.Sized E.A true) (forUpToM_inv _ _ _ _ hI5 ?_) ?_
  · intro i hi st hI
    beta_reduce
    rw [readAt_of_lt st.C1 (E.A - 1 - i) (by have := hI.2.1; omega), Option.some_bind,
      Option.some_bind,
      readAt_of_lt st.D1 (E.A - 1 - i) (by have := hI.2.2.2.2.1; omega), Option.some_bind]
    exact ⟨_, rfl, hI⟩
  intro st6 hI6
  -- Return to original space
  refine forUpToM_inv _ _ _ _ hI6 ?_
  intro i hi st hI
  obtain ⟨h1, h2, h3, h4, h5, h6⟩ := hI
  rw [readAt_of_lt st.C0 i (by omega), Option.some_bind,
    readAt_of_lt st.c2 i (by omega), Option.some_bind,
    readAt_of_lt st.C0 (i + E.B) (by omega), Option.some_bind,
    writeAt_of_lt st.c2 i _ (by omega), Option.some_bind,
    readAt_of_lt _ i (by rw [List.length_set]; omega), Option.some_bind,
    readAt_of_lt _ (E.B + i) (by rw [List.length_set]; omega), Option.some_bind,
    readAt_of_lt st.D0 i (by omega), Option.some_bind,
    readAt_of_lt st.D1 i (by omega), Option.some_bind]
  exact ⟨_, rfl, h1, h2, by rw [List.length_set]; exact h3, h4, h5, h6⟩

/-- C23: `ImplicitHConvolution::convolve` takes its out-of-place path exactly when `A ≥ 2B`
(whenever the call gets through its pointer arrays, the flag it branched on is true if and
only if `A ≥ 2B`); and for `A ≥ 1`, `B ≥ 1` with `A ≥ 2B` every subscript used into the
`A`-element pointer arrays on that path is in bounds: `c0[i+1]`, `c1[i+1]` for `i < A-1`,
`c2[A-1]`, `d0[A-1]`, `d1[A-1]`, `c0[i+B]` and `c2[B+i]` for `i < B`, and the subscripts
`i < A` and `i < B` of the loops. -/
theorem hconvolve_subscripts_in_bounds (E : ImplicitHConvolution) (F : Ptrs) (offset : Nat) :
    (∀ r, E.convolve_arrays F offset = some r → (r.out_of_place = true ↔ E.A ≥ 2 * E.B)) ∧
    (1 ≤ E.A → 1 ≤ E.B → E.A ≥ 2 * E.B →
      ∃ r, E.convolve_arrays F offset = some r ∧ r.out_of_place = true ∧
        r.C0.length = E.A ∧ r.C1.length = E.A ∧ r.c2.length = E.A ∧ r.D0.length = E.A
          ∧ r.D1.length = E.A) := by
  refine ⟨?_, ?_⟩
  · intro r hr
    rw [convolve_arrays_flag E F offset r hr, decide_eq_true_iff]
  · intro hA hB hAB
    obtain ⟨r, hr, h1, h2, h3, h4, h5, h6⟩ := convolve_arrays_in_bounds E hA hB hAB F offset
    exact ⟨r, hr, h6, h1, h2, h3, h4, h5⟩

/-- Witness of C23: `A = 4`, `B = 2`, `m = 4`. -/
theorem hconvolve_subscripts_in_bounds_witness :
    (1 ≤ (ImplicitHConvolution.init 4 4 2 (ptrs [100, 200, 300, 400]) (crdft 4) (rcdft 4)).A ∧
      1 ≤ (ImplicitHConvolution.init 4 4 2 (ptrs [100, 200, 300, 400]) (crdft 4) (rcdft 4)).B) ∧
    ∃ r, (ImplicitHConvolution.init 4 4 2 (ptrs [100, 200, 300, 400]) (crdft 4)
        (rcdft 4)).convolve_arrays (ptrs [0, 10, 20, 30]) 0 = some r ∧ r.out_of_place = true := by
  obtain ⟨r, h1, h2, _⟩ := (hconvolve_subscripts_in_bounds
    (ImplicitHConvolution.init 4 4 2 (ptrs [100, 200, 300, 400]) (crdft 4) (rcdft 4))
    (ptrs [0, 10, 20, 30]) 0).2 (by decide) (by decide) (by decide)
  exact ⟨⟨by decide, by decide⟩, r, h1, h2⟩

/-! ## Rows and columns -/

theorem row_div_mod (stride k i : Nat) (hi : i < stride) :
    (k * stride + i) / stride = k ∧ (k * stride + i) % stride = i := by
  have h1 := div_mul_block stride k (k * stride + i) (by omega) (by omega)
  have h2 := Nat.div_add_mod (k * stride + i) stride
  rw [h1, Nat.mul_comm] at h2
  exact ⟨h1, by omega⟩

/-- The transform writes, in the cell `(k, i)` of its block, the element `k` of the transform
of the column `i`. -/
theorem mfft_cell (T : Transform) (n M stride p : Nat) (μ : Mem) (k i : Nat)
    (hM : M ≤ stride) (hk : k < n) (hi : i < M) :
    mfft T n M stride p μ (p + k * stride + i)
      = T (restr n (fun j => μ (p + j * stride + i))) k := by
  obtain ⟨hd, hmod⟩ := row_div_mod stride k i (by omega)
  have ha : p + k * stride + i - p = k * stride + i := by omega
  unfold mfft
  rw [ha, hd, hmod, if_pos ⟨by omega, hk, hi⟩]
  rfl

theorem mfft_frame (T : Transform) (n M stride p : Nat) (μ : Mem) (a : Nat)
    (h : ¬ (p ≤ a ∧ (a - p) / stride < n ∧ (a - p) % stride < M)) :
    mfft T n M stride p μ a = μ a := by
  unfold mfft
  rw [if_neg h]

/-- The transform writes nothing outside the `n` rows of its block. -/
theorem mfft_outside (T : Transform) (n M stride p : Nat) (μ : Mem) (a : Nat)
    (hM : M ≤ stride) (h : a < p ∨ p + n * stride ≤ a) :
    mfft T n M stride p μ a = μ a := by
  apply mfft_frame
  rintro ⟨h1, h2, h3⟩
  rcases Nat.eq_zero_or_pos stride with h0 | h0
  · omega
  · have : n * stride ≤ a - p := by omega
    have := (Nat.le_div_iff_mul_le h0).mpr this
    omega

/-- A cell of another block of rows that lies apart from the block of the transform. -/
theorem mfft_other (T : Transform) (n M stride p : Nat) (μ : Mem) (q n2 k i : Nat)
    (hM : M ≤ stride) (hk : k < n2) (hi : i < M)
    (h : q + n2 * stride ≤ p ∨ p + n * stride ≤ q) :
    mfft T n M stride p μ (q + k * stride + i) = μ (q + k * stride + i) := by
  apply mfft_outside T n M stride p μ _ hM
  have := row_lt stride M n2 k i hM hk hi
  omega

theorem restr_congr (n : Nat) (x y : Nat → ℂ) (h : ∀ j, j < n → x j = y j) :
    restr n x = restr n y := by
  funext j
  by_cases hj : j < n
  · rw [restr_apply _ _ _ hj, restr_apply _ _ _ hj, h j hj]
  · simp [restr, hj]

/-- The forward transform of a column that holds the backward transform of `x` gives `n`
times `x`. -/
theorem mfft_inverse (B F : Transform) (n M stride p : Nat) (hBF : InversePair B F n)
    (hM : M ≤ stride) (ν : Mem) (x : Nat → ℂ) (i : Nat) (hi : i < M)
    (hν : ∀ j, j < n → ν (p + j * stride + i) = B (restr n x) j) (k : Nat) (hk : k < n) :
    mfft F n M stride p ν (p + k * stride + i) = (n : ℂ) * x k := by
  rw [mfft_cell F n M stride p ν k i hM hk hi,
    restr_congr n (fun j => ν (p + j * stride + i)) (B (restr n x)) hν]
  exact hBF x k hk

/-! ## Blocked loops that start at `k = 1` -/

theorem forRange_from_one {σ : Type} (b : Nat → σ → σ) (K hi : Nat) (st : σ) :
    forRange (max 1 K) hi b st
      = forRange K hi (fun k st => if 1 ≤ k then b k st else st) st := by
  rcases Nat.eq_zero_or_pos K with h0 | h0
  · subst h0
    have hmax : max 1 0 = 1 := rfl
    rw [hmax]
    unfold forRange
    rw [Nat.sub_zero]
    induction hi with
    | zero => rfl
    | succ n ih =>
      rcases Nat.eq_zero_or_pos n with hn | hn
      · subst hn
        rfl
      · have e1 : n + 1 - 1 = (n - 1) + 1 := by omega
        rw [e1]
        show b (1 + (n - 1)) (forUpTo (fun i => b (1 + i)) (n - 1) st)
          = (if 1 ≤ 0 + n then b (0 + n) (forUpTo _ n st) else forUpTo _ n st)
        rw [if_pos (by omega), ← ih]
        have e2 : 1 + (n - 1) = 0 + n := by omega
        rw [e2]
  · have hmax : max 1 K = K := by omega
    rw [hmax]
    apply forRange_congr
    intro k hk1 hk2
    funext s
    rw [if_pos (by omega)]

/-- A blocked loop over `[0, m)` whose inner loop starts at `max(1,K)` runs the body once for
every `k` with `1 ≤ k < m`, in increasing order. -/
theorem forBlocks_from_one {σ : Type} (m s : Nat) (hs : 0 < s) (body : Nat → Nat → σ → σ)
    (st0 : σ) :
    forBlocks m s (fun K st => forRange (max 1 K) (min (K + s) m) (fun k => body K k) st)
        m 0 st0
      = some (forUpTo (fun k st => if 1 ≤ k then body (k / s * s) k st else st) m st0) := by
  have h := forBlocks_eq_forUpTo m s hs
    (fun K k (st : σ) => if 1 ≤ k then body K k st else st) st0
  rw [← h]
  congr 1
  funext K st
  exact forRange_from_one (fun k => body K k) K (min (K + s) m) st

/-- The variable `stop` that `fft0pad` carries from block to block is `min(K+s,m)`. -/
theorem forBlocks_stop {σ : Type} (m s : Nat) (hs : 0 < s) (hsm : s ≤ m)
    (body : Nat → Nat → σ → σ) (st0 : σ) :
    (forBlocks m s (fun K (st : σ × Nat) => (body K st.2 st.1, min (st.2 + s) m)) m 0
        (st0, s)).map Prod.fst
      = forBlocks m s (fun K st => body K (min (K + s) m) st) m 0 st0 := by
  have gen : ∀ fuel q (st : σ),
      (forBlocks m s (fun K (st : σ × Nat) => (body K st.2 st.1, min (st.2 + s) m)) fuel (q * s)
          (st, min (q * s + s) m)).map Prod.fst
        = forBlocks m s (fun K st => body K (min (K + s) m) st) fuel (q * s) st := by
    intro fuel
    induction fuel with
    | zero =>
      intro q st
      by_cases h : q * s < m
      · simp only [forBlocks, if_pos h, Option.map_none']
      · simp only [forBlocks, if_neg h, Option.map_some']
    | succ fuel ih =>
      intro q st
      by_cases h : q * s < m
      · simp only [forBlocks, if_pos h]
        have hstop : min (min (q * s + s) m + s) m = min ((q + 1) * s + s) m := by
          rw [Nat.succ_mul]
          rcases Nat.le_total (q * s + s) m with h1 | h1
          · rw [Nat.min_eq_left h1]
          · rw [Nat.min_eq_right h1, Nat.min_eq_right (by omega), Nat.min_eq_right (by omega)]
        rw [hstop]
        have := ih (q + 1) (body (q * s) (min (q * s + s) m) st)
        rw [Nat.succ_mul] at this
        rw [Nat.succ_mul]
        exact this
      · simp only [forBlocks, if_neg h, Option.map_some']
  have h0 := gen m 0 st0
  simp only [Nat.zero_mul, Nat.zero_add] at h0
  rw [Nat.min_eq_left hsm] at h0
  exact h0

/-! ## The column view of stores, transforms and loops -/

theorem ColState.ext_fields (S T : ColState) (hF : ∀ r, S.F r = T.F r) (hU : ∀ r, S.U r = T.U r) :
    S = T := by
  cases S
  cases T
  simp only [ColState.mk.injEq]
  exact ⟨funext hF, funext hU⟩

theorem colView_F (f u stride Rf Ru i : Nat) (μ : Mem) (r : Nat) (hr : r < Rf) :
    (colView f u stride Rf Ru i μ).F r = μ (f + r * stride + i) := by
  show (if r < Rf then μ (f + r * stride + i) else 0) = _
  rw [if_pos hr]

theorem colView_U (f u stride Rf Ru i : Nat) (μ : Mem) (r : Nat) (hr : r < Ru) :
    (colView f u stride Rf Ru i μ).U r = μ (u + r * stride + i) := by
  show (if r < Ru then μ (u + r * stride + i) else 0) = _
  rw [if_pos hr]

/-- A store to the cell `(r0, i0)` of `f`, seen from the column `i`. -/
theorem colView_STORE_F (f u stride M Rf Ru : Nat) (hM : M ≤ stride)
    (hd : f + Rf * stride ≤ u ∨ u + Ru * stride ≤ f) (μ : Mem) (r0 i0 i : Nat) (v : ℂ)
    (hr0 : r0 < Rf) (hi0 : i0 < M) (hi : i < M) :
    colView f u stride Rf Ru i (STORE μ (f + r0 * stride + i0) v)
      = if i0 = i then (colView f u stride Rf Ru i μ).setF r0 v
        else colView f u stride Rf Ru i μ := by
  have hcell : ∀ r, f + r * stride + i = f + r0 * stride + i0 → r = r0 ∧ i = i0 := by
    intro r h
    exact row_index_inj stride M r i r0 i0 hM hi hi0 (by omega)
  have hu : ∀ r, r < Ru → u + r * stride + i ≠ f + r0 * stride + i0 := by
    intro r hr
    have h1 := row_lt stride M Ru r i hM hr hi
    have h2 := row_lt stride M Rf r0 i0 hM hr0 hi0
    omega
  by_cases hii : i0 = i
  · rw [if_pos hii]
    subst hii
    apply ColState.ext_fields
    · intro r
      show (if r < Rf then STORE μ _ v _ else 0)
        = Function.update (colView f u stride Rf Ru i0 μ).F r0 v r
      by_cases hr : r = r0
      · subst hr
        rw [if_pos hr0, STORE_same, Function.update_same]
      · rw [Function.update_noteq hr]
        show _ = (if r < Rf then μ (f + r * stride + i0) else 0)
        by_cases hrf : r < Rf
        · rw [if_pos hrf, if_pos hrf, STORE_other _ _ _ _ (fun h => hr (hcell r h).1)]
        · rw [if_neg hrf, if_neg hrf]
    · intro r
      show (if r < Ru then STORE μ _ v _ else 0) = (if r < Ru then μ _ else 0)
      by_cases hru : r < Ru
      · rw [if_pos hru, if_pos hru, STORE_other _ _ _ _ (hu r hru)]
      · rw [if_neg hru, if_neg hru]
  · rw [if_neg hii]
    apply ColState.ext_fields
    · intro r
      show (if r < Rf then STORE μ _ v _ else 0) = (if r < Rf then μ _ else 0)
      by_cases hrf : r < Rf
      · rw [if_pos hrf, if_pos hrf,
          STORE_other _ _ _ _ (fun h => hii (hcell r h).2.symm)]
      · rw [if_neg hrf, if_neg hrf]
    · intro r
      show (if r < Ru then STORE μ _ v _ else 0) = (if r < Ru then μ _ else 0)
      by_cases hru : r < Ru
      · rw [if_pos hru, if_pos hru, STORE_other _ _ _ _ (hu r hru)]
      · rw [if_neg hru, if_neg hru]

/-- A store to the cell `(r0, i0)` of `u`, seen from the column `i`. -/
theorem colView_STORE_U (f u stride M Rf Ru : Nat) (hM : M ≤ stride)
    (hd : f + Rf * stride ≤ u ∨ u + Ru * stride ≤ f) (μ : Mem) (r0 i0 i : Nat) (v : ℂ)
    (hr0 : r0 < Ru) (hi0 : i0 < M) (hi : i < M) :
    colView f u stride Rf Ru i (STORE μ (u + r0 * stride + i0) v)
      = if i0 = i then (colView f u stride Rf Ru i μ).setU r0 v
        else colView f u stride Rf Ru i μ := by
  have hcell : ∀ r, u + r * stride + i = u + r0 * stride + i0 → r = r0 ∧ i = i0 := by
    intro r h
    exact row_index_inj stride M r i r0 i0 hM hi hi0 (by omega)
  have hf : ∀ r, r < Rf → f + r * stride + i ≠ u + r0 * stride + i0 := by
    intro r hr
    have h1 := row_lt stride M Rf r i hM hr hi
    have h2 := row_lt stride M Ru r0 i0 hM hr0 hi0
    omega
  by_cases hii : i0 = i
  · rw [if_pos hii]
    subst hii
    apply ColState.ext_fields
    · intro r
      show (if r < Rf then STORE μ _ v _ else 0) = (if r < Rf then μ _ else 0)
      by_cases hrf : r < Rf
      · rw [if_pos hrf, if_pos hrf, STORE_other _ _ _ _ (hf r hrf)]
      · rw [if_neg hrf, if_neg hrf]
    · intro r
      show (if r < Ru then STORE μ _ v _ else 0)
        = Function.update (colView f u stride Rf Ru i0 μ).U r0 v r
      by_cases hr : r = r0
      · subst hr
        rw [if_pos hr0, STORE_same, Function.update_same]
      · rw [Function.update_noteq hr]
        show _ = (if r < Ru then μ (u + r * stride + i0) else 0)
        by_cases hru : r < Ru
        · rw [if_pos hru, if_pos hru, STORE_other _ _ _ _ (fun h => hr (hcell r h).1)]
        · rw [if_neg hru, if_neg hru]
  · rw [if_neg hii]
    apply ColState.ext_fields
    · intro r
      show (if r < Rf then STORE μ _ v _ else 0) = (if r < Rf then μ _ else 0)
      by_cases hrf : r < Rf
      · rw [if_pos hrf, if_pos hrf, STORE_other _ _ _ _ (hf r hrf)]
      · rw [if_neg hrf, if_neg hrf]
    · intro r
      show (if r < Ru then STORE μ _ v _ else 0) = (if r < Ru then μ _ else 0)
      by_cases hru : r < Ru
      · rw [if_pos hru, if_pos hru,
          STORE_other _ _ _ _ (fun h => hii (hcell r h).2.symm)]
      · rw [if_neg hru, if_neg hru]

theorem row_shift (p r0 j stride i : Nat) :
    p + r0 * stride + j * stride + i = p + (r0 + j) * stride + i := by
  rw [Nat.add_mul]
  omega

/-- The transform of the rows `r0 ≤ r < r0 + n` of `f`, seen from the column `i`. -/
theorem colView_mfft_F (f u stride M Rf Ru : Nat) (hM : M ≤ stride)
    (hd : f + Rf * stride ≤ u ∨ u + Ru * stride ≤ f) (T : Transform) (n r0 : Nat)
    (hn : r0 + n ≤ Rf) (μ : Mem) (i : Nat) (hi : i < M) :
    colView f u stride Rf Ru i (mfft T n M stride (f + r0 * stride) μ)
      = (colView f u stride Rf Ru i μ).fftF T n r0 := by
  have hRf : (r0 + n) * stride ≤ Rf * stride := Nat.mul_le_mul_right _ hn
  rw [Nat.add_mul] at hRf
  apply ColState.ext_fields
  · intro r
    show (if r < Rf then mfft T n M stride (f + r0 * stride) μ (f + r * stride + i) else 0)
      = (if r0 ≤ r ∧ r < r0 + n then
          T (restr n (fun j => (colView f u stride Rf Ru i μ).F (r0 + j))) (r - r0)
        else (colView f u stride Rf Ru i μ).F r)
    by_cases hin : r0 ≤ r ∧ r < r0 + n
    · rw [if_pos hin, if_pos (by omega)]
      have haddr : f + r * stride + i = f + r0 * stride + (r - r0) * stride + i := by
        rw [row_shift]
        have : r0 + (r - r0) = r := by omega
        rw [this]
      rw [haddr, mfft_cell T n M stride _ μ (r - r0) i hM (by omega) hi]
      congr 1
      apply restr_congr
      intro j hj
      rw [colView_F _ _ _ _ _ _ _ _ (by omega), row_shift]
    · rw [if_neg hin]
      show _ = (if r < Rf then μ (f + r * stride + i) else 0)
      by_cases hr : r < Rf
      · rw [if_pos hr, if_pos hr]
        apply mfft_outside T n M stride _ μ _ hM
        by_cases hlt : r < r0
        · left
          have := row_lt stride M r0 r i hM hlt hi
          omega
        · right
          have h1 : (r0 + n) * stride ≤ r * stride := Nat.mul_le_mul_right _ (by omega)
          rw [Nat.add_mul] at h1
          omega
      · rw [if_neg hr, if_neg hr]
  · intro r
    show (if r < Ru then mfft T n M stride (f + r0 * stride) μ (u + r * stride + i) else 0)
      = (if r < Ru then μ (u + r * stride + i) else 0)
    by_cases hr : r < Ru
    · rw [if_pos hr, if_pos hr]
      apply mfft_outside T n M stride _ μ _ hM
      have := row_lt stride M Ru r i hM hr hi
      omega
    · rw [if_neg hr, if_neg hr]

/-- The transform of the rows `r0 ≤ r < r0 + n` of `u`, seen from the column `i`. -/
theorem colView_mfft_U (f u stride M Rf Ru : Nat) (hM : M ≤ stride)
    (hd : f + Rf * stride ≤ u ∨ u + Ru * stride ≤ f) (T : Transform) (n r0 : Nat)
    (hn : r0 + n ≤ Ru) (μ : Mem) (i : Nat) (hi : i < M) :
    colView f u stride Rf Ru i (mfft T n M stride (u + r0 * stride) μ)
      = (colView f u stride Rf Ru i μ).fftU T n r0 := by
  have hRu : (r0 + n) * stride ≤ Ru * stride := Nat.mul_le_mul_right _ hn
  rw [Nat.add_mul] at hRu
  apply ColState.ext_fields
  · intro r
    show (if r < Rf then mfft T n M stride (u + r0 * stride) μ (f + r * stride + i) else 0)
      = (if r < Rf then μ (f + r * stride + i) else 0)
    by_cases hr : r < Rf
    · rw [if_pos hr, if_pos hr]
      apply mfft_outside T n M stride _ μ _ hM
      have := row_lt stride M Rf r i hM hr hi
      omega
    · rw [if_neg hr, if_neg hr]
  · intro r
    show (if r < Ru then mfft T n M stride (u + r0 * stride) μ (u + r * stride + i) else 0)
      = (if r0 ≤ r ∧ r < r0 + n then
          T (restr n (fun j => (colView f u stride Rf Ru i μ).U (r0 + j))) (r - r0)
        else (colView f u stride Rf Ru i μ).U r)
    by_cases hin : r0 ≤ r ∧ r < r0 + n
    · rw [if_pos hin, if_pos (by omega)]
      have haddr : u + r * stride + i = u + r0 * stride + (r - r0) * stride + i := by
        rw [row_shift]
        have : r0 + (r - r0) = r := by omega
        rw [this]
      rw [haddr, mfft_cell T n M stride _ μ (r - r0) i hM (by omega) hi]
      congr 1
      apply restr_congr
      intro j hj
      rw [colView_U _ _ _ _ _ _ _ _ (by omega), row_shift]
    · rw [if_neg hin]
      show _ = (if r < Ru then μ (u + r * stride + i) else 0)
      by_cases hr : r < Ru
      · rw [if_pos hr, if_pos hr]
        apply mfft_outside T n M stride _ μ _ hM
        by_cases hlt : r < r0
        · left
          have := row_lt stride M r0 r i hM hlt hi
          omega
        · right
          have h1 : (r0 + n) * stride ≤ r * stride := Nat.mul_le_mul_right _ (by omega)
          rw [Nat.add_mul] at h1
          omega
      · rw [if_neg hr, if_neg hr]

/-! ## Loops, seen from one column -/

/-- A loop over the columns whose round `i2` only acts, as `abs`, on the column `i2`. -/
theorem view_iloop (V : Mem → ColState) (step : Nat → Mem → Mem) (abs : ColState → ColState)
    (M i : Nat) (hi : i < M)
    (h : ∀ i2 μ, i2 < M → V (step i2 μ) = if i2 = i then abs (V μ) else V μ) (μ : Mem) :
    V (forUpTo step M μ) = abs (V μ) := by
  have gen : ∀ n, n ≤ M → V (forUpTo step n μ) = if i < n then abs (V μ) else V μ := by
    intro n
    induction n with
    | zero =>
      intro _
      rw [if_neg (by omega)]
      rfl
    | succ n ih =>
      intro hn
      show V (step n (forUpTo step n μ)) = _
      rw [h n _ (by omega), ih (by omega)]
      by_cases hni : n = i
      · rw [if_pos hni, if_neg (by omega), if_pos (by omega)]
      · rw [if_neg hni]
        by_cases hlt : i < n
        · rw [if_pos hlt, if_pos (by omega)]
        · rw [if_neg hlt, if_neg (by omega)]
  rw [gen M (Nat.le_refl M), if_pos hi]

/-- A loop over the rows `k < m` with an inner loop over the columns. -/
theorem view_rows (V : Mem → ColState) (step : Nat → Nat → Mem → Mem)
    (abs : Nat → ColState → ColState) (m M i : Nat) (hi : i < M)
    (h : ∀ k i2 μ, k < m → i2 < M → V (step k i2 μ) = if i2 = i then abs k (V μ) else V μ)
    (μ : Mem) :
    V (forUpTo (fun k μ => forUpTo (fun i2 μ => step k i2 μ) M μ) m μ)
      = forUpTo abs m (V μ) := by
  induction m with
  | zero => rfl
  | succ n ih =>
    show V (forUpTo (fun i2 μ => step n i2 μ) M _) = abs n (forUpTo abs n (V μ))
    rw [view_iloop V (fun i2 μ => step n i2 μ) (abs n) M i hi
      (fun i2 μ hi2 => h n i2 μ (by omega) hi2), ih (fun k i2 μ hk => h k i2 μ (by omega))]

/-- The blocked loop over the rows `k < m` with an inner loop over the columns. -/
theorem view_blocks (V : Mem → ColState) (body : Nat → Nat → Nat → Mem → Mem)
    (abs : Nat → ColState → ColState) (m s M i : Nat) (hs : 0 < s) (hi : i < M)
    (h : ∀ k i2 μ, k < m → i2 < M →
      V (body (k / s * s) k i2 μ) = if i2 = i then abs k (V μ) else V μ)
    (μ : Mem) :
    ∃ ν, forBlocks m s (fun K μ => forRange K (min (K + s) m) (fun k μ =>
        forUpTo (fun i μ => body K k i μ) M μ) μ) m 0 μ = some ν
      ∧ V ν = forUpTo abs m (V μ) := by
  refine ⟨_, forBlocks_eq_forUpTo m s hs
    (fun K k (μ : Mem) => forUpTo (fun i μ => body K k i μ) M μ) μ, ?_⟩
  exact view_rows V (fun k i2 μ => body (k / s * s) k i2 μ) abs m M i hi h μ

/-- The blocked loop over the rows `1 ≤ k < m` with an inner loop over the columns. -/
theorem view_blocks_from_one (V : Mem → ColState) (body : Nat → Nat → Nat → Mem → Mem)
    (abs : Nat → ColState → ColState) (m s M i : Nat) (hs : 0 < s) (hi : i < M)
    (h : ∀ k i2 μ, 1 ≤ k → k < m → i2 < M →
      V (body (k / s * s) k i2 μ) = if i2 = i then abs k (V μ) else V μ)
    (μ : Mem) :
    ∃ ν, forBlocks m s (fun K μ => forRange (max 1 K) (min (K + s) m) (fun k μ =>
        forUpTo (fun i μ => body K k i μ) M μ) μ) m 0 μ = some ν
      ∧ V ν = forUpTo (fun k S => if 1 ≤ k then abs k S else S) m (V μ) := by
  refine ⟨_, forBlocks_from_one m s hs
    (fun K k (μ : Mem) => forUpTo (fun i μ => body K k i μ) M μ) μ, ?_⟩
  have hcongr : forUpTo (fun k (st : Mem) =>
        if 1 ≤ k then forUpTo (fun i μ => body (k / s * s) k i μ) M st else st) m μ
      = forUpTo (fun k μ => forUpTo (fun i2 μ =>
          if 1 ≤ k then body (k / s * s) k i2 μ else μ) M μ) m μ := by
    apply forUpTo_congr
    intro k hk
    funext st
    by_cases h1 : 1 ≤ k
    · simp only [if_pos h1]
    · simp only [if_neg h1]
      clear hi h
      induction M with
      | zero => rfl
      | succ n ih => exact ih
  rw [hcongr]
  refine view_rows V (fun k i2 μ => if 1 ≤ k then body (k / s * s) k i2 μ else μ)
    (fun k S => if 1 ≤ k then abs k S else S) m M i hi ?_ μ
  intro k i2 ν hk hi2
  by_cases h1 : 1 ≤ k
  · simp only [if_pos h1]
    exact h k i2 ν h1 hk hi2
  · simp only [if_neg h1, ite_self]

/-- The blocked loop of `fft0pad`, which carries `stop` from block to block. -/
theorem view_blocks_stop (V : Mem → ColState) (body : Nat → Nat → Nat → Mem → Mem)
    (abs : Nat → ColState → ColState) (m s M i : Nat) (hs : 0 < s) (hsm : s ≤ m) (hi : i < M)
    (h : ∀ k i2 μ, 1 ≤ k → k < m → i2 < M →
      V (body (k / s * s) k i2 μ) = if i2 = i then abs k (V μ) else V μ)
    (μ : Mem) :
    ∃ st, forBlocks m s (fun K (st : Mem × Nat) =>
        (forRange (max 1 K) st.2 (fun k μ => forUpTo (fun i μ => body K k i μ) M μ) st.1,
          min (st.2 + s) m)) m 0 (μ, s) = some st
      ∧ V st.1 = forUpTo (fun k S => if 1 ≤ k then abs k S else S) m (V μ) := by
  obtain ⟨ν, hν, hV⟩ := view_blocks_from_one V body abs m s M i hs hi h μ
  have h2 := forBlocks_stop m s hs hsm
    (fun K stop (μ : Mem) =>
      forRange (max 1 K) stop (fun k μ => forUpTo (fun i μ => body K k i μ) M μ) μ) μ
  rw [hν, Option.map_eq_some'] at h2
  obtain ⟨st, hst, hfst⟩ := h2
  refine ⟨st, hst, ?_⟩
  rw [hfst]
  exact hV

/-! ## Closed forms of loops on one column -/

theorem ColState.setF_F (S : ColState) (r : Nat) (v : ℂ) (q : Nat) :
    (S.setF r v).F q = if q = r then v else S.F q := by
  show Function.update S.F r v q = _
  by_cases h : q = r
  · rw [if_pos h, h, Function.update_same]
  · rw [if_neg h, Function.update_noteq h]

theorem ColState.setU_U (S : ColState) (r : Nat) (v : ℂ) (q : Nat) :
    (S.setU r v).U q = if q = r then v else S.U q := by
  show Function.update S.U r v q = _
  by_cases h : q = r
  · rw [if_pos h, h, Function.update_same]
  · rw [if_neg h, Function.update_noteq h]

/-- A loop that sets the row `k` of `f` from the rows `k` of `f` and of `u`. -/
theorem forUpTo_setF_diag (g : Nat → ℂ → ℂ → ℂ) (m : Nat) (S : ColState) :
    forUpTo (fun k S => S.setF k (g k (S.F k) (S.U k))) m S
      = { F := fun r => if r < m then g r (S.F r) (S.U r) else S.F r, U := S.U } := by
  induction m with
  | zero =>
    apply ColState.ext_fields
    · intro r
      show S.F r = if r < 0 then g r (S.F r) (S.U r) else S.F r
      rw [if_neg (by omega)]
    · intro r
      rfl
  | succ n ih =>
    show ColState.setF (forUpTo _ n S) n _ = _
    rw [ih]
    apply ColState.ext_fields
    · intro r
      rw [ColState.setF_F]
      show (if r = n then g n (if n < n then g n (S.F n) (S.U n) else S.F n) (S.U n)
          else if r < n then g r (S.F r) (S.U r) else S.F r)
        = if r < n + 1 then g r (S.F r) (S.U r) else S.F r
      by_cases hr : r = n
      · subst hr
        rw [if_pos rfl, if_neg (by omega), if_pos (by omega)]
      · rw [if_neg hr]
        by_cases hlt : r < n
        · rw [if_pos hlt, if_pos (by omega)]
        · rw [if_neg hlt, if_neg (by omega)]
    · intro r
      rfl

/-- A loop that sets the row `k` of `u` from the rows `k` of `f` and of `u`. -/
theorem forUpTo_setU_diag (g : Nat → ℂ → ℂ → ℂ) (m : Nat) (S : ColState) :
    forUpTo (fun k S => S.setU k (g k (S.F k) (S.U k))) m S
      = { F := S.F, U := fun r => if r < m then g r (S.F r) (S.U r) else S.U r } := by
  induction m with
  | zero =>
    apply ColState.ext_fields
    · intro r
      rfl
    · intro r
      show S.U r = if r < 0 then g r (S.F r) (S.U r) else S.U r
      rw [if_neg (by omega)]
  | succ n ih =>
    show ColState.setU (forUpTo _ n S) n _ = _
    rw [ih]
    apply ColState.ext_fields
    · intro r
      rfl
    · intro r
      rw [ColState.setU_U]
      show (if r = n then g n (S.F n) (if n < n then g n (S.F n) (S.U n) else S.U n)
          else if r < n then g r (S.F r) (S.U r) else S.U r)
        = if r < n + 1 then g r (S.F r) (S.U r) else S.U r
      by_cases hr : r = n
      · subst hr
        rw [if_pos rfl, if_neg (by omega), if_pos (by omega)]
      · rw [if_neg hr]
        by_cases hlt : r < n
        · rw [if_pos hlt, if_pos (by omega)]
        · rw [if_neg hlt, if_neg (by omega)]

/-- The forward transform of rows that hold the backward transform of the rows of `S`. -/
theorem fftF_inverse (B F : Transform) (n r0 : Nat) (hBF : InversePair B F n) (S S2 : ColState)
    (h : ∀ j, j < n → S2.F (r0 + j) = B (restr n (fun j => S.F (r0 + j))) j) (r : Nat)
    (hr : r0 ≤ r ∧ r < r0 + n) :
    (S2.fftF F n r0).F r = (n : ℂ) * S.F r := by
  show (if r0 ≤ r ∧ r < r0 + n then F (restr n (fun j => S2.F (r0 + j))) (r - r0) else S2.F r)
    = _
  rw [if_pos hr, restr_congr n (fun j => S2.F (r0 + j)) (B (restr n (fun j => S.F (r0 + j)))) h,
    hBF (fun j => S.F (r0 + j)) (r - r0) (by omega)]
  have : r0 + (r - r0) = r := by omega
  rw [this]

theorem fftU_inverse (B F : Transform) (n r0 : Nat) (hBF : InversePair B F n) (S S2 : ColState)
    (h : ∀ j, j < n → S2.U (r0 + j) = B (restr n (fun j => S.U (r0 + j))) j) (r : Nat)
    (hr : r0 ≤ r ∧ r < r0 + n) :
    (S2.fftU F n r0).U r = (n : ℂ) * S.U r := by
  show (if r0 ≤ r ∧ r < r0 + n then F (restr n (fun j => S2.U (r0 + j))) (r - r0) else S2.U r)
    = _
  rw [if_pos hr, restr_congr n (fun j => S2.U (r0 + j)) (B (restr n (fun j => S.U (r0 + j)))) h,
    hBF (fun j => S.U (r0 + j)) (r - r0) (by omega)]
  have : r0 + (r - r0) = r := by omega
  rw [this]

theorem fftF_at (T : Transform) (n r0 : Nat) (S : ColState) (j : Nat) (hj : j < n) :
    (S.fftF T n r0).F (r0 + j) = T (restr n (fun j => S.F (r0 + j))) j := by
  show (if r0 ≤ r0 + j ∧ r0 + j < r0 + n then
    T (restr n (fun j => S.F (r0 + j))) (r0 + j - r0) else S.F (r0 + j)) = _
  rw [if_pos (by omega), Nat.add_sub_cancel_left]

theorem fftU_at (T : Transform) (n r0 : Nat) (S : ColState) (j : Nat) (hj : j < n) :
    (S.fftU T n r0).U (r0 + j) = T (restr n (fun j => S.U (r0 + j))) j := by
  show (if r0 ≤ r0 + j ∧ r0 + j < r0 + n then
    T (restr n (fun j => S.U (r0 + j))) (r0 + j - r0) else S.U (r0 + j)) = _
  rw [if_pos (by omega), Nat.add_sub_cancel_left]

/-! ## `fftpad` on one column -/

/-- `fftpad::expand` on the column `i`: `u[k] = z_k*f[k]`. -/
theorem expand_view (E : fftpad) (hs : 0 < E.s) (hM : E.M ≤ E.stride) (f u : Nat) (μ : Mem)
    (hd : f + E.m * E.stride ≤ u ∨ u + E.m * E.stride ≤ f) (i : Nat) (hi : i < E.M) :
    ∃ ν, E.expand f u μ = some ν ∧
      colView f u E.stride E.m E.m i ν
        = { F := (colView f u E.stride E.m E.m i μ).F
            U := fun r => if r < E.m then E.zetak r * (colView f u E.stride E.m E.m i μ).F r
              else (colView f u E.stride E.m E.m i μ).U r } := by
  obtain ⟨ν, hrun, hV⟩ := view_blocks (colView f u E.stride E.m E.m i)
    (fun K k i μ => STORE μ (u + k * E.stride + i)
      (ZMULT3 (UNPACKL (ZMULT (tab E.ZetaH (K / E.s)) (tab E.ZetaL (k - K)))
          (ZMULT (tab E.ZetaH (K / E.s)) (tab E.ZetaL (k - K))))
        (UNPACKH (CONJ (ZMULT (tab E.ZetaH (K / E.s)) (tab E.ZetaL (k - K))))
          (ZMULT (tab E.ZetaH (K / E.s)) (tab E.ZetaL (k - K))))
        (LOAD μ (f + k * E.stride + i))))
    (fun k S => S.setU k ((fun k x _ => E.zetak k * x) k (S.F k) (S.U k)))
    E.m E.s E.M i hs hi
    (fun k i2 ν hk hi2 => by
      rw [colView_STORE_U f u E.stride E.M E.m E.m hM hd ν k i2 i _ hk hi2 hi]
      by_cases hii : i2 = i
      · subst hii
        rw [if_pos rfl, if_pos rfl, ZMULT3_unpack, ZMULT_eq_mul, (block_index E.s k hs).1,
          (block_index E.s k hs).2]
        simp only [LOAD]
        rw [← colView_F f u E.stride E.m E.m i2 ν k hk]
        rfl
      · rw [if_neg hii, if_neg hii]) μ
  exact ⟨ν, hrun, hV.trans (forUpTo_setU_diag (fun k x _ => E.zetak k * x) E.m _)⟩

/-- `fftpad::reduce` on the column `i`: `f[k] = (f[k] + conj(z_k)*u[k])/(2m)`. -/
theorem reduce_view (E : fftpad) (hm : 1 ≤ E.m) (hs : 0 < E.s) (hM : E.M ≤ E.stride)
    (f u : Nat) (μ : Mem)
    (hd : f + E.m * E.stride ≤ u ∨ u + E.m * E.stride ≤ f) (i : Nat) (hi : i < E.M) :
    ∃ ν, E.reduce f u μ = some ν ∧
      colView f u E.stride E.m E.m i ν
        = { F := fun r => if r < E.m then
                ((colView f u E.stride E.m E.m i μ).F r
                  + (starRingEnd ℂ) (E.zetak r) * (colView f u E.stride E.m E.m i μ).U r)
                  / (2 * (E.m : ℂ))
              else (colView f u E.stride E.m E.m i μ).F r
            U := (colView f u E.stride E.m E.m i μ).U } := by
  obtain ⟨ν, hrun, hV⟩ := view_blocks (colView f u E.stride E.m E.m i)
    (fun K k i μ => STORE μ (f + k * E.stride + i)
      (vmul (LOAD μ (f + k * E.stride + i)) (LOADd (0.5 / (E.m : ℝ)))
        + ZMULT3
          (UNPACKL (ZMULT (vmul (LOADd (0.5 / (E.m : ℝ))) (tab E.ZetaH (K / E.s)))
              (tab E.ZetaL (k - K)))
            (ZMULT (vmul (LOADd (0.5 / (E.m : ℝ))) (tab E.ZetaH (K / E.s)))
              (tab E.ZetaL (k - K))))
          (UNPACKH (ZMULT (vmul (LOADd (0.5 / (E.m : ℝ))) (tab E.ZetaH (K / E.s)))
              (tab E.ZetaL (k - K)))
            (CONJ (ZMULT (vmul (LOADd (0.5 / (E.m : ℝ))) (tab E.ZetaH (K / E.s)))
              (tab E.ZetaL (k - K)))))
          (LOAD μ (u + k * E.stride + i))))
    (fun k S => S.setF k ((fun k x y =>
      (x + (starRingEnd ℂ) (E.zetak k) * y) / (2 * (E.m : ℂ))) k (S.F k) (S.U k)))
    E.m E.s E.M i hs hi
    (fun k i2 ν hk hi2 => by
      rw [colView_STORE_F f u E.stride E.M E.m E.m hM hd ν k i2 i _ hk hi2 hi]
      by_cases hii : i2 = i
      · subst hii
        rw [if_pos rfl, if_pos rfl, ZMULT3_unpack_conj, ZMULT_eq_mul, vmul_LOADd,
          vmul_LOADd_right, (block_index E.s k hs).1, (block_index E.s k hs).2]
        simp only [LOAD]
        rw [mul_assoc, ninv_sum_cast E.m hm, ← colView_F f u E.stride E.m E.m i2 ν k hk,
          ← colView_U f u E.stride E.m E.m i2 ν k hk]
        rfl
      · rw [if_neg hii, if_neg hii]) μ
  exact ⟨ν, hrun, hV.trans (forUpTo_setF_diag
    (fun k x y => (x + (starRingEnd ℂ) (E.zetak k) * y) / (2 * (E.m : ℂ))) E.m _)⟩

theorem colView_mfft_F0 (f u stride M Rf Ru : Nat) (hM : M ≤ stride)
    (hd : f + Rf * stride ≤ u ∨ u + Ru * stride ≤ f) (T : Transform) (n : Nat)
    (hn : n ≤ Rf) (μ : Mem) (i : Nat) (hi : i < M) :
    colView f u stride Rf Ru i (mfft T n M stride f μ)
      = (colView f u stride Rf Ru i μ).fftF T n 0 := by
  have h := colView_mfft_F f u stride M Rf Ru hM hd T n 0 (by omega) μ i hi
  rw [Nat.zero_mul, Nat.add_zero] at h
  exact h

theorem colView_mfft_U0 (f u stride M Rf Ru : Nat) (hM : M ≤ stride)
    (hd : f + Rf * stride ≤ u ∨ u + Ru * stride ≤ f) (T : Transform) (n : Nat)
    (hn : n ≤ Ru) (μ : Mem) (i : Nat) (hi : i < M) :
    colView f u stride Rf Ru i (mfft T n M stride u μ)
      = (colView f u stride Rf Ru i μ).fftU T n 0 := by
  have h := colView_mfft_U f u stride M Rf Ru hM hd T n 0 (by omega) μ i hi
  rw [Nat.zero_mul, Nat.add_zero] at h
  exact h

theorem expand_returns (E : fftpad) (hs : 0 < E.s) (f u : Nat) (μ : Mem) :
    ∃ ν, E.expand f u μ = some ν :=
  ⟨_, forBlocks_eq_forUpTo E.m E.s hs _ μ⟩

theorem reduce_returns (E : fftpad) (hs : 0 < E.s) (f u : Nat) (μ : Mem) :
    ∃ ν, E.reduce f u μ = some ν :=
  ⟨_, forBlocks_eq_forUpTo E.m E.s hs _ μ⟩

theorem roundtrip_two (m : Nat) (hm : 1 ≤ m) (z x : ℂ) (hz : (starRingEnd ℂ) z * z = 1) :
    ((m : ℂ) * x + (starRingEnd ℂ) z * ((m : ℂ) * (z * x))) / (2 * (m : ℂ)) = x := by
  have hmC : (m : ℂ) ≠ 0 := by
    have : 0 < m := hm
    exact_mod_cast this.ne'
  have h2 : (starRingEnd ℂ) z * ((m : ℂ) * (z * x)) = (m : ℂ) * x * ((starRingEnd ℂ) z * z) := by
    ring
  rw [h2, hz]
  field_simp
  ring

/-- C27: for `m ≥ 1`, a block size `s ≥ 1`, rows of `M ≤ stride` cells, buffers `f`, `u` of
`m*stride` cells that do not overlap, phase factors `z_k = ZetaH[k/s]*ZetaL[k mod s]` of
modulus one, and plans with `Forwards` after `Backwards` equal to `m` times the identity:
`fftpad::backwards(f, u)` followed by `fftpad::forwards(f, u)` returns and restores
`f[k*stride + i]` for every `k < m` and `i < M`. -/
theorem fftpad_roundtrip (E : fftpad) (hm : 1 ≤ E.m) (hs : 0 < E.s) (hM : E.M ≤ E.stride)
    (B F : Transform) (hBF : InversePair B F E.m)
    (hz : ∀ k, k < E.m → (starRingEnd ℂ) (E.zetak k) * E.zetak k = 1)
    (f u : Nat) (μ : Mem) (hd : NoOverlap f u (E.m * E.stride)) :
    ∃ ν1 ν2, E.backwards B f u μ = some ν1 ∧ E.forwards F f u ν1 = some ν2 ∧
      ∀ k i, k < E.m → i < E.M → ν2 (f + k * E.stride + i) = μ (f + k * E.stride + i) := by
  unfold NoOverlap at hd
  obtain ⟨μ1, h1⟩ := expand_returns E hs f u μ
  obtain ⟨ν2, h2⟩ := reduce_returns E hs f u
    (mfft F E.m E.M E.stride u (mfft F E.m E.M E.stride f
      (mfft B E.m E.M E.stride u (mfft B E.m E.M E.stride f μ1))))
  refine ⟨_, ν2, ?_, h2, ?_⟩
  · unfold fftpad.backwards
    rw [h1]
    rfl
  intro k i hk hi
  obtain ⟨μ1b, h1b, hV1⟩ := expand_view E hs hM f u μ hd i hi
  rw [h1] at h1b
  have e1 : μ1 = μ1b := Option.some.inj h1b
  rw [← e1] at hV1
  obtain ⟨ν2b, h2b, hV2⟩ := reduce_view E hm hs hM f u
    (mfft F E.m E.M E.stride u (mfft F E.m E.M E.stride f
      (mfft B E.m E.M E.stride u (mfft B E.m E.M E.stride f μ1)))) hd i hi
  rw [h2] at h2b
  have e2 : ν2 = ν2b := Option.some.inj h2b
  rw [← e2] at hV2
  rw [colView_mfft_U0 f u E.stride E.M E.m E.m hM hd F E.m (Nat.le_refl _) _ i hi,
    colView_mfft_F0 f u E.stride E.M E.m E.m hM hd F E.m (Nat.le_refl _) _ i hi,
    colView_mfft_U0 f u E.stride E.M E.m E.m hM hd B E.m (Nat.le_refl _) _ i hi,
    colView_mfft_F0 f u E.stride E.M E.m E.m hM hd B E.m (Nat.le_refl _) _ i hi, hV1] at hV2
  rw [← colView_F f u E.stride E.m E.m i ν2 k hk, hV2,
    ← colView_F f u E.stride E.m E.m i μ k hk]
  obtain ⟨S0, hS0⟩ : ∃ S0, S0 = colView f u E.stride E.m E.m i μ := ⟨_, rfl⟩
  rw [← hS0]
  obtain ⟨S1, hS1⟩ : ∃ S1 : ColState, S1 = ColState.mk S0.F
      (fun r => if r < E.m then E.zetak r * S0.F r else S0.U r) := ⟨_, rfl⟩
  rw [← hS1]
  show (if k < E.m then
      (((((S1.fftF B E.m 0).fftU B E.m 0).fftF F E.m 0).fftU F E.m 0).F k
        + (starRingEnd ℂ) (E.zetak k)
          * ((((S1.fftF B E.m 0).fftU B E.m 0).fftF F E.m 0).fftU F E.m 0).U k)
        / (2 * (E.m : ℂ))
    else _) = S0.F k
  rw [if_pos hk]
  have hF : ((((S1.fftF B E.m 0).fftU B E.m 0).fftF F E.m 0).fftU F E.m 0).F k
      = (E.m : ℂ) * S1.F k :=
    fftF_inverse B F E.m 0 hBF S1 ((S1.fftF B E.m 0).fftU B E.m 0)
      (fun j hj => fftF_at B E.m 0 S1 j hj) k (by omega)
  have hU : ((((S1.fftF B E.m 0).fftU B E.m 0).fftF F E.m 0).fftU F E.m 0).U k
      = (E.m : ℂ) * (S1.fftF B E.m 0).U k :=
    fftU_inverse B F E.m 0 hBF (S1.fftF B E.m 0) (((S1.fftF B E.m 0).fftU B E.m 0).fftF F E.m 0)
      (fun j hj => fftU_at B E.m 0 (S1.fftF B E.m 0) j hj) k (by omega)
  rw [hF, hU]
  have hS1F : S1.F k = S0.F k := by rw [hS1]
  have hS1U : (S1.fftF B E.m 0).U k = E.zetak k * S0.F k := by
    show S1.U k = _
    rw [hS1]
    show (if k < E.m then E.zetak k * S0.F k else S0.U k) = _
    rw [if_pos hk]
  rw [hS1F, hS1U]
  exact roundtrip_two E.m hm (E.zetak k) (S0.F k) (hz k hk)

/-- The exact transforms `dft 1 n` and `dft (-1) n` are an unnormalised inverse pair. -/
theorem dft_inverse_pair (n : Nat) (hn : 1 ≤ n) : InversePair (dft 1 n) (dft (-1) n) n := by
  intro x k hk
  have hω : IsPrimitiveRoot (Complex.exp (2 * Real.pi * Complex.I / (n : ℂ))) n :=
    Complex.isPrimitiveRoot_exp n (by omega)
  rw [dft_neg_eq]
  have h1 : ∀ t, t ∈ Finset.range n →
      restr n (dft 1 n (restr n x)) t
          * (Complex.exp (2 * Real.pi * Complex.I / (n : ℂ)) ^ (t * k))⁻¹
        = ∑ a in Finset.range n, x a
            * (Complex.exp (2 * Real.pi * Complex.I / (n : ℂ)) ^ (a * t)
              * (Complex.exp (2 * Real.pi * Complex.I / (n : ℂ)) ^ (t * k))⁻¹) := by
    intro t ht
    rw [restr_apply _ _ _ (Finset.mem_range.mp ht), dft_pos_eq, Finset.sum_mul]
    apply Finset.sum_congr rfl
    intro a ha
    rw [restr_apply _ _ _ (Finset.mem_range.mp ha), mul_assoc]
  rw [Finset.sum_congr rfl h1, Finset.sum_comm]
  have h2 : ∀ a, a ∈ Finset.range n →
      ∑ t in Finset.range n, x a
          * (Complex.exp (2 * Real.pi * Complex.I / (n : ℂ)) ^ (a * t)
            * (Complex.exp (2 * Real.pi * Complex.I / (n : ℂ)) ^ (t * k))⁻¹)
        = if a = k then (n : ℂ) * x k else 0 := by
    intro a ha
    have ha2 := Finset.mem_range.mp ha
    rw [← Finset.mul_sum, root_orthogonality _ n hω (by omega) a k (by omega) hk]
    by_cases hak : a = k
    · rw [if_pos (Or.inl hak), if_pos hak, hak, mul_comm]
    · rw [if_neg (by omega), if_neg hak, mul_zero]
  rw [Finset.sum_congr rfl h2, Finset.sum_ite_eq' (Finset.range n) k, if_pos (Finset.mem_range.mpr hk)]

/-- The phase factors of a table of `BuildZeta(n, m)` have modulus one. -/
theorem BuildZeta_unit (n m : Nat) (k : Nat) (hk : k < m) :
    (starRingEnd ℂ) (tab (BuildZeta n m).ZetaH (k / (BuildZeta n m).s)
        * tab (BuildZeta n m).ZetaL (k % (BuildZeta n m).s))
      * (tab (BuildZeta n m).ZetaH (k / (BuildZeta n m).s)
        * tab (BuildZeta n m).ZetaL (k % (BuildZeta n m).s)) = 1 := by
  have h := BuildZeta_lookup n m k hk
  have hs : (BuildZeta n m).s = Nat.sqrt m := rfl
  rw [hs, h, exp_two_pi_pow, map_pow, ← mul_pow, zeta_conj_mul, one_pow]

/-- Witness of C27: `m = 2`, `M = 1`, `stride = 1` with the table of `BuildZeta(4, 2)` and the
exact transforms, `f` at 0 and `u` at 2. -/
theorem fftpad_roundtrip_witness :
    (1 ≤ (fftpad.mk 2 1 1 (BuildZeta 4 2).s (BuildZeta 4 2).ZetaH (BuildZeta 4 2).ZetaL).m) ∧
    ∃ ν1 ν2,
      (fftpad.mk 2 1 1 (BuildZeta 4 2).s (BuildZeta 4 2).ZetaH (BuildZeta 4 2).ZetaL).backwards
        (dft 1 2) 0 2 (fun a => (a : ℂ)) = some ν1 ∧
      (fftpad.mk 2 1 1 (BuildZeta 4 2).s (BuildZeta 4 2).ZetaH (BuildZeta 4 2).ZetaL).forwards
        (dft (-1) 2) 0 2 ν1 = some ν2 ∧
      ν2 (0 + 1 * 1 + 0) = (fun a : Nat => (a : ℂ)) (0 + 1 * 1 + 0) := by
  obtain ⟨ν1, ν2, h1, h2, h3⟩ := fftpad_roundtrip
    (fftpad.mk 2 1 1 (BuildZeta 4 2).s (BuildZeta 4 2).ZetaH (BuildZeta 4 2).ZetaL)
    (by decide) (show 0 < Nat.sqrt 2 from Nat.sqrt_pos.mpr (by decide)) (by decide)
    (dft 1 2) (dft (-1) 2) (dft_inverse_pair 2 (by decide))
    (fun k hk => BuildZeta_unit 4 2 k hk) 0 2 (fun a => (a : ℂ)) (by decide)
  exact ⟨by decide, ν1, ν2, h1, h2, h3 1 0 (by decide) (by decide)⟩

/-! ## `fft0bipad` on one column -/

theorem ZMULTI3_unpack (z w : Vec) :
    ZMULTI3 (UNPACKL z z) (UNPACKH (CONJ z) z) w = Complex.I * z * w := by
  apply Complex.ext <;> simp [ZMULTI3, UNPACKL, UNPACKH, CONJ, FLIP, vmul] <;> ring

theorem ZMULTI3_unpack_conj (z w : Vec) :
    ZMULTI3 (UNPACKL z z) (UNPACKH z (CONJ z)) w = Complex.I * (starRingEnd ℂ) z * w := by
  apply Complex.ext <;> simp [ZMULTI3, UNPACKL, UNPACKH, CONJ, FLIP, vmul] <;> ring

theorem colView_STORE_F0 (f u stride M Rf Ru : Nat) (hM : M ≤ stride)
    (hd : f + Rf * stride ≤ u ∨ u + Ru * stride ≤ f) (μ : Mem) (i0 i : Nat) (v : ℂ)
    (hr0 : 0 < Rf) (hi0 : i0 < M) (hi : i < M) :
    colView f u stride Rf Ru i (STORE μ (f + i0) v)
      = if i0 = i then (colView f u stride Rf Ru i μ).setF 0 v
        else colView f u stride Rf Ru i μ := by
  have h := colView_STORE_F f u stride M Rf Ru hM hd μ 0 i0 i v hr0 hi0 hi
  rw [Nat.zero_mul, Nat.add_zero] at h
  exact h

theorem colView_STORE_U0 (f u stride M Rf Ru : Nat) (hM : M ≤ stride)
    (hd : f + Rf * stride ≤ u ∨ u + Ru * stride ≤ f) (μ : Mem) (i0 i : Nat) (v : ℂ)
    (hr0 : 0 < Ru) (hi0 : i0 < M) (hi : i < M) :
    colView f u stride Rf Ru i (STORE μ (u + i0) v)
      = if i0 = i then (colView f u stride Rf Ru i μ).setU 0 v
        else colView f u stride Rf Ru i μ := by
  have h := colView_STORE_U f u stride M Rf Ru hM hd μ 0 i0 i v hr0 hi0 hi
  rw [Nat.zero_mul, Nat.add_zero] at h
  exact h

theorem colView_F0 (f u stride Rf Ru i : Nat) (μ : Mem) (hr : 0 < Rf) :
    (colView f u stride Rf Ru i μ).F 0 = μ (f + i) := by
  have h := colView_F f u stride Rf Ru i μ 0 hr
  rw [Nat.zero_mul, Nat.add_zero] at h
  exact h

theorem colView_U0 (f u stride Rf Ru i : Nat) (μ : Mem) (hr : 0 < Ru) :
    (colView f u stride Rf Ru i μ).U 0 = μ (u + i) := by
  have h := colView_U f u stride Rf Ru i μ 0 hr
  rw [Nat.zero_mul, Nat.add_zero] at h
  exact h

theorem ColState.setF_self (S : ColState) (r : Nat) : S.setF r (S.F r) = S := by
  apply ColState.ext_fields
  · intro q
    rw [ColState.setF_F]
    by_cases h : q = r
    · rw [if_pos h, h]
    · rw [if_neg h]
  · intro q
    rfl

theorem ColState.setU_self (S : ColState) (r : Nat) : S.setU r (S.U r) = S := by
  apply ColState.ext_fields
  · intro q
    rfl
  · intro q
    rw [ColState.setU_U]
    by_cases h : q = r
    · rw [if_pos h, h]
    · rw [if_neg h]

/-- A loop over the rows `1 ≤ k < m` that sets the row `k` of `f`. -/
theorem forUpTo_setF_from_one (g : Nat → ℂ → ℂ → ℂ) (m : Nat) (S : ColState) :
    forUpTo (fun k S => if 1 ≤ k then S.setF k (g k (S.F k) (S.U k)) else S) m S
      = { F := fun r => if 1 ≤ r ∧ r < m then g r (S.F r) (S.U r) else S.F r, U := S.U } := by
  have h := forUpTo_setF_diag (fun k x y => if 1 ≤ k then g k x y else x) m S
  have hc : forUpTo (fun k S => if 1 ≤ k then S.setF k (g k (S.F k) (S.U k)) else S) m S
      = forUpTo (fun k S => S.setF k
          ((fun k x y => if 1 ≤ k then g k x y else x) k (S.F k) (S.U k))) m S := by
    apply forUpTo_congr
    intro k _
    funext T
    by_cases h1 : 1 ≤ k
    · simp only [if_pos h1]
    · simp only [if_neg h1]
      exact (ColState.setF_self T k).symm
  rw [hc, h]
  apply ColState.ext_fields
  · intro r
    show (if r < m then (if 1 ≤ r then g r (S.F r) (S.U r) else S.F r) else S.F r)
      = if 1 ≤ r ∧ r < m then g r (S.F r) (S.U r) else S.F r
    by_cases h1 : 1 ≤ r <;> by_cases h2 : r < m <;> simp [h1, h2]
  · intro r
    rfl

/-- A loop over the rows `1 ≤ k < m` that sets the row `k` of `u`. -/
theorem forUpTo_setU_from_one (g : Nat → ℂ → ℂ → ℂ) (m : Nat) (S : ColState) :
    forUpTo (fun k S => if 1 ≤ k then S.setU k (g k (S.F k) (S.U k)) else S) m S
      = { F := S.F, U := fun r => if 1 ≤ r ∧ r < m then g r (S.F r) (S.U r) else S.U r } := by
  have h := forUpTo_setU_diag (fun k x y => if 1 ≤ k then g k x y else y) m S
  have hc : forUpTo (fun k S => if 1 ≤ k then S.setU k (g k (S.F k) (S.U k)) else S) m S
      = forUpTo (fun k S => S.setU k
          ((fun k x y => if 1 ≤ k then g k x y else y) k (S.F k) (S.U k))) m S := by
    apply forUpTo_congr
    intro k _
    funext T
    by_cases h1 : 1 ≤ k
    · simp only [if_pos h1]
    · simp only [if_neg h1]
      exact (ColState.setU_self T k).symm
  rw [hc, h]
  apply ColState.ext_fields
  · intro r
    rfl
  · intro r
    show (if r < m then (if 1 ≤ r then g r (S.F r) (S.U r) else S.U r) else S.U r)
      = if 1 ≤ r ∧ r < m then g r (S.F r) (S.U r) else S.U r
    by_cases h1 : 1 ≤ r <;> by_cases h2 : r < m <;> simp [h1, h2]

/-- The loops of `fft0bipad::backwards` on the column `i`: the rows 0 of `f` and `u` are set
to zero and `u[k] = -i*z_k*f[k]` for `1 ≤ k < 2m`. -/
theorem bipad_backwards_loops (E : fftpad) (hm : 1 ≤ E.m) (hs : 0 < E.s)
    (hM : E.M ≤ E.stride) (f u : Nat) (μ : Mem)
    (hd : f + 2 * E.m * E.stride ≤ u ∨ u + 2 * E.m * E.stride ≤ f) (i : Nat) (hi : i < E.M) :
    ∃ ν, forBlocks (2 * E.m) E.s (fun K μ =>
        forRange (max 1 K) (min (K + E.s) (2 * E.m)) (fun k μ =>
          forUpTo (fun i μ => STORE μ (u + k * E.stride + i)
            (ZMULTI3
              (UNPACKL (ZMULT (-(tab E.ZetaH (K / E.s))) (tab E.ZetaL (k - K)))
                (ZMULT (-(tab E.ZetaH (K / E.s))) (tab E.ZetaL (k - K))))
              (UNPACKH (CONJ (ZMULT (-(tab E.ZetaH (K / E.s))) (tab E.ZetaL (k - K))))
                (ZMULT (-(tab E.ZetaH (K / E.s))) (tab E.ZetaL (k - K))))
              (LOAD μ (f + k * E.stride + i)))) E.M μ) μ) (2 * E.m) 0
        (forUpTo (fun i μ => STORE μ (u + i) 0) E.M
          (forUpTo (fun i μ => STORE μ (f + i) 0) E.M μ)) = some ν ∧
      colView f u E.stride (2 * E.m) (2 * E.m) i ν
        = { F := fun r => if r = 0 then 0
              else (colView f u E.stride (2 * E.m) (2 * E.m) i μ).F r
            U := fun r => if r = 0 then 0
              else if r < 2 * E.m then
                -(Complex.I * E.zetak r * (colView f u E.stride (2 * E.m) (2 * E.m) i μ).F r)
              else (colView f u E.stride (2 * E.m) (2 * E.m) i μ).U r } := by
  obtain ⟨ν, hrun, hV⟩ := view_blocks_from_one (colView f u E.stride (2 * E.m) (2 * E.m) i)
    (fun K k i μ => STORE μ (u + k * E.stride + i)
      (ZMULTI3
        (UNPACKL (ZMULT (-(tab E.ZetaH (K / E.s))) (tab E.ZetaL (k - K)))
          (ZMULT (-(tab E.ZetaH (K / E.s))) (tab E.ZetaL (k - K))))
        (UNPACKH (CONJ (ZMULT (-(tab E.ZetaH (K / E.s))) (tab E.ZetaL (k - K))))
          (ZMULT (-(tab E.ZetaH (K / E.s))) (tab E.ZetaL (k - K))))
        (LOAD μ (f + k * E.stride + i))))
    (fun k S => S.setU k ((fun k x _ => -(Complex.I * E.zetak k * x)) k (S.F k) (S.U k)))
    (2 * E.m) E.s E.M i hs hi
    (fun k i2 ν h1 hk hi2 => by
      rw [colView_STORE_U f u E.stride E.M (2 * E.m) (2 * E.m) hM hd ν k i2 i _ hk hi2 hi]
      by_cases hii : i2 = i
      · subst hii
        rw [if_pos rfl, if_pos rfl, ZMULTI3_unpack, ZMULT_eq_mul, (block_index E.s k hs).1,
          (block_index E.s k hs).2]
        simp only [LOAD]
        rw [← colView_F f u E.stride (2 * E.m) (2 * E.m) i2 ν k hk]
        congr 1
        show Complex.I * (-(tab E.ZetaH (k / E.s)) * tab E.ZetaL (k % E.s)) * _
          = -(Complex.I * (tab E.ZetaH (k / E.s) * tab E.ZetaL (k % E.s)) * _)
        ring
      · rw [if_neg hii, if_neg hii])
    (forUpTo (fun i μ => STORE μ (u + i) 0) E.M
      (forUpTo (fun i μ => STORE μ (f + i) 0) E.M μ))
  refine ⟨ν, hrun, ?_⟩
  rw [hV, forUpTo_setU_from_one (fun k x _ => -(Complex.I * E.zetak k * x)),
    view_iloop (colView f u E.stride (2 * E.m) (2 * E.m) i) (fun i μ => STORE μ (u + i) 0)
      (fun S => S.setU 0 0) E.M i hi
      (fun i2 ν hi2 => colView_STORE_U0 f u E.stride E.M (2 * E.m) (2 * E.m) hM hd ν i2 i 0
        (by omega) hi2 hi),
    view_iloop (colView f u E.stride (2 * E.m) (2 * E.m) i) (fun i μ => STORE μ (f + i) 0)
      (fun S => S.setF 0 0) E.M i hi
      (fun i2 ν hi2 => colView_STORE_F0 f u E.stride E.M (2 * E.m) (2 * E.m) hM hd ν i2 i 0
        (by omega) hi2 hi)]
  apply ColState.ext_fields
  · intro r
    show Function.update (colView f u E.stride (2 * E.m) (2 * E.m) i μ).F 0 0 r = _
    by_cases hr : r = 0
    · rw [hr, Function.update_same]
      rfl
    · rw [Function.update_noteq hr]
      show _ = if r = 0 then 0 else _
      rw [if_neg hr]
  · intro r
    show (if 1 ≤ r ∧ r < 2 * E.m then
        -(Complex.I * E.zetak r
          * Function.update (colView f u E.stride (2 * E.m) (2 * E.m) i μ).F 0 0 r)
      else Function.update (colView f u E.stride (2 * E.m) (2 * E.m) i μ).U 0 0 r) = _
    by_cases hr : r = 0
    · rw [hr, if_neg (by omega), Function.update_same]
      rfl
    · rw [Function.update_noteq hr, Function.update_noteq hr]
      show _ = if r = 0 then 0 else if r < 2 * E.m then _ else _
      rw [if_neg hr]
      by_cases h2 : r < 2 * E.m
      · rw [if_pos ⟨by omega, h2⟩, if_pos h2]
      · rw [if_neg (by omega), if_neg h2]

theorem quarter_ninv_cast (m : Nat) (hm : 1 ≤ m) (z x y : ℂ) :
    ((0.25 / (m : ℝ) : ℝ) : ℂ) * x
        + Complex.I * (starRingEnd ℂ) (((0.25 / (m : ℝ) : ℝ) : ℂ) * z) * y
      = (x + Complex.I * (starRingEnd ℂ) z * y) / (4 * (m : ℂ)) := by
  have hmC : (m : ℂ) ≠ 0 := by
    have : 0 < m := hm
    exact_mod_cast this.ne'
  have h025 : ((0.25 / (m : ℝ) : ℝ) : ℂ) = 1 / (4 * (m : ℂ)) := by
    rw [show (0.25 : ℝ) = 1 / 4 by norm_num]
    push_cast
    field_simp
  rw [map_mul, Complex.conj_ofReal, h025]
  field_simp

/-- The loop of `fft0bipad::forwards` on the column `i`:
`f[k] = (f[k] + i*conj(z_k)*u[k])/(4m)` for `1 ≤ k < 2m`. -/
theorem bipad_forwards_loops (E : fftpad) (hm : 1 ≤ E.m) (hs : 0 < E.s)
    (hM : E.M ≤ E.stride) (f u : Nat) (μ : Mem)
    (hd : f + 2 * E.m * E.stride ≤ u ∨ u + 2 * E.m * E.stride ≤ f) (i : Nat) (hi : i < E.M) :
    ∃ ν, forBlocks (2 * E.m) E.s (fun K μ =>
        forRange (max 1 K) (min (K + E.s) (2 * E.m)) (fun k μ =>
          forUpTo (fun i μ => STORE μ (f + k * E.stride + i)
            (vmul (LOAD μ (f + k * E.stride + i)) (LOADd (0.25 / (E.m : ℝ)))
              + ZMULTI3
                (UNPACKL (ZMULT (vmul (LOADd (0.25 / (E.m : ℝ))) (tab E.ZetaH (K / E.s)))
                    (tab E.ZetaL (k - K)))
                  (ZMULT (vmul (LOADd (0.25 / (E.m : ℝ))) (tab E.ZetaH (K / E.s)))
                    (tab E.ZetaL (k - K))))
                (UNPACKH (ZMULT (vmul (LOADd (0.25 / (E.m : ℝ))) (tab E.ZetaH (K / E.s)))
                    (tab E.ZetaL (k - K)))
                  (CONJ (ZMULT (vmul (LOADd (0.25 / (E.m : ℝ))) (tab E.ZetaH (K / E.s)))
                    (tab E.ZetaL (k - K)))))
                (LOAD μ (u + k * E.stride + i)))) E.M μ) μ) (2 * E.m) 0 μ = some ν ∧
      colView f u E.stride (2 * E.m) (2 * E.m) i ν
        = { F := fun r => if 1 ≤ r ∧ r < 2 * E.m then
                ((colView f u E.stride (2 * E.m) (2 * E.m) i μ).F r
                  + Complex.I * (starRingEnd ℂ) (E.zetak r)
                    * (colView f u E.stride (2 * E.m) (2 * E.m) i μ).U r) / (4 * (E.m : ℂ))
              else (colView f u E.stride (2 * E.m) (2 * E.m) i μ).F r
            U := (colView f u E.stride (2 * E.m) (2 * E.m) i μ).U } := by
  obtain ⟨ν, hrun, hV⟩ := view_blocks_from_one (colView f u E.stride (2 * E.m) (2 * E.m) i)
    (fun K k i μ => STORE μ (f + k * E.stride + i)
      (vmul (LOAD μ (f + k * E.stride + i)) (LOADd (0.25 / (E.m : ℝ)))
        + ZMULTI3
          (UNPACKL (ZMULT (vmul (LOADd (0.25 / (E.m : ℝ))) (tab E.ZetaH (K / E.s)))
              (tab E.ZetaL (k - K)))
            (ZMULT (vmul (LOADd (0.25 / (E.m : ℝ))) (tab E.ZetaH (K / E.s)))
              (tab E.ZetaL (k - K))))
          (UNPACKH (ZMULT (vmul (LOADd (0.25 / (E.m : ℝ))) (tab E.ZetaH (K / E.s)))
              (tab E.ZetaL (k - K)))
            (CONJ (ZMULT (vmul (LOADd (0.25 / (E.m : ℝ))) (tab E.ZetaH (K / E.s)))
              (tab E.ZetaL (k - K)))))
          (LOAD μ (u + k * E.stride + i))))
    (fun k S => S.setF k ((fun k x y =>
      (x + Complex.I * (starRingEnd ℂ) (E.zetak k) * y) / (4 * (E.m : ℂ))) k (S.F k) (S.U k)))
    (2 * E.m) E.s E.M i hs hi
    (fun k i2 ν h1 hk hi2 => by
      rw [colView_STORE_F f u E.stride E.M (2 * E.m) (2 * E.m) hM hd ν k i2 i _ hk hi2 hi]
      by_cases hii : i2 = i
      · subst hii
        rw [if_pos rfl, if_pos rfl, ZMULTI3_unpack_conj, ZMULT_eq_mul, vmul_LOADd,
          vmul_LOADd_right, (block_index E.s k hs).1, (block_index E.s k hs).2]
        simp only [LOAD]
        rw [mul_assoc (((0.25 / (E.m : ℝ) : ℝ)) : ℂ) (tab E.ZetaH (k / E.s)),
          quarter_ninv_cast E.m hm,
          ← colView_F f u E.stride (2 * E.m) (2 * E.m) i2 ν k hk,
          ← colView_U f u E.stride (2 * E.m) (2 * E.m) i2 ν k hk]
        rfl
      · rw [if_neg hii, if_neg hii]) μ
  exact ⟨ν, hrun, hV.trans (forUpTo_setF_from_one
    (fun k x y => (x + Complex.I * (starRingEnd ℂ) (E.zetak k) * y) / (4 * (E.m : ℂ)))
    (2 * E.m) _)⟩

theorem bipad_forwards_returns (E : fftpad) (hs : 0 < E.s) (F : Transform) (f u : Nat)
    (μ : Mem) : ∃ ν, fft0bipad.forwards E F f u μ = some ν :=
  ⟨_, forBlocks_from_one (2 * E.m) E.s hs _ _⟩

theorem unit_times_I (z : ℂ) (hz : (starRingEnd ℂ) z * z = 1) :
    (starRingEnd ℂ) (Complex.I * (starRingEnd ℂ) z) * (Complex.I * (starRingEnd ℂ) z) = 1 := by
  rw [map_mul, Complex.conj_I, Complex.conj_conj]
  have : -Complex.I * z * (Complex.I * (starRingEnd ℂ) z)
      = -(Complex.I * Complex.I) * ((starRingEnd ℂ) z * z) := by ring
  rw [this, hz, Complex.I_mul_I]
  norm_num

theorem bipad_forwards_cell (E : fftpad) (hm : 1 ≤ E.m) (hs : 0 < E.s)
    (hM : E.M ≤ E.stride) (F : Transform) (f u : Nat) (μ : Mem)
    (hd : f + 2 * E.m * E.stride ≤ u ∨ u + 2 * E.m * E.stride ≤ f) (ν : Mem)
    (hν : fft0bipad.forwards E F f u μ = some ν) (k i : Nat) (h1 : 1 ≤ k)
    (hk : k < 2 * E.m) (hi : i < E.M) :
    ν (f + k * E.stride + i)
      = (mfft F (2 * E.m) E.M E.stride u (mfft F (2 * E.m) E.M E.stride f μ)
            (f + k * E.stride + i)
          + Complex.I * (starRingEnd ℂ) (E.zetak k)
            * mfft F (2 * E.m) E.M E.stride u (mfft F (2 * E.m) E.M E.stride f μ)
              (u + k * E.stride + i)) / (4 * (E.m : ℂ)) := by
  obtain ⟨ν2, h2, hV⟩ := bipad_forwards_loops E hm hs hM f u
    (mfft F (2 * E.m) E.M E.stride u (mfft F (2 * E.m) E.M E.stride f μ)) hd i hi
  have e : some ν = some ν2 := hν.symm.trans h2
  have e2 : ν = ν2 := Option.some.inj e
  rw [← e2] at hV
  rw [← colView_F f u E.stride (2 * E.m) (2 * E.m) i ν k hk, hV]
  show (if 1 ≤ k ∧ k < 2 * E.m then _ else _) = _
  rw [if_pos ⟨h1, hk⟩, colView_F f u E.stride (2 * E.m) (2 * E.m) i _ k hk,
    colView_U f u E.stride (2 * E.m) (2 * E.m) i _ k hk]

/-- C26 (amended): for `m ≥ 1`, a block size `s ≥ 1`, rows of `M ≤ stride` cells and buffers
`f`, `u` of `2m*stride` cells that do not overlap, `fft0bipad::forwards(f, u)` returns and
applies the normalization `1/(4m)` (the constant `0.25/m`): for every `k` in `[1, 2m)` and
`i < M` it sets `f[k*stride + i] = (f[k*stride + i] + p_k*u[k*stride + i])/(4m)`, values after
the two forward transforms, where `p_k = i*conj(ZetaH[k/s]*ZetaL[k mod s])` has modulus one
when `ZetaH[k/s]*ZetaL[k mod s]` has. -/
theorem fft0bipad_forwards_normalisation (E : fftpad) (hm : 1 ≤ E.m) (hs : 0 < E.s)
    (hM : E.M ≤ E.stride) (F : Transform) (f u : Nat) (μ : Mem)
    (hd : NoOverlap f u (2 * E.m * E.stride)) :
    ∃ ν, fft0bipad.forwards E F f u μ = some ν ∧
      ∀ k i, 1 ≤ k → k < 2 * E.m → i < E.M →
        ν (f + k * E.stride + i)
          = (mfft F (2 * E.m) E.M E.stride u (mfft F (2 * E.m) E.M E.stride f μ)
                (f + k * E.stride + i)
              + Complex.I * (starRingEnd ℂ) (E.zetak k)
                * mfft F (2 * E.m) E.M E.stride u (mfft F (2 * E.m) E.M E.stride f μ)
                  (u + k * E.stride + i)) / (4 * (E.m : ℂ))
        ∧ ((starRingEnd ℂ) (E.zetak k) * E.zetak k = 1 →
            (starRingEnd ℂ) (Complex.I * (starRingEnd ℂ) (E.zetak k))
              * (Complex.I * (starRingEnd ℂ) (E.zetak k)) = 1) := by
  obtain ⟨ν, hν⟩ := bipad_forwards_returns E hs F f u μ
  exact ⟨ν, hν, fun k i h1 hk hi =>
    ⟨bipad_forwards_cell E hm hs hM F f u μ hd ν hν k i h1 hk hi, unit_times_I (E.zetak k)⟩⟩

/-- Witness of C26 (amended): `m = 1`, `M = 1`, `stride = 1` with the table of
`BuildZeta(4, 2)` and the exact forward transform, `f` at 0 and `u` at 2. -/
theorem fft0bipad_forwards_normalisation_witness :
    (1 ≤ (fftpad.mk 1 1 1 (BuildZeta 4 2).s (BuildZeta 4 2).ZetaH (BuildZeta 4 2).ZetaL).m) ∧
    ∃ ν, fft0bipad.forwards
        (fftpad.mk 1 1 1 (BuildZeta 4 2).s (BuildZeta 4 2).ZetaH (BuildZeta 4 2).ZetaL)
        (dft (-1) 2) 0 2 (fun a => (a : ℂ)) = some ν ∧
      ν (0 + 1 * 1 + 0)
        = (mfft (dft (-1) 2) (2 * 1) 1 1 2 (mfft (dft (-1) 2) (2 * 1) 1 1 0 (fun a => (a : ℂ)))
              (0 + 1 * 1 + 0)
            + Complex.I * (starRingEnd ℂ)
                ((fftpad.mk 1 1 1 (BuildZeta 4 2).s (BuildZeta 4 2).ZetaH
                  (BuildZeta 4 2).ZetaL).zetak 1)
              * mfft (dft (-1) 2) (2 * 1) 1 1 2
                  (mfft (dft (-1) 2) (2 * 1) 1 1 0 (fun a => (a : ℂ))) (2 + 1 * 1 + 0))
          / (4 * ((1 : Nat) : ℂ)) := by
  obtain ⟨ν, h1, h2⟩ := fft0bipad_forwards_normalisation
    (fftpad.mk 1 1 1 (BuildZeta 4 2).s (BuildZeta 4 2).ZetaH (BuildZeta 4 2).ZetaL)
    (by decide) (show 0 < Nat.sqrt 2 from Nat.sqrt_pos.mpr (by decide)) (by decide)
    (dft (-1) 2) 0 2 (fun a => (a : ℂ)) (by decide)
  exact ⟨by decide, ν, h1, (h2 1 0 (by decide) (by decide) (by decide)).1⟩

/-- C26 (counterexample): for `m = 1`, `M = 1`, `stride = 1`, the table of `BuildZeta(4, 2)`,
the exact forward transform, `f = (4, 0)` at 0 and `u = (0, 0)` at 2, the forward transforms
give `f[1] = 4` and `u[1] = 0` and `fft0bipad::forwards` sets `f[1] = 1`, which is
`(4 + p*0)/(2m) = 2` for no factor `p`. -/
theorem fft0bipad_forwards_not_one_over_two_m :
    ¬ (∀ ν, fft0bipad.forwards
          (fftpad.mk 1 1 1 (BuildZeta 4 2).s (BuildZeta 4 2).ZetaH (BuildZeta 4 2).ZetaL)
          (dft (-1) 2) 0 2 (fun a => if a = 0 then 4 else 0) = some ν →
        ∀ k i, 1 ≤ k → k < 2 * 1 → i < 1 →
          ∃ p : ℂ, ν (0 + k * 1 + i)
            = (mfft (dft (-1) 2) (2 * 1) 1 1 2
                  (mfft (dft (-1) 2) (2 * 1) 1 1 0 (fun a => if a = 0 then 4 else 0))
                  (0 + k * 1 + i)
                + p * mfft (dft (-1) 2) (2 * 1) 1 1 2
                  (mfft (dft (-1) 2) (2 * 1) 1 1 0 (fun a => if a = 0 then 4 else 0))
                  (2 + k * 1 + i)) / (2 * ((1 : Nat) : ℂ))) := by
  intro h
  obtain ⟨ν, hν⟩ := bipad_forwards_returns
    (fftpad.mk 1 1 1 (BuildZeta 4 2).s (BuildZeta 4 2).ZetaH (BuildZeta 4 2).ZetaL)
    (show 0 < Nat.sqrt 2 from Nat.sqrt_pos.mpr (by decide))
    (dft (-1) 2) 0 2 (fun a => if a = 0 then 4 else 0)
  obtain ⟨p, hp⟩ := h ν hν 1 0 (by decide) (by decide) (by decide)
  have hc : ν (0 + 1 * 1 + 0)
      = (mfft (dft (-1) 2) (2 * 1) 1 1 2
            (mfft (dft (-1) 2) (2 * 1) 1 1 0 (fun a => if a = 0 then (4 : ℂ) else 0))
            (0 + 1 * 1 + 0)
          + Complex.I * (starRingEnd ℂ)
              ((fftpad.mk 1 1 1 (BuildZeta 4 2).s (BuildZeta 4 2).ZetaH
                (BuildZeta 4 2).ZetaL).zetak 1)
            * mfft (dft (-1) 2) (2 * 1) 1 1 2
                (mfft (dft (-1) 2) (2 * 1) 1 1 0 (fun a => if a = 0 then (4 : ℂ) else 0))
                (2 + 1 * 1 + 0)) / (4 * ((1 : Nat) : ℂ)) := bipad_forwards_cell
    (fftpad.mk 1 1 1 (BuildZeta 4 2).s (BuildZeta 4 2).ZetaH (BuildZeta 4 2).ZetaL)
    (by decide) (show 0 < Nat.sqrt 2 from Nat.sqrt_pos.mpr (by decide)) (by decide)
    (dft (-1) 2) 0 2 (fun a => if a = 0 then 4 else 0) (by decide) ν hν 1 0
    (by decide) (by decide) (by decide)
  have hf : mfft (dft (-1) 2) (2 * 1) 1 1 2
      (mfft (dft (-1) 2) (2 * 1) 1 1 0 (fun a => if a = 0 then (4 : ℂ) else 0)) (0 + 1 * 1 + 0)
      = 4 := by
    rw [mfft_other (dft (-1) 2) (2 * 1) 1 1 2 _ 0 2 1 0 (by decide) (by decide) (by decide)
      (by decide),
      mfft_cell (dft (-1) 2) (2 * 1) 1 1 0 _ 1 0 (by decide) (by decide) (by decide)]
    simp [dft, restr, Finset.sum_range_succ]
  have hu : mfft (dft (-1) 2) (2 * 1) 1 1 2
      (mfft (dft (-1) 2) (2 * 1) 1 1 0 (fun a => if a = 0 then (4 : ℂ) else 0)) (2 + 1 * 1 + 0)
      = 0 := by
    rw [mfft_cell (dft (-1) 2) (2 * 1) 1 1 2 _ 1 0 (by decide) (by decide) (by decide)]
    have hz : restr (2 * 1) (fun j => mfft (dft (-1) 2) (2 * 1) 1 1 0
        (fun a => if a = 0 then (4 : ℂ) else 0) (2 + j * 1 + 0)) = restr (2 * 1) (fun _ => 0) := by
      apply restr_congr
      intro j hj
      rw [mfft_other (dft (-1) 2) (2 * 1) 1 1 0 _ 2 2 j 0 (by decide) (by omega) (by decide)
        (by decide)]
      have : ¬ (2 + j * 1 + 0 = 0) := by omega
      simp only [if_neg this]
    rw [hz]
    simp [dft, restr]
  rw [hc, hf, hu] at hp
  norm_num at hp

theorem roundtrip_bipad (m : Nat) (hm : 1 ≤ m) (z x : ℂ) (hz : (starRingEnd ℂ) z * z = 1) :
    ((((2 * m : Nat) : ℂ)) * x
        + Complex.I * (starRingEnd ℂ) z * ((((2 * m : Nat) : ℂ)) * -(Complex.I * z * x)))
      / (4 * (m : ℂ)) = x := by
  have hmC : (m : ℂ) ≠ 0 := by
    have : 0 < m := hm
    exact_mod_cast this.ne'
  have h2 : Complex.I * (starRingEnd ℂ) z * ((((2 * m : Nat) : ℂ)) * -(Complex.I * z * x))
      = -(Complex.I * Complex.I) * (((2 * m : Nat) : ℂ)) * x * ((starRingEnd ℂ) z * z) := by
    ring
  rw [h2, hz, Complex.I_mul_I]
  push_cast
  field_simp
  ring

/-- C30: for `m ≥ 1`, a block size `s ≥ 1`, rows of `M ≤ stride` cells, buffers `f`, `u` of
`2m*stride` cells that do not overlap, phase factors `z_k = ZetaH[k/s]*ZetaL[k mod s]` of
modulus one, and plans of `2m` rows with `Forwards` after `Backwards` equal to `2m` times the
identity: `fft0bipad::backwards(f, u)` returns, and the memory `ν0` that it transforms has
the row 0 of `f` and of `u` (elements `i < M`) equal to zero; `fft0bipad::forwards(f, u)`
after it returns and restores `f[k*stride + i]` for every `k` in `[1, 2m)` and `i < M`,
while the row 0 of `f` is zero. -/
theorem fft0bipad_roundtrip (E : fftpad) (hm : 1 ≤ E.m) (hs : 0 < E.s) (hM : E.M ≤ E.stride)
    (B F : Transform) (hBF : InversePair B F (2 * E.m))
    (hz : ∀ k, k < 2 * E.m → (starRingEnd ℂ) (E.zetak k) * E.zetak k = 1)
    (f u : Nat) (μ : Mem) (hd : NoOverlap f u (2 * E.m * E.stride)) :
    ∃ ν0 ν1 ν2,
      (∀ i, i < E.M → ν0 (f + i) = 0 ∧ ν0 (u + i) = 0) ∧
      ν1 = mfft B (2 * E.m) E.M E.stride u (mfft B (2 * E.m) E.M E.stride f ν0) ∧
      fft0bipad.backwards E B f u μ = some ν1 ∧
      fft0bipad.forwards E F f u ν1 = some ν2 ∧
      (∀ k i, 1 ≤ k → k < 2 * E.m → i < E.M →
        ν2 (f + k * E.stride + i) = μ (f + k * E.stride + i)) ∧
      (∀ i, i < E.M → ν2 (f + i) = 0) := by
  unfold NoOverlap at hd
  -- the loops of `backwards`
  obtain ⟨ν0, h0⟩ : ∃ ν0, forBlocks (2 * E.m) E.s (fun K μ =>
        forRange (max 1 K) (min (K + E.s) (2 * E.m)) (fun k μ =>
          forUpTo (fun i μ => STORE μ (u + k * E.stride + i)
            (ZMULTI3
              (UNPACKL (ZMULT (-(tab E.ZetaH (K / E.s))) (tab E.ZetaL (k - K)))
                (ZMULT (-(tab E.ZetaH (K / E.s))) (tab E.ZetaL (k - K))))
              (UNPACKH (CONJ (ZMULT (-(tab E.ZetaH (K / E.s))) (tab E.ZetaL (k - K))))
                (ZMULT (-(tab E.ZetaH (K / E.s))) (tab E.ZetaL (k - K))))
              (LOAD μ (f + k * E.stride + i)))) E.M μ) μ) (2 * E.m) 0
        (forUpTo (fun i μ => STORE μ (u + i) 0) E.M
          (forUpTo (fun i μ => STORE μ (f + i) 0) E.M μ)) = some ν0 :=
    ⟨_, forBlocks_from_one (2 * E.m) E.s hs _ _⟩
  have hview0 : ∀ i, i < E.M → colView f u E.stride (2 * E.m) (2 * E.m) i ν0
      = { F := fun r => if r = 0 then 0
              else (colView f u E.stride (2 * E.m) (2 * E.m) i μ).F r
          U := fun r => if r = 0 then 0
              else if r < 2 * E.m then
                -(Complex.I * E.zetak r * (colView f u E.stride (2 * E.m) (2 * E.m) i μ).F r)
              else (colView f u E.stride (2 * E.m) (2 * E.m) i μ).U r } := by
    intro i hi
    obtain ⟨ν, hν, hV⟩ := bipad_backwards_loops E hm hs hM f u μ hd i hi
    have e : ν0 = ν := Option.some.inj (h0.symm.trans hν)
    rw [e]
    exact hV
  obtain ⟨ν2, h2⟩ := bipad_forwards_returns E hs F f u
    (mfft B (2 * E.m) E.M E.stride u (mfft B (2 * E.m) E.M E.stride f ν0))
  have hview2 : ∀ i, i < E.M → colView f u E.stride (2 * E.m) (2 * E.m) i ν2
      = { F := fun r => if 1 ≤ r ∧ r < 2 * E.m then
                ((((((colView f u E.stride (2 * E.m) (2 * E.m) i ν0).fftF B (2 * E.m) 0).fftU B
                    (2 * E.m) 0).fftF F (2 * E.m) 0).fftU F (2 * E.m) 0).F r
                  + Complex.I * (starRingEnd ℂ) (E.zetak r)
                    * (((((colView f u E.stride (2 * E.m) (2 * E.m) i ν0).fftF B (2 * E.m)
                      0).fftU B (2 * E.m) 0).fftF F (2 * E.m) 0).fftU F (2 * E.m) 0).U r)
                  / (4 * (E.m : ℂ))
              else (((((colView f u E.stride (2 * E.m) (2 * E.m) i ν0).fftF B (2 * E.m)
                      0).fftU B (2 * E.m) 0).fftF F (2 * E.m) 0).fftU F (2 * E.m) 0).F r
          U := (((((colView f u E.stride (2 * E.m) (2 * E.m) i ν0).fftF B (2 * E.m)
                      0).fftU B (2 * E.m) 0).fftF F (2 * E.m) 0).fftU F (2 * E.m) 0).U } := by
    intro i hi
    obtain ⟨ν, hν, hV⟩ := bipad_forwards_loops E hm hs hM f u
      (mfft F (2 * E.m) E.M E.stride u (mfft F (2 * E.m) E.M E.stride f
        (mfft B (2 * E.m) E.M E.stride u (mfft B (2 * E.m) E.M E.stride f ν0)))) hd i hi
    have e : ν2 = ν := Option.some.inj (h2.symm.trans hν)
    rw [e, hV,
      colView_mfft_U0 f u E.stride E.M (2 * E.m) (2 * E.m) hM hd F (2 * E.m) (Nat.le_refl _) _
        i hi,
      colView_mfft_F0 f u E.stride E.M (2 * E.m) (2 * E.m) hM hd F (2 * E.m) (Nat.le_refl _) _
        i hi,
      colView_mfft_U0 f u E.stride E.M (2 * E.m) (2 * E.m) hM hd B (2 * E.m) (Nat.le_refl _) _
        i hi,
      colView_mfft_F0 f u E.stride E.M (2 * E.m) (2 * E.m) hM hd B (2 * E.m) (Nat.le_refl _) _
        i hi]
  have hF : ∀ (S1 : ColState) (k : Nat), k < 2 * E.m →
      ((((S1.fftF B (2 * E.m) 0).fftU B (2 * E.m) 0).fftF F (2 * E.m) 0).fftU F (2 * E.m) 0).F k
        = ((2 * E.m : Nat) : ℂ) * S1.F k := fun S1 k hk =>
    fftF_inverse B F (2 * E.m) 0 hBF S1 ((S1.fftF B (2 * E.m) 0).fftU B (2 * E.m) 0)
      (fun j hj => fftF_at B (2 * E.m) 0 S1 j hj) k (by omega)
  have hU : ∀ (S1 : ColState) (k : Nat), k < 2 * E.m →
      ((((S1.fftF B (2 * E.m) 0).fftU B (2 * E.m) 0).fftF F (2 * E.m) 0).fftU F (2 * E.m) 0).U k
        = ((2 * E.m : Nat) : ℂ) * S1.U k := fun S1 k hk =>
    fftU_inverse B F (2 * E.m) 0 hBF (S1.fftF B (2 * E.m) 0)
      (((S1.fftF B (2 * E.m) 0).fftU B (2 * E.m) 0).fftF F (2 * E.m) 0)
      (fun j hj => fftU_at B (2 * E.m) 0 (S1.fftF B (2 * E.m) 0) j hj) k (by omega)
  refine ⟨ν0, _, ν2, ?_, rfl, ?_, h2, ?_, ?_⟩
  · intro i hi
    have hV := hview0 i hi
    constructor
    · rw [← colView_F0 f u E.stride (2 * E.m) (2 * E.m) i ν0 (by omega), hV]
      rfl
    · rw [← colView_U0 f u E.stride (2 * E.m) (2 * E.m) i ν0 (by omega), hV]
      rfl
  · unfold fft0bipad.backwards
    simp only []
    rw [h0]
    rfl
  · intro k i h1 hk hi
    rw [← colView_F f u E.stride (2 * E.m) (2 * E.m) i ν2 k hk, hview2 i hi,
      ← colView_F f u E.stride (2 * E.m) (2 * E.m) i μ k hk]
    show (if 1 ≤ k ∧ k < 2 * E.m then _ else _) = _
    rw [if_pos ⟨h1, hk⟩, hF _ k hk, hU _ k hk, hview0 i hi]
    show (((2 * E.m : Nat) : ℂ) * (if k = 0 then 0
          else (colView f u E.stride (2 * E.m) (2 * E.m) i μ).F k)
        + Complex.I * (starRingEnd ℂ) (E.zetak k) * (((2 * E.m : Nat) : ℂ)
          * (if k = 0 then 0 else if k < 2 * E.m then
              -(Complex.I * E.zetak k * (colView f u E.stride (2 * E.m) (2 * E.m) i μ).F k)
            else (colView f u E.stride (2 * E.m) (2 * E.m) i μ).U k))) / (4 * (E.m : ℂ)) = _
    rw [if_neg (by omega), if_neg (by omega), if_pos hk]
    exact roundtrip_bipad E.m hm (E.zetak k) _ (hz k hk)
  · intro i hi
    rw [← colView_F0 f u E.stride (2 * E.m) (2 * E.m) i ν2 (by omega), hview2 i hi]
    show (((((colView f u E.stride (2 * E.m) (2 * E.m) i ν0).fftF B (2 * E.m) 0).fftU B
      (2 * E.m) 0).fftF F (2 * E.m) 0).fftU F (2 * E.m) 0).F 0 = 0
    have h00 : (colView f u E.stride (2 * E.m) (2 * E.m) i ν0).F 0 = 0 := by
      rw [hview0 i hi]
      rfl
    rw [hF _ 0 (by omega), h00, mul_zero]

/-- Witness of C30: `m = 1`, `M = 1`, `stride = 1` with the table of `BuildZeta(4, 2)` and the
exact transforms of two rows, `f` at 0 and `u` at 2. -/
theorem fft0bipad_roundtrip_witness :
    (1 ≤ (fftpad.mk 1 1 1 (BuildZeta 4 2).s (BuildZeta 4 2).ZetaH (BuildZeta 4 2).ZetaL).m) ∧
    ∃ ν1 ν2,
      fft0bipad.backwards
        (fftpad.mk 1 1 1 (BuildZeta 4 2).s (BuildZeta 4 2).ZetaH (BuildZeta 4 2).ZetaL)
        (dft 1 2) 0 2 (fun a => (a : ℂ)) = some ν1 ∧
      fft0bipad.forwards
        (fftpad.mk 1 1 1 (BuildZeta 4 2).s (BuildZeta 4 2).ZetaH (BuildZeta 4 2).ZetaL)
        (dft (-1) 2) 0 2 ν1 = some ν2 ∧
      ν2 (0 + 1 * 1 + 0) = (fun a : Nat => (a : ℂ)) (0 + 1 * 1 + 0) ∧ ν2 (0 + 0) = 0 := by
  obtain ⟨ν0, ν1, ν2, _, _, h1, h2, h3, h4⟩ := fft0bipad_roundtrip
    (fftpad.mk 1 1 1 (BuildZeta 4 2).s (BuildZeta 4 2).ZetaH (BuildZeta 4 2).ZetaL)
    (by decide) (show 0 < Nat.sqrt 2 from Nat.sqrt_pos.mpr (by decide)) (by decide)
    (dft 1 2) (dft (-1) 2) (dft_inverse_pair 2 (by decide))
    (fun k hk => BuildZeta_unit 4 2 k hk) 0 2 (fun a => (a : ℂ)) (by decide)
  exact ⟨by decide, ν1, ν2, h1, h2, h3 1 0 (by decide) (by decide) (by decide),
    h4 0 (by decide)⟩

/-! ## The kernels of `fft0padwide` and `fft0pad` -/

theorem ZMULTI_eq_mul (z w : Vec) : ZMULTI z w = Complex.I * z * w := by
  apply Complex.ext <;> simp [ZMULTI] <;> ring

theorem ZMULTI1_eq (z : Vec) : ZMULTI1 z = Complex.I * z := by
  apply Complex.ext <;> simp [ZMULTI1, FLIP, CONJ]

theorem ZMULT3_unpack_neg (z w : Vec) :
    ZMULT3 (UNPACKL z z) (-(UNPACKH (CONJ z) z)) w = (starRingEnd ℂ) z * w := by
  apply Complex.ext <;> simp [ZMULT3, UNPACKL, UNPACKH, CONJ, FLIP, vmul]

/-- The two outputs `A + B` and `CONJ(A - B)` of the backward loop of `fft0padwide` for a pair
`(a, b)` (`a = f[k]`, `b = f[m+k]`). -/
theorem wide_plus (z a b : Vec) :
    ZMULT z (UNPACKL (vmul a (LOADd (-0.5)) + b) (vmul a (LOADd (-hsqrt3))))
        + ZMULTI z (UNPACKH (vmul a (LOADd (-0.5)) + b) (vmul a (LOADd (-hsqrt3))))
      = z * (b + (starRingEnd ℂ) (⟨-0.5, hsqrt3⟩ : ℂ) * a) := by
  apply Complex.ext <;>
    simp [ZMULT, ZMULTI, UNPACKL, UNPACKH, vmul, LOADd, CONJ, FLIP] <;> ring

theorem wide_minus (z a b : Vec) :
    CONJ (ZMULT z (UNPACKL (vmul a (LOADd (-0.5)) + b) (vmul a (LOADd (-hsqrt3))))
        - ZMULTI z (UNPACKH (vmul a (LOADd (-0.5)) + b) (vmul a (LOADd (-hsqrt3)))))
      = (starRingEnd ℂ) z * (b + (⟨-0.5, hsqrt3⟩ : ℂ) * a) := by
  apply Complex.ext <;>
    simp [ZMULT, ZMULTI, UNPACKL, UNPACKH, vmul, LOADd, CONJ, FLIP] <;> ring

/-- The same two outputs in the backward loop of `fft0pad`, which uses the three-argument
products. -/
theorem pad_plus (z a b : Vec) :
    ZMULT3 (UNPACKL z z) (UNPACKH (CONJ z) z)
          (UNPACKL (vmul a (LOADd (-0.5)) + b) (vmul a (LOADd (-hsqrt3))))
        + ZMULTI3 (UNPACKL z z) (UNPACKH (CONJ z) z)
          (UNPACKH (vmul a (LOADd (-0.5)) + b) (vmul a (LOADd (-hsqrt3))))
      = z * (b + (starRingEnd ℂ) (⟨-0.5, hsqrt3⟩ : ℂ) * a) := by
  apply Complex.ext <;>
    simp [ZMULT3, ZMULTI3, UNPACKL, UNPACKH, vmul, LOADd, CONJ, FLIP] <;> ring

theorem pad_minus (z a b : Vec) :
    CONJ (ZMULT3 (UNPACKL z z) (UNPACKH (CONJ z) z)
          (UNPACKL (vmul a (LOADd (-0.5)) + b) (vmul a (LOADd (-hsqrt3))))
        - ZMULTI3 (UNPACKL z z) (UNPACKH (CONJ z) z)
          (UNPACKH (vmul a (LOADd (-0.5)) + b) (vmul a (LOADd (-hsqrt3)))))
      = (starRingEnd ℂ) z * (b + (⟨-0.5, hsqrt3⟩ : ℂ) * a) := by
  apply Complex.ext <;>
    simp [ZMULT3, ZMULTI3, UNPACKL, UNPACKH, vmul, LOADd, CONJ, FLIP] <;> ring

theorem third_ninv_cast (m : Nat) (hm : 1 ≤ m) :
    ((1.0 / (3.0 * (m : ℝ)) : ℝ) : ℂ) = 1 / (3 * (m : ℂ)) := by
  have hmC : (m : ℂ) ≠ 0 := by
    have : 0 < m := hm
    exact_mod_cast this.ne'
  rw [show (1.0 : ℝ) = 1 by norm_num, show (3.0 : ℝ) = 3 by norm_num]
  push_cast
  rfl

theorem omega_sum : (⟨-0.5, hsqrt3⟩ : ℂ) + (starRingEnd ℂ) (⟨-0.5, hsqrt3⟩ : ℂ) = -1 := by
  apply Complex.ext <;> simp <;> norm_num

theorem omega_diff :
    (hsqrt3 : ℂ) * (Complex.I * ((starRingEnd ℂ) (⟨-0.5, hsqrt3⟩ : ℂ) - (⟨-0.5, hsqrt3⟩ : ℂ)))
      = 3 / 2 := by
  have h := hsqrt3_sq
  apply Complex.ext
  · simp
    linarith
  · simp

/-- The forward loop undoes the backward loop: the three branches `m*(a+b)`,
`m*z*(b + conj(w)*a)` and `m*conj(z)*(b + w*a)`, with `w = (-0.5, hsqrt3)`, recombine to `a`
and `b`. -/
theorem roundtrip_three (m : Nat) (hm : 1 ≤ m) (z a b : ℂ)
    (hz : (starRingEnd ℂ) z * z = 1) :
    (1 / (3 * (m : ℂ))) * ((m : ℂ) * (a + b))
        + ((-0.5 : ℝ) : ℂ) * ((starRingEnd ℂ) ((1 / (3 * (m : ℂ))) * z)
            * ((m : ℂ) * (z * (b + (starRingEnd ℂ) (⟨-0.5, hsqrt3⟩ : ℂ) * a)))
          + (1 / (3 * (m : ℂ))) * z
            * ((m : ℂ) * ((starRingEnd ℂ) z * (b + (⟨-0.5, hsqrt3⟩ : ℂ) * a))))
        + (hsqrt3 : ℂ) * (Complex.I * ((starRingEnd ℂ) ((1 / (3 * (m : ℂ))) * z)
            * ((m : ℂ) * (z * (b + (starRingEnd ℂ) (⟨-0.5, hsqrt3⟩ : ℂ) * a)))
          - (1 / (3 * (m : ℂ))) * z
            * ((m : ℂ) * ((starRingEnd ℂ) z * (b + (⟨-0.5, hsqrt3⟩ : ℂ) * a))))) = a
    ∧ (1 / (3 * (m : ℂ))) * ((m : ℂ) * (a + b))
        + ((starRingEnd ℂ) ((1 / (3 * (m : ℂ))) * z)
            * ((m : ℂ) * (z * (b + (starRingEnd ℂ) (⟨-0.5, hsqrt3⟩ : ℂ) * a)))
          + (1 / (3 * (m : ℂ))) * z
            * ((m : ℂ) * ((starRingEnd ℂ) z * (b + (⟨-0.5, hsqrt3⟩ : ℂ) * a)))) = b := by
  have hmC : (m : ℂ) ≠ 0 := by
    have : 0 < m := hm
    exact_mod_cast this.ne'
  have hc : (starRingEnd ℂ) ((1 / (3 * (m : ℂ))) * z) = (1 / (3 * (m : ℂ))) * (starRingEnd ℂ) z := by
    rw [map_mul, map_div₀, map_one, map_mul, Complex.conj_natCast]
    have : (starRingEnd ℂ) (3 : ℂ) = 3 := by
      have := Complex.conj_natCast 3
      exact_mod_cast this
    rw [this]
  have h1 : (starRingEnd ℂ) ((1 / (3 * (m : ℂ))) * z)
      * ((m : ℂ) * (z * (b + (starRingEnd ℂ) (⟨-0.5, hsqrt3⟩ : ℂ) * a)))
      = (b + (starRingEnd ℂ) (⟨-0.5, hsqrt3⟩ : ℂ) * a) / 3 := by
    rw [hc]
    have : (1 / (3 * (m : ℂ))) * (starRingEnd ℂ) z
        * ((m : ℂ) * (z * (b + (starRingEnd ℂ) (⟨-0.5, hsqrt3⟩ : ℂ) * a)))
        = (1 / (3 * (m : ℂ))) * (m : ℂ) * ((starRingEnd ℂ) z * z)
          * (b + (starRingEnd ℂ) (⟨-0.5, hsqrt3⟩ : ℂ) * a) := by ring
    rw [this, hz]
    field_simp
    ring
  have h2 : (1 / (3 * (m : ℂ))) * z
      * ((m : ℂ) * ((starRingEnd ℂ) z * (b + (⟨-0.5, hsqrt3⟩ : ℂ) * a)))
      = (b + (⟨-0.5, hsqrt3⟩ : ℂ) * a) / 3 := by
    have : (1 / (3 * (m : ℂ))) * z
        * ((m : ℂ) * ((starRingEnd ℂ) z * (b + (⟨-0.5, hsqrt3⟩ : ℂ) * a)))
        = (1 / (3 * (m : ℂ))) * (m : ℂ) * ((starRingEnd ℂ) z * z)
          * (b + (⟨-0.5, hsqrt3⟩ : ℂ) * a) := by ring
    rw [this, hz]
    field_simp
    ring
  have h0 : (1 / (3 * (m : ℂ))) * ((m : ℂ) * (a + b)) = (a + b) / 3 := by
    field_simp
    ring
  rw [h0, h1, h2]
  have hs := omega_sum
  have hd := omega_diff
  have hhalf : ((-0.5 : ℝ) : ℂ) = -1 / 2 := by
    push_cast
    norm_num
  rw [hhalf]
  constructor
  · have e : (a + b) / 3
          + -1 / 2 * ((b + (starRingEnd ℂ) (⟨-0.5, hsqrt3⟩ : ℂ) * a) / 3
            + (b + (⟨-0.5, hsqrt3⟩ : ℂ) * a) / 3)
          + (hsqrt3 : ℂ) * (Complex.I * ((b + (starRingEnd ℂ) (⟨-0.5, hsqrt3⟩ : ℂ) * a) / 3
            - (b + (⟨-0.5, hsqrt3⟩ : ℂ) * a) / 3))
        = (a + b) / 3
          - (2 * b + ((⟨-0.5, hsqrt3⟩ : ℂ) + (starRingEnd ℂ) (⟨-0.5, hsqrt3⟩ : ℂ)) * a) / 6
          + ((hsqrt3 : ℂ) * (Complex.I * ((starRingEnd ℂ) (⟨-0.5, hsqrt3⟩ : ℂ)
              - (⟨-0.5, hsqrt3⟩ : ℂ)))) * a / 3 := by ring
    rw [e, hs, hd]
    ring
  · have e : (a + b) / 3 + ((b + (starRingEnd ℂ) (⟨-0.5, hsqrt3⟩ : ℂ) * a) / 3
            + (b + (⟨-0.5, hsqrt3⟩ : ℂ) * a) / 3)
        = (a + b) / 3
          + (2 * b + ((⟨-0.5, hsqrt3⟩ : ℂ) + (starRingEnd ℂ) (⟨-0.5, hsqrt3⟩ : ℂ)) * a) / 3 := by
      ring
    rw [e, hs]
    ring

/-! ## Transforms of other rows -/

theorem fftF_other (T : Transform) (n r0 : Nat) (S : ColState) (r : Nat)
    (h : r < r0 ∨ r0 + n ≤ r) : (S.fftF T n r0).F r = S.F r := by
  show (if r0 ≤ r ∧ r < r0 + n then _ else S.F r) = S.F r
  rw [if_neg (by omega)]

theorem fftU_other (T : Transform) (n r0 : Nat) (S : ColState) (r : Nat)
    (h : r < r0 ∨ r0 + n ≤ r) : (S.fftU T n r0).U r = S.U r := by
  show (if r0 ≤ r ∧ r < r0 + n then _ else S.U r) = S.U r
  rw [if_neg (by omega)]

theorem setF_ne (S : ColState) (r q : Nat) (v : ℂ) (h : q ≠ r) : (S.setF r v).F q = S.F q := by
  rw [ColState.setF_F, if_neg h]

theorem setF_eq (S : ColState) (r : Nat) (v : ℂ) : (S.setF r v).F r = v := by
  rw [ColState.setF_F, if_pos rfl]

theorem setU_ne (S : ColState) (r q : Nat) (v : ℂ) (h : q ≠ r) : (S.setU r v).U q = S.U q := by
  rw [ColState.setU_U, if_neg h]

theorem setU_eq (S : ColState) (r : Nat) (v : ℂ) : (S.setU r v).U r = v := by
  rw [ColState.setU_U, if_pos rfl]

/-- A loop over the rows `1 ≤ k < n` whose round `k` reads the rows `k` and `m+k` of `f` and
the row `k` of `u` and sets the three of them. -/
theorem forUpTo_set3 (m : Nat) (g1 g2 g3 : Nat → ℂ → ℂ → ℂ → ℂ) (n : Nat) (hn : n ≤ m)
    (S : ColState) :
    forUpTo (fun k S => if 1 ≤ k then
        ((S.setF k (g1 k (S.F k) (S.F (m + k)) (S.U k))).setF (m + k)
          (g2 k (S.F k) (S.F (m + k)) (S.U k))).setU k (g3 k (S.F k) (S.F (m + k)) (S.U k))
      else S) n S
      = { F := fun r => if 1 ≤ r ∧ r < n then g1 r (S.F r) (S.F (m + r)) (S.U r)
            else if m + 1 ≤ r ∧ r < m + n then g2 (r - m) (S.F (r - m)) (S.F r) (S.U (r - m))
            else S.F r
          U := fun r => if 1 ≤ r ∧ r < n then g3 r (S.F r) (S.F (m + r)) (S.U r) else S.U r } := by
  induction n with
  | zero =>
    apply ColState.ext_fields
    · intro r
      show S.F r = if 1 ≤ r ∧ r < 0 then _ else if m + 1 ≤ r ∧ r < m + 0 then _ else S.F r
      rw [if_neg (by omega), if_neg (by omega)]
    · intro r
      show S.U r = if 1 ≤ r ∧ r < 0 then _ else S.U r
      rw [if_neg (by omega)]
  | succ n ih =>
    have ih2 := ih (by omega)
    show (fun k S => if 1 ≤ k then
        ((S.setF k (g1 k (S.F k) (S.F (m + k)) (S.U k))).setF (m + k)
          (g2 k (S.F k) (S.F (m + k)) (S.U k))).setU k (g3 k (S.F k) (S.F (m + k)) (S.U k))
      else S) n (forUpTo _ n S) = _
    rw [ih2]
    by_cases h1 : 1 ≤ n
    · simp only [if_pos h1]
      have eFn : (if 1 ≤ n ∧ n < n then g1 n (S.F n) (S.F (m + n)) (S.U n)
          else if m + 1 ≤ n ∧ n < m + n then g2 (n - m) (S.F (n - m)) (S.F n) (S.U (n - m))
          else S.F n) = S.F n := by
        rw [if_neg (by omega), if_neg (by omega)]
      have eFmn : (if 1 ≤ m + n ∧ m + n < n then
            g1 (m + n) (S.F (m + n)) (S.F (m + (m + n))) (S.U (m + n))
          else if m + 1 ≤ m + n ∧ m + n < m + n then
            g2 (m + n - m) (S.F (m + n - m)) (S.F (m + n)) (S.U (m + n - m))
          else S.F (m + n)) = S.F (m + n) := by
        rw [if_neg (by omega), if_neg (by omega)]
      have eUn : (if 1 ≤ n ∧ n < n then g3 n (S.F n) (S.F (m + n)) (S.U n) else S.U n)
          = S.U n := by
        rw [if_neg (by omega)]
      rw [eFn, eFmn, eUn]
      apply ColState.ext_fields
      · intro r
        show Function.update (Function.update _ n _) (m + n) _ r = _
        by_cases hr1 : r = m + n
        · rw [hr1, Function.update_same]
          show _ = if 1 ≤ m + n ∧ m + n < n + 1 then _
            else if m + 1 ≤ m + n ∧ m + n < m + (n + 1) then _ else _
          rw [if_neg (by omega), if_pos (by omega), Nat.add_sub_cancel_left]
        · rw [Function.update_noteq hr1]
          by_cases hr2 : r = n
          · rw [hr2, Function.update_same]
            show _ = if 1 ≤ n ∧ n < n + 1 then _ else _
            rw [if_pos (by omega)]
          · rw [Function.update_noteq hr2]
            show (if 1 ≤ r ∧ r < n then _ else if m + 1 ≤ r ∧ r < m + n then _ else _)
              = if 1 ≤ r ∧ r < n + 1 then _
                else if m + 1 ≤ r ∧ r < m + (n + 1) then _ else _
            by_cases c1 : 1 ≤ r ∧ r < n
            · rw [if_pos c1, if_pos (show 1 ≤ r ∧ r < n + 1 by omega)]
            · rw [if_neg c1, if_neg (show ¬ (1 ≤ r ∧ r < n + 1) by omega)]
              by_cases c2 : m + 1 ≤ r ∧ r < m + n
              · rw [if_pos c2, if_pos (show m + 1 ≤ r ∧ r < m + (n + 1) by omega)]
              · rw [if_neg c2, if_neg (show ¬ (m + 1 ≤ r ∧ r < m + (n + 1)) by omega)]
      · intro r
        show Function.update _ n _ r = _
        by_cases hr2 : r = n
        · rw [hr2, Function.update_same]
          show _ = if 1 ≤ n ∧ n < n + 1 then _ else _
          rw [if_pos (by omega)]
        · rw [Function.update_noteq hr2]
          show (if 1 ≤ r ∧ r < n then _ else _) = if 1 ≤ r ∧ r < n + 1 then _ else _
          by_cases c1 : 1 ≤ r ∧ r < n
          · rw [if_pos c1, if_pos (show 1 ≤ r ∧ r < n + 1 by omega)]
          · rw [if_neg c1, if_neg (show ¬ (1 ≤ r ∧ r < n + 1) by omega)]
    · simp only [if_neg h1]
      have hn0 : n = 0 := by omega
      subst hn0
      apply ColState.ext_fields
      · intro r
        show (if 1 ≤ r ∧ r < 0 then _ else if m + 1 ≤ r ∧ r < m + 0 then _ else _)
          = if 1 ≤ r ∧ r < 0 + 1 then _ else if m + 1 ≤ r ∧ r < m + (0 + 1) then _ else _
        rw [if_neg (show ¬ (1 ≤ r ∧ r < 0) by omega),
          if_neg (show ¬ (m + 1 ≤ r ∧ r < m + 0) by omega),
          if_neg (show ¬ (1 ≤ r ∧ r < 0 + 1) by omega),
          if_neg (show ¬ (m + 1 ≤ r ∧ r < m + (0 + 1)) by omega)]
      · intro r
        show (if 1 ≤ r ∧ r < 0 then _ else _) = if 1 ≤ r ∧ r < 0 + 1 then _ else _
        rw [if_neg (show ¬ (1 ≤ r ∧ r < 0) by omega),
          if_neg (show ¬ (1 ≤ r ∧ r < 0 + 1) by omega)]

/-! ## `fft0padwide` on one column -/

/-- One round of the first loop of `fft0padwide::backwards`, seen from the column `i`. -/
theorem wide_backwards_prelude (E : fftpad) (hm : 1 ≤ E.m) (hM : E.M ≤ E.stride)
    (f u : Nat) (hd : f + 2 * E.m * E.stride ≤ u ∨ u + E.m * E.stride ≤ f) (i : Nat)
    (hi : i < E.M) (i2 : Nat) (μ : Mem) (hi2 : i2 < E.M) :
    colView f u E.stride (2 * E.m) E.m i
        (STORE (STORE (STORE μ (f + i2) (μ (f + E.m * E.stride + i2) + 2.0 * μ (f + i2)))
            (f + E.m * E.stride + i2)
            (STORE μ (f + i2) (μ (f + E.m * E.stride + i2) + 2.0 * μ (f + i2))
              (f + E.m * E.stride + i2) - μ (f + i2)))
          (u + i2)
          (STORE (STORE μ (f + i2) (μ (f + E.m * E.stride + i2) + 2.0 * μ (f + i2)))
            (f + E.m * E.stride + i2)
            (STORE μ (f + i2) (μ (f + E.m * E.stride + i2) + 2.0 * μ (f + i2))
              (f + E.m * E.stride + i2) - μ (f + i2)) (f + E.m * E.stride + i2)))
      = if i2 = i then
          (fun S : ColState => ((S.setF 0 (S.F E.m + 2 * S.F 0)).setF E.m
            (S.F E.m - S.F 0)).setU 0 (S.F E.m - S.F 0)) (colView f u E.stride (2 * E.m) E.m i μ)
        else colView f u E.stride (2 * E.m) E.m i μ := by
  have hst : 0 < E.stride := by omega
  have hms : 0 < E.m * E.stride := Nat.mul_pos hm hst
  have hne : f + E.m * E.stride + i2 ≠ f + i2 := by omega
  rw [STORE_same, STORE_other _ _ _ _ hne,
    colView_STORE_U0 f u E.stride E.M (2 * E.m) E.m hM hd _ i2 i _ (by omega) hi2 hi,
    colView_STORE_F f u E.stride E.M (2 * E.m) E.m hM hd _ E.m i2 i _ (by omega) hi2 hi,
    colView_STORE_F0 f u E.stride E.M (2 * E.m) E.m hM hd _ i2 i _ (by omega) hi2 hi]
  by_cases hii : i2 = i
  · subst hii
    simp only [if_pos rfl]
    rw [← colView_F0 f u E.stride (2 * E.m) E.m i2 μ (by omega),
      ← colView_F f u E.stride (2 * E.m) E.m i2 μ E.m (by omega)]
    norm_num
  · simp only [if_neg hii]

/-- One round of the main loop of `fft0padwide::backwards`, seen from the column `i`. -/
theorem wide_backwards_step (E : fftpad) (hs : 0 < E.s) (hM : E.M ≤ E.stride)
    (f u : Nat) (hd : f + 2 * E.m * E.stride ≤ u ∨ u + E.m * E.stride ≤ f) (i : Nat)
    (hi : i < E.M) (k i2 : Nat) (μ : Mem) (h1 : 1 ≤ k) (hk : k < E.m) (hi2 : i2 < E.M) :
    colView f u E.stride (2 * E.m) E.m i
        (STORE (STORE (STORE μ (f + k * E.stride + i2)
              (LOAD μ (f + k * E.stride + i2) + LOAD μ (f + E.m * E.stride + k * E.stride + i2)))
            (f + E.m * E.stride + k * E.stride + i2)
            (ZMULT (ZMULT3 (UNPACKL (tab E.ZetaH (k / E.s * E.s / E.s))
                    (tab E.ZetaH (k / E.s * E.s / E.s)))
                  (UNPACKH (CONJ (tab E.ZetaH (k / E.s * E.s / E.s)))
                    (tab E.ZetaH (k / E.s * E.s / E.s)))
                  (tab E.ZetaL (k - k / E.s * E.s)))
                (UNPACKL (vmul (LOAD μ (f + k * E.stride + i2)) (LOADd (-0.5))
                    + LOAD μ (f + E.m * E.stride + k * E.stride + i2))
                  (vmul (LOAD μ (f + k * E.stride + i2)) (LOADd (-hsqrt3))))
              + ZMULTI (ZMULT3 (UNPACKL (tab E.ZetaH (k / E.s * E.s / E.s))
                    (tab E.ZetaH (k / E.s * E.s / E.s)))
                  (UNPACKH (CONJ (tab E.ZetaH (k / E.s * E.s / E.s)))
                    (tab E.ZetaH (k / E.s * E.s / E.s)))
                  (tab E.ZetaL (k - k / E.s * E.s)))
                (UNPACKH (vmul (LOAD μ (f + k * E.stride + i2)) (LOADd (-0.5))
                    + LOAD μ (f + E.m * E.stride + k * E.stride + i2))
                  (vmul (LOAD μ (f + k * E.stride + i2)) (LOADd (-hsqrt3))))))
          (u + k * E.stride + i2)
          (CONJ (ZMULT (ZMULT3 (UNPACKL (tab E.ZetaH (k / E.s * E.s / E.s))
                    (tab E.ZetaH (k / E.s * E.s / E.s)))
                  (UNPACKH (CONJ (tab E.ZetaH (k / E.s * E.s / E.s)))
                    (tab E.ZetaH (k / E.s * E.s / E.s)))
                  (tab E.ZetaL (k - k / E.s * E.s)))
                (UNPACKL (vmul (LOAD μ (f + k * E.stride + i2)) (LOADd (-0.5))
                    + LOAD μ (f + E.m * E.stride + k * E.stride + i2))
                  (vmul (LOAD μ (f + k * E.stride + i2)) (LOADd (-hsqrt3))))
              - ZMULTI (ZMULT3 (UNPACKL (tab E.ZetaH (k / E.s * E.s / E.s))
                    (tab E.ZetaH (k / E.s * E.s / E.s)))
                  (UNPACKH (CONJ (tab E.ZetaH (k / E.s * E.s / E.s)))
                    (tab E.ZetaH (k / E.s * E.s / E.s)))
                  (tab E.ZetaL (k - k / E.s * E.s)))
                (UNPACKH (vmul (LOAD μ (f + k * E.stride + i2)) (LOADd (-0.5))
                    + LOAD μ (f + E.m * E.stride + k * E.stride + i2))
                  (vmul (LOAD μ (f + k * E.stride + i2)) (LOADd (-hsqrt3)))))))
      = if i2 = i then
          (fun S : ColState => ((S.setF k
              ((fun (_ : Nat) (x y _ : ℂ) => x + y) k (S.F k) (S.F (E.m + k)) (S.U k))).setF
              (E.m + k)
              ((fun (k : Nat) (x y _ : ℂ) =>
                E.zetak k * (y + (starRingEnd ℂ) (⟨-0.5, hsqrt3⟩ : ℂ) * x))
                k (S.F k) (S.F (E.m + k)) (S.U k))).setU k
              ((fun (k : Nat) (x y _ : ℂ) =>
                (starRingEnd ℂ) (E.zetak k) * (y + (⟨-0.5, hsqrt3⟩ : ℂ) * x))
                k (S.F k) (S.F (E.m + k)) (S.U k)))
            (colView f u E.stride (2 * E.m) E.m i μ)
        else colView f u E.stride (2 * E.m) E.m i μ := by
  rw [wide_plus, wide_minus, ZMULT3_unpack, (block_index E.s k hs).1, (block_index E.s k hs).2,
    row_shift f E.m k E.stride i2,
    colView_STORE_U f u E.stride E.M (2 * E.m) E.m hM hd _ k i2 i _ hk hi2 hi,
    colView_STORE_F f u E.stride E.M (2 * E.m) E.m hM hd _ (E.m + k) i2 i _ (by omega) hi2 hi,
    colView_STORE_F f u E.stride E.M (2 * E.m) E.m hM hd _ k i2 i _ (by omega) hi2 hi]
  by_cases hii : i2 = i
  · subst hii
    simp only [if_pos rfl, LOAD]
    rw [← colView_F f u E.stride (2 * E.m) E.m i2 μ k (by omega),
      ← colView_F f u E.stride (2 * E.m) E.m i2 μ (E.m + k) (by omega)]
    rfl
  · simp only [if_neg hii]

/-- The output of `fft0padwide::backwards` on the column `i`: the three transforms of a state
`S1` with `f[0] = Z + 2N`, `f[m] = u[0] = Z - N` (`N = f[0]`, `Z = f[m]` before the call) and,
for `1 ≤ k < m`, `f[k] = a + b`, `f[m+k] = z_k*(b + conj(w)*a)`,
`u[k] = conj(z_k)*(b + w*a)` (`a = f[k]`, `b = f[m+k]` before the call, `w = (-0.5, hsqrt3)`). -/
theorem wide_backwards_view (E : fftpad) (hm : 1 ≤ E.m) (hs : 0 < E.s) (hM : E.M ≤ E.stride)
    (B : Transform) (f u : Nat) (μ : Mem)
    (hd : f + 2 * E.m * E.stride ≤ u ∨ u + E.m * E.stride ≤ f) (i : Nat) (hi : i < E.M) :
    ∃ (ν : Mem) (S1 : ColState), fft0padwide.backwards E B f u μ = some ν ∧
      colView f u E.stride (2 * E.m) E.m i ν
        = ((S1.fftF B E.m 0).fftF B E.m E.m).fftU B E.m 0 ∧
      S1.F 0 = (colView f u E.stride (2 * E.m) E.m i μ).F E.m
        + 2 * (colView f u E.stride (2 * E.m) E.m i μ).F 0 ∧
      S1.F E.m = (colView f u E.stride (2 * E.m) E.m i μ).F E.m
        - (colView f u E.stride (2 * E.m) E.m i μ).F 0 ∧
      S1.U 0 = (colView f u E.stride (2 * E.m) E.m i μ).F E.m
        - (colView f u E.stride (2 * E.m) E.m i μ).F 0 ∧
      ∀ k, 1 ≤ k → k < E.m →
        S1.F k = (colView f u E.stride (2 * E.m) E.m i μ).F k
          + (colView f u E.stride (2 * E.m) E.m i μ).F (E.m + k) ∧
        S1.F (E.m + k) = E.zetak k * ((colView f u E.stride (2 * E.m) E.m i μ).F (E.m + k)
          + (starRingEnd ℂ) (⟨-0.5, hsqrt3⟩ : ℂ) * (colView f u E.stride (2 * E.m) E.m i μ).F k) ∧
        S1.U k = (starRingEnd ℂ) (E.zetak k)
          * ((colView f u E.stride (2 * E.m) E.m i μ).F (E.m + k)
            + (⟨-0.5, hsqrt3⟩ : ℂ) * (colView f u E.stride (2 * E.m) E.m i μ).F k) := by
  obtain ⟨ν, hrun, hV⟩ := view_blocks_from_one (colView f u E.stride (2 * E.m) E.m i)
    (fun K k i μ =>
      let Zeta := tab E.ZetaH (K / E.s)
      let X := UNPACKL Zeta Zeta
      let Y := UNPACKH (CONJ Zeta) Zeta
      let zetak := ZMULT3 X Y (tab E.ZetaL (k - K))
      let Fa := LOAD μ (f + k * E.stride + i)
      let Fb := LOAD μ (f + E.m * E.stride + k * E.stride + i)
      let B := vmul Fa (LOADd (-0.5)) + Fb
      let μ := STORE μ (f + k * E.stride + i) (Fa + Fb)
      let Fa := vmul Fa (LOADd (-hsqrt3))
      let A := ZMULT zetak (UNPACKL B Fa)
      let B := ZMULTI zetak (UNPACKH B Fa)
      let μ := STORE μ (f + E.m * E.stride + k * E.stride + i) (A + B)
      STORE μ (u + k * E.stride + i) (CONJ (A - B)))
    (fun k S => ((S.setF k
        ((fun (_ : Nat) (x y _ : ℂ) => x + y) k (S.F k) (S.F (E.m + k)) (S.U k))).setF
        (E.m + k)
        ((fun (k : Nat) (x y _ : ℂ) =>
          E.zetak k * (y + (starRingEnd ℂ) (⟨-0.5, hsqrt3⟩ : ℂ) * x))
          k (S.F k) (S.F (E.m + k)) (S.U k))).setU k
        ((fun (k : Nat) (x y _ : ℂ) =>
          (starRingEnd ℂ) (E.zetak k) * (y + (⟨-0.5, hsqrt3⟩ : ℂ) * x))
          k (S.F k) (S.F (E.m + k)) (S.U k)))
    E.m E.s E.M i hs hi
    (fun k i2 ν h1 hk hi2 => wide_backwards_step E hs hM f u hd i hi k i2 ν h1 hk hi2)
    (forUpTo (fun i μ =>
      let Nyquist := μ (f + i)
      let μ := STORE μ (f + i) (μ (f + E.m * E.stride + i) + 2.0 * Nyquist)
      let μ := STORE μ (f + E.m * E.stride + i) (μ (f + E.m * E.stride + i) - Nyquist)
      STORE μ (u + i) (μ (f + E.m * E.stride + i))) E.M μ)
  rw [forUpTo_set3 E.m (fun (_ : Nat) (x y _ : ℂ) => x + y)
      (fun (k : Nat) (x y _ : ℂ) =>
        E.zetak k * (y + (starRingEnd ℂ) (⟨-0.5, hsqrt3⟩ : ℂ) * x))
      (fun (k : Nat) (x y _ : ℂ) =>
        (starRingEnd ℂ) (E.zetak k) * (y + (⟨-0.5, hsqrt3⟩ : ℂ) * x)) E.m (Nat.le_refl _),
    view_iloop (colView f u E.stride (2 * E.m) E.m i) _
      (fun S : ColState => ((S.setF 0 (S.F E.m + 2 * S.F 0)).setF E.m
        (S.F E.m - S.F 0)).setU 0 (S.F E.m - S.F 0)) E.M i hi
      (fun i2 ν hi2 => wide_backwards_prelude E hm hM f u hd i hi i2 ν hi2)] at hV
  obtain ⟨SP, hSP⟩ : ∃ SP : ColState, SP
      = (((colView f u E.stride (2 * E.m) E.m i μ).setF 0
          ((colView f u E.stride (2 * E.m) E.m i μ).F E.m
            + 2 * (colView f u E.stride (2 * E.m) E.m i μ).F 0)).setF E.m
          ((colView f u E.stride (2 * E.m) E.m i μ).F E.m
            - (colView f u E.stride (2 * E.m) E.m i μ).F 0)).setU 0
          ((colView f u E.stride (2 * E.m) E.m i μ).F E.m
            - (colView f u E.stride (2 * E.m) E.m i μ).F 0) := ⟨_, rfl⟩
  rw [← hSP] at hV
  have kF : ∀ r, (colView f u E.stride (2 * E.m) E.m i ν).F r
      = if 1 ≤ r ∧ r < E.m then SP.F r + SP.F (E.m + r)
        else if E.m + 1 ≤ r ∧ r < E.m + E.m then
          E.zetak (r - E.m)
            * (SP.F r + (starRingEnd ℂ) (⟨-0.5, hsqrt3⟩ : ℂ) * SP.F (r - E.m))
        else SP.F r := by
    intro r
    rw [hV]
  have kU : ∀ r, (colView f u E.stride (2 * E.m) E.m i ν).U r
      = if 1 ≤ r ∧ r < E.m then
          (starRingEnd ℂ) (E.zetak r) * (SP.F (E.m + r) + (⟨-0.5, hsqrt3⟩ : ℂ) * SP.F r)
        else SP.U r := by
    intro r
    rw [hV]
  have hSPF : ∀ r, SP.F r
      = if r = E.m then (colView f u E.stride (2 * E.m) E.m i μ).F E.m
            - (colView f u E.stride (2 * E.m) E.m i μ).F 0
        else if r = 0 then (colView f u E.stride (2 * E.m) E.m i μ).F E.m
            + 2 * (colView f u E.stride (2 * E.m) E.m i μ).F 0
        else (colView f u E.stride (2 * E.m) E.m i μ).F r := by
    intro r
    rw [hSP]
    show Function.update (Function.update _ 0 _) E.m _ r = _
    rw [Function.update_apply, Function.update_apply]
  have hSPU : SP.U 0 = (colView f u E.stride (2 * E.m) E.m i μ).F E.m
      - (colView f u E.stride (2 * E.m) E.m i μ).F 0 := by
    rw [hSP]
    exact setU_eq _ 0 _
  refine ⟨_, colView f u E.stride (2 * E.m) E.m i ν, congrArg (Option.map fun mem =>
      mfft B E.m E.M E.stride u (mfft B E.m E.M E.stride (f + E.m * E.stride)
        (mfft B E.m E.M E.stride f mem))) hrun, ?_, ?_, ?_, ?_, ?_⟩
  · rw [colView_mfft_U0 f u E.stride E.M (2 * E.m) E.m hM hd B E.m (Nat.le_refl _) _ i hi,
      colView_mfft_F f u E.stride E.M (2 * E.m) E.m hM hd B E.m E.m (by omega) _ i hi,
      colView_mfft_F0 f u E.stride E.M (2 * E.m) E.m hM hd B E.m (by omega) _ i hi]
  · rw [kF 0, if_neg (show ¬ (1 ≤ 0 ∧ 0 < E.m) by omega),
      if_neg (show ¬ (E.m + 1 ≤ 0 ∧ 0 < E.m + E.m) by omega), hSPF 0,
      if_neg (show ¬ (0 = E.m) by omega), if_pos rfl]
  · rw [kF E.m, if_neg (show ¬ (1 ≤ E.m ∧ E.m < E.m) by omega),
      if_neg (show ¬ (E.m + 1 ≤ E.m ∧ E.m < E.m + E.m) by omega), hSPF E.m, if_pos rfl]
  · rw [kU 0, if_neg (show ¬ (1 ≤ 0 ∧ 0 < E.m) by omega), hSPU]
  · intro k h1 hk
    have ek : SP.F k = (colView f u E.stride (2 * E.m) E.m i μ).F k := by
      rw [hSPF k, if_neg (show ¬ (k = E.m) by omega), if_neg (show ¬ (k = 0) by omega)]
    have emk : SP.F (E.m + k) = (colView f u E.stride (2 * E.m) E.m i μ).F (E.m + k) := by
      rw [hSPF (E.m + k), if_neg (show ¬ (E.m + k = E.m) by omega),
        if_neg (show ¬ (E.m + k = 0) by omega)]
    refine ⟨?_, ?_, ?_⟩
    · rw [kF k, if_pos ⟨h1, hk⟩, ek, emk]
    · rw [kF (E.m + k), if_neg (show ¬ (1 ≤ E.m + k ∧ E.m + k < E.m) by omega),
        if_pos (show E.m + 1 ≤ E.m + k ∧ E.m + k < E.m + E.m by omega),
        Nat.add_sub_cancel_left, ek, emk]
    · rw [kU k, if_pos ⟨h1, hk⟩, ek, emk]

/-- One round of the first loop of `fft0padwide::forwards`, seen from the column `i`. -/
theorem wide_forwards_prelude (E : fftpad) (hm : 1 ≤ E.m) (hM : E.M ≤ E.stride)
    (f u : Nat) (hd : f + 2 * E.m * E.stride ≤ u ∨ u + E.m * E.stride ≤ f) (i : Nat)
    (hi : i < E.M) (i2 : Nat) (μ : Mem) (hi2 : i2 < E.M) :
    colView f u E.stride (2 * E.m) E.m i
        (STORE (STORE μ (f + i2) 0.0) (f + E.m * E.stride + i2)
          ((μ (f + i2) + μ (f + E.m * E.stride + i2) + μ (u + i2))
            * ((1.0 / (3.0 * (E.m : ℝ)) : ℝ) : ℂ)))
      = if i2 = i then
          (fun S : ColState => (S.setF 0 0).setF E.m
            ((S.F 0 + S.F E.m + S.U 0) * ((1.0 / (3.0 * (E.m : ℝ)) : ℝ) : ℂ)))
            (colView f u E.stride (2 * E.m) E.m i μ)
        else colView f u E.stride (2 * E.m) E.m i μ := by
  rw [colView_STORE_F f u E.stride E.M (2 * E.m) E.m hM hd _ E.m i2 i _ (by omega) hi2 hi,
    colView_STORE_F0 f u E.stride E.M (2 * E.m) E.m hM hd _ i2 i _ (by omega) hi2 hi]
  by_cases hii : i2 = i
  · subst hii
    simp only [if_pos rfl]
    rw [← colView_F0 f u E.stride (2 * E.m) E.m i2 μ (by omega),
      ← colView_F f u E.stride (2 * E.m) E.m i2 μ E.m (by omega),
      ← colView_U0 f u E.stride (2 * E.m) E.m i2 μ (by omega)]
    norm_num
  · simp only [if_neg hii]

/-- One round of the main loop of `fft0padwide::forwards`, seen from the column `i`. -/
theorem wide_forwards_step (E : fftpad) (hs : 0 < E.s) (hM : E.M ≤ E.stride)
    (f u : Nat) (hd : f + 2 * E.m * E.stride ≤ u ∨ u + E.m * E.stride ≤ f) (i : Nat)
    (hi : i < E.M) (k i2 : Nat) (μ : Mem) (h1 : 1 ≤ k) (hk : k < E.m) (hi2 : i2 < E.M) :
    colView f u E.stride (2 * E.m) E.m i
        (STORE (STORE μ (f + k * E.stride + i2)
            (vmul (LOAD μ (f + k * E.stride + i2)) (LOADd (1.0 / (3.0 * (E.m : ℝ))))
              + vmul (LOADd (-0.5))
                (ZMULTC (ZMULT3
                    (UNPACKL (vmul (LOADd (1.0 / (3.0 * (E.m : ℝ))))
                        (tab E.ZetaH (k / E.s * E.s / E.s)))
                      (vmul (LOADd (1.0 / (3.0 * (E.m : ℝ))))
                        (tab E.ZetaH (k / E.s * E.s / E.s))))
                    (UNPACKH (CONJ (vmul (LOADd (1.0 / (3.0 * (E.m : ℝ))))
                        (tab E.ZetaH (k / E.s * E.s / E.s))))
                      (vmul (LOADd (1.0 / (3.0 * (E.m : ℝ))))
                        (tab E.ZetaH (k / E.s * E.s / E.s))))
                    (tab E.ZetaL (k - k / E.s * E.s)))
                  (LOAD μ (f + E.m * E.stride + k * E.stride + i2))
                + ZMULT (ZMULT3
                    (UNPACKL (vmul (LOADd (1.0 / (3.0 * (E.m : ℝ))))
                        (tab E.ZetaH (k / E.s * E.s / E.s)))
                      (vmul (LOADd (1.0 / (3.0 * (E.m : ℝ))))
                        (tab E.ZetaH (k / E.s * E.s / E.s))))
                    (UNPACKH (CONJ (vmul (LOADd (1.0 / (3.0 * (E.m : ℝ))))
                        (tab E.ZetaH (k / E.s * E.s / E.s))))
                      (vmul (LOADd (1.0 / (3.0 * (E.m : ℝ))))
                        (tab E.ZetaH (k / E.s * E.s / E.s))))
                    (tab E.ZetaL (k - k / E.s * E.s)))
                  (LOAD μ (u + k * E.stride + i2)))
              + vmul (LOADd hsqrt3)
                (ZMULTI1 (ZMULTC (ZMULT3
                    (UNPACKL (vmul (LOADd (1.0 / (3.0 * (E.m : ℝ))))
                        (tab E.ZetaH (k / E.s * E.s / E.s)))
                      (vmul (LOADd (1.0 / (3.0 * (E.m : ℝ))))
                        (tab E.ZetaH (k / E.s * E.s / E.s))))
                    (UNPACKH (CONJ (vmul (LOADd (1.0 / (3.0 * (E.m : ℝ))))
                        (tab E.ZetaH (k / E.s * E.s / E.s))))
                      (vmul (LOADd (1.0 / (3.0 * (E.m : ℝ))))
                        (tab E.ZetaH (k / E.s * E.s / E.s))))
                    (tab E.ZetaL (k - k / E.s * E.s)))
                  (LOAD μ (f + E.m * E.stride + k * E.stride + i2))
                - ZMULT (ZMULT3
                    (UNPACKL (vmul (LOADd (1.0 / (3.0 * (E.m : ℝ))))
                        (tab E.ZetaH (k / E.s * E.s / E.s)))
                      (vmul (LOADd (1.0 / (3.0 * (E.m : ℝ))))
                        (tab E.ZetaH (k / E.s * E.s / E.s))))
                    (UNPACKH (CONJ (vmul (LOADd (1.0 / (3.0 * (E.m : ℝ))))
                        (tab E.ZetaH (k / E.s * E.s / E.s))))
                      (vmul (LOADd (1.0 / (3.0 * (E.m : ℝ))))
                        (tab E.ZetaH (k / E.s * E.s / E.s))))
                    (tab E.ZetaL (k - k / E.s * E.s)))
                  (LOAD μ (u + k * E.stride + i2))))))
          (f + E.m * E.stride + k * E.stride + i2)
          (vmul (LOAD μ (f + k * E.stride + i2)) (LOADd (1.0 / (3.0 * (E.m : ℝ))))
            + (ZMULTC (ZMULT3
                  (UNPACKL (vmul (LOADd (1.0 / (3.0 * (E.m : ℝ))))
                      (tab E.ZetaH (k / E.s * E.s / E.s)))
                    (vmul (LOADd (1.0 / (3.0 * (E.m : ℝ))))
                      (tab E.ZetaH (k / E.s * E.s / E.s))))
                  (UNPACKH (CONJ (vmul (LOADd (1.0 / (3.0 * (E.m : ℝ))))
                      (tab E.ZetaH (k / E.s * E.s / E.s))))
                    (vmul (LOADd (1.0 / (3.0 * (E.m : ℝ))))
                      (tab E.ZetaH (k / E.s * E.s / E.s))))
                  (tab E.ZetaL (k - k / E.s * E.s)))
                (LOAD μ (f + E.m * E.stride + k * E.stride + i2))
              + ZMULT (ZMULT3
                  (UNPACKL (vmul (LOADd (1.0 / (3.0 * (E.m : ℝ))))
                      (tab E.ZetaH (k / E.s * E.s / E.s)))
                    (vmul (LOADd (1.0 / (3.0 * (E.m : ℝ))))
                      (tab E.ZetaH (k / E.s * E.s / E.s))))
                  (UNPACKH (CONJ (vmul (LOADd (1.0 / (3.0 * (E.m : ℝ))))
                      (tab E.ZetaH (k / E.s * E.s / E.s))))
                    (vmul (LOADd (1.0 / (3.0 * (E.m : ℝ))))
                      (tab E.ZetaH (k / E.s * E.s / E.s))))
                  (tab E.ZetaL (k - k / E.s * E.s)))
                (LOAD μ (u + k * E.stride + i2)))))
      = if i2 = i then
          (fun S : ColState => ((S.setF k
              ((fun (k : Nat) (x y w : ℂ) =>
                ((1.0 / (3.0 * (E.m : ℝ)) : ℝ) : ℂ) * x
                  + ((-0.5 : ℝ) : ℂ)
                    * ((starRingEnd ℂ) (((1.0 / (3.0 * (E.m : ℝ)) : ℝ) : ℂ) * E.zetak k) * y
                      + ((1.0 / (3.0 * (E.m : ℝ)) : ℝ) : ℂ) * E.zetak k * w)
                  + (hsqrt3 : ℂ) * (Complex.I
                    * ((starRingEnd ℂ) (((1.0 / (3.0 * (E.m : ℝ)) : ℝ) : ℂ) * E.zetak k) * y
                      - ((1.0 / (3.0 * (E.m : ℝ)) : ℝ) : ℂ) * E.zetak k * w)))
                k (S.F k) (S.F (E.m + k)) (S.U k))).setF (E.m + k)
              ((fun (k : Nat) (x y w : ℂ) =>
                ((1.0 / (3.0 * (E.m : ℝ)) : ℝ) : ℂ) * x
                  + ((starRingEnd ℂ) (((1.0 / (3.0 * (E.m : ℝ)) : ℝ) : ℂ) * E.zetak k) * y
                    + ((1.0 / (3.0 * (E.m : ℝ)) : ℝ) : ℂ) * E.zetak k * w))
                k (S.F k) (S.F (E.m + k)) (S.U k))).setU k
              ((fun (_ : Nat) (_ _ w : ℂ) => w) k (S.F k) (S.F (E.m + k)) (S.U k)))
            (colView f u E.stride (2 * E.m) E.m i μ)
        else colView f u E.stride (2 * E.m) E.m i μ := by
  rw [ZMULT3_unpack, ZMULTI1_eq, ZMULTC_eq_mul, ZMULT_eq_mul, vmul_LOADd, vmul_LOADd,
    vmul_LOADd, vmul_LOADd_right, (block_index E.s k hs).1, (block_index E.s k hs).2,
    row_shift f E.m k E.stride i2,
    colView_STORE_F f u E.stride E.M (2 * E.m) E.m hM hd _ (E.m + k) i2 i _ (by omega) hi2 hi,
    colView_STORE_F f u E.stride E.M (2 * E.m) E.m hM hd _ k i2 i _ (by omega) hi2 hi,
    mul_assoc (((1.0 / (3.0 * (E.m : ℝ)) : ℝ)) : ℂ) (tab E.ZetaH (k / E.s))]
  by_cases hii : i2 = i
  · subst hii
    simp only [if_pos rfl, LOAD]
    rw [← colView_F f u E.stride (2 * E.m) E.m i2 μ k (by omega),
      ← colView_F f u E.stride (2 * E.m) E.m i2 μ (E.m + k) (by omega),
      ← colView_U f u E.stride (2 * E.m) E.m i2 μ k hk]
    exact (ColState.setU_self _ k).symm
  · simp only [if_neg hii]

/-- The output of `fft0padwide::forwards` on the column `i`, from the state `S4` after the
three transforms: `f[0] = 0`, `f[m] = (f[0] + f[m] + u[0])/(3m)` and the recombination of the
rows `k`, `m+k` of `f` and `k` of `u` for `1 ≤ k < m`. -/
theorem wide_forwards_view (E : fftpad) (hm : 1 ≤ E.m) (hs : 0 < E.s) (hM : E.M ≤ E.stride)
    (F : Transform) (f u : Nat) (μ : Mem)
    (hd : f + 2 * E.m * E.stride ≤ u ∨ u + E.m * E.stride ≤ f) (i : Nat) (hi : i < E.M) :
    ∃ (ν : Mem) (S4 : ColState), fft0padwide.forwards E F f u μ = some ν ∧
      S4 = (((colView f u E.stride (2 * E.m) E.m i μ).fftF F E.m 0).fftF F E.m E.m).fftU F
        E.m 0 ∧
      (colView f u E.stride (2 * E.m) E.m i ν).F 0 = 0 ∧
      (colView f u E.stride (2 * E.m) E.m i ν).F E.m
        = (S4.F 0 + S4.F E.m + S4.U 0) * ((1.0 / (3.0 * (E.m : ℝ)) : ℝ) : ℂ) ∧
      ∀ k, 1 ≤ k → k < E.m →
        (colView f u E.stride (2 * E.m) E.m i ν).F k
          = ((1.0 / (3.0 * (E.m : ℝ)) : ℝ) : ℂ) * S4.F k
            + ((-0.5 : ℝ) : ℂ)
              * ((starRingEnd ℂ) (((1.0 / (3.0 * (E.m : ℝ)) : ℝ) : ℂ) * E.zetak k)
                  * S4.F (E.m + k)
                + ((1.0 / (3.0 * (E.m : ℝ)) : ℝ) : ℂ) * E.zetak k * S4.U k)
            + (hsqrt3 : ℂ) * (Complex.I
              * ((starRingEnd ℂ) (((1.0 / (3.0 * (E.m : ℝ)) : ℝ) : ℂ) * E.zetak k)
                  * S4.F (E.m + k)
                - ((1.0 / (3.0 * (E.m : ℝ)) : ℝ) : ℂ) * E.zetak k * S4.U k)) ∧
        (colView f u E.stride (2 * E.m) E.m i ν).F (E.m + k)
          = ((1.0 / (3.0 * (E.m : ℝ)) : ℝ) : ℂ) * S4.F k
            + ((starRingEnd ℂ) (((1.0 / (3.0 * (E.m : ℝ)) : ℝ) : ℂ) * E.zetak k)
                * S4.F (E.m + k)
              + ((1.0 / (3.0 * (E.m : ℝ)) : ℝ) : ℂ) * E.zetak k * S4.U k) := by
  obtain ⟨ν, hrun, hV⟩ := view_blocks_from_one (colView f u E.stride (2 * E.m) E.m i)
    (fun K k i μ =>
      let Zeta := vmul (LOADd (1.0 / (3.0 * (E.m : ℝ)))) (tab E.ZetaH (K / E.s))
      let X := UNPACKL Zeta Zeta
      let Y := UNPACKH (CONJ Zeta) Zeta
      let zetak := ZMULT3 X Y (tab E.ZetaL (k - K))
      let F0 := vmul (LOAD μ (f + k * E.stride + i)) (LOADd (1.0 / (3.0 * (E.m : ℝ))))
      let F1 := ZMULTC zetak (LOAD μ (f + E.m * E.stride + k * E.stride + i))
      let F2 := ZMULT zetak (LOAD μ (u + k * E.stride + i))
      let S := F1 + F2
      let μ := STORE μ (f + k * E.stride + i)
        (F0 + vmul (LOADd (-0.5)) S + vmul (LOADd hsqrt3) (ZMULTI1 (F1 - F2)))
      STORE μ (f + E.m * E.stride + k * E.stride + i) (F0 + S))
    (fun k S => ((S.setF k
        ((fun (k : Nat) (x y w : ℂ) =>
          ((1.0 / (3.0 * (E.m : ℝ)) : ℝ) : ℂ) * x
            + ((-0.5 : ℝ) : ℂ)
              * ((starRingEnd ℂ) (((1.0 / (3.0 * (E.m : ℝ)) : ℝ) : ℂ) * E.zetak k) * y
                + ((1.0 / (3.0 * (E.m : ℝ)) : ℝ) : ℂ) * E.zetak k * w)
            + (hsqrt3 : ℂ) * (Complex.I
              * ((starRingEnd ℂ) (((1.0 / (3.0 * (E.m : ℝ)) : ℝ) : ℂ) * E.zetak k) * y
                - ((1.0 / (3.0 * (E.m : ℝ)) : ℝ) : ℂ) * E.zetak k * w)))
          k (S.F k) (S.F (E.m + k)) (S.U k))).setF (E.m + k)
        ((fun (k : Nat) (x y w : ℂ) =>
          ((1.0 / (3.0 * (E.m : ℝ)) : ℝ) : ℂ) * x
            + ((starRingEnd ℂ) (((1.0 / (3.0 * (E.m : ℝ)) : ℝ) : ℂ) * E.zetak k) * y
              + ((1.0 / (3.0 * (E.m : ℝ)) : ℝ) : ℂ) * E.zetak k * w))
          k (S.F k) (S.F (E.m + k)) (S.U k))).setU k
        ((fun (_ : Nat) (_ _ w : ℂ) => w) k (S.F k) (S.F (E.m + k)) (S.U k)))
    E.m E.s E.M i hs hi
    (fun k i2 ν h1 hk hi2 => wide_forwards_step E hs hM f u hd i hi k i2 ν h1 hk hi2)
    (forUpTo (fun i μ =>
      let f0 := μ (f + i)
      let f1 := μ (f + E.m * E.stride + i)
      let f2 := μ (u + i)
      let μ := STORE μ (f + i) 0.0
      STORE μ (f + E.m * E.stride + i) ((f0 + f1 + f2) * ((1.0 / (3.0 * (E.m : ℝ)) : ℝ) : ℂ)))
      E.M
      (mfft F E.m E.M E.stride u (mfft F E.m E.M E.stride (f + E.m * E.stride)
        (mfft F E.m E.M E.stride f μ))))
  rw [forUpTo_set3 E.m
      (fun (k : Nat) (x y w : ℂ) =>
        ((1.0 / (3.0 * (E.m : ℝ)) : ℝ) : ℂ) * x
          + ((-0.5 : ℝ) : ℂ)
            * ((starRingEnd ℂ) (((1.0 / (3.0 * (E.m : ℝ)) : ℝ) : ℂ) * E.zetak k) * y
              + ((1.0 / (3.0 * (E.m : ℝ)) : ℝ) : ℂ) * E.zetak k * w)
          + (hsqrt3 : ℂ) * (Complex.I
            * ((starRingEnd ℂ) (((1.0 / (3.0 * (E.m : ℝ)) : ℝ) : ℂ) * E.zetak k) * y
              - ((1.0 / (3.0 * (E.m : ℝ)) : ℝ) : ℂ) * E.zetak k * w)))
      (fun (k : Nat) (x y w : ℂ) =>
        ((1.0 / (3.0 * (E.m : ℝ)) : ℝ) : ℂ) * x
          + ((starRingEnd ℂ) (((1.0 / (3.0 * (E.m : ℝ)) : ℝ) : ℂ) * E.zetak k) * y
            + ((1.0 / (3.0 * (E.m : ℝ)) : ℝ) : ℂ) * E.zetak k * w))
      (fun (_ : Nat) (_ _ w : ℂ) => w) E.m (Nat.le_refl _),
    view_iloop (colView f u E.stride (2 * E.m) E.m i) _
      (fun S : ColState => (S.setF 0 0).setF E.m
        ((S.F 0 + S.F E.m + S.U 0) * ((1.0 / (3.0 * (E.m : ℝ)) : ℝ) : ℂ))) E.M i hi
      (fun i2 ν hi2 => wide_forwards_prelude E hm hM f u hd i hi i2 ν hi2),
    colView_mfft_U0 f u E.stride E.M (2 * E.m) E.m hM hd F E.m (Nat.le_refl _) _ i hi,
    colView_mfft_F f u E.stride E.M (2 * E.m) E.m hM hd F E.m E.m (by omega) _ i hi,
    colView_mfft_F0 f u E.stride E.M (2 * E.m) E.m hM hd F E.m (by omega) _ i hi] at hV
  obtain ⟨S4, hS4⟩ : ∃ S4 : ColState, S4
      = (((colView f u E.stride (2 * E.m) E.m i μ).fftF F E.m 0).fftF F E.m E.m).fftU F
        E.m 0 := ⟨_, rfl⟩
  rw [← hS4] at hV
  obtain ⟨SQ, hSQ⟩ : ∃ SQ : ColState, SQ = (S4.setF 0 0).setF E.m
      ((S4.F 0 + S4.F E.m + S4.U 0) * ((1.0 / (3.0 * (E.m : ℝ)) : ℝ) : ℂ)) := ⟨_, rfl⟩
  rw [← hSQ] at hV
  have kF : ∀ r, (colView f u E.stride (2 * E.m) E.m i ν).F r
      = if 1 ≤ r ∧ r < E.m then
          ((1.0 / (3.0 * (E.m : ℝ)) : ℝ) : ℂ) * SQ.F r
            + ((-0.5 : ℝ) : ℂ)
              * ((starRingEnd ℂ) (((1.0 / (3.0 * (E.m : ℝ)) : ℝ) : ℂ) * E.zetak r)
                  * SQ.F (E.m + r)
                + ((1.0 / (3.0 * (E.m : ℝ)) : ℝ) : ℂ) * E.zetak r * SQ.U r)
            + (hsqrt3 : ℂ) * (Complex.I
              * ((starRingEnd ℂ) (((1.0 / (3.0 * (E.m : ℝ)) : ℝ) : ℂ) * E.zetak r)
                  * SQ.F (E.m + r)
                - ((1.0 / (3.0 * (E.m : ℝ)) : ℝ) : ℂ) * E.zetak r * SQ.U r))
        else if E.m + 1 ≤ r ∧ r < E.m + E.m then
          ((1.0 / (3.0 * (E.m : ℝ)) : ℝ) : ℂ) * SQ.F (r - E.m)
            + ((starRingEnd ℂ) (((1.0 / (3.0 * (E.m : ℝ)) : ℝ) : ℂ) * E.zetak (r - E.m))
                * SQ.F r
              + ((1.0 / (3.0 * (E.m : ℝ)) : ℝ) : ℂ) * E.zetak (r - E.m) * SQ.U (r - E.m))
        else SQ.F r := by
    intro r
    rw [hV]
  have hSQF : ∀ r, SQ.F r
      = if r = E.m then (S4.F 0 + S4.F E.m + S4.U 0) * ((1.0 / (3.0 * (E.m : ℝ)) : ℝ) : ℂ)
        else if r = 0 then 0 else S4.F r := by
    intro r
    rw [hSQ]
    show Function.update (Function.update _ 0 _) E.m _ r = _
    rw [Function.update_apply, Function.update_apply]
  have hSQU : ∀ r, SQ.U r = S4.U r := by
    intro r
    rw [hSQ]
    rfl
  refine ⟨ν, S4, hrun, hS4, ?_, ?_, ?_⟩
  · rw [kF 0, if_neg (show ¬ (1 ≤ 0 ∧ 0 < E.m) by omega),
      if_neg (show ¬ (E.m + 1 ≤ 0 ∧ 0 < E.m + E.m) by omega), hSQF 0,
      if_neg (show ¬ (0 = E.m) by omega), if_pos rfl]
  · rw [kF E.m, if_neg (show ¬ (1 ≤ E.m ∧ E.m < E.m) by omega),
      if_neg (show ¬ (E.m + 1 ≤ E.m ∧ E.m < E.m + E.m) by omega), hSQF E.m, if_pos rfl]
  · intro k h1 hk
    have ek : SQ.F k = S4.F k := by
      rw [hSQF k, if_neg (show ¬ (k = E.m) by omega), if_neg (show ¬ (k = 0) by omega)]
    have emk : SQ.F (E.m + k) = S4.F (E.m + k) := by
      rw [hSQF (E.m + k), if_neg (show ¬ (E.m + k = E.m) by omega),
        if_neg (show ¬ (E.m + k = 0) by omega)]
    refine ⟨?_, ?_⟩
    · rw [kF k, if_pos ⟨h1, hk⟩, ek, emk, hSQU k]
    · rw [kF (E.m + k), if_neg (show ¬ (1 ≤ E.m + k ∧ E.m + k < E.m) by omega),
        if_pos (show E.m + 1 ≤ E.m + k ∧ E.m + k < E.m + E.m by omega),
        Nat.add_sub_cancel_left, ek, emk, hSQU k]

/-- The three forward transforms of `fft0padwide` after its three backward transforms give
`m` times the rows `r < 2m` of `f` and `r < m` of `u`. -/
theorem wide_transforms_inverse (B F : Transform) (m : Nat) (hBF : InversePair B F m)
    (S1 : ColState) :
    (∀ r, r < 2 * m →
      (((((((S1.fftF B m 0).fftF B m m).fftU B m 0).fftF F m 0).fftF F m m).fftU F m 0).F r)
        = (m : ℂ) * S1.F r) ∧
    (∀ r, r < m →
      (((((((S1.fftF B m 0).fftF B m m).fftU B m 0).fftF F m 0).fftF F m m).fftU F m 0).U r)
        = (m : ℂ) * S1.U r) := by
  constructor
  · intro r hr
    show (((((S1.fftF B m 0).fftF B m m).fftU B m 0).fftF F m 0).fftF F m m).F r = _
    by_cases hlow : r < m
    · rw [fftF_other F m m _ r (Or.inl hlow)]
      exact fftF_inverse B F m 0 hBF S1 (((S1.fftF B m 0).fftF B m m).fftU B m 0)
        (fun j hj => by
          show ((S1.fftF B m 0).fftF B m m).F (0 + j) = _
          rw [fftF_other B m m _ (0 + j) (Or.inl (by omega))]
          exact fftF_at B m 0 S1 j hj) r (by omega)
    · have h := fftF_inverse B F m m hBF (S1.fftF B m 0)
        ((((S1.fftF B m 0).fftF B m m).fftU B m 0).fftF F m 0)
        (fun j hj => by
          rw [fftF_other F m 0 _ (m + j) (Or.inr (by omega))]
          show ((S1.fftF B m 0).fftF B m m).F (m + j) = _
          exact fftF_at B m m (S1.fftF B m 0) j hj) r (by omega)
      rw [h, fftF_other B m 0 S1 r (Or.inr (by omega))]
  · intro r hr
    exact fftU_inverse B F m 0 hBF ((S1.fftF B m 0).fftF B m m)
      (((((S1.fftF B m 0).fftF B m m).fftU B m 0).fftF F m 0).fftF F m m)
      (fun j hj => by
        show (((S1.fftF B m 0).fftF B m m).fftU B m 0).U (0 + j) = _
        exact fftU_at B m 0 ((S1.fftF B m 0).fftF B m m) j hj) r (by omega)

theorem zero_mode_three (m : Nat) (hm : 1 ≤ m) (Z N : ℂ) :
    ((m : ℂ) * (Z + 2 * N) + (m : ℂ) * (Z - N) + (m : ℂ) * (Z - N))
      * ((1.0 / (3.0 * (m : ℝ)) : ℝ) : ℂ) = Z := by
  have hmC : (m : ℂ) ≠ 0 := by
    have : 0 < m := hm
    exact_mod_cast this.ne'
  rw [third_ninv_cast m hm]
  field_simp
  ring

/-- C28: for `m ≥ 1`, a block size `s ≥ 1`, rows of `M ≤ stride` cells, a buffer `f` of `2m`
rows and a buffer `u` of `m` rows that do not overlap, phase factors
`z_k = ZetaH[k/s]*ZetaL[k mod s]` of modulus one, and plans of `m` rows with `Forwards` after
`Backwards` equal to `m` times the identity: `fft0padwide::backwards(f, u)` followed by
`fft0padwide::forwards(f, u)` returns, restores `f[k*stride + i]` for every row `k` in
`[1, 2m)` and `i < M` (the row `m` included) and sets the row 0 of `f` to zero. -/
theorem fft0padwide_roundtrip (E : fftpad) (hm : 1 ≤ E.m) (hs : 0 < E.s)
    (hM : E.M ≤ E.stride) (B F : Transform) (hBF : InversePair B F E.m)
    (hz : ∀ k, k < E.m → (starRingEnd ℂ) (E.zetak k) * E.zetak k = 1)
    (f u : Nat) (μ : Mem)
    (hd : f + 2 * E.m * E.stride ≤ u ∨ u + E.m * E.stride ≤ f) :
    ∃ ν1 ν2, fft0padwide.backwards E B f u μ = some ν1 ∧
      fft0padwide.forwards E F f u ν1 = some ν2 ∧
      (∀ k i, 1 ≤ k → k < 2 * E.m → i < E.M →
        ν2 (f + k * E.stride + i) = μ (f + k * E.stride + i)) ∧
      (∀ i, i < E.M → ν2 (f + i) = 0) := by
  have hcol : ∀ i, i < E.M → ∃ ν1 ν2, fft0padwide.backwards E B f u μ = some ν1 ∧
      fft0padwide.forwards E F f u ν1 = some ν2 ∧
      (∀ k, 1 ≤ k → k < 2 * E.m →
        (colView f u E.stride (2 * E.m) E.m i ν2).F k
          = (colView f u E.stride (2 * E.m) E.m i μ).F k) ∧
      (colView f u E.stride (2 * E.m) E.m i ν2).F 0 = 0 := by
    intro i hi
    obtain ⟨ν1, S1, hb, hV1, h10, h1m, h1u, h1k⟩ :=
      wide_backwards_view E hm hs hM B f u μ hd i hi
    obtain ⟨ν2, S4, hf, hS4, h20, h2m, h2k⟩ :=
      wide_forwards_view E hm hs hM F f u ν1 hd i hi
    rw [hV1] at hS4
    obtain ⟨hinvF, hinvU⟩ := wide_transforms_inverse B F E.m hBF S1
    rw [← hS4] at hinvF hinvU
    refine ⟨ν1, ν2, hb, hf, ?_, h20⟩
    intro k hk1 hk2
    by_cases hkm : k = E.m
    · rw [hkm, h2m, hinvF 0 (by omega), hinvF E.m (by omega), hinvU 0 (by omega), h10, h1m,
        h1u]
      exact zero_mode_three E.m hm _ _
    · by_cases hlow : k < E.m
      · obtain ⟨e1, e2, e3⟩ := h1k k hk1 hlow
        rw [(h2k k hk1 hlow).1, hinvF k (by omega), hinvF (E.m + k) (by omega),
          hinvU k hlow, e1, e2, e3, third_ninv_cast E.m hm]
        exact (roundtrip_three E.m hm (E.zetak k) _ _ (hz k hlow)).1
      · obtain ⟨j, hj⟩ : ∃ j, k = E.m + j := ⟨k - E.m, by omega⟩
        subst hj
        obtain ⟨e1, e2, e3⟩ := h1k j (by omega) (by omega)
        rw [(h2k j (by omega) (by omega)).2, hinvF j (by omega), hinvF (E.m + j) (by omega),
          hinvU j (by omega), e1, e2, e3, third_ninv_cast E.m hm]
        exact (roundtrip_three E.m hm (E.zetak j) _ _ (hz j (by omega))).2
  obtain ⟨ν1, hν1⟩ : ∃ ν1, fft0padwide.backwards E B f u μ = some ν1 :=
    ⟨_, congrArg (Option.map _) (forBlocks_from_one E.m E.s hs _ _)⟩
  obtain ⟨ν2, hν2⟩ : ∃ ν2, fft0padwide.forwards E F f u ν1 = some ν2 :=
    ⟨_, forBlocks_from_one E.m E.s hs _ _⟩
  refine ⟨ν1, ν2, hν1, hν2, ?_, ?_⟩
  · intro k i hk1 hk2 hi
    obtain ⟨μ1, μ2, h1, h2, h3, _⟩ := hcol i hi
    have e1 : ν1 = μ1 := Option.some.inj (hν1.symm.trans h1)
    rw [← e1] at h2
    have e2 : ν2 = μ2 := Option.some.inj (hν2.symm.trans h2)
    rw [← e2] at h3
    rw [← colView_F f u E.stride (2 * E.m) E.m i ν2 k hk2, h3 k hk1 hk2,
      colView_F f u E.stride (2 * E.m) E.m i μ k hk2]
  · intro i hi
    obtain ⟨μ1, μ2, h1, h2, _, h4⟩ := hcol i hi
    have e1 : ν1 = μ1 := Option.some.inj (hν1.symm.trans h1)
    rw [← e1] at h2
    have e2 : ν2 = μ2 := Option.some.inj (hν2.symm.trans h2)
    rw [← e2] at h4
    rw [← colView_F0 f u E.stride (2 * E.m) E.m i ν2 (by omega), h4]

/-- Witness of C28: `m = 2`, `M = 1`, `stride = 1` with the table of `BuildZeta(6, 2)` and the
exact transforms of length 2, `f` at 0 (four rows) and `u` at 4 (two rows). -/
theorem fft0padwide_roundtrip_witness :
    (1 ≤ (fftpad.mk 2 1 1 (BuildZeta 6 2).s (BuildZeta 6 2).ZetaH (BuildZeta 6 2).ZetaL).m) ∧
    ∃ ν1 ν2,
      fft0padwide.backwards
        (fftpad.mk 2 1 1 (BuildZeta 6 2).s (BuildZeta 6 2).ZetaH (BuildZeta 6 2).ZetaL)
        (dft 1 2) 0 4 (fun a => (a : ℂ)) = some ν1 ∧
      fft0padwide.forwards
        (fftpad.mk 2 1 1 (BuildZeta 6 2).s (BuildZeta 6 2).ZetaH (BuildZeta 6 2).ZetaL)
        (dft (-1) 2) 0 4 ν1 = some ν2 ∧
      ν2 (0 + 1 * 1 + 0) = (fun a : Nat => (a : ℂ)) (0 + 1 * 1 + 0) ∧
      ν2 (0 + 2 * 1 + 0) = (fun a : Nat => (a : ℂ)) (0 + 2 * 1 + 0) ∧
      ν2 (0 + 3 * 1 + 0) = (fun a : Nat => (a : ℂ)) (0 + 3 * 1 + 0) ∧
      ν2 (0 + 0) = 0 := by
  obtain ⟨ν1, ν2, h1, h2, h3, h4⟩ := fft0padwide_roundtrip
    (fftpad.mk 2 1 1 (BuildZeta 6 2).s (BuildZeta 6 2).ZetaH (BuildZeta 6 2).ZetaL)
    (by decide) (show 0 < Nat.sqrt 2 from Nat.sqrt_pos.mpr (by decide)) (by decide)
    (dft 1 2) (dft (-1) 2) (dft_inverse_pair 2 (by decide))
    (fun k hk => BuildZeta_unit 6 2 k hk) 0 4 (fun a => (a : ℂ)) (by decide)
  exact ⟨by decide, ν1, ν2, h1, h2, h3 1 0 (by decide) (by decide) (by decide),
    h3 2 0 (by decide) (by decide) (by decide), h3 3 0 (by decide) (by decide) (by decide),
    h4 0 (by decide)⟩

theorem setU_F (S : ColState) (r : Nat) (v : ℂ) : (S.setU r v).F = S.F := rfl

theorem setF_U (S : ColState) (r : Nat) (v : ℂ) : (S.setF r v).U = S.U := rfl

/-- The main loop of `fft0pad::backwards` on one column, rounds `1 ≤ k ≤ n`: the round `k`
reads the rows `0`, `k` and `m1+k` of `f`, moves the row `k` to the row `0` and sets the rows
`k` and `m1+k` of `f` and the row `k` of `u`. -/
theorem forUpTo_padB (m1 : Nat) (g2 g3 : Nat → ℂ → ℂ → ℂ) (n : Nat) (hn : n ≤ m1)
    (S : ColState) :
    forUpTo (fun k S => if 1 ≤ k then
        (((S.setF 0 (S.F k)).setF k (S.F 0 + S.F (m1 + k))).setF (m1 + k)
          (g2 k (S.F 0) (S.F (m1 + k)))).setU k (g3 k (S.F 0) (S.F (m1 + k)))
      else S) (n + 1) S
      = { F := fun r => if r = 0 then S.F n
            else if r ≤ n then S.F (r - 1) + S.F (m1 + r)
            else if m1 + 1 ≤ r ∧ r ≤ m1 + n then g2 (r - m1) (S.F (r - m1 - 1)) (S.F r)
            else S.F r
          U := fun r => if 1 ≤ r ∧ r ≤ n then g3 r (S.F (r - 1)) (S.F (m1 + r)) else S.U r } := by
  induction n with
  | zero =>
    apply ColState.ext_fields
    · intro r
      show S.F r = if r = 0 then S.F 0 else if r ≤ 0 then _
        else if m1 + 1 ≤ r ∧ r ≤ m1 + 0 then _ else S.F r
      by_cases h0 : r = 0
      · rw [if_pos h0, h0]
      · rw [if_neg h0, if_neg (show ¬ (r ≤ 0) by omega),
          if_neg (show ¬ (m1 + 1 ≤ r ∧ r ≤ m1 + 0) by omega)]
    · intro r
      show S.U r = if 1 ≤ r ∧ r ≤ 0 then _ else S.U r
      rw [if_neg (show ¬ (1 ≤ r ∧ r ≤ 0) by omega)]
  | succ n ih =>
    have ih2 := ih (by omega)
    show (fun k S => if 1 ≤ k then
        (((S.setF 0 (S.F k)).setF k (S.F 0 + S.F (m1 + k))).setF (m1 + k)
          (g2 k (S.F 0) (S.F (m1 + k)))).setU k (g3 k (S.F 0) (S.F (m1 + k)))
      else S) (n + 1) (forUpTo _ (n + 1) S) = _
    rw [ih2]
    simp only [if_pos (show 1 ≤ n + 1 by omega)]
    have ek : (if n + 1 = 0 then S.F n
        else if n + 1 ≤ n then S.F (n + 1 - 1) + S.F (m1 + (n + 1))
        else if m1 + 1 ≤ n + 1 ∧ n + 1 ≤ m1 + n then
          g2 (n + 1 - m1) (S.F (n + 1 - m1 - 1)) (S.F (n + 1))
        else S.F (n + 1)) = S.F (n + 1) := by
      rw [if_neg (show ¬ (n + 1 = 0) by omega), if_neg (show ¬ (n + 1 ≤ n) by omega),
        if_neg (show ¬ (m1 + 1 ≤ n + 1 ∧ n + 1 ≤ m1 + n) by omega)]
    have emk : (if m1 + (n + 1) = 0 then S.F n
        else if m1 + (n + 1) ≤ n then S.F (m1 + (n + 1) - 1) + S.F (m1 + (m1 + (n + 1)))
        else if m1 + 1 ≤ m1 + (n + 1) ∧ m1 + (n + 1) ≤ m1 + n then
          g2 (m1 + (n + 1) - m1) (S.F (m1 + (n + 1) - m1 - 1)) (S.F (m1 + (n + 1)))
        else S.F (m1 + (n + 1))) = S.F (m1 + (n + 1)) := by
      rw [if_neg (show ¬ (m1 + (n + 1) = 0) by omega),
        if_neg (show ¬ (m1 + (n + 1) ≤ n) by omega),
        if_neg (show ¬ (m1 + 1 ≤ m1 + (n + 1) ∧ m1 + (n + 1) ≤ m1 + n) by omega)]
    rw [if_pos trivial, ek, emk]
    apply ColState.ext_fields
    · intro r
      rw [setU_F]
      show _ = if r = 0 then S.F (n + 1)
          else if r ≤ n + 1 then S.F (r - 1) + S.F (m1 + r)
          else if m1 + 1 ≤ r ∧ r ≤ m1 + (n + 1) then g2 (r - m1) (S.F (r - m1 - 1)) (S.F r)
          else S.F r
      by_cases hr1 : r = m1 + (n + 1)
      · rw [hr1, setF_eq, if_neg (show ¬ (m1 + (n + 1) = 0) by omega),
          if_neg (show ¬ (m1 + (n + 1) ≤ n + 1) by omega),
          if_pos (show m1 + 1 ≤ m1 + (n + 1) ∧ m1 + (n + 1) ≤ m1 + (n + 1) by omega),
          Nat.add_sub_cancel_left, Nat.add_sub_cancel]
      · rw [setF_ne _ _ _ _ hr1]
        by_cases hr2 : r = n + 1
        · rw [hr2, setF_eq, if_neg (show ¬ (n + 1 = 0) by omega),
            if_pos (show n + 1 ≤ n + 1 by omega), Nat.add_sub_cancel]
        · rw [setF_ne _ _ _ _ hr2]
          by_cases hr3 : r = 0
          · rw [hr3, setF_eq, if_pos rfl]
          · rw [setF_ne _ _ _ _ hr3]
            show (if r = 0 then S.F n
                else if r ≤ n then S.F (r - 1) + S.F (m1 + r)
                else if m1 + 1 ≤ r ∧ r ≤ m1 + n then g2 (r - m1) (S.F (r - m1 - 1)) (S.F r)
                else S.F r) = _
            rw [if_neg hr3, if_neg hr3]
            by_cases c1 : r ≤ n
            · rw [if_pos c1, if_pos (show r ≤ n + 1 by omega)]
            · rw [if_neg c1, if_neg (show ¬ (r ≤ n + 1) by omega)]
              by_cases c2 : m1 + 1 ≤ r ∧ r ≤ m1 + n
              · rw [if_pos c2, if_pos (show m1 + 1 ≤ r ∧ r ≤ m1 + (n + 1) by omega)]
              · rw [if_neg c2, if_neg (show ¬ (m1 + 1 ≤ r ∧ r ≤ m1 + (n + 1)) by omega)]
    · intro r
      show _ = if 1 ≤ r ∧ r ≤ n + 1 then g3 r (S.F (r - 1)) (S.F (m1 + r)) else S.U r
      by_cases hr2 : r = n + 1
      · rw [hr2, setU_eq, if_pos (show 1 ≤ n + 1 ∧ n + 1 ≤ n + 1 by omega),
          Nat.add_sub_cancel]
      · rw [setU_ne _ _ _ _ hr2, setF_U, setF_U, setF_U]
        show (if 1 ≤ r ∧ r ≤ n then g3 r (S.F (r - 1)) (S.F (m1 + r)) else S.U r) = _
        by_cases c1 : 1 ≤ r ∧ r ≤ n
        · rw [if_pos c1, if_pos (show 1 ≤ r ∧ r ≤ n + 1 by omega)]
        · rw [if_neg c1, if_neg (show ¬ (1 ≤ r ∧ r ≤ n + 1) by omega)]

/-- The main loop of `fft0pad::forwards` on one column, rounds `1 ≤ k ≤ n`: the round `k`
reads the rows `k` and `m1+k` of `f` and the row `k` of `u` and sets the rows `k-1` and `m1+k`
of `f`. -/
theorem forUpTo_padF (m1 : Nat) (g1 g2 : Nat → ℂ → ℂ → ℂ → ℂ) (n : Nat) (hn : n ≤ m1)
    (S : ColState) :
    forUpTo (fun k S => if 1 ≤ k then
        (S.setF (k - 1) (g1 k (S.F k) (S.F (m1 + k)) (S.U k))).setF (m1 + k)
          (g2 k (S.F k) (S.F (m1 + k)) (S.U k))
      else S) (n + 1) S
      = { F := fun r => if r < n then g1 (r + 1) (S.F (r + 1)) (S.F (m1 + (r + 1))) (S.U (r + 1))
            else if m1 + 1 ≤ r ∧ r ≤ m1 + n then
              g2 (r - m1) (S.F (r - m1)) (S.F r) (S.U (r - m1))
            else S.F r
          U := S.U } := by
  induction n with
  | zero =>
    apply ColState.ext_fields
    · intro r
      show S.F r = if r < 0 then g1 (r + 1) (S.F (r + 1)) (S.F (m1 + (r + 1))) (S.U (r + 1))
        else if m1 + 1 ≤ r ∧ r ≤ m1 + 0 then g2 (r - m1) (S.F (r - m1)) (S.F r) (S.U (r - m1))
        else S.F r
      rw [if_neg (show ¬ (r < 0) by omega),
        if_neg (show ¬ (m1 + 1 ≤ r ∧ r ≤ m1 + 0) by omega)]
    · intro r
      rfl
  | succ n ih =>
    have ih2 := ih (by omega)
    show (fun k S => if 1 ≤ k then
        (S.setF (k - 1) (g1 k (S.F k) (S.F (m1 + k)) (S.U k))).setF (m1 + k)
          (g2 k (S.F k) (S.F (m1 + k)) (S.U k))
      else S) (n + 1) (forUpTo _ (n + 1) S) = _
    rw [ih2]
    simp only [if_pos (show 1 ≤ n + 1 by omega)]
    have ek : (if n + 1 < n then
          g1 (n + 1 + 1) (S.F (n + 1 + 1)) (S.F (m1 + (n + 1 + 1))) (S.U (n + 1 + 1))
        else if m1 + 1 ≤ n + 1 ∧ n + 1 ≤ m1 + n then
          g2 (n + 1 - m1) (S.F (n + 1 - m1)) (S.F (n + 1)) (S.U (n + 1 - m1))
        else S.F (n + 1)) = S.F (n + 1) := by
      rw [if_neg (show ¬ (n + 1 < n) by omega),
        if_neg (show ¬ (m1 + 1 ≤ n + 1 ∧ n + 1 ≤ m1 + n) by omega)]
    have emk : (if m1 + (n + 1) < n then
          g1 (m1 + (n + 1) + 1) (S.F (m1 + (n + 1) + 1)) (S.F (m1 + (m1 + (n + 1) + 1)))
            (S.U (m1 + (n + 1) + 1))
        else if m1 + 1 ≤ m1 + (n + 1) ∧ m1 + (n + 1) ≤ m1 + n then
          g2 (m1 + (n + 1) - m1) (S.F (m1 + (n + 1) - m1)) (S.F (m1 + (n + 1)))
            (S.U (m1 + (n + 1) - m1))
        else S.F (m1 + (n + 1))) = S.F (m1 + (n + 1)) := by
      rw [if_neg (show ¬ (m1 + (n + 1) < n) by omega),
        if_neg (show ¬ (m1 + 1 ≤ m1 + (n + 1) ∧ m1 + (n + 1) ≤ m1 + n) by omega)]
    rw [ek, emk]
    apply ColState.ext_fields
    · intro r
      show _ = if r < n + 1 then g1 (r + 1) (S.F (r + 1)) (S.F (m1 + (r + 1))) (S.U (r + 1))
          else if m1 + 1 ≤ r ∧ r ≤ m1 + (n + 1) then
            g2 (r - m1) (S.F (r - m1)) (S.F r) (S.U (r - m1))
          else S.F r
      rw [Nat.add_sub_cancel]
      by_cases hr1 : r = m1 + (n + 1)
      · rw [hr1, setF_eq, if_neg (show ¬ (m1 + (n + 1) < n + 1) by omega),
          if_pos (show m1 + 1 ≤ m1 + (n + 1) ∧ m1 + (n + 1) ≤ m1 + (n + 1) by omega),
          Nat.add_sub_cancel_left]
      · rw [setF_ne _ _ _ _ hr1]
        by_cases hr2 : r = n
        · rw [hr2, setF_eq, if_pos (show n < n + 1 by omega)]
        · rw [setF_ne _ _ _ _ hr2]
          show (if r < n then g1 (r + 1) (S.F (r + 1)) (S.F (m1 + (r + 1))) (S.U (r + 1))
              else if m1 + 1 ≤ r ∧ r ≤ m1 + n then
                g2 (r - m1) (S.F (r - m1)) (S.F r) (S.U (r - m1))
              else S.F r) = _
          by_cases c1 : r < n
          · rw [if_pos c1, if_pos (show r < n + 1 by omega)]
          · rw [if_neg c1, if_neg (show ¬ (r < n + 1) by omega)]
            by_cases c2 : m1 + 1 ≤ r ∧ r ≤ m1 + n
            · rw [if_pos c2, if_pos (show m1 + 1 ≤ r ∧ r ≤ m1 + (n + 1) by omega)]
            · rw [if_neg c2, if_neg (show ¬ (m1 + 1 ≤ r ∧ r ≤ m1 + (n + 1)) by omega)]
    · intro r
      rfl

/-! ## `fft0pad` on one column -/

/-- One round of the first loop of `fft0pad::backwards`, seen from the column `i`. -/
theorem pad_backwards_prelude (E : fftpad) (hm : 1 ≤ E.m) (hM : E.M ≤ E.stride)
    (f u : Nat) (hd : f + (2 * E.m - 1) * E.stride ≤ u ∨ u + (E.m + 1) * E.stride ≤ f)
    (i : Nat) (hi : i < E.M) (i2 : Nat) (μ : Mem) (hi2 : i2 < E.M) :
    colView f u E.stride (2 * E.m - 1) (E.m + 1) i
        (STORE μ (u + i2) (μ (f + (E.m - 1) * E.stride + i2)))
      = if i2 = i then
          (fun S : ColState => S.setU 0 (S.F (E.m - 1)))
            (colView f u E.stride (2 * E.m - 1) (E.m + 1) i μ)
        else colView f u E.stride (2 * E.m - 1) (E.m + 1) i μ := by
  rw [colView_STORE_U0 f u E.stride E.M (2 * E.m - 1) (E.m + 1) hM hd _ i2 i _ (by omega)
    hi2 hi]
  by_cases hii : i2 = i
  · subst hii
    simp only [if_pos rfl]
    rw [← colView_F f u E.stride (2 * E.m - 1) (E.m + 1) i2 μ (E.m - 1) (by omega)]
  · simp only [if_neg hii]

/-- One round of the main loop of `fft0pad::backwards`, seen from the column `i`. -/
theorem pad_backwards_step (E : fftpad) (hs : 0 < E.s) (hM : E.M ≤ E.stride)
    (f u : Nat) (hd : f + (2 * E.m - 1) * E.stride ≤ u ∨ u + (E.m + 1) * E.stride ≤ f)
    (i : Nat) (hi : i < E.M) (k i2 : Nat) (μ : Mem) (h1 : 1 ≤ k) (hk : k < E.m)
    (hi2 : i2 < E.M) :
    colView f u E.stride (2 * E.m - 1) (E.m + 1) i
        (STORE (STORE (STORE (STORE μ (f + i2) (LOAD μ (f + k * E.stride + i2)))
              (f + k * E.stride + i2)
              (LOAD μ (f + i2) + LOAD μ (f + (E.m - 1) * E.stride + k * E.stride + i2)))
            (f + (E.m - 1) * E.stride + k * E.stride + i2)
            (ZMULT3
                (UNPACKL (ZMULT (tab E.ZetaH (k / E.s * E.s / E.s))
                    (tab E.ZetaL (k - k / E.s * E.s)))
                  (ZMULT (tab E.ZetaH (k / E.s * E.s / E.s)) (tab E.ZetaL (k - k / E.s * E.s))))
                (UNPACKH (CONJ (ZMULT (tab E.ZetaH (k / E.s * E.s / E.s))
                    (tab E.ZetaL (k - k / E.s * E.s))))
                  (ZMULT (tab E.ZetaH (k / E.s * E.s / E.s)) (tab E.ZetaL (k - k / E.s * E.s))))
                (UNPACKL (vmul (LOAD μ (f + i2)) (LOADd (-0.5))
                    + LOAD μ (f + (E.m - 1) * E.stride + k * E.stride + i2))
                  (vmul (LOAD μ (f + i2)) (LOADd (-hsqrt3))))
              + ZMULTI3
                (UNPACKL (ZMULT (tab E.ZetaH (k / E.s * E.s / E.s))
                    (tab E.ZetaL (k - k / E.s * E.s)))
                  (ZMULT (tab E.ZetaH (k / E.s * E.s / E.s)) (tab E.ZetaL (k - k / E.s * E.s))))
                (UNPACKH (CONJ (ZMULT (tab E.ZetaH (k / E.s * E.s / E.s))
                    (tab E.ZetaL (k - k / E.s * E.s))))
                  (ZMULT (tab E.ZetaH (k / E.s * E.s / E.s)) (tab E.ZetaL (k - k / E.s * E.s))))
                (UNPACKH (vmul (LOAD μ (f + i2)) (LOADd (-0.5))
                    + LOAD μ (f + (E.m - 1) * E.stride + k * E.stride + i2))
                  (vmul (LOAD μ (f + i2)) (LOADd (-hsqrt3))))))
          (u + k * E.stride + i2)
          (CONJ (ZMULT3
                (UNPACKL (ZMULT (tab E.ZetaH (k / E.s * E.s / E.s))
                    (tab E.ZetaL (k - k / E.s * E.s)))
                  (ZMULT (tab E.ZetaH (k / E.s * E.s / E.s)) (tab E.ZetaL (k - k / E.s * E.s))))
                (UNPACKH (CONJ (ZMULT (tab E.ZetaH (k / E.s * E.s / E.s))
                    (tab E.ZetaL (k - k / E.s * E.s))))
                  (ZMULT (tab E.ZetaH (k / E.s * E.s / E.s)) (tab E.ZetaL (k - k / E.s * E.s))))
                (UNPACKL (vmul (LOAD μ (f + i2)) (LOADd (-0.5))
                    + LOAD μ (f + (E.m - 1) * E.stride + k * E.stride + i2))
                  (vmul (LOAD μ (f + i2)) (LOADd (-hsqrt3))))
              - ZMULTI3
                (UNPACKL (ZMULT (tab E.ZetaH (k / E.s * E.s / E.s))
                    (tab E.ZetaL (k - k / E.s * E.s)))
                  (ZMULT (tab E.ZetaH (k / E.s * E.s / E.s)) (tab E.ZetaL (k - k / E.s * E.s))))
                (UNPACKH (CONJ (ZMULT (tab E.ZetaH (k / E.s * E.s / E.s))
                    (tab E.ZetaL (k - k / E.s * E.s))))
                  (ZMULT (tab E.ZetaH (k / E.s * E.s / E.s)) (tab E.ZetaL (k - k / E.s * E.s))))
                (UNPACKH (vmul (LOAD μ (f + i2)) (LOADd (-0.5))
                    + LOAD μ (f + (E.m - 1) * E.stride + k * E.stride + i2))
                  (vmul (LOAD μ (f + i2)) (LOADd (-hsqrt3)))))))
      = if i2 = i then
          (fun S : ColState =>
            (((S.setF 0 (S.F k)).setF k (S.F 0 + S.F (E.m - 1 + k))).setF (E.m - 1 + k)
              ((fun (k : Nat) (a b : ℂ) =>
                E.zetak k * (b + (starRingEnd ℂ) (⟨-0.5, hsqrt3⟩ : ℂ) * a))
                k (S.F 0) (S.F (E.m - 1 + k)))).setU k
              ((fun (k : Nat) (a b : ℂ) =>
                (starRingEnd ℂ) (E.zetak k) * (b + (⟨-0.5, hsqrt3⟩ : ℂ) * a))
                k (S.F 0) (S.F (E.m - 1 + k))))
            (colView f u E.stride (2 * E.m - 1) (E.m + 1) i μ)
        else colView f u E.stride (2 * E.m - 1) (E.m + 1) i μ := by
  rw [pad_plus, pad_minus, ZMULT_eq_mul, (block_index E.s k hs).1, (block_index E.s k hs).2,
    row_shift f (E.m - 1) k E.stride i2,
    colView_STORE_U f u E.stride E.M (2 * E.m - 1) (E.m + 1) hM hd _ k i2 i _ (by omega)
      hi2 hi,
    colView_STORE_F f u E.stride E.M (2 * E.m - 1) (E.m + 1) hM hd _ (E.m - 1 + k) i2 i _
      (by omega) hi2 hi,
    colView_STORE_F f u E.stride E.M (2 * E.m - 1) (E.m + 1) hM hd _ k i2 i _ (by omega)
      hi2 hi,
    colView_STORE_F0 f u E.stride E.M (2 * E.m - 1) (E.m + 1) hM hd _ i2 i _ (by omega)
      hi2 hi]
  by_cases hii : i2 = i
  · subst hii
    simp only [if_pos rfl, LOAD]
    rw [← colView_F f u E.stride (2 * E.m - 1) (E.m + 1) i2 μ k (by omega),
      ← colView_F f u E.stride (2 * E.m - 1) (E.m + 1) i2 μ (E.m - 1 + k) (by omega),
      ← colView_F0 f u E.stride (2 * E.m - 1) (E.m + 1) i2 μ (by omega)]
    rfl
  · simp only [if_neg hii]

/-- One round of the loop of `fft0pad::backwards` that parks the row `m-1` of `f` in the row
`m` of `u`, seen from the column `i`. -/
theorem pad_backwards_park (E : fftpad) (hm : 1 ≤ E.m) (hM : E.M ≤ E.stride)
    (f u : Nat) (hd : f + (2 * E.m - 1) * E.stride ≤ u ∨ u + (E.m + 1) * E.stride ≤ f)
    (i : Nat) (hi : i < E.M) (i2 : Nat) (μ : Mem) (hi2 : i2 < E.M) :
    colView f u E.stride (2 * E.m - 1) (E.m + 1) i
        (STORE (STORE μ (u + E.m * E.stride + i2) (μ (f + (E.m - 1) * E.stride + i2)))
          (f + (E.m - 1) * E.stride + i2)
          (STORE μ (u + E.m * E.stride + i2) (μ (f + (E.m - 1) * E.stride + i2)) (u + i2)))
      = if i2 = i then
          (fun S : ColState => (S.setU E.m (S.F (E.m - 1))).setF (E.m - 1) (S.U 0))
            (colView f u E.stride (2 * E.m - 1) (E.m + 1) i μ)
        else colView f u E.stride (2 * E.m - 1) (E.m + 1) i μ := by
  have hst : 0 < E.stride := by omega
  have hms : 0 < E.m * E.stride := Nat.mul_pos hm hst
  have hne : u + i2 ≠ u + E.m * E.stride + i2 := by omega
  rw [STORE_other _ _ _ _ hne,
    colView_STORE_F f u E.stride E.M (2 * E.m - 1) (E.m + 1) hM hd _ (E.m - 1) i2 i _
      (by omega) hi2 hi,
    colView_STORE_U f u E.stride E.M (2 * E.m - 1) (E.m + 1) hM hd _ E.m i2 i _ (by omega)
      hi2 hi]
  by_cases hii : i2 = i
  · subst hii
    rw [if_pos rfl, if_pos rfl, if_pos rfl,
      ← colView_F f u E.stride (2 * E.m - 1) (E.m + 1) i2 μ (E.m - 1) (by omega),
      ← colView_U0 f u E.stride (2 * E.m - 1) (E.m + 1) i2 μ (by omega)]
  · simp only [if_neg hii]

/-- The output of `fft0pad::backwards` on the column `i`: from the state `T` after the two
loops, with `f[0] = u[0] = c` (`c = f[m-1]` before the call) and, for `1 ≤ k < m`,
`f[k] = a + b`, `f[m-1+k] = z_k*(b + conj(w)*a)`, `u[k] = conj(z_k)*(b + w*a)` (`a = f[k-1]`,
`b = f[m-1+k]` before the call, `w = (-0.5, hsqrt3)`), the transform of the rows `0..m-1` of
`f`, the move of the row `m-1` of `f` to the row `m` of `u` and of the row `0` of `u` to the
row `m-1` of `f`, and the transforms of the rows `m-1..2m-2` of `f` and `0..m-1` of `u`. -/
theorem pad_backwards_view (E : fftpad) (hm : 1 ≤ E.m) (hs : 0 < E.s) (hsm : E.s ≤ E.m)
    (hM : E.M ≤ E.stride) (B : Transform) (f u : Nat) (μ : Mem)
    (hd : f + (2 * E.m - 1) * E.stride ≤ u ∨ u + (E.m + 1) * E.stride ≤ f) (i : Nat)
    (hi : i < E.M) :
    ∃ (ν : Mem) (T : ColState), fft0pad.backwards E B f u μ = some ν ∧
      colView f u E.stride (2 * E.m - 1) (E.m + 1) i ν
        = (((((T.fftF B E.m 0).setU E.m ((T.fftF B E.m 0).F (E.m - 1))).setF (E.m - 1)
            ((T.fftF B E.m 0).U 0)).fftF B E.m (E.m - 1)).fftU B E.m 0) ∧
      T.F 0 = (colView f u E.stride (2 * E.m - 1) (E.m + 1) i μ).F (E.m - 1) ∧
      T.U 0 = (colView f u E.stride (2 * E.m - 1) (E.m + 1) i μ).F (E.m - 1) ∧
      ∀ k, 1 ≤ k → k < E.m →
        T.F k = (colView f u E.stride (2 * E.m - 1) (E.m + 1) i μ).F (k - 1)
          + (colView f u E.stride (2 * E.m - 1) (E.m + 1) i μ).F (E.m - 1 + k) ∧
        T.F (E.m - 1 + k) = E.zetak k
          * ((colView f u E.stride (2 * E.m - 1) (E.m + 1) i μ).F (E.m - 1 + k)
            + (starRingEnd ℂ) (⟨-0.5, hsqrt3⟩ : ℂ)
              * (colView f u E.stride (2 * E.m - 1) (E.m + 1) i μ).F (k - 1)) ∧
        T.U k = (starRingEnd ℂ) (E.zetak k)
          * ((colView f u E.stride (2 * E.m - 1) (E.m + 1) i μ).F (E.m - 1 + k)
            + (⟨-0.5, hsqrt3⟩ : ℂ)
              * (colView f u E.stride (2 * E.m - 1) (E.m + 1) i μ).F (k - 1)) := by
  obtain ⟨st, hrun, hV⟩ := view_blocks_stop (colView f u E.stride (2 * E.m - 1) (E.m + 1) i)
    (fun K k i μ =>
      let H := tab E.ZetaH (K / E.s)
      let Zetak := ZMULT H (tab E.ZetaL (k - K))
      let X := UNPACKL Zetak Zetak
      let Y := UNPACKH (CONJ Zetak) Zetak
      let A := LOAD μ (f + (E.m - 1) * E.stride + k * E.stride + i)
      let B := LOAD μ (f + i)
      let Z := vmul B (LOADd (-0.5)) + A
      let μ := STORE μ (f + i) (LOAD μ (f + k * E.stride + i))
      let μ := STORE μ (f + k * E.stride + i) (B + A)
      let B := vmul B (LOADd (-hsqrt3))
      let A := ZMULT3 X Y (UNPACKL Z B)
      let B := ZMULTI3 X Y (UNPACKH Z B)
      let μ := STORE μ (f + (E.m - 1) * E.stride + k * E.stride + i) (A + B)
      STORE μ (u + k * E.stride + i) (CONJ (A - B)))
    (fun k S =>
      (((S.setF 0 (S.F k)).setF k (S.F 0 + S.F (E.m - 1 + k))).setF (E.m - 1 + k)
        ((fun (k : Nat) (a b : ℂ) =>
          E.zetak k * (b + (starRingEnd ℂ) (⟨-0.5, hsqrt3⟩ : ℂ) * a))
          k (S.F 0) (S.F (E.m - 1 + k)))).setU k
        ((fun (k : Nat) (a b : ℂ) =>
          (starRingEnd ℂ) (E.zetak k) * (b + (⟨-0.5, hsqrt3⟩ : ℂ) * a))
          k (S.F 0) (S.F (E.m - 1 + k))))
    E.m E.s E.M i hs hsm hi
    (fun k i2 ν h1 hk hi2 => pad_backwards_step E hs hM f u hd i hi k i2 ν h1 hk hi2)
    (forUpTo (fun i μ => STORE μ (u + i) (μ (f + (E.m - 1) * E.stride + i))) E.M μ)
  have hV2 : colView f u E.stride (2 * E.m - 1) (E.m + 1) i st.1
      = forUpTo (fun k S => if 1 ≤ k then
          (((S.setF 0 (S.F k)).setF k (S.F 0 + S.F (E.m - 1 + k))).setF (E.m - 1 + k)
            ((fun (k : Nat) (a b : ℂ) =>
              E.zetak k * (b + (starRingEnd ℂ) (⟨-0.5, hsqrt3⟩ : ℂ) * a))
              k (S.F 0) (S.F (E.m - 1 + k)))).setU k
            ((fun (k : Nat) (a b : ℂ) =>
              (starRingEnd ℂ) (E.zetak k) * (b + (⟨-0.5, hsqrt3⟩ : ℂ) * a))
              k (S.F 0) (S.F (E.m - 1 + k)))
          else S) (E.m - 1 + 1)
        (colView f u E.stride (2 * E.m - 1) (E.m + 1) i
          (forUpTo (fun i μ => STORE μ (u + i) (μ (f + (E.m - 1) * E.stride + i))) E.M μ)) := by
    rw [Nat.sub_add_cancel hm]
    exact hV
  rw [forUpTo_padB (E.m - 1)
      (fun (k : Nat) (a b : ℂ) =>
        E.zetak k * (b + (starRingEnd ℂ) (⟨-0.5, hsqrt3⟩ : ℂ) * a))
      (fun (k : Nat) (a b : ℂ) =>
        (starRingEnd ℂ) (E.zetak k) * (b + (⟨-0.5, hsqrt3⟩ : ℂ) * a)) (E.m - 1)
      (Nat.le_refl _),
    view_iloop (colView f u E.stride (2 * E.m - 1) (E.m + 1) i) _
      (fun S : ColState => S.setU 0 (S.F (E.m - 1))) E.M i hi
      (fun i2 ν hi2 => pad_backwards_prelude E hm hM f u hd i hi i2 ν hi2)] at hV2
  obtain ⟨SP, hSP⟩ : ∃ SP : ColState, SP
      = (colView f u E.stride (2 * E.m - 1) (E.m + 1) i μ).setU 0
          ((colView f u E.stride (2 * E.m - 1) (E.m + 1) i μ).F (E.m - 1)) := ⟨_, rfl⟩
  rw [← hSP] at hV2
  have kF : ∀ r, (colView f u E.stride (2 * E.m - 1) (E.m + 1) i st.1).F r
      = if r = 0 then SP.F (E.m - 1)
        else if r ≤ E.m - 1 then SP.F (r - 1) + SP.F (E.m - 1 + r)
        else if E.m - 1 + 1 ≤ r ∧ r ≤ E.m - 1 + (E.m - 1) then
          E.zetak (r - (E.m - 1))
            * (SP.F r + (starRingEnd ℂ) (⟨-0.5, hsqrt3⟩ : ℂ) * SP.F (r - (E.m - 1) - 1))
        else SP.F r := by
    intro r
    rw [hV2]
  have kU : ∀ r, (colView f u E.stride (2 * E.m - 1) (E.m + 1) i st.1).U r
      = if 1 ≤ r ∧ r ≤ E.m - 1 then
          (starRingEnd ℂ) (E.zetak r)
            * (SP.F (E.m - 1 + r) + (⟨-0.5, hsqrt3⟩ : ℂ) * SP.F (r - 1))
        else SP.U r := by
    intro r
    rw [hV2]
  have hSPF : ∀ r, SP.F r = (colView f u E.stride (2 * E.m - 1) (E.m + 1) i μ).F r := by
    intro r
    rw [hSP]
    rfl
  have hSPU : SP.U 0 = (colView f u E.stride (2 * E.m - 1) (E.m + 1) i μ).F (E.m - 1) := by
    rw [hSP]
    exact setU_eq _ 0 _
  refine ⟨_, colView f u E.stride (2 * E.m - 1) (E.m + 1) i st.1,
    congrArg (Option.map fun (st : Mem × Nat) =>
      mfft B E.m E.M E.stride u (mfft B E.m E.M E.stride (f + (E.m - 1) * E.stride)
        (forUpTo (fun i μ =>
          let μ := STORE μ (u + E.m * E.stride + i) (μ (f + (E.m - 1) * E.stride + i))
          STORE μ (f + (E.m - 1) * E.stride + i) (μ (u + i))) E.M
          (mfft B E.m E.M E.stride f st.1)))) hrun, ?_, ?_, ?_, ?_⟩
  · rw [colView_mfft_U0 f u E.stride E.M (2 * E.m - 1) (E.m + 1) hM hd B E.m (by omega) _ i hi,
      colView_mfft_F f u E.stride E.M (2 * E.m - 1) (E.m + 1) hM hd B E.m (E.m - 1)
        (by omega) _ i hi,
      view_iloop (colView f u E.stride (2 * E.m - 1) (E.m + 1) i) _
        (fun S : ColState => (S.setU E.m (S.F (E.m - 1))).setF (E.m - 1) (S.U 0)) E.M i hi
        (fun i2 ν hi2 => pad_backwards_park E hm hM f u hd i hi i2 ν hi2),
      colView_mfft_F0 f u E.stride E.M (2 * E.m - 1) (E.m + 1) hM hd B E.m (by omega) _ i hi]
  · rw [kF 0, if_pos rfl, hSPF]
  · rw [kU 0, if_neg (show ¬ (1 ≤ 0 ∧ 0 ≤ E.m - 1) by omega), hSPU]
  · intro k h1 hk
    refine ⟨?_, ?_, ?_⟩
    · rw [kF k, if_neg (show ¬ (k = 0) by omega), if_pos (show k ≤ E.m - 1 by omega),
        hSPF, hSPF]
    · rw [kF (E.m - 1 + k), if_neg (show ¬ (E.m - 1 + k = 0) by omega),
        if_neg (show ¬ (E.m - 1 + k ≤ E.m - 1) by omega),
        if_pos (show E.m - 1 + 1 ≤ E.m - 1 + k ∧ E.m - 1 + k ≤ E.m - 1 + (E.m - 1) by omega),
        Nat.add_sub_cancel_left, hSPF, hSPF]
    · rw [kU k, if_pos (show 1 ≤ k ∧ k ≤ E.m - 1 by omega), hSPF, hSPF]

theorem row_back (p k stride i : Nat) (hk : 1 ≤ k) :
    p + k * stride + i - stride = p + (k - 1) * stride + i := by
  obtain ⟨j, rfl⟩ : ∃ j, k = j + 1 := ⟨k - 1, by omega⟩
  rw [Nat.add_sub_cancel, Nat.succ_mul]
  omega

/-- One round of the loop of `fft0pad::forwards` that swaps the row `m-1` of `f` and the row
`m` of `u`, seen from the column `i`. -/
theorem pad_forwards_swap (E : fftpad) (hm : 1 ≤ E.m) (hM : E.M ≤ E.stride)
    (f u : Nat) (hd : f + (2 * E.m - 1) * E.stride ≤ u ∨ u + (E.m + 1) * E.stride ≤ f)
    (i : Nat) (hi : i < E.M) (i2 : Nat) (μ : Mem) (hi2 : i2 < E.M) :
    colView f u E.stride (2 * E.m - 1) (E.m + 1) i
        (STORE (STORE μ (u + E.m * E.stride + i2) (μ (f + (E.m - 1) * E.stride + i2)))
          (f + (E.m - 1) * E.stride + i2) (μ (u + E.m * E.stride + i2)))
      = if i2 = i then
          (fun S : ColState => (S.setU E.m (S.F (E.m - 1))).setF (E.m - 1) (S.U E.m))
            (colView f u E.stride (2 * E.m - 1) (E.m + 1) i μ)
        else colView f u E.stride (2 * E.m - 1) (E.m + 1) i μ := by
  rw [colView_STORE_F f u E.stride E.M (2 * E.m - 1) (E.m + 1) hM hd _ (E.m - 1) i2 i _
      (by omega) hi2 hi,
    colView_STORE_U f u E.stride E.M (2 * E.m - 1) (E.m + 1) hM hd _ E.m i2 i _ (by omega)
      hi2 hi]
  by_cases hii : i2 = i
  · subst hii
    rw [if_pos rfl, if_pos rfl, if_pos rfl,
      ← colView_F f u E.stride (2 * E.m - 1) (E.m + 1) i2 μ (E.m - 1) (by omega),
      ← colView_U f u E.stride (2 * E.m - 1) (E.m + 1) i2 μ E.m (by omega)]
  · simp only [if_neg hii]

/-- One round of the loop of `fft0pad::forwards` that recombines the zero mode, seen from the
column `i`. -/
theorem pad_forwards_zero (E : fftpad) (hm : 1 ≤ E.m) (hM : E.M ≤ E.stride)
    (f u : Nat) (hd : f + (2 * E.m - 1) * E.stride ≤ u ∨ u + (E.m + 1) * E.stride ≤ f)
    (i : Nat) (hi : i < E.M) (i2 : Nat) (μ : Mem) (hi2 : i2 < E.M) :
    colView f u E.stride (2 * E.m - 1) (E.m + 1) i
        (STORE μ (u + E.m * E.stride + i2)
          ((μ (u + E.m * E.stride + i2) + μ (f + i2) + μ (u + i2))
            * ((1.0 / (3.0 * (E.m : ℝ)) : ℝ) : ℂ)))
      = if i2 = i then
          (fun S : ColState => S.setU E.m
            ((S.U E.m + S.F 0 + S.U 0) * ((1.0 / (3.0 * (E.m : ℝ)) : ℝ) : ℂ)))
            (colView f u E.stride (2 * E.m - 1) (E.m + 1) i μ)
        else colView f u E.stride (2 * E.m - 1) (E.m + 1) i μ := by
  rw [colView_STORE_U f u E.stride E.M (2 * E.m - 1) (E.m + 1) hM hd _ E.m i2 i _ (by omega)
      hi2 hi]
  by_cases hii : i2 = i
  · subst hii
    rw [if_pos rfl, if_pos rfl,
      ← colView_F0 f u E.stride (2 * E.m - 1) (E.m + 1) i2 μ (by omega),
      ← colView_U0 f u E.stride (2 * E.m - 1) (E.m + 1) i2 μ (by omega),
      ← colView_U f u E.stride (2 * E.m - 1) (E.m + 1) i2 μ E.m (by omega)]
  · simp only [if_neg hii]

/-- One round of the last loop of `fft0pad::forwards`, seen from the column `i`. -/
theorem pad_forwards_last (E : fftpad) (hm : 1 ≤ E.m) (hM : E.M ≤ E.stride)
    (f u : Nat) (hd : f + (2 * E.m - 1) * E.stride ≤ u ∨ u + (E.m + 1) * E.stride ≤ f)
    (i : Nat) (hi : i < E.M) (i2 : Nat) (μ : Mem) (hi2 : i2 < E.M) :
    colView f u E.stride (2 * E.m - 1) (E.m + 1) i
        (STORE μ (f + (E.m - 1) * E.stride + i2) (μ (u + E.m * E.stride + i2)))
      = if i2 = i then
          (fun S : ColState => S.setF (E.m - 1) (S.U E.m))
            (colView f u E.stride (2 * E.m - 1) (E.m + 1) i μ)
        else colView f u E.stride (2 * E.m - 1) (E.m + 1) i μ := by
  rw [colView_STORE_F f u E.stride E.M (2 * E.m - 1) (E.m + 1) hM hd _ (E.m - 1) i2 i _
      (by omega) hi2 hi]
  by_cases hii : i2 = i
  · subst hii
    rw [if_pos rfl, if_pos rfl,
      ← colView_U f u E.stride (2 * E.m - 1) (E.m + 1) i2 μ E.m (by omega)]
  · simp only [if_neg hii]

/-- One round of the main loop of `fft0pad::forwards`, seen from the column `i`. -/
theorem pad_forwards_step (E : fftpad) (hs : 0 < E.s) (hM : E.M ≤ E.stride)
    (f u : Nat) (hd : f + (2 * E.m - 1) * E.stride ≤ u ∨ u + (E.m + 1) * E.stride ≤ f)
    (i : Nat) (hi : i < E.M) (k i2 : Nat) (μ : Mem) (h1 : 1 ≤ k) (hk : k < E.m)
    (hi2 : i2 < E.M) :
    colView f u E.stride (2 * E.m - 1) (E.m + 1) i
        (STORE (STORE μ (f + k * E.stride + i2 - E.stride)
            (vmul (LOAD μ (f + k * E.stride + i2)) (LOADd (1.0 / (3.0 * (E.m : ℝ))))
              + vmul (LOADd (-0.5))
                (ZMULT3
                    (UNPACKL (ZMULT (vmul (tab E.ZetaH (k / E.s * E.s / E.s))
                          (LOADd (1.0 / (3.0 * (E.m : ℝ))))) (tab E.ZetaL (k - k / E.s * E.s)))
                      (ZMULT (vmul (tab E.ZetaH (k / E.s * E.s / E.s))
                          (LOADd (1.0 / (3.0 * (E.m : ℝ))))) (tab E.ZetaL (k - k / E.s * E.s))))
                    (-(UNPACKH (CONJ (ZMULT (vmul (tab E.ZetaH (k / E.s * E.s / E.s))
                          (LOADd (1.0 / (3.0 * (E.m : ℝ))))) (tab E.ZetaL (k - k / E.s * E.s))))
                      (ZMULT (vmul (tab E.ZetaH (k / E.s * E.s / E.s))
                          (LOADd (1.0 / (3.0 * (E.m : ℝ)))))
                        (tab E.ZetaL (k - k / E.s * E.s)))))
                    (LOAD μ (f + (E.m - 1) * E.stride + k * E.stride + i2))
                  + ZMULT3
                    (UNPACKL (ZMULT (vmul (tab E.ZetaH (k / E.s * E.s / E.s))
                          (LOADd (1.0 / (3.0 * (E.m : ℝ))))) (tab E.ZetaL (k - k / E.s * E.s)))
                      (ZMULT (vmul (tab E.ZetaH (k / E.s * E.s / E.s))
                          (LOADd (1.0 / (3.0 * (E.m : ℝ))))) (tab E.ZetaL (k - k / E.s * E.s))))
                    (UNPACKH (CONJ (ZMULT (vmul (tab E.ZetaH (k / E.s * E.s / E.s))
                          (LOADd (1.0 / (3.0 * (E.m : ℝ))))) (tab E.ZetaL (k - k / E.s * E.s))))
                      (ZMULT (vmul (tab E.ZetaH (k / E.s * E.s / E.s))
                          (LOADd (1.0 / (3.0 * (E.m : ℝ)))))
                        (tab E.ZetaL (k - k / E.s * E.s))))
                    (LOAD μ (u + k * E.stride + i2)))
              + vmul (LOADd hsqrt3)
                (ZMULTI1 (ZMULT3
                    (UNPACKL (ZMULT (vmul (tab E.ZetaH (k / E.s * E.s / E.s))
                          (LOADd (1.0 / (3.0 * (E.m : ℝ))))) (tab E.ZetaL (k - k / E.s * E.s)))
                      (ZMULT (vmul (tab E.ZetaH (k / E.s * E.s / E.s))
                          (LOADd (1.0 / (3.0 * (E.m : ℝ))))) (tab E.ZetaL (k - k / E.s * E.s))))
                    (-(UNPACKH (CONJ (ZMULT (vmul (tab E.ZetaH (k / E.s * E.s / E.s))
                          (LOADd (1.0 / (3.0 * (E.m : ℝ))))) (tab E.ZetaL (k - k / E.s * E.s))))
                      (ZMULT (vmul (tab E.ZetaH (k / E.s * E.s / E.s))
                          (LOADd (1.0 / (3.0 * (E.m : ℝ)))))
                        (tab E.ZetaL (k - k / E.s * E.s)))))
                    (LOAD μ (f + (E.m - 1) * E.stride + k * E.stride + i2))
                  - ZMULT3
                    (UNPACKL (ZMULT (vmul (tab E.ZetaH (k / E.s * E.s / E.s))
                          (LOADd (1.0 / (3.0 * (E.m : ℝ))))) (tab E.ZetaL (k - k / E.s * E.s)))
                      (ZMULT (vmul (tab E.ZetaH (k / E.s * E.s / E.s))
                          (LOADd (1.0 / (3.0 * (E.m : ℝ))))) (tab E.ZetaL (k - k / E.s * E.s))))
                    (UNPACKH (CONJ (ZMULT (vmul (tab E.ZetaH (k / E.s * E.s / E.s))
                          (LOADd (1.0 / (3.0 * (E.m : ℝ))))) (tab E.ZetaL (k - k / E.s * E.s))))
                      (ZMULT (vmul (tab E.ZetaH (k / E.s * E.s / E.s))
                          (LOADd (1.0 / (3.0 * (E.m : ℝ)))))
                        (tab E.ZetaL (k - k / E.s * E.s))))
                    (LOAD μ (u + k * E.stride + i2))))))
          (f + (E.m - 1) * E.stride + k * E.stride + i2)
          (vmul (LOAD μ (f + k * E.stride + i2)) (LOADd (1.0 / (3.0 * (E.m : ℝ))))
            + (ZMULT3
                  (UNPACKL (ZMULT (vmul (tab E.ZetaH (k / E.s * E.s / E.s))
                        (LOADd (1.0 / (3.0 * (E.m : ℝ))))) (tab E.ZetaL (k - k / E.s * E.s)))
                    (ZMULT (vmul (tab E.ZetaH (k / E.s * E.s / E.s))
                        (LOADd (1.0 / (3.0 * (E.m : ℝ))))) (tab E.ZetaL (k - k / E.s * E.s))))
                  (-(UNPACKH (CONJ (ZMULT (vmul (tab E.ZetaH (k / E.s * E.s / E.s))
                        (LOADd (1.0 / (3.0 * (E.m : ℝ))))) (tab E.ZetaL (k - k / E.s * E.s))))
                    (ZMULT (vmul (tab E.ZetaH (k / E.s * E.s / E.s))
                        (LOADd (1.0 / (3.0 * (E.m : ℝ)))))
                      (tab E.ZetaL (k - k / E.s * E.s)))))
                  (LOAD μ (f + (E.m - 1) * E.stride + k * E.stride + i2))
                + ZMULT3
                  (UNPACKL (ZMULT (vmul (tab E.ZetaH (k / E.s * E.s / E.s))
                        (LOADd (1.0 / (3.0 * (E.m : ℝ))))) (tab E.ZetaL (k - k / E.s * E.s)))
                    (ZMULT (vmul (tab E.ZetaH (k / E.s * E.s / E.s))
                        (LOADd (1.0 / (3.0 * (E.m : ℝ))))) (tab E.ZetaL (k - k / E.s * E.s))))
                  (UNPACKH (CONJ (ZMULT (vmul (tab E.ZetaH (k / E.s * E.s / E.s))
                        (LOADd (1.0 / (3.0 * (E.m : ℝ))))) (tab E.ZetaL (k - k / E.s * E.s))))
                    (ZMULT (vmul (tab E.ZetaH (k / E.s * E.s / E.s))
                        (LOADd (1.0 / (3.0 * (E.m : ℝ)))))
                      (tab E.ZetaL (k - k / E.s * E.s))))
                  (LOAD μ (u + k * E.stride + i2)))))
      = if i2 = i then
          (fun S : ColState => (S.setF (k - 1)
              ((fun (k : Nat) (x y w : ℂ) =>
                ((1.0 / (3.0 * (E.m : ℝ)) : ℝ) : ℂ) * x
                  + ((-0.5 : ℝ) : ℂ)
                    * ((starRingEnd ℂ) (((1.0 / (3.0 * (E.m : ℝ)) : ℝ) : ℂ) * E.zetak k) * y
                      + ((1.0 / (3.0 * (E.m : ℝ)) : ℝ) : ℂ) * E.zetak k * w)
                  + (hsqrt3 : ℂ) * (Complex.I
                    * ((starRingEnd ℂ) (((1.0 / (3.0 * (E.m : ℝ)) : ℝ) : ℂ) * E.zetak k) * y
                      - ((1.0 / (3.0 * (E.m : ℝ)) : ℝ) : ℂ) * E.zetak k * w)))
                k (S.F k) (S.F (E.m - 1 + k)) (S.U k))).setF (E.m - 1 + k)
              ((fun (k : Nat) (x y w : ℂ) =>
                ((1.0 / (3.0 * (E.m : ℝ)) : ℝ) : ℂ) * x
                  + ((starRingEnd ℂ) (((1.0 / (3.0 * (E.m : ℝ)) : ℝ) : ℂ) * E.zetak k) * y
                    + ((1.0 / (3.0 * (E.m : ℝ)) : ℝ) : ℂ) * E.zetak k * w))
                k (S.F k) (S.F (E.m - 1 + k)) (S.U k)))
            (colView f u E.stride (2 * E.m - 1) (E.m + 1) i μ)
        else colView f u E.stride (2 * E.m - 1) (E.m + 1) i μ := by
  rw [ZMULT3_unpack, ZMULT3_unpack_neg, ZMULTI1_eq, ZMULT_eq_mul, vmul_LOADd, vmul_LOADd,
    vmul_LOADd_right, vmul_LOADd_right, (block_index E.s k hs).1, (block_index E.s k hs).2,
    row_shift f (E.m - 1) k E.stride i2, row_back f k E.stride i2 h1,
    colView_STORE_F f u E.stride E.M (2 * E.m - 1) (E.m + 1) hM hd _ (E.m - 1 + k) i2 i _
      (by omega) hi2 hi,
    colView_STORE_F f u E.stride E.M (2 * E.m - 1) (E.m + 1) hM hd _ (k - 1) i2 i _
      (by omega) hi2 hi,
    mul_assoc (((1.0 / (3.0 * (E.m : ℝ)) : ℝ)) : ℂ) (tab E.ZetaH (k / E.s))]
  by_cases hii : i2 = i
  · subst hii
    simp only [if_pos rfl, LOAD]
    rw [← colView_F f u E.stride (2 * E.m - 1) (E.m + 1) i2 μ k (by omega),
      ← colView_F f u E.stride (2 * E.m - 1) (E.m + 1) i2 μ (E.m - 1 + k) (by omega),
      ← colView_U f u E.stride (2 * E.m - 1) (E.m + 1) i2 μ k (by omega)]
    rfl
  · simp only [if_neg hii]

/-- The output of `fft0pad::forwards` on the column `i`, from the state `S4` after the
transform of the rows `m-1..2m-2` of `f`, the swap of the row `m-1` of `f` with the row `m`
of `u` and the transforms of the rows `0..m-1` of `f` and of `u`:
`f[m-1] = (u[m] + f[0] + u[0])/(3m)` and the recombination of the rows `k`, `m-1+k` of `f` and
`k` of `u` into the rows `k-1` and `m-1+k` of `f`, for `1 ≤ k < m`. -/
theorem pad_forwards_view (E : fftpad) (hm : 1 ≤ E.m) (hs : 0 < E.s) (hsm : E.s ≤ E.m)
    (hM : E.M ≤ E.stride) (F : Transform) (f u : Nat) (μ : Mem)
    (hd : f + (2 * E.m - 1) * E.stride ≤ u ∨ u + (E.m + 1) * E.stride ≤ f) (i : Nat)
    (hi : i < E.M) :
    ∃ (ν : Mem) (S4 : ColState), fft0pad.forwards E F f u μ = some ν ∧
      S4 = ((((((colView f u E.stride (2 * E.m - 1) (E.m + 1) i μ).fftF F E.m (E.m - 1)).setU
          E.m (((colView f u E.stride (2 * E.m - 1) (E.m + 1) i μ).fftF F E.m (E.m - 1)).F
            (E.m - 1))).setF (E.m - 1)
          (((colView f u E.stride (2 * E.m - 1) (E.m + 1) i μ).fftF F E.m (E.m - 1)).U
            E.m)).fftF F E.m 0).fftU F E.m 0) ∧
      (colView f u E.stride (2 * E.m - 1) (E.m + 1) i ν).F (E.m - 1)
        = (S4.U E.m + S4.F 0 + S4.U 0) * ((1.0 / (3.0 * (E.m : ℝ)) : ℝ) : ℂ) ∧
      ∀ k, 1 ≤ k → k < E.m →
        (colView f u E.stride (2 * E.m - 1) (E.m + 1) i ν).F (k - 1)
          = ((1.0 / (3.0 * (E.m : ℝ)) : ℝ) : ℂ) * S4.F k
            + ((-0.5 : ℝ) : ℂ)
              * ((starRingEnd ℂ) (((1.0 / (3.0 * (E.m : ℝ)) : ℝ) : ℂ) * E.zetak k)
                  * S4.F (E.m - 1 + k)
                + ((1.0 / (3.0 * (E.m : ℝ)) : ℝ) : ℂ) * E.zetak k * S4.U k)
            + (hsqrt3 : ℂ) * (Complex.I
              * ((starRingEnd ℂ) (((1.0 / (3.0 * (E.m : ℝ)) : ℝ) : ℂ) * E.zetak k)
                  * S4.F (E.m - 1 + k)
                - ((1.0 / (3.0 * (E.m : ℝ)) : ℝ) : ℂ) * E.zetak k * S4.U k)) ∧
        (colView f u E.stride (2 * E.m - 1) (E.m + 1) i ν).F (E.m - 1 + k)
          = ((1.0 / (3.0 * (E.m : ℝ)) : ℝ) : ℂ) * S4.F k
            + ((starRingEnd ℂ) (((1.0 / (3.0 * (E.m : ℝ)) : ℝ) : ℂ) * E.zetak k)
                * S4.F (E.m - 1 + k)
              + ((1.0 / (3.0 * (E.m : ℝ)) : ℝ) : ℂ) * E.zetak k * S4.U k) := by
  obtain ⟨st, hrun, hV⟩ := view_blocks_stop (colView f u E.stride (2 * E.m - 1) (E.m + 1) i)
    (fun K k i μ =>
      let H := vmul (tab E.ZetaH (K / E.s)) (LOADd (1.0 / (3.0 * (E.m : ℝ))))
      let Zetak := ZMULT H (tab E.ZetaL (k - K))
      let X := UNPACKL Zetak Zetak
      let Y := UNPACKH (CONJ Zetak) Zetak
      let F0 := vmul (LOAD μ (f + k * E.stride + i)) (LOADd (1.0 / (3.0 * (E.m : ℝ))))
      let F1 := ZMULT3 X (-Y) (LOAD μ (f + (E.m - 1) * E.stride + k * E.stride + i))
      let F2 := ZMULT3 X Y (LOAD μ (u + k * E.stride + i))
      let S := F1 + F2
      let μ := STORE μ (f + k * E.stride + i - E.stride)
        (F0 + vmul (LOADd (-0.5)) S + vmul (LOADd hsqrt3) (ZMULTI1 (F1 - F2)))
      STORE μ (f + (E.m - 1) * E.stride + k * E.stride + i) (F0 + S))
    (fun k S => (S.setF (k - 1)
        ((fun (k : Nat) (x y w : ℂ) =>
          ((1.0 / (3.0 * (E.m : ℝ)) : ℝ) : ℂ) * x
            + ((-0.5 : ℝ) : ℂ)
              * ((starRingEnd ℂ) (((1.0 / (3.0 * (E.m : ℝ)) : ℝ) : ℂ) * E.zetak k) * y
                + ((1.0 / (3.0 * (E.m : ℝ)) : ℝ) : ℂ) * E.zetak k * w)
            + (hsqrt3 : ℂ) * (Complex.I
              * ((starRingEnd ℂ) (((1.0 / (3.0 * (E.m : ℝ)) : ℝ) : ℂ) * E.zetak k) * y
                - ((1.0 / (3.0 * (E.m : ℝ)) : ℝ) : ℂ) * E.zetak k * w)))
          k (S.F k) (S.F (E.m - 1 + k)) (S.U k))).setF (E.m - 1 + k)
        ((fun (k : Nat) (x y w : ℂ) =>
          ((1.0 / (3.0 * (E.m : ℝ)) : ℝ) : ℂ) * x
            + ((starRingEnd ℂ) (((1.0 / (3.0 * (E.m : ℝ)) : ℝ) : ℂ) * E.zetak k) * y
              + ((1.0 / (3.0 * (E.m : ℝ)) : ℝ) : ℂ) * E.zetak k * w))
          k (S.F k) (S.F (E.m - 1 + k)) (S.U k)))
    E.m E.s E.M i hs hsm hi
    (fun k i2 ν h1 hk hi2 => pad_forwards_step E hs hM f u hd i hi k i2 ν h1 hk hi2)
    (forUpTo (fun i μ =>
        STORE μ (u + E.m * E.stride + i)
          ((μ (u + E.m * E.stride + i) + μ (f + i) + μ (u + i))
            * ((1.0 / (3.0 * (E.m : ℝ)) : ℝ) : ℂ))) E.M
      (mfft F E.m E.M E.stride u (mfft F E.m E.M E.stride f
        (forUpTo (fun i μ =>
            let temp := μ (u + E.m * E.stride + i)
            let μ := STORE μ (u + E.m * E.stride + i) (μ (f + (E.m - 1) * E.stride + i))
            STORE μ (f + (E.m - 1) * E.stride + i) temp) E.M
          (mfft F E.m E.M E.stride (f + (E.m - 1) * E.stride) μ)))))
  have hV2 : colView f u E.stride (2 * E.m - 1) (E.m + 1) i st.1
      = forUpTo (fun k S => if 1 ≤ k then
          (S.setF (k - 1)
            ((fun (k : Nat) (x y w : ℂ) =>
              ((1.0 / (3.0 * (E.m : ℝ)) : ℝ) : ℂ) * x
                + ((-0.5 : ℝ) : ℂ)
                  * ((starRingEnd ℂ) (((1.0 / (3.0 * (E.m : ℝ)) : ℝ) : ℂ) * E.zetak k) * y
                    + ((1.0 / (3.0 * (E.m : ℝ)) : ℝ) : ℂ) * E.zetak k * w)
                + (hsqrt3 : ℂ) * (Complex.I
                  * ((starRingEnd ℂ) (((1.0 / (3.0 * (E.m : ℝ)) : ℝ) : ℂ) * E.zetak k) * y
                    - ((1.0 / (3.0 * (E.m : ℝ)) : ℝ) : ℂ) * E.zetak k * w)))
              k (S.F k) (S.F (E.m - 1 + k)) (S.U k))).setF (E.m - 1 + k)
            ((fun (k : Nat) (x y w : ℂ) =>
              ((1.0 / (3.0 * (E.m : ℝ)) : ℝ) : ℂ) * x
                + ((starRingEnd ℂ) (((1.0 / (3.0 * (E.m : ℝ)) : ℝ) : ℂ) * E.zetak k) * y
                  + ((1.0 / (3.0 * (E.m : ℝ)) : ℝ) : ℂ) * E.zetak k * w))
              k (S.F k) (S.F (E.m - 1 + k)) (S.U k))
          else S) (E.m - 1 + 1)
        (colView f u E.stride (2 * E.m - 1) (E.m + 1) i
          (forUpTo (fun i μ =>
              STORE μ (u + E.m * E.stride + i)
                ((μ (u + E.m * E.stride + i) + μ (f + i) + μ (u + i))
                  * ((1.0 / (3.0 * (E.m : ℝ)) : ℝ) : ℂ))) E.M
            (mfft F E.m E.M E.stride u (mfft F E.m E.M E.stride f
              (forUpTo (fun i μ =>
                  let temp := μ (u + E.m * E.stride + i)
                  let μ := STORE μ (u + E.m * E.stride + i) (μ (f + (E.m - 1) * E.stride + i))
                  STORE μ (f + (E.m - 1) * E.stride + i) temp) E.M
                (mfft F E.m E.M E.stride (f + (E.m - 1) * E.stride) μ)))))) := by
    rw [Nat.sub_add_cancel hm]
    exact hV
  rw [forUpTo_padF (E.m - 1)
      (fun (k : Nat) (x y w : ℂ) =>
        ((1.0 / (3.0 * (E.m : ℝ)) : ℝ) : ℂ) * x
          + ((-0.5 : ℝ) : ℂ)
            * ((starRingEnd ℂ) (((1.0 / (3.0 * (E.m : ℝ)) : ℝ) : ℂ) * E.zetak k) * y
              + ((1.0 / (3.0 * (E.m : ℝ)) : ℝ) : ℂ) * E.zetak k * w)
          + (hsqrt3 : ℂ) * (Complex.I
            * ((starRingEnd ℂ) (((1.0 / (3.0 * (E.m : ℝ)) : ℝ) : ℂ) * E.zetak k) * y
              - ((1.0 / (3.0 * (E.m : ℝ)) : ℝ) : ℂ) * E.zetak k * w)))
      (fun (k : Nat) (x y w : ℂ) =>
        ((1.0 / (3.0 * (E.m : ℝ)) : ℝ) : ℂ) * x
          + ((starRingEnd ℂ) (((1.0 / (3.0 * (E.m : ℝ)) : ℝ) : ℂ) * E.zetak k) * y
            + ((1.0 / (3.0 * (E.m : ℝ)) : ℝ) : ℂ) * E.zetak k * w))
      (E.m - 1) (Nat.le_refl _),
    view_iloop (colView f u E.stride (2 * E.m - 1) (E.m + 1) i) _
      (fun S : ColState => S.setU E.m
        ((S.U E.m + S.F 0 + S.U 0) * ((1.0 / (3.0 * (E.m : ℝ)) : ℝ) : ℂ))) E.M i hi
      (fun i2 ν hi2 => pad_forwards_zero E hm hM f u hd i hi i2 ν hi2),
    colView_mfft_U0 f u E.stride E.M (2 * E.m - 1) (E.m + 1) hM hd F E.m (by omega) _ i hi,
    colView_mfft_F0 f u E.stride E.M (2 * E.m - 1) (E.m + 1) hM hd F E.m (by omega) _ i hi,
    view_iloop (colView f u E.stride (2 * E.m - 1) (E.m + 1) i) _
      (fun S : ColState => (S.setU E.m (S.F (E.m - 1))).setF (E.m - 1) (S.U E.m)) E.M i hi
      (fun i2 ν hi2 => pad_forwards_swap E hm hM f u hd i hi i2 ν hi2),
    colView_mfft_F f u E.stride E.M (2 * E.m - 1) (E.m + 1) hM hd F E.m (E.m - 1)
      (by omega) _ i hi] at hV2
  obtain ⟨S4, hS4⟩ : ∃ S4 : ColState, S4
      = ((((((colView f u E.stride (2 * E.m - 1) (E.m + 1) i μ).fftF F E.m (E.m - 1)).setU
          E.m (((colView f u E.stride (2 * E.m - 1) (E.m + 1) i μ).fftF F E.m (E.m - 1)).F
            (E.m - 1))).setF (E.m - 1)
          (((colView f u E.stride (2 * E.m - 1) (E.m + 1) i μ).fftF F E.m (E.m - 1)).U
            E.m)).fftF F E.m 0).fftU F E.m 0) := ⟨_, rfl⟩
  rw [← hS4] at hV2
  obtain ⟨SQ, hSQ⟩ : ∃ SQ : ColState, SQ = S4.setU E.m
      ((S4.U E.m + S4.F 0 + S4.U 0) * ((1.0 / (3.0 * (E.m : ℝ)) : ℝ) : ℂ)) := ⟨_, rfl⟩
  rw [← hSQ] at hV2
  have kF : ∀ r, (colView f u E.stride (2 * E.m - 1) (E.m + 1) i st.1).F r
      = if r < E.m - 1 then
          ((1.0 / (3.0 * (E.m : ℝ)) : ℝ) : ℂ) * SQ.F (r + 1)
            + ((-0.5 : ℝ) : ℂ)
              * ((starRingEnd ℂ) (((1.0 / (3.0 * (E.m : ℝ)) : ℝ) : ℂ) * E.zetak (r + 1))
                  * SQ.F (E.m - 1 + (r + 1))
                + ((1.0 / (3.0 * (E.m : ℝ)) : ℝ) : ℂ) * E.zetak (r + 1) * SQ.U (r + 1))
            + (hsqrt3 : ℂ) * (Complex.I
              * ((starRingEnd ℂ) (((1.0 / (3.0 * (E.m : ℝ)) : ℝ) : ℂ) * E.zetak (r + 1))
                  * SQ.F (E.m - 1 + (r + 1))
                - ((1.0 / (3.0 * (E.m : ℝ)) : ℝ) : ℂ) * E.zetak (r + 1) * SQ.U (r + 1)))
        else if E.m - 1 + 1 ≤ r ∧ r ≤ E.m - 1 + (E.m - 1) then
          ((1.0 / (3.0 * (E.m : ℝ)) : ℝ) : ℂ) * SQ.F (r - (E.m - 1))
            + ((starRingEnd ℂ)
                  (((1.0 / (3.0 * (E.m : ℝ)) : ℝ) : ℂ) * E.zetak (r - (E.m - 1)))
                * SQ.F r
              + ((1.0 / (3.0 * (E.m : ℝ)) : ℝ) : ℂ) * E.zetak (r - (E.m - 1))
                * SQ.U (r - (E.m - 1)))
        else SQ.F r := by
    intro r
    rw [hV2]
  have kU : ∀ r, (colView f u E.stride (2 * E.m - 1) (E.m + 1) i st.1).U r = SQ.U r := by
    intro r
    rw [hV2]
  have hSQF : ∀ r, SQ.F r = S4.F r := by
    intro r
    rw [hSQ]
    rfl
  have hSQU : ∀ r, r ≠ E.m → SQ.U r = S4.U r := by
    intro r hr
    rw [hSQ]
    exact setU_ne _ _ _ _ hr
  have hSQm : SQ.U E.m
      = (S4.U E.m + S4.F 0 + S4.U 0) * ((1.0 / (3.0 * (E.m : ℝ)) : ℝ) : ℂ) := by
    rw [hSQ]
    exact setU_eq _ _ _
  have hlast : colView f u E.stride (2 * E.m - 1) (E.m + 1) i
      (forUpTo (fun i μ =>
        STORE μ (f + (E.m - 1) * E.stride + i) (μ (u + E.m * E.stride + i))) E.M st.1)
      = (colView f u E.stride (2 * E.m - 1) (E.m + 1) i st.1).setF (E.m - 1)
          ((colView f u E.stride (2 * E.m - 1) (E.m + 1) i st.1).U E.m) :=
    view_iloop (colView f u E.stride (2 * E.m - 1) (E.m + 1) i) _
      (fun S : ColState => S.setF (E.m - 1) (S.U E.m)) E.M i hi
      (fun i2 ν hi2 => pad_forwards_last E hm hM f u hd i hi i2 ν hi2) st.1
  refine ⟨_, S4, congrArg (Option.map fun (st : Mem × Nat) =>
      forUpTo (fun i μ =>
        STORE μ (f + (E.m - 1) * E.stride + i) (μ (u + E.m * E.stride + i))) E.M st.1) hrun,
    hS4, ?_, ?_⟩
  · show (colView f u E.stride (2 * E.m - 1) (E.m + 1) i
      (forUpTo (fun i μ =>
        STORE μ (f + (E.m - 1) * E.stride + i) (μ (u + E.m * E.stride + i))) E.M st.1)).F
        (E.m - 1) = _
    rw [hlast, setF_eq, kU, hSQm]
  · intro k h1 hk
    have hrow : ∀ r, r ≠ E.m - 1 → (colView f u E.stride (2 * E.m - 1) (E.m + 1) i
        (forUpTo (fun i μ =>
          STORE μ (f + (E.m - 1) * E.stride + i) (μ (u + E.m * E.stride + i))) E.M st.1)).F r
        = (colView f u E.stride (2 * E.m - 1) (E.m + 1) i st.1).F r := by
      intro r hr
      rw [hlast, setF_ne _ _ _ _ hr]
    refine ⟨?_, ?_⟩
    · show (colView f u E.stride (2 * E.m - 1) (E.m + 1) i
        (forUpTo (fun i μ =>
          STORE μ (f + (E.m - 1) * E.stride + i) (μ (u + E.m * E.stride + i))) E.M st.1)).F
          (k - 1) = _
      rw [hrow (k - 1) (by omega), kF (k - 1), if_pos (show k - 1 < E.m - 1 by omega),
        Nat.sub_add_cancel h1, hSQF, hSQF, hSQU k (by omega)]
    · show (colView f u E.stride (2 * E.m - 1) (E.m + 1) i
        (forUpTo (fun i μ =>
          STORE μ (f + (E.m - 1) * E.stride + i) (μ (u + E.m * E.stride + i))) E.M st.1)).F
          (E.m - 1 + k) = _
      rw [hrow (E.m - 1 + k) (by omega), kF (E.m - 1 + k),
        if_neg (show ¬ (E.m - 1 + k < E.m - 1) by omega),
        if_pos (show E.m - 1 + 1 ≤ E.m - 1 + k ∧ E.m - 1 + k ≤ E.m - 1 + (E.m - 1) by omega),
        Nat.add_sub_cancel_left, hSQF, hSQF, hSQU k (by omega)]

/-- The transforms and moves of `fft0pad::forwards` after those of `fft0pad::backwards` give
`m` times the rows `r < 2m-1` of `f` and `r < m` of `u` of the state `T` that `backwards`
transformed, and `m` times the row `0` of `u` in the row `m` of `u`. -/
theorem pad_transforms_inverse (B F : Transform) (m : Nat) (hm : 1 ≤ m)
    (hBF : InversePair B F m) (T X4 S4 : ColState)
    (hX4 : X4 = (((((T.fftF B m 0).setU m ((T.fftF B m 0).F (m - 1))).setF (m - 1)
      ((T.fftF B m 0).U 0)).fftF B m (m - 1)).fftU B m 0))
    (hS4 : S4 = (((((X4.fftF F m (m - 1)).setU m ((X4.fftF F m (m - 1)).F (m - 1))).setF
      (m - 1) ((X4.fftF F m (m - 1)).U m)).fftF F m 0).fftU F m 0)) :
    (∀ r, r < 2 * m - 1 → S4.F r = (m : ℂ) * T.F r) ∧
    (∀ r, r < m → S4.U r = (m : ℂ) * T.U r) ∧
    S4.U m = (m : ℂ) * T.U 0 := by
  obtain ⟨X1, hX1⟩ : ∃ X1 : ColState, X1 = T.fftF B m 0 := ⟨_, rfl⟩
  obtain ⟨X2, hX2⟩ : ∃ X2 : ColState, X2 = (X1.setU m (X1.F (m - 1))).setF (m - 1) (X1.U 0) :=
    ⟨_, rfl⟩
  obtain ⟨X3, hX3⟩ : ∃ X3 : ColState, X3 = X2.fftF B m (m - 1) := ⟨_, rfl⟩
  rw [← hX1, ← hX2, ← hX3] at hX4
  obtain ⟨Y1, hY1⟩ : ∃ Y1 : ColState, Y1 = X4.fftF F m (m - 1) := ⟨_, rfl⟩
  obtain ⟨Y2, hY2⟩ : ∃ Y2 : ColState, Y2 = (Y1.setU m (Y1.F (m - 1))).setF (m - 1) (Y1.U m) :=
    ⟨_, rfl⟩
  obtain ⟨Y3, hY3⟩ : ∃ Y3 : ColState, Y3 = Y2.fftF F m 0 := ⟨_, rfl⟩
  rw [← hY1, ← hY2, ← hY3] at hS4
  -- the state `X1 .. X4` of `backwards`
  have x1U : ∀ r, X1.U r = T.U r := fun r => by rw [hX1]; rfl
  have x1F_hi : ∀ r, m ≤ r → X1.F r = T.F r := fun r hr => by
    rw [hX1]
    exact fftF_other B m 0 T r (Or.inr (by omega))
  have x1F_lo : ∀ j, j < m → X1.F j = B (restr m (fun j => T.F (0 + j))) j := fun j hj => by
    have h := fftF_at B m 0 T j hj
    rw [Nat.zero_add] at h
    rw [hX1]
    exact h
  have x2F : ∀ r, r ≠ m - 1 → X2.F r = X1.F r := fun r hr => by
    rw [hX2, setF_ne _ _ _ _ hr]
    rfl
  have x2Fm : X2.F (m - 1) = X1.U 0 := by
    rw [hX2]
    exact setF_eq _ _ _
  have x2U : ∀ r, r ≠ m → X2.U r = X1.U r := fun r hr => by
    rw [hX2, setF_U, setU_ne _ _ _ _ hr]
  have x2Um : X2.U m = X1.F (m - 1) := by
    rw [hX2, setF_U]
    exact setU_eq _ _ _
  have x3U : ∀ r, X3.U r = X2.U r := fun r => by rw [hX3]; rfl
  have x3F_lo : ∀ r, r < m - 1 → X3.F r = X2.F r := fun r hr => by
    rw [hX3]
    exact fftF_other B m (m - 1) X2 r (Or.inl hr)
  have x4F : ∀ r, X4.F r = X3.F r := fun r => by rw [hX4]; rfl
  have x4U_hi : X4.U m = X3.U m := by
    rw [hX4]
    exact fftU_other B m 0 X3 m (Or.inr (by omega))
  -- the state `Y1 .. Y3` of `forwards`
  have y1U : ∀ r, Y1.U r = X4.U r := fun r => by rw [hY1]; rfl
  have y1F_lo : ∀ r, r < m - 1 → Y1.F r = X4.F r := fun r hr => by
    rw [hY1]
    exact fftF_other F m (m - 1) X4 r (Or.inl hr)
  have y1F_hi : ∀ r, m - 1 ≤ r → r < 2 * m - 1 → Y1.F r = (m : ℂ) * X2.F r := fun r h1 h2 => by
    rw [hY1]
    exact fftF_inverse B F m (m - 1) hBF X2 X4 (fun j hj => by
      rw [x4F, hX3]
      exact fftF_at B m (m - 1) X2 j hj) r (by omega)
  have y2F : ∀ r, r ≠ m - 1 → Y2.F r = Y1.F r := fun r hr => by
    rw [hY2, setF_ne _ _ _ _ hr]
    rfl
  have y2Fm : Y2.F (m - 1) = Y1.U m := by
    rw [hY2]
    exact setF_eq _ _ _
  have y2U : ∀ r, r ≠ m → Y2.U r = Y1.U r := fun r hr => by
    rw [hY2, setF_U, setU_ne _ _ _ _ hr]
  have y2Um : Y2.U m = Y1.F (m - 1) := by
    rw [hY2, setF_U]
    exact setU_eq _ _ _
  have y3U : ∀ r, Y3.U r = Y2.U r := fun r => by rw [hY3]; rfl
  have y2rows : ∀ j, j < m → Y2.F (0 + j) = B (restr m (fun j => T.F (0 + j))) j := by
    intro j hj
    rw [Nat.zero_add]
    by_cases hjm : j = m - 1
    · rw [hjm, y2Fm, y1U, x4U_hi, x3U, x2Um, x1F_lo (m - 1) (by omega)]
    · rw [y2F j hjm, y1F_lo j (by omega), x4F, x3F_lo j (by omega), x2F j hjm,
        x1F_lo j hj]
  refine ⟨?_, ?_, ?_⟩
  · intro r hr
    have e : S4.F r = Y3.F r := by rw [hS4]; rfl
    rw [e]
    by_cases hlow : r < m
    · rw [hY3]
      exact fftF_inverse B F m 0 hBF T Y2 y2rows r (by omega)
    · have e2 : Y3.F r = Y2.F r := by
        rw [hY3]
        exact fftF_other F m 0 Y2 r (Or.inr (by omega))
      rw [e2, y2F r (by omega), y1F_hi r (by omega) hr, x2F r (by omega),
        x1F_hi r (by omega)]
  · intro r hr
    have h := fftU_inverse B F m 0 hBF X3 Y3 (fun j hj => by
      rw [Nat.zero_add, y3U, y2U j (by omega), y1U, hX4]
      have h2 := fftU_at B m 0 X3 j hj
      rw [Nat.zero_add] at h2
      exact h2) r (by omega)
    rw [hS4, h, x3U, x2U r (by omega), x1U]
  · have e : S4.U m = Y3.U m := by
      rw [hS4]
      exact fftU_other F m 0 Y3 m (Or.inr (by omega))
    rw [e, y3U, y2Um, y1F_hi (m - 1) (Nat.le_refl _) (by omega), x2Fm, x1U]

theorem zero_mode_pad (m : Nat) (hm : 1 ≤ m) (x : ℂ) :
    ((m : ℂ) * x + (m : ℂ) * x + (m : ℂ) * x) * ((1.0 / (3.0 * (m : ℝ)) : ℝ) : ℂ) = x := by
  have hmC : (m : ℂ) ≠ 0 := by
    have : 0 < m := hm
    exact_mod_cast this.ne'
  rw [third_ninv_cast m hm]
  field_simp
  ring

/-- C29: for `m ≥ 1`, a block size `1 ≤ s ≤ m` (as `BuildZeta` gives it), rows of
`M ≤ stride` cells, a buffer `f` of `2m-1` rows and a buffer `u` of `m+1` rows that do not
overlap, phase factors `z_k = ZetaH[k/s]*ZetaL[k mod s]` of modulus one, and plans of `m` rows
with `Forwards` after `Backwards` equal to `m` times the identity: `fft0pad::backwards(f, u)`
followed by `fft0pad::forwards(f, u)` returns and restores `f[k*stride + i]` for every row `k`
in `[0, 2m-1)` and `i < M`, the row `m-1` included. -/
theorem fft0pad_roundtrip (E : fftpad) (hm : 1 ≤ E.m) (hs : 0 < E.s) (hsm : E.s ≤ E.m)
    (hM : E.M ≤ E.stride) (B F : Transform) (hBF : InversePair B F E.m)
    (hz : ∀ k, k < E.m → (starRingEnd ℂ) (E.zetak k) * E.zetak k = 1)
    (f u : Nat) (μ : Mem)
    (hd : f + (2 * E.m - 1) * E.stride ≤ u ∨ u + (E.m + 1) * E.stride ≤ f) :
    ∃ ν1 ν2, fft0pad.backwards E B f u μ = some ν1 ∧
      fft0pad.forwards E F f u ν1 = some ν2 ∧
      ∀ k i, k < 2 * E.m - 1 → i < E.M →
        ν2 (f + k * E.stride + i) = μ (f + k * E.stride + i) := by
  have hcol : ∀ i, i < E.M → ∃ ν1 ν2, fft0pad.backwards E B f u μ = some ν1 ∧
      fft0pad.forwards E F f u ν1 = some ν2 ∧
      ∀ k, k < 2 * E.m - 1 →
        (colView f u E.stride (2 * E.m - 1) (E.m + 1) i ν2).F k
          = (colView f u E.stride (2 * E.m - 1) (E.m + 1) i μ).F k := by
    intro i hi
    obtain ⟨ν1, T, hb, hV1, hT0, hTU0, hTk⟩ :=
      pad_backwards_view E hm hs hsm hM B f u μ hd i hi
    obtain ⟨ν2, S4, hf, hS4, h2m, h2k⟩ :=
      pad_forwards_view E hm hs hsm hM F f u ν1 hd i hi
    obtain ⟨hinvF, hinvU, hinvm⟩ := pad_transforms_inverse B F E.m hm hBF T
      (colView f u E.stride (2 * E.m - 1) (E.m + 1) i ν1) S4 hV1 hS4
    refine ⟨ν1, ν2, hb, hf, ?_⟩
    intro k hk
    by_cases hkm : k = E.m - 1
    · rw [hkm, h2m, hinvm, hinvF 0 (by omega), hinvU 0 (by omega), hT0, hTU0]
      exact zero_mode_pad E.m hm _
    · by_cases hlow : k < E.m - 1
      · obtain ⟨e1, e2, e3⟩ := hTk (k + 1) (by omega) (by omega)
        have h := (h2k (k + 1) (by omega) (by omega)).1
        rw [Nat.add_sub_cancel] at h e1 e2 e3
        rw [h, hinvF (k + 1) (by omega), hinvF (E.m - 1 + (k + 1)) (by omega),
          hinvU (k + 1) (by omega), e1, e2, e3, third_ninv_cast E.m hm]
        exact (roundtrip_three E.m hm (E.zetak (k + 1)) _ _ (hz (k + 1) (by omega))).1
      · obtain ⟨j, hj⟩ : ∃ j, k = E.m - 1 + j := ⟨k - (E.m - 1), by omega⟩
        subst hj
        obtain ⟨e1, e2, e3⟩ := hTk j (by omega) (by omega)
        rw [(h2k j (by omega) (by omega)).2, hinvF j (by omega),
          hinvF (E.m - 1 + j) (by omega), hinvU j (by omega), e1, e2, e3,
          third_ninv_cast E.m hm]
        exact (roundtrip_three E.m hm (E.zetak j) _ _ (hz j (by omega))).2
  obtain ⟨ν1, hν1⟩ : ∃ ν1, fft0pad.backwards E B f u μ = some ν1 :=
    ⟨_, congrArg (Option.map _) (forBlocks_eq_blocks E.m E.s hs _ _)⟩
  obtain ⟨ν2, hν2⟩ : ∃ ν2, fft0pad.forwards E F f u ν1 = some ν2 :=
    ⟨_, congrArg (Option.map _) (forBlocks_eq_blocks E.m E.s hs _ _)⟩
  refine ⟨ν1, ν2, hν1, hν2, ?_⟩
  intro k i hk hi
  obtain ⟨μ1, μ2, h1, h2, h3⟩ := hcol i hi
  have e1 : ν1 = μ1 := Option.some.inj (hν1.symm.trans h1)
  rw [← e1] at h2
  have e2 : ν2 = μ2 := Option.some.inj (hν2.symm.trans h2)
  rw [← e2] at h3
  rw [← colView_F f u E.stride (2 * E.m - 1) (E.m + 1) i ν2 k hk, h3 k hk,
    colView_F f u E.stride (2 * E.m - 1) (E.m + 1) i μ k hk]

/-- Witness of C29: `m = 2`, `M = 1`, `stride = 1` with the table of `BuildZeta(6, 2)` and the
exact transforms of length 2, `f` at 0 (three rows) and `u` at 3 (three rows). -/
theorem fft0pad_roundtrip_witness :
    (1 ≤ (fftpad.mk 2 1 1 (BuildZeta 6 2).s (BuildZeta 6 2).ZetaH (BuildZeta 6 2).ZetaL).m) ∧
    ∃ ν1 ν2,
      fft0pad.backwards
        (fftpad.mk 2 1 1 (BuildZeta 6 2).s (BuildZeta 6 2).ZetaH (BuildZeta 6 2).ZetaL)
        (dft 1 2) 0 3 (fun a => (a : ℂ)) = some ν1 ∧
      fft0pad.forwards
        (fftpad.mk 2 1 1 (BuildZeta 6 2).s (BuildZeta 6 2).ZetaH (BuildZeta 6 2).ZetaL)
        (dft (-1) 2) 0 3 ν1 = some ν2 ∧
      ν2 (0 + 0 * 1 + 0) = (fun a : Nat => (a : ℂ)) (0 + 0 * 1 + 0) ∧
      ν2 (0 + 1 * 1 + 0) = (fun a : Nat => (a : ℂ)) (0 + 1 * 1 + 0) ∧
      ν2 (0 + 2 * 1 + 0) = (fun a : Nat => (a : ℂ)) (0 + 2 * 1 + 0) := by
  obtain ⟨ν1, ν2, h1, h2, h3⟩ := fft0pad_roundtrip
    (fftpad.mk 2 1 1 (BuildZeta 6 2).s (BuildZeta 6 2).ZetaH (BuildZeta 6 2).ZetaL)
    (by decide) (show 0 < Nat.sqrt 2 from Nat.sqrt_pos.mpr (by decide))
    (show Nat.sqrt 2 ≤ 2 from Nat.sqrt_le_self 2) (by decide)
    (dft 1 2) (dft (-1) 2) (dft_inverse_pair 2 (by decide))
    (fun k hk => BuildZeta_unit 6 2 k hk) 0 3 (fun a => (a : ℂ)) (by decide)
  exact ⟨by decide, ν1, ν2, h1, h2, h3 0 0 (by decide) (by decide),
    h3 1 0 (by decide) (by decide), h3 2 0 (by decide) (by decide)⟩

/-! ## `checkerror` -/

/-- A running maximum that starts at zero is the greatest element of the values met,
together with zero. -/
theorem forUpTo_running_max (g : Nat → ℝ) (n : Nat) :
    IsGreatest (insert 0 {x | ∃ i, i < n ∧ x = g i}) (forUpTo (fun i r => max r (g i)) n 0) := by
  induction n with
  | zero =>
    constructor
    · exact Set.mem_insert _ _
    · intro x hx
      rcases hx with hx | ⟨i, hi, _⟩
      · exact le_of_eq hx
      · omega
  | succ n ih =>
    show IsGreatest _ (max (forUpTo (fun i r => max r (g i)) n 0) (g n))
    obtain ⟨hmem, hub⟩ := ih
    constructor
    · rcases le_total (forUpTo (fun i r => max r (g i)) n 0) (g n) with h | h
      · rw [max_eq_right h]
        exact Set.mem_insert_of_mem _ ⟨n, by omega, rfl⟩
      · rw [max_eq_left h]
        rcases hmem with h0 | ⟨i, hi, hx⟩
        · exact Set.mem_insert_iff.mpr (Or.inl h0)
        · exact Set.mem_insert_of_mem _ ⟨i, by omega, hx⟩
    · intro x hx
      rcases hx with hx | ⟨i, hi, hx⟩
      · exact le_max_of_le_left (hub (Set.mem_insert_iff.mpr (Or.inl hx)))
      · by_cases hin : i = n
        · rw [hx, hin]
          exact le_max_right _ _
        · exact le_max_of_le_left (hub (Set.mem_insert_of_mem _ ⟨i, by omega, hx⟩))

/-- The two running maxima of `checkerror`, one by one. -/
theorem checkerror_maxima (g1 g2 : Nat → ℝ) (n : Nat) :
    forUpTo (fun i (st : ℝ × ℝ) => (max st.1 (g1 i), max st.2 (g2 i))) n (0.0, 0.0)
      = (forUpTo (fun i r => max r (g1 i)) n 0, forUpTo (fun i r => max r (g2 i)) n 0) := by
  induction n with
  | zero =>
    show ((0.0 : ℝ), (0.0 : ℝ)) = (0, 0)
    norm_num
  | succ n ih =>
    show (fun i (st : ℝ × ℝ) => (max st.1 (g1 i), max st.2 (g2 i))) n (forUpTo _ n (0.0, 0.0))
      = _
    rw [ih]
    rfl

/-- C36: `checkerror(f, control, stop)` returns 0 if and only if `e ≤ 1e-12*n`, where `e` is
the maximum over `i < stop` of `|f[i] - control[i]|` and `n` the maximum over `i < stop` of
`|control[i]|` (both taken together with 0, so that they are 0 over an empty range), and
returns 1 otherwise; it returns 0 whenever `f[i] = control[i]` for every `i < stop`. -/
theorem checkerror_spec (f control stop : Nat) (mem : Mem) :
    ∃ e n : ℝ,
      IsGreatest (insert 0 {x | ∃ i, i < stop ∧
        x = Complex.abs (mem (f + i) - mem (control + i))}) e ∧
      IsGreatest (insert 0 {x | ∃ i, i < stop ∧ x = Complex.abs (mem (control + i))}) n ∧
      (checkerror f control stop mem = 0 ↔ e ≤ 1e-12 * n) ∧
      (checkerror f control stop mem = 1 ↔ ¬ (e ≤ 1e-12 * n)) ∧
      ((∀ i, i < stop → mem (f + i) = mem (control + i)) →
        checkerror f control stop mem = 0) := by
  have he := forUpTo_running_max
    (fun i => Complex.abs (mem (f + i) - mem (control + i))) stop
  have hn := forUpTo_running_max (fun i => Complex.abs (mem (control + i))) stop
  have hdef : checkerror f control stop mem
      = if forUpTo (fun i r => max r (Complex.abs (mem (f + i) - mem (control + i)))) stop 0
          ≤ 1e-12 * forUpTo (fun i r => max r (Complex.abs (mem (control + i)))) stop 0
        then 0 else 1 := by
    unfold checkerror
    simp only []
    rw [checkerror_maxima (fun i => Complex.abs (mem (f + i) - mem (control + i)))
      (fun i => Complex.abs (mem (control + i))) stop]
  refine ⟨_, _, he, hn, ?_, ?_, ?_⟩
  · rw [hdef]
    constructor
    · intro h
      by_contra hc
      rw [if_neg hc] at h
      exact absurd h (by decide)
    · intro h
      rw [if_pos h]
  · rw [hdef]
    constructor
    · intro h hc
      rw [if_pos hc] at h
      exact absurd h (by decide)
    · intro h
      rw [if_neg h]
  · intro heq
    rw [hdef]
    have hz : forUpTo (fun i r => max r (Complex.abs (mem (f + i) - mem (control + i)))) stop 0
        ≤ 0 := by
      have hub : (0 : ℝ) ∈ upperBounds (insert 0 {x | ∃ i, i < stop ∧
          x = Complex.abs (mem (f + i) - mem (control + i))}) := by
        intro x hx
        rcases hx with hx | ⟨i, hi, hx⟩
        · exact le_of_eq hx
        · rw [hx, heq i hi, sub_self, map_zero]
      exact hub he.1
    have hpos : 0 ≤ forUpTo (fun i r => max r (Complex.abs (mem (control + i)))) stop 0 :=
      hn.2 (Set.mem_insert _ _)
    rw [if_pos]
    have : (0 : ℝ) ≤ 1e-12 * forUpTo (fun i r => max r (Complex.abs (mem (control + i))))
        stop 0 := mul_nonneg (by norm_num) hpos
    linarith

/-! ## The two branches of the real `multbinary` -/

/-- A loop over `2*n` indices, two at a time. -/
theorem forUpTo_pairs {σ : Type} (body : Nat → σ → σ) (n : Nat) (st : σ) :
    forUpTo body (2 * n) st
      = forUpTo (fun q st => body (q * 2 + 1) (body (q * 2) st)) n st := by
  induction n with
  | zero => rfl
  | succ n ih =>
    show body (2 * n + 1) (body (2 * n) (forUpTo body (2 * n) st)) = _
    rw [ih, Nat.mul_comm 2 n]
    rfl

/-- One vector step of the `__SSE2__` branch is two steps of the scalar branch. -/
theorem multbinary_vector_step (F0 F1 j : Nat) (μ : Mem) :
    STORED μ F0 j (vmul (LOADD μ F0 j) (LOADD μ F1 j))
      = storeD (storeD μ F0 j (loadD μ F0 j * loadD μ F1 j)) F0 (j + 1)
          (loadD (storeD μ F0 j (loadD μ F0 j * loadD μ F1 j)) F0 (j + 1)
            * loadD (storeD μ F0 j (loadD μ F0 j * loadD μ F1 j)) F1 (j + 1)) := by
  rw [loadD_storeD_other _ _ _ _ _ _ (Or.inr (by omega)),
    loadD_storeD_other _ _ _ _ _ _ (Or.inr (by omega))]
  rfl

/-- The scalar loop `F0[j] *= F1[j]`, `j < n`, changes no double of `F0` of index `≥ n` and no
cell outside `F0[0..n)`. -/
theorem multbinary_double_frame (F0 F1 : Nat) (μ : Mem) (n : Nat) :
    (∀ j, n ≤ j → loadD (forUpTo (fun j μ => storeD μ F0 j
        (loadD μ F0 j * loadD μ F1 j)) n μ) F0 j = loadD μ F0 j)
      ∧ (∀ a, (a < F0 ∨ F0 + (n + 1) / 2 ≤ a) → forUpTo (fun j μ => storeD μ F0 j
        (loadD μ F0 j * loadD μ F1 j)) n μ a = μ a) := by
  induction n with
  | zero => exact ⟨fun j _ => rfl, fun a _ => rfl⟩
  | succ n ih =>
    obtain ⟨ih2, ih3⟩ := ih
    simp only [forUpTo]
    refine ⟨?_, ?_⟩
    · intro j hj
      rw [loadD_storeD_other _ _ _ _ _ _ (by omega)]
      exact ih2 j (by omega)
    · intro a ha
      rw [storeD_other _ _ _ _ _ (by omega)]
      exact ih3 a (by omega)

/-- C35: for every `m ≥ 1`, even or odd, the two-at-a-time (`__SSE2__`) branch of the real
`multbinary` comes to an end and leaves the same memory as the scalar branch
`F0[j] *= F1[j]`, `j < m`; no double of `F0` of index `≥ m` and no cell outside `F0[0..m)` is
changed; and when the two arrays are apart, `F0[j]` ends as the product of the former `F0[j]`
and `F1[j]` for every `j < m`. -/
theorem multbinary_double_sse2_eq_scalar (F : Ptrs) (m : Nat) (μ : Mem) (hm : 1 ≤ m) :
    multbinary_double_sse2 F m μ = some (multbinary_double F m μ)
      ∧ (∀ ν, multbinary_double_sse2 F m μ = some ν →
          (∀ j, m ≤ j → loadD ν (F 0) j = loadD μ (F 0) j)
          ∧ (∀ a, (a < F 0 ∨ F 0 + (m + 1) / 2 ≤ a) → ν a = μ a)
          ∧ ((F 0 + (m + 1) / 2 ≤ F 1 ∨ F 1 + (m + 1) / 2 ≤ F 0) →
              ∀ j, j < m → loadD ν (F 0) j = loadD μ (F 0) j * loadD μ (F 1) j)) := by
  have heq : multbinary_double_sse2 F m μ = some (multbinary_double F m μ) := by
    unfold multbinary_double_sse2 multbinary_double
    simp only []
    rw [if_neg (show ¬ (m = 0) by omega), forBlocks_eq_blocks (m - 1) 2 (by decide)]
    have hnb : (m - 1 + 2 - 1) / 2 = m / 2 := by omega
    rw [hnb, Option.map_some']
    have hblocks : forUpTo (fun q μ => STORED μ (F 0) (q * 2)
          (vmul (LOADD μ (F 0) (q * 2)) (LOADD μ (F 1) (q * 2)))) (m / 2) μ
        = forUpTo (fun j μ => storeD μ (F 0) j (loadD μ (F 0) j * loadD μ (F 1) j))
            (2 * (m / 2)) μ := by
      rw [forUpTo_pairs]
      congr 1
      funext q μ
      exact multbinary_vector_step (F 0) (F 1) (q * 2) μ
    rw [hblocks]
    congr 1
    by_cases hodd : m % 2 = 0
    · rw [if_neg (not_not.mpr hodd)]
      have : 2 * (m / 2) = m := by omega
      rw [this]
    · rw [if_pos hodd]
      have e1 : 2 * (m / 2) = m - 1 := by omega
      have e2 : forUpTo (fun j μ => storeD μ (F 0) j (loadD μ (F 0) j * loadD μ (F 1) j)) m μ
          = forUpTo (fun j μ => storeD μ (F 0) j (loadD μ (F 0) j * loadD μ (F 1) j))
              (m - 1 + 1) μ := by
        congr 1
        omega
      rw [e1, e2]
      rfl
  refine ⟨heq, ?_⟩
  intro ν hν
  rw [heq] at hν
  have hν2 : ν = multbinary_double F m μ := (Option.some.inj hν).symm
  subst hν2
  obtain ⟨f2, f3⟩ := multbinary_double_frame (F 0) (F 1) μ m
  refine ⟨f2, f3, ?_⟩
  intro h
  exact (multbinary_double_spec F m μ h).1

/-- The two branches of the real `multbinary` on arrays of three doubles. -/
theorem multbinary_double_sse2_eq_scalar_witness :
    (1 : Nat) ≤ 3 ∧ multbinary_double_sse2 (fun i => 2 * i) 3 (fun _ => 2)
      = some (multbinary_double (fun i => 2 * i) 3 (fun _ => 2)) :=
  ⟨by decide, (multbinary_double_sse2_eq_scalar (fun i => 2 * i) 3 (fun _ => 2) (by decide)).1⟩

/-! ## Symmetry of the binary convolution in its two inputs -/

/-- The recombined output of the two cosets does not depend on the order of the two input
sequences. -/
theorem recombined_comm (E : ImplicitConvolution) (bwdE bwdO fwdE fwdO : Transform)
    (x y : Nat → ℂ) :
    E.recombined bwdE bwdO fwdE fwdO x y = E.recombined bwdE bwdO fwdE fwdO y x := by
  funext k
  unfold ImplicitConvolution.recombined
  have h1 : (fun t => restr E.m (bwdO (fun j => E.zetak j * x j)) t
        * restr E.m (bwdO (fun j => E.zetak j * y j)) t)
      = (fun t => restr E.m (bwdO (fun j => E.zetak j * y j)) t
        * restr E.m (bwdO (fun j => E.zetak j * x j)) t) := by
    funext t
    exact mul_comm _ _
  have h2 : (fun t => restr E.m (bwdE x) t * restr E.m (bwdE y) t)
      = (fun t => restr E.m (bwdE y) t * restr E.m (bwdE x) t) := by
    funext t
    exact mul_comm _ _
  rw [h1, h2]

/-- C31: for any engine with `A = 2`, `B = 1` (any `m`, any zeta table with block size
`s ≥ 1`, any transforms, in-place or out-of-place) and the multiplier `multbinary`: a call of
`convolve` with `F = [f, g]` and a call with the two arrays in the other order, `F = [g, f]`
(the array `G[0]` holding the `m` values of `F[1]` and `G[1]` those of `F[0]`), both return
and leave the same `m` values in their first array, provided that in each call the two
arrays and the two scratch buffers `U[0]`, `U[1]` do not overlap. -/
theorem convolve_multbinary_symmetric (E : ImplicitConvolution) (hA : E.A = 2) (hB : E.B = 1)
    (hs : 0 < E.s) (F G : Ptrs) (offset offset2 : Nat) (P0 P1 : Ptrs) (μ μ2 : Mem)
    (hfg : NoOverlap (F 0 + offset) (F 1 + offset) E.m)
    (hfu0 : NoOverlap (F 0 + offset) (E.U 0) E.m)
    (hfu1 : NoOverlap (F 0 + offset) (E.U 1) E.m)
    (hgu0 : NoOverlap (F 1 + offset) (E.U 0) E.m)
    (hgu1 : NoOverlap (F 1 + offset) (E.U 1) E.m)
    (hu01 : NoOverlap (E.U 0) (E.U 1) E.m)
    (hfg2 : NoOverlap (G 0 + offset2) (G 1 + offset2) E.m)
    (hfu02 : NoOverlap (G 0 + offset2) (E.U 0) E.m)
    (hfu12 : NoOverlap (G 0 + offset2) (E.U 1) E.m)
    (hgu02 : NoOverlap (G 1 + offset2) (E.U 0) E.m)
    (hgu12 : NoOverlap (G 1 + offset2) (E.U 1) E.m)
    (hg0 : arr E.m μ2 (G 0 + offset2) = arr E.m μ (F 1 + offset))
    (hg1 : arr E.m μ2 (G 1 + offset2) = arr E.m μ (F 0 + offset)) :
    ∃ ν ν2, E.convolve F multbinary offset P0 μ = some ν
      ∧ E.convolve G multbinary offset2 P1 μ2 = some ν2
      ∧ arr E.m ν (F 0 + offset) = arr E.m ν2 (G 0 + offset2) := by
  by_cases hoop : E.out_of_place = true
  · obtain ⟨ν, h1, h2⟩ := convolve_binary_oop E hA hB hs hoop F offset P0 μ
      hfg hfu0 hfu1 hgu0 hgu1 hu01
    obtain ⟨ν2, h3, h4⟩ := convolve_binary_oop E hA hB hs hoop G offset2 P1 μ2
      hfg2 hfu02 hfu12 hgu02 hgu12 hu01
    refine ⟨ν, ν2, h1, h3, ?_⟩
    rw [h2, h4, hg0, hg1]
    exact recombined_comm E _ _ _ _ _ _
  · have hoop2 : E.out_of_place = false := by
      cases h : E.out_of_place
      · rfl
      · exact absurd h hoop
    obtain ⟨ν, h1, h2⟩ := convolve_binary_inplace E hA hB hs hoop2 F offset P0 μ
      hfg hfu0 hfu1 hgu0 hgu1 hu01
    obtain ⟨ν2, h3, h4⟩ := convolve_binary_inplace E hA hB hs hoop2 G offset2 P1 μ2
      hfg2 hfu02 hfu12 hgu02 hgu12 hu01
    refine ⟨ν, ν2, h1, h3, ?_⟩
    rw [h2, h4, hg0, hg1]
    exact recombined_comm E _ _ _ _ _ _

/-- Witness of C31: `m = 3`, the arrays at 0 and 3 in the one call and at 3 and 0 in the
other, scratch at 6 and 9, on the in-place path. -/
theorem convolve_multbinary_symmetric_witness :
    NoOverlap (ptrs [0, 3] 0 + 0) (ptrs [0, 3] 1 + 0) 3 ∧
    ∃ ν ν2,
      ImplicitConvolution.convolve
          { ImplicitConvolution.init 3 2 1 (ptrs [6, 9]) (dft 1 3) (dft (-1) 3) with
            out_of_place := false }
          (ptrs [0, 3]) multbinary 0 (ptrs []) (fun a => (a : ℂ)) = some ν
      ∧ ImplicitConvolution.convolve
          { ImplicitConvolution.init 3 2 1 (ptrs [6, 9]) (dft 1 3) (dft (-1) 3) with
            out_of_place := false }
          (ptrs [3, 0]) multbinary 0 (ptrs []) (fun a => (a : ℂ)) = some ν2
      ∧ arr 3 ν (ptrs [0, 3] 0 + 0) = arr 3 ν2 (ptrs [3, 0] 0 + 0) :=
  ⟨by decide, convolve_multbinary_symmetric
    { ImplicitConvolution.init 3 2 1 (ptrs [6, 9]) (dft 1 3) (dft (-1) 3) with
      out_of_place := false }
    rfl rfl (Nat.sqrt_pos.mpr (show 0 < 3 by decide)) (ptrs [0, 3]) (ptrs [3, 0]) 0 0 (ptrs []) (ptrs [])
    (fun a => (a : ℂ)) (fun a => (a : ℂ))
    (by decide) (by decide) (by decide) (by decide) (by decide) (by decide)
    (by decide) (by decide) (by decide) (by decide) (by decide) rfl rfl⟩

/-! ## The multiplier calls of the two `convolve` functions -/

/-- The calls of `ImplicitConvolution::convolve`, written out. -/
theorem convolve_calls_eq (E : ImplicitConvolution) (t : Nat) :
    E.calls t = ((List.range E.A).map (Call.backward 0) ++ [Call.mult E.m t] ++ [Call.premult]
        ++ (if E.out_of_place then (List.range E.A).reverse else List.range E.A).map
            (Call.backward 1)
        ++ [Call.mult E.m t])
      ++ ((List.range E.B).map fun i =>
          [Call.forward 1 i, Call.forward 0 i, Call.postmultadd]).flatten := by
  unfold ImplicitConvolution.calls
  by_cases h : E.out_of_place = true
  · simp only [h, if_true]
    rw [forUpTo_append_flatten
      (fun i => [Call.forward 1 i, Call.forward 0 i, Call.postmultadd]),
      forDownFrom_append_map (Call.backward 1), forUpTo_append_map (Call.backward 0)]
    simp
  · have h2 : E.out_of_place = false := by simpa using h
    simp only [h2, Bool.false_eq_true, if_false]
    rw [forUpTo_append_flatten
      (fun i => [Call.forward 1 i, Call.forward 0 i, Call.postmultadd]),
      forUpTo_append_map (Call.backward 1), forUpTo_append_map (Call.backward 0)]
    simp

/-- The calls of `ImplicitHConvolution::convolve`, written out. -/
theorem hconvolve_calls_eq (E : ImplicitHConvolution) (t : Nat) :
    E.calls t = ([Call.premult] ++ (List.range E.A).map (Call.backward 2) ++ [Call.mult E.m t]
        ++ (List.range E.A).reverse.map (Call.backward 0) ++ [Call.mult E.m t]
        ++ (List.range E.A).reverse.map (Call.backward 1) ++ [Call.mult E.m t])
      ++ (((List.range E.B).map fun i =>
          if E.A ≥ 2 * E.B then [Call.forward 1 i, Call.forward 0 i, Call.forward 2 i]
          else [Call.forward 2 i, Call.forward 1 i, Call.forward 0 i]).flatten
        ++ [Call.postmultadd]) := by
  unfold ImplicitHConvolution.calls
  by_cases h : E.A ≥ 2 * E.B
  · simp only [h, decide_True, if_true]
    rw [forUpTo_append_flatten
      (fun i => [Call.forward 1 i, Call.forward 0 i, Call.forward 2 i]),
      forDownFrom_append_map (Call.backward 1), forDownFrom_append_map (Call.backward 0),
      forUpTo_append_map (Call.backward 2)]
    simp
  · simp only [h, decide_False, Bool.false_eq_true, if_false]
    rw [forUpTo_append_flatten
      (fun i => [Call.forward 2 i, Call.forward 1 i, Call.forward 0 i]),
      forDownFrom_append_map (Call.backward 1), forDownFrom_append_map (Call.backward 0),
      forUpTo_append_map (Call.backward 2)]
    simp

/-- No backward transform is a multiplier call or a forward transform. -/
theorem filter_isMult_backward (r : Nat) (l : List Nat) :
    (l.map (Call.backward r)).filter Call.isMult = []
      ∧ ∀ c, c ∈ l.map (Call.backward r) → c.isForward = false := by
  constructor
  · rw [List.filter_eq_nil_iff]
    intro c hc
    obtain ⟨i, _, rfl⟩ := List.mem_map.mp hc
    simp [Call.isMult]
  · intro c hc
    obtain ⟨i, _, rfl⟩ := List.mem_map.mp hc
    rfl

/-- No call of the closing loop of `ImplicitConvolution::convolve` is a multiplier call. -/
theorem forward_calls_no_mult (l : List Nat) :
    ∀ c, c ∈ (l.map fun i =>
        [Call.forward 1 i, Call.forward 0 i, Call.postmultadd]).flatten → c.isMult = false := by
  intro c hc
  obtain ⟨x, hx, hcx⟩ := List.mem_flatten.mp hc
  obtain ⟨i, _, rfl⟩ := List.mem_map.mp hx
  simp only [List.mem_cons, List.mem_singleton, List.not_mem_nil, or_false] at hcx
  rcases hcx with rfl | rfl | rfl <;> rfl

/-- No call of the closing part of `ImplicitHConvolution::convolve` is a multiplier call. -/
theorem hforward_calls_no_mult (p : Prop) [Decidable p] (l : List Nat) :
    ∀ c, c ∈ ((l.map fun i =>
        if p then [Call.forward 1 i, Call.forward 0 i, Call.forward 2 i]
        else [Call.forward 2 i, Call.forward 1 i, Call.forward 0 i]).flatten
      ++ [Call.postmultadd]) → c.isMult = false := by
  intro c hc
  rcases List.mem_append.mp hc with hc | hc
  · obtain ⟨x, hx, hcx⟩ := List.mem_flatten.mp hc
    obtain ⟨i, _, rfl⟩ := List.mem_map.mp hx
    by_cases hp : p
    · simp only [hp, if_true, List.mem_cons, List.mem_singleton, List.not_mem_nil,
        or_false] at hcx
      rcases hcx with rfl | rfl | rfl <;> rfl
    · simp only [hp, if_false, List.mem_cons, List.mem_singleton,
        List.not_mem_nil, or_false] at hcx
      rcases hcx with rfl | rfl | rfl <;> rfl
  · rw [List.mem_singleton.mp hc]
    rfl

/-- C33: `ImplicitConvolution::convolve` calls the multiplier exactly twice and
`ImplicitHConvolution::convolve` exactly three times, in-place and out-of-place alike, each
time with the arguments `m` and `threads`. The calls of either function are a first part
followed by a closing part: the first part consists, for every branch (`r = 0, 1`, and for
the Hermitian engine `r = 2, 0, 1`), of the `A` backward transforms of the branch directly
followed by one multiplier call (with `premult` between the branches, or at the start), and
holds no forward transform; the closing part holds no multiplier call. -/
theorem convolve_mult_calls (t : Nat) :
    (∀ E : ImplicitConvolution, ∃ pre post,
      E.calls t = pre ++ post
      ∧ pre = (List.range E.A).map (Call.backward 0) ++ [Call.mult E.m t] ++ [Call.premult]
          ++ (if E.out_of_place then (List.range E.A).reverse else List.range E.A).map
              (Call.backward 1)
          ++ [Call.mult E.m t]
      ∧ (∀ c, c ∈ pre → c.isForward = false)
      ∧ (∀ c, c ∈ post → c.isMult = false)
      ∧ (E.calls t).filter Call.isMult = [Call.mult E.m t, Call.mult E.m t])
    ∧ (∀ E : ImplicitHConvolution, ∃ pre post,
      E.calls t = pre ++ post
      ∧ pre = [Call.premult] ++ (List.range E.A).map (Call.backward 2) ++ [Call.mult E.m t]
          ++ (List.range E.A).reverse.map (Call.backward 0) ++ [Call.mult E.m t]
          ++ (List.range E.A).reverse.map (Call.backward 1) ++ [Call.mult E.m t]
      ∧ (∀ c, c ∈ pre → c.isForward = false)
      ∧ (∀ c, c ∈ post → c.isMult = false)
      ∧ (E.calls t).filter Call.isMult
          = [Call.mult E.m t, Call.mult E.m t, Call.mult E.m t]) := by
  constructor
  · intro E
    have hpost := forward_calls_no_mult (List.range E.B)
    have hb0 := filter_isMult_backward 0 (List.range E.A)
    have hb1 := filter_isMult_backward 1
      (if E.out_of_place then (List.range E.A).reverse else List.range E.A)
    refine ⟨_, _, convolve_calls_eq E t, rfl, ?_, hpost, ?_⟩
    · intro c hc
      simp only [List.mem_append, List.mem_singleton] at hc
      rcases hc with (((hc | hc) | hc) | hc) | hc
      · exact hb0.2 c hc
      · rw [hc]; rfl
      · rw [hc]; rfl
      · exact hb1.2 c hc
      · rw [hc]; rfl
    · have hpf : List.filter Call.isMult ((List.range E.B).map fun i =>
          [Call.forward 1 i, Call.forward 0 i, Call.postmultadd]).flatten = [] :=
        List.filter_eq_nil_iff.mpr (fun c hc => by rw [hpost c hc]; decide)
      rw [convolve_calls_eq E t]
      simp only [List.filter_append, hb0.1, hb1.1, hpf]
      rfl
  · intro E
    have hpost := hforward_calls_no_mult (E.A ≥ 2 * E.B) (List.range E.B)
    have hb2 := filter_isMult_backward 2 (List.range E.A)
    have hb0 := filter_isMult_backward 0 (List.range E.A).reverse
    have hb1 := filter_isMult_backward 1 (List.range E.A).reverse
    refine ⟨_, _, hconvolve_calls_eq E t, rfl, ?_, hpost, ?_⟩
    · intro c hc
      simp only [List.mem_append, List.mem_singleton] at hc
      rcases hc with (((((hc | hc) | hc) | hc) | hc) | hc) | hc
      · rw [hc]; rfl
      · exact hb2.2 c hc
      · rw [hc]; rfl
      · exact hb0.2 c hc
      · rw [hc]; rfl
      · exact hb1.2 c hc
      · rw [hc]; rfl
    · have hpf : List.filter Call.isMult (((List.range E.B).map fun i =>
            if E.A ≥ 2 * E.B then [Call.forward 1 i, Call.forward 0 i, Call.forward 2 i]
            else [Call.forward 2 i, Call.forward 1 i, Call.forward 0 i]).flatten
          ++ [Call.postmultadd]) = [] :=
        List.filter_eq_nil_iff.mpr (fun c hc => by rw [hpost c hc]; decide)
      rw [hconvolve_calls_eq E t]
      simp only [List.filter_append, hb0.1, hb1.1, hb2.1]
      rw [← List.filter_append, hpf]
      rfl

/-! ## `ImplicitHFGGConvolution::convolve` -/

/-- A loop with two stores per round, at `p + j` and at `q + j`, whose values do not depend
on the cells written by earlier rounds, has a closed form. -/
theorem forUpTo_store2_eq (p q : Nat) (val1 val2 : Nat → Mem → ℂ) (mem : Mem) (n : Nat)
    (hpq : NoOverlap p q n)
    (hval1 : ∀ j, j < n → ∀ μ : Mem,
      (∀ a, ¬ (p ≤ a ∧ a < p + j) → ¬ (q ≤ a ∧ a < q + j) → μ a = mem a) →
      val1 j μ = val1 j mem)
    (hval2 : ∀ j, j < n → ∀ μ : Mem,
      (∀ a, ¬ (p ≤ a ∧ a < p + j) → ¬ (q ≤ a ∧ a < q + j) → μ a = mem a) →
      val2 j μ = val2 j mem) :
    ∀ a, forUpTo (fun j μ => STORE (STORE μ (p + j) (val1 j μ)) (q + j) (val2 j μ)) n mem a
      = if p ≤ a ∧ a < p + n then val1 (a - p) mem
        else if q ≤ a ∧ a < q + n then val2 (a - q) mem else mem a := by
  induction n with
  | zero =>
    intro a
    rw [if_neg (by omega), if_neg (by omega)]
    rfl
  | succ n ih =>
    intro a
    have hpq2 : NoOverlap p q n := by
      unfold NoOverlap at hpq ⊢
      omega
    unfold NoOverlap at hpq
    have ih2 := ih hpq2 (fun j hj => hval1 j (by omega)) (fun j hj => hval2 j (by omega))
    have hagree : ∀ b, ¬ (p ≤ b ∧ b < p + n) → ¬ (q ≤ b ∧ b < q + n) →
        forUpTo (fun j μ => STORE (STORE μ (p + j) (val1 j μ)) (q + j) (val2 j μ)) n mem b
          = mem b := by
      intro b hb1 hb2
      rw [ih2 b, if_neg hb1, if_neg hb2]
    have hv1 := hval1 n (by omega) _ hagree
    have hv2 := hval2 n (by omega) _ hagree
    show STORE (STORE (forUpTo (fun j μ => STORE (STORE μ (p + j) (val1 j μ)) (q + j)
        (val2 j μ)) n mem) (p + n) (val1 n _)) (q + n) (val2 n _) a = _
    rw [hv1, hv2, STORE_apply, STORE_apply, ih2 a]
    split_ifs <;> first | rfl | (exfalso; omega) | (congr 1; omega)

/-- The phase factor computed inside a block of `ImplicitHFGGConvolution::convolve`. -/
theorem hfgg_block_zetak (E : ImplicitHFGGConvolution) (hs : 0 < E.s) (k : Nat) :
    ZMULT3 (UNPACKL (tab E.ZetaH (k / E.s * E.s / E.s)) (tab E.ZetaH (k / E.s * E.s / E.s)))
        (UNPACKH (CONJ (tab E.ZetaH (k / E.s * E.s / E.s))) (tab E.ZetaH (k / E.s * E.s / E.s)))
        (tab E.ZetaL (k - k / E.s * E.s))
      = E.zetak k := by
  rw [ZMULT3_unpack, (block_index E.s k hs).1, (block_index E.s k hs).2]
  rfl

/-- The scaled phase factor computed inside a block of the closing loop. -/
theorem hfgg_block_zetak_scaled (E : ImplicitHFGGConvolution) (hs : 0 < E.s) (ninv : ℝ)
    (k : Nat) :
    ZMULT3
        (UNPACKL (vmul (LOADd ninv) (tab E.ZetaH (k / E.s * E.s / E.s)))
          (vmul (LOADd ninv) (tab E.ZetaH (k / E.s * E.s / E.s))))
        (UNPACKH (CONJ (vmul (LOADd ninv) (tab E.ZetaH (k / E.s * E.s / E.s))))
          (vmul (LOADd ninv) (tab E.ZetaH (k / E.s * E.s / E.s))))
        (tab E.ZetaL (k - k / E.s * E.s))
      = (ninv : ℂ) * E.zetak k := by
  rw [ZMULT3_unpack, vmul_LOADd, (block_index E.s k hs).1, (block_index E.s k hs).2, mul_assoc]
  rfl

/-- The double `j` of the array at the cell `q` is the double `2q + j` of the memory. -/
theorem loadD_eq_dload (mem : Mem) (q j : Nat) : loadD mem q j = dload mem (2 * q + j) := by
  unfold dload loadD
  have h1 : (2 * q + j) % 2 = j % 2 := by omega
  have h2 : 0 + (2 * q + j) / 2 = q + j / 2 := by omega
  rw [h1, h2]

/-- A cell is the pair of its two doubles. -/
theorem cell_of_dload (μ ν : Mem) (a : Nat) (h0 : dload ν (2 * a) = dload μ (2 * a))
    (h1 : dload ν (2 * a + 1) = dload μ (2 * a + 1)) : ν a = μ a := by
  unfold dload loadD at h0 h1
  have e0 : (2 * a) % 2 = 0 := by omega
  have e1 : ¬ ((2 * a + 1) % 2 = 0) := by omega
  have e2 : 0 + 2 * a / 2 = a := by omega
  have e3 : 0 + (2 * a + 1) / 2 = a := by omega
  rw [if_pos e0, if_pos e0, e2] at h0
  rw [if_neg e1, if_neg e1, e3] at h1
  exact Complex.ext h0 h1

/-- `ImplicitHFGGConvolution::mult((double *) a, (double *) b)` on two arrays of `m` cells
that are apart: `a[j] = a[j]*a[j]*b[j]` for the `2m` doubles, and no other cell changes. -/
theorem hfgg_mult_cells (m a b : Nat) (mem : Mem) (h : NoOverlap a b m) :
    (∀ j, j < 2 * m → loadD (ImplicitHFGGConvolution.mult m (2 * a) (2 * b) mem) a j
        = loadD mem a j * loadD mem a j * loadD mem b j) ∧
    (∀ c, ¬ (a ≤ c ∧ c < a + m) →
      ImplicitHFGGConvolution.mult m (2 * a) (2 * b) mem c = mem c) := by
  unfold NoOverlap at h
  have key := forUpTo_dstore_eq (2 * a)
    (fun k μ => dload μ (2 * a + k) * dload μ (2 * a + k) * dload μ (2 * b + k)) mem (2 * m)
    (by
      intro j hj μ hμ
      show dload μ (2 * a + j) * dload μ (2 * a + j) * dload μ (2 * b + j)
        = dload mem (2 * a + j) * dload mem (2 * a + j) * dload mem (2 * b + j)
      rw [hμ (2 * a + j) (by omega), hμ (2 * b + j) (by omega)])
  have key2 : ∀ d, dload (ImplicitHFGGConvolution.mult m (2 * a) (2 * b) mem) d
      = if 2 * a ≤ d ∧ d < 2 * a + 2 * m then
          dload mem (2 * a + (d - 2 * a)) * dload mem (2 * a + (d - 2 * a))
            * dload mem (2 * b + (d - 2 * a))
        else dload mem d := key
  constructor
  · intro j hj
    rw [loadD_eq_dload, key2, if_pos (by omega), loadD_eq_dload, loadD_eq_dload]
    have : 2 * a + j - 2 * a = j := by omega
    rw [this]
  · intro c hc
    apply cell_of_dload
    · rw [key2, if_neg (by omega)]
    · rw [key2, if_neg (by omega)]

/-- The first loop of `ImplicitHFGGConvolution::convolve` comes to an end, sets
`u[k] = zeta_k*f[k]` and `v[k] = zeta_k*g[k]` for `k < m`, and writes nothing else. -/
theorem hfgg_scale (E : ImplicitHFGGConvolution) (hs : 0 < E.s) (f g u v : Nat) (μ : Mem)
    (huv : NoOverlap u v E.m) (hfu : NoOverlap f u E.m) (hfv : NoOverlap f v E.m)
    (hgu : NoOverlap g u E.m) (hgv : NoOverlap g v E.m) :
    ∃ μ1, forBlocks E.m E.s (fun K μ =>
        let stop := min (K + E.s) E.m
        let Zeta := tab E.ZetaH (K / E.s)
        let X := UNPACKL Zeta Zeta
        let Y := UNPACKH (CONJ Zeta) Zeta
        forRange K stop (fun k μ =>
          let Zetak := ZMULT3 X Y (tab E.ZetaL (k - K))
          let Fk := LOAD μ (f + k)
          let Gk := LOAD μ (g + k)
          let μ := STORE μ (u + k) (ZMULT Zetak Fk)
          STORE μ (v + k) (ZMULT Zetak Gk)) μ) E.m 0 μ = some μ1
      ∧ (∀ k, k < E.m → μ1 (u + k) = E.zetak k * μ (f + k))
      ∧ (∀ k, k < E.m → μ1 (v + k) = E.zetak k * μ (g + k))
      ∧ (∀ a, ¬ (u ≤ a ∧ a < u + E.m) → ¬ (v ≤ a ∧ a < v + E.m) → μ1 a = μ a) := by
  have hrun := forBlocks_eq_forUpTo E.m E.s hs
    (fun K k (μ : Mem) =>
      STORE (STORE μ (u + k)
        (ZMULT (ZMULT3 (UNPACKL (tab E.ZetaH (K / E.s)) (tab E.ZetaH (K / E.s)))
          (UNPACKH (CONJ (tab E.ZetaH (K / E.s))) (tab E.ZetaH (K / E.s)))
          (tab E.ZetaL (k - K))) (LOAD μ (f + k))))
        (v + k)
        (ZMULT (ZMULT3 (UNPACKL (tab E.ZetaH (K / E.s)) (tab E.ZetaH (K / E.s)))
          (UNPACKH (CONJ (tab E.ZetaH (K / E.s))) (tab E.ZetaH (K / E.s)))
          (tab E.ZetaL (k - K))) (LOAD μ (g + k)))) μ
  unfold NoOverlap at hfu hfv hgu hgv
  have key := forUpTo_store2_eq u v
    (fun k (μ : Mem) =>
      ZMULT (ZMULT3
        (UNPACKL (tab E.ZetaH (k / E.s * E.s / E.s)) (tab E.ZetaH (k / E.s * E.s / E.s)))
        (UNPACKH (CONJ (tab E.ZetaH (k / E.s * E.s / E.s))) (tab E.ZetaH (k / E.s * E.s / E.s)))
        (tab E.ZetaL (k - k / E.s * E.s))) (LOAD μ (f + k)))
    (fun k (μ : Mem) =>
      ZMULT (ZMULT3
        (UNPACKL (tab E.ZetaH (k / E.s * E.s / E.s)) (tab E.ZetaH (k / E.s * E.s / E.s)))
        (UNPACKH (CONJ (tab E.ZetaH (k / E.s * E.s / E.s))) (tab E.ZetaH (k / E.s * E.s / E.s)))
        (tab E.ZetaL (k - k / E.s * E.s))) (LOAD μ (g + k)))
    μ E.m huv
    (by
      intro j hj ν hν
      simp only [LOAD]
      rw [hν (f + j) (by omega) (by omega)])
    (by
      intro j hj ν hν
      simp only [LOAD]
      rw [hν (g + j) (by omega) (by omega)])
  unfold NoOverlap at huv
  refine ⟨_, hrun, ?_, ?_, ?_⟩
  · intro k hk
    rw [key, if_pos (by omega)]
    have hk2 : u + k - u = k := by omega
    simp only [hk2, LOAD]
    rw [hfgg_block_zetak E hs, ZMULT_eq_mul]
  · intro k hk
    rw [key, if_neg (by omega), if_pos (by omega)]
    have hk2 : v + k - v = k := by omega
    simp only [hk2, LOAD]
    rw [hfgg_block_zetak E hs, ZMULT_eq_mul]
  · intro a h1 h2
    rw [key, if_neg h1, if_neg h2]

/-- A buffer of `m + 1` cells whose last cell is zero, read as a sequence. -/
theorem arr_succ_zero (m : Nat) (μ : Mem) (p : Nat) (x : Nat → ℂ)
    (h : ∀ k, k < m → μ (p + k) = x k) (hm : μ (p + m) = 0) :
    arr (2 * m / 2 + 1) μ p = restr m x := by
  have e : 2 * m / 2 = m := by omega
  rw [e]
  funext k
  unfold arr restr
  by_cases hk : k < m
  · rw [if_pos (by omega), if_pos hk]
    exact h k hk
  · rw [if_neg hk]
    by_cases hk2 : k = m
    · rw [if_pos (by omega), hk2]
      exact hm
    · rw [if_neg (by omega)]

/-- The branch of the odd indices: after `u[m]=0; v[m]=0; cr->fft(u); cr->fft(v);
mult(v,u); rco->fft(v,u)` the cells `u[0..m]` hold the transform of the products
`cr(v)^2*cr(u)`, and no cell outside `u[0..m]` and `v[0..m]` has changed. -/
theorem hfgg_odd_branch (cr : TransformCR) (rco : TransformRC) (m u v : Nat) (μ : Mem)
    (x y : Nat → ℂ) (huv : NoOverlap u v (m + 1))
    (hx : ∀ k, k < m → μ (u + k) = x k) (hy : ∀ k, k < m → μ (v + k) = y k) :
    (∀ k, k ≤ m →
      fftRC rco (2 * m) v u (ImplicitHFGGConvolution.mult m (2 * v) (2 * u)
        (fftCR cr (2 * m) v v (fftCR cr (2 * m) u u
          (STORE (STORE μ (u + m) 0) (v + m) 0)))) (u + k)
        = rco (fun d => if d < 2 * m then
            cr (restr m y) d * cr (restr m y) d * cr (restr m x) d else 0) k)
    ∧ (∀ a, ¬ (u ≤ a ∧ a < u + (m + 1)) → ¬ (v ≤ a ∧ a < v + (m + 1)) →
      fftRC rco (2 * m) v u (ImplicitHFGGConvolution.mult m (2 * v) (2 * u)
        (fftCR cr (2 * m) v v (fftCR cr (2 * m) u u
          (STORE (STORE μ (u + m) 0) (v + m) 0)))) a = μ a) := by
  unfold NoOverlap at huv
  have huv2 : NoOverlap v u m := by
    unfold NoOverlap
    omega
  have hU : arr (2 * m / 2 + 1) (STORE (STORE μ (u + m) 0) (v + m) 0) u = restr m x := by
    apply arr_succ_zero
    · intro k hk
      rw [STORE_other _ _ _ _ (by omega), STORE_other _ _ _ _ (by omega), hx k hk]
    · rw [STORE_other _ _ _ _ (by omega), STORE_same]
  have hV : arr (2 * m / 2 + 1)
      (fftCR cr (2 * m) u u (STORE (STORE μ (u + m) 0) (v + m) 0)) v = restr m y := by
    apply arr_succ_zero
    · intro k hk
      rw [fftCR_frame _ _ _ _ _ _ (by omega), STORE_other _ _ _ _ (by omega),
        STORE_other _ _ _ _ (by omega), hy k hk]
    · rw [fftCR_frame _ _ _ _ _ _ (by omega), STORE_same]
  have h4v : ∀ j, j < 2 * m → loadD (fftCR cr (2 * m) v v (fftCR cr (2 * m) u u
      (STORE (STORE μ (u + m) 0) (v + m) 0))) v j = cr (restr m y) j := by
    intro j hj
    rw [fftCR_loadD _ _ _ _ _ _ hj, hV]
  have h4u : ∀ j, j < 2 * m → loadD (fftCR cr (2 * m) v v (fftCR cr (2 * m) u u
      (STORE (STORE μ (u + m) 0) (v + m) 0))) u j = cr (restr m x) j := by
    intro j hj
    rw [loadD_congr _ (fftCR cr (2 * m) u u (STORE (STORE μ (u + m) 0) (v + m) 0)) u u j
      (fftCR_frame _ _ _ _ _ _ (by omega)), fftCR_loadD _ _ _ _ _ _ hj, hU]
  obtain ⟨m1, m2⟩ := hfgg_mult_cells m v u (fftCR cr (2 * m) v v (fftCR cr (2 * m) u u
    (STORE (STORE μ (u + m) 0) (v + m) 0))) huv2
  have h5 : arrD (2 * m) (ImplicitHFGGConvolution.mult m (2 * v) (2 * u)
      (fftCR cr (2 * m) v v (fftCR cr (2 * m) u u
        (STORE (STORE μ (u + m) 0) (v + m) 0)))) v
      = fun d => if d < 2 * m then
          cr (restr m y) d * cr (restr m y) d * cr (restr m x) d else 0 := by
    apply arrD_eq
    intro j hj
    rw [m1 j hj, h4v j hj, h4u j hj]
  constructor
  · intro k hk
    rw [fftRC_apply _ _ _ _ _ _ (by omega), h5]
  · intro a h1 h2
    rw [fftRC_frame _ _ _ _ _ _ (by omega), m2 a (by omega),
      fftCR_frame _ _ _ _ _ _ (by omega), fftCR_frame _ _ _ _ _ _ (by omega),
      STORE_other _ _ _ _ (by omega), STORE_other _ _ _ _ (by omega)]

/-- The branch of the even indices: after `g[m]=0; cro->fft(g,v); f[m]=0; cro->fft(f,g);
mult(v,g); rco->fft(v,f)` the cells `f[0..m]` hold the transform of the products
`cro(g)^2*cro(f)`, and no cell outside `f[0..m]`, `g[0..m]` and `v[0..m]` has changed. -/
theorem hfgg_even_branch (cro : TransformCR) (rco : TransformRC) (m f g v : Nat) (μ : Mem)
    (x y : Nat → ℂ) (hfg : NoOverlap f g (m + 1)) (hfv : NoOverlap f v (m + 1))
    (hgv : NoOverlap g v (m + 1))
    (hx : ∀ k, k < m → μ (f + k) = x k) (hy : ∀ k, k < m → μ (g + k) = y k) :
    (∀ k, k ≤ m →
      fftRC rco (2 * m) v f (ImplicitHFGGConvolution.mult m (2 * v) (2 * g)
        (fftCR cro (2 * m) f g (STORE (fftCR cro (2 * m) g v
          (STORE μ (g + m) 0)) (f + m) 0))) (f + k)
        = rco (fun d => if d < 2 * m then
            cro (restr m y) d * cro (restr m y) d * cro (restr m x) d else 0) k)
    ∧ (∀ a, ¬ (f ≤ a ∧ a < f + (m + 1)) → ¬ (g ≤ a ∧ a < g + (m + 1)) →
        ¬ (v ≤ a ∧ a < v + (m + 1)) →
      fftRC rco (2 * m) v f (ImplicitHFGGConvolution.mult m (2 * v) (2 * g)
        (fftCR cro (2 * m) f g (STORE (fftCR cro (2 * m) g v
          (STORE μ (g + m) 0)) (f + m) 0))) a = μ a) := by
  unfold NoOverlap at hfg hfv hgv
  have hvg : NoOverlap v g m := by
    unfold NoOverlap
    omega
  have hG : arr (2 * m / 2 + 1) (STORE μ (g + m) 0) g = restr m y := by
    apply arr_succ_zero
    · intro k hk
      rw [STORE_other _ _ _ _ (by omega), hy k hk]
    · rw [STORE_same]
  have hF : arr (2 * m / 2 + 1) (STORE (fftCR cro (2 * m) g v
      (STORE μ (g + m) 0)) (f + m) 0) f = restr m x := by
    apply arr_succ_zero
    · intro k hk
      rw [STORE_other _ _ _ _ (by omega), fftCR_frame _ _ _ _ _ _ (by omega),
        STORE_other _ _ _ _ (by omega), hx k hk]
    · rw [STORE_same]
  have h4g : ∀ j, j < 2 * m → loadD (fftCR cro (2 * m) f g (STORE (fftCR cro (2 * m) g v
      (STORE μ (g + m) 0)) (f + m) 0)) g j = cro (restr m x) j := by
    intro j hj
    rw [fftCR_loadD _ _ _ _ _ _ hj, hF]
  have h4v : ∀ j, j < 2 * m → loadD (fftCR cro (2 * m) f g (STORE (fftCR cro (2 * m) g v
      (STORE μ (g + m) 0)) (f + m) 0)) v j = cro (restr m y) j := by
    intro j hj
    have e1 : fftCR cro (2 * m) f g (STORE (fftCR cro (2 * m) g v
        (STORE μ (g + m) 0)) (f + m) 0) (v + j / 2)
        = fftCR cro (2 * m) g v (STORE μ (g + m) 0) (v + j / 2) := by
      rw [fftCR_frame _ _ _ _ _ _ (by omega), STORE_other _ _ _ _ (by omega)]
    rw [loadD_congr _ _ v v j e1, fftCR_loadD _ _ _ _ _ _ hj, hG]
  obtain ⟨m1, m2⟩ := hfgg_mult_cells m v g (fftCR cro (2 * m) f g
    (STORE (fftCR cro (2 * m) g v (STORE μ (g + m) 0)) (f + m) 0)) hvg
  have h5 : arrD (2 * m) (ImplicitHFGGConvolution.mult m (2 * v) (2 * g)
      (fftCR cro (2 * m) f g (STORE (fftCR cro (2 * m) g v
        (STORE μ (g + m) 0)) (f + m) 0))) v
      = fun d => if d < 2 * m then
          cro (restr m y) d * cro (restr m y) d * cro (restr m x) d else 0 := by
    apply arrD_eq
    intro j hj
    rw [m1 j hj, h4v j hj, h4g j hj]
  constructor
  · intro k hk
    rw [fftRC_apply _ _ _ _ _ _ (by omega), h5]
  · intro a h1 h2 h3
    rw [fftRC_frame _ _ _ _ _ _ (by omega), m2 a (by omega),
      fftCR_frame _ _ _ _ _ _ (by omega), STORE_other _ _ _ _ (by omega),
      fftCR_frame _ _ _ _ _ _ (by omega), STORE_other _ _ _ _ (by omega)]

/-- The closing loop of `ImplicitHFGGConvolution::convolve` comes to an end and sets
`f[k] = conj(ninv*zeta_k)*u[k] + ninv*f[k]` for `k < m`, with `ninv = 0.25/m`. -/
theorem hfgg_recombine (E : ImplicitHFGGConvolution) (hs : 0 < E.s) (f u : Nat) (μ : Mem)
    (h : NoOverlap f u E.m) :
    ∃ ν, forBlocks E.m E.s (fun K μ =>
        let stop := min (K + E.s) E.m
        let Zeta := vmul (LOADd (0.25 / (E.m : ℝ))) (tab E.ZetaH (K / E.s))
        let X := UNPACKL Zeta Zeta
        let Y := UNPACKH (CONJ Zeta) Zeta
        forRange K stop (fun k μ =>
          let Zetak := ZMULT3 X Y (tab E.ZetaL (k - K))
          let fk := f + k
          STORE μ fk (ZMULTC Zetak (LOAD μ (u + k))
            + vmul (LOADd (0.25 / (E.m : ℝ))) (LOAD μ fk))) μ) E.m 0 μ = some ν
      ∧ ∀ k, k < E.m → ν (f + k)
          = (starRingEnd ℂ) (((0.25 / (E.m : ℝ) : ℝ) : ℂ) * E.zetak k) * μ (u + k)
            + ((0.25 / (E.m : ℝ) : ℝ) : ℂ) * μ (f + k) := by
  have hrun := forBlocks_eq_forUpTo E.m E.s hs
    (fun K k (μ : Mem) => STORE μ (f + k)
      (ZMULTC
        (ZMULT3
          (UNPACKL (vmul (LOADd (0.25 / (E.m : ℝ))) (tab E.ZetaH (K / E.s)))
            (vmul (LOADd (0.25 / (E.m : ℝ))) (tab E.ZetaH (K / E.s))))
          (UNPACKH (CONJ (vmul (LOADd (0.25 / (E.m : ℝ))) (tab E.ZetaH (K / E.s))))
            (vmul (LOADd (0.25 / (E.m : ℝ))) (tab E.ZetaH (K / E.s))))
          (tab E.ZetaL (k - K)))
        (LOAD μ (u + k))
      + vmul (LOADd (0.25 / (E.m : ℝ))) (LOAD μ (f + k)))) μ
  refine ⟨_, hrun, ?_⟩
  have key := forUpTo_store_eq f (fun k (μ : Mem) =>
    (ZMULTC
      (ZMULT3
        (UNPACKL (vmul (LOADd (0.25 / (E.m : ℝ))) (tab E.ZetaH (k / E.s * E.s / E.s)))
          (vmul (LOADd (0.25 / (E.m : ℝ))) (tab E.ZetaH (k / E.s * E.s / E.s))))
        (UNPACKH (CONJ (vmul (LOADd (0.25 / (E.m : ℝ))) (tab E.ZetaH (k / E.s * E.s / E.s))))
          (vmul (LOADd (0.25 / (E.m : ℝ))) (tab E.ZetaH (k / E.s * E.s / E.s))))
        (tab E.ZetaL (k - k / E.s * E.s)))
      (LOAD μ (u + k))
    + vmul (LOADd (0.25 / (E.m : ℝ))) (LOAD μ (f + k)))) μ E.m
    (by
      intro j hj ν hν
      unfold NoOverlap at h
      simp only [LOAD]
      rw [hν (f + j) (by omega), hν (u + j) (by omega)])
  intro k hk
  rw [key, if_pos (by omega)]
  have hk2 : f + k - f = k := by omega
  simp only [hk2, LOAD]
  rw [hfgg_block_zetak_scaled E hs, ZMULTC_eq_mul, vmul_LOADd]

/-- `ImplicitHFGGConvolution::convolve` on four buffers of `m + 1` cells that are pairwise
apart: it returns, and `f[k]` ends as `output` of the two input sequences for `k < m`. -/
theorem hfgg_convolve_output (E : ImplicitHFGGConvolution) (hs : 0 < E.s) (f g u v : Nat)
    (μ : Mem)
    (hfg : NoOverlap f g (E.m + 1)) (hfu : NoOverlap f u (E.m + 1))
    (hfv : NoOverlap f v (E.m + 1)) (hgu : NoOverlap g u (E.m + 1))
    (hgv : NoOverlap g v (E.m + 1)) (huv : NoOverlap u v (E.m + 1)) :
    ∃ ν, E.convolve f g u v μ = some ν ∧
      ∀ k, k < E.m → ν (f + k) = E.output (fun j => μ (f + j)) (fun j => μ (g + j)) k := by
  have w : ∀ p q, NoOverlap p q (E.m + 1) → NoOverlap p q E.m := by
    intro p q h
    unfold NoOverlap at h ⊢
    omega
  obtain ⟨μ1, h1, a1, b1, c1⟩ := hfgg_scale E hs f g u v μ (w _ _ huv) (w _ _ hfu)
    (w _ _ hfv) (w _ _ hgu) (w _ _ hgv)
  obtain ⟨μ6, hμ6⟩ : ∃ μ6, μ6 = fftRC E.rco (2 * E.m) v u
      (ImplicitHFGGConvolution.mult E.m (2 * v) (2 * u)
        (fftCR E.cr (2 * E.m) v v (fftCR E.cr (2 * E.m) u u
          (STORE (STORE μ1 (u + E.m) 0) (v + E.m) 0)))) := ⟨_, rfl⟩
  obtain ⟨o1, o2⟩ := hfgg_odd_branch E.cr E.rco E.m u v μ1
    (fun k => E.zetak k * μ (f + k)) (fun k => E.zetak k * μ (g + k)) huv a1 b1
  rw [← hμ6] at o1 o2
  obtain ⟨μ12, hμ12⟩ : ∃ μ12, μ12 = fftRC E.rco (2 * E.m) v f
      (ImplicitHFGGConvolution.mult E.m (2 * v) (2 * g)
        (fftCR E.cro (2 * E.m) f g (STORE (fftCR E.cro (2 * E.m) g v
          (STORE μ6 (g + E.m) 0)) (f + E.m) 0))) := ⟨_, rfl⟩
  have hfu2 := hfu
  have hfv2 := hfv
  have hgu2 := hgu
  have hgv2 := hgv
  have hfg2 := hfg
  have huv2 := huv
  unfold NoOverlap at hfu2 hfv2 hgu2 hgv2 hfg2 huv2
  obtain ⟨e1, e2⟩ := hfgg_even_branch E.cro E.rco E.m f g v μ6
    (fun j => μ (f + j)) (fun j => μ (g + j)) hfg hfv hgv
    (fun k hk => by
      rw [o2 (f + k) (by omega) (by omega), c1 (f + k) (by omega) (by omega)])
    (fun k hk => by
      rw [o2 (g + k) (by omega) (by omega), c1 (g + k) (by omega) (by omega)])
  rw [← hμ12] at e1 e2
  obtain ⟨ν, hν, hval⟩ := hfgg_recombine E hs f u μ12 (w _ _ hfu)
  refine ⟨ν, ?_, ?_⟩
  · unfold ImplicitHFGGConvolution.convolve
    rw [h1, Option.some_bind]
    rw [hμ12, hμ6] at hν
    exact hν
  · intro k hk
    rw [hval k hk, e1 k (by omega), e2 (u + k) (by omega) (by omega) (by omega),
      o1 k (by omega)]
    rfl

/-- The sequence `zeta_j * (a * x j)`, cut off at `m`, is `a` times the cut-off sequence
`zeta_j * x j`. -/
theorem restr_scale (m : Nat) (a : ℂ) (z x : Nat → ℂ) :
    (restr m fun j => z j * (a * x j)) = fun j => a * restr m (fun j => z j * x j) j := by
  funext j
  unfold restr
  by_cases hj : j < m
  · rw [if_pos hj, if_pos hj]
    ring
  · rw [if_neg hj, if_neg hj, mul_zero]

/-- The cut-off sequence `a * x j` is `a` times the cut-off sequence `x j`. -/
theorem restr_scale_plain (m : Nat) (a : ℂ) (x : Nat → ℂ) :
    (restr m fun j => a * x j) = fun j => a * restr m x j := by
  funext j
  unfold restr
  by_cases hj : j < m
  · rw [if_pos hj, if_pos hj]
  · rw [if_neg hj, if_neg hj, mul_zero]

/-- For transforms that commute with the multiplication by a real number, `output` is
homogeneous of degree one in its first and of degree two in its second sequence. -/
theorem hfgg_output_scale (E : ImplicitHFGGConvolution)
    (hcr : ∀ (a : ℝ) (x : Nat → ℂ), E.cr (fun k => (a : ℂ) * x k) = fun d => a * E.cr x d)
    (hcro : ∀ (a : ℝ) (x : Nat → ℂ), E.cro (fun k => (a : ℂ) * x k) = fun d => a * E.cro x d)
    (hrco : ∀ (a : ℝ) (y : Nat → ℝ), E.rco (fun d => a * y d) = fun k => (a : ℂ) * E.rco y k)
    (a b : ℝ) (x y : Nat → ℂ) (k : Nat) :
    E.output (fun j => (a : ℂ) * x j) (fun j => (b : ℂ) * y j) k
      = ((a * b ^ 2 : ℝ) : ℂ) * E.output x y k := by
  unfold ImplicitHFGGConvolution.output
  rw [restr_scale E.m (a : ℂ) E.zetak x, restr_scale E.m (b : ℂ) E.zetak y,
    restr_scale_plain E.m (a : ℂ) x, restr_scale_plain E.m (b : ℂ) y,
    hcr a, hcr b, hcro a, hcro b]
  have p1 : (fun d => if d < 2 * E.m then
        b * E.cr (restr E.m fun j => E.zetak j * y j) d
          * (b * E.cr (restr E.m fun j => E.zetak j * y j) d)
          * (a * E.cr (restr E.m fun j => E.zetak j * x j) d)
      else 0)
      = fun d => (a * b ^ 2) * (if d < 2 * E.m then
          E.cr (restr E.m fun j => E.zetak j * y j) d
            * E.cr (restr E.m fun j => E.zetak j * y j) d
            * E.cr (restr E.m fun j => E.zetak j * x j) d
        else 0) := by
    funext d
    by_cases hd : d < 2 * E.m
    · rw [if_pos hd, if_pos hd]
      ring
    · rw [if_neg hd, if_neg hd, mul_zero]
  have p2 : (fun d => if d < 2 * E.m then
        b * E.cro (restr E.m y) d * (b * E.cro (restr E.m y) d) * (a * E.cro (restr E.m x) d)
      else 0)
      = fun d => (a * b ^ 2) * (if d < 2 * E.m then
          E.cro (restr E.m y) d * E.cro (restr E.m y) d * E.cro (restr E.m x) d
        else 0) := by
    funext d
    by_cases hd : d < 2 * E.m
    · rw [if_pos hd, if_pos hd]
      ring
    · rw [if_neg hd, if_neg hd, mul_zero]
  rw [p1, p2, hrco (a * b ^ 2), hrco (a * b ^ 2)]
  ring

/-- The value of `output` depends on the first `m` entries of the two sequences only. -/
theorem hfgg_output_congr (E : ImplicitHFGGConvolution) (x y x2 y2 : Nat → ℂ)
    (hx : ∀ j, j < E.m → x j = x2 j) (hy : ∀ j, j < E.m → y j = y2 j) (k : Nat) :
    E.output x y k = E.output x2 y2 k := by
  have r1 : ∀ (z a b : Nat → ℂ), (∀ j, j < E.m → a j = b j) →
      (restr E.m fun j => z j * a j) = restr E.m fun j => z j * b j := by
    intro z a b h
    funext j
    unfold restr
    by_cases hj : j < E.m
    · rw [if_pos hj, if_pos hj]
      show z j * a j = z j * b j
      rw [h j hj]
    · rw [if_neg hj, if_neg hj]
  have r2 : ∀ (a b : Nat → ℂ), (∀ j, j < E.m → a j = b j) → restr E.m a = restr E.m b := by
    intro a b h
    funext j
    unfold restr
    by_cases hj : j < E.m
    · rw [if_pos hj, if_pos hj, h j hj]
    · rw [if_neg hj, if_neg hj]
  unfold ImplicitHFGGConvolution.output
  rw [r1 E.zetak x x2 hx, r1 E.zetak y y2 hy, r2 x x2 hx, r2 y y2 hy]

/-- The exact complex-to-real transform commutes with the multiplication by a real
number. -/
theorem crdft_scale (m : Nat) (a : ℝ) (X : Nat → ℂ) :
    crdft m (fun k => (a : ℂ) * X k) = fun d => a * crdft m X d := by
  funext l
  unfold crdft
  have h : ∀ k, (if 2 * k ≤ m then (a : ℂ) * X k else (starRingEnd ℂ) ((a : ℂ) * X (m - k)))
        * Complex.exp (2 * Real.pi * Complex.I * (l : ℂ) * (k : ℂ) / (m : ℂ))
      = (a : ℂ) * ((if 2 * k ≤ m then X k else (starRingEnd ℂ) (X (m - k)))
        * Complex.exp (2 * Real.pi * Complex.I * (l : ℂ) * (k : ℂ) / (m : ℂ))) := by
    intro k
    by_cases hk : 2 * k ≤ m
    · rw [if_pos hk, if_pos hk]
      ring
    · rw [if_neg hk, if_neg hk, map_mul, Complex.conj_ofReal]
      ring
  simp only [h]
  rw [← Finset.mul_sum, Complex.re_ofReal_mul]

/-- The exact real-to-complex transform commutes with the multiplication by a real
number. -/
theorem rcdft_scale (m : Nat) (a : ℝ) (y : Nat → ℝ) :
    rcdft m (fun d => a * y d) = fun k => (a : ℂ) * rcdft m y k := by
  funext k
  unfold rcdft
  rw [Finset.mul_sum]
  apply Finset.sum_congr rfl
  intro l _
  push_cast
  ring

/-- C32: on four buffers `f`, `g`, `u`, `v` of `m + 1` cells that are pairwise apart, with
transforms `cr`, `cro`, `rco` that commute with the multiplication by a real number (as every
real-linear map does), `ImplicitHFGGConvolution::convolve` returns and leaves in `f[k]`,
`k < m`, the value `conj(ninv*zeta_k) * rco(cr(zeta g)^2 * cr(zeta f))[k]
+ ninv * rco(cro(g)^2 * cro(f))[k]`, in both terms a product with `f` once and `g` twice; so
the output for the inputs `c*f`, `g` is `c` times, and the output for the inputs `f`, `c*g`
is `c^2` times the output for the inputs `f`, `g`, for every real `c`. -/
theorem hfgg_convolve_homogeneous (E : ImplicitHFGGConvolution) (hs : 0 < E.s)
    (f g u v : Nat) (c : ℝ) (μ μf μg : Mem)
    (hfg : NoOverlap f g (E.m + 1)) (hfu : NoOverlap f u (E.m + 1))
    (hfv : NoOverlap f v (E.m + 1)) (hgu : NoOverlap g u (E.m + 1))
    (hgv : NoOverlap g v (E.m + 1)) (huv : NoOverlap u v (E.m + 1))
    (hcr : ∀ (a : ℝ) (x : Nat → ℂ), E.cr (fun k => (a : ℂ) * x k) = fun d => a * E.cr x d)
    (hcro : ∀ (a : ℝ) (x : Nat → ℂ), E.cro (fun k => (a : ℂ) * x k) = fun d => a * E.cro x d)
    (hrco : ∀ (a : ℝ) (y : Nat → ℝ), E.rco (fun d => a * y d) = fun k => (a : ℂ) * E.rco y k)
    (hf1 : ∀ k, k < E.m → μf (f + k) = (c : ℂ) * μ (f + k))
    (hf2 : ∀ k, k < E.m → μf (g + k) = μ (g + k))
    (hg1 : ∀ k, k < E.m → μg (f + k) = μ (f + k))
    (hg2 : ∀ k, k < E.m → μg (g + k) = (c : ℂ) * μ (g + k)) :
    ∃ ν νf νg, E.convolve f g u v μ = some ν
      ∧ E.convolve f g u v μf = some νf
      ∧ E.convolve f g u v μg = some νg
      ∧ (∀ k, k < E.m →
          ν (f + k) = E.output (fun j => μ (f + j)) (fun j => μ (g + j)) k)
      ∧ (∀ k, k < E.m → νf (f + k) = (c : ℂ) * ν (f + k))
      ∧ (∀ k, k < E.m → νg (f + k) = (c : ℂ) ^ 2 * ν (f + k)) := by
  obtain ⟨ν, h1, o1⟩ := hfgg_convolve_output E hs f g u v μ hfg hfu hfv hgu hgv huv
  obtain ⟨νf, h2, o2⟩ := hfgg_convolve_output E hs f g u v μf hfg hfu hfv hgu hgv huv
  obtain ⟨νg, h3, o3⟩ := hfgg_convolve_output E hs f g u v μg hfg hfu hfv hgu hgv huv
  refine ⟨ν, νf, νg, h1, h2, h3, o1, ?_, ?_⟩
  · intro k hk
    rw [o2 k hk, o1 k hk,
      hfgg_output_congr E (fun j => μf (f + j)) (fun j => μf (g + j))
        (fun j => (c : ℂ) * μ (f + j)) (fun j => ((1 : ℝ) : ℂ) * μ (g + j))
        (fun j hj => hf1 j hj)
        (fun j hj => by
          show μf (g + j) = ((1 : ℝ) : ℂ) * μ (g + j)
          rw [hf2 j hj, Complex.ofReal_one, one_mul]) k,
      hfgg_output_scale E hcr hcro hrco c 1 (fun j => μ (f + j)) (fun j => μ (g + j)) k]
    norm_num
  · intro k hk
    rw [o3 k hk, o1 k hk,
      hfgg_output_congr E (fun j => μg (f + j)) (fun j => μg (g + j))
        (fun j => ((1 : ℝ) : ℂ) * μ (f + j)) (fun j => (c : ℂ) * μ (g + j))
        (fun j hj => by
          show μg (f + j) = ((1 : ℝ) : ℂ) * μ (f + j)
          rw [hg1 j hj, Complex.ofReal_one, one_mul])
        (fun j hj => hg2 j hj) k,
      hfgg_output_scale E hcr hcro hrco 1 c (fun j => μ (f + j)) (fun j => μ (g + j)) k]
    norm_num

/-- Witness of C32: `m = 1`, the exact transforms of real length 2, `f`, `g`, `u`, `v` at
0, 2, 4, 6, all cells 1, and `c = 2`. -/
theorem hfgg_convolve_homogeneous_witness :
    (0 < hfggExample.s ∧ NoOverlap 0 2 (hfggExample.m + 1)) ∧
    ∃ ν νf νg, hfggExample.convolve 0 2 4 6 (fun _ => 1) = some ν
      ∧ hfggExample.convolve 0 2 4 6 (fun a => if a = 0 then 2 else 1) = some νf
      ∧ hfggExample.convolve 0 2 4 6 (fun a => if a = 2 then 2 else 1) = some νg
      ∧ (∀ k, k < hfggExample.m →
          ν (0 + k) = hfggExample.output (fun j => (fun _ => (1 : ℂ)) (0 + j))
            (fun j => (fun _ => (1 : ℂ)) (2 + j)) k)
      ∧ (∀ k, k < hfggExample.m → νf (0 + k) = ((2 : ℝ) : ℂ) * ν (0 + k))
      ∧ (∀ k, k < hfggExample.m → νg (0 + k) = ((2 : ℝ) : ℂ) ^ 2 * ν (0 + k)) :=
  ⟨⟨by decide, by decide⟩,
    hfgg_convolve_homogeneous hfggExample (by decide) 0 2 4 6 2 (fun _ => 1)
      (fun a => if a = 0 then 2 else 1) (fun a => if a = 2 then 2 else 1)
      (by decide) (by decide) (by decide) (by decide) (by decide) (by decide)
      (crdft_scale 2) (crdft_scale 2) (rcdft_scale 2)
      (fun k hk => by
        have hk0 : k = 0 := Nat.lt_one_iff.mp hk
        subst hk0
        norm_num)
      (fun k hk => by
        have hk0 : k = 0 := Nat.lt_one_iff.mp hk
        subst hk0
        norm_num)
      (fun k hk => by
        have hk0 : k = 0 := Nat.lt_one_iff.mp hk
        subst hk0
        norm_num)
      (fun k hk => by
        have hk0 : k = 0 := Nat.lt_one_iff.mp hk
        subst hk0
        norm_num)⟩

/-! ## Operations that commute with the assignment to a cell they do not touch -/

/-- A loop whose rounds commute with `U` on the states of an invariant commutes with `U`. -/
theorem forUpTo_comm_inv {σ : Type} (U : σ → σ) (Inv : Nat → σ → Prop) (body : Nat → σ → σ)
    (n : Nat) (st : σ) (h0 : Inv 0 st)
    (hstep : ∀ k, k < n → ∀ st, Inv k st →
      Inv (k + 1) (body k st) ∧ body k (U st) = U (body k st)) :
    Inv n (forUpTo body n st) ∧ forUpTo body n (U st) = U (forUpTo body n st) := by
  induction n with
  | zero => exact ⟨h0, rfl⟩
  | succ n ih =>
    obtain ⟨i1, i2⟩ := ih (fun k hk => hstep k (by omega))
    obtain ⟨s1, s2⟩ := hstep n (by omega) _ i1
    refine ⟨s1, ?_⟩
    show body n (forUpTo body n (U st)) = U (body n (forUpTo body n st))
    rw [i2, s2]

theorem forUpTo_comm {σ : Type} (U : σ → σ) (body : Nat → σ → σ) (n : Nat)
    (h : ∀ k, k < n → ∀ st, body k (U st) = U (body k st)) (st : σ) :
    forUpTo body n (U st) = U (forUpTo body n st) :=
  (forUpTo_comm_inv U (fun _ _ => True) body n st trivial
    (fun k hk st _ => ⟨trivial, h k hk st⟩)).2

theorem forDownFrom_comm {σ : Type} (U : σ → σ) (body : Nat → σ → σ) (n : Nat)
    (h : ∀ k, k < n → ∀ st, body k (U st) = U (body k st)) (st : σ) :
    forDownFrom body n (U st) = U (forDownFrom body n st) := by
  induction n generalizing st with
  | zero => rfl
  | succ n ih =>
    show forDownFrom body n (body n (U st)) = U (forDownFrom body n (body n st))
    rw [h n (by omega), ih (fun k hk => h k (by omega))]

theorem forRange_comm {σ : Type} (U : σ → σ) (lo hi : Nat) (body : Nat → σ → σ)
    (h : ∀ k, lo ≤ k → k < hi → ∀ st, body k (U st) = U (body k st)) (st : σ) :
    forRange lo hi body (U st) = U (forRange lo hi body st) := by
  unfold forRange
  exact forUpTo_comm U _ _ (fun k hk st => h (lo + k) (by omega) (by omega) st) st

theorem forBlocks_comm {σ : Type} (U : σ → σ) (M s : Nat) (body : Nat → σ → σ)
    (h : ∀ K, K < M → ∀ st, body K (U st) = U (body K st)) (fuel K : Nat) (st : σ) :
    forBlocks M s body fuel K (U st) = (forBlocks M s body fuel K st).map U := by
  induction fuel generalizing K st with
  | zero =>
    unfold forBlocks
    by_cases hK : K < M
    · rw [if_pos hK, if_pos hK]
      rfl
    · rw [if_neg hK, if_neg hK]
      rfl
  | succ fuel ih =>
    unfold forBlocks
    by_cases hK : K < M
    · rw [if_pos hK, if_pos hK, h K hK, ih]
    · rw [if_neg hK, if_neg hK]
      rfl

/-- An operation that acts on a set of cells commutes with the assignment to a cell outside
the set. -/
theorem Acts.comm_update {op : Mem → Mem} {S : Nat → Prop} (h : Acts op S) (s : Nat)
    (hs : ¬ S s) (v : ℂ) (μ : Mem) :
    op (Function.update μ s v) = Function.update (op μ) s v := by
  funext a
  by_cases ha : a = s
  · subst ha
    rw [h.frame _ _ hs, Function.update_same, Function.update_same]
  · rw [Function.update_noteq ha]
    by_cases hS : S a
    · apply h.loc _ _ _ a hS
      intro b hb
      have : b ≠ s := fun e => hs (e ▸ hb)
      rw [Function.update_noteq this]
    · rw [h.frame _ _ hS, h.frame _ _ hS, Function.update_noteq ha]

theorem STORE_update (μ : Mem) (s p : Nat) (v x : ℂ) (h : p ≠ s) :
    STORE (Function.update μ s v) p x = Function.update (STORE μ p x) s v := by
  unfold STORE
  exact (Function.update_comm h x v μ).symm

theorem LOAD_update (μ : Mem) (s p : Nat) (v : ℂ) (h : p ≠ s) :
    LOAD (Function.update μ s v) p = LOAD μ p := by
  unfold LOAD
  exact Function.update_noteq h v μ

theorem loadD_update (μ : Mem) (s q j : Nat) (v : ℂ) (h : q + j / 2 ≠ s) :
    loadD (Function.update μ s v) q j = loadD μ q j := by
  unfold loadD
  rw [Function.update_noteq h]

theorem storeD_update (μ : Mem) (s q j : Nat) (v : ℂ) (x : ℝ) (h : q + j / 2 ≠ s) :
    storeD (Function.update μ s v) q j x = Function.update (storeD μ q j x) s v := by
  unfold storeD
  rw [Function.update_noteq h]
  exact (Function.update_comm h _ v μ).symm

/-- A complex-to-real transform whose input and output are apart from the cell `s` commutes
with the assignment to `s`. -/
theorem fftCR_update (T : TransformCR) (m inp out s : Nat) (v : ℂ) (μ : Mem)
    (hin : s < inp ∨ inp + (m / 2 + 1) ≤ s) (hout : s < out ∨ out + (m + 1) / 2 ≤ s) :
    fftCR T m inp out (Function.update μ s v)
      = Function.update (fftCR T m inp out μ) s v := by
  have harr : arr (m / 2 + 1) (Function.update μ s v) inp = arr (m / 2 + 1) μ inp := by
    apply arr_ext
    intro k hk
    rw [Function.update_noteq (by omega)]
  funext a
  by_cases ha : a = s
  · subst ha
    rw [Function.update_same, fftCR_frame _ _ _ _ _ _ hout, Function.update_same]
  · rw [Function.update_noteq ha]
    unfold fftCR
    rw [harr, Function.update_noteq ha]

/-- A real-to-complex transform whose input and output are apart from the cell `s` commutes
with the assignment to `s`. -/
theorem fftRC_update (T : TransformRC) (m inp out s : Nat) (v : ℂ) (μ : Mem)
    (hin : s < inp ∨ inp + (m + 1) / 2 ≤ s) (hout : s < out ∨ out + (m / 2 + 1) ≤ s) :
    fftRC T m inp out (Function.update μ s v)
      = Function.update (fftRC T m inp out μ) s v := by
  have harr : arrD m (Function.update μ s v) inp = arrD m μ inp := by
    apply arrD_congr
    intro j hj
    rw [loadD_update _ _ _ _ _ (by omega)]
  funext a
  by_cases ha : a = s
  · subst ha
    rw [Function.update_same, fftRC_frame _ _ _ _ _ _ hout, Function.update_same]
  · rw [Function.update_noteq ha]
    unfold fftRC
    rw [harr, Function.update_noteq ha]

/-- The real `multbinary` on two arrays of `m` doubles that are apart from the cell `s`
commutes with the assignment to `s`. -/
theorem multbinary_double_update (D : Ptrs) (m s : Nat) (v : ℂ) (μ : Mem)
    (h0 : s < D 0 ∨ D 0 + (m + 1) / 2 ≤ s) (h1 : s < D 1 ∨ D 1 + (m + 1) / 2 ≤ s) :
    multbinary_double D m (Function.update μ s v)
      = Function.update (multbinary_double D m μ) s v := by
  unfold multbinary_double
  apply forUpTo_comm (fun μ : Mem => Function.update μ s v)
  intro k hk st
  show storeD _ _ _ _ = _
  rw [loadD_update _ _ _ _ _ (by omega), loadD_update _ _ _ _ _ (by omega),
    storeD_update _ _ _ _ _ _ (by omega)]

/-! ## The cell past the end of an input of `ImplicitHConvolution::convolve` -/

/-- The blocked loop of `premult` commutes with the assignment to a cell outside the inputs
and the work arrays. -/
theorem premult_loop_update (E : ImplicitHConvolution) (hm : 1 ≤ E.m) (hc : E.c = E.m / 2)
    (P0 : Ptrs) (s : Nat) (v : ℂ) (μ : Mem)
    (hP : ∀ i, i < E.A → (s < P0 i ∨ P0 i + E.m ≤ s))
    (hU : ∀ i, i < E.A → (s < E.U i ∨ E.U i + (E.c + 1) ≤ s)) :
    E.premult_loop P0 (Function.update μ s v)
      = (E.premult_loop P0 μ).map (fun μ => Function.update μ s v) := by
  unfold ImplicitHConvolution.premult_loop
  refine forBlocks_comm (fun μ : Mem => Function.update μ s v) _ _ _ ?_ _ _ μ
  intro K hK st
  refine forUpTo_comm (fun μ : Mem => Function.update μ s v) _ _ ?_ st
  intro i hi st
  refine forRange_comm (fun μ : Mem => Function.update μ s v) _ _ _ ?_ st
  intro k hk1 hk2 st
  refine (premult_step_acts E (P0 i) (E.U i) k _ _).comm_update s ?_ v st
  have h1 := hP i hi
  have h2 := hU i hi
  unfold ImplicitHConvolution.touched
  omega

/-- The first `if(even)` block of `premult` does not read a cell outside the inputs. -/
theorem premult_even_update (E : ImplicitHConvolution) (hm : 1 ≤ E.m) (hc : E.c = E.m / 2)
    (heven : E.m = 2 * E.c) (P0 : Ptrs) (f1c : Nat → ℂ) (s : Nat) (v : ℂ) (μ : Mem)
    (hP : ∀ i, i < E.A → (s < P0 i ∨ P0 i + E.m ≤ s)) :
    E.premult_even P0 f1c (Function.update μ s v) = E.premult_even P0 f1c μ := by
  unfold ImplicitHConvolution.premult_even
  apply forUpTo_congr
  intro i hi
  have h1 := hP i hi
  funext st
  simp only [LOAD]
  rw [Function.update_noteq (show P0 i + 1 ≠ s by omega),
    Function.update_noteq (show P0 i + (E.m - 1) ≠ s by omega),
    Function.update_noteq (show P0 i + E.c ≠ s by omega)]

/-- The last `if(even)` block of `premult` commutes with the assignment to a cell outside
the inputs and the work arrays. -/
theorem premult_restore_update (E : ImplicitHConvolution) (hm : 1 ≤ E.m) (hc : E.c = E.m / 2)
    (P0 : Ptrs) (S : Nat → ℂ) (s : Nat) (v : ℂ) (μ : Mem)
    (hP : ∀ i, i < E.A → (s < P0 i ∨ P0 i + E.m ≤ s))
    (hU : ∀ i, i < E.A → (s < E.U i ∨ E.U i + (E.c + 1) ≤ s)) :
    E.premult_restore P0 S (Function.update μ s v)
      = Function.update (E.premult_restore P0 S μ) s v := by
  unfold ImplicitHConvolution.premult_restore
  refine forUpTo_comm (fun μ : Mem => Function.update μ s v) _ _ ?_ μ
  intro i hi st
  have h1 := hP i hi
  have h2 := hU i hi
  show STORE (STORE _ _ _) _ _ = _
  rw [STORE_update _ _ _ _ _ (by omega), STORE_update _ _ _ _ _ (by omega)]

/-- `premult` commutes with the assignment to a cell outside the inputs and the work
arrays, and its array `f1c` does not depend on that cell. -/
theorem premult_update (E : ImplicitHConvolution) (hm : 1 ≤ E.m) (hc : E.c = E.m / 2)
    (F : Ptrs) (offset : Nat) (f1c : Nat → ℂ) (s : Nat) (v : ℂ) (μ : Mem)
    (hF : ∀ i, i < E.A → (s < F i + offset ∨ F i + offset + E.m ≤ s))
    (hU : ∀ i, i < E.A → (s < E.U i ∨ E.U i + (E.c + 1) ≤ s)) :
    E.premult F offset f1c (Function.update μ s v)
      = (E.premult F offset f1c μ).map (fun st => (Function.update st.1 s v, st.2)) := by
  have hP : ∀ i, i < E.A →
      (s < forUpTo (fun i (P : Ptrs) => Function.update P i (F i + offset)) E.A (fun _ => 0) i
        ∨ forUpTo (fun i (P : Ptrs) => Function.update P i (F i + offset)) E.A (fun _ => 0) i
          + E.m ≤ s) := by
    intro i hi
    rw [pointers_apply (fun i => F i + offset) E.A _ i hi]
    exact hF i hi
  unfold ImplicitHConvolution.premult
  simp only []
  rw [premult_loop_update E hm hc _ s v μ hP hU, Option.map_map, Option.map_map]
  congr 1
  funext st
  by_cases heven : E.m = 2 * E.c
  · have hd : decide (E.m = 2 * E.c) = true := decide_eq_true heven
    simp only [hd, if_true, Function.comp]
    rw [premult_even_update E hm hc heven _ f1c s v μ hP,
      premult_restore_update E hm hc _ _ s v st hP hU]
  · have hd : decide (E.m = 2 * E.c) = false := decide_eq_false heven
    simp only [hd, Bool.false_eq_true, if_false, Function.comp]

/-- The pointer arrays that the first loop of `convolve` sets. -/
theorem convolve_pointers_apply (E : ImplicitHConvolution) (F : Ptrs) (offset : Nat)
    (J0 J1 J2 : Ptrs) (μ : Mem) (i : Nat) (hi : i < E.A) :
    (E.convolve_pointers_from F offset J0 J1 J2 μ).c0 i = F i + offset
      ∧ (E.convolve_pointers_from F offset J0 J1 J2 μ).c1 i = F i + offset + (E.m - 1 - E.c)
      ∧ (E.convolve_pointers_from F offset J0 J1 J2 μ).c2 i = E.U i := by
  unfold ImplicitHConvolution.convolve_pointers_from
  simp only []
  generalize E.A = n at hi
  induction n with
  | zero => omega
  | succ n ih =>
    simp only [forUpTo]
    by_cases h : i = n
    · subst h
      simp only [Function.update_same]
      exact ⟨trivial, trivial, trivial⟩
    · simp only [Function.update_noteq h]
      exact ih (by omega)

/-- With zeros past the ends of the pointer arrays, `convolve_from` is `convolve`. -/
theorem convolve_from_zero (E : ImplicitHConvolution) (F : Ptrs) (pmult : realmultiplier)
    (offset : Nat) (c1c0 : Nat → ℂ) (μ : Mem) :
    E.convolve_from F pmult offset c1c0 (fun _ => 0) (fun _ => 0) (fun _ => 0) μ
      = E.convolve F pmult offset c1c0 μ := rfl

/-- The first loop of `convolve` commutes with the assignment to a cell outside the inputs
and the work arrays. -/
theorem convolve_pointers_update (E : ImplicitHConvolution) (hm : 1 ≤ E.m)
    (F : Ptrs) (offset : Nat) (J0 J1 J2 : Ptrs) (s : Nat) (v : ℂ) (μ : Mem)
    (hF : ∀ i, i < E.A → (s < F i + offset ∨ F i + offset + E.m ≤ s))
    (hU : ∀ i, i < E.A → (s < E.U i ∨ E.U i + (E.c + 1) ≤ s)) :
    E.convolve_pointers_from F offset J0 J1 J2 (Function.update μ s v)
      = { c0 := (E.convolve_pointers_from F offset J0 J1 J2 μ).c0
          c1 := (E.convolve_pointers_from F offset J0 J1 J2 μ).c1
          c2 := (E.convolve_pointers_from F offset J0 J1 J2 μ).c2
          mem := Function.update (E.convolve_pointers_from F offset J0 J1 J2 μ).mem s v } := by
  unfold ImplicitHConvolution.convolve_pointers_from
  simp only []
  refine forUpTo_comm (fun st : HPointers =>
    { c0 := st.c0, c1 := st.c1, c2 := st.c2, mem := Function.update st.mem s v }) _ _ ?_
    { c0 := J0, c1 := J1, c2 := J2, mem := μ }
  intro i hi st
  have h1 := hF i hi
  have h2 := hU i hi
  simp only [if_true]
  rw [Function.update_noteq (show F i + offset ≠ s by omega),
    STORE_update _ _ _ _ _ (show E.U i ≠ s by omega)]

/-- The block `r=2` of `convolve` commutes with the assignment to a cell outside the work
arrays, for a multiplier that does. -/
theorem convolve_r2_update (E : ImplicitHConvolution) (hc : E.c = E.m / 2)
    (pmult : realmultiplier) (c2 : Ptrs) (s : Nat) (v : ℂ) (μ : Mem)
    (h2 : ∀ i, i < E.A → (s < c2 i ∨ c2 i + (E.c + 1) ≤ s))
    (hp : ∀ ν : Mem, pmult c2 E.m (Function.update ν s v)
      = Function.update (pmult c2 E.m ν) s v) :
    E.convolve_r2 pmult c2 (Function.update μ s v)
      = Function.update (E.convolve_r2 pmult c2 μ) s v := by
  unfold ImplicitHConvolution.convolve_r2
  simp only []
  rw [forUpTo_comm (fun μ : Mem => Function.update μ s v) _ _ (fun i hi st => by
    have h := h2 i hi
    exact fftCR_update _ _ _ _ s v st (by omega) (by omega)) μ]
  exact hp _

/-- The block `r=0` of `convolve` commutes with the assignment to a cell outside its inputs
and outputs, for a multiplier that does; the array `T` does not depend on that cell. -/
theorem convolve_r0_update (E : ImplicitHConvolution) (hm : 1 ≤ E.m)
    (pmult : realmultiplier) (oop : Bool) (c0 d0 : Ptrs) (s : Nat) (v : ℂ) (μ : Mem)
    (h0 : ∀ i, i < E.A → (s < c0 i ∨ c0 i + E.m ≤ s))
    (hd : ∀ i, i < E.A → (s < d0 i ∨ d0 i + (E.m + 1) / 2 ≤ s))
    (hp : ∀ ν : Mem, pmult d0 E.m (Function.update ν s v)
      = Function.update (pmult d0 E.m ν) s v) :
    E.convolve_r0 pmult oop c0 d0 (Function.update μ s v)
      = ((E.convolve_r0 pmult oop c0 d0 μ).1,
          Function.update (E.convolve_r0 pmult oop c0 d0 μ).2 s v) := by
  unfold ImplicitHConvolution.convolve_r0
  simp only [if_true]
  have key := forDownFrom_comm
    (fun st : (Nat → ℝ) × Mem => (st.1, Function.update st.2 s v))
    (fun i (st : (Nat → ℝ) × Mem) =>
      (Function.update st.1 i (st.2 (c0 i)).re,
        fftCR (if oop = true then E.cro else E.cr) E.m (c0 i) (d0 i) st.2)) E.A
    (fun i hi st => by
      have h1 := h0 i hi
      have h2 := hd i hi
      show (Function.update st.1 i (Function.update st.2 s v (c0 i)).re,
        fftCR _ E.m (c0 i) (d0 i) (Function.update st.2 s v)) = _
      rw [Function.update_noteq (show c0 i ≠ s by omega),
        fftCR_update _ _ _ _ s v st.2 (by omega) (by omega)])
    (fun _ => 0, μ)
  rw [key, hp]

/-- The block `r=1` of `convolve` commutes with the assignment to a cell outside its inputs
and outputs, for a multiplier that does; the array `c1c` does not depend on that cell. -/
theorem convolve_r1_update (E : ImplicitHConvolution) (hm : 1 ≤ E.m) (hc : E.c = E.m / 2)
    (pmult : realmultiplier) (oop : Bool) (c1 d1 : Ptrs) (T : Nat → ℝ) (c1c : Nat → ℂ)
    (s : Nat) (v : ℂ) (μ : Mem)
    (h1 : ∀ i, i < E.A → (s < c1 i ∨ c1 i + (E.c + 1) ≤ s))
    (hd : ∀ i, i < E.A → (s < d1 i ∨ d1 i + (E.m + 1) / 2 ≤ s))
    (hp : ∀ ν : Mem, pmult d1 E.m (Function.update ν s v)
      = Function.update (pmult d1 E.m ν) s v) :
    E.convolve_r1 pmult oop c1 d1 T c1c (Function.update μ s v)
      = ((E.convolve_r1 pmult oop c1 d1 T c1c μ).1,
          Function.update (E.convolve_r1 pmult oop c1 d1 T c1c μ).2 s v) := by
  unfold ImplicitHConvolution.convolve_r1
  simp only [if_true]
  by_cases heven : E.m = 2 * E.c
  · have hdec : decide (E.m = 2 * E.c) = true := decide_eq_true heven
    simp only [hdec, if_true]
    have key := forDownFrom_comm
      (fun st : (Nat → ℂ) × Mem => (st.1, Function.update st.2 s v))
      (fun i (st : (Nat → ℂ) × Mem) =>
        (Function.update st.1 i (STORE st.2 (c1 i) ((T i : ℝ) : ℂ) (c1 i + 1)),
          fftCR (if oop = true then E.cro else E.cr) E.m (c1 i) (d1 i)
            (STORE (STORE st.2 (c1 i) ((T i : ℝ) : ℂ)) (c1 i + 1) (st.1 i)))) E.A
      (fun i hi st => by
        have h2 := h1 i hi
        have h3 := hd i hi
        show (Function.update st.1 i
            (STORE (Function.update st.2 s v) (c1 i) ((T i : ℝ) : ℂ) (c1 i + 1)),
          fftCR _ E.m (c1 i) (d1 i)
            (STORE (STORE (Function.update st.2 s v) (c1 i) ((T i : ℝ) : ℂ)) (c1 i + 1)
              (st.1 i))) = _
        rw [STORE_update _ _ _ _ _ (show c1 i ≠ s by omega),
          STORE_update _ _ _ _ _ (show c1 i + 1 ≠ s by omega),
          Function.update_noteq (show c1 i + 1 ≠ s by omega),
          fftCR_update _ _ _ _ s v _ (by omega) (by omega)])
      (c1c, μ)
    rw [key, hp]
  · have hdec : decide (E.m = 2 * E.c) = false := decide_eq_false heven
    simp only [hdec, Bool.false_eq_true, if_false]
    have key := forDownFrom_comm
      (fun st : (Nat → ℂ) × Mem => (st.1, Function.update st.2 s v))
      (fun i (st : (Nat → ℂ) × Mem) =>
        (st.1, fftCR (if oop = true then E.cro else E.cr) E.m (c1 i) (d1 i)
            (STORE st.2 (c1 i) ((T i : ℝ) : ℂ)))) E.A
      (fun i hi st => by
        have h2 := h1 i hi
        have h3 := hd i hi
        show (st.1, fftCR _ E.m (c1 i) (d1 i)
            (STORE (Function.update st.2 s v) (c1 i) ((T i : ℝ) : ℂ))) = _
        rw [STORE_update _ _ _ _ _ (show c1 i ≠ s by omega),
          fftCR_update _ _ _ _ s v _ (by omega) (by omega)])
      (c1c, μ)
    rw [key, hp]

/-- The array `S` of `convolve` does not depend on a cell that is none of the cells
`d0[i][start]`. -/
theorem convolve_S_update (B : Nat) (d0 : Ptrs) (start s : Nat) (v : ℂ) (μ : Mem)
    (h : ∀ i, i < B → d0 i + start ≠ s) :
    forUpTo (fun i (S : Nat → ℂ) =>
        Function.update S i (Function.update μ s v (d0 i + start))) B (fun _ => 0)
      = forUpTo (fun i (S : Nat → ℂ) => Function.update S i (μ (d0 i + start))) B
          (fun _ => 0) := by
  apply forUpTo_congr
  intro i hi
  funext S
  rw [Function.update_noteq (h i hi)]

/-- The loop `Return to original space` of the out-of-place branch commutes with the
assignment to a cell outside its inputs and outputs, and ends with the pointer array
`c2[j] = c0[j+B]` for `j < B`. -/
theorem convolve_return_update (E : ImplicitHConvolution) (hm : 1 ≤ E.m) (hc : E.c = E.m / 2)
    (c0 c2 d0 d1 : Ptrs) (S : Nat → ℂ) (s : Nat) (v : ℂ) (μ : Mem)
    (h0 : ∀ i, i < E.B → (s < c0 i ∨ c0 i + (E.c + 1) ≤ s))
    (h0B : ∀ i, i < E.B → (s < c0 (i + E.B) ∨ c0 (i + E.B) + (E.c + 1) ≤ s))
    (h2 : ∀ i, i < E.B → (s < c2 i ∨ c2 i + (E.m + 1) / 2 ≤ s))
    (h2B : ∀ i, i < E.B → (s < c2 (E.B + i) ∨ c2 (E.B + i) + (E.c + 1) ≤ s))
    (hd0 : ∀ i, i < E.B → (s < d0 i ∨ d0 i + E.m ≤ s))
    (hd1 : ∀ i, i < E.B → (s < d1 i ∨ d1 i + (E.m + 1) / 2 ≤ s)) :
    (E.convolve_return c0 c2 d0 d1 S μ).1
        = (fun j => if j < E.B then c0 (j + E.B) else c2 j)
      ∧ E.convolve_return c0 c2 d0 d1 S (Function.update μ s v)
        = ((E.convolve_return c0 c2 d0 d1 S μ).1,
            Function.update (E.convolve_return c0 c2 d0 d1 S μ).2 s v) := by
  unfold ImplicitHConvolution.convolve_return
  simp only [if_true]
  have key := forUpTo_comm_inv
    (fun st : Ptrs × Mem => (st.1, Function.update st.2 s v))
    (fun k (st : Ptrs × Mem) => st.1 = fun j => if j < k then c0 (j + E.B) else c2 j)
    (fun i (st : Ptrs × Mem) =>
      (Function.update st.1 i (c0 (i + E.B)),
        STORE (fftRC E.rco E.m (st.1 i) (Function.update st.1 i (c0 (i + E.B)) i)
            (fftRC E.rco E.m (d0 i) (c0 i)
              (STORE (fftRC E.rco E.m (d1 i)
                (Function.update st.1 i (c0 (i + E.B)) (E.B + i)) st.2)
                (d0 i + (E.m - 1 - E.c)) (S i))))
          (c0 i)
          ((((fftRC E.rco E.m (st.1 i) (Function.update st.1 i (c0 (i + E.B)) i)
            (fftRC E.rco E.m (d0 i) (c0 i)
              (STORE (fftRC E.rco E.m (d1 i)
                (Function.update st.1 i (c0 (i + E.B)) (E.B + i)) st.2)
                (d0 i + (E.m - 1 - E.c)) (S i))) (c0 i)).re
            + (fftRC E.rco E.m (st.1 i) (Function.update st.1 i (c0 (i + E.B)) i)
            (fftRC E.rco E.m (d0 i) (c0 i)
              (STORE (fftRC E.rco E.m (d1 i)
                (Function.update st.1 i (c0 (i + E.B)) (E.B + i)) st.2)
                (d0 i + (E.m - 1 - E.c)) (S i)))
              (Function.update st.1 i (c0 (i + E.B)) (E.B + i))).re
            + (fftRC E.rco E.m (st.1 i) (Function.update st.1 i (c0 (i + E.B)) i)
            (fftRC E.rco E.m (d0 i) (c0 i)
              (STORE (fftRC E.rco E.m (d1 i)
                (Function.update st.1 i (c0 (i + E.B)) (E.B + i)) st.2)
                (d0 i + (E.m - 1 - E.c)) (S i)))
              (Function.update st.1 i (c0 (i + E.B)) i)).re)
            * (1.0 / (3.0 * (E.m : ℝ))) : ℝ) : ℂ)))
    E.B (c2, μ)
    (by
      show c2 = fun j => if j < 0 then c0 (j + E.B) else c2 j
      funext j
      rw [if_neg (by omega)])
    (by
      intro i hi st hinv0
      have hinv : ∀ j, st.1 j = if j < i then c0 (j + E.B) else c2 j :=
        fun j => congrFun hinv0 j
      have e1 : st.1 i = c2 i := by
        rw [hinv, if_neg (by omega)]
      have e2 : Function.update st.1 i (c0 (i + E.B)) i = c0 (i + E.B) :=
        Function.update_same _ _ _
      have e3 : Function.update st.1 i (c0 (i + E.B)) (E.B + i) = c2 (E.B + i) := by
        rw [Function.update_noteq (by omega), hinv, if_neg (by omega)]
      have a0 := h0 i hi
      have a0B := h0B i hi
      have a2 := h2 i hi
      have a2B := h2B i hi
      have ad0 := hd0 i hi
      have ad1 := hd1 i hi
      refine ⟨?_, ?_⟩
      · show Function.update st.1 i (c0 (i + E.B))
          = fun j => if j < i + 1 then c0 (j + E.B) else c2 j
        funext j
        by_cases hj : j = i
        · subst hj
          rw [Function.update_same, if_pos (by omega)]
        · rw [Function.update_noteq hj, hinv]
          by_cases hj2 : j < i
          · rw [if_pos hj2, if_pos (by omega)]
          · rw [if_neg hj2, if_neg (by omega)]
      · simp only [e1, e2, e3]
        have f1 := fftRC_update E.rco E.m (d1 i) (c2 (E.B + i)) s v st.2 (by omega) (by omega)
        have f2 := STORE_update (fftRC E.rco E.m (d1 i) (c2 (E.B + i)) st.2) s
          (d0 i + (E.m - 1 - E.c)) v (S i) (by omega)
        have f3 := fftRC_update E.rco E.m (d0 i) (c0 i) s v
          (STORE (fftRC E.rco E.m (d1 i) (c2 (E.B + i)) st.2)
            (d0 i + (E.m - 1 - E.c)) (S i)) (by omega) (by omega)
        have f4 := fftRC_update E.rco E.m (c2 i) (c0 (i + E.B)) s v
          (fftRC E.rco E.m (d0 i) (c0 i)
            (STORE (fftRC E.rco E.m (d1 i) (c2 (E.B + i)) st.2)
              (d0 i + (E.m - 1 - E.c)) (S i))) (by omega) (by omega)
        rw [f1, f2, f3, f4,
          Function.update_noteq (show c0 i ≠ s by omega),
          Function.update_noteq (show c2 (E.B + i) ≠ s by omega),
          Function.update_noteq (show c0 (i + E.B) ≠ s by omega),
          STORE_update _ _ _ _ _ (show c0 i ≠ s by omega)])
  exact ⟨key.1, key.2⟩

/-- The loop `Return to original space` of the in-place branch commutes with the assignment
to a cell outside the inputs and the work arrays; its array `c1c` does not depend on that
cell. -/
theorem convolve_return_inplace_update (E : ImplicitHConvolution) (hm : 1 ≤ E.m)
    (hc : E.c = E.m / 2) (c0 c1 c2 : Ptrs) (S c1c : Nat → ℂ) (s : Nat) (v : ℂ) (μ : Mem)
    (h0 : ∀ i, i < E.B → (s < c0 i ∨ c0 i + E.m ≤ s))
    (h1 : ∀ i, i < E.B → (s < c1 i ∨ c1 i + (E.c + 1) ≤ s))
    (h2 : ∀ i, i < E.B → (s < c2 i ∨ c2 i + (E.c + 1) ≤ s)) :
    E.convolve_return_inplace c0 c1 c2 S c1c (Function.update μ s v)
      = ((E.convolve_return_inplace c0 c1 c2 S c1c μ).1,
          Function.update (E.convolve_return_inplace c0 c1 c2 S c1c μ).2 s v) := by
  unfold ImplicitHConvolution.convolve_return_inplace
  simp only [if_true]
  by_cases heven : E.m = 2 * E.c
  · have hdec : decide (E.m = 2 * E.c) = true := decide_eq_true heven
    simp only [hdec, if_true]
    refine forUpTo_comm (fun st : (Nat → ℂ) × Mem => (st.1, Function.update st.2 s v))
      _ _ ?_ (c1c, μ)
    intro i hi st
    have a0 := h0 i hi
    have a1 := h1 i hi
    have a2 := h2 i hi
    simp only []
    have f1 := fftRC_update E.rc E.m (c2 i) (c2 i) s v st.2 (by omega) (by omega)
    have f2 := fftRC_update E.rc E.m (c1 i) (c1 i) s v
      (fftRC E.rc E.m (c2 i) (c2 i) st.2) (by omega) (by omega)
    rw [f1, f2, STORE_update _ _ _ _ _ (show c0 i + (E.m - 1 - E.c) ≠ s by omega),
      STORE_update _ _ _ _ _ (show c1 i + 1 ≠ s by omega),
      Function.update_noteq (show c1 i ≠ s by omega),
      Function.update_noteq (show c1 i + 1 ≠ s by omega),
      fftRC_update E.rc E.m (c0 i) (c0 i) s v _ (by omega) (by omega),
      Function.update_noteq (show c0 i ≠ s by omega),
      Function.update_noteq (show c2 i ≠ s by omega),
      STORE_update _ _ _ _ _ (show c0 i ≠ s by omega)]
  · have hdec : decide (E.m = 2 * E.c) = false := decide_eq_false heven
    simp only [hdec, Bool.false_eq_true, if_false]
    refine forUpTo_comm (fun st : (Nat → ℂ) × Mem => (st.1, Function.update st.2 s v))
      _ _ ?_ (c1c, μ)
    intro i hi st
    have a0 := h0 i hi
    have a1 := h1 i hi
    have a2 := h2 i hi
    simp only []
    have f1 := fftRC_update E.rc E.m (c2 i) (c2 i) s v st.2 (by omega) (by omega)
    have f2 := fftRC_update E.rc E.m (c1 i) (c1 i) s v
      (fftRC E.rc E.m (c2 i) (c2 i) st.2) (by omega) (by omega)
    rw [f1, f2, STORE_update _ _ _ _ _ (show c0 i + (E.m - 1 - E.c) ≠ s by omega),
      Function.update_noteq (show c1 i ≠ s by omega),
      fftRC_update E.rc E.m (c0 i) (c0 i) s v _ (by omega) (by omega),
      Function.update_noteq (show c0 i ≠ s by omega),
      Function.update_noteq (show c2 i ≠ s by omega),
      STORE_update _ _ _ _ _ (show c0 i ≠ s by omega)]

/-- The out-of-place `postmultadd` commutes with the assignment to a cell outside the arrays
it recombines. -/
theorem postmultadd_update (E : ImplicitHConvolution) (hm : 1 ≤ E.m) (hc : E.c = E.m / 2)
    (c2 c0 c2B : Ptrs) (s : Nat) (v : ℂ) (μ : Mem)
    (h0 : ∀ i, i < E.B → (s < c0 i ∨ c0 i + E.m ≤ s))
    (h2 : ∀ i, i < E.B → (s < c2 i ∨ c2 i + (E.c + 1) ≤ s))
    (h2B : ∀ i, i < E.B → (s < c2B i ∨ c2B i + (E.c + 1) ≤ s)) :
    E.postmultadd c2 c0 c2B (Function.update μ s v)
      = (E.postmultadd c2 c0 c2B μ).map (fun μ => Function.update μ s v) := by
  unfold ImplicitHConvolution.postmultadd
  refine forBlocks_comm (fun μ : Mem => Function.update μ s v) _ _ _ ?_ _ _ μ
  intro K hK st
  refine forUpTo_comm (fun μ : Mem => Function.update μ s v) _ _ ?_ st
  intro i hi st
  refine forRange_comm (fun μ : Mem => Function.update μ s v) _ _ _ ?_ st
  intro k hk1 hk2 st
  refine (postmultadd_step_acts E (c0 i) (c2 i) (c2B i) k _ _).comm_update s ?_ v st
  have a0 := h0 i hi
  have a2 := h2 i hi
  have a2B := h2B i hi
  unfold ImplicitHConvolution.recombined_cells
  omega

/-- A first part, a loop that may not come to an end, and a last part, each of which
commutes with `U`. -/
theorem pipeline_comm {σ : Type} (U : σ → σ) (P1 : σ → σ) (L : σ → Option σ) (P3 : σ → σ)
    (h1 : ∀ st, P1 (U st) = U (P1 st)) (h2 : ∀ st, L (U st) = (L st).map U)
    (h3 : ∀ st, P3 (U st) = U (P3 st)) (st : σ) :
    (L (P1 (U st))).map P3 = ((L (P1 st)).map P3).map U := by
  rw [h1, h2, Option.map_map, Option.map_map]
  congr 1
  funext x
  exact h3 x

set_option maxHeartbeats 1000000 in
/-- The in-place recombination `postmultadd0` commutes with the assignment to a cell outside
the inputs and the work arrays. -/
theorem postmultadd0_update (E : ImplicitHConvolution) (hm : 1 ≤ E.m) (hc : E.c = E.m / 2)
    (c2 c0 : Ptrs) (f1c : Nat → ℂ) (s : Nat) (v : ℂ) (μ : Mem)
    (h0 : ∀ i, i < E.B → (s < c0 i ∨ c0 i + E.m ≤ s))
    (h2 : ∀ i, i < E.B → (s < c2 i ∨ c2 i + (E.c + 1) ≤ s))
    (hU : ∀ i, i < E.B → (s < E.U i ∨ E.U i + (E.c + 1) ≤ s)) :
    E.postmultadd0 c2 c0 f1c (Function.update μ s v)
      = (E.postmultadd0 c2 c0 f1c μ).map (fun μ => Function.update μ s v) := by
  unfold ImplicitHConvolution.postmultadd0
  simp only []
  refine pipeline_comm (fun μ : Mem => Function.update μ s v)
    (fun μ => if decide (E.m = 2 * E.c) = true ∧ E.m > 2 then forUpTo _ _ μ else μ)
    (fun μ => forBlocks _ _ _ _ _ μ)
    (fun μ => if (E.c + 1) / 2 = E.c - (E.c + 1) / 2 + 1 then
      (if (E.c + 1) / 2 = 1 ∧ decide (E.m = 2 * E.c) = true then forUpTo _ _ μ
        else forUpTo _ _ μ) else μ)
    ?_ ?_ ?_ μ
  · intro st
    beta_reduce
    by_cases h : decide (E.m = 2 * E.c) = true ∧ E.m > 2
    · rw [if_pos h, if_pos h]
      have heven : E.m = 2 * E.c := of_decide_eq_true h.1
      have hm2 := h.2
      refine forUpTo_comm (fun μ : Mem => Function.update μ s v) _ _ ?_ st
      intro i hi st
      have a0 := h0 i hi
      have a2 := h2 i hi
      simp (disch := omega) only [LOAD, STORE_update, Function.update_noteq, ne_eq,
        not_false_eq_true]
    · rw [if_neg h, if_neg h]
  · intro st
    beta_reduce
    refine forBlocks_comm (fun μ : Mem => Function.update μ s v) _ _ _ ?_ _ _ st
    intro K hK st
    refine forUpTo_comm (fun μ : Mem => Function.update μ s v) _ _ ?_ st
    intro i hi st
    refine forRange_comm (fun μ : Mem => Function.update μ s v) _ _ _ ?_ st
    intro k hk1 hk2 st
    have a0 := h0 i hi
    have a2 := h2 i hi
    have hk3 : 1 ≤ k := le_trans (le_trans (Nat.le_add_left 1 _) (le_max_left _ _)) hk1
    have hk4 : k < E.c - (E.c + 1) / 2 + 1 := lt_of_lt_of_le hk2 (min_le_right _ _)
    simp (disch := omega) only [LOAD, STORE_update, Function.update_noteq, ne_eq,
      not_false_eq_true]
  · intro st
    beta_reduce
    by_cases h : (E.c + 1) / 2 = E.c - (E.c + 1) / 2 + 1
    · rw [if_pos h, if_pos h]
      by_cases h3 : (E.c + 1) / 2 = 1 ∧ decide (E.m = 2 * E.c) = true
      · rw [if_pos h3, if_pos h3]
        refine forUpTo_comm (fun μ : Mem => Function.update μ s v) _ _ ?_ st
        intro i hi st
        have a0 := h0 i hi
        have a2 := h2 i hi
        simp (disch := omega) only [LOAD, STORE_update, Function.update_noteq, ne_eq,
          not_false_eq_true]
      · rw [if_neg h3, if_neg h3]
        refine forUpTo_comm (fun μ : Mem => Function.update μ s v) _ _ ?_ st
        intro i hi st
        have a0 := h0 i hi
        have a2 := h2 i hi
        have a3 := hU i hi
        simp (disch := omega) only [LOAD, STORE_update, Function.update_noteq, ne_eq,
          not_false_eq_true]
    · rw [if_neg h, if_neg h]

set_option maxHeartbeats 1000000 in
/-- The part of `convolve` after `premult` commutes with the assignment to a cell outside
all the arrays that it reads or writes. -/
theorem hconvolve_tail_update (E : ImplicitHConvolution) (hm : 1 ≤ E.m) (hc : E.c = E.m / 2)
    (pmult : realmultiplier) (oop : Bool) (c0 c1 c2 d0 d1 : Ptrs) (c1c : Nat → ℂ)
    (s : Nat) (v : ℂ) (μ : Mem) (hBA : E.B ≤ E.A) (hoop : oop = true → 2 * E.B ≤ E.A)
    (t0 : ∀ i, i < E.A → (s < c0 i ∨ c0 i + E.m ≤ s))
    (t1 : ∀ i, i < E.A → (s < c1 i ∨ c1 i + (E.c + 1) ≤ s))
    (t2 : ∀ i, i < E.A → (s < c2 i ∨ c2 i + (E.c + 1) ≤ s))
    (td0 : ∀ i, i < E.A → (s < d0 i ∨ d0 i + (E.m + 1) / 2 ≤ s))
    (td1 : ∀ i, i < E.A → (s < d1 i ∨ d1 i + (E.m + 1) / 2 ≤ s))
    (tdB : ∀ i, i < E.B → (s < d0 i ∨ d0 i + E.m ≤ s))
    (tU : ∀ i, i < E.B → (s < E.U i ∨ E.U i + (E.c + 1) ≤ s))
    (hp2 : ∀ ν : Mem, pmult c2 E.m (Function.update ν s v)
      = Function.update (pmult c2 E.m ν) s v)
    (hp0 : ∀ ν : Mem, pmult d0 E.m (Function.update ν s v)
      = Function.update (pmult d0 E.m ν) s v)
    (hp1 : ∀ ν : Mem, pmult d1 E.m (Function.update ν s v)
      = Function.update (pmult d1 E.m ν) s v) :
    (if oop = true then
      E.postmultadd
        (E.convolve_return c0 c2 d0 d1
          (forUpTo (fun i (S : Nat → ℂ) => Function.update S i
            ((E.convolve_r0 pmult oop c0 d0
              (E.convolve_r2 pmult c2 (Function.update μ s v))).2 (d0 i + (E.m - 1 - E.c))))
            E.B (fun _ => 0))
          (E.convolve_r1 pmult oop c1 d1
            (E.convolve_r0 pmult oop c0 d0
              (E.convolve_r2 pmult c2 (Function.update μ s v))).1 c1c
            (E.convolve_r0 pmult oop c0 d0
              (E.convolve_r2 pmult c2 (Function.update μ s v))).2).2).1
        c0
        (fun i => (E.convolve_return c0 c2 d0 d1
          (forUpTo (fun i (S : Nat → ℂ) => Function.update S i
            ((E.convolve_r0 pmult oop c0 d0
              (E.convolve_r2 pmult c2 (Function.update μ s v))).2 (d0 i + (E.m - 1 - E.c))))
            E.B (fun _ => 0))
          (E.convolve_r1 pmult oop c1 d1
            (E.convolve_r0 pmult oop c0 d0
              (E.convolve_r2 pmult c2 (Function.update μ s v))).1 c1c
            (E.convolve_r0 pmult oop c0 d0
              (E.convolve_r2 pmult c2 (Function.update μ s v))).2).2).1 (E.B + i))
        (E.convolve_return c0 c2 d0 d1
          (forUpTo (fun i (S : Nat → ℂ) => Function.update S i
            ((E.convolve_r0 pmult oop c0 d0
              (E.convolve_r2 pmult c2 (Function.update μ s v))).2 (d0 i + (E.m - 1 - E.c))))
            E.B (fun _ => 0))
          (E.convolve_r1 pmult oop c1 d1
            (E.convolve_r0 pmult oop c0 d0
              (E.convolve_r2 pmult c2 (Function.update μ s v))).1 c1c
            (E.convolve_r0 pmult oop c0 d0
              (E.convolve_r2 pmult c2 (Function.update μ s v))).2).2).2
    else
      E.postmultadd0 c2 c0
        (E.convolve_return_inplace c0 c1 c2
          (forUpTo (fun i (S : Nat → ℂ) => Function.update S i
            ((E.convolve_r0 pmult oop c0 d0
              (E.convolve_r2 pmult c2 (Function.update μ s v))).2 (d0 i + (E.m - 1 - E.c))))
            E.B (fun _ => 0))
          (E.convolve_r1 pmult oop c1 d1
            (E.convolve_r0 pmult oop c0 d0
              (E.convolve_r2 pmult c2 (Function.update μ s v))).1 c1c
            (E.convolve_r0 pmult oop c0 d0
              (E.convolve_r2 pmult c2 (Function.update μ s v))).2).1
          (E.convolve_r1 pmult oop c1 d1
            (E.convolve_r0 pmult oop c0 d0
              (E.convolve_r2 pmult c2 (Function.update μ s v))).1 c1c
            (E.convolve_r0 pmult oop c0 d0
              (E.convolve_r2 pmult c2 (Function.update μ s v))).2).2).1
        (E.convolve_return_inplace c0 c1 c2
          (forUpTo (fun i (S : Nat → ℂ) => Function.update S i
            ((E.convolve_r0 pmult oop c0 d0
              (E.convolve_r2 pmult c2 (Function.update μ s v))).2 (d0 i + (E.m - 1 - E.c))))
            E.B (fun _ => 0))
          (E.convolve_r1 pmult oop c1 d1
            (E.convolve_r0 pmult oop c0 d0
              (E.convolve_r2 pmult c2 (Function.update μ s v))).1 c1c
            (E.convolve_r0 pmult oop c0 d0
              (E.convolve_r2 pmult c2 (Function.update μ s v))).2).1
          (E.convolve_r1 pmult oop c1 d1
            (E.convolve_r0 pmult oop c0 d0
              (E.convolve_r2 pmult c2 (Function.update μ s v))).1 c1c
            (E.convolve_r0 pmult oop c0 d0
              (E.convolve_r2 pmult c2 (Function.update μ s v))).2).2).2)
    = (if oop = true then
      E.postmultadd
        (E.convolve_return c0 c2 d0 d1
          (forUpTo (fun i (S : Nat → ℂ) => Function.update S i
            ((E.convolve_r0 pmult oop c0 d0
              (E.convolve_r2 pmult c2 μ)).2 (d0 i + (E.m - 1 - E.c))))
            E.B (fun _ => 0))
          (E.convolve_r1 pmult oop c1 d1
            (E.convolve_r0 pmult oop c0 d0 (E.convolve_r2 pmult c2 μ)).1 c1c
            (E.convolve_r0 pmult oop c0 d0 (E.convolve_r2 pmult c2 μ)).2).2).1
        c0
        (fun i => (E.convolve_return c0 c2 d0 d1
          (forUpTo (fun i (S : Nat → ℂ) => Function.update S i
            ((E.convolve_r0 pmult oop c0 d0
              (E.convolve_r2 pmult c2 μ)).2 (d0 i + (E.m - 1 - E.c))))
            E.B (fun _ => 0))
          (E.convolve_r1 pmult oop c1 d1
            (E.convolve_r0 pmult oop c0 d0 (E.convolve_r2 pmult c2 μ)).1 c1c
            (E.convolve_r0 pmult oop c0 d0 (E.convolve_r2 pmult c2 μ)).2).2).1 (E.B + i))
        (E.convolve_return c0 c2 d0 d1
          (forUpTo (fun i (S : Nat → ℂ) => Function.update S i
            ((E.convolve_r0 pmult oop c0 d0
              (E.convolve_r2 pmult c2 μ)).2 (d0 i + (E.m - 1 - E.c))))
            E.B (fun _ => 0))
          (E.convolve_r1 pmult oop c1 d1
            (E.convolve_r0 pmult oop c0 d0 (E.convolve_r2 pmult c2 μ)).1 c1c
            (E.convolve_r0 pmult oop c0 d0 (E.convolve_r2 pmult c2 μ)).2).2).2
    else
      E.postmultadd0 c2 c0
        (E.convolve_return_inplace c0 c1 c2
          (forUpTo (fun i (S : Nat → ℂ) => Function.update S i
            ((E.convolve_r0 pmult oop c0 d0
              (E.convolve_r2 pmult c2 μ)).2 (d0 i + (E.m - 1 - E.c))))
            E.B (fun _ => 0))
          (E.convolve_r1 pmult oop c1 d1
            (E.convolve_r0 pmult oop c0 d0 (E.convolve_r2 pmult c2 μ)).1 c1c
            (E.convolve_r0 pmult oop c0 d0 (E.convolve_r2 pmult c2 μ)).2).1
          (E.convolve_r1 pmult oop c1 d1
            (E.convolve_r0 pmult oop c0 d0 (E.convolve_r2 pmult c2 μ)).1 c1c
            (E.convolve_r0 pmult oop c0 d0 (E.convolve_r2 pmult c2 μ)).2).2).1
        (E.convolve_return_inplace c0 c1 c2
          (forUpTo (fun i (S : Nat → ℂ) => Function.update S i
            ((E.convolve_r0 pmult oop c0 d0
              (E.convolve_r2 pmult c2 μ)).2 (d0 i + (E.m - 1 - E.c))))
            E.B (fun _ => 0))
          (E.convolve_r1 pmult oop c1 d1
            (E.convolve_r0 pmult oop c0 d0 (E.convolve_r2 pmult c2 μ)).1 c1c
            (E.convolve_r0 pmult oop c0 d0 (E.convolve_r2 pmult c2 μ)).2).1
          (E.convolve_r1 pmult oop c1 d1
            (E.convolve_r0 pmult oop c0 d0 (E.convolve_r2 pmult c2 μ)).1 c1c
            (E.convolve_r0 pmult oop c0 d0 (E.convolve_r2 pmult c2 μ)).2).2).2).map
        (fun μ => Function.update μ s v) := by
  rw [convolve_r2_update E hc pmult c2 s v μ t2 hp2]
  generalize E.convolve_r2 pmult c2 μ = μ2
  rw [convolve_r0_update E hm pmult oop c0 d0 s v μ2 t0 td0 hp0]
  generalize E.convolve_r0 pmult oop c0 d0 μ2 = Tmem
  simp only []
  rw [convolve_S_update E.B d0 (E.m - 1 - E.c) s v Tmem.2 (fun i hi => by
    have := tdB i hi
    omega)]
  generalize forUpTo (fun i (S : Nat → ℂ) =>
    Function.update S i (Tmem.2 (d0 i + (E.m - 1 - E.c)))) E.B (fun _ => 0) = S
  rw [convolve_r1_update E hm hc pmult oop c1 d1 Tmem.1 c1c s v Tmem.2 t1 td1 hp1]
  generalize E.convolve_r1 pmult oop c1 d1 Tmem.1 c1c Tmem.2 = c1cmem
  simp only []
  by_cases ho : oop = true
  · have hAB := hoop ho
    rw [if_pos ho, if_pos ho]
    obtain ⟨r1, r2⟩ := convolve_return_update E hm hc c0 c2 d0 d1 S s v c1cmem.2
      (fun i hi => by
        have := t0 i (by omega)
        omega)
      (fun i hi => by
        have := t0 (i + E.B) (by omega)
        omega)
      (fun i hi => by
        have := t2 i (by omega)
        omega)
      (fun i hi => t2 (E.B + i) (by omega))
      tdB
      (fun i hi => td1 i (by omega))
    rw [r2]
    simp only []
    apply postmultadd_update E hm hc _ c0 _ s v _ (fun i hi => t0 i (by omega))
    · intro i hi
      rw [r1]
      simp only []
      rw [if_pos hi]
      have := t0 (i + E.B) (by omega)
      omega
    · intro i hi
      rw [r1]
      simp only []
      rw [if_neg (by omega)]
      exact t2 (E.B + i) (by omega)
  · rw [if_neg ho, if_neg ho]
    rw [convolve_return_inplace_update E hm hc c0 c1 c2 S c1cmem.1 s v c1cmem.2
      (fun i hi => t0 i (by omega)) (fun i hi => t1 i (by omega))
      (fun i hi => t2 i (by omega))]
    simp only []
    exact postmultadd0_update E hm hc c2 c0 _ s v _ (fun i hi => t0 i (by omega))
      (fun i hi => t2 i (by omega)) tU

/-- The pointer array `d0` (`d1`) of the out-of-place branch: `d[i] = c[i+1]` for `i < A-1`
and `d[A-1] = c2[A-1]`. -/
theorem convolve_outputs_apply (E : ImplicitHConvolution) (c c2 : Ptrs) (i : Nat) :
    (i + 1 < E.A → E.convolve_outputs true c c2 i = c (i + 1))
      ∧ (i + 1 = E.A → E.convolve_outputs true c c2 i = c2 i) := by
  unfold ImplicitHConvolution.convolve_outputs
  rw [if_pos rfl]
  constructor
  · intro h
    rw [Function.update_noteq (by omega),
      pointers_apply (fun i => c (i + 1)) (E.A - 1) _ i (by omega)]
  · intro h
    have e : i = E.A - 1 := by omega
    rw [e, Function.update_same]

/-- `ImplicitHConvolution::convolve` returns when the block size `s` is positive, whatever
lies past the ends of its pointer arrays. -/
theorem hconvolve_returns (E : ImplicitHConvolution) (hs : 0 < E.s) (F : Ptrs)
    (pmult : realmultiplier) (offset : Nat) (c1c0 : Nat → ℂ) (J0 J1 J2 : Ptrs) (μ : Mem) :
    ∃ ν, E.convolve_from F pmult offset c1c0 J0 J1 J2 μ = some ν := by
  have hpre : ∀ μ, ∃ st, E.premult F offset c1c0 μ = some st := by
    intro μ
    unfold ImplicitHConvolution.premult ImplicitHConvolution.premult_loop
    simp only []
    rw [forBlocks_eq_blocks _ _ hs]
    exact ⟨_, rfl⟩
  have hpost : ∀ c2 c0 c2B μ, ∃ ν, E.postmultadd c2 c0 c2B μ = some ν := by
    intro c2 c0 c2B μ
    unfold ImplicitHConvolution.postmultadd
    simp only []
    rw [forBlocks_eq_blocks _ _ hs]
    exact ⟨_, rfl⟩
  have hpost0 : ∀ c2 c0 f1c μ, ∃ ν, E.postmultadd0 c2 c0 f1c μ = some ν := by
    intro c2 c0 f1c μ
    unfold ImplicitHConvolution.postmultadd0
    simp only []
    rw [forBlocks_eq_blocks _ _ hs]
    exact ⟨_, rfl⟩
  unfold ImplicitHConvolution.convolve_from
  simp only []
  obtain ⟨st, hst⟩ := hpre (E.convolve_pointers_from F offset J0 J1 J2 μ).mem
  rw [hst, Option.some_bind]
  by_cases ho : decide (E.A ≥ 2 * E.B) = true
  · rw [if_pos ho]
    exact hpost _ _ _ _
  · rw [if_neg ho]
    exact hpost0 _ _ _ _

set_option maxHeartbeats 1000000 in
/-- For `B ≤ A`, `ImplicitHConvolution::convolve` commutes with the assignment to a cell `s`
outside the `m` cells of every input and the `c + 1` cells of every work array, for a
multiplier that commutes with it on arrays apart from `s`, whatever lies past the ends of
its pointer arrays. -/
theorem hconvolve_update (E : ImplicitHConvolution) (hm : 1 ≤ E.m) (hc : E.c = E.m / 2)
    (hBA : E.B ≤ E.A) (F : Ptrs) (pmult : realmultiplier) (offset : Nat) (c1c0 : Nat → ℂ)
    (J0 J1 J2 : Ptrs) (s : Nat) (v : ℂ) (μ : Mem)
    (hF : ∀ i, i < E.A → (s < F i + offset ∨ F i + offset + E.m ≤ s))
    (hU : ∀ i, i < E.A → (s < E.U i ∨ E.U i + (E.c + 1) ≤ s))
    (hp : ∀ (D : Ptrs) (ν : Mem), (∀ j, j < E.A → (s < D j ∨ D j + (E.m + 1) / 2 ≤ s)) →
      pmult D E.m (Function.update ν s v) = Function.update (pmult D E.m ν) s v) :
    E.convolve_from F pmult offset c1c0 J0 J1 J2 (Function.update μ s v)
      = (E.convolve_from F pmult offset c1c0 J0 J1 J2 μ).map
          (fun μ => Function.update μ s v) := by
  have hP := fun i hi => convolve_pointers_apply E F offset J0 J1 J2 μ i hi
  unfold ImplicitHConvolution.convolve_from
  simp only []
  rw [convolve_pointers_update E hm F offset J0 J1 J2 s v μ hF hU]
  simp only []
  rw [premult_update E hm hc F offset c1c0 s v _ hF hU]
  generalize E.convolve_pointers_from F offset J0 J1 J2 μ = P at hP ⊢
  have t0 : ∀ i, i < E.A → (s < P.c0 i ∨ P.c0 i + E.m ≤ s) := by
    intro i hi
    rw [(hP i hi).1]
    exact hF i hi
  have t1 : ∀ i, i < E.A → (s < P.c1 i ∨ P.c1 i + (E.c + 1) ≤ s) := by
    intro i hi
    rw [(hP i hi).2.1]
    have := hF i hi
    omega
  have t2 : ∀ i, i < E.A → (s < P.c2 i ∨ P.c2 i + (E.c + 1) ≤ s) := by
    intro i hi
    rw [(hP i hi).2.2]
    exact hU i hi
  have td : ∀ (c : Ptrs) (n : Nat), n ≤ E.m → (E.m + 1) / 2 ≤ n →
      (∀ i, i < E.A → (s < c i ∨ c i + n ≤ s)) →
      ∀ i, i < E.A →
        (s < E.convolve_outputs (decide (E.A ≥ 2 * E.B)) c P.c2 i
        ∨ E.convolve_outputs (decide (E.A ≥ 2 * E.B)) c P.c2 i + (E.m + 1) / 2 ≤ s) := by
    intro c n hn1 hn2 hcc i hi
    by_cases ho : E.A ≥ 2 * E.B
    · rw [decide_eq_true ho]
      obtain ⟨o1, o2⟩ := convolve_outputs_apply E c P.c2 i
      by_cases hi2 : i + 1 < E.A
      · rw [o1 hi2]
        have := hcc (i + 1) hi2
        omega
      · rw [o2 (by omega)]
        have := t2 i hi
        omega
    · rw [decide_eq_false ho]
      unfold ImplicitHConvolution.convolve_outputs
      rw [if_neg (by decide)]
      have := hcc i hi
      omega
  have td0 := td P.c0 E.m (le_refl _) (by omega) t0
  have td1 := td P.c1 (E.c + 1) (by omega) (by omega) t1
  have tdB : ∀ i, i < E.B →
      (s < E.convolve_outputs (decide (E.A ≥ 2 * E.B)) P.c0 P.c2 i
        ∨ E.convolve_outputs (decide (E.A ≥ 2 * E.B)) P.c0 P.c2 i + E.m ≤ s) := by
    intro i hi
    by_cases ho : E.A ≥ 2 * E.B
    · rw [decide_eq_true ho]
      rw [(convolve_outputs_apply E _ P.c2 i).1 (by omega)]
      exact t0 (i + 1) (by omega)
    · rw [decide_eq_false ho]
      unfold ImplicitHConvolution.convolve_outputs
      rw [if_neg (by decide)]
      exact t0 i (by omega)
  cases hx : E.premult F offset c1c0 P.mem with
  | none => rfl
  | some st =>
    simp only [Option.map_some', Option.some_bind]
    exact hconvolve_tail_update E hm hc pmult (decide (E.A ≥ 2 * E.B)) P.c0 P.c1 P.c2 _ _
      st.2 s v st.1 hBA (fun h => of_decide_eq_true h) t0 t1 t2 td0 td1 tdB
      (fun i hi => hU i (by omega))
      (fun ν => hp _ ν (fun j hj => by
        have := t2 j hj
        omega))
      (fun ν => hp _ ν td0)
      (fun ν => hp _ ν td1)

/-- For `m ≥ 1`, `c = floor(m/2)`, a positive block size, `B ≤ A` and an input `i < A`: when
the cell `F[i][offset + m]` lies outside the `m` cells `F[j][offset..offset+m)` of every
input and outside the `c + 1` cells of every work array `U[j]`, and the caller's multiplier
neither reads nor writes that cell on arrays apart from it, `ImplicitHConvolution::convolve`
(with `premult`, `postmultadd`, `postmultadd0` and the transforms, which read and write
their arrays only) returns, leaves the cell as it was, and with any other value `v` stored
in the cell beforehand it returns the same memory, up to that cell, which then still holds
`v`; this whatever lies past the ends of the pointer arrays. -/
theorem hconvolve_nyquist_untouched (E : ImplicitHConvolution) (hm : 1 ≤ E.m)
    (hc : E.c = E.m / 2) (hs : 0 < E.s) (hBA : E.B ≤ E.A) (F : Ptrs)
    (pmult : realmultiplier) (offset : Nat) (c1c0 : Nat → ℂ) (J0 J1 J2 : Ptrs) (i : Nat)
    (hi : i < E.A) (μ : Mem)
    (hF : ∀ j, j < E.A →
      (F i + offset + E.m < F j + offset ∨ F j + offset + E.m ≤ F i + offset + E.m))
    (hU : ∀ j, j < E.A →
      (F i + offset + E.m < E.U j ∨ E.U j + (E.c + 1) ≤ F i + offset + E.m))
    (hp : ∀ (D : Ptrs) (ν : Mem) (v : ℂ),
      (∀ j, j < E.A →
        (F i + offset + E.m < D j ∨ D j + (E.m + 1) / 2 ≤ F i + offset + E.m)) →
      pmult D E.m (Function.update ν (F i + offset + E.m) v)
        = Function.update (pmult D E.m ν) (F i + offset + E.m) v) :
    ∃ ν, E.convolve_from F pmult offset c1c0 J0 J1 J2 μ = some ν
      ∧ ν (F i + offset + E.m) = μ (F i + offset + E.m)
      ∧ ∀ v, E.convolve_from F pmult offset c1c0 J0 J1 J2
            (Function.update μ (F i + offset + E.m) v)
          = some (Function.update ν (F i + offset + E.m) v) := by
  have hA : 1 ≤ E.A := Nat.succ_le_of_lt (Nat.lt_of_le_of_lt (Nat.zero_le i) hi)
  obtain ⟨ν, hν⟩ := hconvolve_returns E hs F pmult offset c1c0 J0 J1 J2 μ
  have key : ∀ v, E.convolve_from F pmult offset c1c0 J0 J1 J2
        (Function.update μ (F i + offset + E.m) v)
      = some (Function.update ν (F i + offset + E.m) v) := by
    intro v
    rw [hconvolve_update E hm hc hBA F pmult offset c1c0 J0 J1 J2 (F i + offset + E.m) v μ
      hF hU (fun D ν h => hp D ν v h), hν]
    rfl
  refine ⟨ν, hν, ?_, key⟩
  have h1 := key (μ (F i + offset + E.m))
  rw [Function.update_eq_self, hν] at h1
  have h2 := congrFun (Option.some.inj h1) (F i + offset + E.m)
  rw [Function.update_same] at h2
  exact h2

/-- An instance: `m = 2`, `A = 2`, `B = 1`, the inputs at 0 and 3, the work arrays at 6 and
8, the real `multbinary`, zeros past the ends of the pointer arrays, and the cell 2 past the
end of the first input. -/
theorem hconvolve_nyquist_untouched_example :
    (1 ≤ (ImplicitHConvolution.init 2 2 1 (ptrs [6, 8]) (crdft 2) (rcdft 2)).m
      ∧ (ImplicitHConvolution.init 2 2 1 (ptrs [6, 8]) (crdft 2) (rcdft 2)).B
        ≤ (ImplicitHConvolution.init 2 2 1 (ptrs [6, 8]) (crdft 2) (rcdft 2)).A) ∧
    ∃ ν, (ImplicitHConvolution.init 2 2 1 (ptrs [6, 8]) (crdft 2) (rcdft 2)).convolve
          (ptrs [0, 3]) multbinary_double 0 (fun _ => 0) (fun _ => 1) = some ν
      ∧ ν (ptrs [0, 3] 0 + 0
          + (ImplicitHConvolution.init 2 2 1 (ptrs [6, 8]) (crdft 2) (rcdft 2)).m)
        = (fun _ => (1 : ℂ)) (ptrs [0, 3] 0 + 0
          + (ImplicitHConvolution.init 2 2 1 (ptrs [6, 8]) (crdft 2) (rcdft 2)).m)
      ∧ ∀ v, (ImplicitHConvolution.init 2 2 1 (ptrs [6, 8]) (crdft 2) (rcdft 2)).convolve
          (ptrs [0, 3]) multbinary_double 0 (fun _ => 0)
          (Function.update (fun _ => 1) (ptrs [0, 3] 0 + 0
            + (ImplicitHConvolution.init 2 2 1 (ptrs [6, 8]) (crdft 2) (rcdft 2)).m) v)
          = some (Function.update ν (ptrs [0, 3] 0 + 0
            + (ImplicitHConvolution.init 2 2 1 (ptrs [6, 8]) (crdft 2) (rcdft 2)).m) v) :=
  ⟨⟨by decide, by decide⟩,
    hconvolve_nyquist_untouched
      (ImplicitHConvolution.init 2 2 1 (ptrs [6, 8]) (crdft 2) (rcdft 2))
      (by decide) rfl (show 0 < Nat.sqrt (2 / 2 + 2) from Nat.sqrt_pos.mpr (by decide))
      (by decide) (ptrs [0, 3]) multbinary_double 0 (fun _ => 0) (fun _ => 0) (fun _ => 0)
      (fun _ => 0) 0 (by decide) (fun _ => 1)
      (by decide) (by decide)
      (fun D ν v h => multbinary_double_update D _ _ v ν (h 0 (by decide)) (h 1 (by decide)))⟩

/-! ## More outputs than inputs in `ImplicitHConvolution::convolve` -/

end fftwpp
